import Mathlib

/-!
# rieMiner candidate-generation pipeline: shallow embedding of `Miner.cpp` / `Miner.hpp`

Conventions of the embedding.

* `uint64_t` quantities whose values cannot wrap in the modelled range are natural numbers;
  narrower stores (`uint32_t` offsets, `uint8_t` bytes and counters) carry an explicit
  reduction modulo `2 ^ w`.
* `mpz_class` values are integers (`Int`) where a sign can occur, natural numbers otherwise.
* `std::vector` is `List`; raw C arrays addressed through pointers are functions `Nat → Nat`.
* Loops are structurally recursive on a fuel argument; every result below is stated for
  the amount of fuel the enclosing definition supplies.
-/

namespace RieMiner

/-! ## Prime table (`Miner::init`, sieve of Eratosthenes over the odd numbers) -/

/-- The test `v[n >> 3] & (1 << (n & 7))` on a byte vector, as a Boolean. -/
def bitTest (v : List Nat) (n : Nat) : Bool :=
  (v.getD (n >>> 3) 0) &&& (1 <<< (n &&& 7)) != 0

/-- The store `v[n >> 3] |= 1 << (n & 7)` on a vector of `uint8_t`. -/
def bitMark (v : List Nat) (n : Nat) : List Nat :=
  v.set (n >>> 3) ((v.getD (n >>> 3) 0 ||| (1 <<< (n &&& 7))) % 256)

/-- Inner loop of the sieve:
`for (nComposite = (nFactor*nFactor) >> 1; nComposite < (limit >> 1); nComposite += nFactor)`. -/
def sieveInner (limit nFactor : Nat) : Nat → Nat → List Nat → List Nat
  | 0, _, vf => vf
  | fuel + 1, nComposite, vf =>
    if nComposite < limit >>> 1 then
      sieveInner limit nFactor fuel (nComposite + nFactor) (bitMark vf nComposite)
    else vf

/-- Outer loop of the sieve:
`for (nFactor = 3; nFactor*nFactor < limit; nFactor += 2)`, skipping marked factors.
The test `vfComposite[nFactor >> 4] & (1 << ((nFactor >> 1) & 7))` is spelled out. -/
def sieveOuter (limit : Nat) : Nat → Nat → List Nat → List Nat
  | 0, _, vf => vf
  | fuel + 1, nFactor, vf =>
    if nFactor * nFactor < limit then
      if (vf.getD (nFactor >>> 4) 0) &&& (1 <<< ((nFactor >>> 1) &&& 7)) != 0 then
        sieveOuter limit fuel (nFactor + 2) vf
      else
        sieveOuter limit fuel (nFactor + 2)
          (sieveInner limit nFactor limit ((nFactor * nFactor) >>> 1) vf)
    else vf

/-- Collection loop: `for (n = 1; (n << 1) + 1 < limit; n++)`, pushing `(n << 1) + 1`
for every unmarked `n`. -/
def collectPrimes (limit : Nat) (vf : List Nat) : Nat → Nat → List Nat → List Nat
  | 0, _, primes => primes
  | fuel + 1, n, primes =>
    if (n <<< 1) + 1 < limit then
      if !(bitTest vf n) then
        collectPrimes limit vf fuel (n + 1) (primes ++ [(n <<< 1) + 1])
      else
        collectPrimes limit vf fuel (n + 1) primes
    else primes

/-- The composite bitmap after the two sieve loops; `vfComposite.resize((limit + 15)/16, 0)`. -/
def sieveBitmap (limit : Nat) : List Nat :=
  sieveOuter limit limit 3 (List.replicate ((limit + 15) / 16) 0)

/-- The prime table `_parameters.primes` built by `Miner::init`. -/
def primeTable (limit : Nat) : List Nat :=
  collectPrimes limit (sieveBitmap limit) limit 1 [2]

/-- Loop invariant of the outer sieve loop, for the odd factor `F` about to be examined:
every marked position is an odd composite, and every position below `limit / 2` whose
number has an odd prime factor `q < F` with `q * q` not above it is marked. -/
def SieveInv (limit F : Nat) (vf : List Nat) : Prop :=
  vf.length = (limit + 15) / 16 ∧
  (∀ m, bitTest vf m = true → ∃ a b, 3 ≤ a ∧ 3 ≤ b ∧ a * b = 2 * m + 1) ∧
  (∀ m q, m < limit / 2 → Nat.Prime q → 3 ≤ q → q < F → q * q ≤ 2 * m + 1 →
    q ∣ 2 * m + 1 → bitTest vf m = true)

/-! ## Primorial and inverses (`Miner::init`) -/

/-- The primorial `_primorial`: `mpz_set_ui(primorial, primes[0])`, then
`for (i = 1; i < primorialNumber; i++) mpz_mul_ui(primorial, primorial, primes[i])`. -/
def initPrimorial (primes : List Nat) (primorialNumber : Nat) : Nat :=
  (List.range' 1 (primorialNumber - 1)).foldl (fun acc i => acc * primes.getD i 0)
    (primes.getD 0 0)

/-- Library model (GMP manual) of `mpz_invert(rop, op1, op2)` on non-negative operands:
when an inverse of `op1` modulo `op2` exists the result is the inverse in `[0, op2)`,
otherwise there is none. -/
def mpzInvert (op1 op2 : Nat) : Option Nat :=
  (List.range op2).find? (fun x => (op1 * x) % op2 == 1)

/-- One iteration of the worker loop of `Miner::init` at prime index `i`:
`mpz_invert(candidate, primorial, prime); inverts[i] = mpz_get_ui(candidate)`.
The state is the thread's `candidate` and the shared `inverts` vector; when no inverse
exists `candidate` keeps its value. -/
def invertStep (primes : List Nat) (primorial : Nat) (st : Nat × List Nat) (i : Nat) :
    Nat × List Nat :=
  let candidate := (mpzInvert primorial (primes.getD i 0)).getD st.1
  (candidate, st.2.set i (candidate % 2 ^ 64))

/-- The body of worker thread `j`: `for (i = start + j*blockSize; i < endIndex; i++)` with
`endIndex = min(start + (j + 1)*blockSize, nPrimes)`; `candidate` starts at 0. -/
def invertWorker (primes : List Nat) (primorial startingPrimeIndex blockSize : Nat)
    (inverts : List Nat) (j : Nat) : List Nat :=
  let first := startingPrimeIndex + j * blockSize
  let endIndex := min (startingPrimeIndex + (j + 1) * blockSize) primes.length
  ((List.range' first (endIndex - first)).foldl (invertStep primes primorial) (0, inverts)).2

/-- The size of the index range of one worker:
`(nPrimes - startingPrimeIndex + threads - 1)/threads`. -/
def invertBlockSize (nPrimes startingPrimeIndex threads : Nat) : Nat :=
  (nPrimes - startingPrimeIndex + threads - 1) / threads

/-- The vector `_parameters.inverts` after all worker threads of `Miner::init` have been
joined. The workers write disjoint cells, so they are run one after the other. -/
def initInverts (primes : List Nat) (primorial primorialNumber threads : Nat) : List Nat :=
  (List.range threads).foldl
    (invertWorker primes primorial primorialNumber
      (invertBlockSize primes.length primorialNumber threads))
    (List.replicate primes.length 0)

/-! ## Target builder (`Miner::_getTargetFromBlock`, `Miner::_processOneBlock`) -/

/-- The statement `target.get_mpz_t()->_mp_d[0]++`: the least significant 64-bit limb of
the number is incremented as a `uint64_t`, the other limbs are untouched. -/
def limbIncrement (target : Nat) : Nat :=
  target - target % 2 ^ 64 + (target % 2 ^ 64 + 1) % 2 ^ 64

/-- One iteration of the loop over the 256 hash bits:
`target <<= 1; if ((powHash[i/8] >> (i % 8)) & 1) target._mp_d[0]++`. -/
def targetStep (powHash : List Nat) (target i : Nat) : Nat :=
  if ((powHash.getD (i / 8) 0) >>> (i % 8)) &&& 1 != 0 then limbIncrement (target <<< 1)
  else target <<< 1

/-- `Miner::_getTargetFromBlock`: `target = 1; target <<= ZEROS_BEFORE_HASH;` the loop
over the hash bits; `target <<= difficulty - 1 - ZEROS_BEFORE_HASH - 256`, the difficulty
being a 32-bit unsigned field of the block. -/
def getTargetFromBlock (powHash : List Nat) (difficulty : Nat) : Nat :=
  let target := (List.range 256).foldl (targetStep powHash) (1 <<< 8)
  let trailingZeros := (difficulty + 2 ^ 32 - 1 - 8 - 256) % 2 ^ 32
  target <<< trailingZeros

/-- The value `H` of the 256 hash bits read in loop order: bit `i mod 8` of byte `i div 8`
has weight `2 ^ (255 - i)`. -/
def hashValue (powHash : List Nat) : Nat :=
  Finset.sum (Finset.range 256)
    (fun i => ((powHash.getD (i / 8) 0) / 2 ^ (i % 8) % 2) * 2 ^ (255 - i))

/-- The remainder computation of `Miner::_processOneBlock` on `mpz_class` values:
`r = target % primorial` (truncating), `mpz_abs`, `r = (primorial - r) % primorial`,
`mpz_abs`, `r += primorialOffsets[0]`; the result is stored as `verifyRemainderPrimorial`. -/
def verifyRemainderPrimorial (target primorial primorialOffset0 : Int) : Int :=
  let r : Int := ((Int.tmod target primorial).natAbs : Int)
  let r : Int := ((Int.tmod (primorial - r) primorial).natAbs : Int)
  r + primorialOffset0

/-- The first candidate of sieve worker 0: `candidate = target + remainderPrimorial`. -/
def firstCandidate0 (target primorial primorialOffset0 : Int) : Int :=
  target + verifyRemainderPrimorial target primorial primorialOffset0

/-! ## Miner state -/

/-- The configuration and the tables of a `Miner` after `init` (fields of
`MinerParameters` and of `Miner` that the pipeline reads). `modPrecompute` enters only
through its size `precompLimit`; the CPU feature bits of `_cpuInfo` and the `enableAvx2`
option are Boolean fields. -/
structure Miner where
  threads : Nat
  tupleLengthMin : Nat
  primorialNumber : Nat
  solo : Bool
  sieveWorkers : Nat
  sieveBits : Nat
  maxIncrements : Nat
  primes : List Nat
  inverts : List Nat
  primeTupleOffset : List Nat
  primorialOffsets : List Nat
  primorial : Nat
  nPrimes : Nat
  sparseLimit : Nat
  entriesPerSegment : Nat
  precompLimit : Nat
  hasAVX : Bool
  hasAVX2 : Bool
  enableAvx2 : Bool

/-- `_parameters.sieveSize = 1 << _parameters.sieveBits`. The source shifts the `int` 1,
so this is the value the program has for `sieveBits ≤ 30`; from `sieveBits = 31` on the
`int` shift does not give `2 ^ sieveBits`. -/
def Miner.sieveSize (m : Miner) : Nat := 1 <<< m.sieveBits

/-- `_parameters.sieveWords = _parameters.sieveSize/64`. -/
def Miner.sieveWords (m : Miner) : Nat := m.sieveSize / 64

/-- `_parameters.maxIter = _parameters.maxIncrements/_parameters.sieveSize`. -/
def Miner.maxIter (m : Miner) : Nat := m.maxIncrements / m.sieveSize

/-- `_startingPrimeIndex = _parameters.primorialNumber`. -/
def Miner.startingPrimeIndex (m : Miner) : Nat := m.primorialNumber

/-- `_halfPrimeTupleOffset`: the pattern entries mapped through `n >> 1`. -/
def Miner.halfPrimeTupleOffset (m : Miner) : List Nat :=
  m.primeTupleOffset.map (fun n => n >>> 1)

/-- `tupleSpan`: `std::accumulate` over the whole pattern. The source accumulates in an
`int`; this exact sum is the value the program has as long as the sum is below `2 ^ 31`. -/
def Miner.tupleSpan (m : Miner) : Nat := m.primeTupleOffset.foldl (fun acc n => acc + n) 0

/-- `_primorialOffsetDiff[j - 1] = primorialOffsets[j] - primorialOffsets[j - 1] - tupleSpan`
for `1 ≤ j < sieveWorkers`, in `uint64_t` arithmetic. -/
def Miner.primorialOffsetDiff (m : Miner) (jm1 : Nat) : Nat :=
  (m.primorialOffsets.getD (jm1 + 1) 0 + 2 ^ 64 - m.primorialOffsets.getD jm1 0 % 2 ^ 64
    + 2 ^ 64 - m.tupleSpan % 2 ^ 64) % 2 ^ 64

/-- `_primorialOffsetDiffToFirst[j]`: 0 for `j = 0`, else
`primorialOffsets[j] - primorialOffsets[0]` in `uint64_t` arithmetic. -/
def Miner.primorialOffsetDiffToFirst (m : Miner) (j : Nat) : Nat :=
  if j = 0 then 0
  else (m.primorialOffsets.getD j 0 + 2 ^ 64 - m.primorialOffsets.getD 0 0 % 2 ^ 64) % 2 ^ 64

/-- One `SieveInstance`: the bitmap bytes, the segment-hit buckets with their fill
levels, and the dense offset table. -/
structure SieveInstance where
  sieve : Nat → Nat
  segmentHits : Nat → Nat → Nat
  segmentCounts : Nat → Nat
  offsets : Nat → Nat

/-- The memory a call of `_updateRemainders` works on: the sieve instances `_sieves[j]`
and the thread-local spill buffers `offsetStack[j]`, `offsetCount[j]` (with the flag
telling whether they have been allocated). -/
structure ModState where
  sieves : Nat → SieveInstance
  offsetStack : Nat → Nat → Nat
  offsetCount : Nat → Nat → Nat
  allocated : Bool

/-- How a piece of code was left: by reaching its end, by an early `return`, or by
`abort()`. -/
inductive Outcome (σ : Type) where
  | normal : σ → Outcome σ
  | returned : σ → Outcome σ
  | aborted : Outcome σ

/-- Sequencing of outcomes: the continuation runs only after a normal end. -/
def Outcome.andThen {σ τ : Type} (o : Outcome σ) (f : σ → Outcome τ) (g : σ → τ) : Outcome τ :=
  match o with
  | Outcome.normal s => f s
  | Outcome.returned s => Outcome.returned (g s)
  | Outcome.aborted => Outcome.aborted

/-! ## External kernels and macros -/

/-- Modelled from the spec: the macro `umul_ppmm(nh, nl, a, b)` of `external/gmp_util.h`,
which is not among the source files; it yields the high and the low 64-bit word of the
product of two words. -/
def umul_ppmm (a b : Nat) : Nat × Nat :=
  ((a * b) / 2 ^ 64 % 2 ^ 64, (a * b) % 2 ^ 64)

/-- Modelled from the spec: the macro `udiv_qrnnd(q, r, nh, nl, d)` of
`external/gmp_util.h`, which is not among the source files; quotient (one word) and
remainder of the two-word number `nh:nl` by `d`. -/
def udiv_qrnnd (nh nl d : Nat) : Nat × Nat :=
  ((nh * 2 ^ 64 + nl) / d % 2 ^ 64, (nh * 2 ^ 64 + nl) % d)

/-- Modelled from the spec: the macro `udiv_rnnd_preinv(r, nh, nl, d, di)` of
`external/gmp_util.h`, which is not among the source files; the remainder of the two-word
number `nh:nl` by the normalised divisor `d`, computed with the reciprocal `di`. -/
def udiv_rnnd_preinv (nh nl d : Nat) : Nat :=
  (nh * 2 ^ 64 + nl) % d

/-- Modelled from the spec: the assembly kernel `rie_mod_1s_4p(ap, n, ps, cnt, cps)`, which
is not among the source files; it returns the remainder of the big number by `ps >> cnt`,
shifted left by `cnt` (the source checks `remainder >> cnt == mpz_tdiv_ui(tar, p)`). -/
def rie_mod_1s_4p (tar ps cnt : Nat) : Nat :=
  (tar % (ps >>> cnt)) <<< cnt

/-- Modelled from the spec: the assembly kernels `rie_mod_1s_2p_4times` and
`rie_mod_1s_2p_8times`, which are not among the source files; lane `j < width` receives the
inverse in `remainders[j]` and the shifted prime in `ps32[j]`, and is overwritten with the
sieve index `((p - tar mod p) * inverse) mod p` for `p = ps32[j] >> cnt` (the value the
source checks every fast-path index against). -/
def rie_mod_1s_2p_times (width tar : Nat) (ps32 : Nat → Nat) (cnt : Nat)
    (remainders : Nat → Nat) : Nat → Nat :=
  fun j =>
    if j < width then
      ((ps32 j >>> cnt - tar % (ps32 j >>> cnt)) * remainders j) % (ps32 j >>> cnt)
    else remainders j

/-- The builtin `__builtin_clzll` on a non-zero 64-bit word. -/
def clzll (x : Nat) : Nat := 63 - Nat.log2 x

/-- The builtin `__builtin_clz` on a non-zero 32-bit word. -/
def clz (x : Nat) : Nat := 31 - Nat.log2 x

/-! ## Remainder worker (`Miner::_putOffsetsInSegments`, `Miner::_updateRemainders`) -/

/-- First loop of `_putOffsetsInSegments` over the segments: `fetch_add` on the fill
level, `abort()` when the new level reaches `entriesPerSegment`, and `counts[segment]`
replaced by the old level. The state is `(segmentCounts, counts)`. -/
def putReserve (entriesPerSegment : Nat) :
    List Nat → (Nat → Nat) × (Nat → Nat) → Option ((Nat → Nat) × (Nat → Nat))
  | [], st => some st
  | segment :: rest, st =>
    let curSegmentCount := st.1 segment
    let sc := curSegmentCount + st.2 segment
    if sc ≥ entriesPerSegment then none
    else putReserve entriesPerSegment rest
      (Function.update st.1 segment sc, Function.update st.2 segment curSegmentCount)

/-- Second loop of `_putOffsetsInSegments`, one spilled index:
`segmentHits[index >> sieveBits][counts[segment]] = index & (sieveSize - 1); counts[segment]++`.
The state is `(segmentHits, counts)`; the bucket cells are `uint32_t`. -/
def putStore (m : Miner) (offsets : Nat → Nat) (st : (Nat → Nat → Nat) × (Nat → Nat))
    (i : Nat) : (Nat → Nat → Nat) × (Nat → Nat) :=
  let index := offsets i
  let segment := index >>> m.sieveBits
  let sc := st.2 segment
  (Function.update st.1 segment
      (Function.update (st.1 segment) sc ((index &&& (m.sieveSize - 1)) % 2 ^ 32)),
    Function.update st.2 segment (sc + 1))

/-- `Miner::_putOffsetsInSegments(sieve, offsets, counts, n_offsets)`; `none` stands for
`abort()`. The result is the sieve instance and the `counts` array (zeroed over the
segments by the last loop). -/
def putOffsetsInSegments (m : Miner) (sieve : SieveInstance) (offsets counts : Nat → Nat)
    (nOffsets : Nat) : Option (SieveInstance × (Nat → Nat)) :=
  match putReserve m.entriesPerSegment (List.range m.maxIter) (sieve.segmentCounts, counts) with
  | none => none
  | some (segmentCounts, counts1) =>
    let stored := (List.range nOffsets).foldl (putStore m offsets) (sieve.segmentHits, counts1)
    some ({ sieve with segmentCounts := segmentCounts, segmentHits := stored.1 },
      fun segment => if segment < m.maxIter then 0 else stored.2 segment)

/-- The reference value of the first sieve index of a prime:
`remainder = mpz_tdiv_ui(tar, p); pa = p - remainder; index = (pa * invert) mod p`. -/
def indexRef (tar p invert : Nat) : Nat :=
  (udiv_qrnnd (umul_ppmm (p - tar % p) invert).1 (umul_ppmm (p - tar % p) invert).2 p).2

/-- The local variables `invert[0..3]` of `_updateRemainders`. -/
def invertLattice (invert0 p : Nat) : List Nat :=
  let i1 := (invert0 <<< 1) % 2 ^ 64
  let i1 := if i1 ≥ p then i1 - p else i1
  let i2 := (i1 <<< 1) % 2 ^ 64
  let i2 := if i2 ≥ p then i2 - p else i2
  let i3 := (i1 + i2) % 2 ^ 64
  let i3 := if i3 ≥ p then i3 - p else i3
  [invert0, i1, i2, i3]

/-- `NUM_PRIMES_TO_2P32`. -/
def NUM_PRIMES_TO_2P32 : Nat := 203280222

/-- `OFFSET_STACK_SIZE`. -/
def OFFSET_STACK_SIZE : Nat := 16384

/-- The local variables of the loop of `_updateRemainders` over the primes, together with
the memory it works on. -/
structure ModLoop where
  st : ModState
  nOffsets : Nat → Nat
  nextRemainder : Nat → Nat
  nextRemainderIdx : Nat

/-- What the index computation of one iteration leaves: `index`, `cnt`, `ps` and the
batch buffer. -/
structure IndexResult where
  index : Nat
  cnt : Nat
  ps : Nat
  nextRemainder : Nat → Nat
  nextRemainderIdx : Nat

/-- The index computation of one iteration of `_updateRemainders` (the block commented
"Compute the index, using precomputation speed up if available"). -/
def computeIndex (m : Miner) (tar avxLimit avxWidth i : Nat) (nextRemainder : Nat → Nat)
    (nextRemainderIdx : Nat) : IndexResult :=
  let p := m.primes.getD i 0
  let invert0 := m.inverts.getD i 0
  if i < m.precompLimit then
    if nextRemainderIdx < avxWidth then
      { index := nextRemainder nextRemainderIdx, cnt := clzll p,
        ps := (p <<< clzll p) % 2 ^ 64,
        nextRemainder := nextRemainder, nextRemainderIdx := nextRemainderIdx + 1 }
    else if i < avxLimit ∧ clz (m.primes.getD (i + avxWidth - 1) 0 % 2 ^ 32) = clz (p % 2 ^ 32) then
      let cnt := clz (p % 2 ^ 32)
      let ps32 : Nat → Nat := fun j => ((m.primes.getD (i + j) 0 % 2 ^ 32) <<< cnt) % 2 ^ 32
      let rem := rie_mod_1s_2p_times avxWidth tar ps32 cnt
        (fun j => if j < avxWidth then m.inverts.getD (i + j) 0 else nextRemainder j)
      { index := rem 0, cnt := cnt + 32, ps := (ps32 0 <<< 32) % 2 ^ 64,
        nextRemainder := rem, nextRemainderIdx := 1 }
    else
      let cnt := clzll p
      let ps := (p <<< cnt) % 2 ^ 64
      let remainder := rie_mod_1s_4p tar ps cnt
      let pa := ps - remainder
      let r := udiv_rnnd_preinv (umul_ppmm pa invert0).1 (umul_ppmm pa invert0).2 ps
      { index := r >>> cnt, cnt := cnt, ps := ps,
        nextRemainder := nextRemainder, nextRemainderIdx := nextRemainderIdx }
  else
    { index := indexRef tar p invert0, cnt := 0, ps := 0,
      nextRemainder := nextRemainder, nextRemainderIdx := nextRemainderIdx }

/-- The macro `recomputeRemainder(j)`: the new value of `r`. -/
def recomputeRemainder (m : Miner) (i p invert0 cnt ps j : Nat) : Nat :=
  let d := m.primorialOffsetDiff (j - 1)
  if i < m.precompLimit ∧ d < p then
    let os := (d <<< cnt) % 2 ^ 64
    udiv_rnnd_preinv (umul_ppmm os invert0).1 (umul_ppmm os invert0).2 ps >>> cnt
  else
    (udiv_qrnnd (umul_ppmm d invert0).1 (umul_ppmm d invert0).2 p).2

/-- The two statements `if (index < a) index += p; index -= a;`. -/
def subWrap (p index a : Nat) : Nat :=
  (if index < a then index + p else index) - a

/-- The step of the family loops inside `addToOffsets`:
`if (index < invert[h[f]]) index += p; index -= invert[h[f]];`. The array `invert` has the
four entries `invert[0..3]`; the step is the source's for `h[f] ≤ 3`, that is for pattern
offsets up to 7 (an access past the array is read as 0 here). -/
def familyStep (m : Miner) (p : Nat) (invert : List Nat) (index f : Nat) : Nat :=
  subWrap p index (invert.getD (m.halfPrimeTupleOffset.getD f 0) 0)

/-- The dense branch of `addToOffsets(j)`: `offsets[0] = index`, then for every family
`f ≥ 1` the step and `offsets[f] = index`, on the `uint32_t` cells starting at
`tupleSize*i`. The result is the final `index` and the offset table. -/
def addToOffsetsDense (m : Miner) (i p : Nat) (invert : List Nat) (index : Nat)
    (offsets : Nat → Nat) : Nat × (Nat → Nat) :=
  (List.range' 1 (m.halfPrimeTupleOffset.length - 1)).foldl
    (fun st f =>
      (familyStep m p invert st.1 f,
        Function.update st.2 (m.primeTupleOffset.length * i + f)
          (familyStep m p invert st.1 f % 2 ^ 32)))
    (index, Function.update offsets (m.primeTupleOffset.length * i) (index % 2 ^ 32))

/-- The two statements `offsets[j][n_offsets[j]++] = index; counts[j][index >> sieveBits]++;`
under their guard `index < maxIncrements`. -/
def pushOffset (m : Miner) (j index : Nat) (s : ModLoop) : ModLoop :=
  if index < m.maxIncrements then
    { s with
      st := { s.st with
        offsetStack := Function.update s.st.offsetStack j
          (Function.update (s.st.offsetStack j) (s.nOffsets j) index)
        offsetCount := Function.update s.st.offsetCount j
          (Function.update (s.st.offsetCount j) (index >>> m.sieveBits)
            (s.st.offsetCount j (index >>> m.sieveBits) + 1)) }
      nOffsets := Function.update s.nOffsets j (s.nOffsets j + 1) }
  else s

/-- The call `_putOffsetsInSegments(_sieves[j], offsets[j], counts[j], n_offsets[j])`
followed by `n_offsets[j] = 0`, on the loop state. -/
def flushWorker (m : Miner) (j : Nat) (s : ModLoop) : Outcome ModLoop :=
  match putOffsetsInSegments m (s.st.sieves j) (s.st.offsetStack j) (s.st.offsetCount j)
      (s.nOffsets j) with
  | none => Outcome.aborted
  | some (sieve, counts) =>
    Outcome.normal
      { s with
        st := { s.st with
          sieves := Function.update s.st.sieves j sieve
          offsetCount := Function.update s.st.offsetCount j counts }
        nOffsets := Function.update s.nOffsets j 0 }

/-- The once-only branch of `addToOffsets(j)` after the flush test: the guarded push of
`index`, then for every family `f ≥ 1` the step and the guarded push. -/
def addToOffsetsSparse (m : Miner) (p : Nat) (invert : List Nat) (j index : Nat)
    (s : ModLoop) : Nat × ModLoop :=
  (List.range' 1 (m.halfPrimeTupleOffset.length - 1)).foldl
    (fun st f =>
      (familyStep m p invert st.1 f, pushOffset m j (familyStep m p invert st.1 f) st.2))
    (index, pushOffset m j index s)

/-- The macro `addToOffsets(j)` at prime index `i`. `stale` tells whether the height test
`verifyBlock.height != _currentHeight` succeeds when it is evaluated here. The result
carries the value of `index` the macro leaves behind. -/
def addToOffsets (m : Miner) (stale : Bool) (i p : Nat) (invert : List Nat) (j index : Nat)
    (s : ModLoop) : Outcome (Nat × ModLoop) :=
  if ¬ (i ≥ m.sparseLimit) then
    let r := addToOffsetsDense m i p invert index (s.st.sieves j).offsets
    Outcome.normal (r.1,
      { s with st := { s.st with
          sieves := Function.update s.st.sieves j { s.st.sieves j with offsets := r.2 } } })
  else if s.nOffsets j + m.halfPrimeTupleOffset.length ≥ OFFSET_STACK_SIZE then
    if stale then Outcome.returned (index, s)
    else
      match flushWorker m j s with
      | Outcome.normal s1 => Outcome.normal (addToOffsetsSparse m p invert j index s1)
      | Outcome.returned s1 => Outcome.returned (index, s1)
      | Outcome.aborted => Outcome.aborted
  else Outcome.normal (addToOffsetsSparse m p invert j index s)

/-- The loop `for (j = 2; j < sieveWorkers; j++)` of one iteration, run over the list of
the remaining worker numbers; `index` and `r` are the local variables it updates. -/
def workersLoop (m : Miner) (stale : Nat → Nat → Bool) (i p : Nat) (invert : List Nat)
    (cnt ps : Nat) : List Nat → Nat → Nat → ModLoop → Outcome ModLoop
  | [], _, _, s => Outcome.normal s
  | j :: js, index, r, s =>
    let r := if m.primorialOffsetDiff (j - 1) ≠ m.primorialOffsetDiff (j - 2) then
        recomputeRemainder m i p (invert.getD 0 0) cnt ps j else r
    match addToOffsets m (stale i j) i p invert j (subWrap p index r) s with
    | Outcome.normal x => workersLoop m stale i p invert cnt ps js x.1 r x.2
    | Outcome.returned x => Outcome.returned x.2
    | Outcome.aborted => Outcome.aborted

/-- The body of the loop of `_updateRemainders` for the prime index `i`. -/
def modPrime (m : Miner) (stale : Nat → Nat → Bool) (tar avxLimit avxWidth i : Nat)
    (s : ModLoop) : Outcome ModLoop :=
  let p := m.primes.getD i 0
  let ir := computeIndex m tar avxLimit avxWidth i s.nextRemainder s.nextRemainderIdx
  let invert := invertLattice (m.inverts.getD i 0) p
  let s0 : ModLoop :=
    { s with nextRemainder := ir.nextRemainder, nextRemainderIdx := ir.nextRemainderIdx }
  match addToOffsets m (stale i 0) i p invert 0 ir.index s0 with
  | Outcome.returned x => Outcome.returned x.2
  | Outcome.aborted => Outcome.aborted
  | Outcome.normal x0 =>
    if m.sieveWorkers = 1 then Outcome.normal x0.2
    else
      let r := recomputeRemainder m i p (m.inverts.getD i 0) ir.cnt ir.ps 1
      match addToOffsets m (stale i 1) i p invert 1 (subWrap p x0.1 r) x0.2 with
      | Outcome.returned x => Outcome.returned x.2
      | Outcome.aborted => Outcome.aborted
      | Outcome.normal x1 =>
        workersLoop m stale i p invert ir.cnt ir.ps (List.range' 2 (m.sieveWorkers - 2))
          x1.1 r x1.2

/-- The loop `for (i = start_i; i < end_i; i++)` of `_updateRemainders`, run over the list
of the remaining prime indices. -/
def modLoop (m : Miner) (stale : Nat → Nat → Bool) (tar avxLimit avxWidth : Nat) :
    List Nat → ModLoop → Outcome ModLoop
  | [], s => Outcome.normal s
  | i :: rest, s =>
    match modPrime m stale tar avxLimit avxWidth i s with
    | Outcome.normal s1 => modLoop m stale tar avxLimit avxWidth rest s1
    | Outcome.returned s1 => Outcome.returned s1
    | Outcome.aborted => Outcome.aborted

/-- The final loop of `_updateRemainders`: every worker with `n_offsets[j] > 0` is flushed. -/
def flushAll (m : Miner) : List Nat → ModLoop → Outcome ModLoop
  | [], s => Outcome.normal s
  | j :: js, s =>
    if s.nOffsets j > 0 then
      match flushWorker m j s with
      | Outcome.normal s1 => flushAll m js s1
      | Outcome.returned s1 => Outcome.returned s1
      | Outcome.aborted => Outcome.aborted
    else flushAll m js s

/-- `avxWidth` of `_updateRemainders`. -/
def avxWidthOf (m : Miner) : Nat := if m.hasAVX2 then 8 else 4

/-- `avxLimit` of `_updateRemainders`, in `uint64_t` arithmetic. -/
def avxLimitOf (m : Miner) (start_i : Nat) : Nat :=
  if m.hasAVX then
    (NUM_PRIMES_TO_2P32 - avxWidthOf m) -
      (((NUM_PRIMES_TO_2P32 - avxWidthOf m) + 2 ^ 64 - start_i % 2 ^ 64) % 2 ^ 64
        &&& (avxWidthOf m - 1))
  else 0

/-- The lazy allocation at the head of `_updateRemainders`: on the first call of a thread
the spill counts of every worker and segment are zeroed. -/
def allocateSpill (m : Miner) (st : ModState) : ModState :=
  if st.allocated then st
  else
    { st with
      allocated := true
      offsetCount := fun j segment =>
        if j < m.sieveWorkers ∧ segment < m.maxIter then 0 else st.offsetCount j segment }

/-- `Miner::_updateRemainders(workDataIndex, start_i, end_i)` on the memory `st`, for the
block with the given `verifyTarget` and `verifyRemainderPrimorial`; `stale i j` tells
whether the height test inside `addToOffsets(j)` at prime index `i` finds the block stale. -/
def updateRemainders (m : Miner) (stale : Nat → Nat → Bool)
    (verifyTarget verifyRemainderPrimorial : Int) (start_i end_i : Nat) (st : ModState) :
    Outcome ModState :=
  let tar := (verifyTarget + verifyRemainderPrimorial).natAbs
  let s0 : ModLoop :=
    { st := allocateSpill m st, nOffsets := fun _ => 0, nextRemainder := fun _ => 0,
      nextRemainderIdx := 8 }
  match modLoop m stale tar (avxLimitOf m start_i) (avxWidthOf m)
      (List.range' start_i (end_i - start_i)) s0 with
  | Outcome.returned s => Outcome.returned s.st
  | Outcome.aborted => Outcome.aborted
  | Outcome.normal s =>
    if end_i > m.sparseLimit then
      match flushAll m (List.range m.sieveWorkers) s with
      | Outcome.normal s1 => Outcome.normal s1.st
      | Outcome.returned s1 => Outcome.returned s1.st
      | Outcome.aborted => Outcome.aborted
    else Outcome.normal s.st

/-- The sieve index `idx` is reduced modulo the prime `p` and makes `P * idx + base`
divisible by `p`. -/
def GoodIndex (P p : Nat) (base : Int) (idx : Nat) : Prop :=
  idx < p ∧ (p : Int) ∣ (P : Int) * (idx : Int) + base

/-- The table invariants a `Miner` has after `init`: the prime table is strictly
ascending with entries at least 2, the entries at the indices the batch kernels may touch
are below `2 ^ 32`, the entries of the dense range fit the `uint32_t` offset table, and
`inverts[i]` is the inverse of the primorial modulo `primes[i]` on the dense range. -/
def Miner.TableInv (m : Miner) : Prop :=
  m.primes.Pairwise (· < ·) ∧
  (∀ q ∈ m.primes, 2 ≤ q) ∧
  (∀ t, t + 1 < NUM_PRIMES_TO_2P32 → m.primes.getD t 0 < 2 ^ 32) ∧
  (∀ i, i < m.sparseLimit → m.primes.getD i 0 < 2 ^ 32) ∧
  (∀ i, m.primorialNumber ≤ i → i < m.sparseLimit →
    m.inverts.getD i 0 < m.primes.getD i 0 ∧
    (m.primorial * m.inverts.getD i 0) % m.primes.getD i 0 = 1)

/-- The first sieve index of the prime with index `i` in closed form:
`((p - tar mod p) * inverts[i]) mod p` for `p = primes[i]`. -/
def Miner.firstIndex (m : Miner) (tar i : Nat) : Nat :=
  ((m.primes.getD i 0 - tar % m.primes.getD i 0) * m.inverts.getD i 0) % m.primes.getD i 0

/-- While the fast path is in use, the batch buffer holds, from the read position on, the
first sieve indices of the primes `i, i + 1, ...` that the next iterations will consume. -/
def LaneInv (m : Miner) (tar avxWidth i : Nat) (nextRemainder : Nat → Nat)
    (nextRemainderIdx : Nat) : Prop :=
  i < m.precompLimit → ∀ t, nextRemainderIdx ≤ t → t < avxWidth →
    nextRemainder t = m.firstIndex tar (i + (t - nextRemainderIdx))

/-- The value of `index` after the family steps `1, ..., f` of `addToOffsets`, starting
from `index`. -/
def famChain (m : Miner) (p : Nat) (invert : List Nat) (index : Nat) : Nat → Nat
  | 0 => index
  | f + 1 => familyStep m p invert (famChain m p invert index f) (f + 1)

/-- The sum `o[1] + ... + o[f]` of the first `f` step offsets of the pattern. -/
def Miner.offsetSum (m : Miner) (f : Nat) : Nat :=
  Finset.sum (Finset.range f) (fun t => m.primeTupleOffset.getD (t + 1) 0)

/-- The assumption of the dense mod phase on the constellation pattern: it is non-empty,
`o[0] = 0`, and every step offset `o[f]`, `f ≥ 1`, is 2, 4 or 6. -/
def Miner.PatternOK (m : Miner) : Prop :=
  1 ≤ m.primeTupleOffset.length ∧ m.primeTupleOffset.getD 0 0 = 0 ∧
  ∀ f, 1 ≤ f → f < m.primeTupleOffset.length →
    m.primeTupleOffset.getD f 0 = 2 ∨ m.primeTupleOffset.getD f 0 = 4 ∨
      m.primeTupleOffset.getD f 0 = 6

/-- The assumption of the dense mod phase on the primorial offsets: they are 64-bit
values, and from one sieve worker to the next they grow by at least `tupleSpan`. -/
def Miner.OffsetsOK (m : Miner) : Prop :=
  (∀ w, m.primorialOffsets.getD w 0 < 2 ^ 64) ∧
  ∀ w, 1 ≤ w → w < m.sieveWorkers →
    m.primorialOffsets.getD (w - 1) 0 + m.tupleSpan ≤ m.primorialOffsets.getD w 0

/-- The distance `primorialOffsets[w] - primorialOffsets[0]` as an integer. -/
def Miner.offsetToFirst (m : Miner) (w : Nat) : Int :=
  (m.primorialOffsets.getD w 0 : Int) - (m.primorialOffsets.getD 0 0 : Int)

/-- The stored dense offset of worker `w`, prime index `i` and family `f` is the sieve
index of the claim: it is below `primes[i]`, and `primes[i]` divides
`P * offset + tar + (primorialOffsets[w] - primorialOffsets[0]) + (o[1] + ... + o[f])`. -/
def DenseGood (m : Miner) (tar : Int) (i : Nat) (st : ModState) (w f : Nat) : Prop :=
  GoodIndex m.primorial (m.primes.getD i 0)
    (tar + m.offsetToFirst w + (m.offsetSum f : Int))
    ((st.sieves w).offsets (m.primeTupleOffset.length * i + f))

/-- The part of the dense offset tables below the block of prime index `a` is the same in
two loop states. -/
def OffsetsFrame (m : Miner) (a : Nat) (s s1 : ModLoop) : Prop :=
  ∀ w slot, slot < m.primeTupleOffset.length * a →
    (s1.st.sieves w).offsets slot = (s.st.sieves w).offsets slot

/-- The dense offset tables of all sieve instances are the same in two loop states. -/
def SameOffsets (s s1 : ModLoop) : Prop :=
  ∀ w, (s1.st.sieves w).offsets = (s.st.sieves w).offsets

/-! ## A small configuration for instantiating the results -/

/-- A `Miner` as `init` leaves it for the prime table limit 100, primorial number 3
(`P_k = 30`), two threads, two sieve workers with the primorial offsets 97 and 127, the
pattern `(0, 4, 2, 4, 2, 4)`, 64-bit sieve segments and 256 increments. -/
def exampleMiner : Miner :=
  { threads := 2, tupleLengthMin := 6, primorialNumber := 3, solo := true, sieveWorkers := 2,
    sieveBits := 6, maxIncrements := 256,
    primes := primeTable 100,
    inverts := initInverts (primeTable 100) (initPrimorial (primeTable 100) 3) 3 2,
    primeTupleOffset := [0, 4, 2, 4, 2, 4], primorialOffsets := [97, 127],
    primorial := initPrimorial (primeTable 100) 3, nPrimes := 24, sparseLimit := 24,
    entriesPerSegment := 1, precompLimit := 25, hasAVX := true, hasAVX2 := true,
    enableAvx2 := true }

/-- A sieve instance with all memory zero. -/
def zeroSieve : SieveInstance :=
  { sieve := fun _ => 0, segmentHits := fun _ _ => 0, segmentCounts := fun _ => 0,
    offsets := fun _ => 0 }

/-- The memory of a thread before its first call of `_updateRemainders`. -/
def zeroModState : ModState :=
  { sieves := fun _ => zeroSieve, offsetStack := fun _ _ => 0, offsetCount := fun _ _ => 0,
    allocated := false }

/-! ## Sieve worker: the pending buffer (`Miner.hpp`) -/

/-- `PENDING_SIZE`. -/
def PENDING_SIZE : Nat := 16

/-- The bitmap of a sieve, the pending buffer and its write position. -/
structure PendingState where
  sieve : Nat → Nat
  pending : Nat → Nat
  pos : Nat

/-- The store `sieve[idx >> 3] |= (1 << (idx & 7))` on the `uint8_t` bitmap. -/
def markBit (sieve : Nat → Nat) (idx : Nat) : Nat → Nat :=
  Function.update sieve (idx >>> 3) ((sieve (idx >>> 3) ||| (1 <<< (idx &&& 7))) % 256)

/-- `_initPending`: all 16 cells are set to 0. -/
def initPending (pending : Nat → Nat) : Nat → Nat :=
  fun i => if i < PENDING_SIZE then 0 else pending i

/-- `_addToPending(sieve, pending, pos, ent)`: the evicted cell `old`, when non-zero, is
marked (after being clamped to `sieveSize - 1` when it is not below `sieveSize`); `ent`
takes its place and `pos` advances modulo 16. -/
def addToPending (m : Miner) (s : PendingState) (ent : Nat) : PendingState :=
  let old := s.pending s.pos
  { sieve :=
      if old ≠ 0 then
        markBit s.sieve (if old ≥ m.sieveSize then (m.sieveSize - 1) % 2 ^ 32 else old)
      else s.sieve
    pending := Function.update s.pending s.pos ent
    pos := (s.pos + 1) &&& (PENDING_SIZE - 1) }

/-- The loop of `_termPending` over the cells in the list; `none` stands for a failed
`assert(old < sieveSize)`. -/
def termPendingLoop (m : Miner) (pending : Nat → Nat) : List Nat → (Nat → Nat) → Option (Nat → Nat)
  | [], sieve => some sieve
  | i :: rest, sieve =>
    if pending i ≠ 0 then
      if pending i < m.sieveSize then termPendingLoop m pending rest (markBit sieve (pending i))
      else none
    else termPendingLoop m pending rest sieve

/-- `_termPending(sieve, pending)`. -/
def termPending (m : Miner) (sieve pending : Nat → Nat) : Option (Nat → Nat) :=
  termPendingLoop m pending (List.range PENDING_SIZE) sieve

/-! ## Sieve worker: the generic dense sieve (`Miner::_processSieve`) -/

/-- The loop `while (offsets[slot] < sieveSize) { _addToPending(.., offsets[slot]);
offsets[slot] += p; }` on the `uint32_t` cell, whose value is `off`. `none` stands for a
loop that is still running when the fuel is used up. -/
def sieveWhile (m : Miner) (p : Nat) : Nat → Nat → PendingState → Option (Nat × PendingState)
  | 0, _, _ => none
  | fuel + 1, off, s =>
    if off < m.sieveSize then sieveWhile m p fuel ((off + p) % 2 ^ 32) (addToPending m s off)
    else some (off, s)

/-- The body of the family loop of `_processSieve` for the cell `slot`: the `while` loop,
then `offsets[slot] -= sieveSize`. The state is the offset table and the pending state. -/
def sieveFamily (m : Miner) (p slot : Nat) (st : (Nat → Nat) × PendingState) :
    Option ((Nat → Nat) × PendingState) :=
  match sieveWhile m p (2 ^ 32) (st.1 slot) st.2 with
  | none => none
  | some r =>
    some (Function.update st.1 slot ((r.1 + 2 ^ 32 - m.sieveSize % 2 ^ 32) % 2 ^ 32), r.2)

/-- The family loop `for (f = 0; f < tupleSize; f++)` of `_processSieve` for the prime
index `i`, run over the list of the remaining families. -/
def sieveFamilies (m : Miner) (i : Nat) :
    List Nat → (Nat → Nat) × PendingState → Option ((Nat → Nat) × PendingState)
  | [], st => some st
  | f :: rest, st =>
    match sieveFamily m (m.primes.getD i 0 % 2 ^ 32) (i * m.primeTupleOffset.length + f) st with
    | none => none
    | some st1 => sieveFamilies m i rest st1

/-- The prime loop `for (i = start_i; i < end_i; i++)` of `_processSieve`, run over the
list of the remaining prime indices. -/
def sievePrimes (m : Miner) :
    List Nat → (Nat → Nat) × PendingState → Option ((Nat → Nat) × PendingState)
  | [], st => some st
  | i :: rest, st =>
    match sieveFamilies m i (List.range m.primeTupleOffset.length) st with
    | none => none
    | some st1 => sievePrimes m rest st1

/-- `Miner::_processSieve(sieve, offsets, start_i, end_i)`: the new bitmap and offset
table; `none` when a loop does not end or the assertion of `_termPending` fails. -/
def processSieve (m : Miner) (sieve offsets : Nat → Nat) (start_i end_i : Nat) :
    Option ((Nat → Nat) × (Nat → Nat)) :=
  match sievePrimes m (List.range' start_i (end_i - start_i))
      (offsets, { sieve := sieve, pending := initPending (fun _ => 0), pos := 0 }) with
  | none => none
  | some st =>
    match termPending m st.2.sieve st.2.pending with
    | none => none
    | some sieve1 => some (sieve1, st.1)

/-- Bit `idx` of a byte bitmap. -/
def sieveBit (sieve : Nat → Nat) (idx : Nat) : Bool :=
  (sieve (idx / 8)).testBit (idx % 8)

/-- The pending state is well formed: the write position is inside the buffer and every
cell is below `sieveSize`. -/
def PendingOK (m : Miner) (s : PendingState) : Prop :=
  s.pos < PENDING_SIZE ∧ ∀ k, k < PENDING_SIZE → s.pending k < m.sieveSize

/-- The index `idx` is already marked in the bitmap or waits, non-zero, in the pending
buffer. -/
def Covered (s : PendingState) (idx : Nat) : Prop :=
  sieveBit s.sieve idx = true ∨ (idx ≠ 0 ∧ ∃ k, k < PENDING_SIZE ∧ s.pending k = idx)

/-- The index `idx` is one of `off, off + p, off + 2p, ...` and lies below `sieveSize`. -/
def Reach (m : Miner) (p off idx : Nat) : Prop :=
  ∃ t, idx = off + t * p ∧ idx < m.sieveSize

/-- The `uint32_t` prime `p` a dense sieve uses for the offset cell `slot`: the prime with
index `slot / tupleSize`. -/
def Miner.slotPrime (m : Miner) (slot : Nat) : Nat :=
  m.primes.getD (slot / m.primeTupleOffset.length) 0 % 2 ^ 32

/-- The effect of sieving the offset cells `lo ≤ slot < hi` on the offset table and the
pending state: the covered indices grow by the non-zero members below `sieveSize` of the
progressions `offsets[slot] + t * p`; each of these cells ends at the first member of its
progression that is not below `sieveSize`, minus `sieveSize`; no other cell changes. -/
def SlotEffect (m : Miner) (lo hi : Nat) (st st1 : (Nat → Nat) × PendingState) : Prop :=
  PendingOK m st1.2 ∧
  (∀ idx, Covered st1.2 idx ↔
    (Covered st.2 idx ∨
      (idx ≠ 0 ∧ ∃ slot, lo ≤ slot ∧ slot < hi ∧ Reach m (m.slotPrime slot) (st.1 slot) idx))) ∧
  (∀ slot, lo ≤ slot → slot < hi →
    ∃ t, st1.1 slot = st.1 slot + t * m.slotPrime slot - m.sieveSize ∧
      m.sieveSize ≤ st.1 slot + t * m.slotPrime slot ∧
      ∀ t1, t1 < t → st.1 slot + t1 * m.slotPrime slot < m.sieveSize) ∧
  (∀ slot, (slot < lo ∨ hi ≤ slot) → st1.1 slot = st.1 slot)

/-- The offset cells `lo ≤ slot < hi` can be sieved without wrap-around below `bound`:
their primes are positive, `sieveSize + p` does not exceed `bound`, and the cells are
below `bound`. -/
def SlotsOK (m : Miner) (bound lo hi : Nat) (offsets : Nat → Nat) : Prop :=
  ∀ slot, lo ≤ slot → slot < hi →
    0 < m.slotPrime slot ∧ m.sieveSize + m.slotPrime slot ≤ bound ∧ offsets slot < bound

/-! ## Sieve worker: the SSE specialisation for six-member patterns (`Miner::_processSieve6`)

An `xmmreg_t` is seen through its four `uint32_t` lanes `v[0..3]`, a function on the lane
numbers. -/

/-- The value of a 32-bit lane as a signed integer. -/
def toInt32 (x : Nat) : Int :=
  if x % 2 ^ 32 < 2 ^ 31 then ((x % 2 ^ 32 : Nat) : Int) else ((x % 2 ^ 32 : Nat) : Int) - 2 ^ 32

/-- `_mm_set1_epi32`. -/
def mm_set1_epi32 (x : Nat) : Nat → Nat := fun _ => x % 2 ^ 32

/-- `_mm_shuffle_ps(a, b, _MM_SHUFFLE(0, 0, 0, 0))` on the integer lanes: the result is
`(a[0], a[0], b[0], b[0])`. -/
def mm_shuffle_ps_0000 (a b : Nat → Nat) : Nat → Nat := fun l => if l < 2 then a 0 else b 0

/-- `_mm_load_si128` of the four `uint32_t` cells starting at `base`. -/
def mm_load_si128 (mem : Nat → Nat) (base : Nat) : Nat → Nat := fun l => mem (base + l)

/-- `_mm_store_si128` to the four `uint32_t` cells starting at `base`. -/
def mm_store_si128 (mem : Nat → Nat) (base : Nat) (x : Nat → Nat) : Nat → Nat :=
  fun a => if base ≤ a ∧ a < base + 4 then x (a - base) else mem a

/-- `_mm_cmpgt_epi32`: signed comparison per lane, all ones where `a > b`. -/
def mm_cmpgt_epi32 (a b : Nat → Nat) : Nat → Nat :=
  fun l => if toInt32 (a l) > toInt32 (b l) then 0xFFFFFFFF else 0

/-- The most significant bits of the four bytes of one lane, as a 4-bit number. -/
def laneMask (x : Nat) : Nat :=
  ((x >>> 7) &&& 1) ||| (((x >>> 15) &&& 1) <<< 1) ||| (((x >>> 23) &&& 1) <<< 2)
    ||| (((x >>> 31) &&& 1) <<< 3)

/-- `_mm_movemask_epi8`: the most significant bits of the 16 bytes. -/
def mm_movemask_epi8 (a : Nat → Nat) : Nat :=
  laneMask (a 0) ||| (laneMask (a 1) <<< 4) ||| (laneMask (a 2) <<< 8) ||| (laneMask (a 3) <<< 12)

/-- `_mm_and_si128`. -/
def mm_and_si128 (a b : Nat → Nat) : Nat → Nat := fun l => a l &&& b l

/-- `_mm_add_epi32`. -/
def mm_add_epi32 (a b : Nat → Nat) : Nat → Nat := fun l => (a l + b l) % 2 ^ 32

/-- `_mm_sub_epi32`. -/
def mm_sub_epi32 (a b : Nat → Nat) : Nat → Nat :=
  fun l => (a l % 2 ^ 32 + 2 ^ 32 - b l % 2 ^ 32) % 2 ^ 32

/-- `_addRegToPending(sieve, pending, pos, reg, mask)`. -/
def addRegToPending (m : Miner) (s : PendingState) (reg : Nat → Nat) (mask : Nat) :
    PendingState :=
  let s0 := if mask &&& 0x0008 ≠ 0 then addToPending m s (reg 0) else s
  let s1 := if mask &&& 0x0080 ≠ 0 then addToPending m s0 (reg 1) else s0
  let s2 := if mask &&& 0x0800 ≠ 0 then addToPending m s1 (reg 2) else s1
  if mask &&& 0x8000 ≠ 0 then addToPending m s2 (reg 3) else s2

/-- The registers `offset1`, `offset2`, `offset3` and the pending state inside the
`while (true)` loop of `_processSieve6`. -/
structure Sieve6State where
  offset1 : Nat → Nat
  offset2 : Nat → Nat
  offset3 : Nat → Nat
  ps : PendingState

/-- The loop `while (true)` of `_processSieve6`; `none` stands for a loop that is still
running when the fuel is used up. -/
def sieve6While (m : Miner) (offsetmax p1 p2 p3 : Nat → Nat) :
    Nat → Sieve6State → Option Sieve6State
  | 0, _ => none
  | fuel + 1, s =>
    let cmpres1 := mm_cmpgt_epi32 offsetmax s.offset1
    let cmpres2 := mm_cmpgt_epi32 offsetmax s.offset2
    let cmpres3 := mm_cmpgt_epi32 offsetmax s.offset3
    let mask1 := mm_movemask_epi8 cmpres1
    let mask2 := mm_movemask_epi8 cmpres2
    let mask3 := mm_movemask_epi8 cmpres3
    if mask1 = 0 ∧ mask2 = 0 ∧ mask3 = 0 then some s
    else
      sieve6While m offsetmax p1 p2 p3 fuel
        { offset1 := mm_add_epi32 s.offset1 (mm_and_si128 cmpres1 p1)
          offset2 := mm_add_epi32 s.offset2 (mm_and_si128 cmpres2 p2)
          offset3 := mm_add_epi32 s.offset3 (mm_and_si128 cmpres3 p3)
          ps := addRegToPending m
            (addRegToPending m (addRegToPending m s.ps s.offset1 mask1) s.offset2 mask2)
            s.offset3 mask3 }

/-- The body of the loop `for (i = start_i; i < end_i; i += 2)` of `_processSieve6`. -/
def sieve6Pair (m : Miner) (i : Nat) (st : (Nat → Nat) × PendingState) :
    Option ((Nat → Nat) × PendingState) :=
  let offsetmax := mm_set1_epi32 m.sieveSize
  let p1 := mm_set1_epi32 (m.primes.getD i 0)
  let p3 := mm_set1_epi32 (m.primes.getD (i + 1) 0)
  let p2 := mm_shuffle_ps_0000 p1 p3
  match sieve6While m offsetmax p1 p2 p3 (2 ^ 32)
      { offset1 := mm_load_si128 st.1 (i * 6 + 0), offset2 := mm_load_si128 st.1 (i * 6 + 4),
        offset3 := mm_load_si128 st.1 (i * 6 + 8), ps := st.2 } with
  | none => none
  | some r =>
    some (mm_store_si128
        (mm_store_si128
          (mm_store_si128 st.1 (i * 6 + 0) (mm_sub_epi32 r.offset1 offsetmax))
          (i * 6 + 4) (mm_sub_epi32 r.offset2 offsetmax))
        (i * 6 + 8) (mm_sub_epi32 r.offset3 offsetmax),
      r.ps)

/-- The loop `for (i = start_i; i < end_i; i += 2)` of `_processSieve6`, run over the list
of the remaining values of `i`. -/
def sieve6Pairs (m : Miner) :
    List Nat → (Nat → Nat) × PendingState → Option ((Nat → Nat) × PendingState)
  | [], st => some st
  | i :: rest, st =>
    match sieve6Pair m i st with
    | none => none
    | some st1 => sieve6Pairs m rest st1

/-- `Miner::_processSieve6(sieve, offsets, start_i, end_i)`: the new bitmap and offset
table; `none` when one of the assertions fails or a loop does not end. -/
def processSieve6 (m : Miner) (sieve offsets : Nat → Nat) (start_i end_i : Nat) :
    Option ((Nat → Nat) × (Nat → Nat)) :=
  if m.primeTupleOffset.length = 6 ∧ start_i &&& 1 = 0 ∧ end_i &&& 1 = 0 then
    match sieve6Pairs m ((List.range ((end_i - start_i + 1) / 2)).map (fun k => start_i + 2 * k))
        (offsets, { sieve := sieve, pending := initPending (fun _ => 0), pos := 0 }) with
    | none => none
    | some st =>
      match termPending m st.2.sieve st.2.pending with
      | none => none
      | some sieve1 => some (sieve1, st.1)
  else none

/-- Lane `c < 12` of the three offset registers taken together. -/
def Sieve6State.lane (s : Sieve6State) (c : Nat) : Nat :=
  if c < 4 then s.offset1 c else if c < 8 then s.offset2 (c - 4) else s.offset3 (c - 8)

/-! ## Sieve worker: the marking part of one segment of `Miner::_runSieve` -/

/-- The loop `while (sieve.offsets[slot] < sieveSize) { sieve.sieve[off >> 3] |=
(1 << (off & 7)); sieve.offsets[slot] += p; }` of the alignment step on the `uint32_t`
cell whose value is `off`. `none` stands for a loop that is still running when the fuel is
used up. -/
def alignWhile (m : Miner) (p : Nat) : Nat → Nat → (Nat → Nat) → Option (Nat × (Nat → Nat))
  | 0, _, _ => none
  | fuel + 1, off, sieve =>
    if off < m.sieveSize then alignWhile m p fuel ((off + p) % 2 ^ 32) (markBit sieve off)
    else some (off, sieve)

/-- The body of the family loop of the alignment step for the cell `slot`: the `while`
loop, then `sieve.offsets[slot] -= sieveSize`. The state is the offset table and the
bitmap. -/
def alignFamily (m : Miner) (p slot : Nat) (st : (Nat → Nat) × (Nat → Nat)) :
    Option ((Nat → Nat) × (Nat → Nat)) :=
  match alignWhile m p (2 ^ 32) (st.1 slot) st.2 with
  | none => none
  | some r =>
    some (Function.update st.1 slot ((r.1 + 2 ^ 32 - m.sieveSize % 2 ^ 32) % 2 ^ 32), r.2)

/-- The family loop `for (f = 0; f < tupleSize; f++)` of the alignment step for the prime
index `pno`, run over the list of the remaining families. -/
def alignFamilies (m : Miner) (pno : Nat) :
    List Nat → (Nat → Nat) × (Nat → Nat) → Option ((Nat → Nat) × (Nat → Nat))
  | [], st => some st
  | f :: rest, st =>
    match alignFamily m (m.primes.getD pno 0 % 2 ^ 32) (pno * m.primeTupleOffset.length + f)
        st with
    | none => none
    | some st1 => alignFamilies m pno rest st1

/-- The alignment loop `for ( ; (start_i & 1) != 0 ; start_i++)` of `_runSieve`; the result
is the final `start_i` with the offset table and the bitmap. The parity of `start_i`
changes with every pass, so the body runs at most once; `none` stands for a loop that
is still running when the fuel is used up. -/
def alignLoop (m : Miner) :
    Nat → Nat → (Nat → Nat) × (Nat → Nat) → Option (Nat × ((Nat → Nat) × (Nat → Nat)))
  | 0, _, _ => none
  | fuel + 1, start_i, st =>
    if start_i &&& 1 ≠ 0 then
      match alignFamilies m start_i (List.range m.primeTupleOffset.length) st with
      | none => none
      | some st1 => alignLoop m fuel (start_i + 1) st1
    else some (start_i, st)

/-- The marking part of one pass of the loop `for (loop = 0; loop < maxIter; loop++)` of
`_runSieve`: `memset` of the bitmap, alignment, main sieve (`_processSieve6` for
six-member patterns, else `_processSieve`), and the segment hits of segment `loop` sent
through a fresh pending buffer. `none` when a loop does not end or an assertion fails. -/
def runSieveMark (m : Miner) (s : SieveInstance) (loop : Nat) : Option SieveInstance :=
  let sieve0 : Nat → Nat := fun a => if a < m.sieveSize / 8 then 0 else s.sieve a
  match alignLoop m 2 m.startingPrimeIndex (s.offsets, sieve0) with
  | none => none
  | some (start_i, st1) =>
    match (if m.primeTupleOffset.length = 6 then
        processSieve6 m st1.2 st1.1 start_i m.sparseLimit
      else processSieve m st1.2 st1.1 start_i m.sparseLimit) with
    | none => none
    | some (sieve2, offsets2) =>
      let ps := (List.range (s.segmentCounts loop)).foldl
        (fun ps i => addToPending m ps (s.segmentHits loop i))
        { sieve := sieve2, pending := initPending (fun _ => 0), pos := 0 }
      match termPending m ps.sieve ps.pending with
      | none => none
      | some sieve3 => some { s with sieve := sieve3, offsets := offsets2 }

/-- The sieve instance at the moment `_runSieve` has finished marking segment `loop`,
while the block height does not change (no `break` is taken); the candidate extraction
between two segments only reads the bitmap. `none` when the loop does not get that far. -/
def runSieveLoops (m : Miner) (s : SieveInstance) : Nat → Option SieveInstance
  | 0 => if 0 < m.maxIter then runSieveMark m s 0 else none
  | loop + 1 =>
    match runSieveLoops m s loop with
    | none => none
    | some s1 => if loop + 1 < m.maxIter then runSieveMark m s1 (loop + 1) else none

/-- One past the last prime index whose offset cells `_runSieve` reads: `sparseLimit`, or
the index after the alignment prime when that is larger. -/
def Miner.sieveEnd (m : Miner) : Nat :=
  max m.sparseLimit (m.startingPrimeIndex + m.startingPrimeIndex % 2)

/-- The largest value the dense sieve can compare without wrap-around: the SSE worker
compares signed 32-bit lanes, the generic one unsigned 32-bit cells. -/
def Miner.sieveBound (m : Miner) : Nat :=
  if m.primeTupleOffset.length = 6 then 2 ^ 31 else 2 ^ 32

/-- The effect of a piece of the dense sieve on the cells `lo ≤ slot < hi`, as far as
soundness needs it: every bit set afterwards was set before or is a member below
`sieveSize` of the progression of one of the cells; each cell ends as the first member of
its progression that is not below `sieveSize`, minus `sieveSize`; no other cell changes.
The state is the offset table and the bitmap. -/
def SoundEffect (m : Miner) (lo hi : Nat) (st st1 : (Nat → Nat) × (Nat → Nat)) : Prop :=
  (∀ idx, sieveBit st1.2 idx = true →
    (sieveBit st.2 idx = true ∨
      ∃ slot, lo ≤ slot ∧ slot < hi ∧ Reach m (m.slotPrime slot) (st.1 slot) idx)) ∧
  (∀ slot, lo ≤ slot → slot < hi →
    ∃ t, st1.1 slot = st.1 slot + t * m.slotPrime slot - m.sieveSize ∧
      m.sieveSize ≤ st.1 slot + t * m.slotPrime slot ∧
      ∀ t1, t1 < t → st.1 slot + t1 * m.slotPrime slot < m.sieveSize) ∧
  (∀ slot, (slot < lo ∨ hi ≤ slot) → st1.1 slot = st.1 slot)

/-- The invariant of the dense offset table at the start of segment `loop`, for the first
candidate `cand` of the sieve worker: every cell the sieve reads is below its prime, and
the prime divides `P * (loop * sieveSize + offset) + cand + (o[1] + ... + o[f])`. -/
def SegInv (m : Miner) (cand : Int) (loop : Nat) (offsets : Nat → Nat) : Prop :=
  ∀ i f, m.primorialNumber ≤ i → i < m.sieveEnd → f < m.primeTupleOffset.length →
    offsets (i * m.primeTupleOffset.length + f) < m.primes.getD i 0 ∧
    ((m.primes.getD i 0 : Nat) : Int) ∣
      (m.primorial : Int) *
          ((loop * m.sieveSize + offsets (i * m.primeTupleOffset.length + f) : Nat) : Int)
        + cand + (m.offsetSum f : Int)

/-- The index `idx` of segment `loop` has a witness: a prime `primes[i]` of the table with
`i ≥ primorialNumber` and a family `f` such that the prime divides
`P * (loop * sieveSize + idx) + cand + (o[1] + ... + o[f])`. -/
def HasWitness (m : Miner) (cand : Int) (loop idx : Nat) : Prop :=
  ∃ i f, m.primorialNumber ≤ i ∧ i < m.primes.length ∧ f < m.primeTupleOffset.length ∧
    ((m.primes.getD i 0 : Nat) : Int) ∣
      (m.primorial : Int) * ((loop * m.sieveSize + idx : Nat) : Int)
        + cand + (m.offsetSum f : Int)

/-- The segment hits the mod phase has written: every entry below the fill level of its
segment is an index below `sieveSize` that has a witness. -/
def HitsOK (m : Miner) (cand : Int) (s : SieveInstance) : Prop :=
  ∀ loop j, loop < m.maxIter → j < s.segmentCounts loop →
    s.segmentHits loop j < m.sieveSize ∧ HasWitness m cand loop (s.segmentHits loop j)

/-! ## Sieve worker: candidate extraction of `Miner::_runSieve` -/

/-- `WORK_INDEXES`. -/
def WORK_INDEXES : Nat := 64

/-- The `testWork` member of a `primeTestWork` of type `TYPE_CHECK`; the entries
`indexes[0 .. n_indexes)` are the valid ones. -/
structure TestWork where
  loop : Nat
  offsetId : Nat
  n_indexes : Nat
  indexes : Nat → Nat

/-- The valid entries `indexes[0 .. n_indexes)` of a job. -/
def TestWork.entries (w : TestWork) : List Nat := (List.range w.n_indexes).map w.indexes

/-- The state of the extraction loops: the job `w` being filled, the jobs pushed onto
`_verifyWorkQueue` so far, the counter `outstandingTests`, and the flag `stop`. -/
structure ExtractState where
  w : TestWork
  pushed : List TestWork
  outstandingTests : Nat
  stop : Bool

/-- The value of `n` little-endian bytes of the bitmap starting at byte `base`. -/
def word64 (sieve : Nat → Nat) : Nat → Nat → Nat
  | _, 0 => 0
  | base, n + 1 => sieve base % 256 + 256 * word64 sieve (base + 1) n

/-- The read `sieve64[b]` through `uint64_t *sieve64((uint64_t*) sieve.sieve)`. -/
def sieve64 (sieve : Nat → Nat) (b : Nat) : Nat := word64 sieve (8 * b) 8

/-- Number of trailing zero bits of a non-zero value below `2 ^ fuel`. -/
def ctzAux : Nat → Nat → Nat
  | 0, _ => 0
  | fuel + 1, x => if x % 2 = 1 then 0 else 1 + ctzAux fuel (x / 2)

/-- `__builtin_ctzll` on a non-zero `uint64_t`. -/
def ctzll (x : Nat) : Nat := ctzAux 64 x

/-- The loop `while (sb != 0)` of the extraction for the word `b`. The height test
`verifyBlock.height != _currentHeight` made when a job is full is the oracle `changed`,
asked with the number of jobs pushed so far. `none` stands for a loop that is still
running when the fuel is used up. -/
def extractWhile (changed : Nat → Bool) (b : Nat) : Nat → Nat → ExtractState → Option ExtractState
  | 0, _, _ => none
  | fuel + 1, sb, st =>
    if sb ≠ 0 then
      let lowsb := ctzll sb % 2 ^ 32
      let i := ((b * 64) % 2 ^ 32 + lowsb) % 2 ^ 32
      let sb1 := sb &&& (sb - 1)
      let w1 : TestWork :=
        { st.w with indexes := Function.update st.w.indexes st.w.n_indexes i,
                    n_indexes := (st.w.n_indexes + 1) % 2 ^ 32 }
      if w1.n_indexes = WORK_INDEXES then
        if changed st.pushed.length then some { st with w := w1, stop := true }
        else
          extractWhile changed b fuel sb1
            { st with w := { w1 with n_indexes := 0 }, pushed := st.pushed ++ [w1],
                      outstandingTests := st.outstandingTests + 1 }
      else extractWhile changed b fuel sb1 { st with w := w1 }
    else some st

/-- The loop `for (uint32_t b(0) ; !stop && b < sieveWords ; b++)` over the list of the
remaining words; each word is read as `sb = ~sieve64[b]`. -/
def extractWords (changed : Nat → Bool) (sieve : Nat → Nat) :
    List Nat → ExtractState → Option ExtractState
  | [], st => some st
  | b :: rest, st =>
    if st.stop then some st
    else
      match extractWhile changed b 65 (2 ^ 64 - 1 - sieve64 sieve b) st with
      | none => none
      | some st1 => extractWords changed sieve rest st1

/-- The candidate extraction of `_runSieve` for segment `loop` of the sieve instance
`offsetId`, from the initialisation of `w` to the last `push_back`. The result is the list
of the jobs pushed, the new value of `outstandingTests`, and whether the segment loop was
left by `break`. `indexes0` is the content of the uninitialised array `w.testWork.indexes`. -/
def extractSegment (m : Miner) (changed : Nat → Bool) (sieve : Nat → Nat) (loop offsetId : Nat)
    (indexes0 : Nat → Nat) (pushed0 : List TestWork) (outstandingTests0 : Nat) :
    Option (List TestWork × Nat × Bool) :=
  match extractWords changed sieve (List.range m.sieveWords)
      { w := { loop := loop, offsetId := offsetId % 2 ^ 32, n_indexes := 0, indexes := indexes0 },
        pushed := pushed0, outstandingTests := outstandingTests0, stop := false } with
  | none => none
  | some st =>
    if changed st.pushed.length then some (st.pushed, st.outstandingTests, true)
    else if st.w.n_indexes > 0 then
      some (st.pushed ++ [st.w], st.outstandingTests + 1, false)
    else some (st.pushed, st.outstandingTests, false)

/-- The valid entries of a list of jobs, one job after the other. -/
def allEntries : List TestWork → List Nat
  | [] => []
  | j :: rest => j.entries ++ allEntries rest

/-- The extraction has emitted the indices `l` so far: the jobs pushed since the start are
full jobs of segment `loop` and instance `offsetId`, the job being filled holds fewer
than `WORK_INDEXES` entries, the counter has grown by the number of jobs pushed, `stop` is
unset, and the entries of the pushed jobs followed by those of the job being filled are
`l`. -/
def Emitted (pushed0 : List TestWork) (outstandingTests0 loop offsetId : Nat)
    (st : ExtractState) (l : List Nat) : Prop :=
  ∃ jobs, st.pushed = pushed0 ++ jobs ∧
    (∀ j ∈ jobs, j.n_indexes = WORK_INDEXES ∧ j.loop = loop ∧ j.offsetId = offsetId) ∧
    st.w.n_indexes < WORK_INDEXES ∧ st.w.loop = loop ∧ st.w.offsetId = offsetId ∧
    st.outstandingTests = outstandingTests0 + jobs.length ∧ st.stop = false ∧
    allEntries jobs ++ st.w.entries = l

/-- The configuration `exampleMiner` with 32-bit sieve segments (`sieveBits = 5`), for which
`sieveWords = 0`. -/
def smallSieveMiner : Miner := { exampleMiner with sieveBits := 5 }

/-! ## Verifier: candidate reconstruction of `Miner::_verifyThread` -/

/-- The value `ploop` of a `TYPE_CHECK` job: `mpz_mul_ui(ploop, _primorial,
loop*sieveSize)` with the `uint64_t` product, then `verifyRemainderPrimorial`,
`verifyTarget` and `_primorialOffsetDiffToFirst[offsetId]` are added. -/
def verifyPloop (m : Miner) (verifyTarget verifyRemainderPrimorial : Int)
    (loop offsetId : Nat) : Int :=
  (m.primorial : Int) * (((loop * m.sieveSize) % 2 ^ 64 : Nat) : Int)
    + verifyRemainderPrimorial + verifyTarget + (m.primorialOffsetDiffToFirst offsetId : Int)

/-- The candidate of the entry `index` of a job: `candidate = _primorial*indexes[idx];
candidate += ploop`. -/
def verifyCandidate (m : Miner) (ploop : Int) (index : Nat) : Int :=
  (m.primorial : Int) * (index : Int) + ploop

/-- The configuration `exampleMiner` with the primorial offsets 97 and 7, the second below
the first. -/
def descendingMiner : Miner := { exampleMiner with primorialOffsets := [97, 7] }

/-! ## Verifier: the constellation walk of `Miner::_verifyThread` -/

/-- `isPrimeFermat(n)`: `mpz_powm(r, 2, n - 1, n); return r == 1`, for `n ≥ 1` (the
verifier only tests candidates above the target). -/
def isPrimeFermat (n : Int) : Bool :=
  decide ((2 : Int) ^ (n - 1).toNat % n = 1)

/-- The variables of the walk over the pattern: `candidate`, the `uint8_t tupleLength` and
the `uint16_t offsetSum`. -/
structure WalkState where
  candidate : Int
  tupleLength : Nat
  offsetSum : Nat

/-- The loop `for (i = 1; i < primeTupleOffset.size(); i++)` of the walk, run over the
list of the remaining values of `i`. In pool mode `int candidatesRemaining(5 - i)` is the
`uint64_t` difference converted to `int`. -/
def walkLoop (m : Miner) : List Nat → WalkState → WalkState
  | [], s => s
  | i :: rest, s =>
    let s1 : WalkState :=
      { s with offsetSum := (s.offsetSum + m.primeTupleOffset.getD i 0) % 2 ^ 16,
               candidate := s.candidate + (m.primeTupleOffset.getD i 0 : Int) }
    if isPrimeFermat s1.candidate then
      walkLoop m rest { s1 with tupleLength := (s1.tupleLength + 1) % 256 }
    else if !m.solo then
      let candidatesRemaining : Int := toInt32 ((5 + 2 ^ 64 - i % 2 ^ 64) % 2 ^ 64)
      if (s1.tupleLength : Int) + candidatesRemaining < 4 then s1
      else walkLoop m rest s1
    else s1

/-- What the verifier has done with one candidate: the final `tupleLength`, `candidate`
and `offsetSum`, the value `candidateOffset = candidate - verifyTarget` of the base, and
the value of `verifyBlock.primes` passed to `submitWork` (`none` when the candidate was
left by `continue`). -/
structure WalkOutcome where
  tupleLength : Nat
  candidate : Int
  offsetSum : Nat
  candidateOffset : Int
  submit : Option Nat

/-- The body of the loop over the indices of a `TYPE_CHECK` job in `_verifyThread`, from
`uint8_t tupleLength(0)` on, for the reconstructed `candidate`; `firstTestDone` tells
whether the batched kernel has already tested the base. -/
def verifyWalk (m : Miner) (firstTestDone : Bool) (verifyTarget candidate : Int) :
    WalkOutcome :=
  if !firstTestDone && !isPrimeFermat candidate then
    { tupleLength := 0, candidate := candidate, offsetSum := 0, candidateOffset := 0,
      submit := none }
  else
    let candidateOffset := candidate - verifyTarget
    let s := walkLoop m (List.range' 1 (m.primeTupleOffset.length - 1))
      { candidate := candidate, tupleLength := 1, offsetSum := 0 }
    let skip : Bool :=
      if m.solo then decide (s.tupleLength < m.tupleLengthMin) else decide (s.tupleLength < 4)
    { tupleLength := s.tupleLength, candidate := s.candidate, offsetSum := s.offsetSum,
      candidateOffset := candidateOffset,
      submit := if skip then none else some s.tupleLength }

/-- The number of leading consecutive members `n, n + o[1], n + o[1] + o[2], ...` of the
constellation that pass the Fermat test, in the words of the specification. -/
def leadingPassing (m : Miner) (n : Int) : Nat :=
  ((List.range m.primeTupleOffset.length).takeWhile
    (fun f => isPrimeFermat (n + (m.offsetSum f : Int)))).length

/-- The configuration `exampleMiner` in solo mode with a pattern of 257 entries 0. -/
def longPatternMiner : Miner := { exampleMiner with primeTupleOffset := List.replicate 257 0 }

/-- The number of members `n, n + o[1], n + o[1] + o[2], ...` with index below `k` that
pass the Fermat test, in the words of the specification. -/
def passCount (m : Miner) (n : Int) (k : Nat) : Nat :=
  ((List.range k).filter (fun f => isPrimeFermat (n + (m.offsetSum f : Int)))).length

/-- The configuration `exampleMiner` in pool mode with the eight-member pattern
`(0, 2, 6, 6, 2, 6, 2, 6)`. -/
def poolMiner8 : Miner :=
  { exampleMiner with solo := false, primeTupleOffset := [0, 2, 6, 6, 2, 6, 2, 6] }

/-- The configuration `exampleMiner` in pool mode. -/
def poolMiner : Miner := { exampleMiner with solo := false }

/-! ## Verifier: the write of `nOffset` -/

/-- The number of 64-bit limbs of a non-negative `mpz_t` value (`0` for the value 0). -/
def limbCount (n : Nat) : Nat := if n = 0 then 0 else Nat.log2 n / 64 + 1

/-- The field `_mp_size` of an `mpz_t`: the number of limbs, negated for a negative value. -/
def mpSize (x : Int) : Int :=
  if x < 0 then -(limbCount x.natAbs : Int) else (limbCount x.natAbs : Int)

/-- The limb `_mp_d[d]` of an `mpz_t` (limbs of the absolute value, least significant
first). -/
def mpLimb (x : Int) (d : Nat) : Nat := x.natAbs / 2 ^ (64 * d) % 2 ^ 64

/-- The store `*(mp_limb_t*) (nOffset + d*sizeof(mp_limb_t)) = v` of one 64-bit limb into
the byte array `nOffset` (little-endian). -/
def storeLimb (nOffset : Nat → Nat) (d v : Nat) : Nat → Nat :=
  fun a => if 8 * d ≤ a ∧ a < 8 * d + 8 then v / 256 ^ (a - 8 * d) % 256 else nOffset a

/-- The loop that generates `nOffset`: `for (d = 0; d < min(32/sizeof(mp_limb_t),
(uint32_t) candidateOffset._mp_size); d++)` with the limb store, for 8-byte limbs. -/
def writeNOffset (nOffset : Nat → Nat) (candidateOffset : Int) : Nat → Nat :=
  (List.range (min (32 / 8) (mpSize candidateOffset % 2 ^ 32).toNat)).foldl
    (fun mem d => storeLimb mem d (mpLimb candidateOffset d)) nOffset

/-- The 32 bytes of `nOffset` read as a little-endian integer. -/
def nOffsetValue (nOffset : Nat → Nat) : Nat := word64 nOffset 0 32

/-- The field `verifyBlock.bh.nOffset` after the verifier has handled one candidate: it is
written when the candidate is submitted. -/
def verifyNOffset (m : Miner) (firstTestDone : Bool) (verifyTarget candidate : Int)
    (nOffset : Nat → Nat) : Nat → Nat :=
  match (verifyWalk m firstTestDone verifyTarget candidate).submit with
  | some _ => writeNOffset nOffset (verifyWalk m firstTestDone verifyTarget candidate).candidateOffset
  | none => nOffset

/-! ## Mod phase: accounting of the once-only path -/

/-- The entries of a list of spilled indices that fall into segment `seg`
(`index >> sieveBits = seg`), in order. -/
def inSeg (m : Miner) (seg : Nat) (l : List Nat) : List Nat :=
  l.filter (fun x => x >>> m.sieveBits == seg)

/-- The filled part `segmentHits[seg][0 .. segmentCounts[seg])` of a bucket. -/
def hitsList (sv : SieveInstance) (seg : Nat) : List Nat :=
  (List.range (sv.segmentCounts seg)).map (sv.segmentHits seg)

/-- The filled part `offsets[j][0 .. n_offsets[j])` of the spill buffer of worker `j`. -/
def buffered (s : ModLoop) (j : Nat) : List Nat :=
  (List.range (s.nOffsets j)).map (s.st.offsetStack j)

/-- The entries of a list of indices that pass the guard `index < maxIncrements`. -/
def keepLow (m : Miner) (l : List Nat) : List Nat :=
  l.filter (fun x => decide (x < m.maxIncrements))

/-- The bookkeeping of the once-only path for worker `j`, relative to the sieve instance
`sv0` the call started from: the indices `E` pushed so far are the flushed ones `F`
followed by the buffered ones; for every segment the spill count is the number of
buffered indices of the segment, the fill level has grown by the number of flushed ones,
and the bucket has been extended by the flushed indices modulo `sieveSize`, in order. -/
def SpillInv (m : Miner) (sv0 : SieveInstance) (s : ModLoop) (j : Nat) (E : List Nat) : Prop :=
  ∃ F, E = F ++ buffered s j ∧ ∀ seg, seg < m.maxIter →
    s.st.offsetCount j seg = (inSeg m seg (buffered s j)).length ∧
    (s.st.sieves j).segmentCounts seg = sv0.segmentCounts seg + (inSeg m seg F).length ∧
    hitsList (s.st.sieves j) seg
      = hitsList sv0 seg ++ (inSeg m seg F).map (fun x => x % m.sieveSize)

/-- The spill buffer, the spill counts and the buckets of worker `j` are the same in two
loop states. -/
def SameSpill (j : Nat) (s s1 : ModLoop) : Prop :=
  s1.nOffsets j = s.nOffsets j ∧ s1.st.offsetStack j = s.st.offsetStack j ∧
  s1.st.offsetCount j = s.st.offsetCount j ∧
  (s1.st.sieves j).segmentCounts = (s.st.sieves j).segmentCounts ∧
  (s1.st.sieves j).segmentHits = (s.st.sieves j).segmentHits

/-- The value of `index` with which `addToOffsets(w)` is entered at prime index `i`, as the
code computes it: the first index of the prime for worker 0, and for worker `w + 1` the
last family's index of worker `w` minus `(primorialOffsetDiff[w] * inverts[i]) mod p`,
wrapped by `+p`. -/
def workerBase (m : Miner) (tar i : Nat) : Nat → Nat
  | 0 => m.firstIndex tar i
  | w + 1 =>
    subWrap (m.primes.getD i 0)
      (famChain m (m.primes.getD i 0) (invertLattice (m.inverts.getD i 0) (m.primes.getD i 0))
        (workerBase m tar i w) (m.primeTupleOffset.length - 1))
      ((m.primorialOffsetDiff w * m.inverts.getD i 0) % m.primes.getD i 0)

/-- The reduced index of the pair (prime index `i`, family `f`) for worker `w`. -/
def reducedIndex (m : Miner) (tar i w f : Nat) : Nat :=
  famChain m (m.primes.getD i 0) (invertLattice (m.inverts.getD i 0) (m.primes.getD i 0))
    (workerBase m tar i w) f

/-- The reduced indices below `maxIncrements` of the families of the once-only prime index
`i` for worker `w`, in family order (none for a prime of the dense range). -/
def primePairs (m : Miner) (tar w i : Nat) : List Nat :=
  if m.sparseLimit ≤ i then
    keepLow m ((List.range m.primeTupleOffset.length).map (reducedIndex m tar i w))
  else []

/-- The reduced indices below `maxIncrements` of all (prime, family) pairs of the prime
indices `a, ..., a + n - 1` that are once-only, for worker `w`. -/
def rangePairs (m : Miner) (tar w : Nat) : Nat → Nat → List Nat
  | _, 0 => []
  | a, n + 1 => primePairs m tar w a ++ rangePairs m tar w (a + 1) n

/-- The configuration `exampleMiner` with 64 increments: `init` then finds the once-only
primes 67, ..., 97 at the indices 18, ..., 24 and sets `sparseLimit = 18`, `nPrimes = 25`
and `entriesPerSegment = 43`. -/
def sparseMiner : Miner :=
  { exampleMiner with maxIncrements := 64, nPrimes := 25, sparseLimit := 18,
                      entriesPerSegment := 43 }

/-- The configuration `sparseMiner` with a pattern of `OFFSET_STACK_SIZE = 16384` entries,
so that the flush test of `addToOffsets` succeeds at once; `entriesPerSegment` is the
value `init` computes for it. -/
def stackMiner : Miner :=
  { sparseMiner with primeTupleOffset := List.replicate 16384 0, entriesPerSegment := 104946 }

/-- The height test of `addToOffsets(j)` finds the block stale exactly for worker `k`: the
height changes while the workers below `k` are served. -/
def staleAtWorker (k : Nat) : Nat → Nat → Bool := fun _ j => decide (j = k)

/-- The expression `x & (~1ull)` on a `uint64_t`. -/
def andNotOne (x : Nat) : Nat := x &&& (2 ^ 64 - 2)

/-- One pass of the loop `for (i = 5; i < _nPrimes; i++)` of `Miner::init`, on the variable
`_sparseLimit`; the other accumulators of the loop (`_primeTestStoreOffsetsSize`,
`highFloats`) do not influence it. -/
def sparseStep (primes : List Nat) (maxIncrements : Nat) (sparseLimit i : Nat) : Nat :=
  if primes.getD i 0 < maxIncrements then sparseLimit
  else if sparseLimit = 0 then andNotOne i else sparseLimit

/-- The values `(_nPrimes, _sparseLimit)` that `Miner::init` leaves for the prime table
`primes`: the loop over `i ≥ 5`, then `_nPrimes &= ~1; _sparseLimit = _nPrimes` when the
loop has left `_sparseLimit` at 0. -/
def initSparse (primes : List Nat) (maxIncrements : Nat) : Nat × Nat :=
  let sparseLimit :=
    (List.range' 5 (primes.length - 5)).foldl (sparseStep primes maxIncrements) 0
  if sparseLimit = 0 then (andNotOne primes.length, andNotOne primes.length)
  else (primes.length, sparseLimit)

/-- The configuration `exampleMiner` in solo mode with the constellation pattern entered
as `(0, 2, 6, 8, 12, 18, 20, 26)` and `tupleLengthMin = 8`. -/
def octupletMiner : Miner :=
  { exampleMiner with primeTupleOffset := [0, 2, 6, 8, 12, 18, 20, 26], tupleLengthMin := 8 }

/-- The configuration `exampleMiner` in solo mode with the step offsets
`(0, 2, 4, 2, 4, 6, 2, 6)` of the constellation `(0, 2, 6, 8, 12, 18, 20, 26)` and
`tupleLengthMin = 8`. -/
def octupletStepMiner : Miner :=
  { exampleMiner with primeTupleOffset := [0, 2, 4, 2, 4, 6, 2, 6], tupleLengthMin := 8 }

/-! ## Master: the adaptive work target (`Miner::init`, `Miner::_processOneBlock`) -/

/-- Modelled from the spec: `_workDoneQueue.size()` of the `tsQueue<int64_t, 9216>`, the
capacity of the queue as a `uint32_t`. -/
def WORK_DONE_CAPACITY : Nat := 9216

/-- The statement `_maxWorkOut = std::min(threads*32u*sieveWorkers,
_workDoneQueue.size() - 256)` of `Miner::init`, in `uint32_t` arithmetic. -/
def initMaxWorkOut (threads sieveWorkers : Nat) : Nat :=
  min ((threads * 32 * sieveWorkers) % 2 ^ 32) ((WORK_DONE_CAPACITY + 2 ^ 32 - 256) % 2 ^ 32)

/-- The adjustment of `_maxWorkOut` at the end of `_processOneBlock` (the body of
`if (_currentHeight == height && !isNewHeight)`), in `uint32_t` arithmetic; `threads` and
`sieveWorkers` are the non-negative values of the `int16_t` and `int` parameters. -/
def adjustMaxWorkOut (threads sieveWorkers maxWorkOut curWorkOut minWorkOut : Nat) : Nat :=
  let maxWorkOut1 :=
    if curWorkOut > (maxWorkOut + 2 ^ 32 - (threads * 2) % 2 ^ 32) % 2 ^ 32 then
      if minWorkOut = 0 then (maxWorkOut + (4 * threads * sieveWorkers) % 2 ^ 32) % 2 ^ 32
      else
        let targetMaxWork :=
          ((maxWorkOut + 2 ^ 32 - minWorkOut % 2 ^ 32) % 2 ^ 32 + (8 * threads) % 2 ^ 32)
            % 2 ^ 32
        ((maxWorkOut + targetMaxWork) % 2 ^ 32) / 2
    else if minWorkOut > (4 * threads) % 2 ^ 32 then
      let targetMaxWork :=
        ((curWorkOut + 2 ^ 32 - minWorkOut % 2 ^ 32) % 2 ^ 32 + (10 * threads) % 2 ^ 32)
          % 2 ^ 32
      ((maxWorkOut + targetMaxWork) % 2 ^ 32) / 2
    else maxWorkOut
  min maxWorkOut1 ((WORK_DONE_CAPACITY + 2 ^ 32 - (9 * threads) % 2 ^ 32) % 2 ^ 32)

/-! ## Master: the slicing of the mod phase (`Miner::_processOneBlock`) -/

/-- The variables of the slicing loop of `_processOneBlock`: the `TYPE_MOD` jobs
`(start, end)` pushed onto `_modWorkQueue` so far, in push order, and the two counters. -/
structure SliceState where
  jobs : List (Nat × Nat)
  nLowModWorkers : Nat
  nModWorkers : Nat

/-- The loop `for (base = _startingPrimeIndex; base < _nPrimes; base += incr)` of
`_processOneBlock` on `uint64_t` values; `none` stands for a loop that is still running
when the fuel is used up. -/
def sliceLoop (nPrimes sparseLimit incr : Nat) : Nat → Nat → SliceState → Option SliceState
  | 0, _, _ => none
  | fuel + 1, base, s =>
    if base < nPrimes then
      let lim := min nPrimes ((base + incr) % 2 ^ 64)
      sliceLoop nPrimes sparseLimit incr fuel ((base + incr) % 2 ^ 64)
        { jobs := s.jobs ++ [(base, lim)],
          nLowModWorkers :=
            if base < sparseLimit then s.nLowModWorkers + 1 else s.nLowModWorkers,
          nModWorkers := if base < sparseLimit then s.nModWorkers else s.nModWorkers + 1 }
    else some s

/-- The slicing of `_processOneBlock`: `incr = _nPrimes/(threads*8)` and the loop, started
with no job and both counters 0. -/
def modJobs (m : Miner) : Option SliceState :=
  sliceLoop m.nPrimes m.sparseLimit (m.nPrimes / (m.threads * 8)) (m.nPrimes + 1)
    m.startingPrimeIndex { jobs := [], nLowModWorkers := 0, nModWorkers := 0 }

/-- The invariant of the slicing loop at the loop head with the variable `base`. -/
def SliceInv (nPrimes sparseLimit incr start base : Nat) (s : SliceState) : Prop :=
  start ≤ base ∧ (base = start ∨ base < nPrimes + incr) ∧
  (∀ j ∈ s.jobs, j.1 < j.2 ∧ j.2 - j.1 ≤ incr ∧ j.2 ≤ base ∧ j.2 ≤ nPrimes) ∧
  s.jobs.Pairwise (fun a b => a.2 ≤ b.1) ∧
  (∀ x, (∃ j ∈ s.jobs, j.1 ≤ x ∧ x < j.2) ↔ (start ≤ x ∧ x < base ∧ x < nPrimes)) ∧
  s.nLowModWorkers + s.nModWorkers = s.jobs.length ∧
  s.nLowModWorkers = (s.jobs.filter (fun j => decide (j.1 < sparseLimit))).length ∧
  s.jobs.length * incr + start ≤ base

/-! ## Verifier: the batched first test (`Miner::_testPrimesIspc`, `Miner::_verifyThread`) -/

/-- Library model (GMP manual) of `mpz_sizeinbase(x, 2)`: the number of bits of `|x|`, and
1 for `x = 0`. -/
def sizeInBase2 (x : Int) : Nat := if x = 0 then 1 else Nat.log2 x.natAbs + 1

/-- The loop of `_testPrimesIspc` over the 64 indices, as far as its control flow goes:
the first candidate fixes `bits` and `N_Size`, and the function returns `false` when
`N_Size > MAX_N_SIZE`; every later candidate must have the same number of bits. The result
is `some true` when the loop ends, `some false` for `return false`, `none` for a failed
assertion. `maxNSize` is the constant `MAX_N_SIZE` of the kernel's header. -/
def ispcLoop (m : Miner) (maxNSize : Nat) (indexes : Nat → Nat) (ploop : Int) :
    List Nat → Nat → Option Bool
  | [], _ => some true
  | i :: rest, bits =>
    let sz := sizeInBase2 (verifyCandidate m ploop (indexes i))
    if bits = 0 then
      let bits1 := sz % 2 ^ 32
      let nSize := (bits1 >>> 5) + (if bits1 &&& 0x1f > 0 then 1 else 0)
      if nSize > maxNSize then some false else ispcLoop m maxNSize indexes ploop rest bits1
    else if bits = sz then ispcLoop m maxNSize indexes ploop rest bits
    else none

/-- `Miner::_testPrimesIspc(indexes, is_prime, ploop, candidate)`. Modelled from the spec:
the external kernel `fermatTest` fills `is_prime` with one pass/fail word per candidate;
`kernel` is the array it produces. The result is `none` for a failed assertion,
`some none` for `return false`, and `some (some is_prime)` for `return true`. -/
def testPrimesIspc (m : Miner) (maxNSize : Nat) (kernel : Nat → Nat) (indexes : Nat → Nat)
    (ploop : Int) : Option (Option (Nat → Nat)) :=
  match ispcLoop m maxNSize indexes ploop (List.range WORK_INDEXES) 0 with
  | none => none
  | some false => some none
  | some true => some (some kernel)

/-- The in-place compaction of `_verifyThread`, one pass:
`if (isPrime[i]) indexes[n_indexes++] = indexes[i]`. The state is `(indexes, n_indexes)`. -/
def compactStep (isPrime : Nat → Nat) (st : (Nat → Nat) × Nat) (i : Nat) : (Nat → Nat) × Nat :=
  if isPrime i ≠ 0 then (Function.update st.1 st.2 (st.1 i), st.2 + 1) else st

/-- The loop `for (idx = 0; idx < n_indexes; idx++)` of `_verifyThread` while the height
does not change, run over the list of the remaining values of `idx`: the candidate is
reconstructed and walked, and `submitWork` is called or not. The result is the list of
the submissions `(base candidate, tupleLength)` in the order they are made. -/
def checkLoop (m : Miner) (firstTestDone : Bool) (verifyTarget ploop : Int)
    (indexes : Nat → Nat) : List Nat → List (Int × Nat) → List (Int × Nat)
  | [], subs => subs
  | idx :: rest, subs =>
    match (verifyWalk m firstTestDone verifyTarget
        (verifyCandidate m ploop (indexes idx))).submit with
    | none => checkLoop m firstTestDone verifyTarget ploop indexes rest subs
    | some tupleLength =>
      checkLoop m firstTestDone verifyTarget ploop indexes rest
        (subs ++ [(verifyCandidate m ploop (indexes idx), tupleLength)])

/-- The `TYPE_CHECK` branch of `_verifyThread` for the job `w` while the height does not
change: the submissions it makes, or `none` when the assertion of `_testPrimesIspc`
fails. -/
def checkJob (m : Miner) (maxNSize : Nat) (kernel : Nat → Nat)
    (verifyTarget verifyRemainderPrimorial : Int) (w : TestWork) :
    Option (List (Int × Nat)) :=
  let ploop := verifyPloop m verifyTarget verifyRemainderPrimorial w.loop w.offsetId
  if m.hasAVX2 && m.enableAvx2 && decide (w.n_indexes = WORK_INDEXES) then
    match testPrimesIspc m maxNSize kernel w.indexes ploop with
    | none => none
    | some none =>
      some (checkLoop m false verifyTarget ploop w.indexes (List.range w.n_indexes) [])
    | some (some isPrime) =>
      let c := (List.range WORK_INDEXES).foldl (compactStep isPrime) (w.indexes, 0)
      some (checkLoop m true verifyTarget ploop c.1 (List.range c.2) [])
  else some (checkLoop m false verifyTarget ploop w.indexes (List.range w.n_indexes) [])

/-- The submission of one index in the words of the specification: the candidate
`P * index + ploop` with its `tupleLength` when `submitWork` is called for it. -/
def submissionOf (m : Miner) (firstTestDone : Bool) (verifyTarget ploop : Int) (index : Nat) :
    Option (Int × Nat) :=
  (verifyWalk m firstTestDone verifyTarget (verifyCandidate m ploop index)).submit.map
    (fun tupleLength => (verifyCandidate m ploop index, tupleLength))

/-- Every cell of a `uint8_t` array holds a value below 256. -/
def BytesOK (sieve : Nat → Nat) : Prop := ∀ a, sieve a < 256

/-- The dense offset table at the start of segment `loop`, relative to the table `off0`
the mod phase has written: for every cell the sieve reads, with prime `p = primes[i]`,
the stored value is below `p`, and `loop * sieveSize + stored value` is the smallest
member of the progression `off0, off0 + p, off0 + 2p, ...` that is not below
`loop * sieveSize`. -/
def CellInv (m : Miner) (off0 : Nat → Nat) (loop : Nat) (offsets : Nat → Nat) : Prop :=
  ∀ i f, m.primorialNumber ≤ i → i < m.sieveEnd → f < m.primeTupleOffset.length →
    offsets (i * m.primeTupleOffset.length + f) < m.primes.getD i 0 ∧
    ∃ k, loop * m.sieveSize + offsets (i * m.primeTupleOffset.length + f)
        = off0 (i * m.primeTupleOffset.length + f) + k * m.primes.getD i 0 ∧
      ∀ k1, k1 < k →
        off0 (i * m.primeTupleOffset.length + f) + k1 * m.primes.getD i 0 < loop * m.sieveSize

/-! ## Sieve worker: the calls of `_addToPending`, recorded

The functions of this section are the dense sieves and the segment-hit loop once more,
with a record of what they pass to `_addToPending` carried along. -/

/-- A record of the calls of `_addToPending` made so far: the entries `ent` passed, in
call order, and whether the branch `old >= sieveSize` has been taken. -/
structure PendingLog where
  entries : List Nat
  clamped : Bool

/-- `_addToPending` with the record of its calls: the entry is appended to the record, and
the branch is taken when the evicted cell `old` is non-zero and not below `sieveSize`. -/
def addToPendingLog (m : Miner) (s : PendingState × PendingLog) (ent : Nat) :
    PendingState × PendingLog :=
  (addToPending m s.1 ent,
    { entries := s.2.entries ++ [ent]
      clamped := s.2.clamped ||
        (decide (s.1.pending s.1.pos ≠ 0) && decide (s.1.pending s.1.pos ≥ m.sieveSize)) })

/-- The `while` loop of `_processSieve` (see `sieveWhile`) with the record. -/
def sieveWhileLog (m : Miner) (p : Nat) :
    Nat → Nat → PendingState × PendingLog → Option (Nat × (PendingState × PendingLog))
  | 0, _, _ => none
  | fuel + 1, off, s =>
    if off < m.sieveSize then
      sieveWhileLog m p fuel ((off + p) % 2 ^ 32) (addToPendingLog m s off)
    else some (off, s)

/-- The body of the family loop of `_processSieve` (see `sieveFamily`) with the record. -/
def sieveFamilyLog (m : Miner) (p slot : Nat) (st : (Nat → Nat) × (PendingState × PendingLog)) :
    Option ((Nat → Nat) × (PendingState × PendingLog)) :=
  match sieveWhileLog m p (2 ^ 32) (st.1 slot) st.2 with
  | none => none
  | some r =>
    some (Function.update st.1 slot ((r.1 + 2 ^ 32 - m.sieveSize % 2 ^ 32) % 2 ^ 32), r.2)

/-- The family loop of `_processSieve` (see `sieveFamilies`) with the record. -/
def sieveFamiliesLog (m : Miner) (i : Nat) :
    List Nat → (Nat → Nat) × (PendingState × PendingLog) →
      Option ((Nat → Nat) × (PendingState × PendingLog))
  | [], st => some st
  | f :: rest, st =>
    match sieveFamilyLog m (m.primes.getD i 0 % 2 ^ 32) (i * m.primeTupleOffset.length + f)
        st with
    | none => none
    | some st1 => sieveFamiliesLog m i rest st1

/-- The prime loop of `_processSieve` (see `sievePrimes`) with the record. -/
def sievePrimesLog (m : Miner) :
    List Nat → (Nat → Nat) × (PendingState × PendingLog) →
      Option ((Nat → Nat) × (PendingState × PendingLog))
  | [], st => some st
  | i :: rest, st =>
    match sieveFamiliesLog m i (List.range m.primeTupleOffset.length) st with
    | none => none
    | some st1 => sievePrimesLog m rest st1

/-- `Miner::_processSieve` (see `processSieve`) with the record of its calls of
`_addToPending`: the new bitmap and offset table, and the record; `none` when a loop does
not end or the assertion of `_termPending` fails. -/
def processSieveLog (m : Miner) (sieve offsets : Nat → Nat) (start_i end_i : Nat) :
    Option (((Nat → Nat) × (Nat → Nat)) × PendingLog) :=
  match sievePrimesLog m (List.range' start_i (end_i - start_i))
      (offsets, ({ sieve := sieve, pending := initPending (fun _ => 0), pos := 0 },
        { entries := [], clamped := false })) with
  | none => none
  | some st =>
    match termPending m st.2.1.sieve st.2.1.pending with
    | none => none
    | some sieve1 => some ((sieve1, st.1), st.2.2)

/-- `_addRegToPending` (see `addRegToPending`) with the record. -/
def addRegToPendingLog (m : Miner) (s : PendingState × PendingLog) (reg : Nat → Nat)
    (mask : Nat) : PendingState × PendingLog :=
  let s0 := if mask &&& 0x0008 ≠ 0 then addToPendingLog m s (reg 0) else s
  let s1 := if mask &&& 0x0080 ≠ 0 then addToPendingLog m s0 (reg 1) else s0
  let s2 := if mask &&& 0x0800 ≠ 0 then addToPendingLog m s1 (reg 2) else s1
  if mask &&& 0x8000 ≠ 0 then addToPendingLog m s2 (reg 3) else s2

/-- The loop `while (true)` of `_processSieve6` (see `sieve6While`) with the record. -/
def sieve6WhileLog (m : Miner) (offsetmax p1 p2 p3 : Nat → Nat) :
    Nat → Sieve6State × PendingLog → Option (Sieve6State × PendingLog)
  | 0, _ => none
  | fuel + 1, s =>
    let cmpres1 := mm_cmpgt_epi32 offsetmax s.1.offset1
    let cmpres2 := mm_cmpgt_epi32 offsetmax s.1.offset2
    let cmpres3 := mm_cmpgt_epi32 offsetmax s.1.offset3
    let mask1 := mm_movemask_epi8 cmpres1
    let mask2 := mm_movemask_epi8 cmpres2
    let mask3 := mm_movemask_epi8 cmpres3
    if mask1 = 0 ∧ mask2 = 0 ∧ mask3 = 0 then some s
    else
      let a := addRegToPendingLog m
        (addRegToPendingLog m (addRegToPendingLog m (s.1.ps, s.2) s.1.offset1 mask1)
          s.1.offset2 mask2)
        s.1.offset3 mask3
      sieve6WhileLog m offsetmax p1 p2 p3 fuel
        ({ offset1 := mm_add_epi32 s.1.offset1 (mm_and_si128 cmpres1 p1)
           offset2 := mm_add_epi32 s.1.offset2 (mm_and_si128 cmpres2 p2)
           offset3 := mm_add_epi32 s.1.offset3 (mm_and_si128 cmpres3 p3)
           ps := a.1 }, a.2)

/-- The body of the loop over the pairs of primes of `_processSieve6` (see `sieve6Pair`)
with the record. -/
def sieve6PairLog (m : Miner) (i : Nat) (st : (Nat → Nat) × (PendingState × PendingLog)) :
    Option ((Nat → Nat) × (PendingState × PendingLog)) :=
  let offsetmax := mm_set1_epi32 m.sieveSize
  let p1 := mm_set1_epi32 (m.primes.getD i 0)
  let p3 := mm_set1_epi32 (m.primes.getD (i + 1) 0)
  let p2 := mm_shuffle_ps_0000 p1 p3
  match sieve6WhileLog m offsetmax p1 p2 p3 (2 ^ 32)
      ({ offset1 := mm_load_si128 st.1 (i * 6 + 0), offset2 := mm_load_si128 st.1 (i * 6 + 4),
         offset3 := mm_load_si128 st.1 (i * 6 + 8), ps := st.2.1 }, st.2.2) with
  | none => none
  | some r =>
    some (mm_store_si128
        (mm_store_si128
          (mm_store_si128 st.1 (i * 6 + 0) (mm_sub_epi32 r.1.offset1 offsetmax))
          (i * 6 + 4) (mm_sub_epi32 r.1.offset2 offsetmax))
        (i * 6 + 8) (mm_sub_epi32 r.1.offset3 offsetmax),
      (r.1.ps, r.2))

/-- The loop over the pairs of primes of `_processSieve6` (see `sieve6Pairs`) with the
record. -/
def sieve6PairsLog (m : Miner) :
    List Nat → (Nat → Nat) × (PendingState × PendingLog) →
      Option ((Nat → Nat) × (PendingState × PendingLog))
  | [], st => some st
  | i :: rest, st =>
    match sieve6PairLog m i st with
    | none => none
    | some st1 => sieve6PairsLog m rest st1

/-- `Miner::_processSieve6` (see `processSieve6`) with the record of its calls of
`_addToPending`; `none` when one of the assertions fails or a loop does not end. -/
def processSieve6Log (m : Miner) (sieve offsets : Nat → Nat) (start_i end_i : Nat) :
    Option (((Nat → Nat) × (Nat → Nat)) × PendingLog) :=
  if m.primeTupleOffset.length = 6 ∧ start_i &&& 1 = 0 ∧ end_i &&& 1 = 0 then
    match sieve6PairsLog m
        ((List.range ((end_i - start_i + 1) / 2)).map (fun k => start_i + 2 * k))
        (offsets, ({ sieve := sieve, pending := initPending (fun _ => 0), pos := 0 },
          { entries := [], clamped := false })) with
    | none => none
    | some st =>
      match termPending m st.2.1.sieve st.2.1.pending with
      | none => none
      | some sieve1 => some ((sieve1, st.1), st.2.2)
  else none

/-- The segment-hit loop of `_runSieve` for segment `loop` on the bitmap `sieve2`
(`_initPending`, `_addToPending` of `segmentHits[loop][i]` for `i < segmentCounts[loop]`,
`_termPending`) with the record; `none` when the assertion of `_termPending` fails. -/
def segmentHitsLog (m : Miner) (s : SieveInstance) (loop : Nat) (sieve2 : Nat → Nat) :
    Option ((Nat → Nat) × PendingLog) :=
  let ps := (List.range (s.segmentCounts loop)).foldl
    (fun ps i => addToPendingLog m ps (s.segmentHits loop i))
    ({ sieve := sieve2, pending := initPending (fun _ => 0), pos := 0 },
      { entries := [], clamped := false })
  match termPending m ps.1.sieve ps.1.pending with
  | none => none
  | some sieve3 => some (sieve3, ps.2)

/-- The record shows a run without fault: every entry passed to `_addToPending` is below
`sieveSize`, and the branch `old >= sieveSize` has not been taken. -/
def LogOK (m : Miner) (g : PendingLog) : Prop :=
  (∀ e ∈ g.entries, e < m.sieveSize) ∧ g.clamped = false

/-! ## Job pipeline: the mod phase and the start of the sieve phase
(`Miner::_processOneBlock`, `Miner::_verifyThread`)

The master and the worker threads are interleaved at their operations on the three
queues; a blocked operation is a step that cannot be taken. The per-sieve `modLock` only
delays a thread and is left out. -/

/-- Modelled from the spec: `push_back` on a bounded FIFO queue of capacity `cap`; `none`
while the queue is full (the call blocks). -/
def queuePushBack {α : Type} (cap : Nat) (q : List α) (x : α) : Option (List α) :=
  if q.length < cap then some (q ++ [x]) else none

/-- Modelled from the spec: `push_front` on a bounded FIFO queue of capacity `cap`; `none`
while the queue is full (the call blocks). -/
def queuePushFront {α : Type} (cap : Nat) (q : List α) (x : α) : Option (List α) :=
  if q.length < cap then some (x :: q) else none

/-- Modelled from the spec: `pop_front` on a FIFO queue, the element popped and the rest;
`none` while the queue is empty (the call blocks; `pop_front_if_not_empty` returns
`false`). -/
def queuePopFront {α : Type} (q : List α) : Option (α × List α) :=
  match q with
  | [] => none
  | x :: rest => some (x, rest)

/-- The capacity of `_modWorkQueue` (`tsQueue<primeTestWork, 1024>`). -/
def MOD_QUEUE_CAPACITY : Nat := 1024

/-- The capacity of `_verifyWorkQueue` (`tsQueue<primeTestWork, 4096>`). -/
def VERIFY_QUEUE_CAPACITY : Nat := 4096

/-- The value of a `uint64_t` converted to `int64_t`. -/
def toInt64 (x : Nat) : Int :=
  if x % 2 ^ 64 < 2 ^ 63 then ((x % 2 ^ 64 : Nat) : Int) else ((x % 2 ^ 64 : Nat) : Int) - 2 ^ 64

/-- The value of an `int64_t` converted to `uint64_t`. -/
def toUInt64 (i : Int) : Nat := (i % 2 ^ 64).toNat

/-- A `primeTestWork` as far as the pipeline looks at it: the type, `workDataIndex`, and
`modWork.start`, `modWork.end` or `sieveWork.sieveId`. -/
inductive PipeJob where
  | mod (workDataIndex start end_ : Nat)
  | sieve (workDataIndex sieveId : Nat)
  | check (workDataIndex : Nat)
  | dummy

/-- Where a worker is in the loop of `_verifyThread`: at the top of the loop, blocked in
`_verifyWorkQueue.pop_front()` after it found `_modWorkQueue` empty, inside
`_updateRemainders(workDataIndex, start, end)`, inside `_runSieve`, or inside the
`TYPE_CHECK` branch. -/
inductive WorkerPc where
  | top
  | waiting
  | inMod (workDataIndex start end_ : Nat)
  | inSieve (workDataIndex sieveId : Nat)
  | inCheck (workDataIndex : Nat)

/-- Where the master is in `_processOneBlock`: in the slicing loop before
`_modWorkQueue.push_back(wi)` or before `_verifyWorkQueue.push_front(wd)`, in the loop
`while (nLowModWorkers > 0)`, at the assertion, in the loop that pushes the `TYPE_SIEVE`
jobs, in the loops `while (nModWorkers > 0)` and `while (nSieveWorkers > 0)`, or behind
them. -/
inductive MasterPc where
  | slicing (base : Nat)
  | slicingWake (base : Nat)
  | drainLow
  | aborted
  | pushSieve (i : Nat)
  | drainMod
  | drainSieve
  | finished

/-- The shared state of the pipeline and the local variables of the master. The last two
fields are bookkeeping for the statements, not program variables: the number of
`TYPE_MOD` jobs with `start < _sparseLimit` pushed so far, and the number of values
popped in the branch `nLowModWorkers--`. -/
structure Pipeline where
  modWorkQueue : List PipeJob
  verifyWorkQueue : List PipeJob
  workDoneQueue : List Int
  workers : List WorkerPc
  outstandingTests : Nat → Int
  master : MasterPc
  nModWorkers : Int
  nLowModWorkers : Int
  nSieveWorkers : Int
  lowCreated : Nat
  lowPopped : Nat

/-- What the scheduler can choose: the next step of the master, the next queue operation of
worker `w`, or a sieve worker `w` pushing a `TYPE_CHECK` job from inside `_runSieve`. -/
inductive PipeAction where
  | master
  | worker (w : Nat)
  | sievePush (w : Nat)

/-- The branch of `_verifyThread` a popped job leads to; `TYPE_DUMMY` leads back to the top
of the loop. -/
def dispatch : PipeJob → WorkerPc
  | PipeJob.mod workDataIndex start end_ => WorkerPc.inMod workDataIndex start end_
  | PipeJob.sieve workDataIndex sieveId => WorkerPc.inSieve workDataIndex sieveId
  | PipeJob.check workDataIndex => WorkerPc.inCheck workDataIndex
  | PipeJob.dummy => WorkerPc.top

/-- `_workDoneQueue.push_back(v)` at the end of a branch of `_verifyThread`; the worker is
back at the top of its loop. -/
def pushDone (s : Pipeline) (w : Nat) (v : Int) : Option Pipeline :=
  match queuePushBack WORK_DONE_CAPACITY s.workDoneQueue v with
  | none => none
  | some q => some { s with workDoneQueue := q, workers := s.workers.set w WorkerPc.top }

/-- The next queue operation of worker `w` in `_verifyThread`: at the top,
`_modWorkQueue.pop_front_if_not_empty(job)`; else `_verifyWorkQueue.pop_front()`; at the
end of a `TYPE_MOD` job `push_back(-int64_t(job.modWork.start))`, of a `TYPE_SIEVE` job
`push_back(-1)`, of a `TYPE_CHECK` job `push_back(job.workDataIndex)`. -/
def workerStep (s : Pipeline) (w : Nat) : Option Pipeline :=
  match s.workers.get? w with
  | none => none
  | some WorkerPc.top =>
    match queuePopFront s.modWorkQueue with
    | some (job, rest) =>
      some { s with modWorkQueue := rest, workers := s.workers.set w (dispatch job) }
    | none => some { s with workers := s.workers.set w WorkerPc.waiting }
  | some WorkerPc.waiting =>
    match queuePopFront s.verifyWorkQueue with
    | some (job, rest) =>
      some { s with verifyWorkQueue := rest, workers := s.workers.set w (dispatch job) }
    | none => none
  | some (WorkerPc.inMod _ start _) => pushDone s w (-(toInt64 start))
  | some (WorkerPc.inSieve _ _) => pushDone s w (-1)
  | some (WorkerPc.inCheck workDataIndex) => pushDone s w ((workDataIndex % 2 ^ 32 : Nat) : Int)

/-- A worker inside `_runSieve` pushes a `TYPE_CHECK` job:
`_verifyWorkQueue.push_back(w); _workData[workDataIndex].outstandingTests++`. -/
def sievePushStep (s : Pipeline) (w : Nat) : Option Pipeline :=
  match s.workers.get? w with
  | some (WorkerPc.inSieve workDataIndex _) =>
    match queuePushBack VERIFY_QUEUE_CAPACITY s.verifyWorkQueue
        (PipeJob.check workDataIndex) with
    | none => none
    | some q =>
      some { s with
        verifyWorkQueue := q,
        outstandingTests := Function.update s.outstandingTests workDataIndex
          (s.outstandingTests workDataIndex + 1) }
  | _ => none

/-- The statement `if (i >= 0) _workData[i].outstandingTests--` of the drain loops. -/
def countDown (outstandingTests : Nat → Int) (i : Int) : Nat → Int :=
  Function.update outstandingTests i.toNat (outstandingTests i.toNat - 1)

/-- The next step of the master in `_processOneBlock` for the block `workDataIndex`, from
the slicing loop on: one queue operation with the local statements that follow it. The
`int32_t` counters are integers (they count jobs of the block), and the index of
`_workData` in the last loop is taken as in the other two. -/
def masterStep (m : Miner) (workDataIndex : Nat) (s : Pipeline) : Option Pipeline :=
  match s.master with
  | MasterPc.slicing base =>
    if base < m.nPrimes then
      match queuePushBack MOD_QUEUE_CAPACITY s.modWorkQueue
          (PipeJob.mod workDataIndex base
            (min m.nPrimes ((base + m.nPrimes / (m.threads * 8)) % 2 ^ 64))) with
      | none => none
      | some q =>
        some { s with
          modWorkQueue := q,
          master := MasterPc.slicingWake base,
          lowCreated := if base < m.sparseLimit then s.lowCreated + 1 else s.lowCreated }
    else some { s with master := MasterPc.drainLow }
  | MasterPc.slicingWake base =>
    match queuePushFront VERIFY_QUEUE_CAPACITY s.verifyWorkQueue PipeJob.dummy with
    | none => none
    | some q =>
      some { s with
        verifyWorkQueue := q,
        nLowModWorkers :=
          if base < m.sparseLimit then s.nLowModWorkers + 1 else s.nLowModWorkers,
        nModWorkers := if base < m.sparseLimit then s.nModWorkers else s.nModWorkers + 1,
        master := MasterPc.slicing ((base + m.nPrimes / (m.threads * 8)) % 2 ^ 64) }
  | MasterPc.drainLow =>
    if s.nLowModWorkers > 0 then
      match queuePopFront s.workDoneQueue with
      | none => none
      | some (i, rest) =>
        if i ≥ 0 then
          some { s with workDoneQueue := rest, outstandingTests := countDown s.outstandingTests i }
        else if toUInt64 (-i) < m.sparseLimit then
          some { s with
            workDoneQueue := rest, nLowModWorkers := s.nLowModWorkers - 1,
            lowPopped := s.lowPopped + 1 }
        else some { s with workDoneQueue := rest, nModWorkers := s.nModWorkers - 1 }
    else if s.outstandingTests workDataIndex = 0 then
      some { s with master := MasterPc.pushSieve 0, nSieveWorkers := (m.sieveWorkers : Int) }
    else some { s with master := MasterPc.aborted }
  | MasterPc.aborted => none
  | MasterPc.pushSieve i =>
    if i < m.sieveWorkers then
      match queuePushFront VERIFY_QUEUE_CAPACITY s.verifyWorkQueue
          (PipeJob.sieve workDataIndex i) with
      | none => none
      | some q => some { s with verifyWorkQueue := q, master := MasterPc.pushSieve (i + 1) }
    else some { s with master := MasterPc.drainMod }
  | MasterPc.drainMod =>
    if s.nModWorkers > 0 then
      match queuePopFront s.workDoneQueue with
      | none => none
      | some (i, rest) =>
        if i ≥ 0 then
          some { s with workDoneQueue := rest, outstandingTests := countDown s.outstandingTests i }
        else if i = -1 then
          some { s with workDoneQueue := rest, nSieveWorkers := s.nSieveWorkers - 1 }
        else some { s with workDoneQueue := rest, nModWorkers := s.nModWorkers - 1 }
    else some { s with master := MasterPc.drainSieve }
  | MasterPc.drainSieve =>
    if s.nSieveWorkers > 0 then
      match queuePopFront s.workDoneQueue with
      | none => none
      | some (i, rest) =>
        if i = -1 then
          some { s with workDoneQueue := rest, nSieveWorkers := s.nSieveWorkers - 1 }
        else
          some { s with workDoneQueue := rest, outstandingTests := countDown s.outstandingTests i }
    else some { s with master := MasterPc.finished }
  | MasterPc.finished => none

/-- One step of the pipeline; `none` when the chosen thread is blocked or has no step. -/
def pipeStep (m : Miner) (workDataIndex : Nat) (s : Pipeline) : PipeAction → Option Pipeline
  | PipeAction.master => masterStep m workDataIndex s
  | PipeAction.worker w => workerStep s w
  | PipeAction.sievePush w => sievePushStep s w

/-- The state after the steps of a schedule, taken in order; `none` when one of them cannot
be taken. -/
def pipeRun (m : Miner) (workDataIndex : Nat) : Pipeline → List PipeAction → Option Pipeline
  | s, [] => some s
  | s, a :: rest =>
    match pipeStep m workDataIndex s a with
    | none => none
    | some s1 => pipeRun m workDataIndex s1 rest

/-- The job is a `TYPE_MOD` job with `start < _sparseLimit`. -/
def lowJob (m : Miner) : PipeJob → Bool
  | PipeJob.mod _ start _ => decide (start < m.sparseLimit)
  | _ => false

/-- The worker is inside `_updateRemainders` for a job with `start < _sparseLimit`. -/
def lowPc (m : Miner) : WorkerPc → Bool
  | WorkerPc.inMod _ start _ => decide (start < m.sparseLimit)
  | _ => false

/-- The value takes the branch `nLowModWorkers--` of the first drain loop. -/
def lowValue (m : Miner) (i : Int) : Bool :=
  !decide (i ≥ 0) && decide (toUInt64 (-i) < m.sparseLimit)

/-- The job is a `TYPE_SIEVE` job. -/
def isSieveJob : PipeJob → Bool
  | PipeJob.sieve _ _ => true
  | _ => false

/-- The worker is inside `_runSieve`. -/
def isSievePc : WorkerPc → Bool
  | WorkerPc.inSieve _ _ => true
  | _ => false

/-- The job is a `TYPE_MOD` job. -/
def isModJob : PipeJob → Bool
  | PipeJob.mod _ _ _ => true
  | _ => false

/-- The worker is inside `_updateRemainders`. -/
def isModPc : WorkerPc → Bool
  | WorkerPc.inMod _ _ _ => true
  | _ => false

/-- A `TYPE_MOD` job starts below `_nPrimes`. -/
def startOK (m : Miner) : PipeJob → Bool
  | PipeJob.mod _ start _ => decide (start < m.nPrimes)
  | _ => true

/-- A worker inside `_updateRemainders` runs a job that starts below `_nPrimes`. -/
def startOKPc (m : Miner) : WorkerPc → Bool
  | WorkerPc.inMod _ start _ => decide (start < m.nPrimes)
  | _ => true

/-- The master is in the slicing loop or in the loop `while (nLowModWorkers > 0)`. -/
def countingPhase : MasterPc → Bool
  | MasterPc.slicing _ => true
  | MasterPc.slicingWake _ => true
  | MasterPc.drainLow => true
  | _ => false

/-- The master has not pushed a `TYPE_SIEVE` job yet. -/
def beforeSieve : MasterPc → Bool
  | MasterPc.slicing _ => true
  | MasterPc.slicingWake _ => true
  | MasterPc.drainLow => true
  | MasterPc.aborted => true
  | MasterPc.pushSieve i => decide (i = 0)
  | _ => false

/-- The increment of `nLowModWorkers` that is due: 1 when the master has pushed a
`TYPE_MOD` job with `start < _sparseLimit` and has not counted it yet. -/
def pendingLow (m : Miner) : MasterPc → Int
  | MasterPc.slicingWake base => if base < m.sparseLimit then 1 else 0
  | _ => 0

/-- The master has left the loop `while (nLowModWorkers > 0)` and passed the assertion. -/
def afterLowDrain : MasterPc → Bool
  | MasterPc.pushSieve _ => true
  | MasterPc.drainMod => true
  | MasterPc.drainSieve => true
  | MasterPc.finished => true
  | _ => false

/-- The state of the pipeline when the master enters the slicing loop of a block: no
`TYPE_MOD` or `TYPE_SIEVE` job is queued or running, `_workDoneQueue` holds no negative
value, and the counters are 0. -/
def BlockStart (m : Miner) (s : Pipeline) : Prop :=
  s.master = MasterPc.slicing m.startingPrimeIndex ∧
  s.nLowModWorkers = 0 ∧ s.nModWorkers = 0 ∧ s.lowCreated = 0 ∧ s.lowPopped = 0 ∧
  s.modWorkQueue = [] ∧
  (∀ j ∈ s.verifyWorkQueue, isModJob j = false ∧ isSieveJob j = false) ∧
  (∀ pc ∈ s.workers, isModPc pc = false ∧ isSievePc pc = false) ∧
  (∀ v ∈ s.workDoneQueue, 0 ≤ v)

/-- The number of `TYPE_MOD` jobs with `start < _sparseLimit` that are queued or running. -/
def lowQueuedOrRunning (m : Miner) (s : Pipeline) : Nat :=
  s.modWorkQueue.countP (lowJob m) + s.verifyWorkQueue.countP (lowJob m)
    + s.workers.countP (lowPc m)

/-- No `TYPE_SIEVE` job is queued or running. -/
def NoSieve (s : Pipeline) : Prop :=
  (∀ j ∈ s.modWorkQueue, isSieveJob j = false) ∧
  (∀ j ∈ s.verifyWorkQueue, isSieveJob j = false) ∧
  (∀ pc ∈ s.workers, isSievePc pc = false)

/-- The invariant of the pipeline. The `TYPE_MOD` jobs start below `_nPrimes`; until the
first `TYPE_SIEVE` job is pushed none is queued or running; up to the assertion
`nLowModWorkers` (with the increment that is due) is at least the number of low `TYPE_MOD`
jobs that are queued, running or wait with their value in `_workDoneQueue`; afterwards no
low `TYPE_MOD` job is queued or running. -/
def PipeInv (m : Miner) (s : Pipeline) : Prop :=
  ((∀ j ∈ s.modWorkQueue, startOK m j = true) ∧ (∀ j ∈ s.verifyWorkQueue, startOK m j = true) ∧
    (∀ pc ∈ s.workers, startOKPc m pc = true)) ∧
  (beforeSieve s.master = true → NoSieve s) ∧
  (countingPhase s.master = true →
    ((lowQueuedOrRunning m s + s.workDoneQueue.countP (lowValue m) : Nat) : Int)
      ≤ s.nLowModWorkers + pendingLow m s.master ∧
    s.nLowModWorkers + pendingLow m s.master + (s.lowPopped : Int) = (s.lowCreated : Int)) ∧
  (afterLowDrain s.master = true → lowQueuedOrRunning m s = 0 ∧ s.lowPopped = s.lowCreated) ∧
  (s.master = MasterPc.pushSieve 0 → s.workDoneQueue.countP (lowValue m) = 0)

/-- What the steps of the workers leave alone and what they cannot increase. -/
def WorkerFrame (m : Miner) (s s1 : Pipeline) : Prop :=
  s1.master = s.master ∧ s1.nLowModWorkers = s.nLowModWorkers ∧
  s1.lowCreated = s.lowCreated ∧ s1.lowPopped = s.lowPopped ∧
  ((∀ j ∈ s1.modWorkQueue, startOK m j = true) ∧ (∀ j ∈ s1.verifyWorkQueue, startOK m j = true) ∧
    (∀ pc ∈ s1.workers, startOKPc m pc = true)) ∧
  lowQueuedOrRunning m s1 ≤ lowQueuedOrRunning m s ∧
  (NoSieve s → NoSieve s1 ∧
    lowQueuedOrRunning m s1 + s1.workDoneQueue.countP (lowValue m)
      ≤ lowQueuedOrRunning m s + s.workDoneQueue.countP (lowValue m))

/-- The thread-local variables `offsetStack` and `offsetCount` of one verify thread, with
the flag telling whether they have been allocated. -/
structure SpillLocal where
  offsetStack : Nat → Nat → Nat
  offsetCount : Nat → Nat → Nat
  allocated : Bool

/-- The memory the `TYPE_MOD` jobs of a block work on: the sieve instances `_sieves[j]`,
which all verify threads share, and the thread-local spill buffers of every verify
thread. -/
structure ModMemory where
  sieves : Nat → SieveInstance
  locals : Nat → SpillLocal

/-- The memory of `_updateRemainders` when verify thread `t` makes the call. -/
def ModMemory.view (mem : ModMemory) (t : Nat) : ModState :=
  { sieves := mem.sieves, offsetStack := (mem.locals t).offsetStack,
    offsetCount := (mem.locals t).offsetCount, allocated := (mem.locals t).allocated }

/-- The memory after a call of `_updateRemainders` made by verify thread `t` has left the
state `st`. -/
def ModMemory.store (mem : ModMemory) (t : Nat) (st : ModState) : ModMemory :=
  { sieves := st.sieves,
    locals := Function.update mem.locals t
      { offsetStack := st.offsetStack, offsetCount := st.offsetCount,
        allocated := st.allocated } }

/-- The `TYPE_MOD` branch of `_verifyThread` in verify thread `t` for the job
`(modWork.start, modWork.end)`:
`_updateRemainders(job.workDataIndex, job.modWork.start, job.modWork.end)` on the shared
sieve instances and the thread's own spill buffers. After an early `return` of the call
the thread goes on as after a normal end; `none` stands for `abort()`. -/
def runModJob (m : Miner) (stale : Nat → Nat → Bool)
    (verifyTarget verifyRemainderPrimorial : Int) (t : Nat) (job : Nat × Nat)
    (mem : ModMemory) : Option ModMemory :=
  match updateRemainders m stale verifyTarget verifyRemainderPrimorial job.1 job.2
      (mem.view t) with
  | Outcome.normal st => some (mem.store t st)
  | Outcome.returned st => some (mem.store t st)
  | Outcome.aborted => none

/-- The `TYPE_MOD` jobs of one block, the calls of `_updateRemainders` made one after the
other: `sched` lists, in the order of the calls, the verify thread that took the job and
the range `(start, end)` of the job. -/
def runModJobs (m : Miner) (stale : Nat → Nat → Bool)
    (verifyTarget verifyRemainderPrimorial : Int) :
    List (Nat × (Nat × Nat)) → ModMemory → Option ModMemory
  | [], mem => some mem
  | tj :: rest, mem =>
    match runModJob m stale verifyTarget verifyRemainderPrimorial tj.1 tj.2 mem with
    | none => none
    | some mem1 => runModJobs m stale verifyTarget verifyRemainderPrimorial rest mem1

/-- The reduced indices below `maxIncrements` of the once-only (prime, family) pairs of the
ranges `(start, end)` of a list of jobs, for worker `w`, job after job. -/
def jobsPairs (m : Miner) (tar w : Nat) : List (Nat × Nat) → List Nat
  | [] => []
  | job :: rest => rangePairs m tar w job.1 (job.2 - job.1) ++ jobsPairs m tar w rest

/-- The ranges `(start, end)` of `jobs` cut `[a, b)` into consecutive slices: the first
starts at `a`, each next one starts where the one before ends, and the last ends at `b`. -/
def SliceChain : Nat → List (Nat × Nat) → Nat → Prop
  | a, [], b => a = b
  | a, job :: rest, b => job.1 = a ∧ job.1 ≤ job.2 ∧ SliceChain job.2 rest b

/-- The memory of the mod phase before any verify thread has called `_updateRemainders`,
with all fill levels zero. -/
def zeroModMemory : ModMemory :=
  { sieves := fun _ => zeroSieve,
    locals := fun _ => { offsetStack := fun _ _ => 0, offsetCount := fun _ _ => 0,
                         allocated := false } }

/-! ## Mod phase: the segment buckets under interleaved flushes -/

/-- One call `_putOffsetsInSegments(_sieves[worker], offsets, counts, n_offsets)` as a
verify thread issues it: the worker number and the values of the three other arguments at
the call. -/
structure FlushReq where
  worker : Nat
  offsets : Nat → Nat
  counts : Nat → Nat
  n : Nat

/-- The spilled indices `offsets[0 .. n_offsets)` of a call. -/
def FlushReq.entries (r : FlushReq) : List Nat := (List.range r.n).map r.offsets

/-- Where a verify thread is inside `_putOffsetsInSegments`: in the first loop at
`segment`, or in the second loop at `i`. -/
inductive FlushPc where
  | reserve (segment : Nat)
  | store (i : Nat)

/-- A verify thread during the mod phase, as far as the segment buckets go: the calls of
`_putOffsetsInSegments` it has completed, the calls it still has to make (the first of
them is in progress), the place inside the call in progress, and the array `counts` the
call works on. -/
structure FlushThread where
  done : List FlushReq
  todo : List FlushReq
  pc : FlushPc
  counts : Nat → Nat

/-- The `counts` array with which a thread enters the first of the calls `todo`: the
argument `counts` of that call (the array as it is when the thread has nothing left to do). -/
def entryCounts (todo : List FlushReq) (counts : Nat → Nat) : Nat → Nat :=
  match todo with
  | [] => counts
  | r :: _ => r.counts

/-- One atomic operation of a verify thread inside `_putOffsetsInSegments`, on the sieve
instances shared by all threads. In the first loop: the `fetch_add` of `counts[segment]`
on `segmentCounts[segment]` with the test for `abort()` (`none`) and
`counts[segment] = curSegmentCount`; at `segment = maxIter` the thread passes to the second
loop. In the second loop: one store into `segmentHits` and `counts[segment]++`. At the end
of the second loop the call returns, and the thread, whose own computation does not touch
the buckets, is at the entry of its next call. A thread with nothing to do stays as it
is. -/
def flushStep (m : Miner) (sieves : Nat → SieveInstance) (th : FlushThread) :
    Option ((Nat → SieveInstance) × FlushThread) :=
  match th.todo with
  | [] => some (sieves, th)
  | r :: rest =>
    match th.pc with
    | FlushPc.reserve segment =>
      if segment < m.maxIter then
        let curSegmentCount := (sieves r.worker).segmentCounts segment
        let sc := curSegmentCount + th.counts segment
        if sc ≥ m.entriesPerSegment then none
        else
          some (Function.update sieves r.worker
              { sieves r.worker with
                segmentCounts := Function.update (sieves r.worker).segmentCounts segment sc },
            { th with pc := FlushPc.reserve (segment + 1),
                      counts := Function.update th.counts segment curSegmentCount })
      else some (sieves, { th with pc := FlushPc.store 0 })
    | FlushPc.store i =>
      if i < r.n then
        let index := r.offsets i
        let segment := index >>> m.sieveBits
        let sc := th.counts segment
        some (Function.update sieves r.worker
            { sieves r.worker with
              segmentHits := Function.update (sieves r.worker).segmentHits segment
                (Function.update ((sieves r.worker).segmentHits segment) sc
                  ((index &&& (m.sieveSize - 1)) % 2 ^ 32)) },
          { th with pc := FlushPc.store (i + 1),
                    counts := Function.update th.counts segment (sc + 1) })
      else
        some (sieves, { done := th.done ++ [r], todo := rest, pc := FlushPc.reserve 0,
                        counts := entryCounts rest th.counts })

/-- The sieve instances and the verify threads of the mod phase. -/
structure FlushSystem where
  sieves : Nat → SieveInstance
  threads : Nat → FlushThread

/-- Verify thread `t` makes its next atomic operation. -/
def systemStep (m : Miner) (t : Nat) (sys : FlushSystem) : Option FlushSystem :=
  match flushStep m sys.sieves (sys.threads t) with
  | none => none
  | some r => some { sieves := r.1, threads := Function.update sys.threads t r.2 }

/-- The run of the system under an interleaving: the list names, in order, the thread
that makes the next atomic operation; `none` when an operation aborts. -/
def systemRun (m : Miner) : List Nat → FlushSystem → Option FlushSystem
  | [], sys => some sys
  | t :: rest, sys =>
    match systemStep m t sys with
    | none => none
    | some sys1 => systemRun m rest sys1

/-- The spilled indices of the calls of a list for worker `w`, call after call. -/
def entriesOf (w : Nat) : List FlushReq → List Nat
  | [] => []
  | r :: rest => (if r.worker = w then r.entries else []) ++ entriesOf w rest

/-- The value `index & (sieveSize - 1)` as the second loop of `_putOffsetsInSegments`
stores it into a `uint32_t` cell. -/
def Miner.hitOf (m : Miner) (index : Nat) : Nat := (index &&& (m.sieveSize - 1)) % 2 ^ 32

/-- The spilled indices the thread has stored into the buckets of worker `w` so far: those
of its completed calls for `w` and, if the call in progress is one for `w`,
`offsets[0 .. i)` when the second loop is at `i`. -/
def FlushThread.wrote (th : FlushThread) (w : Nat) : List Nat :=
  entriesOf w th.done ++
    (match th.todo with
     | [] => []
     | r :: _ =>
       if r.worker = w then
         match th.pc with
         | FlushPc.reserve _ => []
         | FlushPc.store i => (List.range i).map r.offsets
       else [])

/-- The number of slots of the bucket `(w, seg)` the thread has reserved so far: one for
every spilled index of segment `seg` of its completed calls for `w` and, if the call in
progress is one for `w` and has made its `fetch_add` on `seg`, of that call. -/
def FlushThread.reservedCount (m : Miner) (th : FlushThread) (w seg : Nat) : Nat :=
  (inSeg m seg (entriesOf w th.done)).length +
    (match th.todo with
     | [] => 0
     | r :: _ =>
       if r.worker = w then
         match th.pc with
         | FlushPc.reserve segment =>
           if seg < segment then (inSeg m seg r.entries).length else 0
         | FlushPc.store _ => (inSeg m seg r.entries).length
       else 0)

/-- The number of slots of the bucket `(w, seg)` that the call in progress has reserved
and not yet written: they are the positions from `counts[seg]` on. -/
def FlushThread.holeLen (m : Miner) (th : FlushThread) (w seg : Nat) : Nat :=
  match th.todo with
  | [] => 0
  | r :: _ =>
    if r.worker = w then
      match th.pc with
      | FlushPc.reserve segment =>
        if seg < segment then (inSeg m seg r.entries).length else 0
      | FlushPc.store i => (inSeg m seg ((List.range' i (r.n - i)).map r.offsets)).length
    else 0

/-- The call is one for a sieve worker of the configuration and hands in exact counts:
`counts[seg]` is the number of its spilled indices of segment `seg`, and every spilled
index lies in a segment below `maxIter`. -/
def FlushReq.Exact (m : Miner) (r : FlushReq) : Prop :=
  r.worker < m.sieveWorkers ∧
  (∀ seg, seg < m.maxIter → r.counts seg = (inSeg m seg r.entries).length) ∧
  ∀ x ∈ r.entries, x >>> m.sieveBits < m.maxIter

/-- The calls the thread still has to make hand in exact counts, the second loop of
the call in progress has not run past `n_offsets`, and while the first loop is at
`segment` the entries of `counts` from `segment` on are those the call was entered with. -/
def FlushThread.WF (m : Miner) (th : FlushThread) : Prop :=
  (∀ r ∈ th.todo, r.Exact m) ∧
  (∀ r rest i, th.todo = r :: rest → th.pc = FlushPc.store i → i ≤ r.n) ∧
  ∀ r rest segment, th.todo = r :: rest → th.pc = FlushPc.reserve segment →
    ∀ seg, segment ≤ seg → th.counts seg = r.counts seg

/-- The invariant of one bucket under interleaved flushes. `C` is the fill level, `cells`
the bucket; thread `t` holds the reserved, not yet written positions
`[hs t, hs t + hl t)`, has reserved `rc t` slots in all, and has stored the indices
`wr t`. The fill level is the sum of the reservations, the holes lie below the fill level
and are pairwise disjoint, and the positions below the fill level outside all holes hold
the stored indices (masked), as a multiset. -/
def BucketInv (mask : Nat → Nat) (T C : Nat) (cells : Nat → Nat) (hs hl rc : Nat → Nat)
    (wr : Nat → List Nat) : Prop :=
  C = Finset.sum (Finset.range T) rc ∧
  (∀ t, t < T → 0 < hl t → hs t + hl t ≤ C) ∧
  (∀ t t1, t < T → t1 < T → t ≠ t1 → 0 < hl t → 0 < hl t1 →
    hs t + hl t ≤ hs t1 ∨ hs t1 + hl t1 ≤ hs t) ∧
  ∃ S : Finset Nat, (∀ p, p ∈ S ↔ p < C ∧ ∀ t, t < T → ¬ (hs t ≤ p ∧ p < hs t + hl t)) ∧
    Multiset.map cells S.val
      = Finset.sum (Finset.range T) (fun t => (((wr t).map mask : List Nat) : Multiset Nat))

/-- The invariant of the bucket `(w, seg)` of the system. -/
def FlushSystem.BucketOK (m : Miner) (T : Nat) (sys : FlushSystem) (w seg : Nat) : Prop :=
  BucketInv m.hitOf T ((sys.sieves w).segmentCounts seg) ((sys.sieves w).segmentHits seg)
    (fun t => (sys.threads t).counts seg) (fun t => (sys.threads t).holeLen m w seg)
    (fun t => (sys.threads t).reservedCount m w seg)
    (fun t => inSeg m seg ((sys.threads t).wrote w))

/-- The invariant of the system of `T` verify threads with the scripts `script t` (the
calls of `_putOffsetsInSegments` thread `t` makes during the mod phase, in order): every
thread has completed a first part of its script and still has to make the rest, the
remaining calls hand in exact counts, the threads from `T` on have nothing to do, and
every bucket satisfies the bucket invariant. -/
def FlushSystem.OK (m : Miner) (T : Nat) (script : Nat → List FlushReq) (sys : FlushSystem) :
    Prop :=
  (∀ t, (sys.threads t).done ++ (sys.threads t).todo = script t) ∧
  (∀ t, (sys.threads t).WF m) ∧
  (∀ t, T ≤ t → (sys.threads t).todo = []) ∧
  ∀ w seg, w < m.sieveWorkers → seg < m.maxIter → sys.BucketOK m T w seg

/-- The spilled indices for worker `w` of the scripts of the threads `0, ..., T - 1`,
thread after thread. -/
def scriptEntries (w : Nat) (script : Nat → List FlushReq) : Nat → List Nat
  | 0 => []
  | T + 1 => scriptEntries w script T ++ entriesOf w (script T)

/-- The system before the first atomic operation: the sieve instances `sieves`, and every
thread at the entry of the first call of its script. -/
def startSystem (sieves : Nat → SieveInstance) (script : Nat → List FlushReq) : FlushSystem :=
  { sieves := sieves,
    threads := fun t =>
      { done := [], todo := script t, pc := FlushPc.reserve 0,
        counts := entryCounts (script t) (fun _ => 0) } }

/-- The number of atomic operations a thread still has to make. -/
def FlushThread.work (m : Miner) (th : FlushThread) : Nat :=
  match th.todo with
  | [] => 0
  | r :: rest =>
    (match th.pc with
     | FlushPc.reserve segment => (m.maxIter - segment) + r.n + 3
     | FlushPc.store i => (r.n - i) + 1)
    + (rest.map (fun r1 => m.maxIter + r1.n + 3)).sum

/-! ## Mod phase: the calls of `_putOffsetsInSegments` a verify thread issues -/

/-- The loop state of `_updateRemainders` in a verify thread together with the calls of
`_putOffsetsInSegments` the thread has issued so far, in order. -/
structure ReqLoop where
  loop : ModLoop
  log : List FlushReq

/-- The call `_putOffsetsInSegments(_sieves[j], offsets[j], counts[j], n_offsets[j])`
followed by `n_offsets[j] = 0`, as the calling thread sees it once the call has returned:
the call is added to the log with the values of its arguments, and the last loop of the
call has zeroed `counts[j]` over the segments. What the call does to the buckets, and
whether it aborts, is the matter of `flushStep`. -/
def flushWorkerReq (m : Miner) (j : Nat) (x : ReqLoop) : ReqLoop :=
  { loop :=
      { x.loop with
        st := { x.loop.st with
          offsetCount := Function.update x.loop.st.offsetCount j
            (fun segment => if segment < m.maxIter then 0 else x.loop.st.offsetCount j segment) }
        nOffsets := Function.update x.loop.nOffsets j 0 },
    log := x.log ++ [{ worker := j, offsets := x.loop.st.offsetStack j,
                       counts := x.loop.st.offsetCount j, n := x.loop.nOffsets j }] }

/-- The macro `addToOffsets(j)` at prime index `i`, with the call of
`_putOffsetsInSegments` logged (`flushWorkerReq`) instead of carried out. -/
def addToOffsetsReq (m : Miner) (stale : Bool) (i p : Nat) (invert : List Nat) (j index : Nat)
    (x : ReqLoop) : Outcome (Nat × ReqLoop) :=
  if ¬ (i ≥ m.sparseLimit) then
    let r := addToOffsetsDense m i p invert index (x.loop.st.sieves j).offsets
    Outcome.normal (r.1,
      { x with loop := { x.loop with st := { x.loop.st with
          sieves := Function.update x.loop.st.sieves j
            { x.loop.st.sieves j with offsets := r.2 } } } })
  else if x.loop.nOffsets j + m.halfPrimeTupleOffset.length ≥ OFFSET_STACK_SIZE then
    if stale then Outcome.returned (index, x)
    else
      Outcome.normal
        ((addToOffsetsSparse m p invert j index (flushWorkerReq m j x).loop).1,
          { loop := (addToOffsetsSparse m p invert j index (flushWorkerReq m j x).loop).2,
            log := (flushWorkerReq m j x).log })
  else
    Outcome.normal
      ((addToOffsetsSparse m p invert j index x.loop).1,
        { loop := (addToOffsetsSparse m p invert j index x.loop).2, log := x.log })

/-- The loop `for (j = 2; j < sieveWorkers; j++)` of one iteration, with the calls of
`_putOffsetsInSegments` logged. -/
def workersLoopReq (m : Miner) (stale : Nat → Nat → Bool) (i p : Nat) (invert : List Nat)
    (cnt ps : Nat) : List Nat → Nat → Nat → ReqLoop → Outcome ReqLoop
  | [], _, _, x => Outcome.normal x
  | j :: js, index, r, x =>
    let r := if m.primorialOffsetDiff (j - 1) ≠ m.primorialOffsetDiff (j - 2) then
        recomputeRemainder m i p (invert.getD 0 0) cnt ps j else r
    match addToOffsetsReq m (stale i j) i p invert j (subWrap p index r) x with
    | Outcome.normal y => workersLoopReq m stale i p invert cnt ps js y.1 r y.2
    | Outcome.returned y => Outcome.returned y.2
    | Outcome.aborted => Outcome.aborted

/-- The body of the loop of `_updateRemainders` for the prime index `i`, with the calls of
`_putOffsetsInSegments` logged. -/
def modPrimeReq (m : Miner) (stale : Nat → Nat → Bool) (tar avxLimit avxWidth i : Nat)
    (x : ReqLoop) : Outcome ReqLoop :=
  let p := m.primes.getD i 0
  let ir := computeIndex m tar avxLimit avxWidth i x.loop.nextRemainder x.loop.nextRemainderIdx
  let invert := invertLattice (m.inverts.getD i 0) p
  let x0 : ReqLoop :=
    { x with loop :=
      { x.loop with nextRemainder := ir.nextRemainder, nextRemainderIdx := ir.nextRemainderIdx } }
  match addToOffsetsReq m (stale i 0) i p invert 0 ir.index x0 with
  | Outcome.returned y => Outcome.returned y.2
  | Outcome.aborted => Outcome.aborted
  | Outcome.normal y0 =>
    if m.sieveWorkers = 1 then Outcome.normal y0.2
    else
      let r := recomputeRemainder m i p (m.inverts.getD i 0) ir.cnt ir.ps 1
      match addToOffsetsReq m (stale i 1) i p invert 1 (subWrap p y0.1 r) y0.2 with
      | Outcome.returned y => Outcome.returned y.2
      | Outcome.aborted => Outcome.aborted
      | Outcome.normal y1 =>
        workersLoopReq m stale i p invert ir.cnt ir.ps (List.range' 2 (m.sieveWorkers - 2))
          y1.1 r y1.2

/-- The loop `for (i = start_i; i < end_i; i++)` of `_updateRemainders`, with the calls of
`_putOffsetsInSegments` logged. -/
def modLoopReq (m : Miner) (stale : Nat → Nat → Bool) (tar avxLimit avxWidth : Nat) :
    List Nat → ReqLoop → Outcome ReqLoop
  | [], x => Outcome.normal x
  | i :: rest, x =>
    match modPrimeReq m stale tar avxLimit avxWidth i x with
    | Outcome.normal x1 => modLoopReq m stale tar avxLimit avxWidth rest x1
    | Outcome.returned x1 => Outcome.returned x1
    | Outcome.aborted => Outcome.aborted

/-- The final loop of `_updateRemainders`, with the calls of `_putOffsetsInSegments`
logged. -/
def flushAllReq (m : Miner) : List Nat → ReqLoop → ReqLoop
  | [], x => x
  | j :: js, x =>
    if x.loop.nOffsets j > 0 then flushAllReq m js (flushWorkerReq m j x)
    else flushAllReq m js x

/-- `Miner::_updateRemainders(workDataIndex, start_i, end_i)` as the calling verify thread
runs it between its calls of `_putOffsetsInSegments`: the thread's memory `st` and the log
of the calls it has issued. The computation of the thread does not read the buckets, so
the calls it issues do not depend on what the other threads do. -/
def updateRemaindersReq (m : Miner) (stale : Nat → Nat → Bool)
    (verifyTarget verifyRemainderPrimorial : Int) (start_i end_i : Nat)
    (r : ModState × List FlushReq) : Outcome (ModState × List FlushReq) :=
  let tar := (verifyTarget + verifyRemainderPrimorial).natAbs
  let x0 : ReqLoop :=
    { loop := { st := allocateSpill m r.1, nOffsets := fun _ => 0, nextRemainder := fun _ => 0,
                nextRemainderIdx := 8 },
      log := r.2 }
  match modLoopReq m stale tar (avxLimitOf m start_i) (avxWidthOf m)
      (List.range' start_i (end_i - start_i)) x0 with
  | Outcome.returned x => Outcome.returned (x.loop.st, x.log)
  | Outcome.aborted => Outcome.aborted
  | Outcome.normal x =>
    if end_i > m.sparseLimit then
      Outcome.normal ((flushAllReq m (List.range m.sieveWorkers) x).loop.st,
        (flushAllReq m (List.range m.sieveWorkers) x).log)
    else Outcome.normal (x.loop.st, x.log)

/-- A verify thread takes the `TYPE_MOD` jobs `jobs` (ranges `(start, end)`) one after the
other: its memory and the log of its calls of `_putOffsetsInSegments` after the last one.
After an early `return` of `_updateRemainders` the thread goes on with its next job. -/
def threadRun (m : Miner) (stale : Nat → Nat → Bool)
    (verifyTarget verifyRemainderPrimorial : Int) :
    List (Nat × Nat) → ModState × List FlushReq → ModState × List FlushReq
  | [], r => r
  | job :: rest, r =>
    match updateRemaindersReq m stale verifyTarget verifyRemainderPrimorial job.1 job.2 r with
    | Outcome.normal r1 => threadRun m stale verifyTarget verifyRemainderPrimorial rest r1
    | Outcome.returned r1 => threadRun m stale verifyTarget verifyRemainderPrimorial rest r1
    | Outcome.aborted => r

/-- The calls of `_putOffsetsInSegments` verify thread `t` makes during the mod phase of a
block when it takes the jobs `jobs t`, starting from the memory `mem`. -/
def modScript (m : Miner) (stale : Nat → Nat → Bool)
    (verifyTarget verifyRemainderPrimorial : Int) (jobs : Nat → List (Nat × Nat))
    (mem : ModMemory) (t : Nat) : List FlushReq :=
  (threadRun m stale verifyTarget verifyRemainderPrimorial (jobs t) (mem.view t, [])).2

/-- The bookkeeping of the once-only path for worker `j` in a verify thread, relative to
the spilled indices `B` the thread had handed over for `j` before: the calls logged since
have handed over `F`, the indices `E` pushed since are `F` followed by the buffered ones,
the buffered ones are below `maxIncrements`, and for every segment the spill count is the
number of buffered indices of the segment. -/
def ReqInv (m : Miner) (B : List Nat) (x : ReqLoop) (j : Nat) (E : List Nat) : Prop :=
  ∃ F, entriesOf j x.log = B ++ F ∧ E = F ++ buffered x.loop j ∧
    (∀ y ∈ buffered x.loop j, y < m.maxIncrements) ∧
    ∀ seg, seg < m.maxIter →
      x.loop.st.offsetCount j seg = (inSeg m seg (buffered x.loop j)).length

/-- The spill buffer and the logged calls of worker `j` are the same in two states. -/
def SameReq (j : Nat) (x x1 : ReqLoop) : Prop :=
  entriesOf j x1.log = entriesOf j x.log ∧ SameSpill j x.loop x1.loop

/-- The jobs the verify threads `0, ..., T - 1` take, thread after thread. -/
def takenJobs (jobs : Nat → List (Nat × Nat)) : Nat → List (Nat × Nat)
  | 0 => []
  | T + 1 => takenJobs jobs T ++ jobs T

/-! # Theorems -/

/-! ## Bit-level facts shared by the byte bitmaps -/

theorem and_one_shiftLeft_bne (a k : Nat) : (a &&& (1 <<< k) != 0) = a.testBit k := by
  rw [Nat.one_shiftLeft]
  by_cases h : a.testBit k = true
  · rw [h]
    have : (a &&& 2 ^ k).testBit k = true := by
      rw [Nat.testBit_and, h, Nat.testBit_two_pow_self]; rfl
    have hne : a &&& 2 ^ k ≠ 0 := by
      intro h0
      rw [h0] at this
      simp at this
    simpa using hne
  · have h' : a.testBit k = false := by simpa using h
    rw [h']
    have : a &&& 2 ^ k = 0 := by
      apply Nat.eq_of_testBit_eq
      intro i
      rw [Nat.testBit_and, Nat.testBit_two_pow]
      by_cases hik : k = i
      · subst hik; simp [h']
      · simp [hik]
    simp [this]

theorem bitTest_eq (v : List Nat) (n : Nat) :
    bitTest v n = (v.getD (n / 8) 0).testBit (n % 8) := by
  unfold bitTest
  rw [and_one_shiftLeft_bne]
  have h1 : n >>> 3 = n / 8 := by rw [Nat.shiftRight_eq_div_pow]
  have h2 : n &&& 7 = n % 8 := by
    have := Nat.and_pow_two_sub_one_eq_mod n 3
    simpa using this
  rw [h1, h2]

theorem shiftRight_three (n : Nat) : n >>> 3 = n / 8 := by
  rw [Nat.shiftRight_eq_div_pow]

theorem and_seven (n : Nat) : n &&& 7 = n % 8 := by
  have := Nat.and_pow_two_sub_one_eq_mod n 3
  simpa using this

theorem getD_set (v : List Nat) (i j x : Nat) (hi : i < v.length) :
    (v.set i x).getD j 0 = if i = j then x else v.getD j 0 := by
  simp only [List.getD_eq_getElem?_getD, List.getElem?_set, hi, if_true]
  split <;> simp

theorem bitTest_bitMark (v : List Nat) (c m : Nat) (hc : c / 8 < v.length) :
    bitTest (bitMark v c) m = (bitTest v m || decide (m = c)) := by
  rw [bitTest_eq, bitTest_eq]
  unfold bitMark
  rw [shiftRight_three, and_seven, getD_set _ _ _ _ hc]
  by_cases hm : c / 8 = m / 8
  · rw [if_pos hm, hm]
    have h256 : (256 : Nat) = 2 ^ 8 := by norm_num
    rw [h256, Nat.testBit_mod_two_pow, Nat.testBit_or, Nat.one_shiftLeft, Nat.testBit_two_pow]
    have hlt : m % 8 < 8 := Nat.mod_lt _ (by norm_num)
    have hd : decide (c % 8 = m % 8) = decide (m = c) := by
      apply decide_eq_decide.mpr
      constructor <;> intro h <;> omega
    simp [hlt, hd]
  · rw [if_neg hm]
    have hd : decide (m = c) = false := by
      apply decide_eq_false
      intro h
      exact hm (by rw [h])
    simp [hd]

theorem length_bitMark (v : List Nat) (c : Nat) : (bitMark v c).length = v.length := by
  simp [bitMark]

/-! ## The sieve of Eratosthenes -/

theorem sieveInner_spec (limit f : Nat) (hf : 0 < f) :
    ∀ fuel c vf, vf.length = (limit + 15) / 16 → limit / 2 ≤ c + fuel →
      (sieveInner limit f fuel c vf).length = (limit + 15) / 16 ∧
      ∀ m, bitTest (sieveInner limit f fuel c vf) m = true ↔
        (bitTest vf m = true ∨ ∃ t, m = c + t * f ∧ m < limit / 2) := by
  intro fuel
  induction fuel with
  | zero =>
    intro c vf hlen hfuel
    refine ⟨hlen, fun m => ⟨fun h => Or.inl h, fun h => ?_⟩⟩
    rcases h with h | ⟨t, ht, hm⟩
    · exact h
    · exfalso
      have : c ≤ c + t * f := Nat.le_add_right _ _
      omega
  | succ fuel ih =>
    intro c vf hlen hfuel
    unfold sieveInner
    rw [Nat.shiftRight_eq_div_pow]
    by_cases hc : c < limit / 2 ^ 1
    · rw [if_pos hc]
      have hc' : c < limit / 2 := by simpa using hc
      have hb : c / 8 < vf.length := by rw [hlen]; omega
      obtain ⟨h1, h2⟩ := ih (c + f) (bitMark vf c) (by rw [length_bitMark, hlen]) (by omega)
      refine ⟨h1, fun m => ?_⟩
      rw [h2 m, bitTest_bitMark vf c m hb]
      constructor
      · rintro (h | ⟨t, ht, hm⟩)
        · rcases Bool.or_eq_true _ _ ▸ h with h | h
          · exact Or.inl h
          · right
            refine ⟨0, ?_, ?_⟩
            · have := of_decide_eq_true h
              omega
            · have := of_decide_eq_true h
              omega
        · right
          refine ⟨t + 1, ?_, hm⟩
          rw [ht, Nat.add_mul]; omega
      · rintro (h | ⟨t, ht, hm⟩)
        · left; simp [h]
        · cases t with
          | zero =>
            left
            have : m = c := by simpa using ht
            simp [this]
          | succ t =>
            right
            refine ⟨t, ?_, hm⟩
            rw [ht, Nat.add_mul]; omega
    · rw [if_neg hc]
      have hc' : ¬ c < limit / 2 := by simpa using hc
      refine ⟨hlen, fun m => ⟨fun h => Or.inl h, fun h => ?_⟩⟩
      rcases h with h | ⟨t, ht, hm⟩
      · exact h
      · exfalso
        have : c ≤ c + t * f := Nat.le_add_right _ _
        omega

theorem not_prime_of_factors {n a b : Nat} (ha : 3 ≤ a) (hb : 3 ≤ b) (h : a * b = n) :
    ¬ Nat.Prime n := by
  intro hp
  rcases (Nat.dvd_prime hp).1 ⟨b, h.symm⟩ with h1 | h1
  · omega
  · rw [h1] at h
    have hn : 0 < n := hp.pos
    have : n * b = n * 1 := by rw [h, Nat.mul_one]
    have := Nat.eq_of_mul_eq_mul_left hn this
    omega

theorem sieveOuter_test (vf : List Nat) (F : Nat) :
    ((vf.getD (F >>> 4) 0) &&& (1 <<< ((F >>> 1) &&& 7)) != 0) = bitTest vf (F / 2) := by
  unfold bitTest
  have h1 : F >>> 1 = F / 2 := by rw [Nat.shiftRight_eq_div_pow]
  have h2 : F >>> 4 = (F / 2) >>> 3 := by
    rw [Nat.shiftRight_eq_div_pow, Nat.shiftRight_eq_div_pow, Nat.div_div_eq_div_mul]
  rw [h1, h2]

theorem sieveOuter_step (limit F : Nat) (vf : List Nat) (hodd : F % 2 = 1) (h3 : 3 ≤ F)
    (hinv : SieveInv limit F vf) :
    SieveInv limit (F + 2)
      (if bitTest vf (F / 2) = true then vf
       else sieveInner limit F limit ((F * F) >>> 1) vf) := by
  obtain ⟨hlen, hsound, hcomp⟩ := hinv
  have hF : 2 * (F / 2) + 1 = F := by omega
  by_cases hmk : bitTest vf (F / 2) = true
  · rw [if_pos hmk]
    refine ⟨hlen, hsound, ?_⟩
    intro m q hm hq hq3 hqF hqq hdvd
    by_cases hlt : q < F
    · exact hcomp m q hm hq hq3 hlt hqq hdvd
    · exfalso
      obtain ⟨a, b, ha, hb, hab⟩ := hsound _ hmk
      rw [hF] at hab
      have hnp := not_prime_of_factors ha hb hab
      rcases Nat.Prime.eq_two_or_odd hq with h2 | h2
      · omega
      · have : q = F := by omega
        rw [this] at hq
        exact hnp hq
  · rw [if_neg hmk]
    have hsq : (F * F) >>> 1 = (F * F) / 2 := by rw [Nat.shiftRight_eq_div_pow]
    rw [hsq]
    have hFF : (F * F) % 2 = 1 := by rw [Nat.mul_mod, hodd]
    obtain ⟨h1, h2⟩ := sieveInner_spec limit F (by omega) limit ((F * F) / 2) vf hlen (by omega)
    refine ⟨h1, ?_, ?_⟩
    · intro m hm
      rcases (h2 m).1 hm with h | ⟨t, ht, _⟩
      · exact hsound m h
      · refine ⟨F, F + 2 * t, h3, by omega, ?_⟩
        have : 2 * m + 1 = 2 * ((F * F) / 2) + 1 + 2 * (t * F) := by rw [ht]; ring
        rw [this, Nat.mul_add]
        have : 2 * ((F * F) / 2) + 1 = F * F := by omega
        rw [this]; ring
    · intro m q hm hq hq3 hqF hqq hdvd
      rw [h2 m]
      by_cases hlt : q < F
      · exact Or.inl (hcomp m q hm hq hq3 hlt hqq hdvd)
      · right
        have hqF' : q = F := by
          rcases Nat.Prime.eq_two_or_odd hq with h2 | h2
          · omega
          · omega
        subst hqF'
        obtain ⟨c, hc⟩ := hdvd
        have hcq : q ≤ c := by
          by_contra hlt'
          have : q * c < q * q := Nat.mul_lt_mul_of_pos_left (by omega) (by omega)
          omega
        have hcodd : c % 2 = 1 := by
          have : (q * c) % 2 = 1 := by rw [← hc]; omega
          rw [Nat.mul_mod, hodd] at this
          simpa using this
        refine ⟨(c - q) / 2, ?_, hm⟩
        have hc2 : c = q + 2 * ((c - q) / 2) := by omega
        have h5 : 2 * m + 1 = q * q + 2 * (((c - q) / 2) * q) := by
          rw [hc]
          conv_lhs => rw [hc2]
          ring
        have h6 : 2 * ((q * q) / 2) + 1 = q * q := by omega
        omega

theorem sieveOuter_spec (limit : Nat) :
    ∀ fuel F vf, F % 2 = 1 → 3 ≤ F → limit ≤ F + fuel → SieveInv limit F vf →
      ∃ F', limit ≤ F' * F' ∧ SieveInv limit F' (sieveOuter limit fuel F vf) := by
  intro fuel
  induction fuel with
  | zero =>
    intro F vf _ h3 hfuel hinv
    refine ⟨F, ?_, hinv⟩
    have : F * 1 ≤ F * F := Nat.mul_le_mul_left F (by omega)
    omega
  | succ fuel ih =>
    intro F vf hodd h3 hfuel hinv
    unfold sieveOuter
    by_cases hlt : F * F < limit
    · rw [if_pos hlt, sieveOuter_test]
      have hstep := sieveOuter_step limit F vf hodd h3 hinv
      by_cases hmk : bitTest vf (F / 2) = true
      · rw [if_pos hmk] at hstep ⊢
        exact ih (F + 2) vf (by omega) (by omega) (by omega) hstep
      · rw [if_neg hmk] at hstep ⊢
        exact ih (F + 2) _ (by omega) (by omega) (by omega) hstep
    · rw [if_neg hlt]
      exact ⟨F, by omega, hinv⟩

theorem bitTest_replicate_zero (n m : Nat) : bitTest (List.replicate n 0) m = false := by
  rw [bitTest_eq]
  have : (List.replicate n 0).getD (m / 8) 0 = 0 := by
    simp only [List.getD_eq_getElem?_getD, List.getElem?_replicate]
    split <;> rfl
  rw [this, Nat.zero_testBit]

theorem sieveBitmap_spec (limit m : Nat) (h1 : 1 ≤ m) (hm : 2 * m + 1 < limit) :
    bitTest (sieveBitmap limit) m = false ↔ Nat.Prime (2 * m + 1) := by
  have hinit : SieveInv limit 3 (List.replicate ((limit + 15) / 16) 0) := by
    refine ⟨List.length_replicate _ _, ?_, ?_⟩
    · intro m hm
      rw [bitTest_replicate_zero] at hm
      exact absurd hm (by simp)
    · intro m q _ _ h3 h3' _ _
      omega
  obtain ⟨F, hF, _, hsound, hcomp⟩ :=
    sieveOuter_spec limit limit 3 _ (by norm_num) (by norm_num) (by omega) hinit
  show bitTest (sieveOuter limit limit 3 (List.replicate ((limit + 15) / 16) 0)) m = false ↔ _
  constructor
  · intro hb
    by_contra hnp
    have hq := Nat.minFac_prime (n := 2 * m + 1) (by omega)
    have hdvd := Nat.minFac_dvd (2 * m + 1)
    have hsq : Nat.minFac (2 * m + 1) * Nat.minFac (2 * m + 1) ≤ 2 * m + 1 := by
      have := Nat.minFac_sq_le_self (n := 2 * m + 1) (by omega) hnp
      simpa [sq] using this
    have hq3 : 3 ≤ Nat.minFac (2 * m + 1) := by
      rcases Nat.Prime.eq_two_or_odd hq with h2 | h2
      · exfalso
        rw [h2] at hdvd
        omega
      · have := hq.two_le
        omega
    have hlt : Nat.minFac (2 * m + 1) < F := by
      by_contra hge
      have : F * F ≤ Nat.minFac (2 * m + 1) * Nat.minFac (2 * m + 1) :=
        Nat.mul_le_mul (by omega) (by omega)
      omega
    have := hcomp m _ (by omega) hq hq3 hlt hsq hdvd
    rw [hb] at this
    exact absurd this (by simp)
  · intro hp
    by_contra hb
    have hb' : bitTest (sieveOuter limit limit 3 (List.replicate ((limit + 15) / 16) 0)) m
        = true := by simpa using hb
    obtain ⟨a, b, ha, hb2, hab⟩ := hsound m hb'
    exact not_prime_of_factors ha hb2 hab hp

theorem collectPrimes_spec (limit : Nat) (vf : List Nat) :
    ∀ cnt fuel n acc, cnt ≤ fuel → (∀ m, m < n + cnt → 2 * m + 1 < limit) →
      ¬ (2 * (n + cnt) + 1 < limit) →
      collectPrimes limit vf fuel n acc =
        acc ++ ((List.range' n cnt).filter (fun m => !(bitTest vf m))).map (fun m => 2 * m + 1) := by
  intro cnt
  induction cnt with
  | zero =>
    intro fuel n acc _ _ hstop
    cases fuel with
    | zero => simp [collectPrimes]
    | succ fuel =>
      unfold collectPrimes
      have : ¬ ((n <<< 1) + 1 < limit) := by
        rw [Nat.shiftLeft_eq]; simpa [Nat.mul_comm] using hstop
      rw [if_neg this]; simp
  | succ cnt ih =>
    intro fuel n acc hfuel hlt hstop
    cases fuel with
    | zero => omega
    | succ fuel =>
      unfold collectPrimes
      have hsh : n <<< 1 = 2 * n := by rw [Nat.shiftLeft_eq]; omega
      rw [hsh]
      have hn : 2 * n + 1 < limit := hlt n (by omega)
      rw [if_pos hn]
      have hrec := fun acc' => ih fuel (n + 1) acc' (by omega)
        (fun m hm => hlt m (by omega)) (by
          have : n + 1 + cnt = n + (cnt + 1) := by omega
          rw [this]; exact hstop)
      rw [List.range'_succ, List.filter_cons]
      by_cases hb : bitTest vf n = true
      · simp only [hb, Bool.not_true, Bool.false_eq_true, if_false]
        exact hrec acc
      · have hb' : bitTest vf n = false := by simpa using hb
        simp only [hb', Bool.not_false, if_true]
        rw [hrec, List.map_cons, List.append_assoc]
        rfl

theorem primeTable_eq (limit : Nat) (h : 3 ≤ limit) :
    primeTable limit = 2 :: ((List.range' 1 (limit / 2 - 1)).filter
      (fun m => !(bitTest (sieveBitmap limit) m))).map (fun m => 2 * m + 1) := by
  unfold primeTable
  rw [collectPrimes_spec limit (sieveBitmap limit) (limit / 2 - 1) limit 1 [2] (by omega)
    (fun m hm => by omega) (by omega)]
  rfl

theorem primeTable_sorted (limit : Nat) (h : 3 ≤ limit) :
    (primeTable limit).Pairwise (· < ·) := by
  rw [primeTable_eq limit h, List.pairwise_cons]
  constructor
  · intro p hp
    rw [List.mem_map] at hp
    obtain ⟨m, hm, rfl⟩ := hp
    have := (List.mem_range'_1.1 (List.mem_filter.1 hm).1).1
    omega
  · apply List.Pairwise.map (R := (· < ·))
    · intro a b hab
      show 2 * a + 1 < 2 * b + 1
      omega
    · exact List.Pairwise.filter _ (List.pairwise_lt_range' _ _)

theorem mem_primeTable (limit : Nat) (h : 3 ≤ limit) (p : Nat) :
    p ∈ primeTable limit ↔ Nat.Prime p ∧ p < limit := by
  rw [primeTable_eq limit h, List.mem_cons, List.mem_map]
  constructor
  · rintro (rfl | ⟨m, hm, rfl⟩)
    · exact ⟨Nat.prime_two, by omega⟩
    · obtain ⟨hr, hb⟩ := List.mem_filter.1 hm
      obtain ⟨h1, h2⟩ := List.mem_range'_1.1 hr
      have hlt : 2 * m + 1 < limit := by omega
      refine ⟨(sieveBitmap_spec limit m h1 hlt).1 ?_, hlt⟩
      simpa using hb
  · rintro ⟨hp, hlt⟩
    rcases Nat.Prime.eq_two_or_odd hp with h2 | h2
    · exact Or.inl h2
    · right
      have h1 : 1 ≤ p / 2 := by
        have := hp.two_le
        omega
      have hpe : 2 * (p / 2) + 1 = p := by omega
      refine ⟨p / 2, List.mem_filter.2 ⟨List.mem_range'_1.2 ⟨h1, by omega⟩, ?_⟩, hpe⟩
      have := (sieveBitmap_spec limit (p / 2) h1 (by omega)).2 (by rw [hpe]; exact hp)
      simp [this]

theorem primeTable_eq_filter (limit : Nat) (h : 3 ≤ limit) :
    primeTable limit = (List.range limit).filter (fun p => decide (Nat.Prime p)) := by
  have hs2 : ((List.range limit).filter (fun p => decide (Nat.Prime p))).Pairwise (· < ·) :=
    List.Pairwise.filter _ (List.pairwise_lt_range _)
  have hs1 := primeTable_sorted limit h
  apply List.eq_of_perm_of_sorted (r := (· < ·)) _ hs1 hs2
  rw [List.perm_ext_iff_of_nodup (List.Sorted.nodup hs1) (List.Sorted.nodup hs2)]
  intro p
  rw [mem_primeTable limit h, List.mem_filter, List.mem_range]
  simp [and_comm]

/-! ## Primorial and inverses -/

theorem mpzInvert_some {a m x : Nat} (h : mpzInvert a m = some x) :
    x < m ∧ (a * x) % m = 1 := by
  unfold mpzInvert at h
  have h1 := List.find?_some h
  have h2 := List.mem_of_find?_eq_some h
  exact ⟨List.mem_range.1 h2, by simpa using h1⟩

theorem mpzInvert_isSome {a m : Nat} (hm : 1 < m) (hc : Nat.Coprime a m) :
    ∃ x, mpzInvert a m = some x := by
  obtain ⟨y, hy⟩ := Nat.exists_mul_emod_eq_one_of_coprime hc hm
  have hmem : y % m ∈ List.range m := List.mem_range.2 (Nat.mod_lt _ (by omega))
  have hprop : (a * (y % m)) % m = 1 := by
    rw [Nat.mul_mod, Nat.mod_mod, ← Nat.mul_mod]; exact hy
  cases hf : mpzInvert a m with
  | some x => exact ⟨x, rfl⟩
  | none =>
    exfalso
    unfold mpzInvert at hf
    rw [List.find?_eq_none] at hf
    have := hf _ hmem
    simp [hprop] at this

theorem foldl_invertStep_getD (primes : List Nat) (P : Nat) (g : Nat → Nat) :
    ∀ (l : List Nat) (st : Nat × List Nat) (i : Nat),
      (∀ x ∈ l, mpzInvert P (primes.getD x 0) = some (g x)) →
      ((l.foldl (invertStep primes P) st).2.length = st.2.length) ∧
      ((l.foldl (invertStep primes P) st).2.getD i 0 =
        if i ∈ l ∧ i < st.2.length then g i % 2 ^ 64 else st.2.getD i 0) := by
  intro l
  induction l with
  | nil => intro st i _; simp
  | cons a l ih =>
    intro st i hl
    rw [List.foldl_cons]
    have ha : mpzInvert P (primes.getD a 0) = some (g a) := hl a (List.mem_cons_self _ _)
    have hstep : invertStep primes P st a = (g a, st.2.set a (g a % 2 ^ 64)) := by
      unfold invertStep
      simp only [ha, Option.getD_some]
    obtain ⟨h1, h2⟩ := ih (invertStep primes P st a) i
      (fun x hx => hl x (List.mem_cons_of_mem _ hx))
    rw [hstep] at h1 h2 ⊢
    simp only [List.length_set] at h1 h2
    refine ⟨h1, ?_⟩
    rw [h2]
    by_cases hil : i ∈ l
    · by_cases hlen : i < st.2.length
      · simp [hil, hlen]
      · have hge : st.2.length ≤ a ∨ a < st.2.length := by omega
        simp only [hil, hlen, and_false, if_false, List.mem_cons, or_true]
        simp only [List.getD_eq_getElem?_getD]
        rw [List.getElem?_eq_none (by simp; omega), List.getElem?_eq_none (by omega)]
    · by_cases hia : i = a
      · subst hia
        by_cases hlen : i < st.2.length
        · simp only [hil, false_and, if_false, List.mem_cons, true_or, hlen, and_self, if_true]
          rw [getD_set _ _ _ _ hlen, if_pos rfl]
        · simp only [hil, false_and, if_false, List.mem_cons, true_or, hlen, and_false]
          simp only [List.getD_eq_getElem?_getD]
          rw [List.getElem?_eq_none (by simp; omega), List.getElem?_eq_none (by omega)]
      · have : ¬ (i ∈ a :: l) := by
          simp [hia, hil]
        simp only [hil, this, false_and, if_false]
        simp only [List.getD_eq_getElem?_getD]
        rw [List.getElem?_set_ne (fun h => hia h.symm)]

theorem invertWorker_getD (primes : List Nat) (P k bs : Nat) (g : Nat → Nat)
    (hg : ∀ x, k ≤ x → x < primes.length → mpzInvert P (primes.getD x 0) = some (g x))
    (inv : List Nat) (hlen : inv.length = primes.length) (j i : Nat) :
    (invertWorker primes P k bs inv j).length = primes.length ∧
    (invertWorker primes P k bs inv j).getD i 0 =
      if k + j * bs ≤ i ∧ i < min (k + (j + 1) * bs) primes.length then g i % 2 ^ 64
      else inv.getD i 0 := by
  unfold invertWorker
  have hx : ∀ x ∈ List.range' (k + j * bs) (min (k + (j + 1) * bs) primes.length - (k + j * bs)),
      mpzInvert P (primes.getD x 0) = some (g x) := by
    intro x hx
    obtain ⟨h1, h2⟩ := List.mem_range'_1.1 hx
    have : k ≤ k + j * bs := Nat.le_add_right _ _
    exact hg x (by omega) (by omega)
  obtain ⟨h1, h2⟩ := foldl_invertStep_getD primes P g _ (0, inv) i hx
  simp only at h1 h2
  refine ⟨by rw [h1, hlen], ?_⟩
  rw [h2]
  by_cases hc : k + j * bs ≤ i ∧ i < min (k + (j + 1) * bs) primes.length
  · rw [if_pos hc, if_pos]
    refine ⟨List.mem_range'_1.2 ?_, ?_⟩ <;> omega
  · rw [if_neg hc, if_neg]
    rintro ⟨hm, _⟩
    have := List.mem_range'_1.1 hm
    omega

theorem foldl_invertWorker_getD (primes : List Nat) (P k bs : Nat) (g : Nat → Nat)
    (hg : ∀ x, k ≤ x → x < primes.length → mpzInvert P (primes.getD x 0) = some (g x)) :
    ∀ (J : List Nat) (inv : List Nat) (i : Nat), inv.length = primes.length →
      (J.foldl (invertWorker primes P k bs) inv).length = primes.length ∧
      (J.foldl (invertWorker primes P k bs) inv).getD i 0 =
        if ∃ j ∈ J, k + j * bs ≤ i ∧ i < min (k + (j + 1) * bs) primes.length
        then g i % 2 ^ 64 else inv.getD i 0 := by
  intro J
  induction J with
  | nil => intro inv i hlen; simp [hlen]
  | cons a J ih =>
    intro inv i hlen
    rw [List.foldl_cons]
    obtain ⟨w1, w2⟩ := invertWorker_getD primes P k bs g hg inv hlen a i
    obtain ⟨h1, h2⟩ := ih (invertWorker primes P k bs inv a) i w1
    refine ⟨h1, ?_⟩
    rw [h2, w2]
    by_cases hJ : ∃ j ∈ J, k + j * bs ≤ i ∧ i < min (k + (j + 1) * bs) primes.length
    · have : ∃ j ∈ a :: J, k + j * bs ≤ i ∧ i < min (k + (j + 1) * bs) primes.length := by
        obtain ⟨j, hj, hr⟩ := hJ
        exact ⟨j, List.mem_cons_of_mem _ hj, hr⟩
      rw [if_pos hJ, if_pos this]
    · rw [if_neg hJ]
      by_cases ha : k + a * bs ≤ i ∧ i < min (k + (a + 1) * bs) primes.length
      · rw [if_pos ha, if_pos ⟨a, List.mem_cons_self _ _, ha⟩]
      · rw [if_neg ha, if_neg]
        rintro ⟨j, hj, hr⟩
        rcases List.mem_cons.1 hj with rfl | hj
        · exact ha hr
        · exact hJ ⟨j, hj, hr⟩

/-- Every index of `[k, n)` lies in the range of exactly one worker. -/
theorem invert_ranges_cover (n k threads i : Nat) (ht : 1 ≤ threads) (hk : k ≤ i) (hi : i < n) :
    ∃! j, j < threads ∧ k + j * invertBlockSize n k threads ≤ i ∧
      i < min (k + (j + 1) * invertBlockSize n k threads) n := by
  have hbs : n - k ≤ threads * invertBlockSize n k threads := by
    unfold invertBlockSize
    have h1 := Nat.div_add_mod (n - k + threads - 1) threads
    have h2 := Nat.mod_lt (n - k + threads - 1) (show 0 < threads by omega)
    omega
  have hpos : 0 < invertBlockSize n k threads := by
    rcases Nat.eq_zero_or_pos (invertBlockSize n k threads) with h0 | h0
    · rw [h0] at hbs; omega
    · exact h0
  generalize invertBlockSize n k threads = bs at hbs hpos
  have hdm := Nat.div_add_mod (i - k) bs
  have hml := Nat.mod_lt (i - k) hpos
  refine ⟨(i - k) / bs, ⟨?_, ?_, ?_⟩, ?_⟩
  · rw [Nat.div_lt_iff_lt_mul hpos]
    omega
  · have : (i - k) / bs * bs = bs * ((i - k) / bs) := Nat.mul_comm _ _
    omega
  · have : ((i - k) / bs + 1) * bs = bs * ((i - k) / bs) + bs := by ring
    rw [this]
    omega
  · rintro j ⟨_, h1, h2⟩
    have h3 : (j + 1) * bs = j * bs + bs := by ring
    rw [h3] at h2
    have h4 : j * bs ≤ i - k := by omega
    have h5 : i - k < j * bs + bs := by omega
    apply Nat.le_antisymm
    · rw [Nat.le_div_iff_mul_le hpos]; exact h4
    · have : (i - k) / bs < j + 1 := by
        rw [Nat.div_lt_iff_lt_mul hpos]
        rw [h3]; exact h5
      omega

theorem primeTable_small (limit : Nat) (h : limit < 3) : primeTable limit = [2] := by
  interval_cases limit <;> decide

theorem primeTable_pairwise (limit : Nat) : (primeTable limit).Pairwise (· < ·) := by
  by_cases h : 3 ≤ limit
  · exact primeTable_sorted limit h
  · rw [primeTable_small limit (by omega)]
    simp

theorem primeTable_getD_prime (limit i : Nat) (hi : i < (primeTable limit).length) :
    Nat.Prime ((primeTable limit).getD i 0) ∧ ((primeTable limit).getD i 0 < limit ∨ limit < 3) := by
  have hmem : (primeTable limit).getD i 0 ∈ primeTable limit := by
    rw [List.getD_eq_getElem _ _ hi]
    exact List.getElem_mem hi
  by_cases h : 3 ≤ limit
  · have := (mem_primeTable limit h _).1 hmem
    exact ⟨this.1, Or.inl this.2⟩
  · rw [primeTable_small limit (by omega)] at hmem ⊢
    have : ([2] : List Nat).getD i 0 = 2 := by simpa using hmem
    rw [this]
    exact ⟨Nat.prime_two, Or.inr (by omega)⟩

theorem primeTable_getD_lt (limit i j : Nat) (hij : i < j) (hj : j < (primeTable limit).length) :
    (primeTable limit).getD i 0 < (primeTable limit).getD j 0 := by
  rw [List.getD_eq_getElem _ _ hj, List.getD_eq_getElem _ _ (by omega : i < _)]
  exact List.pairwise_iff_getElem.1 (primeTable_pairwise limit) i j (by omega) hj hij

theorem prime_dvd_foldl_mul (primes : List Nat) (p : Nat) (hp : Nat.Prime p) :
    ∀ (l : List Nat) (acc : Nat),
      p ∣ l.foldl (fun acc i => acc * primes.getD i 0) acc →
      p ∣ acc ∨ ∃ t ∈ l, p ∣ primes.getD t 0 := by
  intro l
  induction l with
  | nil => intro acc h; exact Or.inl h
  | cons a l ih =>
    intro acc h
    rw [List.foldl_cons] at h
    rcases ih _ h with h1 | ⟨t, ht, h2⟩
    · rcases (Nat.Prime.dvd_mul hp).1 h1 with h3 | h3
      · exact Or.inl h3
      · exact Or.inr ⟨a, List.mem_cons_self _ _, h3⟩
    · exact Or.inr ⟨t, List.mem_cons_of_mem _ ht, h2⟩

theorem prime_dvd_initPrimorial (primes : List Nat) (k p : Nat) (hk : 1 ≤ k)
    (hp : Nat.Prime p) (h : p ∣ initPrimorial primes k) :
    ∃ t, t < k ∧ p ∣ primes.getD t 0 := by
  unfold initPrimorial at h
  rcases prime_dvd_foldl_mul primes p hp _ _ h with h1 | ⟨t, ht, h2⟩
  · exact ⟨0, by omega, h1⟩
  · have := List.mem_range'_1.1 ht
    exact ⟨t, by omega, h2⟩

theorem initPrimorial_coprime (limit k i : Nat) (hk : 1 ≤ k) (hki : k ≤ i)
    (hi : i < (primeTable limit).length) :
    Nat.Coprime (initPrimorial (primeTable limit) k) ((primeTable limit).getD i 0) := by
  have hp := (primeTable_getD_prime limit i hi).1
  rw [Nat.coprime_comm, Nat.Prime.coprime_iff_not_dvd hp]
  intro hdvd
  obtain ⟨t, ht, h2⟩ := prime_dvd_initPrimorial _ k _ hk hp hdvd
  have hpt := (primeTable_getD_prime limit t (by omega)).1
  have heq := (Nat.prime_dvd_prime_iff_eq hp hpt).1 h2
  have hlt := primeTable_getD_lt limit t i (by omega) hi
  omega

theorem initInverts_getD (limit k threads i : Nat) (hk : 1 ≤ k) (ht : 1 ≤ threads)
    (hki : k ≤ i) (hi : i < (primeTable limit).length) :
    ∃ x, mpzInvert (initPrimorial (primeTable limit) k) ((primeTable limit).getD i 0) = some x ∧
      (initInverts (primeTable limit) (initPrimorial (primeTable limit) k) k threads).getD i 0
        = x % 2 ^ 64 := by
  let g : Nat → Nat := fun x =>
    (mpzInvert (initPrimorial (primeTable limit) k) ((primeTable limit).getD x 0)).getD 0
  have hg : ∀ x, k ≤ x → x < (primeTable limit).length →
      mpzInvert (initPrimorial (primeTable limit) k) ((primeTable limit).getD x 0) = some (g x) := by
    intro x hkx hx
    obtain ⟨y, hy⟩ := mpzInvert_isSome (primeTable_getD_prime limit x hx).1.one_lt
      (initPrimorial_coprime limit k x hk hkx hx)
    show _ = some ((mpzInvert _ _).getD 0)
    rw [hy]; rfl
  refine ⟨g i, hg i hki hi, ?_⟩
  unfold initInverts
  rw [(foldl_invertWorker_getD _ _ k _ g hg (List.range threads) _ i
    (List.length_replicate _ _)).2, if_pos]
  obtain ⟨j, ⟨hj, hr⟩, _⟩ := invert_ranges_cover (primeTable limit).length k threads i ht hki hi
  exact ⟨j, List.mem_range.2 hj, hr⟩

/-- C1: for every `primeTableLimit ≥ 3` the prime table built by `Miner::init` is exactly
the strictly ascending list of all primes below the limit (no prime missing, no composite
present), its entry 0 is 2, and for the limit 100 it is the 25 primes 2, 3, 5, ..., 89, 97. -/
theorem C1_primeTable_correct (limit : Nat) (h : 3 ≤ limit) :
    primeTable limit = (List.range limit).filter (fun p => decide (Nat.Prime p)) ∧
    (primeTable limit).Pairwise (· < ·) ∧
    (∀ p, p ∈ primeTable limit ↔ Nat.Prime p ∧ p < limit) ∧
    (primeTable limit)[0]? = some 2 ∧
    primeTable 100 =
      [2, 3, 5, 7, 11, 13, 17, 19, 23, 29, 31, 37, 41, 43, 47, 53, 59, 61, 67, 71, 73, 79,
        83, 89, 97] := by
  refine ⟨primeTable_eq_filter limit h, primeTable_sorted limit h, mem_primeTable limit h,
    ?_, by decide⟩
  rw [primeTable_eq limit h]
  simp

theorem C1_primeTable_correct_witness :
    3 ≤ 100 ∧ (primeTable 100).Pairwise (· < ·) ∧ (primeTable 100)[0]? = some 2 :=
  ⟨by decide, (C1_primeTable_correct 100 (by decide)).2.1,
    (C1_primeTable_correct 100 (by decide)).2.2.2.1⟩

/-- C2, counterexample: with `primorialNumber = 0` (table limit 100, one thread)
`Miner::init` leaves the primorial at `primes[0] = 2`, and the entry `inverts[0]` it
computes for `primes[0] = 2` is not an inverse of the primorial, so the claim fails at
index 0 of the range `[primorialNumber, nPrimes)`. -/
theorem C2_inverts_counterexample :
    ¬ (∀ i, 0 ≤ i → i < (primeTable 100).length →
        (initInverts (primeTable 100) (initPrimorial (primeTable 100) 0) 0 1).getD i 0
            < (primeTable 100).getD i 0 ∧
        (initPrimorial (primeTable 100) 0 *
          (initInverts (primeTable 100) (initPrimorial (primeTable 100) 0) 0 1).getD i 0)
            % (primeTable 100).getD i 0 = 1) := by
  intro h
  have h0 := (h 0 (Nat.le_refl _) (by decide)).2
  have hP : initPrimorial (primeTable 100) 0 = 2 := by decide
  have hp : (primeTable 100).getD 0 0 = 2 := by decide
  rw [hP, hp] at h0
  omega

/-- C2, amended: after `Miner::init` with `1 ≤ primorialNumber` and `threads ≥ 1`, for
every index `i` with `primorialNumber ≤ i < nPrimes`, `inverts[i] < primes[i]` and
`(P_k * inverts[i]) mod primes[i] = 1`, where `P_k` is the primorial computed by `init`;
and exactly one worker `j < threads` has `i` in its index range
`[k + j*blockSize, min(k + (j+1)*blockSize, nPrimes))`. -/
theorem C2_inverts_correct (limit k threads i : Nat) (hlim : limit ≤ 2 ^ 64)
    (hk : 1 ≤ k) (ht : 1 ≤ threads) (hki : k ≤ i) (hi : i < (primeTable limit).length) :
    (initInverts (primeTable limit) (initPrimorial (primeTable limit) k) k threads).getD i 0
        < (primeTable limit).getD i 0 ∧
    (initPrimorial (primeTable limit) k *
      (initInverts (primeTable limit) (initPrimorial (primeTable limit) k) k threads).getD i 0)
        % (primeTable limit).getD i 0 = 1 ∧
    ∃! j, j < threads ∧
      k + j * invertBlockSize (primeTable limit).length k threads ≤ i ∧
      i < min (k + (j + 1) * invertBlockSize (primeTable limit).length k threads)
        (primeTable limit).length := by
  obtain ⟨x, hx, hget⟩ := initInverts_getD limit k threads i hk ht hki hi
  obtain ⟨hlt, hinv⟩ := mpzInvert_some hx
  have hsmall : x % 2 ^ 64 = x := by
    apply Nat.mod_eq_of_lt
    rcases (primeTable_getD_prime limit i hi).2 with h | h
    · omega
    · rw [primeTable_small limit h] at hi
      simp at hi
      omega
  rw [hget, hsmall]
  exact ⟨hlt, hinv, invert_ranges_cover _ k threads i ht hki hi⟩

theorem C2_inverts_correct_witness :
    (initInverts (primeTable 100) (initPrimorial (primeTable 100) 5) 5 3).getD 7 0
        < (primeTable 100).getD 7 0 ∧
    (initPrimorial (primeTable 100) 5 *
      (initInverts (primeTable 100) (initPrimorial (primeTable 100) 5) 5 3).getD 7 0)
        % (primeTable 100).getD 7 0 = 1 ∧
    ∃! j, j < 3 ∧
      5 + j * invertBlockSize (primeTable 100).length 5 3 ≤ 7 ∧
      7 < min (5 + (j + 1) * invertBlockSize (primeTable 100).length 5 3)
        (primeTable 100).length :=
  C2_inverts_correct 100 5 3 7 (by norm_num) (by decide) (by decide) (by decide) (by decide)

/-! ## Target builder -/

theorem limbIncrement_even (t : Nat) : limbIncrement (t <<< 1) = 2 * t + 1 := by
  unfold limbIncrement
  rw [Nat.shiftLeft_eq]
  norm_num
  omega

theorem targetStep_eq (powHash : List Nat) (t i : Nat) :
    targetStep powHash t i = 2 * t + (powHash.getD (i / 8) 0) / 2 ^ (i % 8) % 2 := by
  unfold targetStep
  rw [Nat.shiftRight_eq_div_pow, Nat.and_one_is_mod]
  by_cases h : (powHash.getD (i / 8) 0) / 2 ^ (i % 8) % 2 = 0
  · simp only [h, bne_self_eq_false, Bool.false_eq_true, if_false]
    rw [Nat.shiftLeft_eq]; omega
  · have h1 : (powHash.getD (i / 8) 0) / 2 ^ (i % 8) % 2 = 1 := by omega
    rw [h1, limbIncrement_even]
    simp

theorem foldl_targetStep (powHash : List Nat) (t0 : Nat) :
    ∀ n, (List.range n).foldl (targetStep powHash) t0 =
      2 ^ n * t0 + Finset.sum (Finset.range n)
        (fun i => ((powHash.getD (i / 8) 0) / 2 ^ (i % 8) % 2) * 2 ^ (n - 1 - i)) := by
  intro n
  induction n with
  | zero => simp
  | succ n ih =>
    rw [List.range_succ, List.foldl_append, List.foldl_cons, List.foldl_nil, ih, targetStep_eq,
      Finset.sum_range_succ, Nat.mul_add, Finset.mul_sum]
    have hsum : Finset.sum (Finset.range n)
        (fun i => 2 * (((powHash.getD (i / 8) 0) / 2 ^ (i % 8) % 2) * 2 ^ (n - 1 - i))) =
        Finset.sum (Finset.range n)
        (fun i => ((powHash.getD (i / 8) 0) / 2 ^ (i % 8) % 2) * 2 ^ (n + 1 - 1 - i)) := by
      apply Finset.sum_congr rfl
      intro i hi
      have hi' := Finset.mem_range.1 hi
      have : n + 1 - 1 - i = (n - 1 - i) + 1 := by omega
      rw [this, pow_succ]; ring
    rw [hsum]
    have : n + 1 - 1 - n = 0 := by omega
    rw [this, pow_zero, Nat.mul_one, pow_succ]
    ring

theorem hashValue_lt (powHash : List Nat) : hashValue powHash < 2 ^ 256 := by
  have h := foldl_targetStep powHash 0 256
  have hb : ∀ n, (List.range n).foldl (targetStep powHash) 0 < 2 ^ n := by
    intro n
    induction n with
    | zero => simp
    | succ n ih =>
      rw [List.range_succ, List.foldl_append, List.foldl_cons, List.foldl_nil, targetStep_eq,
        pow_succ]
      have := Nat.mod_lt ((powHash.getD (n / 8) 0) / 2 ^ (n % 8)) (show 0 < 2 by norm_num)
      omega
  have h256 := hb 256
  rw [h] at h256
  simpa [hashValue] using h256

theorem getTargetFromBlock_eq (powHash : List Nat) (d : Nat) (hd : 265 ≤ d) (hd32 : d < 2 ^ 32) :
    getTargetFromBlock powHash d = 2 ^ (d - 1) + 2 ^ (d - 265) * hashValue powHash := by
  unfold getTargetFromBlock
  have htz : (d + 2 ^ 32 - 1 - 8 - 256) % 2 ^ 32 = d - 265 := by
    have : d + 2 ^ 32 - 1 - 8 - 256 = (d - 265) + 2 ^ 32 := by omega
    rw [this, Nat.add_mod_right]
    exact Nat.mod_eq_of_lt (by omega)
  simp only [htz]
  rw [foldl_targetStep powHash (1 <<< 8) 256, Nat.shiftLeft_eq, Nat.shiftLeft_eq]
  have hH : Finset.sum (Finset.range 256)
      (fun i => ((powHash.getD (i / 8) 0) / 2 ^ (i % 8) % 2) * 2 ^ (256 - 1 - i)) =
      hashValue powHash := rfl
  rw [hH, Nat.add_mul]
  have hgen : ∀ a b c : Nat, 2 ^ a * (1 * 2 ^ b) * 2 ^ c = 2 ^ (a + b + c) := by
    intro a b c
    rw [Nat.one_mul, pow_add, pow_add]
  have hexp : 256 + 8 + (d - 265) = d - 1 := by omega
  have hpow : 2 ^ 256 * (1 * 2 ^ 8) * 2 ^ (d - 265) = 2 ^ (d - 1) := by
    rw [hgen, hexp]
  rw [hpow, Nat.mul_comm (hashValue powHash)]

/-- C3: for every `powHash` and every difficulty `d ≥ 265` (a 32-bit field),
`_getTargetFromBlock` returns `2^(d-1) + 2^(d-265) * H`, where `H` is the sum over
`i < 256` of `b_i * 2^(255-i)` with `b_i` bit `i mod 8` of `powHash[i div 8]`; the result
is a `d`-bit number: a leading 1, eight zeros, the 256 hash bits, `d - 265` zeros. -/
theorem C3_target_formula (powHash : List Nat) (d : Nat) (hd : 265 ≤ d) (hd32 : d < 2 ^ 32) :
    getTargetFromBlock powHash d =
      2 ^ (d - 1) + 2 ^ (d - 265) *
        Finset.sum (Finset.range 256)
          (fun i => ((powHash.getD (i / 8) 0) / 2 ^ (i % 8) % 2) * 2 ^ (255 - i)) ∧
    2 ^ (d - 1) ≤ getTargetFromBlock powHash d ∧
    getTargetFromBlock powHash d < 2 ^ (d - 1) + 2 ^ (d - 9) ∧
    getTargetFromBlock powHash d < 2 ^ d := by
  have heq := getTargetFromBlock_eq powHash d hd hd32
  have hH := hashValue_lt powHash
  have hexp : d - 265 + 256 = d - 9 := by omega
  have h9 : 2 ^ (d - 265) * 2 ^ 256 = 2 ^ (d - 9) := by
    rw [← pow_add, hexp]
  have hlt : 2 ^ (d - 265) * hashValue powHash < 2 ^ (d - 9) := by
    rw [← h9]
    exact Nat.mul_lt_mul_of_pos_left hH (Nat.two_pow_pos _)
  have h1 : 2 ^ (d - 9) ≤ 2 ^ (d - 1) := Nat.pow_le_pow_right (by norm_num) (by omega)
  have h2 : 2 ^ d = 2 ^ (d - 1) + 2 ^ (d - 1) := by
    have : d = (d - 1) + 1 := by omega
    conv_lhs => rw [this, pow_succ]
    omega
  refine ⟨heq, ?_, ?_, ?_⟩
  · rw [heq]; exact Nat.le_add_right _ _
  · rw [heq]; omega
  · rw [heq]; omega

theorem C3_target_formula_witness :
    getTargetFromBlock [1] 265 < 2 ^ 265 :=
  (C3_target_formula [1] 265 (by decide) (by norm_num)).2.2.2

theorem verifyRemainderPrimorial_eq (target P off0 : Int) (ht : 0 ≤ target) (hP : 1 ≤ P) :
    verifyRemainderPrimorial target P off0 = (P - target % P) % P + off0 := by
  unfold verifyRemainderPrimorial
  have hr0 : 0 ≤ target % P := Int.emod_nonneg _ (by omega)
  have hrP : target % P < P := Int.emod_lt_of_pos _ (by omega)
  rw [Int.tmod_eq_emod ht (by omega)]
  simp only [Int.natAbs_of_nonneg hr0]
  rw [Int.tmod_eq_emod (by omega) (by omega),
    Int.natAbs_of_nonneg (Int.emod_nonneg _ (by omega))]

/-- C4: for every target `≥ 0` and primorial `P_k ≥ 1`, `_processOneBlock` stores
`verifyRemainderPrimorial = ((P_k - (target mod P_k)) mod P_k) + primorialOffsets[0]`;
`firstCandidate(0) - primorialOffsets[0]` is a multiple of `P_k`, is at least `target`, and
is the smallest multiple of `P_k` that is at least `target`. -/
theorem C4_first_candidate (target P off0 : Int) (ht : 0 ≤ target) (hP : 1 ≤ P) :
    verifyRemainderPrimorial target P off0 = (P - target % P) % P + off0 ∧
    (firstCandidate0 target P off0 - off0) % P = 0 ∧
    target ≤ firstCandidate0 target P off0 - off0 ∧
    ∀ m : Int, P ∣ m → target ≤ m → firstCandidate0 target P off0 - off0 ≤ m := by
  have heq := verifyRemainderPrimorial_eq target P off0 ht hP
  have hr0 : 0 ≤ target % P := Int.emod_nonneg _ (by omega)
  have hrP : target % P < P := Int.emod_lt_of_pos _ (by omega)
  have hv0 : 0 ≤ (P - target % P) % P := Int.emod_nonneg _ (by omega)
  have hvP : (P - target % P) % P < P := Int.emod_lt_of_pos _ (by omega)
  have hfc : firstCandidate0 target P off0 - off0 = target + (P - target % P) % P := by
    unfold firstCandidate0
    rw [heq]; ring
  have hdvd : P ∣ target + (P - target % P) % P := by
    apply Int.dvd_of_emod_eq_zero
    rw [Int.add_emod, Int.emod_emod_of_dvd _ (dvd_refl P), ← Int.add_emod]
    have : target + (P - target % P) = P + (target - target % P) := by ring
    rw [this, Int.add_emod, Int.emod_self, Int.zero_add, Int.emod_emod_of_dvd _ (dvd_refl P)]
    have h := Int.emod_add_ediv target P
    have : target - target % P = P * (target / P) := by omega
    rw [this, Int.mul_emod_right]
  refine ⟨heq, ?_, ?_, ?_⟩
  · rw [hfc]; exact Int.emod_eq_zero_of_dvd hdvd
  · rw [hfc]; omega
  · intro m hm htm
    rw [hfc]
    by_contra hlt
    have hpos : 0 < target + (P - target % P) % P - m := by omega
    have hd : P ∣ target + (P - target % P) % P - m := Int.dvd_sub hdvd hm
    have := Int.le_of_dvd hpos hd
    omega

theorem C4_first_candidate_witness :
    verifyRemainderPrimorial 10000 2310 97 = (2310 - 10000 % 2310) % 2310 + 97 ∧
    (firstCandidate0 10000 2310 97 - 97) % 2310 = 0 :=
  ⟨(C4_first_candidate 10000 2310 97 (by decide) (by decide)).1,
    (C4_first_candidate 10000 2310 97 (by decide) (by decide)).2.1⟩

/-! ## Remainder worker: arithmetic of the index chain -/

theorem subWrap_spec (p idx a : Nat) (hidx : idx < p) (ha : a < p) :
    subWrap p idx a < p ∧ ((subWrap p idx a : Nat) : Int) ≡ (idx : Int) - (a : Int) [ZMOD (p : Int)] := by
  unfold subWrap
  by_cases h : idx < a
  · rw [if_pos h]
    refine ⟨by omega, ?_⟩
    have : ((idx + p - a : Nat) : Int) = (idx : Int) - (a : Int) + (p : Int) := by omega
    rw [this]
    exact Int.add_modEq_right
  · rw [if_neg h]
    refine ⟨by omega, ?_⟩
    have : ((idx - a : Nat) : Int) = (idx : Int) - (a : Int) := by omega
    rw [this]

theorem goodIndex_step (P p idx a : Nat) (base c inv : Int) (hg : GoodIndex P p base idx)
    (ha : a < p) (hac : (a : Int) ≡ c * inv [ZMOD (p : Int)])
    (hinv : (P : Int) * inv ≡ 1 [ZMOD (p : Int)]) :
    GoodIndex P p (base + c) (subWrap p idx a) := by
  obtain ⟨hlt, hdvd⟩ := hg
  obtain ⟨h1, h2⟩ := subWrap_spec p idx a hlt ha
  refine ⟨h1, ?_⟩
  rw [← Int.modEq_zero_iff_dvd] at hdvd ⊢
  have h3 : (P : Int) * ((subWrap p idx a : Nat) : Int) ≡ (P : Int) * ((idx : Int) - (a : Int))
      [ZMOD (p : Int)] := Int.ModEq.mul_left _ h2
  have h4 : (P : Int) * (a : Int) ≡ c [ZMOD (p : Int)] := by
    have h5 : c * ((P : Int) * inv) ≡ c * 1 [ZMOD (p : Int)] := Int.ModEq.mul_left c hinv
    have h6 : (P : Int) * (c * inv) = c * ((P : Int) * inv) := by ring
    have h9 := Int.ModEq.mul_left (P : Int) hac
    rw [h6] at h9
    rw [Int.mul_one] at h5
    exact h9.trans h5
  have h7 : (P : Int) * ((idx : Int) - (a : Int)) + (base + c) =
      ((P : Int) * (idx : Int) + base) + (c - (P : Int) * (a : Int)) := by ring
  have h8 : c - (P : Int) * (a : Int) ≡ 0 [ZMOD (p : Int)] := by
    have := Int.ModEq.sub (Int.ModEq.refl c) h4
    simpa using this
  calc (P : Int) * ((subWrap p idx a : Nat) : Int) + (base + c)
      ≡ (P : Int) * ((idx : Int) - (a : Int)) + (base + c) [ZMOD (p : Int)] :=
        Int.ModEq.add_right _ h3
    _ = ((P : Int) * (idx : Int) + base) + (c - (P : Int) * (a : Int)) := h7
    _ ≡ 0 + 0 [ZMOD (p : Int)] := Int.ModEq.add hdvd h8
    _ = 0 := by ring

theorem goodIndex_base (P p tar inv : Nat) (hp : 0 < p)
    (hinv : (P * inv) % p = 1) :
    GoodIndex P p (tar : Int) (((p - tar % p) * inv) % p) := by
  refine ⟨Nat.mod_lt _ hp, ?_⟩
  rw [← Int.modEq_zero_iff_dvd]
  have hinv' : (P : Int) * (inv : Int) ≡ 1 [ZMOD (p : Int)] := by
    have h1 : ((P * inv : Nat) : Int) % (p : Int) = ((1 : Nat) : Int) := by
      rw [← Int.natCast_mod, hinv]
    have hp1 : 1 < p := by
      rcases Nat.lt_or_ge 1 p with h | h
      · exact h
      · have : p = 1 := by omega
        rw [this, Nat.mod_one] at hinv
        omega
    unfold Int.ModEq
    rw [← Nat.cast_mul, h1]
    have : ((1 : Int)) % (p : Int) = 1 := Int.emod_eq_of_lt (by norm_num) (by omega)
    rw [this]; rfl
  have hlt := Nat.mod_lt tar hp
  have h2 : ((((p - tar % p) * inv) % p : Nat) : Int) ≡ ((p : Int) - (tar : Int)) * (inv : Int)
      [ZMOD (p : Int)] := by
    have h3 : ((((p - tar % p) * inv) % p : Nat) : Int) ≡ (((p - tar % p) * inv : Nat) : Int)
        [ZMOD (p : Int)] := by
      rw [Int.natCast_mod]
      exact Int.mod_modEq _ _
    refine h3.trans ?_
    rw [Nat.cast_mul]
    apply Int.ModEq.mul_right
    have h4 : ((p - tar % p : Nat) : Int) = (p : Int) - ((tar % p : Nat) : Int) := by omega
    rw [h4, Int.natCast_mod]
    exact Int.ModEq.sub (Int.ModEq.refl _) (Int.mod_modEq _ _)
  have h5 : (P : Int) * (((p : Int) - (tar : Int)) * (inv : Int)) + (tar : Int) =
      ((P : Int) * (inv : Int)) * ((p : Int) - (tar : Int)) + (tar : Int) := by ring
  calc (P : Int) * ((((p - tar % p) * inv) % p : Nat) : Int) + (tar : Int)
      ≡ (P : Int) * (((p : Int) - (tar : Int)) * (inv : Int)) + (tar : Int) [ZMOD (p : Int)] :=
        Int.ModEq.add_right _ (Int.ModEq.mul_left _ h2)
    _ = ((P : Int) * (inv : Int)) * ((p : Int) - (tar : Int)) + (tar : Int) := h5
    _ ≡ 1 * ((p : Int) - (tar : Int)) + (tar : Int) [ZMOD (p : Int)] :=
        Int.ModEq.add_right _ (Int.ModEq.mul_right _ hinv')
    _ = (p : Int) := by ring
    _ ≡ 0 [ZMOD (p : Int)] := by
        rw [Int.modEq_zero_iff_dvd]

/-! ## Remainder worker: the kernels compute the reference index -/

theorem umul_ppmm_recombine (a b : Nat) (h : a * b < 2 ^ 128) :
    (umul_ppmm a b).1 * 2 ^ 64 + (umul_ppmm a b).2 = a * b := by
  unfold umul_ppmm
  simp only
  have h1 : a * b / 2 ^ 64 < 2 ^ 64 := by
    rw [Nat.div_lt_iff_lt_mul (by norm_num)]
    calc a * b < 2 ^ 128 := h
      _ = 2 ^ 64 * 2 ^ 64 := by norm_num
  rw [Nat.mod_eq_of_lt h1]
  have := Nat.div_add_mod (a * b) (2 ^ 64)
  rw [Nat.mul_comm] at this
  exact this

theorem mul_lt_two_pow_128 {a b : Nat} (ha : a ≤ 2 ^ 64) (hb : b < 2 ^ 64) :
    a * b < 2 ^ 128 := by
  have h0 : (2 : Nat) ^ 128 = 2 ^ 64 * 2 ^ 64 := by norm_num
  rw [h0]
  rcases Nat.eq_zero_or_pos a with h | h
  · rw [h]; simp
  · calc a * b < a * 2 ^ 64 := Nat.mul_lt_mul_of_pos_left hb h
      _ ≤ 2 ^ 64 * 2 ^ 64 := Nat.mul_le_mul_right _ ha

theorem indexRef_eq (tar p inv : Nat) (hp : p ≤ 2 ^ 64) (hinv : inv < 2 ^ 64) :
    indexRef tar p inv = ((p - tar % p) * inv) % p := by
  unfold indexRef udiv_qrnnd
  simp only
  rw [umul_ppmm_recombine _ _ (mul_lt_two_pow_128 (by omega) hinv)]

theorem shift_clzll (p : Nat) (hp0 : 0 < p) (hp : p < 2 ^ 64) :
    (p <<< clzll p) % 2 ^ 64 = p * 2 ^ clzll p ∧ p * 2 ^ clzll p < 2 ^ 64 := by
  have hlog : Nat.log2 p < 64 := (Nat.log2_lt (by omega)).2 hp
  have hlt : p * 2 ^ clzll p < 2 ^ 64 := by
    unfold clzll
    have h1 : p < 2 ^ (Nat.log2 p + 1) := Nat.lt_log2_self
    have h2 : (2 : Nat) ^ 64 = 2 ^ (Nat.log2 p + 1) * 2 ^ (63 - Nat.log2 p) := by
      rw [← pow_add]; congr 1; omega
    rw [h2]
    exact Nat.mul_lt_mul_of_pos_right h1 (Nat.two_pow_pos _)
  rw [Nat.shiftLeft_eq]
  exact ⟨Nat.mod_eq_of_lt hlt, hlt⟩

theorem fast_scalar_index (tar p inv : Nat) (hp0 : 0 < p) (hp : p < 2 ^ 64)
    (hinv : inv < 2 ^ 64) :
    udiv_rnnd_preinv
        (umul_ppmm ((p <<< clzll p) % 2 ^ 64 - rie_mod_1s_4p tar ((p <<< clzll p) % 2 ^ 64)
          (clzll p)) inv).1
        (umul_ppmm ((p <<< clzll p) % 2 ^ 64 - rie_mod_1s_4p tar ((p <<< clzll p) % 2 ^ 64)
          (clzll p)) inv).2
        ((p <<< clzll p) % 2 ^ 64) >>> clzll p
      = ((p - tar % p) * inv) % p := by
  obtain ⟨hps, hlt⟩ := shift_clzll p hp0 hp
  rw [hps]
  generalize clzll p = c at hlt
  unfold rie_mod_1s_4p udiv_rnnd_preinv
  have hsr : (p * 2 ^ c) >>> c = p := by
    rw [← Nat.shiftLeft_eq, Nat.shiftLeft_shiftRight]
  rw [hsr, Nat.shiftLeft_eq]
  have hpa : p * 2 ^ c - tar % p * 2 ^ c = (p - tar % p) * 2 ^ c := by
    rw [Nat.sub_mul]
  rw [hpa]
  have hle : (p - tar % p) * 2 ^ c ≤ 2 ^ 64 := by
    have : (p - tar % p) * 2 ^ c ≤ p * 2 ^ c := Nat.mul_le_mul_right _ (Nat.sub_le _ _)
    omega
  rw [umul_ppmm_recombine _ _ (mul_lt_two_pow_128 hle hinv)]
  have hre : (p - tar % p) * 2 ^ c * inv = ((p - tar % p) * inv) * 2 ^ c := by ring
  rw [hre, Nat.mul_mod_mul_right, ← Nat.shiftLeft_eq, Nat.shiftLeft_shiftRight]

theorem fast_recompute (d p inv c : Nat) (hd : d < p) (hlt : p * 2 ^ c < 2 ^ 64)
    (hinv : inv < 2 ^ 64) :
    udiv_rnnd_preinv (umul_ppmm ((d <<< c) % 2 ^ 64) inv).1
        (umul_ppmm ((d <<< c) % 2 ^ 64) inv).2 (p * 2 ^ c) >>> c
      = (d * inv) % p := by
  have hdlt : d * 2 ^ c < 2 ^ 64 := by
    have : d * 2 ^ c ≤ p * 2 ^ c := Nat.mul_le_mul_right _ (by omega)
    omega
  rw [Nat.shiftLeft_eq, Nat.mod_eq_of_lt hdlt]
  unfold udiv_rnnd_preinv
  rw [umul_ppmm_recombine _ _ (mul_lt_two_pow_128 (by omega) hinv)]
  have hre : d * 2 ^ c * inv = (d * inv) * 2 ^ c := by ring
  rw [hre, Nat.mul_mod_mul_right, ← Nat.shiftLeft_eq, Nat.shiftLeft_shiftRight]

theorem slow_recompute (d p inv : Nat) (hd : d < 2 ^ 64) (hinv : inv < 2 ^ 64) :
    (udiv_qrnnd (umul_ppmm d inv).1 (umul_ppmm d inv).2 p).2 = (d * inv) % p := by
  unfold udiv_qrnnd
  simp only
  rw [umul_ppmm_recombine _ _ (mul_lt_two_pow_128 (by omega) hinv)]

theorem getD_le_of_pairwise (l : List Nat) (hs : l.Pairwise (· < ·)) (a b : Nat) (hab : a ≤ b)
    (hb : b < l.length) : l.getD a 0 ≤ l.getD b 0 := by
  rw [List.getD_eq_getElem _ _ hb, List.getD_eq_getElem _ _ (by omega : a < l.length)]
  rcases Nat.eq_or_lt_of_le hab with h | h
  · subst h; exact Nat.le_refl _
  · exact Nat.le_of_lt (List.pairwise_iff_getElem.1 hs a b (by omega) hb h)

theorem getD_pos_lt_length (l : List Nat) (a : Nat) (h : l.getD a 0 ≠ 0) : a < l.length := by
  by_contra hge
  apply h
  rw [List.getD_eq_getElem?_getD, List.getElem?_eq_none (by omega)]
  rfl

theorem getD_mem_of_lt (l : List Nat) (a : Nat) (h : a < l.length) : l.getD a 0 ∈ l := by
  rw [List.getD_eq_getElem _ _ h]
  exact List.getElem_mem h

theorem shift32_recover (q c : Nat) (h : q * 2 ^ c < 2 ^ 32) :
    ((q % 2 ^ 32) <<< c) % 2 ^ 32 = q * 2 ^ c ∧ (((q % 2 ^ 32) <<< c) % 2 ^ 32) >>> c = q := by
  have hq : q < 2 ^ 32 := by
    have : q * 1 ≤ q * 2 ^ c := Nat.mul_le_mul_left _ (Nat.one_le_two_pow)
    omega
  rw [Nat.mod_eq_of_lt hq, Nat.shiftLeft_eq, Nat.mod_eq_of_lt h]
  refine ⟨rfl, ?_⟩
  rw [← Nat.shiftLeft_eq, Nat.shiftLeft_shiftRight]

theorem lane_recover (m : Miner) (hT : m.TableInv) (i W j : Nat) (hj : j < W)
    (hlim : i + W < NUM_PRIMES_TO_2P32)
    (hclz : clz (m.primes.getD (i + W - 1) 0 % 2 ^ 32) = clz (m.primes.getD i 0 % 2 ^ 32)) :
    m.primes.getD (i + j) 0 * 2 ^ clz (m.primes.getD i 0 % 2 ^ 32) < 2 ^ 32 := by
  obtain ⟨hsorted, h2, h32, _, _⟩ := hT
  by_cases hq : m.primes.getD (i + j) 0 = 0
  · rw [hq]; simp
  · have hij : i + j < m.primes.length := getD_pos_lt_length _ _ hq
    have hi : i < m.primes.length := by omega
    have hpi2 : 2 ≤ m.primes.getD i 0 := h2 _ (getD_mem_of_lt _ _ hi)
    have hpi32 : m.primes.getD i 0 < 2 ^ 32 := h32 i (by omega)
    have hlast32 : m.primes.getD (i + W - 1) 0 < 2 ^ 32 := h32 _ (by omega)
    have hq32 : m.primes.getD (i + j) 0 < 2 ^ 32 := h32 _ (by omega)
    rw [Nat.mod_eq_of_lt hpi32, Nat.mod_eq_of_lt hlast32] at hclz
    rw [Nat.mod_eq_of_lt hpi32]
    have hlogi : 1 ≤ Nat.log2 (m.primes.getD i 0) := by
      rw [Nat.le_log2 (by omega)]
      simpa using hpi2
    have hlogi' : Nat.log2 (m.primes.getD i 0) < 32 := (Nat.log2_lt (by omega)).2 hpi32
    by_cases hlast : i + W - 1 < m.primes.length
    · have hle : m.primes.getD (i + j) 0 ≤ m.primes.getD (i + W - 1) 0 :=
        getD_le_of_pairwise _ hsorted _ _ (by omega) hlast
      have hlast0 : m.primes.getD (i + W - 1) 0 ≠ 0 := by omega
      have hlogl : Nat.log2 (m.primes.getD (i + W - 1) 0) < 32 :=
        (Nat.log2_lt hlast0).2 hlast32
      unfold clz at hclz ⊢
      have heq : Nat.log2 (m.primes.getD (i + W - 1) 0) = Nat.log2 (m.primes.getD i 0) := by
        omega
      have h1 : m.primes.getD (i + j) 0 < 2 ^ (Nat.log2 (m.primes.getD i 0) + 1) := by
        rw [← heq]
        exact Nat.lt_of_le_of_lt hle Nat.lt_log2_self
      have h3 : (2 : Nat) ^ 32 = 2 ^ (Nat.log2 (m.primes.getD i 0) + 1)
          * 2 ^ (31 - Nat.log2 (m.primes.getD i 0)) := by
        rw [← pow_add]; congr 1; omega
      rw [h3]
      exact Nat.mul_lt_mul_of_pos_right h1 (Nat.two_pow_pos _)
    · exfalso
      have : m.primes.getD (i + W - 1) 0 = 0 := by
        rw [List.getD_eq_getElem?_getD, List.getElem?_eq_none (by omega)]
        rfl
      rw [this] at hclz
      unfold clz at hclz
      rw [Nat.log2_zero] at hclz
      omega

theorem avxLimitOf_le (m : Miner) (start_i : Nat) :
    avxLimitOf m start_i + avxWidthOf m ≤ NUM_PRIMES_TO_2P32 := by
  unfold avxLimitOf avxWidthOf NUM_PRIMES_TO_2P32
  split <;> split <;> omega

theorem avxWidthOf_pos (m : Miner) : 0 < avxWidthOf m ∧ avxWidthOf m ≤ 8 := by
  unfold avxWidthOf
  split <;> omega

theorem computeIndex_lanes (m : Miner) (hT : m.TableInv) (tar avxLimit W i : Nat)
    (nr : Nat → Nat) (idx : Nat) (hlim : avxLimit + W ≤ NUM_PRIMES_TO_2P32)
    (hlane : LaneInv m tar W i nr idx) :
    LaneInv m tar W (i + 1) (computeIndex m tar avxLimit W i nr idx).nextRemainder
      (computeIndex m tar avxLimit W i nr idx).nextRemainderIdx := by
  unfold computeIndex
  simp only
  by_cases hpre : i < m.precompLimit
  · rw [if_pos hpre]
    by_cases hidx : idx < W
    · rw [if_pos hidx]
      show LaneInv m tar W (i + 1) nr (idx + 1)
      intro _ t ht htW
      rw [hlane hpre t (by omega) htW]
      congr 1
      omega
    · rw [if_neg hidx]
      by_cases hb : i < avxLimit ∧
          clz (m.primes.getD (i + W - 1) 0 % 2 ^ 32) = clz (m.primes.getD i 0 % 2 ^ 32)
      · rw [if_pos hb]
        show LaneInv m tar W (i + 1) (rie_mod_1s_2p_times W tar
            (fun j => (m.primes.getD (i + j) 0 % 2 ^ 32) <<< clz (m.primes.getD i 0 % 2 ^ 32)
              % 2 ^ 32)
            (clz (m.primes.getD i 0 % 2 ^ 32))
            (fun j => if j < W then m.inverts.getD (i + j) 0 else nr j)) 1
        intro _ t ht htW
        unfold rie_mod_1s_2p_times
        simp only
        rw [if_pos htW, if_pos htW]
        have hrec := lane_recover m hT i W t htW (by omega) hb.2
        rw [(shift32_recover _ _ hrec).2]
        unfold Miner.firstIndex
        have : i + 1 + (t - 1) = i + t := by omega
        rw [this]
      · rw [if_neg hb]
        show LaneInv m tar W (i + 1) nr idx
        intro _ t ht htW
        omega
  · rw [if_neg hpre]
    intro h
    omega

theorem computeIndex_index64 (m : Miner) (hT : m.TableInv) (tar avxLimit W i : Nat)
    (nr : Nat → Nat) (idx : Nat) (hW : 0 < W) (hlim : avxLimit + W ≤ NUM_PRIMES_TO_2P32)
    (hlane : LaneInv m tar W i nr idx)
    (hp0 : 0 < m.primes.getD i 0) (hp64 : m.primes.getD i 0 < 2 ^ 64)
    (hinv : m.inverts.getD i 0 < 2 ^ 64) :
    (computeIndex m tar avxLimit W i nr idx).index = m.firstIndex tar i ∧
    (i < m.precompLimit →
      (computeIndex m tar avxLimit W i nr idx).ps =
        m.primes.getD i 0 * 2 ^ (computeIndex m tar avxLimit W i nr idx).cnt ∧
      m.primes.getD i 0 * 2 ^ (computeIndex m tar avxLimit W i nr idx).cnt < 2 ^ 64) := by
  obtain ⟨hps, hpslt⟩ := shift_clzll _ hp0 hp64
  unfold computeIndex
  simp only
  by_cases hpre : i < m.precompLimit
  · rw [if_pos hpre]
    by_cases hidx : idx < W
    · rw [if_pos hidx]
      simp only
      refine ⟨?_, fun _ => ⟨hps, hpslt⟩⟩
      rw [hlane hpre idx (Nat.le_refl _) hidx]
      congr 1
      omega
    · rw [if_neg hidx]
      by_cases hb : i < avxLimit ∧
          clz (m.primes.getD (i + W - 1) 0 % 2 ^ 32) = clz (m.primes.getD i 0 % 2 ^ 32)
      · rw [if_pos hb]
        simp only
        have hrec := lane_recover m hT i W 0 hW (by omega) hb.2
        rw [Nat.add_zero] at hrec ⊢
        obtain ⟨hr1, hr2⟩ := shift32_recover _ _ hrec
        refine ⟨?_, fun _ => ?_⟩
        · unfold rie_mod_1s_2p_times
          rw [if_pos hW]
          simp only [if_pos hW, Nat.add_zero]
          rw [hr2]
          rfl
        · rw [hr1, Nat.shiftLeft_eq]
          have hlt : m.primes.getD i 0 * 2 ^ clz (m.primes.getD i 0 % 2 ^ 32) * 2 ^ 32
              < 2 ^ 64 := by
            have h64 : (2 : Nat) ^ 64 = 2 ^ 32 * 2 ^ 32 := by norm_num
            rw [h64]
            exact Nat.mul_lt_mul_of_pos_right hrec (Nat.two_pow_pos _)
          rw [Nat.mod_eq_of_lt hlt, pow_add, Nat.mul_assoc]
          refine ⟨rfl, ?_⟩
          rw [← Nat.mul_assoc]; exact hlt
      · rw [if_neg hb]
        simp only
        exact ⟨fast_scalar_index tar _ _ hp0 hp64 hinv, fun _ => ⟨hps, hpslt⟩⟩
  · rw [if_neg hpre]
    simp only
    exact ⟨indexRef_eq tar _ _ (by omega) hinv, fun h => absurd h hpre⟩

theorem computeIndex_index (m : Miner) (hT : m.TableInv) (tar avxLimit W i : Nat)
    (nr : Nat → Nat) (idx : Nat) (hW : 0 < W) (hlim : avxLimit + W ≤ NUM_PRIMES_TO_2P32)
    (hlane : LaneInv m tar W i nr idx)
    (hp0 : 0 < m.primes.getD i 0) (hp : m.primes.getD i 0 < 2 ^ 32)
    (hinv : m.inverts.getD i 0 < 2 ^ 64) :
    (computeIndex m tar avxLimit W i nr idx).index = m.firstIndex tar i ∧
    (i < m.precompLimit →
      (computeIndex m tar avxLimit W i nr idx).ps =
        m.primes.getD i 0 * 2 ^ (computeIndex m tar avxLimit W i nr idx).cnt ∧
      m.primes.getD i 0 * 2 ^ (computeIndex m tar avxLimit W i nr idx).cnt < 2 ^ 64) :=
  computeIndex_index64 m hT tar avxLimit W i nr idx hW hlim hlane hp0
    (Nat.lt_trans hp (by norm_num)) hinv

/-! ## Remainder worker: the multiplier lattice and the dense branch -/

theorem mod_of_lt_two_mul (x p : Nat) (h : x < 2 * p) :
    (if x ≥ p then x - p else x) = x % p := by
  by_cases hx : x ≥ p
  · rw [if_pos hx, Nat.mod_eq_sub_mod hx, Nat.mod_eq_of_lt (by omega)]
  · rw [if_neg hx, Nat.mod_eq_of_lt (by omega)]

theorem invertLattice_eq (inv p : Nat) (hinv : inv < p) (hp : p < 2 ^ 63) :
    invertLattice inv p = [inv, (2 * inv) % p, (4 * inv) % p, (6 * inv) % p] := by
  unfold invertLattice
  have hp0 : 0 < p := by omega
  have h1 : (inv <<< 1) % 2 ^ 64 = 2 * inv := by
    rw [Nat.shiftLeft_eq, Nat.mod_eq_of_lt (by omega)]; omega
  simp only [h1]
  rw [mod_of_lt_two_mul (2 * inv) p (by omega)]
  have hlt1 : (2 * inv) % p < p := Nat.mod_lt _ hp0
  have h2 : (((2 * inv) % p) <<< 1) % 2 ^ 64 = 2 * ((2 * inv) % p) := by
    rw [Nat.shiftLeft_eq, Nat.mod_eq_of_lt (by omega)]; omega
  simp only [h2]
  rw [mod_of_lt_two_mul (2 * ((2 * inv) % p)) p (by omega)]
  have h4 : (2 * ((2 * inv) % p)) % p = (4 * inv) % p := by
    rw [Nat.mul_mod, Nat.mod_mod, ← Nat.mul_mod]; congr 1; ring
  rw [h4]
  have hlt2 : (4 * inv) % p < p := Nat.mod_lt _ hp0
  have h3 : ((2 * inv) % p + (4 * inv) % p) % 2 ^ 64 = (2 * inv) % p + (4 * inv) % p :=
    Nat.mod_eq_of_lt (by omega)
  simp only [h3]
  rw [mod_of_lt_two_mul _ p (by omega)]
  have h6 : ((2 * inv) % p + (4 * inv) % p) % p = (6 * inv) % p := by
    rw [← Nat.add_mod]; congr 1; ring
  rw [h6]

theorem natCast_mod_modEq (x p : Nat) : ((x % p : Nat) : Int) ≡ (x : Int) [ZMOD (p : Int)] := by
  rw [Int.natCast_mod]
  exact Int.mod_modEq _ _

theorem invertLattice_entry (inv p o : Nat) (hinv : inv < p) (hp : p < 2 ^ 63)
    (ho : o = 2 ∨ o = 4 ∨ o = 6) :
    (invertLattice inv p).getD (o >>> 1) 0 < p ∧
    (((invertLattice inv p).getD (o >>> 1) 0 : Nat) : Int) ≡ (o : Int) * (inv : Int)
      [ZMOD (p : Int)] := by
  rw [invertLattice_eq inv p hinv hp]
  have hp0 : 0 < p := by omega
  rcases ho with rfl | rfl | rfl
  · exact ⟨Nat.mod_lt _ hp0, by simpa using natCast_mod_modEq (2 * inv) p⟩
  · exact ⟨Nat.mod_lt _ hp0, by simpa using natCast_mod_modEq (4 * inv) p⟩
  · exact ⟨Nat.mod_lt _ hp0, by simpa using natCast_mod_modEq (6 * inv) p⟩

theorem halfPrimeTupleOffset_getD (m : Miner) (f : Nat) (hf : f < m.primeTupleOffset.length) :
    m.halfPrimeTupleOffset.getD f 0 = m.primeTupleOffset.getD f 0 >>> 1 := by
  unfold Miner.halfPrimeTupleOffset
  rw [List.getD_eq_getElem _ _ (by simpa using hf), List.getD_eq_getElem _ _ hf]
  simp

theorem halfPrimeTupleOffset_length (m : Miner) :
    m.halfPrimeTupleOffset.length = m.primeTupleOffset.length := by
  simp [Miner.halfPrimeTupleOffset]

theorem famChain_good (m : Miner) (P p inv : Nat) (base : Int) (index : Nat)
    (hinv : inv < p) (hp : p < 2 ^ 63) (hPinv : (P : Int) * (inv : Int) ≡ 1 [ZMOD (p : Int)])
    (hsteps : ∀ f, 1 ≤ f → f < m.primeTupleOffset.length →
      m.primeTupleOffset.getD f 0 = 2 ∨ m.primeTupleOffset.getD f 0 = 4 ∨
        m.primeTupleOffset.getD f 0 = 6)
    (hg : GoodIndex P p base index) :
    ∀ f, f < m.primeTupleOffset.length →
      GoodIndex P p (base + (m.offsetSum f : Int)) (famChain m p (invertLattice inv p) index f) := by
  intro f
  induction f with
  | zero =>
    intro _
    simpa [Miner.offsetSum, famChain] using hg
  | succ f ih =>
    intro hf
    have hprev := ih (by omega)
    have ho := hsteps (f + 1) (by omega) hf
    obtain ⟨h1, h2⟩ := invertLattice_entry inv p _ hinv hp ho
    have hstep := goodIndex_step P p _ _ _ (m.primeTupleOffset.getD (f + 1) 0 : Int) inv
      hprev h1 h2 hPinv
    have hsum : base + ((m.offsetSum (f + 1) : Nat) : Int) =
        base + ((m.offsetSum f : Nat) : Int) + ((m.primeTupleOffset.getD (f + 1) 0 : Nat) : Int) := by
      unfold Miner.offsetSum
      rw [Finset.sum_range_succ]
      push_cast
      ring
    rw [hsum]
    show GoodIndex P p _ (familyStep m p (invertLattice inv p) _ (f + 1))
    unfold familyStep
    rw [halfPrimeTupleOffset_getD m (f + 1) hf]
    exact hstep

theorem foldl_family (m : Miner) (i p : Nat) (invert : List Nat) (index : Nat) :
    ∀ (n f0 : Nat) (offs : Nat → Nat),
      ((List.range' (f0 + 1) n).foldl
        (fun st f =>
          (familyStep m p invert st.1 f,
            Function.update st.2 (m.primeTupleOffset.length * i + f)
              (familyStep m p invert st.1 f % 2 ^ 32)))
        (famChain m p invert index f0, offs)).1 = famChain m p invert index (f0 + n) ∧
      (∀ f, f0 < f → f ≤ f0 + n →
        ((List.range' (f0 + 1) n).foldl
          (fun st f =>
            (familyStep m p invert st.1 f,
              Function.update st.2 (m.primeTupleOffset.length * i + f)
                (familyStep m p invert st.1 f % 2 ^ 32)))
          (famChain m p invert index f0, offs)).2 (m.primeTupleOffset.length * i + f)
          = famChain m p invert index f % 2 ^ 32) ∧
      (∀ slot, (∀ f, f0 < f → f ≤ f0 + n → slot ≠ m.primeTupleOffset.length * i + f) →
        ((List.range' (f0 + 1) n).foldl
          (fun st f =>
            (familyStep m p invert st.1 f,
              Function.update st.2 (m.primeTupleOffset.length * i + f)
                (familyStep m p invert st.1 f % 2 ^ 32)))
          (famChain m p invert index f0, offs)).2 slot = offs slot) := by
  intro n
  induction n with
  | zero =>
    intro f0 offs
    refine ⟨rfl, ?_, fun _ _ => rfl⟩
    intro f h1 h2
    omega
  | succ n ih =>
    intro f0 offs
    rw [List.range'_succ, List.foldl_cons]
    have hch : familyStep m p invert (famChain m p invert index f0) (f0 + 1)
        = famChain m p invert index (f0 + 1) := rfl
    simp only [hch]
    obtain ⟨h1, h2, h3⟩ := ih (f0 + 1)
      (Function.update offs (m.primeTupleOffset.length * i + (f0 + 1))
        (famChain m p invert index (f0 + 1) % 2 ^ 32))
    refine ⟨?_, ?_, ?_⟩
    · rw [h1]; congr 1; omega
    · intro f hf1 hf2
      by_cases hf : f = f0 + 1
      · subst hf
        rw [h3 _ (fun f hf1 _ => by omega)]
        simp
      · exact h2 f (by omega) (by omega)
    · intro slot hslot
      rw [h3 slot (fun f hf1 hf2 => hslot f (by omega) (by omega))]
      rw [Function.update_noteq (hslot (f0 + 1) (by omega) (by omega))]

theorem addToOffsetsDense_spec (m : Miner) (i p : Nat) (invert : List Nat) (index : Nat)
    (offs : Nat → Nat) (hL : 1 ≤ m.primeTupleOffset.length) :
    (addToOffsetsDense m i p invert index offs).1
      = famChain m p invert index (m.primeTupleOffset.length - 1) ∧
    (∀ f, f < m.primeTupleOffset.length →
      (addToOffsetsDense m i p invert index offs).2 (m.primeTupleOffset.length * i + f)
        = famChain m p invert index f % 2 ^ 32) ∧
    (∀ slot, (slot < m.primeTupleOffset.length * i ∨
        m.primeTupleOffset.length * (i + 1) ≤ slot) →
      (addToOffsetsDense m i p invert index offs).2 slot = offs slot) := by
  unfold addToOffsetsDense
  rw [halfPrimeTupleOffset_length]
  obtain ⟨h1, h2, h3⟩ := foldl_family m i p invert index (m.primeTupleOffset.length - 1) 0
    (Function.update offs (m.primeTupleOffset.length * i) (index % 2 ^ 32))
  have hz : (0 : Nat) + 1 = 1 := rfl
  rw [hz] at h1 h2 h3
  have hc0 : famChain m p invert index 0 = index := rfl
  rw [hc0] at h1 h2 h3
  refine ⟨?_, ?_, ?_⟩
  · rw [h1]; congr 1; omega
  · intro f hf
    by_cases hf0 : f = 0
    · subst hf0
      rw [h3 _ (fun f hf1 _ => by omega)]
      simp [hc0]
    · exact h2 f (by omega) (by omega)
  · intro slot hslot
    have hmul : m.primeTupleOffset.length * (i + 1)
        = m.primeTupleOffset.length * i + m.primeTupleOffset.length := by ring
    rw [h3 slot (fun f hf1 hf2 => by omega)]
    rw [Function.update_noteq (by omega)]

/-! ## Remainder worker: one dense prime -/

theorem foldl_add_eq (l : List Nat) (a : Nat) :
    l.foldl (fun acc n => acc + n) a = a + l.sum := by
  induction l generalizing a with
  | nil => simp
  | cons x l ih => rw [List.foldl_cons, ih, List.sum_cons]; omega

theorem sum_range_getD (l : List Nat) :
    Finset.sum (Finset.range l.length) (fun t => l.getD t 0) = l.sum := by
  induction l with
  | nil => simp
  | cons x l ih =>
    rw [List.length_cons, Finset.sum_range_succ', List.sum_cons]
    have : ∀ t, (x :: l).getD (t + 1) 0 = l.getD t 0 := fun t => by simp
    simp only [this, ih]
    simp
    omega

theorem tupleSpan_eq (m : Miner) (hP : m.PatternOK) :
    m.tupleSpan = m.offsetSum (m.primeTupleOffset.length - 1) := by
  obtain ⟨hL, h0, _⟩ := hP
  unfold Miner.tupleSpan Miner.offsetSum
  rw [foldl_add_eq, Nat.zero_add]
  cases hl : m.primeTupleOffset with
  | nil => rw [hl] at hL; simp at hL
  | cons x l =>
    rw [hl] at h0
    have hx : x = 0 := by simpa using h0
    rw [List.sum_cons, hx, Nat.zero_add, List.length_cons, Nat.add_sub_cancel]
    have : ∀ t, (0 :: l).getD (t + 1) 0 = l.getD t 0 := fun t => by simp
    simp only [this]
    exact (sum_range_getD l).symm

theorem primorialOffsetDiff_cast (m : Miner) (hO : m.OffsetsOK) (j : Nat) (hj1 : 1 ≤ j)
    (hj : j < m.sieveWorkers) :
    m.primorialOffsetDiff (j - 1) < 2 ^ 64 ∧
    (m.primorialOffsetDiff (j - 1) : Int) =
      m.offsetToFirst j - m.offsetToFirst (j - 1) - (m.tupleSpan : Int) := by
  obtain ⟨h64, hasc⟩ := hO
  have h1 := hasc j hj1 hj
  have h2 := h64 j
  have h3 := h64 (j - 1)
  unfold Miner.primorialOffsetDiff Miner.offsetToFirst
  have hj' : j - 1 + 1 = j := by omega
  rw [hj']
  have hs : m.tupleSpan < 2 ^ 64 := by omega
  rw [Nat.mod_eq_of_lt h3, Nat.mod_eq_of_lt hs]
  have heq : m.primorialOffsets.getD j 0 + 2 ^ 64 - m.primorialOffsets.getD (j - 1) 0 + 2 ^ 64
      - m.tupleSpan
      = (m.primorialOffsets.getD j 0 - m.primorialOffsets.getD (j - 1) 0 - m.tupleSpan)
        + 2 ^ 64 + 2 ^ 64 := by omega
  rw [heq, Nat.add_mod_right, Nat.add_mod_right, Nat.mod_eq_of_lt (by omega)]
  refine ⟨by omega, ?_⟩
  omega

theorem recomputeRemainder_eq (m : Miner) (i p inv cnt ps j : Nat)
    (hd : m.primorialOffsetDiff (j - 1) < 2 ^ 64) (hinv : inv < 2 ^ 64)
    (hps : i < m.precompLimit → ps = p * 2 ^ cnt ∧ p * 2 ^ cnt < 2 ^ 64) :
    recomputeRemainder m i p inv cnt ps j = (m.primorialOffsetDiff (j - 1) * inv) % p := by
  unfold recomputeRemainder
  simp only
  by_cases h : i < m.precompLimit ∧ m.primorialOffsetDiff (j - 1) < p
  · rw [if_pos h]
    obtain ⟨h1, h2⟩ := hps h.1
    rw [h1]
    exact fast_recompute _ p inv cnt h.2 h2 hinv
  · rw [if_neg h]
    exact slow_recompute _ p inv hd hinv

theorem addToOffsets_dense_eq (m : Miner) (stale : Bool) (i p : Nat) (invert : List Nat)
    (j index : Nat) (s : ModLoop) (hd : i < m.sparseLimit) :
    addToOffsets m stale i p invert j index s =
      Outcome.normal ((addToOffsetsDense m i p invert index (s.st.sieves j).offsets).1,
        { s with st := { s.st with
            sieves := Function.update s.st.sieves j
              { s.st.sieves j with
                offsets := (addToOffsetsDense m i p invert index (s.st.sieves j).offsets).2 } } }) := by
  unfold addToOffsets
  rw [if_pos (by omega)]

/-- One dense `addToOffsets(j)`: what it leaves in the state. -/
theorem addToOffsets_dense_spec (m : Miner) (stale : Bool) (tar : Int) (i j index : Nat)
    (s : ModLoop) (hd : i < m.sparseLimit) (hP : m.PatternOK)
    (hp32 : m.primes.getD i 0 < 2 ^ 32)
    (hinv : m.inverts.getD i 0 < m.primes.getD i 0)
    (hPinv : (m.primorial : Int) * (m.inverts.getD i 0 : Int) ≡ 1 [ZMOD (m.primes.getD i 0 : Int)])
    (hg : GoodIndex m.primorial (m.primes.getD i 0) (tar + m.offsetToFirst j) index) :
    ∃ x, addToOffsets m stale i (m.primes.getD i 0)
        (invertLattice (m.inverts.getD i 0) (m.primes.getD i 0)) j index s = Outcome.normal x ∧
      GoodIndex m.primorial (m.primes.getD i 0)
        (tar + m.offsetToFirst j + (m.offsetSum (m.primeTupleOffset.length - 1) : Int)) x.1 ∧
      (∀ f, f < m.primeTupleOffset.length → DenseGood m tar i x.2.st j f) ∧
      (∀ w, w ≠ j → x.2.st.sieves w = s.st.sieves w) ∧
      (∀ slot, (slot < m.primeTupleOffset.length * i ∨
          m.primeTupleOffset.length * (i + 1) ≤ slot) →
        (x.2.st.sieves j).offsets slot = (s.st.sieves j).offsets slot) ∧
      x.2.nextRemainder = s.nextRemainder ∧ x.2.nextRemainderIdx = s.nextRemainderIdx := by
  obtain ⟨hL, _, hsteps⟩ := hP
  have hp63 : m.primes.getD i 0 < 2 ^ 63 := by
    have : (2 : Nat) ^ 32 < 2 ^ 63 := by norm_num
    omega
  refine ⟨_, addToOffsets_dense_eq m stale i _ _ j index s hd, ?_⟩
  obtain ⟨h1, h2, h3⟩ := addToOffsetsDense_spec m i (m.primes.getD i 0)
    (invertLattice (m.inverts.getD i 0) (m.primes.getD i 0)) index (s.st.sieves j).offsets hL
  have hchain := famChain_good m m.primorial (m.primes.getD i 0) (m.inverts.getD i 0)
    (tar + m.offsetToFirst j) index hinv hp63 hPinv hsteps hg
  refine ⟨?_, ?_, ?_, ?_, rfl, rfl⟩
  · simp only
    rw [h1]
    exact hchain _ (by omega)
  · intro f hf
    unfold DenseGood
    simp only [Function.update_same]
    rw [h2 f hf]
    have hgf := hchain f hf
    rw [Nat.mod_eq_of_lt (by have := hgf.1; omega)]
    exact hgf
  · intro w hw
    simp only
    rw [Function.update_noteq hw]
  · intro slot hslot
    simp only [Function.update_same]
    exact h3 slot hslot

theorem mod_one_to_modEq (P inv p : Nat) (h : (P * inv) % p = 1) :
    (P : Int) * (inv : Int) ≡ 1 [ZMOD (p : Int)] := by
  have h1 := natCast_mod_modEq (P * inv) p
  rw [h] at h1
  have h2 : ((P * inv : Nat) : Int) = (P : Int) * (inv : Int) := by push_cast; ring
  rw [h2] at h1
  exact h1.symm

theorem worker_shift (m : Miner) (tar : Int) (i j index : Nat) (hP : m.PatternOK)
    (hO : m.OffsetsOK) (hj1 : 1 ≤ j) (hj : j < m.sieveWorkers)
    (hinv : m.inverts.getD i 0 < m.primes.getD i 0)
    (hPinv : (m.primorial : Int) * (m.inverts.getD i 0 : Int) ≡ 1 [ZMOD (m.primes.getD i 0 : Int)])
    (hg : GoodIndex m.primorial (m.primes.getD i 0)
      (tar + m.offsetToFirst (j - 1) + (m.offsetSum (m.primeTupleOffset.length - 1) : Int)) index) :
    GoodIndex m.primorial (m.primes.getD i 0) (tar + m.offsetToFirst j)
      (subWrap (m.primes.getD i 0) index
        ((m.primorialOffsetDiff (j - 1) * m.inverts.getD i 0) % m.primes.getD i 0)) := by
  obtain ⟨_, hcast⟩ := primorialOffsetDiff_cast m hO j hj1 hj
  have hp0 : 0 < m.primes.getD i 0 := by omega
  have ha : (m.primorialOffsetDiff (j - 1) * m.inverts.getD i 0) % m.primes.getD i 0
      < m.primes.getD i 0 := Nat.mod_lt _ hp0
  have hac : (((m.primorialOffsetDiff (j - 1) * m.inverts.getD i 0) % m.primes.getD i 0 : Nat) : Int)
      ≡ (m.primorialOffsetDiff (j - 1) : Int) * (m.inverts.getD i 0 : Int)
        [ZMOD (m.primes.getD i 0 : Int)] := by
    have := natCast_mod_modEq (m.primorialOffsetDiff (j - 1) * m.inverts.getD i 0)
      (m.primes.getD i 0)
    rwa [Nat.cast_mul] at this
  have hstep := goodIndex_step m.primorial (m.primes.getD i 0) index _ _
    (m.primorialOffsetDiff (j - 1) : Int) (m.inverts.getD i 0 : Int) hg ha hac hPinv
  have hbase : tar + m.offsetToFirst (j - 1) + (m.offsetSum (m.primeTupleOffset.length - 1) : Int)
      + (m.primorialOffsetDiff (j - 1) : Int) = tar + m.offsetToFirst j := by
    rw [hcast, tupleSpan_eq m hP]
    ring
  rw [hbase] at hstep
  exact hstep

theorem workersLoop_dense (m : Miner) (stale : Nat → Nat → Bool) (tar : Int) (i cnt ps : Nat)
    (hd : i < m.sparseLimit) (hP : m.PatternOK) (hO : m.OffsetsOK)
    (hp32 : m.primes.getD i 0 < 2 ^ 32)
    (hinv : m.inverts.getD i 0 < m.primes.getD i 0)
    (hPinv : (m.primorial : Int) * (m.inverts.getD i 0 : Int) ≡ 1 [ZMOD (m.primes.getD i 0 : Int)])
    (hps : i < m.precompLimit →
      ps = m.primes.getD i 0 * 2 ^ cnt ∧ m.primes.getD i 0 * 2 ^ cnt < 2 ^ 64) :
    ∀ (n j0 index r : Nat) (s : ModLoop), 2 ≤ j0 → j0 + n ≤ m.sieveWorkers →
      GoodIndex m.primorial (m.primes.getD i 0)
        (tar + m.offsetToFirst (j0 - 1) + (m.offsetSum (m.primeTupleOffset.length - 1) : Int))
        index →
      r = (m.primorialOffsetDiff (j0 - 2) * m.inverts.getD i 0) % m.primes.getD i 0 →
      ∃ s1, workersLoop m stale i (m.primes.getD i 0)
          (invertLattice (m.inverts.getD i 0) (m.primes.getD i 0)) cnt ps
          (List.range' j0 n) index r s = Outcome.normal s1 ∧
        (∀ w, j0 ≤ w → w < j0 + n → ∀ f, f < m.primeTupleOffset.length →
          DenseGood m tar i s1.st w f) ∧
        (∀ w, w < j0 → s1.st.sieves w = s.st.sieves w) ∧
        (∀ w slot, (slot < m.primeTupleOffset.length * i ∨
            m.primeTupleOffset.length * (i + 1) ≤ slot) →
          (s1.st.sieves w).offsets slot = (s.st.sieves w).offsets slot) ∧
        s1.nextRemainder = s.nextRemainder ∧ s1.nextRemainderIdx = s.nextRemainderIdx := by
  have hinv64 : m.inverts.getD i 0 < 2 ^ 64 := by
    have : (2 : Nat) ^ 32 < 2 ^ 64 := by norm_num
    omega
  intro n
  induction n with
  | zero =>
    intro j0 index r s _ _ _ _
    refine ⟨s, rfl, ?_, fun _ _ => rfl, fun _ _ _ => rfl, rfl, rfl⟩
    intro w h1 h2
    omega
  | succ n ih =>
    intro j0 index r s hj0 hjn hg hr
    rw [List.range'_succ]
    unfold workersLoop
    have hhead : (invertLattice (m.inverts.getD i 0) (m.primes.getD i 0)).getD 0 0
        = m.inverts.getD i 0 := by simp [invertLattice]
    have hdiff := (primorialOffsetDiff_cast m hO j0 (by omega) (by omega)).1
    have hr1 : (if m.primorialOffsetDiff (j0 - 1) ≠ m.primorialOffsetDiff (j0 - 2) then
          recomputeRemainder m i (m.primes.getD i 0)
            ((invertLattice (m.inverts.getD i 0) (m.primes.getD i 0)).getD 0 0) cnt ps j0
        else r)
        = (m.primorialOffsetDiff (j0 - 1) * m.inverts.getD i 0) % m.primes.getD i 0 := by
      by_cases hne : m.primorialOffsetDiff (j0 - 1) ≠ m.primorialOffsetDiff (j0 - 2)
      · rw [if_pos hne, hhead]
        exact recomputeRemainder_eq m i _ _ cnt ps j0 hdiff hinv64 hps
      · rw [if_neg hne, hr]
        have : m.primorialOffsetDiff (j0 - 1) = m.primorialOffsetDiff (j0 - 2) := by
          simpa using hne
        rw [this]
    simp only [hr1]
    have hshift := worker_shift m tar i j0 index hP hO (by omega) (by omega) hinv hPinv hg
    obtain ⟨x, hx, hx1, hx2, hx3, hx4, hx5, hx6⟩ :=
      addToOffsets_dense_spec m (stale i j0) tar i j0 _ s hd hP hp32 hinv hPinv hshift
    rw [hx]
    simp only
    obtain ⟨s1, hs1, h1, h2, h3, h4, h5⟩ := ih (j0 + 1) x.1 _ x.2 (by omega) (by omega)
      (by simpa using hx1) (by
        have : j0 + 1 - 2 = j0 - 1 := by omega
        rw [this])
    refine ⟨s1, hs1, ?_, ?_, ?_, by rw [h4, hx5], by rw [h5, hx6]⟩
    · intro w hw1 hw2 f hf
      by_cases hw : w = j0
      · subst hw
        have hgood := hx2 f hf
        unfold DenseGood at hgood ⊢
        rw [h2 w (by omega)]
        exact hgood
      · exact h1 w (by omega) (by omega) f hf
    · intro w hw
      rw [h2 w (by omega), hx3 w (by omega)]
    · intro w slot hslot
      rw [h3 w slot hslot]
      by_cases hw : w = j0
      · subst hw
        exact hx4 slot hslot
      · rw [hx3 w hw]

theorem addToOffsets_dense_frame (m : Miner) (stale : Bool) (i p : Nat) (invert : List Nat)
    (j index : Nat) (s : ModLoop) (hd : i < m.sparseLimit)
    (hL : 1 ≤ m.primeTupleOffset.length) :
    ∃ x, addToOffsets m stale i p invert j index s = Outcome.normal x ∧
      (∀ w slot, (slot < m.primeTupleOffset.length * i ∨
          m.primeTupleOffset.length * (i + 1) ≤ slot) →
        (x.2.st.sieves w).offsets slot = (s.st.sieves w).offsets slot) ∧
      x.2.nextRemainder = s.nextRemainder ∧ x.2.nextRemainderIdx = s.nextRemainderIdx := by
  refine ⟨_, addToOffsets_dense_eq m stale i p invert j index s hd, ?_, rfl, rfl⟩
  intro w slot hslot
  simp only
  by_cases hw : w = j
  · subst hw
    simp only [Function.update_same]
    exact (addToOffsetsDense_spec m i p invert index _ hL).2.2 slot hslot
  · rw [Function.update_noteq hw]

theorem workersLoop_dense_frame (m : Miner) (stale : Nat → Nat → Bool) (i p : Nat)
    (invert : List Nat) (cnt ps : Nat) (hd : i < m.sparseLimit)
    (hL : 1 ≤ m.primeTupleOffset.length) :
    ∀ (js : List Nat) (index r : Nat) (s : ModLoop),
      ∃ s1, workersLoop m stale i p invert cnt ps js index r s = Outcome.normal s1 ∧
        (∀ w slot, (slot < m.primeTupleOffset.length * i ∨
            m.primeTupleOffset.length * (i + 1) ≤ slot) →
          (s1.st.sieves w).offsets slot = (s.st.sieves w).offsets slot) ∧
        s1.nextRemainder = s.nextRemainder ∧ s1.nextRemainderIdx = s.nextRemainderIdx := by
  intro js
  induction js with
  | nil =>
    intro index r s
    exact ⟨s, rfl, fun _ _ _ => rfl, rfl, rfl⟩
  | cons j js ih =>
    intro index r s
    unfold workersLoop
    simp only
    obtain ⟨x, hx, hx1, hx2, hx3⟩ := addToOffsets_dense_frame m (stale i j) i p invert j
      (subWrap p index (if m.primorialOffsetDiff (j - 1) ≠ m.primorialOffsetDiff (j - 2) then
        recomputeRemainder m i p (invert.getD 0 0) cnt ps j else r)) s hd hL
    rw [hx]
    simp only
    obtain ⟨s1, hs1, h1, h2, h3⟩ := ih x.1
      (if m.primorialOffsetDiff (j - 1) ≠ m.primorialOffsetDiff (j - 2) then
        recomputeRemainder m i p (invert.getD 0 0) cnt ps j else r) x.2
    refine ⟨s1, hs1, ?_, by rw [h2, hx2], by rw [h3, hx3]⟩
    intro w slot hslot
    rw [h1 w slot hslot, hx1 w slot hslot]

theorem modPrime_dense_frame (m : Miner) (stale : Nat → Nat → Bool) (tar avxLimit W i : Nat)
    (s : ModLoop) (hT : m.TableInv) (hL : 1 ≤ m.primeTupleOffset.length)
    (hlim : avxLimit + W ≤ NUM_PRIMES_TO_2P32) (hd : i < m.sparseLimit)
    (hlane : LaneInv m tar W i s.nextRemainder s.nextRemainderIdx) :
    ∃ s1, modPrime m stale tar avxLimit W i s = Outcome.normal s1 ∧
      (∀ w slot, (slot < m.primeTupleOffset.length * i ∨
          m.primeTupleOffset.length * (i + 1) ≤ slot) →
        (s1.st.sieves w).offsets slot = (s.st.sieves w).offsets slot) ∧
      LaneInv m tar W (i + 1) s1.nextRemainder s1.nextRemainderIdx := by
  have hlanes := computeIndex_lanes m hT tar avxLimit W i s.nextRemainder s.nextRemainderIdx
    hlim hlane
  unfold modPrime
  simp only
  obtain ⟨x0, hx0, h01, h02, h03⟩ := addToOffsets_dense_frame m (stale i 0) i
    (m.primes.getD i 0) (invertLattice (m.inverts.getD i 0) (m.primes.getD i 0)) 0
    (computeIndex m tar avxLimit W i s.nextRemainder s.nextRemainderIdx).index
    { s with
      nextRemainder := (computeIndex m tar avxLimit W i s.nextRemainder s.nextRemainderIdx).nextRemainder
      nextRemainderIdx :=
        (computeIndex m tar avxLimit W i s.nextRemainder s.nextRemainderIdx).nextRemainderIdx }
    hd hL
  rw [hx0]
  simp only
  by_cases hw1 : m.sieveWorkers = 1
  · rw [if_pos hw1]
    refine ⟨x0.2, rfl, h01, ?_⟩
    rw [h02, h03]
    exact hlanes
  · rw [if_neg hw1]
    obtain ⟨x1, hx1, h11, h12, h13⟩ := addToOffsets_dense_frame m (stale i 1) i
      (m.primes.getD i 0) (invertLattice (m.inverts.getD i 0) (m.primes.getD i 0)) 1
      (subWrap (m.primes.getD i 0) x0.1
        (recomputeRemainder m i (m.primes.getD i 0) (m.inverts.getD i 0)
          (computeIndex m tar avxLimit W i s.nextRemainder s.nextRemainderIdx).cnt
          (computeIndex m tar avxLimit W i s.nextRemainder s.nextRemainderIdx).ps 1))
      x0.2 hd hL
    rw [hx1]
    simp only
    obtain ⟨s1, hs1, h1, h2, h3⟩ := workersLoop_dense_frame m stale i (m.primes.getD i 0)
      (invertLattice (m.inverts.getD i 0) (m.primes.getD i 0))
      (computeIndex m tar avxLimit W i s.nextRemainder s.nextRemainderIdx).cnt
      (computeIndex m tar avxLimit W i s.nextRemainder s.nextRemainderIdx).ps hd hL
      (List.range' 2 (m.sieveWorkers - 2)) x1.1
      (recomputeRemainder m i (m.primes.getD i 0) (m.inverts.getD i 0)
          (computeIndex m tar avxLimit W i s.nextRemainder s.nextRemainderIdx).cnt
          (computeIndex m tar avxLimit W i s.nextRemainder s.nextRemainderIdx).ps 1) x1.2
    refine ⟨s1, hs1, ?_, ?_⟩
    · intro w slot hslot
      rw [h1 w slot hslot, h11 w slot hslot, h01 w slot hslot]
    · rw [h2, h3, h12, h13, h02, h03]
      exact hlanes

theorem offsetToFirst_zero (m : Miner) : m.offsetToFirst 0 = 0 := by
  unfold Miner.offsetToFirst
  omega

theorem modPrime_dense_good (m : Miner) (stale : Nat → Nat → Bool) (tar avxLimit W i : Nat)
    (s : ModLoop) (hT : m.TableInv) (hP : m.PatternOK) (hO : m.OffsetsOK)
    (hw : 1 ≤ m.sieveWorkers) (hW : 0 < W)
    (hlim : avxLimit + W ≤ NUM_PRIMES_TO_2P32) (hk : m.primorialNumber ≤ i)
    (hd : i < m.sparseLimit)
    (hlane : LaneInv m tar W i s.nextRemainder s.nextRemainderIdx) :
    ∀ s1, modPrime m stale tar avxLimit W i s = Outcome.normal s1 →
      ∀ w, w < m.sieveWorkers → ∀ f, f < m.primeTupleOffset.length →
        DenseGood m (tar : Int) i s1.st w f := by
  have hp32 := hT.2.2.2.1 i hd
  obtain ⟨hinv, hmod⟩ := hT.2.2.2.2 i hk hd
  have hPinv := mod_one_to_modEq _ _ _ hmod
  have hp0 : 0 < m.primes.getD i 0 := by omega
  have hinv64 : m.inverts.getD i 0 < 2 ^ 64 := by
    have : (2 : Nat) ^ 32 < 2 ^ 64 := by norm_num
    omega
  obtain ⟨hidx, hps⟩ := computeIndex_index m hT tar avxLimit W i s.nextRemainder
    s.nextRemainderIdx hW hlim hlane hp0 hp32 hinv64
  have hbase : GoodIndex m.primorial (m.primes.getD i 0) ((tar : Int) + m.offsetToFirst 0)
      (computeIndex m tar avxLimit W i s.nextRemainder s.nextRemainderIdx).index := by
    rw [hidx, offsetToFirst_zero, Int.add_zero]
    exact goodIndex_base m.primorial _ tar _ hp0 hmod
  intro s1
  unfold modPrime
  simp only
  obtain ⟨x0, hx0, h01, h02, h03, h04, _, _⟩ := addToOffsets_dense_spec m (stale i 0) (tar : Int)
    i 0 _
    { s with
      nextRemainder := (computeIndex m tar avxLimit W i s.nextRemainder s.nextRemainderIdx).nextRemainder
      nextRemainderIdx :=
        (computeIndex m tar avxLimit W i s.nextRemainder s.nextRemainderIdx).nextRemainderIdx }
    hd hP hp32 hinv hPinv hbase
  rw [hx0]
  simp only
  by_cases hw1 : m.sieveWorkers = 1
  · rw [if_pos hw1]
    intro heq w hwlt f hf
    have hs : s1 = x0.2 := by
      injection heq with h
      exact h.symm
    have hw0 : w = 0 := by omega
    rw [hs, hw0]
    exact h02 f hf
  · rw [if_neg hw1]
    have hr1 := recomputeRemainder_eq m i (m.primes.getD i 0) (m.inverts.getD i 0)
      (computeIndex m tar avxLimit W i s.nextRemainder s.nextRemainderIdx).cnt
      (computeIndex m tar avxLimit W i s.nextRemainder s.nextRemainderIdx).ps 1
      (primorialOffsetDiff_cast m hO 1 (by omega) (by omega)).1 hinv64 hps
    have hshift := worker_shift m (tar : Int) i 1 x0.1 hP hO (by omega) (by omega) hinv hPinv
      (by simpa using h01)
    rw [hr1]
    obtain ⟨x1, hx1, h11, h12, h13, h14, _, _⟩ := addToOffsets_dense_spec m (stale i 1)
      (tar : Int) i 1 _ x0.2 hd hP hp32 hinv hPinv hshift
    rw [hx1]
    simp only
    obtain ⟨s2, hs2, h21, h22, _, _, _⟩ := workersLoop_dense m stale (tar : Int) i
      (computeIndex m tar avxLimit W i s.nextRemainder s.nextRemainderIdx).cnt
      (computeIndex m tar avxLimit W i s.nextRemainder s.nextRemainderIdx).ps
      hd hP hO hp32 hinv hPinv hps (m.sieveWorkers - 2) 2 x1.1
      ((m.primorialOffsetDiff (1 - 1) * m.inverts.getD i 0) % m.primes.getD i 0) x1.2
      (by omega) (by omega) (by simpa using h11) (by simp)
    rw [hs2]
    intro heq w hwlt f hf
    have hs : s1 = s2 := by
      injection heq with h
      exact h.symm
    rw [hs]
    by_cases hwc : 2 ≤ w
    · exact h21 w hwc (by omega) f hf
    · have hw01 : w = 0 ∨ w = 1 := by omega
      rcases hw01 with rfl | rfl
      · have hg := h02 f hf
        unfold DenseGood at hg ⊢
        rw [h22 0 (by omega), h13 0 (by omega)]
        exact hg
      · have hg := h12 f hf
        unfold DenseGood at hg ⊢
        rw [h22 1 (by omega)]
        exact hg

/-! ## Remainder worker: the once-only branch leaves the dense offsets alone -/

theorem sameOffsets_refl (s : ModLoop) : SameOffsets s s := fun _ => rfl

theorem sameOffsets_trans {s s1 s2 : ModLoop} (h1 : SameOffsets s s1) (h2 : SameOffsets s1 s2) :
    SameOffsets s s2 := fun w => by rw [h2 w, h1 w]

theorem putOffsetsInSegments_offsets (m : Miner) (sieve : SieveInstance)
    (offsets counts : Nat → Nat) (n : Nat) (r : SieveInstance × (Nat → Nat))
    (h : putOffsetsInSegments m sieve offsets counts n = some r) :
    r.1.offsets = sieve.offsets := by
  unfold putOffsetsInSegments at h
  split at h
  · exact absurd h (by simp)
  · injection h with h
    rw [← h]

theorem flushWorker_sameOffsets (m : Miner) (j : Nat) (s : ModLoop) :
    (∀ s1, flushWorker m j s = Outcome.normal s1 → SameOffsets s s1) ∧
    (∀ s1, flushWorker m j s ≠ Outcome.returned s1) := by
  unfold flushWorker
  split
  · exact ⟨fun s1 h => (by cases h), fun s1 h => (by cases h)⟩
  · rename_i sieve counts hput
    refine ⟨?_, fun s1 h => by cases h⟩
    intro s1 h
    injection h with h
    subst h
    intro w
    simp only
    by_cases hw : w = j
    · subst hw
      simp only [Function.update_same]
      exact putOffsetsInSegments_offsets m _ _ _ _ _ hput
    · rw [Function.update_noteq hw]

theorem pushOffset_sameOffsets (m : Miner) (j index : Nat) (s : ModLoop) :
    SameOffsets s (pushOffset m j index s) := by
  unfold pushOffset
  split
  · intro w; rfl
  · exact sameOffsets_refl s

theorem addToOffsetsSparse_sameOffsets (m : Miner) (p : Nat) (invert : List Nat)
    (j index : Nat) (s : ModLoop) :
    SameOffsets s (addToOffsetsSparse m p invert j index s).2 := by
  unfold addToOffsetsSparse
  have key : ∀ (l : List Nat) (st : Nat × ModLoop), SameOffsets s st.2 →
      SameOffsets s (l.foldl
        (fun st f =>
          (familyStep m p invert st.1 f, pushOffset m j (familyStep m p invert st.1 f) st.2))
        st).2 := by
    intro l
    induction l with
    | nil => intro st h; exact h
    | cons f l ih =>
      intro st h
      rw [List.foldl_cons]
      exact ih _ (sameOffsets_trans h (pushOffset_sameOffsets m j _ st.2))
  exact key _ _ (pushOffset_sameOffsets m j index s)

theorem addToOffsets_sparse_sameOffsets (m : Miner) (stale : Bool) (i p : Nat)
    (invert : List Nat) (j index : Nat) (s : ModLoop) (hs : m.sparseLimit ≤ i) :
    ∀ x, (addToOffsets m stale i p invert j index s = Outcome.normal x ∨
        addToOffsets m stale i p invert j index s = Outcome.returned x) →
      SameOffsets s x.2 := by
  intro x hx
  unfold addToOffsets at hx
  rw [if_neg (by omega)] at hx
  split at hx
  · split at hx
    · rcases hx with hx | hx
      · cases hx
      · injection hx with hx
        rw [← hx]
        exact sameOffsets_refl s
    · obtain ⟨hf1, hf2⟩ := flushWorker_sameOffsets m j s
      split at hx
      · rename_i s1 hfl
        rcases hx with hx | hx
        · injection hx with hx
          rw [← hx]
          exact sameOffsets_trans (hf1 s1 hfl) (addToOffsetsSparse_sameOffsets m p invert j index s1)
        · cases hx
      · rename_i s1 hfl
        exact absurd hfl (hf2 s1)
      · rcases hx with hx | hx <;> cases hx
  · rcases hx with hx | hx
    · injection hx with hx
      rw [← hx]
      exact addToOffsetsSparse_sameOffsets m p invert j index s
    · cases hx

theorem workersLoop_sparse_sameOffsets (m : Miner) (stale : Nat → Nat → Bool) (i p : Nat)
    (invert : List Nat) (cnt ps : Nat) (hs : m.sparseLimit ≤ i) :
    ∀ (js : List Nat) (index r : Nat) (s s1 : ModLoop),
      (workersLoop m stale i p invert cnt ps js index r s = Outcome.normal s1 ∨
        workersLoop m stale i p invert cnt ps js index r s = Outcome.returned s1) →
      SameOffsets s s1 := by
  intro js
  induction js with
  | nil =>
    intro index r s s1 h
    unfold workersLoop at h
    rcases h with h | h
    · injection h with h
      rw [← h]
      exact sameOffsets_refl s
    · cases h
  | cons j js ih =>
    intro index r s s1 h
    unfold workersLoop at h
    simp only at h
    have hadd := addToOffsets_sparse_sameOffsets m (stale i j) i p invert j
      (subWrap p index (if m.primorialOffsetDiff (j - 1) ≠ m.primorialOffsetDiff (j - 2) then
        recomputeRemainder m i p (invert.getD 0 0) cnt ps j else r)) s hs
    split at h
    · rename_i x hx
      exact sameOffsets_trans (hadd x (Or.inl hx)) (ih _ _ _ _ h)
    · rename_i x hx
      rcases h with h | h
      · cases h
      · injection h with h
        rw [← h]
        exact hadd x (Or.inr hx)
    · rcases h with h | h <;> cases h

theorem modPrime_sparse_sameOffsets (m : Miner) (stale : Nat → Nat → Bool)
    (tar avxLimit W i : Nat) (s s1 : ModLoop) (hs : m.sparseLimit ≤ i)
    (h : modPrime m stale tar avxLimit W i s = Outcome.normal s1 ∨
      modPrime m stale tar avxLimit W i s = Outcome.returned s1) :
    SameOffsets s s1 := by
  unfold modPrime at h
  simp only at h
  have hadd0 := addToOffsets_sparse_sameOffsets m (stale i 0) i (m.primes.getD i 0)
    (invertLattice (m.inverts.getD i 0) (m.primes.getD i 0)) 0
    (computeIndex m tar avxLimit W i s.nextRemainder s.nextRemainderIdx).index
    { s with
      nextRemainder := (computeIndex m tar avxLimit W i s.nextRemainder s.nextRemainderIdx).nextRemainder
      nextRemainderIdx :=
        (computeIndex m tar avxLimit W i s.nextRemainder s.nextRemainderIdx).nextRemainderIdx }
    hs
  split at h
  · rename_i x hx
    rcases h with h | h
    · cases h
    · injection h with h
      rw [← h]
      exact hadd0 x (Or.inr hx)
  · rcases h with h | h <;> cases h
  · rename_i x0 hx0
    have h0 : SameOffsets s x0.2 := hadd0 x0 (Or.inl hx0)
    split at h
    · rcases h with h | h
      · injection h with h
        rw [← h]
        exact h0
      · cases h
    · have hadd1 := addToOffsets_sparse_sameOffsets m (stale i 1) i (m.primes.getD i 0)
        (invertLattice (m.inverts.getD i 0) (m.primes.getD i 0)) 1
        (subWrap (m.primes.getD i 0) x0.1
          (recomputeRemainder m i (m.primes.getD i 0) (m.inverts.getD i 0)
            (computeIndex m tar avxLimit W i s.nextRemainder s.nextRemainderIdx).cnt
            (computeIndex m tar avxLimit W i s.nextRemainder s.nextRemainderIdx).ps 1))
        x0.2 hs
      split at h
      · rename_i x hx
        rcases h with h | h
        · cases h
        · injection h with h
          rw [← h]
          exact sameOffsets_trans h0 (hadd1 x (Or.inr hx))
      · rcases h with h | h <;> cases h
      · rename_i x1 hx1
        exact sameOffsets_trans (sameOffsets_trans h0 (hadd1 x1 (Or.inl hx1)))
          (workersLoop_sparse_sameOffsets m stale i _ _ _ _ hs _ _ _ _ _ h)

/-! ## Remainder worker: the loop over the primes -/

theorem modLoop_spec (m : Miner) (stale : Nat → Nat → Bool) (tar avxLimit W : Nat)
    (hT : m.TableInv) (hP : m.PatternOK) (hO : m.OffsetsOK) (hw : 1 ≤ m.sieveWorkers)
    (hW : 0 < W) (hlim : avxLimit + W ≤ NUM_PRIMES_TO_2P32) :
    ∀ (n a : Nat) (s : ModLoop),
      (a < m.sparseLimit → LaneInv m tar W a s.nextRemainder s.nextRemainderIdx) →
      (a + n ≤ m.sparseLimit →
        ∃ s1, modLoop m stale tar avxLimit W (List.range' a n) s = Outcome.normal s1) ∧
      ∀ s1, (modLoop m stale tar avxLimit W (List.range' a n) s = Outcome.normal s1 ∨
          modLoop m stale tar avxLimit W (List.range' a n) s = Outcome.returned s1) →
        OffsetsFrame m a s s1 ∧
        ∀ i, a ≤ i → i < a + n → m.primorialNumber ≤ i → i < m.sparseLimit →
          ∀ w, w < m.sieveWorkers → ∀ f, f < m.primeTupleOffset.length →
            DenseGood m (tar : Int) i s1.st w f := by
  intro n
  induction n with
  | zero =>
    intro a s _
    refine ⟨fun _ => ⟨s, rfl⟩, ?_⟩
    intro s1 h
    have hs : s1 = s := by
      rcases h with h | h
      · injection h with h; exact h.symm
      · cases h
    rw [hs]
    refine ⟨fun _ _ _ => rfl, ?_⟩
    intro i h1 h2
    omega
  | succ n ih =>
    intro a s hlane
    rw [List.range'_succ]
    unfold modLoop
    by_cases hd : a < m.sparseLimit
    · obtain ⟨sa, hsa, hframe, hlane1⟩ := modPrime_dense_frame m stale tar avxLimit W a s hT
        hP.1 hlim hd (hlane hd)
      rw [hsa]
      simp only
      obtain ⟨iht, ihs⟩ := ih (a + 1) sa (fun _ => hlane1)
      refine ⟨fun hle => iht (by omega), ?_⟩
      intro s1 h
      obtain ⟨hfr, hgood⟩ := ihs s1 h
      have hmul : m.primeTupleOffset.length * (a + 1)
          = m.primeTupleOffset.length * a + m.primeTupleOffset.length := by ring
      refine ⟨?_, ?_⟩
      · intro w slot hslot
        rw [hfr w slot (by omega), hframe w slot (Or.inl hslot)]
      · intro i hi1 hi2 hk hdi w hwlt f hf
        by_cases hia : i = a
        · subst hia
          have hg := modPrime_dense_good m stale tar avxLimit W i s hT hP hO hw hW hlim hk hd
            (hlane hd) sa hsa w hwlt f hf
          unfold DenseGood at hg ⊢
          rw [hfr w _ (by omega)]
          exact hg
        · exact hgood i (by omega) (by omega) hk hdi w hwlt f hf
    · refine ⟨fun hle => by omega, ?_⟩
      intro s1 h
      have hno : ∀ i, a ≤ i → i < a + (n + 1) → m.primorialNumber ≤ i → i < m.sparseLimit →
          ∀ w, w < m.sieveWorkers → ∀ f, f < m.primeTupleOffset.length →
            DenseGood m (tar : Int) i s1.st w f := by
        intro i h1 _ _ h4
        omega
      refine ⟨?_, hno⟩
      have hsp := modPrime_sparse_sameOffsets m stale tar avxLimit W a s
      split at h
      · rename_i sa hsa
        have h0 := hsp sa (by omega) (Or.inl hsa)
        obtain ⟨_, ihs⟩ := ih (a + 1) sa (fun h => by omega)
        obtain ⟨hfr, _⟩ := ihs s1 h
        have hmul : m.primeTupleOffset.length * (a + 1)
            = m.primeTupleOffset.length * a + m.primeTupleOffset.length := by ring
        intro w slot hslot
        rw [hfr w slot (by omega), h0 w]
      · rename_i sa hsa
        have h0 := hsp sa (by omega) (Or.inr hsa)
        have hs : s1 = sa := by
          rcases h with h | h
          · cases h
          · injection h with h; exact h.symm
        rw [hs]
        intro w slot _
        rw [h0 w]
      · rcases h with h | h <;> cases h

theorem flushAll_sameOffsets (m : Miner) :
    ∀ (js : List Nat) (s : ModLoop),
      (∀ s1, flushAll m js s = Outcome.normal s1 → SameOffsets s s1) ∧
      (∀ s1, flushAll m js s ≠ Outcome.returned s1) := by
  intro js
  induction js with
  | nil =>
    intro s
    refine ⟨fun s1 h => ?_, fun s1 h => (by cases h)⟩
    unfold flushAll at h
    injection h with h
    rw [← h]
    exact sameOffsets_refl s
  | cons j js ih =>
    intro s
    unfold flushAll
    split
    · obtain ⟨hf1, hf2⟩ := flushWorker_sameOffsets m j s
      split
      · rename_i s2 hs2
        exact ⟨fun s1 h => sameOffsets_trans (hf1 s2 hs2) ((ih s2).1 s1 h), (ih s2).2⟩
      · rename_i s2 hs2
        exact absurd hs2 (hf2 s2)
      · exact ⟨fun s1 h => (by cases h), fun s1 h => (by cases h)⟩
    · exact ih s

theorem goodIndex_unique (P p inv : Nat) (base : Int) (off j : Nat)
    (hPinv : (P : Int) * (inv : Int) ≡ 1 [ZMOD (p : Int)])
    (hg : GoodIndex P p base off) (hj : j < p)
    (hdvd : (p : Int) ∣ (P : Int) * (j : Int) + base) : j = off := by
  obtain ⟨hoff, hd⟩ := hg
  rw [← Int.modEq_zero_iff_dvd] at hd hdvd
  have h1 : (P : Int) * (j : Int) + base ≡ (P : Int) * (off : Int) + base [ZMOD (p : Int)] :=
    hdvd.trans hd.symm
  have h2 : (P : Int) * (j : Int) ≡ (P : Int) * (off : Int) [ZMOD (p : Int)] :=
    Int.ModEq.add_right_cancel' base h1
  have h3 : (inv : Int) * ((P : Int) * (j : Int)) ≡ (inv : Int) * ((P : Int) * (off : Int))
      [ZMOD (p : Int)] := Int.ModEq.mul_left _ h2
  have h4 : ∀ x : Int, (inv : Int) * ((P : Int) * x) ≡ x [ZMOD (p : Int)] := by
    intro x
    have h5 : (inv : Int) * ((P : Int) * x) = ((P : Int) * (inv : Int)) * x := by ring
    rw [h5]
    simpa using Int.ModEq.mul_right x hPinv
  have h6 : (j : Int) ≡ (off : Int) [ZMOD (p : Int)] := ((h4 j).symm.trans h3).trans (h4 off)
  have h7 : j ≡ off [MOD p] := Int.natCast_modEq_iff.1 h6
  exact Nat.ModEq.eq_of_lt_of_lt h7 hj hoff

theorem updateRemainders_spec (m : Miner) (stale : Nat → Nat → Bool)
    (verifyTarget verifyRemainderPrimorial : Int) (start_i end_i : Nat) (st : ModState)
    (hT : m.TableInv) (hP : m.PatternOK) (hO : m.OffsetsOK) (hw : 1 ≤ m.sieveWorkers)
    (htar : 0 ≤ verifyTarget + verifyRemainderPrimorial) :
    (end_i ≤ m.sparseLimit →
      ∃ st1, updateRemainders m stale verifyTarget verifyRemainderPrimorial start_i end_i st
        = Outcome.normal st1) ∧
    ∀ st1,
      (updateRemainders m stale verifyTarget verifyRemainderPrimorial start_i end_i st
          = Outcome.normal st1 ∨
        updateRemainders m stale verifyTarget verifyRemainderPrimorial start_i end_i st
          = Outcome.returned st1) →
      ∀ i, start_i ≤ i → i < end_i → m.primorialNumber ≤ i → i < m.sparseLimit →
        ∀ w, w < m.sieveWorkers → ∀ f, f < m.primeTupleOffset.length →
          DenseGood m (verifyTarget + verifyRemainderPrimorial) i st1 w f := by
  have htarc : (((verifyTarget + verifyRemainderPrimorial).natAbs : Nat) : Int)
      = verifyTarget + verifyRemainderPrimorial := Int.natAbs_of_nonneg htar
  obtain ⟨hW0, hW8⟩ := avxWidthOf_pos m
  have hlane0 : LaneInv m (verifyTarget + verifyRemainderPrimorial).natAbs (avxWidthOf m) start_i
      (fun _ => 0) 8 := by
    intro _ t h1 h2
    omega
  obtain ⟨hterm, hspec⟩ := modLoop_spec m stale (verifyTarget + verifyRemainderPrimorial).natAbs
    (avxLimitOf m start_i) (avxWidthOf m) hT hP hO hw hW0 (avxLimitOf_le m start_i)
    (end_i - start_i) start_i
    { st := allocateSpill m st, nOffsets := fun _ => 0, nextRemainder := fun _ => 0,
      nextRemainderIdx := 8 } (fun _ => hlane0)
  rw [htarc] at hspec
  unfold updateRemainders
  simp only
  constructor
  · intro hle
    by_cases hse : start_i ≤ end_i
    · obtain ⟨s1, hs1⟩ := hterm (by omega)
      rw [hs1]
      simp only
      rw [if_neg (by omega)]
      exact ⟨_, rfl⟩
    · have : end_i - start_i = 0 := by omega
      rw [this]
      simp only [List.range'_zero, modLoop]
      rw [if_neg (by omega)]
      exact ⟨_, rfl⟩
  · intro st1 h i hi1 hi2 hk hd w hwlt f hf
    split at h
    · rename_i s1 hs1
      have hs : st1 = s1.st := by
        rcases h with h | h
        · cases h
        · injection h with h; exact h.symm
      rw [hs]
      exact (hspec s1 (Or.inr hs1)).2 i hi1 (by omega) hk hd w hwlt f hf
    · rcases h with h | h <;> cases h
    · rename_i s1 hs1
      have hg := (hspec s1 (Or.inl hs1)).2 i hi1 (by omega) hk hd w hwlt f hf
      split at h
      · obtain ⟨hfa1, hfa2⟩ := flushAll_sameOffsets m (List.range m.sieveWorkers) s1
        split at h
        · rename_i s2 hs2
          have hs : st1 = s2.st := by
            rcases h with h | h
            · injection h with h; exact h.symm
            · cases h
          rw [hs]
          unfold DenseGood at hg ⊢
          rw [hfa1 s2 hs2 w]
          exact hg
        · rename_i s2 hs2
          exact absurd hs2 (hfa2 s2)
        · rcases h with h | h <;> cases h
      · have hs : st1 = s1.st := by
          rcases h with h | h
          · injection h with h; exact h.symm
          · cases h
        rw [hs]
        exact hg

theorem primeTable_getD_lt_two_pow (limit i : Nat) (hlim : limit ≤ 2 ^ 32) :
    (primeTable limit).getD i 0 < 2 ^ 32 := by
  by_cases hi : i < (primeTable limit).length
  · rcases (primeTable_getD_prime limit i hi).2 with h | h
    · omega
    · rw [primeTable_small limit h] at hi ⊢
      have : i = 0 := by simpa using hi
      subst this
      norm_num
  · rw [List.getD_eq_getElem?_getD, List.getElem?_eq_none (by omega)]
    norm_num

/-- The tables built by `Miner::init` satisfy the table invariants. -/
theorem tableInv_of_init (m : Miner) (limit threads : Nat) (hlim : limit ≤ 2 ^ 32)
    (hprimes : m.primes = primeTable limit)
    (hprimorial : m.primorial = initPrimorial (primeTable limit) m.primorialNumber)
    (hinverts : m.inverts =
      initInverts (primeTable limit) (initPrimorial (primeTable limit) m.primorialNumber)
        m.primorialNumber threads)
    (hk : 1 ≤ m.primorialNumber) (ht : 1 ≤ threads)
    (hsl : m.sparseLimit ≤ (primeTable limit).length) : m.TableInv := by
  refine ⟨?_, ?_, ?_, ?_, ?_⟩
  · rw [hprimes]; exact primeTable_pairwise limit
  · rw [hprimes]
    intro q hq
    obtain ⟨i, hi, rfl⟩ := List.getElem_of_mem hq
    have := (primeTable_getD_prime limit i hi).1
    rw [List.getD_eq_getElem _ _ hi] at this
    exact this.two_le
  · intro t _
    rw [hprimes]
    exact primeTable_getD_lt_two_pow limit t hlim
  · intro i _
    rw [hprimes]
    exact primeTable_getD_lt_two_pow limit i hlim
  · intro i hki hi
    rw [hprimes, hinverts, hprimorial]
    have hi' : i < (primeTable limit).length := by omega
    obtain ⟨x, hx, hget⟩ := initInverts_getD limit m.primorialNumber threads i hk ht hki hi'
    obtain ⟨hlt, hinv⟩ := mpzInvert_some hx
    have h32 := primeTable_getD_lt_two_pow limit i hlim
    have hsmall : x % 2 ^ 64 = x := by
      apply Nat.mod_eq_of_lt
      have : (2 : Nat) ^ 32 < 2 ^ 64 := by norm_num
      omega
    rw [hget, hsmall]
    exact ⟨hlt, hinv⟩

/-- C5: dense mod phase. Assume the table invariants of `init`, `o[0] = 0`, every step
offset `o[f]` (`f ≥ 1`) in `{2, 4, 6}`, and
`primorialOffsets[w] - primorialOffsets[w-1] ≥ tupleSpan` for every worker `w ≥ 1`. A call
of `_updateRemainders` on a range inside the dense range ends normally, and after every
call that returns, for every prime index `i` of the call in `[primorialNumber, sparseLimit)`,
every sieve worker `w` and every family `f`, the stored `offsets[w][i*L + f]` is the unique
`j` in `[0, primes[i])` such that `primes[i]` divides
`P_k*j + target + verifyRemainderPrimorial + (primorialOffsets[w] - primorialOffsets[0])
+ (o[1] + ... + o[f])`; for `w ≥ 1` the family-0 value is the last family's value of worker
`w - 1` minus `(primorialOffsetDiff[w-1] * inverts[i]) mod p`, wrapped by `+p`. -/
theorem C5_dense_mod_phase (m : Miner) (stale : Nat → Nat → Bool)
    (verifyTarget verifyRemainderPrimorial : Int) (start_i end_i : Nat) (st : ModState)
    (hT : m.TableInv) (hP : m.PatternOK) (hO : m.OffsetsOK) (hw : 1 ≤ m.sieveWorkers)
    (htar : 0 ≤ verifyTarget + verifyRemainderPrimorial) :
    (end_i ≤ m.sparseLimit →
      ∃ st1, updateRemainders m stale verifyTarget verifyRemainderPrimorial start_i end_i st
        = Outcome.normal st1) ∧
    ∀ st1,
      (updateRemainders m stale verifyTarget verifyRemainderPrimorial start_i end_i st
          = Outcome.normal st1 ∨
        updateRemainders m stale verifyTarget verifyRemainderPrimorial start_i end_i st
          = Outcome.returned st1) →
      ∀ i, start_i ≤ i → i < end_i → m.primorialNumber ≤ i → i < m.sparseLimit →
        ∀ w, w < m.sieveWorkers → ∀ f, f < m.primeTupleOffset.length →
          (st1.sieves w).offsets (m.primeTupleOffset.length * i + f) < m.primes.getD i 0 ∧
          ((m.primes.getD i 0 : Nat) : Int) ∣
            (m.primorial : Int) * ((st1.sieves w).offsets (m.primeTupleOffset.length * i + f) : Int)
              + (verifyTarget + verifyRemainderPrimorial
                + ((m.primorialOffsets.getD w 0 : Int) - (m.primorialOffsets.getD 0 0 : Int))
                + ((Finset.sum (Finset.range f)
                    (fun t => m.primeTupleOffset.getD (t + 1) 0) : Nat) : Int)) ∧
          (∀ j : Nat, j < m.primes.getD i 0 →
            ((m.primes.getD i 0 : Nat) : Int) ∣
              (m.primorial : Int) * (j : Int)
                + (verifyTarget + verifyRemainderPrimorial
                  + ((m.primorialOffsets.getD w 0 : Int) - (m.primorialOffsets.getD 0 0 : Int))
                  + ((Finset.sum (Finset.range f)
                      (fun t => m.primeTupleOffset.getD (t + 1) 0) : Nat) : Int)) →
            j = (st1.sieves w).offsets (m.primeTupleOffset.length * i + f)) ∧
          (1 ≤ w → f = 0 →
            (st1.sieves w).offsets (m.primeTupleOffset.length * i) =
              subWrap (m.primes.getD i 0)
                ((st1.sieves (w - 1)).offsets
                  (m.primeTupleOffset.length * i + (m.primeTupleOffset.length - 1)))
                ((m.primorialOffsetDiff (w - 1) * m.inverts.getD i 0) % m.primes.getD i 0)) := by
  obtain ⟨hterm, hspec⟩ := updateRemainders_spec m stale verifyTarget verifyRemainderPrimorial
    start_i end_i st hT hP hO hw htar
  refine ⟨hterm, ?_⟩
  intro st1 h i hi1 hi2 hk hd w hwlt f hf
  have hg := hspec st1 h i hi1 hi2 hk hd w hwlt f hf
  obtain ⟨hinv, hmod⟩ := hT.2.2.2.2 i hk hd
  have hPinv := mod_one_to_modEq _ _ _ hmod
  have hgood : GoodIndex m.primorial (m.primes.getD i 0)
      (verifyTarget + verifyRemainderPrimorial + m.offsetToFirst w + (m.offsetSum f : Int))
      ((st1.sieves w).offsets (m.primeTupleOffset.length * i + f)) := hg
  refine ⟨hgood.1, hgood.2, ?_, ?_⟩
  · intro j hj hdvd
    exact goodIndex_unique m.primorial _ _ _ _ j hPinv hgood hj hdvd
  · intro hw1 hf0
    have hprev := hspec st1 h i hi1 hi2 hk hd (w - 1) (by omega)
      (m.primeTupleOffset.length - 1) (by omega)
    have hshift := worker_shift m (verifyTarget + verifyRemainderPrimorial) i w _ hP hO hw1 hwlt
      hinv hPinv hprev
    have hg0 := hspec st1 h i hi1 hi2 hk hd w hwlt 0 (by omega)
    unfold DenseGood at hg0
    have hz : (m.offsetSum 0 : Int) = 0 := by simp [Miner.offsetSum]
    rw [hz, Int.add_zero, Nat.add_zero] at hg0
    exact (goodIndex_unique m.primorial _ _ _ _ _ hPinv hg0 hshift.1 hshift.2).symm

theorem exampleMiner_tableInv : exampleMiner.TableInv :=
  tableInv_of_init exampleMiner 100 2 (by norm_num) rfl rfl rfl (by decide) (by decide)
    (by decide)

theorem exampleMiner_patternOK : exampleMiner.PatternOK := by
  refine ⟨by decide, by decide, ?_⟩
  intro f h1 h2
  have h6 : f < 6 := h2
  interval_cases f <;> decide

theorem exampleMiner_offsetsOK : exampleMiner.OffsetsOK := by
  refine ⟨?_, ?_⟩
  · intro w
    show ([97, 127] : List Nat).getD w 0 < 2 ^ 64
    rcases w with _ | _ | w <;> simp
  · intro w h1 h2
    have h3 : w < 2 := h2
    interval_cases w
    decide

theorem C5_dense_mod_phase_witness :
    ∃ st1, updateRemainders exampleMiner (fun _ _ => false) 10000 117 3 24 zeroModState
        = Outcome.normal st1 ∧
      (st1.sieves 1).offsets (exampleMiner.primeTupleOffset.length * 3 + 2)
        < exampleMiner.primes.getD 3 0 := by
  have h := C5_dense_mod_phase exampleMiner (fun _ _ => false) 10000 117 3 24 zeroModState
    exampleMiner_tableInv exampleMiner_patternOK exampleMiner_offsetsOK (by decide)
    (by decide)
  obtain ⟨st1, hst1⟩ := h.1 (by decide)
  exact ⟨st1, hst1,
    (h.2 st1 (Or.inl hst1) 3 (by decide) (by decide) (by decide) (by decide) 1 (by decide) 2
      (by decide)).1⟩

/-! ## Sieve worker: the pending buffer -/

theorem sieveBit_markBit (sieve : Nat → Nat) (c idx : Nat) :
    sieveBit (markBit sieve c) idx = (sieveBit sieve idx || decide (idx = c)) := by
  unfold sieveBit markBit
  rw [shiftRight_three, and_seven]
  by_cases hm : idx / 8 = c / 8
  · rw [hm, Function.update_same]
    have h256 : (256 : Nat) = 2 ^ 8 := by norm_num
    rw [h256, Nat.testBit_mod_two_pow, Nat.testBit_or, Nat.one_shiftLeft, Nat.testBit_two_pow]
    have hlt : idx % 8 < 8 := Nat.mod_lt _ (by norm_num)
    have hd : decide (c % 8 = idx % 8) = decide (idx = c) := by
      apply decide_eq_decide.mpr
      constructor <;> intro h <;> omega
    simp [hlt, hd]
  · rw [Function.update_noteq hm]
    have hd : decide (idx = c) = false := by
      apply decide_eq_false
      intro h
      exact hm (by rw [h])
    simp [hd]

theorem addToPending_spec (m : Miner) (s : PendingState) (ent : Nat) (hs : PendingOK m s)
    (hent : ent < m.sieveSize) :
    PendingOK m (addToPending m s ent) ∧
    ∀ idx, Covered (addToPending m s ent) idx ↔ (Covered s idx ∨ (idx ≠ 0 ∧ idx = ent)) := by
  obtain ⟨hpos, hcells⟩ := hs
  have hold := hcells s.pos hpos
  refine ⟨⟨?_, ?_⟩, ?_⟩
  · show (s.pos + 1) &&& (PENDING_SIZE - 1) < PENDING_SIZE
    have : (s.pos + 1) &&& (PENDING_SIZE - 1) = (s.pos + 1) % 2 ^ 4 :=
      Nat.and_pow_two_sub_one_eq_mod _ 4
    rw [this]
    exact Nat.mod_lt _ (by norm_num)
  · intro k hk
    show Function.update s.pending s.pos ent k < m.sieveSize
    by_cases hkp : k = s.pos
    · rw [hkp, Function.update_same]; exact hent
    · rw [Function.update_noteq hkp]; exact hcells k hk
  · intro idx
    unfold Covered addToPending
    simp only
    have hcl : (if s.pending s.pos ≥ m.sieveSize then (m.sieveSize - 1) % 2 ^ 32
        else s.pending s.pos) = s.pending s.pos := by
      rw [if_neg (by omega)]
    rw [hcl]
    constructor
    · rintro (h | ⟨h0, k, hk, hke⟩)
      · by_cases hold0 : s.pending s.pos ≠ 0
        · rw [if_pos hold0, sieveBit_markBit] at h
          rcases Bool.or_eq_true _ _ ▸ h with h | h
          · exact Or.inl (Or.inl h)
          · have hidx : idx = s.pending s.pos := of_decide_eq_true h
            exact Or.inl (Or.inr ⟨by rw [hidx]; exact hold0, s.pos, hpos, hidx.symm⟩)
        · rw [if_neg hold0] at h
          exact Or.inl (Or.inl h)
      · by_cases hkp : k = s.pos
        · rw [hkp, Function.update_same] at hke
          exact Or.inr ⟨h0, hke.symm⟩
        · rw [Function.update_noteq hkp] at hke
          exact Or.inl (Or.inr ⟨h0, k, hk, hke⟩)
    · rintro ((h | ⟨h0, k, hk, hke⟩) | ⟨h0, he⟩)
      · left
        by_cases hold0 : s.pending s.pos ≠ 0
        · rw [if_pos hold0, sieveBit_markBit, h]; rfl
        · rw [if_neg hold0]; exact h
      · by_cases hkp : k = s.pos
        · left
          rw [hkp] at hke
          have hold0 : s.pending s.pos ≠ 0 := by rw [hke]; exact h0
          rw [if_pos hold0, sieveBit_markBit, hke]
          simp
        · right
          refine ⟨h0, k, hk, ?_⟩
          rw [Function.update_noteq hkp]; exact hke
      · right
        refine ⟨h0, s.pos, hpos, ?_⟩
        rw [Function.update_same]; exact he.symm

theorem termPendingLoop_spec (m : Miner) (pending : Nat → Nat)
    (hcells : ∀ k, k < PENDING_SIZE → pending k < m.sieveSize) :
    ∀ (l : List Nat) (sieve : Nat → Nat), (∀ k ∈ l, k < PENDING_SIZE) →
      ∃ sieve1, termPendingLoop m pending l sieve = some sieve1 ∧
        ∀ idx, sieveBit sieve1 idx = true ↔
          (sieveBit sieve idx = true ∨ (idx ≠ 0 ∧ ∃ k ∈ l, pending k = idx)) := by
  intro l
  induction l with
  | nil =>
    intro sieve _
    refine ⟨sieve, rfl, fun idx => ⟨fun h => Or.inl h, ?_⟩⟩
    rintro (h | ⟨_, k, hk, _⟩)
    · exact h
    · cases hk
  | cons i l ih =>
    intro sieve hl
    have hi := hl i (List.mem_cons_self _ _)
    have hl' : ∀ k ∈ l, k < PENDING_SIZE := fun k hk => hl k (List.mem_cons_of_mem _ hk)
    unfold termPendingLoop
    by_cases h0 : pending i ≠ 0
    · rw [if_pos h0, if_pos (hcells i hi)]
      obtain ⟨sieve1, hs1, hbits⟩ := ih (markBit sieve (pending i)) hl'
      refine ⟨sieve1, hs1, fun idx => ?_⟩
      rw [hbits idx, sieveBit_markBit]
      constructor
      · rintro (h | ⟨hn, k, hk, hke⟩)
        · rcases Bool.or_eq_true _ _ ▸ h with h | h
          · exact Or.inl h
          · have hidx : idx = pending i := of_decide_eq_true h
            exact Or.inr ⟨by rw [hidx]; exact h0, i, List.mem_cons_self _ _, hidx.symm⟩
        · exact Or.inr ⟨hn, k, List.mem_cons_of_mem _ hk, hke⟩
      · rintro (h | ⟨hn, k, hk, hke⟩)
        · left; rw [h]; rfl
        · rcases List.mem_cons.1 hk with rfl | hk
          · left; rw [hke]; simp
          · exact Or.inr ⟨hn, k, hk, hke⟩
    · rw [if_neg h0]
      obtain ⟨sieve1, hs1, hbits⟩ := ih sieve hl'
      refine ⟨sieve1, hs1, fun idx => ?_⟩
      rw [hbits idx]
      constructor
      · rintro (h | ⟨hn, k, hk, hke⟩)
        · exact Or.inl h
        · exact Or.inr ⟨hn, k, List.mem_cons_of_mem _ hk, hke⟩
      · rintro (h | ⟨hn, k, hk, hke⟩)
        · exact Or.inl h
        · rcases List.mem_cons.1 hk with rfl | hk
          · exfalso
            have : pending k = 0 := by simpa using h0
            exact hn (by rw [← hke, this])
          · exact Or.inr ⟨hn, k, hk, hke⟩

theorem termPending_spec (m : Miner) (s : PendingState) (hs : PendingOK m s) :
    ∃ sieve1, termPending m s.sieve s.pending = some sieve1 ∧
      ∀ idx, sieveBit sieve1 idx = true ↔ Covered s idx := by
  obtain ⟨sieve1, h1, h2⟩ := termPendingLoop_spec m s.pending hs.2 (List.range PENDING_SIZE)
    s.sieve (fun k hk => List.mem_range.1 hk)
  refine ⟨sieve1, h1, fun idx => ?_⟩
  rw [h2 idx]
  unfold Covered
  constructor
  · rintro (h | ⟨hn, k, hk, hke⟩)
    · exact Or.inl h
    · exact Or.inr ⟨hn, k, List.mem_range.1 hk, hke⟩
  · rintro (h | ⟨hn, k, hk, hke⟩)
    · exact Or.inl h
    · exact Or.inr ⟨hn, k, List.mem_range.2 hk, hke⟩

/-! ## Sieve worker: the generic dense sieve -/

theorem reach_step (m : Miner) (p off idx : Nat) (hoff : off < m.sieveSize) :
    Reach m p off idx ↔ (idx = off ∨ Reach m p (off + p) idx) := by
  unfold Reach
  constructor
  · rintro ⟨t, ht, hlt⟩
    cases t with
    | zero => left; simpa using ht
    | succ t =>
      right
      refine ⟨t, ?_, hlt⟩
      rw [ht, Nat.add_mul]; omega
  · rintro (h | ⟨t, ht, hlt⟩)
    · exact ⟨0, by simpa using h, by rw [h]; exact hoff⟩
    · refine ⟨t + 1, ?_, hlt⟩
      rw [ht, Nat.add_mul]; omega

theorem reach_none (m : Miner) (p off idx : Nat) (hoff : m.sieveSize ≤ off) :
    ¬ Reach m p off idx := by
  rintro ⟨t, ht, hlt⟩
  have : off ≤ off + t * p := Nat.le_add_right _ _
  omega

theorem sieveWhile_spec (m : Miner) (p : Nat) (hp : 0 < p) (hnw : m.sieveSize + p ≤ 2 ^ 32) :
    ∀ (fuel off : Nat) (s : PendingState), PendingOK m s → m.sieveSize ≤ off + fuel →
      ∃ t s1, sieveWhile m p (fuel + 1) off s = some (off + t * p, s1) ∧ PendingOK m s1 ∧
        m.sieveSize ≤ off + t * p ∧ (∀ t1, t1 < t → off + t1 * p < m.sieveSize) ∧
        ∀ idx, Covered s1 idx ↔ (Covered s idx ∨ (idx ≠ 0 ∧ Reach m p off idx)) := by
  intro fuel
  induction fuel with
  | zero =>
    intro off s hs hfu
    refine ⟨0, s, ?_, hs, by omega, fun t1 h => by omega, fun idx => ?_⟩
    · unfold sieveWhile
      rw [if_neg (by omega)]
      simp
    · constructor
      · exact fun h => Or.inl h
      · rintro (h | ⟨_, h⟩)
        · exact h
        · exact absurd h (reach_none m p off idx (by omega))
  | succ fuel ih =>
    intro off s hs hfu
    unfold sieveWhile
    by_cases hoff : off < m.sieveSize
    · rw [if_pos hoff]
      have hmod : (off + p) % 2 ^ 32 = off + p := Nat.mod_eq_of_lt (by omega)
      rw [hmod]
      obtain ⟨hs1, hcov1⟩ := addToPending_spec m s off hs hoff
      obtain ⟨t, s2, h1, h2, h3, h4, h5⟩ := ih (off + p) (addToPending m s off) hs1 (by omega)
      refine ⟨t + 1, s2, ?_, h2, ?_, ?_, ?_⟩
      · rw [h1]
        congr 2
        rw [Nat.add_mul]; omega
      · have : off + (t + 1) * p = off + p + t * p := by rw [Nat.add_mul]; omega
        omega
      · intro t1 ht1
        cases t1 with
        | zero => simpa using hoff
        | succ t1 =>
          have := h4 t1 (by omega)
          have he : off + (t1 + 1) * p = off + p + t1 * p := by rw [Nat.add_mul]; omega
          omega
      · intro idx
        rw [h5 idx, hcov1 idx, reach_step m p off idx hoff]
        constructor
        · rintro ((h | ⟨h0, he⟩) | ⟨h0, hr⟩)
          · exact Or.inl h
          · exact Or.inr ⟨h0, Or.inl he⟩
          · exact Or.inr ⟨h0, Or.inr hr⟩
        · rintro (h | ⟨h0, he | hr⟩)
          · exact Or.inl (Or.inl h)
          · exact Or.inl (Or.inr ⟨h0, he⟩)
          · exact Or.inr ⟨h0, hr⟩
    · rw [if_neg hoff]
      refine ⟨0, s, by simp, hs, by omega, fun t1 h => by omega, fun idx => ?_⟩
      constructor
      · exact fun h => Or.inl h
      · rintro (h | ⟨_, h⟩)
        · exact h
        · exact absurd h (reach_none m p off idx (by omega))

theorem sieveFamily_spec (m : Miner) (p slot : Nat) (st : (Nat → Nat) × PendingState)
    (hp : 0 < p) (hnw : m.sieveSize + p ≤ 2 ^ 32) (hs : PendingOK m st.2)
    (hcell : st.1 slot < 2 ^ 32) :
    ∃ t st1, sieveFamily m p slot st = some st1 ∧ PendingOK m st1.2 ∧
      st1.1 = Function.update st.1 slot (st.1 slot + t * p - m.sieveSize) ∧
      m.sieveSize ≤ st.1 slot + t * p ∧ (∀ t1, t1 < t → st.1 slot + t1 * p < m.sieveSize) ∧
      ∀ idx, Covered st1.2 idx ↔ (Covered st.2 idx ∨ (idx ≠ 0 ∧ Reach m p (st.1 slot) idx)) := by
  obtain ⟨t, s1, h1, h2, h3, h4, h5⟩ := sieveWhile_spec m p hp hnw (2 ^ 32 - 1) (st.1 slot) st.2 hs
    (by omega)
  have h1' : sieveWhile m p (2 ^ 32) (st.1 slot) st.2 = some (st.1 slot + t * p, s1) := h1
  unfold sieveFamily
  rw [h1']
  simp only
  refine ⟨t, _, rfl, h2, ?_, h3, h4, h5⟩
  have hup : st.1 slot + t * p < 2 ^ 32 + m.sieveSize := by
    cases t with
    | zero => simp; omega
    | succ t =>
      have := h4 t (by omega)
      have he : st.1 slot + (t + 1) * p = st.1 slot + t * p + p := by rw [Nat.add_mul]; omega
      omega
  have hss : m.sieveSize % 2 ^ 32 = m.sieveSize := Nat.mod_eq_of_lt (by omega)
  rw [hss]
  have : st.1 slot + t * p + 2 ^ 32 - m.sieveSize
      = (st.1 slot + t * p - m.sieveSize) + 2 ^ 32 := by omega
  have hlt : st.1 slot + t * p - m.sieveSize < 2 ^ 32 := by omega
  rw [this, Nat.add_mod_right, Nat.mod_eq_of_lt hlt]

theorem slotEffect_refl (m : Miner) (lo : Nat) (st : (Nat → Nat) × PendingState)
    (hs : PendingOK m st.2) : SlotEffect m lo lo st st := by
  refine ⟨hs, fun idx => ⟨fun h => Or.inl h, ?_⟩, ?_, fun _ _ => rfl⟩
  · rintro (h | ⟨_, slot, h1, h2, _⟩)
    · exact h
    · omega
  · intro slot h1 h2
    omega

theorem slotEffect_trans (m : Miner) (lo mid hi : Nat) (st st1 st2 : (Nat → Nat) × PendingState)
    (h1 : lo ≤ mid) (h2 : mid ≤ hi) (e1 : SlotEffect m lo mid st st1)
    (e2 : SlotEffect m mid hi st1 st2) : SlotEffect m lo hi st st2 := by
  obtain ⟨_, c1, f1, r1⟩ := e1
  obtain ⟨p2, c2, f2, r2⟩ := e2
  refine ⟨p2, ?_, ?_, ?_⟩
  · intro idx
    rw [c2 idx, c1 idx]
    constructor
    · rintro ((h | ⟨h0, slot, hl, hh, hr⟩) | ⟨h0, slot, hl, hh, hr⟩)
      · exact Or.inl h
      · exact Or.inr ⟨h0, slot, hl, by omega, hr⟩
      · rw [r1 slot (Or.inr hl)] at hr
        exact Or.inr ⟨h0, slot, by omega, hh, hr⟩
    · rintro (h | ⟨h0, slot, hl, hh, hr⟩)
      · exact Or.inl (Or.inl h)
      · by_cases hs : slot < mid
        · exact Or.inl (Or.inr ⟨h0, slot, hl, hs, hr⟩)
        · right
          refine ⟨h0, slot, by omega, hh, ?_⟩
          rw [r1 slot (Or.inr (by omega))]
          exact hr
  · intro slot hl hh
    by_cases hs : slot < mid
    · obtain ⟨t, ht1, ht2, ht3⟩ := f1 slot hl hs
      refine ⟨t, ?_, ht2, ht3⟩
      rw [r2 slot (Or.inl hs)]
      exact ht1
    · obtain ⟨t, ht1, ht2, ht3⟩ := f2 slot (by omega) hh
      rw [r1 slot (Or.inr (by omega))] at ht1 ht2 ht3
      exact ⟨t, ht1, ht2, ht3⟩
  · intro slot hs
    rw [r2 slot (by omega), r1 slot (by omega)]

theorem sieveFamily_effect (m : Miner) (slot : Nat) (st : (Nat → Nat) × PendingState)
    (hp : 0 < m.slotPrime slot) (hnw : m.sieveSize + m.slotPrime slot ≤ 2 ^ 32)
    (hs : PendingOK m st.2) (hcell : st.1 slot < 2 ^ 32) :
    ∃ st1, sieveFamily m (m.slotPrime slot) slot st = some st1 ∧
      SlotEffect m slot (slot + 1) st st1 := by
  obtain ⟨t, st1, h1, h2, h3, h4, h5, h6⟩ := sieveFamily_spec m _ slot st hp hnw hs hcell
  refine ⟨st1, h1, h2, ?_, ?_, ?_⟩
  · intro idx
    rw [h6 idx]
    constructor
    · rintro (h | ⟨h0, hr⟩)
      · exact Or.inl h
      · exact Or.inr ⟨h0, slot, Nat.le_refl _, by omega, hr⟩
    · rintro (h | ⟨h0, s, hl, hh, hr⟩)
      · exact Or.inl h
      · have : s = slot := by omega
        subst this
        exact Or.inr ⟨h0, hr⟩
  · intro s hl hh
    have : s = slot := by omega
    subst this
    refine ⟨t, ?_, h4, h5⟩
    rw [h3, Function.update_same]
  · intro s hs
    rw [h3, Function.update_noteq (by omega)]

theorem slotPrime_eq (m : Miner) (i f : Nat) (hf : f < m.primeTupleOffset.length) :
    m.slotPrime (i * m.primeTupleOffset.length + f) = m.primes.getD i 0 % 2 ^ 32 := by
  unfold Miner.slotPrime
  have : (i * m.primeTupleOffset.length + f) / m.primeTupleOffset.length = i := by
    rw [Nat.add_comm, Nat.add_mul_div_right _ _ (by omega), Nat.div_eq_of_lt hf, Nat.zero_add]
  rw [this]

theorem sieveFamilies_effect (m : Miner) (i : Nat) :
    ∀ (n f0 : Nat) (st : (Nat → Nat) × PendingState), f0 + n ≤ m.primeTupleOffset.length →
      PendingOK m st.2 →
      SlotsOK m (2 ^ 32) (i * m.primeTupleOffset.length + f0)
        (i * m.primeTupleOffset.length + f0 + n) st.1 →
      ∃ st1, sieveFamilies m i (List.range' f0 n) st = some st1 ∧
        SlotEffect m (i * m.primeTupleOffset.length + f0)
          (i * m.primeTupleOffset.length + f0 + n) st st1 := by
  intro n
  induction n with
  | zero =>
    intro f0 st _ hs _
    exact ⟨st, rfl, slotEffect_refl m _ st hs⟩
  | succ n ih =>
    intro f0 st hfn hs hok
    rw [List.range'_succ]
    unfold sieveFamilies
    obtain ⟨hp, hnw, hcell⟩ := hok (i * m.primeTupleOffset.length + f0) (Nat.le_refl _) (by omega)
    rw [← slotPrime_eq m i f0 (by omega)]
    obtain ⟨st1, h1, e1⟩ := sieveFamily_effect m _ st hp hnw hs hcell
    rw [h1]
    simp only
    have hok1 : SlotsOK m (2 ^ 32) (i * m.primeTupleOffset.length + (f0 + 1))
        (i * m.primeTupleOffset.length + (f0 + 1) + n) st1.1 := by
      intro slot hl hh
      obtain ⟨a, b, c⟩ := hok slot (by omega) (by omega)
      refine ⟨a, b, ?_⟩
      rw [e1.2.2.2 slot (Or.inr (by omega))]
      exact c
    obtain ⟨st2, h2, e2⟩ := ih (f0 + 1) st1 (by omega) e1.1 hok1
    refine ⟨st2, h2, ?_⟩
    have := slotEffect_trans m _ _ _ st st1 st2 (by omega) (by omega) e1 e2
    have he : i * m.primeTupleOffset.length + (f0 + 1) + n
        = i * m.primeTupleOffset.length + f0 + (n + 1) := by omega
    rw [he] at this
    exact this

theorem sievePrimes_effect (m : Miner) :
    ∀ (n a : Nat) (st : (Nat → Nat) × PendingState), PendingOK m st.2 →
      SlotsOK m (2 ^ 32) (a * m.primeTupleOffset.length) ((a + n) * m.primeTupleOffset.length)
        st.1 →
      ∃ st1, sievePrimes m (List.range' a n) st = some st1 ∧
        SlotEffect m (a * m.primeTupleOffset.length) ((a + n) * m.primeTupleOffset.length)
          st st1 := by
  intro n
  induction n with
  | zero =>
    intro a st hs _
    exact ⟨st, rfl, by simpa using slotEffect_refl m _ st hs⟩
  | succ n ih =>
    intro a st hs hok
    rw [List.range'_succ]
    unfold sievePrimes
    have hmul1 : (a + 1) * m.primeTupleOffset.length
        = a * m.primeTupleOffset.length + m.primeTupleOffset.length := by ring
    have hmul2 : (a + (n + 1)) * m.primeTupleOffset.length
        = (a + 1 + n) * m.primeTupleOffset.length := by ring
    have hle : (a + 1) * m.primeTupleOffset.length ≤ (a + 1 + n) * m.primeTupleOffset.length :=
      Nat.mul_le_mul_right _ (by omega)
    have hok0 : SlotsOK m (2 ^ 32) (a * m.primeTupleOffset.length + 0)
        (a * m.primeTupleOffset.length + 0 + m.primeTupleOffset.length) st.1 := by
      intro slot hl hh
      exact hok slot (by omega) (by rw [hmul2]; omega)
    obtain ⟨st1, h1, e1⟩ := sieveFamilies_effect m a m.primeTupleOffset.length 0 st (by omega)
      hs hok0
    rw [List.range_eq_range', h1]
    simp only
    rw [Nat.add_zero, ← hmul1] at e1
    have hok1 : SlotsOK m (2 ^ 32) ((a + 1) * m.primeTupleOffset.length)
        ((a + 1 + n) * m.primeTupleOffset.length) st1.1 := by
      intro slot hl hh
      obtain ⟨x, y, z⟩ := hok slot (by omega) (by rw [hmul2]; exact hh)
      refine ⟨x, y, ?_⟩
      rw [e1.2.2.2 slot (Or.inr hl)]
      exact z
    obtain ⟨st2, h2, e2⟩ := ih (a + 1) st1 e1.1 hok1
    refine ⟨st2, h2, ?_⟩
    rw [hmul2]
    exact slotEffect_trans m _ _ _ st st1 st2 (by omega) hle e1 e2

theorem sieveSize_pos (m : Miner) : 0 < m.sieveSize := by
  unfold Miner.sieveSize
  rw [Nat.shiftLeft_eq, Nat.one_mul]
  exact Nat.two_pow_pos _

theorem initPending_ok (m : Miner) (sieve : Nat → Nat) :
    PendingOK m { sieve := sieve, pending := initPending (fun _ => 0), pos := 0 } ∧
    ∀ idx, Covered { sieve := sieve, pending := initPending (fun _ => 0), pos := 0 } idx ↔
      sieveBit sieve idx = true := by
  have hz : ∀ k, initPending (fun _ => 0) k = 0 := by
    intro k
    unfold initPending
    split <;> rfl
  have h16 : (0 : Nat) < PENDING_SIZE := by decide
  refine ⟨⟨h16, fun k _ => ?_⟩, fun idx => ⟨?_, fun h => Or.inl h⟩⟩
  · show initPending (fun _ => 0) k < m.sieveSize
    rw [hz k]
    exact sieveSize_pos m
  · rintro (h | ⟨h0, k, _, hk⟩)
    · exact h
    · exfalso
      have : initPending (fun _ => 0) k = idx := hk
      rw [hz k] at this
      exact h0 this.symm

/-- What `_processSieve` does on a range of primes that can be sieved without wrap-around:
it ends, the bitmap gains exactly the non-zero members below `sieveSize` of the
progressions of the cells, and every cell is advanced to the next segment. -/
theorem processSieve_spec (m : Miner) (sieve offsets : Nat → Nat) (start_i end_i : Nat)
    (hse : start_i ≤ end_i)
    (hok : SlotsOK m (2 ^ 32) (start_i * m.primeTupleOffset.length)
      (end_i * m.primeTupleOffset.length) offsets) :
    ∃ sieve1 offsets1, processSieve m sieve offsets start_i end_i = some (sieve1, offsets1) ∧
      (∀ idx, sieveBit sieve1 idx = true ↔
        (sieveBit sieve idx = true ∨
          (idx ≠ 0 ∧ ∃ slot, start_i * m.primeTupleOffset.length ≤ slot ∧
            slot < end_i * m.primeTupleOffset.length ∧
            Reach m (m.slotPrime slot) (offsets slot) idx))) ∧
      (∀ slot, start_i * m.primeTupleOffset.length ≤ slot →
        slot < end_i * m.primeTupleOffset.length →
        ∃ t, offsets1 slot = offsets slot + t * m.slotPrime slot - m.sieveSize ∧
          m.sieveSize ≤ offsets slot + t * m.slotPrime slot ∧
          ∀ t1, t1 < t → offsets slot + t1 * m.slotPrime slot < m.sieveSize) ∧
      (∀ slot, (slot < start_i * m.primeTupleOffset.length ∨
          end_i * m.primeTupleOffset.length ≤ slot) → offsets1 slot = offsets slot) := by
  obtain ⟨hp0, hc0⟩ := initPending_ok m sieve
  have hend : start_i + (end_i - start_i) = end_i := by omega
  obtain ⟨st1, h1, e1⟩ := sievePrimes_effect m (end_i - start_i) start_i
    (offsets, { sieve := sieve, pending := initPending (fun _ => 0), pos := 0 }) hp0
    (by rw [hend]; exact hok)
  rw [hend] at e1
  obtain ⟨pok, cov, fin, fr⟩ := e1
  obtain ⟨sieve1, h2, hbits⟩ := termPending_spec m st1.2 pok
  unfold processSieve
  rw [h1]
  simp only
  rw [h2]
  refine ⟨sieve1, st1.1, rfl, ?_, fin, fr⟩
  intro idx
  rw [hbits idx, cov idx, hc0 idx]

/-! ## Sieve worker: the SSE specialisation -/

theorem toInt32_of_lt (x : Nat) (hx : x < 2 ^ 31) : toInt32 x = (x : Int) := by
  unfold toInt32
  have h1 : x % 2 ^ 32 = x := Nat.mod_eq_of_lt (by omega)
  rw [h1, if_pos hx]

theorem cmpgt_lane (S : Nat) (o : Nat → Nat) (l : Nat) (hS : S < 2 ^ 31) (ho : o l < 2 ^ 31) :
    mm_cmpgt_epi32 (mm_set1_epi32 S) o l = if o l < S then 0xFFFFFFFF else 0 := by
  unfold mm_cmpgt_epi32 mm_set1_epi32
  have h1 : S % 2 ^ 32 = S := Nat.mod_eq_of_lt (by omega)
  rw [h1, toInt32_of_lt S hS, toInt32_of_lt (o l) ho]
  by_cases h : o l < S
  · rw [if_pos h, if_pos (by omega)]
  · rw [if_neg h, if_neg (by omega)]

theorem movemask_tests (b0 b1 b2 b3 : Bool) (c : Nat → Nat)
    (h0 : c 0 = if b0 = true then 0xFFFFFFFF else 0)
    (h1 : c 1 = if b1 = true then 0xFFFFFFFF else 0)
    (h2 : c 2 = if b2 = true then 0xFFFFFFFF else 0)
    (h3 : c 3 = if b3 = true then 0xFFFFFFFF else 0) :
    (mm_movemask_epi8 c = 0 ↔ (b0 = false ∧ b1 = false ∧ b2 = false ∧ b3 = false)) ∧
    (mm_movemask_epi8 c &&& 0x0008 ≠ 0 ↔ b0 = true) ∧
    (mm_movemask_epi8 c &&& 0x0080 ≠ 0 ↔ b1 = true) ∧
    (mm_movemask_epi8 c &&& 0x0800 ≠ 0 ↔ b2 = true) ∧
    (mm_movemask_epi8 c &&& 0x8000 ≠ 0 ↔ b3 = true) := by
  unfold mm_movemask_epi8
  rw [h0, h1, h2, h3]
  cases b0 <;> cases b1 <;> cases b2 <;> cases b3 <;> decide

theorem and_ones (q : Nat) (hq : q < 2 ^ 32) : 0xFFFFFFFF &&& q = q := by
  have h : (0xFFFFFFFF : Nat) = 2 ^ 32 - 1 := by norm_num
  rw [h, Nat.and_comm, Nat.and_pow_two_sub_one_eq_mod, Nat.mod_eq_of_lt hq]

/-- One register of one iteration of the `while (true)` loop: the mask tests agree with
the unsigned comparison of the lanes, and the masked addition advances the lanes below
`sieveSize`. -/
theorem reg_step (m : Miner) (o p : Nat → Nat) (hS : m.sieveSize < 2 ^ 31)
    (ho : ∀ l, l < 4 → o l < 2 ^ 31) (hp : ∀ l, l < 4 → p l < 2 ^ 31) :
    (mm_movemask_epi8 (mm_cmpgt_epi32 (mm_set1_epi32 m.sieveSize) o) = 0 ↔
      ∀ l, l < 4 → m.sieveSize ≤ o l) ∧
    (mm_movemask_epi8 (mm_cmpgt_epi32 (mm_set1_epi32 m.sieveSize) o) &&& 0x0008 ≠ 0 ↔
      o 0 < m.sieveSize) ∧
    (mm_movemask_epi8 (mm_cmpgt_epi32 (mm_set1_epi32 m.sieveSize) o) &&& 0x0080 ≠ 0 ↔
      o 1 < m.sieveSize) ∧
    (mm_movemask_epi8 (mm_cmpgt_epi32 (mm_set1_epi32 m.sieveSize) o) &&& 0x0800 ≠ 0 ↔
      o 2 < m.sieveSize) ∧
    (mm_movemask_epi8 (mm_cmpgt_epi32 (mm_set1_epi32 m.sieveSize) o) &&& 0x8000 ≠ 0 ↔
      o 3 < m.sieveSize) ∧
    (∀ l, l < 4 →
      mm_add_epi32 o (mm_and_si128 (mm_cmpgt_epi32 (mm_set1_epi32 m.sieveSize) o) p) l =
        if o l < m.sieveSize then o l + p l else o l) := by
  have hc : ∀ l, l < 4 → mm_cmpgt_epi32 (mm_set1_epi32 m.sieveSize) o l =
      if decide (o l < m.sieveSize) = true then 0xFFFFFFFF else 0 := by
    intro l hl
    rw [cmpgt_lane m.sieveSize o l hS (ho l hl)]
    by_cases h : o l < m.sieveSize <;> simp [h]
  obtain ⟨t0, t1, t2, t3, t4⟩ := movemask_tests _ _ _ _ _ (hc 0 (by norm_num))
    (hc 1 (by norm_num)) (hc 2 (by norm_num)) (hc 3 (by norm_num))
  refine ⟨?_, ?_, ?_, ?_, ?_, ?_⟩
  · rw [t0]
    constructor
    · rintro ⟨a, b, c, d⟩ l hl
      have a' : ¬ o 0 < m.sieveSize := by simpa using a
      have b' : ¬ o 1 < m.sieveSize := by simpa using b
      have c' : ¬ o 2 < m.sieveSize := by simpa using c
      have d' : ¬ o 3 < m.sieveSize := by simpa using d
      have hl4 : l = 0 ∨ l = 1 ∨ l = 2 ∨ l = 3 := by omega
      rcases hl4 with rfl | rfl | rfl | rfl <;> omega
    · intro h
      have a := h 0 (by norm_num)
      have b := h 1 (by norm_num)
      have c := h 2 (by norm_num)
      have d := h 3 (by norm_num)
      refine ⟨?_, ?_, ?_, ?_⟩ <;> simp <;> omega
  · rw [t1]; simp
  · rw [t2]; simp
  · rw [t3]; simp
  · rw [t4]; simp
  · intro l hl
    unfold mm_add_epi32 mm_and_si128
    rw [cmpgt_lane m.sieveSize o l hS (ho l hl)]
    have hol := ho l hl
    have hpl := hp l hl
    by_cases h : o l < m.sieveSize
    · rw [if_pos h, if_pos h, and_ones _ (by omega)]
      exact Nat.mod_eq_of_lt (by omega)
    · rw [if_neg h, if_neg h, Nat.zero_and, Nat.add_zero]
      exact Nat.mod_eq_of_lt (by omega)

theorem addRegToPending_spec (m : Miner) (s : PendingState) (reg : Nat → Nat) (mask : Nat)
    (hs : PendingOK m s)
    (h0 : mask &&& 0x0008 ≠ 0 ↔ reg 0 < m.sieveSize)
    (h1 : mask &&& 0x0080 ≠ 0 ↔ reg 1 < m.sieveSize)
    (h2 : mask &&& 0x0800 ≠ 0 ↔ reg 2 < m.sieveSize)
    (h3 : mask &&& 0x8000 ≠ 0 ↔ reg 3 < m.sieveSize) :
    PendingOK m (addRegToPending m s reg mask) ∧
    ∀ idx, Covered (addRegToPending m s reg mask) idx ↔
      (Covered s idx ∨ (idx ≠ 0 ∧ ∃ l, l < 4 ∧ reg l < m.sieveSize ∧ idx = reg l)) := by
  have step : ∀ (s : PendingState) (l : Nat) (mk : Nat), PendingOK m s →
      (mask &&& mk ≠ 0 ↔ reg l < m.sieveSize) →
      PendingOK m (if mask &&& mk ≠ 0 then addToPending m s (reg l) else s) ∧
      ∀ idx, Covered (if mask &&& mk ≠ 0 then addToPending m s (reg l) else s) idx ↔
        (Covered s idx ∨ (idx ≠ 0 ∧ reg l < m.sieveSize ∧ idx = reg l)) := by
    intro s l mk hs hmk
    by_cases h : mask &&& mk ≠ 0
    · rw [if_pos h]
      obtain ⟨a, b⟩ := addToPending_spec m s (reg l) hs (hmk.1 h)
      refine ⟨a, fun idx => ?_⟩
      rw [b idx]
      constructor
      · rintro (x | ⟨x, y⟩)
        · exact Or.inl x
        · exact Or.inr ⟨x, hmk.1 h, y⟩
      · rintro (x | ⟨x, _, y⟩)
        · exact Or.inl x
        · exact Or.inr ⟨x, y⟩
    · rw [if_neg h]
      refine ⟨hs, fun idx => ⟨fun x => Or.inl x, ?_⟩⟩
      rintro (x | ⟨_, y, _⟩)
      · exact x
      · exact absurd (hmk.2 y) h
  unfold addRegToPending
  simp only
  obtain ⟨a0, b0⟩ := step s 0 0x0008 hs h0
  obtain ⟨a1, b1⟩ := step _ 1 0x0080 a0 h1
  obtain ⟨a2, b2⟩ := step _ 2 0x0800 a1 h2
  obtain ⟨a3, b3⟩ := step _ 3 0x8000 a2 h3
  refine ⟨a3, fun idx => ?_⟩
  rw [b3 idx, b2 idx, b1 idx, b0 idx]
  constructor
  · rintro ((((x | ⟨x, y, z⟩) | ⟨x, y, z⟩) | ⟨x, y, z⟩) | ⟨x, y, z⟩)
    · exact Or.inl x
    · exact Or.inr ⟨x, 0, by norm_num, y, z⟩
    · exact Or.inr ⟨x, 1, by norm_num, y, z⟩
    · exact Or.inr ⟨x, 2, by norm_num, y, z⟩
    · exact Or.inr ⟨x, 3, by norm_num, y, z⟩
  · rintro (x | ⟨x, l, hl, y, z⟩)
    · exact Or.inl (Or.inl (Or.inl (Or.inl x)))
    · have hl4 : l = 0 ∨ l = 1 ∨ l = 2 ∨ l = 3 := by omega
      rcases hl4 with rfl | rfl | rfl | rfl
      · exact Or.inl (Or.inl (Or.inl (Or.inr ⟨x, y, z⟩)))
      · exact Or.inl (Or.inl (Or.inr ⟨x, y, z⟩))
      · exact Or.inl (Or.inr ⟨x, y, z⟩)
      · exact Or.inr ⟨x, y, z⟩

theorem lane_cases (P : Nat → Prop) (h1 : ∀ l, l < 4 → P l) (h2 : ∀ l, l < 4 → P (l + 4))
    (h3 : ∀ l, l < 4 → P (l + 8)) : ∀ c, c < 12 → P c := by
  intro c hc
  by_cases a : c < 4
  · exact h1 c a
  · by_cases b : c < 8
    · have := h2 (c - 4) (by omega)
      rwa [Nat.sub_add_cancel (by omega)] at this
    · have := h3 (c - 8) (by omega)
      rwa [Nat.sub_add_cancel (by omega)] at this

theorem lane_offset1 (s : Sieve6State) (l : Nat) (hl : l < 4) : s.lane l = s.offset1 l := by
  unfold Sieve6State.lane
  rw [if_pos hl]

theorem lane_offset2 (s : Sieve6State) (l : Nat) (hl : l < 4) : s.lane (l + 4) = s.offset2 l := by
  unfold Sieve6State.lane
  rw [if_neg (by omega), if_pos (by omega), Nat.add_sub_cancel]

theorem lane_offset3 (s : Sieve6State) (l : Nat) (hl : l < 4) : s.lane (l + 8) = s.offset3 l := by
  unfold Sieve6State.lane
  rw [if_neg (by omega), if_neg (by omega), Nat.add_sub_cancel]

theorem sieve6While_spec (m : Miner) (p1 p2 p3 q : Nat → Nat) (hS : m.sieveSize < 2 ^ 31)
    (hq1 : ∀ l, l < 4 → p1 l = q l) (hq2 : ∀ l, l < 4 → p2 l = q (l + 4))
    (hq3 : ∀ l, l < 4 → p3 l = q (l + 8))
    (hq : ∀ c, c < 12 → 0 < q c ∧ m.sieveSize + q c ≤ 2 ^ 31) :
    ∀ (fuel : Nat) (s : Sieve6State), PendingOK m s.ps → (∀ c, c < 12 → s.lane c < 2 ^ 31) →
      (∀ c, c < 12 → m.sieveSize ≤ s.lane c + fuel) →
      ∃ s1, sieve6While m (mm_set1_epi32 m.sieveSize) p1 p2 p3 (fuel + 1) s = some s1 ∧
        PendingOK m s1.ps ∧
        (∀ c, c < 12 → ∃ t, s1.lane c = s.lane c + t * q c ∧ m.sieveSize ≤ s1.lane c ∧
          ∀ t1, t1 < t → s.lane c + t1 * q c < m.sieveSize) ∧
        (∀ idx, Covered s1.ps idx ↔
          (Covered s.ps idx ∨ (idx ≠ 0 ∧ ∃ c, c < 12 ∧ Reach m (q c) (s.lane c) idx))) := by
  have hp1 : ∀ l, l < 4 → p1 l < 2 ^ 31 := fun l hl => by
    rw [hq1 l hl]; have := (hq l (by omega)).2; have := sieveSize_pos m; omega
  have hp2 : ∀ l, l < 4 → p2 l < 2 ^ 31 := fun l hl => by
    rw [hq2 l hl]; have := (hq (l + 4) (by omega)).2; have := sieveSize_pos m; omega
  have hp3 : ∀ l, l < 4 → p3 l < 2 ^ 31 := fun l hl => by
    rw [hq3 l hl]; have := (hq (l + 8) (by omega)).2; have := sieveSize_pos m; omega
  -- the exit case, shared by both branches of the induction
  have hexit : ∀ s : Sieve6State, PendingOK m s.ps → (∀ c, c < 12 → m.sieveSize ≤ s.lane c) →
      PendingOK m s.ps ∧
      (∀ c, c < 12 → ∃ t, s.lane c = s.lane c + t * q c ∧ m.sieveSize ≤ s.lane c ∧
        ∀ t1, t1 < t → s.lane c + t1 * q c < m.sieveSize) ∧
      (∀ idx, Covered s.ps idx ↔
        (Covered s.ps idx ∨ (idx ≠ 0 ∧ ∃ c, c < 12 ∧ Reach m (q c) (s.lane c) idx))) := by
    intro s hs hall
    refine ⟨hs, fun c hc => ⟨0, by simp, hall c hc, fun t1 h => by omega⟩, fun idx => ?_⟩
    constructor
    · exact fun h => Or.inl h
    · rintro (h | ⟨_, c, hc, hr⟩)
      · exact h
      · exact absurd hr (reach_none m _ _ _ (hall c hc))
  intro fuel
  induction fuel with
  | zero =>
    intro s hs _ hfu
    have hall : ∀ c, c < 12 → m.sieveSize ≤ s.lane c := fun c hc => by
      have := hfu c hc; omega
    have r1 := (reg_step m s.offset1 p1 hS
      (fun l hl => by rw [← lane_offset1 s l hl]; exact ‹∀ c, c < 12 → s.lane c < 2 ^ 31› l (by omega))
      hp1).1
    have r2 := (reg_step m s.offset2 p2 hS
      (fun l hl => by rw [← lane_offset2 s l hl]; exact ‹∀ c, c < 12 → s.lane c < 2 ^ 31› _ (by omega))
      hp2).1
    have r3 := (reg_step m s.offset3 p3 hS
      (fun l hl => by rw [← lane_offset3 s l hl]; exact ‹∀ c, c < 12 → s.lane c < 2 ^ 31› _ (by omega))
      hp3).1
    unfold sieve6While
    simp only
    rw [if_pos ⟨r1.2 (fun l hl => by rw [← lane_offset1 s l hl]; exact hall l (by omega)),
      r2.2 (fun l hl => by rw [← lane_offset2 s l hl]; exact hall _ (by omega)),
      r3.2 (fun l hl => by rw [← lane_offset3 s l hl]; exact hall _ (by omega))⟩]
    exact ⟨s, rfl, hexit s hs hall⟩
  | succ fuel ih =>
    intro s hs hlt hfu
    have ho1 : ∀ l, l < 4 → s.offset1 l < 2 ^ 31 := fun l hl => by
      rw [← lane_offset1 s l hl]; exact hlt l (by omega)
    have ho2 : ∀ l, l < 4 → s.offset2 l < 2 ^ 31 := fun l hl => by
      rw [← lane_offset2 s l hl]; exact hlt _ (by omega)
    have ho3 : ∀ l, l < 4 → s.offset3 l < 2 ^ 31 := fun l hl => by
      rw [← lane_offset3 s l hl]; exact hlt _ (by omega)
    obtain ⟨z1, a10, a11, a12, a13, n1⟩ := reg_step m s.offset1 p1 hS ho1 hp1
    obtain ⟨z2, a20, a21, a22, a23, n2⟩ := reg_step m s.offset2 p2 hS ho2 hp2
    obtain ⟨z3, a30, a31, a32, a33, n3⟩ := reg_step m s.offset3 p3 hS ho3 hp3
    unfold sieve6While
    simp only
    by_cases hz : mm_movemask_epi8 (mm_cmpgt_epi32 (mm_set1_epi32 m.sieveSize) s.offset1) = 0 ∧
        mm_movemask_epi8 (mm_cmpgt_epi32 (mm_set1_epi32 m.sieveSize) s.offset2) = 0 ∧
        mm_movemask_epi8 (mm_cmpgt_epi32 (mm_set1_epi32 m.sieveSize) s.offset3) = 0
    · rw [if_pos hz]
      have hall : ∀ c, c < 12 → m.sieveSize ≤ s.lane c :=
        lane_cases _ (fun l hl => by rw [lane_offset1 s l hl]; exact z1.1 hz.1 l hl)
          (fun l hl => by rw [lane_offset2 s l hl]; exact z2.1 hz.2.1 l hl)
          (fun l hl => by rw [lane_offset3 s l hl]; exact z3.1 hz.2.2 l hl)
      exact ⟨s, rfl, hexit s hs hall⟩
    · rw [if_neg hz]
      obtain ⟨k1, c1⟩ := addRegToPending_spec m s.ps s.offset1 _ hs a10 a11 a12 a13
      obtain ⟨k2, c2⟩ := addRegToPending_spec m _ s.offset2 _ k1 a20 a21 a22 a23
      obtain ⟨k3, c3⟩ := addRegToPending_spec m _ s.offset3 _ k2 a30 a31 a32 a33
      -- the lanes of the next state
      have hnext : ∀ c, c < 12 →
          ({ offset1 := mm_add_epi32 s.offset1
                (mm_and_si128 (mm_cmpgt_epi32 (mm_set1_epi32 m.sieveSize) s.offset1) p1)
             offset2 := mm_add_epi32 s.offset2
                (mm_and_si128 (mm_cmpgt_epi32 (mm_set1_epi32 m.sieveSize) s.offset2) p2)
             offset3 := mm_add_epi32 s.offset3
                (mm_and_si128 (mm_cmpgt_epi32 (mm_set1_epi32 m.sieveSize) s.offset3) p3)
             ps := addRegToPending m
                (addRegToPending m
                  (addRegToPending m s.ps s.offset1
                    (mm_movemask_epi8 (mm_cmpgt_epi32 (mm_set1_epi32 m.sieveSize) s.offset1)))
                  s.offset2
                  (mm_movemask_epi8 (mm_cmpgt_epi32 (mm_set1_epi32 m.sieveSize) s.offset2)))
                s.offset3
                (mm_movemask_epi8 (mm_cmpgt_epi32 (mm_set1_epi32 m.sieveSize) s.offset3))
             : Sieve6State }).lane c
            = if s.lane c < m.sieveSize then s.lane c + q c else s.lane c :=
        lane_cases _
          (fun l hl => by
            rw [lane_offset1 _ l hl, lane_offset1 s l hl]
            simp only
            rw [n1 l hl, hq1 l hl])
          (fun l hl => by
            rw [lane_offset2 _ l hl, lane_offset2 s l hl]
            simp only
            rw [n2 l hl, hq2 l hl])
          (fun l hl => by
            rw [lane_offset3 _ l hl, lane_offset3 s l hl]
            simp only
            rw [n3 l hl, hq3 l hl])
      obtain ⟨s1, hs1, hk, hfin, hcov⟩ := ih _ k3
        (fun c hc => by
          rw [hnext c hc]
          have := hlt c hc
          have := (hq c hc).2
          split <;> omega)
        (fun c hc => by
          rw [hnext c hc]
          have := hfu c hc
          have := (hq c hc).1
          split <;> omega)
      refine ⟨s1, hs1, hk, ?_, ?_⟩
      · intro c hc
        obtain ⟨t, ht1, ht2, ht3⟩ := hfin c hc
        rw [hnext c hc] at ht1 ht3
        by_cases hlow : s.lane c < m.sieveSize
        · rw [if_pos hlow] at ht1 ht3
          refine ⟨t + 1, ?_, ht2, ?_⟩
          · rw [ht1, Nat.add_mul]; omega
          · intro t1 ht1'
            cases t1 with
            | zero => simpa using hlow
            | succ t1 =>
              have := ht3 t1 (by omega)
              have he : s.lane c + (t1 + 1) * q c = s.lane c + q c + t1 * q c := by
                rw [Nat.add_mul]; omega
              omega
        · rw [if_neg hlow] at ht1 ht3
          exact ⟨t, ht1, ht2, ht3⟩
      · intro idx
        rw [hcov idx, c3 idx, c2 idx, c1 idx]
        constructor
        · rintro ((((h | ⟨h0, l, hl, hlow, he⟩) | ⟨h0, l, hl, hlow, he⟩) |
            ⟨h0, l, hl, hlow, he⟩) | ⟨h0, c, hc, hr⟩)
          · exact Or.inl h
          · refine Or.inr ⟨h0, l, by omega, ?_⟩
            rw [lane_offset1 s l hl]
            exact ⟨0, by simpa using he, by rw [he]; exact hlow⟩
          · refine Or.inr ⟨h0, l + 4, by omega, ?_⟩
            rw [lane_offset2 s l hl]
            exact ⟨0, by simpa using he, by rw [he]; exact hlow⟩
          · refine Or.inr ⟨h0, l + 8, by omega, ?_⟩
            rw [lane_offset3 s l hl]
            exact ⟨0, by simpa using he, by rw [he]; exact hlow⟩
          · rw [hnext c hc] at hr
            by_cases hlow : s.lane c < m.sieveSize
            · rw [if_pos hlow] at hr
              exact Or.inr ⟨h0, c, hc, (reach_step m _ _ _ hlow).2 (Or.inr hr)⟩
            · rw [if_neg hlow] at hr
              exact Or.inr ⟨h0, c, hc, hr⟩
        · rintro (h | ⟨h0, c, hc, hr⟩)
          · exact Or.inl (Or.inl (Or.inl (Or.inl h)))
          · by_cases hlow : s.lane c < m.sieveSize
            · rcases (reach_step m _ _ _ hlow).1 hr with he | hr'
              · by_cases a : c < 4
                · refine Or.inl (Or.inl (Or.inl (Or.inr ⟨h0, c, a, ?_, ?_⟩)))
                  · rw [← lane_offset1 s c a]; exact hlow
                  · rw [← lane_offset1 s c a]; exact he
                · by_cases b : c < 8
                  · have hc4 : c - 4 + 4 = c := by omega
                    refine Or.inl (Or.inl (Or.inr ⟨h0, c - 4, by omega, ?_, ?_⟩))
                    · rw [← lane_offset2 s (c - 4) (by omega), hc4]; exact hlow
                    · rw [← lane_offset2 s (c - 4) (by omega), hc4]; exact he
                  · have hc8 : c - 8 + 8 = c := by omega
                    refine Or.inl (Or.inr ⟨h0, c - 8, by omega, ?_, ?_⟩)
                    · rw [← lane_offset3 s (c - 8) (by omega), hc8]; exact hlow
                    · rw [← lane_offset3 s (c - 8) (by omega), hc8]; exact he
              · refine Or.inr ⟨h0, c, hc, ?_⟩
                rw [hnext c hc, if_pos hlow]
                exact hr'
            · exact absurd hr (reach_none m _ _ _ (by omega))

theorem slotPrime_six (m : Miner) (hL : m.primeTupleOffset.length = 6) (i c : Nat) (hc : c < 12) :
    m.slotPrime (i * 6 + c)
      = (if c < 6 then m.primes.getD i 0 else m.primes.getD (i + 1) 0) % 2 ^ 32 := by
  unfold Miner.slotPrime
  rw [hL]
  by_cases h : c < 6
  · rw [if_pos h]
    have : (i * 6 + c) / 6 = i := by omega
    rw [this]
  · rw [if_neg h]
    have : (i * 6 + c) / 6 = i + 1 := by omega
    rw [this]

theorem store_three (mem x1 x2 x3 : Nat → Nat) (b : Nat) :
    (∀ l, l < 4 → mm_store_si128 (mm_store_si128 (mm_store_si128 mem (b + 0) x1) (b + 4) x2)
        (b + 8) x3 (b + l) = x1 l) ∧
    (∀ l, l < 4 → mm_store_si128 (mm_store_si128 (mm_store_si128 mem (b + 0) x1) (b + 4) x2)
        (b + 8) x3 (b + (l + 4)) = x2 l) ∧
    (∀ l, l < 4 → mm_store_si128 (mm_store_si128 (mm_store_si128 mem (b + 0) x1) (b + 4) x2)
        (b + 8) x3 (b + (l + 8)) = x3 l) ∧
    (∀ a, (a < b ∨ b + 12 ≤ a) →
      mm_store_si128 (mm_store_si128 (mm_store_si128 mem (b + 0) x1) (b + 4) x2)
        (b + 8) x3 a = mem a) := by
  unfold mm_store_si128
  refine ⟨fun l hl => ?_, fun l hl => ?_, fun l hl => ?_, fun a ha => ?_⟩
  · rw [if_neg (by omega), if_neg (by omega), if_pos (by omega)]
    congr 1
    omega
  · rw [if_neg (by omega), if_pos (by omega)]
    congr 1
    omega
  · rw [if_pos (by omega)]
    congr 1
    omega
  · rw [if_neg (by omega), if_neg (by omega), if_neg (by omega)]

theorem sub_lane (S a : Nat) (hS : S < 2 ^ 31) (ha : a < 2 ^ 32) (hle : S ≤ a) :
    (a % 2 ^ 32 + 2 ^ 32 - mm_set1_epi32 S 0 % 2 ^ 32) % 2 ^ 32 = a - S := by
  unfold mm_set1_epi32
  rw [Nat.mod_mod, Nat.mod_eq_of_lt ha, Nat.mod_eq_of_lt (show S < 2 ^ 32 by omega)]
  have : a + 2 ^ 32 - S = (a - S) + 2 ^ 32 := by omega
  rw [this, Nat.add_mod_right, Nat.mod_eq_of_lt (by omega)]

theorem sieve6Pair_effect (m : Miner) (hL : m.primeTupleOffset.length = 6) (i : Nat)
    (st : (Nat → Nat) × PendingState) (hs : PendingOK m st.2)
    (hok : SlotsOK m (2 ^ 31) (i * 6) (i * 6 + 12) st.1) :
    ∃ st1, sieve6Pair m i st = some st1 ∧ SlotEffect m (i * 6) (i * 6 + 12) st st1 := by
  have hS : m.sieveSize < 2 ^ 31 := by
    have := hok (i * 6) (by omega) (by omega)
    omega
  have hq : ∀ c, c < 12 → 0 < m.slotPrime (i * 6 + c) ∧
      m.sieveSize + m.slotPrime (i * 6 + c) ≤ 2 ^ 31 := fun c hc => by
    have := hok (i * 6 + c) (by omega) (by omega)
    exact ⟨this.1, this.2.1⟩
  have hq1 : ∀ l, l < 4 → mm_set1_epi32 (m.primes.getD i 0) l = m.slotPrime (i * 6 + l) :=
    fun l hl => by
      rw [slotPrime_six m hL i l (by omega), if_pos (by omega)]
      rfl
  have hq2 : ∀ l, l < 4 → mm_shuffle_ps_0000 (mm_set1_epi32 (m.primes.getD i 0))
      (mm_set1_epi32 (m.primes.getD (i + 1) 0)) l = m.slotPrime (i * 6 + (l + 4)) :=
    fun l hl => by
      rw [slotPrime_six m hL i (l + 4) (by omega)]
      unfold mm_shuffle_ps_0000 mm_set1_epi32
      by_cases h : l < 2
      · rw [if_pos h, if_pos (by omega)]
      · rw [if_neg h, if_neg (by omega)]
  have hq3 : ∀ l, l < 4 → mm_set1_epi32 (m.primes.getD (i + 1) 0) l
      = m.slotPrime (i * 6 + (l + 8)) :=
    fun l hl => by
      rw [slotPrime_six m hL i (l + 8) (by omega), if_neg (by omega)]
      rfl
  have hlane : ∀ c, c < 12 →
      ({ offset1 := mm_load_si128 st.1 (i * 6 + 0), offset2 := mm_load_si128 st.1 (i * 6 + 4),
         offset3 := mm_load_si128 st.1 (i * 6 + 8), ps := st.2 : Sieve6State }).lane c
        = st.1 (i * 6 + c) :=
    lane_cases _
      (fun l hl => by rw [lane_offset1 _ l hl]; rfl)
      (fun l hl => by
        rw [lane_offset2 _ l hl]
        show st.1 (i * 6 + 4 + l) = st.1 (i * 6 + (l + 4))
        rw [show i * 6 + 4 + l = i * 6 + (l + 4) by omega])
      (fun l hl => by
        rw [lane_offset3 _ l hl]
        show st.1 (i * 6 + 8 + l) = st.1 (i * 6 + (l + 8))
        rw [show i * 6 + 8 + l = i * 6 + (l + 8) by omega])
  obtain ⟨r, hr, hk, hfin, hcov⟩ := sieve6While_spec m (mm_set1_epi32 (m.primes.getD i 0))
    (mm_shuffle_ps_0000 (mm_set1_epi32 (m.primes.getD i 0))
      (mm_set1_epi32 (m.primes.getD (i + 1) 0)))
    (mm_set1_epi32 (m.primes.getD (i + 1) 0)) (fun c => m.slotPrime (i * 6 + c)) hS hq1 hq2 hq3 hq
    (2 ^ 32 - 1)
    { offset1 := mm_load_si128 st.1 (i * 6 + 0), offset2 := mm_load_si128 st.1 (i * 6 + 4),
      offset3 := mm_load_si128 st.1 (i * 6 + 8), ps := st.2 } hs
    (fun c hc => by
      rw [hlane c hc]
      exact (hok (i * 6 + c) (by omega) (by omega)).2.2)
    (fun c hc => by omega)
  have hr' : sieve6While m (mm_set1_epi32 m.sieveSize) (mm_set1_epi32 (m.primes.getD i 0))
      (mm_shuffle_ps_0000 (mm_set1_epi32 (m.primes.getD i 0))
        (mm_set1_epi32 (m.primes.getD (i + 1) 0)))
      (mm_set1_epi32 (m.primes.getD (i + 1) 0)) (2 ^ 32)
      { offset1 := mm_load_si128 st.1 (i * 6 + 0), offset2 := mm_load_si128 st.1 (i * 6 + 4),
        offset3 := mm_load_si128 st.1 (i * 6 + 8), ps := st.2 } = some r := hr
  unfold sieve6Pair
  simp only
  rw [hr']
  simp only
  refine ⟨_, rfl, ?_⟩
  obtain ⟨w1, w2, w3, w4⟩ := store_three st.1 (mm_sub_epi32 r.offset1 (mm_set1_epi32 m.sieveSize))
    (mm_sub_epi32 r.offset2 (mm_set1_epi32 m.sieveSize))
    (mm_sub_epi32 r.offset3 (mm_set1_epi32 m.sieveSize)) (i * 6)
  -- the final value of a lane
  have hend : ∀ c, c < 12 → r.lane c < 2 ^ 32 := by
    intro c hc
    obtain ⟨t, ht1, ht2, ht3⟩ := hfin c hc
    rw [hlane c hc] at ht1 ht3
    rw [ht1]
    have hb := hok (i * 6 + c) (by omega) (by omega)
    cases t with
    | zero => simp only [Nat.zero_mul, Nat.add_zero]; omega
    | succ t =>
      have := ht3 t (by omega)
      rw [Nat.add_mul]
      omega
  have hval : ∀ c, c < 12 →
      mm_store_si128 (mm_store_si128 (mm_store_si128 st.1 (i * 6 + 0)
          (mm_sub_epi32 r.offset1 (mm_set1_epi32 m.sieveSize))) (i * 6 + 4)
          (mm_sub_epi32 r.offset2 (mm_set1_epi32 m.sieveSize))) (i * 6 + 8)
          (mm_sub_epi32 r.offset3 (mm_set1_epi32 m.sieveSize)) (i * 6 + c)
        = r.lane c - m.sieveSize :=
    lane_cases _
      (fun l hl => by
        rw [w1 l hl]
        have h1 := hend l (by omega)
        have h2 := hfin l (by omega)
        rw [lane_offset1 r l hl] at h1 h2 ⊢
        obtain ⟨t, _, h3, _⟩ := h2
        exact sub_lane m.sieveSize _ hS h1 h3)
      (fun l hl => by
        rw [w2 l hl]
        have h1 := hend (l + 4) (by omega)
        have h2 := hfin (l + 4) (by omega)
        rw [lane_offset2 r l hl] at h1 h2 ⊢
        obtain ⟨t, _, h3, _⟩ := h2
        exact sub_lane m.sieveSize _ hS h1 h3)
      (fun l hl => by
        rw [w3 l hl]
        have h1 := hend (l + 8) (by omega)
        have h2 := hfin (l + 8) (by omega)
        rw [lane_offset3 r l hl] at h1 h2 ⊢
        obtain ⟨t, _, h3, _⟩ := h2
        exact sub_lane m.sieveSize _ hS h1 h3)
  refine ⟨hk, ?_, ?_, ?_⟩
  · intro idx
    show Covered r.ps idx ↔ _
    rw [hcov idx]
    constructor
    · rintro (h | ⟨h0, c, hc, hre⟩)
      · exact Or.inl h
      · rw [hlane c hc] at hre
        exact Or.inr ⟨h0, i * 6 + c, by omega, by omega, hre⟩
    · rintro (h | ⟨h0, slot, hl, hh, hre⟩)
      · exact Or.inl h
      · refine Or.inr ⟨h0, slot - i * 6, by omega, ?_⟩
        have hsl : i * 6 + (slot - i * 6) = slot := by omega
        rw [hlane _ (by omega)]
        simp only [hsl]
        exact hre
  · intro slot hl hh
    have hsl : i * 6 + (slot - i * 6) = slot := by omega
    obtain ⟨t, ht1, ht2, ht3⟩ := hfin (slot - i * 6) (by omega)
    have hv := hval (slot - i * 6) (by omega)
    rw [hlane _ (by omega)] at ht1 ht3
    simp only [hsl] at ht1 ht3 hv
    refine ⟨t, ?_, ?_, ht3⟩
    · show mm_store_si128 _ _ _ slot = _
      rw [hv, ht1]
    · rw [← ht1]; exact ht2
  · intro slot hsl
    exact w4 slot (by omega)

theorem range_map_step (n a : Nat) :
    (List.range (n + 1)).map (fun k => a + 2 * k)
      = a :: (List.range n).map (fun k => (a + 2) + 2 * k) := by
  rw [List.range_succ_eq_map, List.map_cons, List.map_map]
  congr 1
  apply List.map_congr_left
  intro k _
  show a + 2 * (k + 1) = a + 2 + 2 * k
  omega

theorem sieve6Pairs_effect (m : Miner) (hL : m.primeTupleOffset.length = 6) :
    ∀ (n a : Nat) (st : (Nat → Nat) × PendingState), PendingOK m st.2 →
      SlotsOK m (2 ^ 31) (a * 6) ((a + 2 * n) * 6) st.1 →
      ∃ st1, sieve6Pairs m ((List.range n).map (fun k => a + 2 * k)) st = some st1 ∧
        SlotEffect m (a * 6) ((a + 2 * n) * 6) st st1 := by
  intro n
  induction n with
  | zero =>
    intro a st hs _
    exact ⟨st, rfl, by simpa using slotEffect_refl m _ st hs⟩
  | succ n ih =>
    intro a st hs hok
    rw [range_map_step]
    unfold sieve6Pairs
    obtain ⟨st1, h1, e1⟩ := sieve6Pair_effect m hL a st hs
      (fun slot hl hh => hok slot hl (by omega))
    rw [h1]
    simp only
    have hb : (a + 2) * 6 = a * 6 + 12 := by omega
    have hc : (a + 2 * (n + 1)) * 6 = (a + 2 + 2 * n) * 6 := by omega
    obtain ⟨st2, h2, e2⟩ := ih (a + 2) st1 e1.1 (fun slot hl hh => by
      obtain ⟨x, y, z⟩ := hok slot (by omega) (by omega)
      refine ⟨x, y, ?_⟩
      rw [e1.2.2.2 slot (Or.inr (by omega))]
      exact z)
    refine ⟨st2, h2, ?_⟩
    rw [hc]
    rw [hb] at e2
    exact slotEffect_trans m _ _ _ st st1 st2 (by omega) (by omega) e1 e2

theorem processSieve6_spec (m : Miner) (sieve offsets : Nat → Nat) (start_i end_i : Nat)
    (hL : m.primeTupleOffset.length = 6) (hs2 : start_i % 2 = 0) (he2 : end_i % 2 = 0)
    (hse : start_i ≤ end_i)
    (hok : SlotsOK m (2 ^ 31) (start_i * 6) (end_i * 6) offsets) :
    ∃ sieve1 offsets1, processSieve6 m sieve offsets start_i end_i = some (sieve1, offsets1) ∧
      (∀ idx, sieveBit sieve1 idx = true ↔
        (sieveBit sieve idx = true ∨
          (idx ≠ 0 ∧ ∃ slot, start_i * 6 ≤ slot ∧ slot < end_i * 6 ∧
            Reach m (m.slotPrime slot) (offsets slot) idx))) ∧
      (∀ slot, start_i * 6 ≤ slot → slot < end_i * 6 →
        ∃ t, offsets1 slot = offsets slot + t * m.slotPrime slot - m.sieveSize ∧
          m.sieveSize ≤ offsets slot + t * m.slotPrime slot ∧
          ∀ t1, t1 < t → offsets slot + t1 * m.slotPrime slot < m.sieveSize) ∧
      (∀ slot, (slot < start_i * 6 ∨ end_i * 6 ≤ slot) → offsets1 slot = offsets slot) := by
  obtain ⟨hp0, hc0⟩ := initPending_ok m sieve
  have hend : start_i + 2 * ((end_i - start_i + 1) / 2) = end_i := by omega
  obtain ⟨st1, h1, e1⟩ := sieve6Pairs_effect m hL ((end_i - start_i + 1) / 2) start_i
    (offsets, { sieve := sieve, pending := initPending (fun _ => 0), pos := 0 }) hp0
    (by rw [hend]; exact hok)
  rw [hend] at e1
  obtain ⟨pok, cov, fin, fr⟩ := e1
  obtain ⟨sieve1, h2, hbits⟩ := termPending_spec m st1.2 pok
  unfold processSieve6
  rw [if_pos ⟨hL, by rw [Nat.and_one_is_mod]; exact hs2, by rw [Nat.and_one_is_mod]; exact he2⟩,
    h1]
  simp only
  rw [h2]
  refine ⟨sieve1, st1.1, rfl, ?_, fin, fr⟩
  intro idx
  rw [hbits idx, cov idx, hc0 idx]

theorem slotsOK_mono (m : Miner) (b1 b2 lo hi : Nat) (offsets : Nat → Nat) (hb : b1 ≤ b2)
    (h : SlotsOK m b1 lo hi offsets) : SlotsOK m b2 lo hi offsets := by
  intro slot hl hh
  obtain ⟨x, y, z⟩ := h slot hl hh
  exact ⟨x, by omega, by omega⟩

theorem exampleMiner_slotsOK (offsets : Nat → Nat) (h : ∀ slot, offsets slot < 2 ^ 31) :
    SlotsOK exampleMiner (2 ^ 31) (4 * 6) (6 * 6) offsets := by
  intro slot hl hh
  have h4 : exampleMiner.primes.getD 4 0 = 11 := by decide
  have h5 : exampleMiner.primes.getD 5 0 = 13 := by decide
  have hS : exampleMiner.sieveSize = 64 := by decide
  have hsp : exampleMiner.slotPrime slot = 11 ∨ exampleMiner.slotPrime slot = 13 := by
    have hc : exampleMiner.slotPrime slot = exampleMiner.primes.getD (slot / 6) 0 % 2 ^ 32 := rfl
    have hd : slot / 6 = 4 ∨ slot / 6 = 5 := by omega
    rcases hd with hd | hd
    · left; rw [hc, hd, h4]; norm_num
    · right; rw [hc, hd, h5]; norm_num
  have := h slot
  rw [hS]
  rcases hsp with e | e <;> rw [e] <;> omega

/-- C6 (as stated, refuted): with sieve segments of 64 bits, the prime indices 4 and 5
(primes 11 and 13), a zero bitmap and all stored offsets `v = 0`, index `0 = v + 0 * p` is
below `sieveSize`, yet after `_processSieve` and after `_processSieve6` its bit is still
clear: the pending buffer uses the value 0 for an empty cell. -/
theorem C6_sieve_marking_counterexample :
    (∃ sieve1 offsets1, processSieve exampleMiner (fun _ => 0) (fun _ => 0) 4 6
        = some (sieve1, offsets1) ∧ sieveBit sieve1 0 = false) ∧
    (∃ sieve1 offsets1, processSieve6 exampleMiner (fun _ => 0) (fun _ => 0) 4 6
        = some (sieve1, offsets1) ∧ sieveBit sieve1 0 = false) := by
  have hok := exampleMiner_slotsOK (fun _ => 0) (fun _ => by norm_num)
  have hz : sieveBit (fun _ => 0) 0 = false := by decide
  constructor
  · obtain ⟨sieve1, offsets1, h1, h2, _⟩ := processSieve_spec exampleMiner (fun _ => 0)
      (fun _ => 0) 4 6 (by decide) (slotsOK_mono _ _ _ _ _ _ (by norm_num) hok)
    refine ⟨sieve1, offsets1, h1, ?_⟩
    cases hb : sieveBit sieve1 0 with
    | false => rfl
    | true =>
      rcases (h2 0).1 hb with h | ⟨h0, _⟩
      · rw [hz] at h; cases h
      · exact absurd rfl h0
  · obtain ⟨sieve1, offsets1, h1, h2, _⟩ := processSieve6_spec exampleMiner (fun _ => 0)
      (fun _ => 0) 4 6 rfl (by decide) (by decide) (by decide) hok
    refine ⟨sieve1, offsets1, h1, ?_⟩
    cases hb : sieveBit sieve1 0 with
    | false => rfl
    | true =>
      rcases (h2 0).1 hb with h | ⟨h0, _⟩
      · rw [hz] at h; cases h
      · exact absurd rfl h0

/-- C6 (amended): let the cells `offsets[i*L+f]` of the prime indices `start_i ≤ i < end_i`
be 32-bit values and the primes `p = primes[i]` be positive with `sieveSize + p ≤ 2^32`.
Then `_processSieve` returns, and for every such `i`, every family `f < L` and every `t`,
the index `v + t * p` with `v = offsets[i*L+f]` has its bit set afterwards whenever it is
non-zero and below `sieveSize`; the bit of index 0 is left as it was.  When `L = 6`, the
bounds are even, and cells and `sieveSize + p` stay within `2^31`, the same holds after
`_processSieve6`. -/
theorem C6_sieve_marking (m : Miner) (sieve offsets : Nat → Nat) (start_i end_i : Nat)
    (hse : start_i ≤ end_i)
    (hok : SlotsOK m (2 ^ 32) (start_i * m.primeTupleOffset.length)
      (end_i * m.primeTupleOffset.length) offsets) :
    (∃ sieve1 offsets1, processSieve m sieve offsets start_i end_i = some (sieve1, offsets1) ∧
      (∀ i f t, start_i ≤ i → i < end_i → f < m.primeTupleOffset.length →
        offsets (i * m.primeTupleOffset.length + f) + t * (m.primes.getD i 0 % 2 ^ 32) ≠ 0 →
        offsets (i * m.primeTupleOffset.length + f) + t * (m.primes.getD i 0 % 2 ^ 32)
          < m.sieveSize →
        sieveBit sieve1
          (offsets (i * m.primeTupleOffset.length + f) + t * (m.primes.getD i 0 % 2 ^ 32))
          = true) ∧
      sieveBit sieve1 0 = sieveBit sieve 0) ∧
    (m.primeTupleOffset.length = 6 → start_i % 2 = 0 → end_i % 2 = 0 →
      SlotsOK m (2 ^ 31) (start_i * m.primeTupleOffset.length)
        (end_i * m.primeTupleOffset.length) offsets →
      ∃ sieve1 offsets1, processSieve6 m sieve offsets start_i end_i = some (sieve1, offsets1) ∧
        (∀ i f t, start_i ≤ i → i < end_i → f < m.primeTupleOffset.length →
          offsets (i * m.primeTupleOffset.length + f) + t * (m.primes.getD i 0 % 2 ^ 32) ≠ 0 →
          offsets (i * m.primeTupleOffset.length + f) + t * (m.primes.getD i 0 % 2 ^ 32)
            < m.sieveSize →
          sieveBit sieve1
            (offsets (i * m.primeTupleOffset.length + f) + t * (m.primes.getD i 0 % 2 ^ 32))
            = true) ∧
        sieveBit sieve1 0 = sieveBit sieve 0) := by
  have hslot : ∀ i f, start_i ≤ i → i < end_i → f < m.primeTupleOffset.length →
      start_i * m.primeTupleOffset.length ≤ i * m.primeTupleOffset.length + f ∧
      i * m.primeTupleOffset.length + f < end_i * m.primeTupleOffset.length := by
    intro i f h1 h2 h3
    have a := Nat.mul_le_mul_right m.primeTupleOffset.length h1
    have b := Nat.mul_le_mul_right m.primeTupleOffset.length (show i + 1 ≤ end_i from h2)
    rw [Nat.add_mul, Nat.one_mul] at b
    omega
  have hzero : ∀ sieve1 : Nat → Nat,
      (∀ idx, sieveBit sieve1 idx = true ↔
        (sieveBit sieve idx = true ∨
          (idx ≠ 0 ∧ ∃ slot, start_i * m.primeTupleOffset.length ≤ slot ∧
            slot < end_i * m.primeTupleOffset.length ∧
            Reach m (m.slotPrime slot) (offsets slot) idx))) →
      sieveBit sieve1 0 = sieveBit sieve 0 := by
    intro sieve1 h
    have h0 := h 0
    cases ha : sieveBit sieve1 0 <;> cases hb : sieveBit sieve 0 <;> rw [ha, hb] at h0
    · exact h0.2 (Or.inl rfl)
    · rcases h0.1 rfl with h | ⟨h, _⟩
      · exact h.symm
      · exact absurd rfl h
  constructor
  · obtain ⟨sieve1, offsets1, h1, h2, _⟩ := processSieve_spec m sieve offsets start_i end_i hse hok
    refine ⟨sieve1, offsets1, h1, ?_, hzero sieve1 h2⟩
    intro i f t hi1 hi2 hf hne hlt
    obtain ⟨hl, hh⟩ := hslot i f hi1 hi2 hf
    refine (h2 _).2 (Or.inr ⟨hne, i * m.primeTupleOffset.length + f, hl, hh, t, ?_, hlt⟩)
    rw [slotPrime_eq m i f hf]
  · intro hL hs2 he2 hok6
    rw [hL] at hok6
    obtain ⟨sieve1, offsets1, h1, h2, _⟩ := processSieve6_spec m sieve offsets start_i end_i hL
      hs2 he2 hse hok6
    rw [← hL] at h2
    refine ⟨sieve1, offsets1, h1, ?_, hzero sieve1 h2⟩
    intro i f t hi1 hi2 hf hne hlt
    obtain ⟨hl, hh⟩ := hslot i f hi1 hi2 hf
    refine (h2 _).2 (Or.inr ⟨hne, i * m.primeTupleOffset.length + f, hl, hh, t, ?_, hlt⟩)
    rw [slotPrime_eq m i f hf]

theorem C6_sieve_marking_witness :
    (∃ sieve1 offsets1, processSieve exampleMiner (fun _ => 0) (fun _ => 5) 4 6
        = some (sieve1, offsets1) ∧ sieveBit sieve1 16 = true ∧ sieveBit sieve1 0 = false) ∧
    (∃ sieve1 offsets1, processSieve6 exampleMiner (fun _ => 0) (fun _ => 5) 4 6
        = some (sieve1, offsets1) ∧ sieveBit sieve1 16 = true ∧ sieveBit sieve1 0 = false) := by
  have hok := exampleMiner_slotsOK (fun _ => 5) (fun _ => by norm_num)
  have h := C6_sieve_marking exampleMiner (fun _ => 0) (fun _ => 5) 4 6 (by decide)
    (slotsOK_mono _ _ _ _ _ _ (by norm_num) hok)
  constructor
  · obtain ⟨sieve1, offsets1, h1, h2, h3⟩ := h.1
    exact ⟨sieve1, offsets1, h1, h2 4 0 1 (by decide) (by decide) (by decide) (by decide)
      (by decide), h3⟩
  · obtain ⟨sieve1, offsets1, h1, h2, h3⟩ := h.2 rfl (by decide) (by decide) hok
    exact ⟨sieve1, offsets1, h1, h2 4 0 1 (by decide) (by decide) (by decide) (by decide)
      (by decide), h3⟩

/-! ## Sieve worker: one segment of `_runSieve` -/

theorem soundEffect_refl (m : Miner) (lo : Nat) (st : (Nat → Nat) × (Nat → Nat)) :
    SoundEffect m lo lo st st := by
  refine ⟨fun idx h => Or.inl h, ?_, fun _ _ => rfl⟩
  intro slot h1 h2
  omega

theorem soundEffect_trans (m : Miner) (lo mid hi : Nat)
    (st st1 st2 : (Nat → Nat) × (Nat → Nat)) (h1 : lo ≤ mid) (h2 : mid ≤ hi)
    (e1 : SoundEffect m lo mid st st1) (e2 : SoundEffect m mid hi st1 st2) :
    SoundEffect m lo hi st st2 := by
  obtain ⟨c1, f1, r1⟩ := e1
  obtain ⟨c2, f2, r2⟩ := e2
  refine ⟨?_, ?_, ?_⟩
  · intro idx hb
    rcases c2 idx hb with h | ⟨slot, hl, hh, hr⟩
    · rcases c1 idx h with h | ⟨slot, hl, hh, hr⟩
      · exact Or.inl h
      · exact Or.inr ⟨slot, hl, by omega, hr⟩
    · rw [r1 slot (Or.inr hl)] at hr
      exact Or.inr ⟨slot, by omega, hh, hr⟩
  · intro slot hl hh
    by_cases hm : slot < mid
    · obtain ⟨t, a, b, c⟩ := f1 slot hl hm
      exact ⟨t, by rw [r2 slot (Or.inl hm)]; exact a, b, c⟩
    · obtain ⟨t, a, b, c⟩ := f2 slot (by omega) hh
      rw [r1 slot (Or.inr (by omega))] at a b c
      exact ⟨t, a, b, c⟩
  · intro slot hs
    rw [r2 slot (by omega), r1 slot (by omega)]

theorem alignWhile_spec (m : Miner) (p : Nat) (hp : 0 < p) (hnw : m.sieveSize + p ≤ 2 ^ 32) :
    ∀ (fuel off : Nat) (sieve : Nat → Nat), m.sieveSize ≤ off + fuel →
      ∃ t sieve1, alignWhile m p (fuel + 1) off sieve = some (off + t * p, sieve1) ∧
        m.sieveSize ≤ off + t * p ∧ (∀ t1, t1 < t → off + t1 * p < m.sieveSize) ∧
        ∀ idx, sieveBit sieve1 idx = true ↔ (sieveBit sieve idx = true ∨ Reach m p off idx) := by
  intro fuel
  induction fuel with
  | zero =>
    intro off sieve hfu
    refine ⟨0, sieve, ?_, by omega, fun t1 h => by omega, fun idx => ?_⟩
    · unfold alignWhile
      rw [if_neg (by omega)]
      simp
    · constructor
      · exact fun h => Or.inl h
      · rintro (h | h)
        · exact h
        · exact absurd h (reach_none m p off idx (by omega))
  | succ fuel ih =>
    intro off sieve hfu
    unfold alignWhile
    by_cases hoff : off < m.sieveSize
    · rw [if_pos hoff]
      have hmod : (off + p) % 2 ^ 32 = off + p := Nat.mod_eq_of_lt (by omega)
      rw [hmod]
      obtain ⟨t, s2, h1, h3, h4, h5⟩ := ih (off + p) (markBit sieve off) (by omega)
      refine ⟨t + 1, s2, ?_, ?_, ?_, ?_⟩
      · rw [h1]
        congr 2
        rw [Nat.add_mul]; omega
      · have : off + (t + 1) * p = off + p + t * p := by rw [Nat.add_mul]; omega
        omega
      · intro t1 ht1
        cases t1 with
        | zero => simpa using hoff
        | succ t1 =>
          have := h4 t1 (by omega)
          have he : off + (t1 + 1) * p = off + p + t1 * p := by rw [Nat.add_mul]; omega
          omega
      · intro idx
        rw [h5 idx, sieveBit_markBit, reach_step m p off idx hoff, Bool.or_eq_true,
          decide_eq_true_eq]
        constructor
        · rintro ((h | he) | hr)
          · exact Or.inl h
          · exact Or.inr (Or.inl he)
          · exact Or.inr (Or.inr hr)
        · rintro (h | he | hr)
          · exact Or.inl (Or.inl h)
          · exact Or.inl (Or.inr he)
          · exact Or.inr hr
    · rw [if_neg hoff]
      refine ⟨0, sieve, by simp, by omega, fun t1 h => by omega, fun idx => ?_⟩
      constructor
      · exact fun h => Or.inl h
      · rintro (h | h)
        · exact h
        · exact absurd h (reach_none m p off idx (by omega))

theorem alignFamily_effect (m : Miner) (slot : Nat) (st : (Nat → Nat) × (Nat → Nat))
    (hp : 0 < m.slotPrime slot) (hnw : m.sieveSize + m.slotPrime slot ≤ 2 ^ 32)
    (hcell : st.1 slot < 2 ^ 32) :
    ∃ st1, alignFamily m (m.slotPrime slot) slot st = some st1 ∧
      SoundEffect m slot (slot + 1) st st1 := by
  obtain ⟨t, s1, h1, h3, h4, h5⟩ := alignWhile_spec m _ hp hnw (2 ^ 32 - 1) (st.1 slot) st.2
    (by omega)
  have h1' : alignWhile m (m.slotPrime slot) (2 ^ 32) (st.1 slot) st.2
      = some (st.1 slot + t * m.slotPrime slot, s1) := h1
  unfold alignFamily
  rw [h1']
  simp only
  refine ⟨_, rfl, ?_, ?_, ?_⟩
  · intro idx hb
    rcases (h5 idx).1 hb with h | h
    · exact Or.inl h
    · exact Or.inr ⟨slot, Nat.le_refl _, by omega, h⟩
  · intro s hl hh
    have : s = slot := by omega
    subst this
    refine ⟨t, ?_, h3, h4⟩
    show Function.update st.1 s _ s = _
    rw [Function.update_same]
    have hup : st.1 s + t * m.slotPrime s < 2 ^ 32 + m.sieveSize := by
      cases t with
      | zero => simp; omega
      | succ t =>
        have := h4 t (by omega)
        have he : st.1 s + (t + 1) * m.slotPrime s = st.1 s + t * m.slotPrime s + m.slotPrime s := by
          rw [Nat.add_mul]; omega
        omega
    have hss : m.sieveSize % 2 ^ 32 = m.sieveSize := Nat.mod_eq_of_lt (by omega)
    rw [hss]
    have : st.1 s + t * m.slotPrime s + 2 ^ 32 - m.sieveSize
        = (st.1 s + t * m.slotPrime s - m.sieveSize) + 2 ^ 32 := by omega
    have hlt : st.1 s + t * m.slotPrime s - m.sieveSize < 2 ^ 32 := by omega
    rw [this, Nat.add_mod_right, Nat.mod_eq_of_lt hlt]
  · intro s hs
    show Function.update st.1 slot _ s = _
    rw [Function.update_noteq (by omega)]

theorem alignFamilies_effect (m : Miner) (i : Nat) :
    ∀ (n f0 : Nat) (st : (Nat → Nat) × (Nat → Nat)), f0 + n ≤ m.primeTupleOffset.length →
      SlotsOK m (2 ^ 32) (i * m.primeTupleOffset.length + f0)
        (i * m.primeTupleOffset.length + f0 + n) st.1 →
      ∃ st1, alignFamilies m i (List.range' f0 n) st = some st1 ∧
        SoundEffect m (i * m.primeTupleOffset.length + f0)
          (i * m.primeTupleOffset.length + f0 + n) st st1 := by
  intro n
  induction n with
  | zero =>
    intro f0 st _ _
    exact ⟨st, rfl, soundEffect_refl m _ st⟩
  | succ n ih =>
    intro f0 st hfn hok
    rw [List.range'_succ]
    unfold alignFamilies
    obtain ⟨hp, hnw, hcell⟩ := hok (i * m.primeTupleOffset.length + f0) (Nat.le_refl _) (by omega)
    rw [← slotPrime_eq m i f0 (by omega)]
    obtain ⟨st1, h1, e1⟩ := alignFamily_effect m _ st hp hnw hcell
    rw [h1]
    simp only
    have hok1 : SlotsOK m (2 ^ 32) (i * m.primeTupleOffset.length + (f0 + 1))
        (i * m.primeTupleOffset.length + (f0 + 1) + n) st1.1 := by
      intro slot hl hh
      obtain ⟨a, b, c⟩ := hok slot (by omega) (by omega)
      refine ⟨a, b, ?_⟩
      rw [e1.2.2 slot (Or.inr (by omega))]
      exact c
    obtain ⟨st2, h2, e2⟩ := ih (f0 + 1) st1 (by omega) hok1
    refine ⟨st2, h2, ?_⟩
    have := soundEffect_trans m _ _ _ st st1 st2 (by omega) (by omega) e1 e2
    have he : i * m.primeTupleOffset.length + (f0 + 1) + n
        = i * m.primeTupleOffset.length + f0 + (n + 1) := by omega
    rw [he] at this
    exact this

theorem alignLoop_spec (m : Miner) (k : Nat) (st : (Nat → Nat) × (Nat → Nat))
    (hok : SlotsOK m (2 ^ 32) (k * m.primeTupleOffset.length)
      ((k + k % 2) * m.primeTupleOffset.length) st.1) :
    ∃ st1, alignLoop m 2 k st = some (k + k % 2, st1) ∧
      SoundEffect m (k * m.primeTupleOffset.length) ((k + k % 2) * m.primeTupleOffset.length)
        st st1 := by
  unfold alignLoop
  rw [Nat.and_one_is_mod]
  rcases Nat.mod_two_eq_zero_or_one k with hk | hk
  · rw [if_neg (by omega), hk, Nat.add_zero]
    exact ⟨st, rfl, soundEffect_refl m _ st⟩
  · rw [if_pos (by omega)]
    rw [hk] at hok ⊢
    have hmul : (k + 1) * m.primeTupleOffset.length
        = k * m.primeTupleOffset.length + 0 + m.primeTupleOffset.length := by
      rw [Nat.add_mul]; omega
    rw [hmul] at hok ⊢
    obtain ⟨st1, h1, e1⟩ := alignFamilies_effect m k m.primeTupleOffset.length 0 st (by omega)
      hok
    rw [List.range_eq_range', h1]
    simp only
    unfold alignLoop
    rw [Nat.and_one_is_mod, if_neg (by omega)]
    refine ⟨st1, rfl, ?_⟩
    simpa using e1

theorem processSieve_noop (m : Miner) (sieve offsets : Nat → Nat) (start_i end_i : Nat)
    (h : end_i ≤ start_i) :
    ∃ sieve1, processSieve m sieve offsets start_i end_i = some (sieve1, offsets) ∧
      ∀ idx, sieveBit sieve1 idx = true ↔ sieveBit sieve idx = true := by
  obtain ⟨hp0, hc0⟩ := initPending_ok m sieve
  obtain ⟨sieve1, h2, hbits⟩ := termPending_spec m
    { sieve := sieve, pending := initPending (fun _ => 0), pos := 0 } hp0
  unfold processSieve
  rw [Nat.sub_eq_zero_of_le h]
  have he : sievePrimes m (List.range' start_i 0)
      (offsets, { sieve := sieve, pending := initPending (fun _ => 0), pos := 0 })
      = some (offsets, { sieve := sieve, pending := initPending (fun _ => 0), pos := 0 }) := rfl
  rw [he]
  simp only
  rw [h2]
  refine ⟨sieve1, rfl, fun idx => ?_⟩
  rw [hbits idx, hc0 idx]

theorem processSieve6_noop (m : Miner) (sieve offsets : Nat → Nat) (start_i end_i : Nat)
    (hL : m.primeTupleOffset.length = 6) (hs2 : start_i % 2 = 0) (he2 : end_i % 2 = 0)
    (h : end_i ≤ start_i) :
    ∃ sieve1, processSieve6 m sieve offsets start_i end_i = some (sieve1, offsets) ∧
      ∀ idx, sieveBit sieve1 idx = true ↔ sieveBit sieve idx = true := by
  obtain ⟨hp0, hc0⟩ := initPending_ok m sieve
  obtain ⟨sieve1, h2, hbits⟩ := termPending_spec m
    { sieve := sieve, pending := initPending (fun _ => 0), pos := 0 } hp0
  unfold processSieve6
  rw [if_pos ⟨hL, by rw [Nat.and_one_is_mod]; exact hs2, by rw [Nat.and_one_is_mod]; exact he2⟩]
  have hn : (end_i - start_i + 1) / 2 = 0 := by omega
  rw [hn]
  have he : sieve6Pairs m ((List.range 0).map (fun k => start_i + 2 * k))
      (offsets, { sieve := sieve, pending := initPending (fun _ => 0), pos := 0 })
      = some (offsets, { sieve := sieve, pending := initPending (fun _ => 0), pos := 0 }) := rfl
  rw [he]
  simp only
  rw [h2]
  refine ⟨sieve1, rfl, fun idx => ?_⟩
  rw [hbits idx, hc0 idx]

theorem denseSieve_effect (m : Miner) (sieve offsets : Nat → Nat) (start_i end_i : Nat)
    (hs2 : start_i % 2 = 0) (h6 : m.primeTupleOffset.length = 6 → end_i % 2 = 0)
    (hok : SlotsOK m m.sieveBound (start_i * m.primeTupleOffset.length)
      (end_i * m.primeTupleOffset.length) offsets) :
    ∃ sieve2 offsets2,
      (if m.primeTupleOffset.length = 6 then processSieve6 m sieve offsets start_i end_i
        else processSieve m sieve offsets start_i end_i) = some (sieve2, offsets2) ∧
      SoundEffect m (start_i * m.primeTupleOffset.length)
        (max start_i end_i * m.primeTupleOffset.length) (offsets, sieve) (offsets2, sieve2) := by
  by_cases hse : start_i ≤ end_i
  · rw [Nat.max_eq_right hse]
    by_cases hL : m.primeTupleOffset.length = 6
    · rw [if_pos hL]
      have hb : m.sieveBound = 2 ^ 31 := by unfold Miner.sieveBound; rw [if_pos hL]
      rw [hb, hL] at hok
      obtain ⟨sieve1, offsets1, h1, h2, h3, h4⟩ := processSieve6_spec m sieve offsets start_i end_i
        hL hs2 (h6 hL) hse hok
      rw [hL]
      exact ⟨sieve1, offsets1, h1, fun idx hb => by
        rcases (h2 idx).1 hb with h | ⟨_, h⟩
        · exact Or.inl h
        · exact Or.inr h, h3, h4⟩
    · rw [if_neg hL]
      have hb : m.sieveBound = 2 ^ 32 := by unfold Miner.sieveBound; rw [if_neg hL]
      rw [hb] at hok
      obtain ⟨sieve1, offsets1, h1, h2, h3, h4⟩ := processSieve_spec m sieve offsets start_i end_i
        hse hok
      exact ⟨sieve1, offsets1, h1, fun idx hb => by
        rcases (h2 idx).1 hb with h | ⟨_, h⟩
        · exact Or.inl h
        · exact Or.inr h, h3, h4⟩
  · rw [Nat.max_eq_left (by omega)]
    by_cases hL : m.primeTupleOffset.length = 6
    · rw [if_pos hL]
      obtain ⟨sieve1, h1, h2⟩ := processSieve6_noop m sieve offsets start_i end_i hL hs2 (h6 hL)
        (by omega)
      exact ⟨sieve1, offsets, h1, fun idx hb => Or.inl ((h2 idx).1 hb), fun slot a b => by omega,
        fun _ _ => rfl⟩
    · rw [if_neg hL]
      obtain ⟨sieve1, h1, h2⟩ := processSieve_noop m sieve offsets start_i end_i (by omega)
      exact ⟨sieve1, offsets, h1, fun idx hb => Or.inl ((h2 idx).1 hb), fun slot a b => by omega,
        fun _ _ => rfl⟩

theorem segmentHits_spec (m : Miner) (hits : Nat → Nat) :
    ∀ (l : List Nat) (s : PendingState), PendingOK m s → (∀ j ∈ l, hits j < m.sieveSize) →
      PendingOK m (l.foldl (fun ps i => addToPending m ps (hits i)) s) ∧
      ∀ idx, Covered (l.foldl (fun ps i => addToPending m ps (hits i)) s) idx →
        (Covered s idx ∨ ∃ j ∈ l, hits j = idx) := by
  intro l
  induction l with
  | nil =>
    intro s hs _
    exact ⟨hs, fun idx h => Or.inl h⟩
  | cons a rest ih =>
    intro s hs hl
    rw [List.foldl_cons]
    obtain ⟨h1, c1⟩ := addToPending_spec m s (hits a) hs (hl a (List.mem_cons_self _ _))
    obtain ⟨h2, c2⟩ := ih (addToPending m s (hits a)) h1
      (fun j hj => hl j (List.mem_cons_of_mem _ hj))
    refine ⟨h2, fun idx hc => ?_⟩
    rcases c2 idx hc with h | ⟨j, hj, he⟩
    · rcases (c1 idx).1 h with h | ⟨_, he⟩
      · exact Or.inl h
      · exact Or.inr ⟨a, List.mem_cons_self _ _, he.symm⟩
    · exact Or.inr ⟨j, List.mem_cons_of_mem _ hj, he⟩

theorem slot_decompose (L lo hi slot : Nat) (h1 : lo * L ≤ slot) (h2 : slot < hi * L) :
    ∃ i f, slot = i * L + f ∧ lo ≤ i ∧ i < hi ∧ f < L := by
  have hL : 0 < L := by
    rcases Nat.eq_zero_or_pos L with h | h
    · rw [h] at h2; omega
    · exact h
  refine ⟨slot / L, slot % L, (Nat.div_add_mod' slot L).symm, ?_, ?_, Nat.mod_lt _ hL⟩
  · exact (Nat.le_div_iff_mul_le hL).2 h1
  · exact (Nat.div_lt_iff_lt_mul hL).2 h2

theorem sieveBound_le (m : Miner) : m.sieveBound ≤ 2 ^ 32 := by
  unfold Miner.sieveBound
  split <;> norm_num

theorem sieveEnd_bounds (m : Miner) :
    m.sparseLimit ≤ m.sieveEnd ∧ m.primorialNumber + m.primorialNumber % 2 ≤ m.sieveEnd ∧
    max (m.primorialNumber + m.primorialNumber % 2) m.sparseLimit = m.sieveEnd := by
  unfold Miner.sieveEnd Miner.startingPrimeIndex
  refine ⟨Nat.le_max_left _ _, Nat.le_max_right _ _, Nat.max_comm _ _⟩

theorem memset_clear (m : Miner) (h3 : 3 ≤ m.sieveBits) (sieve : Nat → Nat) (idx : Nat)
    (hidx : idx < m.sieveSize) :
    sieveBit (fun a => if a < m.sieveSize / 8 then 0 else sieve a) idx = false := by
  have hS : m.sieveSize = 8 * 2 ^ (m.sieveBits - 3) := by
    unfold Miner.sieveSize
    rw [Nat.shiftLeft_eq, Nat.one_mul]
    have : m.sieveBits = 3 + (m.sieveBits - 3) := by omega
    conv_lhs => rw [this, Nat.pow_add]
  unfold sieveBit
  simp only
  rw [if_pos (by omega)]
  simp

theorem dvd_shift (p P : Nat) (a b t : Nat) (c : Int)
    (h : ((p : Nat) : Int) ∣ (P : Int) * ((a : Nat) : Int) + c) (hb : b = a + t * p) :
    ((p : Nat) : Int) ∣ (P : Int) * ((b : Nat) : Int) + c := by
  rw [hb]
  push_cast
  have he : (P : Int) * ((a : Int) + (t : Int) * (p : Int)) + c
      = ((P : Int) * (a : Int) + c) + (p : Int) * ((P : Int) * (t : Int)) := by ring
  rw [he]
  exact dvd_add h (dvd_mul_right _ _)

theorem runSieveMark_spec (m : Miner) (cand : Int) (s : SieveInstance) (loop : Nat)
    (h3 : 3 ≤ m.sieveBits) (h6 : m.primeTupleOffset.length = 6 → m.sparseLimit % 2 = 0)
    (hb : ∀ i, m.primorialNumber ≤ i → i < m.sieveEnd →
      m.sieveSize + m.primes.getD i 0 ≤ m.sieveBound)
    (hinv : SegInv m cand loop s.offsets)
    (hhits : ∀ j, j < s.segmentCounts loop →
      s.segmentHits loop j < m.sieveSize ∧ HasWitness m cand loop (s.segmentHits loop j)) :
    ∃ s1, runSieveMark m s loop = some s1 ∧ s1.segmentHits = s.segmentHits ∧
      s1.segmentCounts = s.segmentCounts ∧ SegInv m cand (loop + 1) s1.offsets ∧
      ∀ idx, idx < m.sieveSize → sieveBit s1.sieve idx = true → HasWitness m cand loop idx := by
  obtain ⟨hsl, hal, hmax⟩ := sieveEnd_bounds m
  have hSpos := sieveSize_pos m
  have hB := sieveBound_le m
  -- the prime of a cell the sieve reads
  have hprime : ∀ i f, m.primorialNumber ≤ i → i < m.sieveEnd →
      f < m.primeTupleOffset.length →
      m.slotPrime (i * m.primeTupleOffset.length + f) = m.primes.getD i 0 := by
    intro i f h1 h2 hf
    rw [slotPrime_eq m i f hf]
    have := hb i h1 h2
    exact Nat.mod_eq_of_lt (by omega)
  have hokAll : SlotsOK m m.sieveBound (m.primorialNumber * m.primeTupleOffset.length)
      (m.sieveEnd * m.primeTupleOffset.length) s.offsets := by
    intro slot hl hh
    obtain ⟨i, f, rfl, h1, h2, hf⟩ := slot_decompose _ _ _ _ hl hh
    rw [hprime i f h1 h2 hf]
    have hlt := (hinv i f h1 h2 hf).1
    have := hb i h1 h2
    exact ⟨by omega, this, by omega⟩
  have hmulle : ∀ a b : Nat, a ≤ b →
      a * m.primeTupleOffset.length ≤ b * m.primeTupleOffset.length :=
    fun a b h => Nat.mul_le_mul_right _ h
  have hk1 : m.primorialNumber ≤ m.primorialNumber + m.primorialNumber % 2 := Nat.le_add_right _ _
  -- alignment
  obtain ⟨st1, hA, eA⟩ := alignLoop_spec m m.primorialNumber
    (s.offsets, fun a => if a < m.sieveSize / 8 then 0 else s.sieve a)
    (fun slot hl hh => by
      obtain ⟨a, b, c⟩ := hokAll slot hl (by have := hmulle _ _ hal; omega)
      exact ⟨a, by omega, show s.offsets slot < 2 ^ 32 by omega⟩)
  -- main sieve
  obtain ⟨sieve2, offsets2, hM, eM⟩ := denseSieve_effect m st1.2 st1.1
    (m.primorialNumber + m.primorialNumber % 2) m.sparseLimit (by omega) h6
    (fun slot hl hh => by
      obtain ⟨a, b, c⟩ := hokAll slot (by have := hmulle _ _ hk1; omega)
        (by have := hmulle _ _ hsl; omega)
      refine ⟨a, b, ?_⟩
      rw [eA.2.2 slot (Or.inr hl)]
      exact c)
  rw [hmax] at eM
  have eAll := soundEffect_trans m _ _ _ _ st1 (offsets2, sieve2) (hmulle _ _ hk1)
    (hmulle _ _ hal) eA eM
  have cov : ∀ idx, sieveBit sieve2 idx = true →
      (sieveBit (fun a => if a < m.sieveSize / 8 then 0 else s.sieve a) idx = true ∨
        ∃ slot, m.primorialNumber * m.primeTupleOffset.length ≤ slot ∧
          slot < m.sieveEnd * m.primeTupleOffset.length ∧
          Reach m (m.slotPrime slot) (s.offsets slot) idx) := eAll.1
  have fin : ∀ slot, m.primorialNumber * m.primeTupleOffset.length ≤ slot →
      slot < m.sieveEnd * m.primeTupleOffset.length →
      ∃ t, offsets2 slot = s.offsets slot + t * m.slotPrime slot - m.sieveSize ∧
        m.sieveSize ≤ s.offsets slot + t * m.slotPrime slot ∧
        ∀ t1, t1 < t → s.offsets slot + t1 * m.slotPrime slot < m.sieveSize := eAll.2.1
  -- segment hits
  obtain ⟨hp0, hc0⟩ := initPending_ok m sieve2
  obtain ⟨hp1, hc1⟩ := segmentHits_spec m (s.segmentHits loop) (List.range (s.segmentCounts loop))
    { sieve := sieve2, pending := initPending (fun _ => 0), pos := 0 } hp0
    (fun j hj => (hhits j (List.mem_range.1 hj)).1)
  obtain ⟨sieve3, hT, hbits⟩ := termPending_spec m _ hp1
  have hrun : runSieveMark m s loop
      = some { s with sieve := sieve3, offsets := offsets2 } := by
    unfold runSieveMark
    simp only
    have hA' : alignLoop m 2 m.startingPrimeIndex
        (s.offsets, fun a => if a < m.sieveSize / 8 then 0 else s.sieve a)
        = some (m.primorialNumber + m.primorialNumber % 2, st1) := hA
    rw [hA']
    simp only
    rw [hM]
    simp only
    rw [hT]
  refine ⟨_, hrun, rfl, rfl, ?_, ?_⟩
  · intro i f h1 h2 hf
    obtain ⟨hlt, hdvd⟩ := hinv i f h1 h2 hf
    have hlo := hmulle _ _ h1
    have hhi := hmulle _ _ (show i + 1 ≤ m.sieveEnd from h2)
    rw [Nat.add_mul, Nat.one_mul] at hhi
    obtain ⟨t, ht1, ht2, ht3⟩ := fin (i * m.primeTupleOffset.length + f) (by omega) (by omega)
    rw [hprime i f h1 h2 hf] at ht1 ht2 ht3
    have hnew : offsets2 (i * m.primeTupleOffset.length + f)
        = s.offsets (i * m.primeTupleOffset.length + f) + t * m.primes.getD i 0 - m.sieveSize :=
      ht1
    constructor
    · show offsets2 (i * m.primeTupleOffset.length + f) < _
      rw [hnew]
      cases t with
      | zero => simp only [Nat.zero_mul, Nat.add_zero]; omega
      | succ t =>
        have := ht3 t (by omega)
        have he : s.offsets (i * m.primeTupleOffset.length + f) + (t + 1) * m.primes.getD i 0
            = s.offsets (i * m.primeTupleOffset.length + f) + t * m.primes.getD i 0
              + m.primes.getD i 0 := by
          rw [Nat.add_mul]; omega
        rw [he]
        omega
    · show _ ∣ (m.primorial : Int) * (((loop + 1) * m.sieveSize
          + offsets2 (i * m.primeTupleOffset.length + f) : Nat) : Int) + cand + _
      have hd : ((m.primes.getD i 0 : Nat) : Int) ∣ (m.primorial : Int) *
          ((loop * m.sieveSize + s.offsets (i * m.primeTupleOffset.length + f) : Nat) : Int)
          + (cand + (m.offsetSum f : Int)) := by
        rw [← add_assoc]; exact hdvd
      have := dvd_shift (m.primes.getD i 0) m.primorial _
        ((loop + 1) * m.sieveSize + offsets2 (i * m.primeTupleOffset.length + f)) t _ hd
        (by rw [hnew, Nat.add_mul]; omega)
      rw [← add_assoc] at this
      exact this
  · intro idx hidx hset
    have hc : Covered ((List.range (s.segmentCounts loop)).foldl
        (fun ps i => addToPending m ps (s.segmentHits loop i))
        { sieve := sieve2, pending := initPending (fun _ => 0), pos := 0 }) idx :=
      (hbits idx).1 hset
    rcases hc1 idx hc with h | ⟨j, hj, he⟩
    · have h2 : sieveBit sieve2 idx = true := (hc0 idx).1 h
      rcases cov idx h2 with h0 | ⟨slot, hl, hh, hr⟩
      · have := memset_clear m h3 s.sieve idx hidx
        rw [this] at h0
        cases h0
      · obtain ⟨i, f, rfl, h1, h2, hf⟩ := slot_decompose _ _ _ _ hl hh
        rw [hprime i f h1 h2 hf] at hr
        obtain ⟨t, ht, _⟩ := hr
        obtain ⟨hlt, hdvd⟩ := hinv i f h1 h2 hf
        refine ⟨i, f, h1, getD_pos_lt_length _ _ (by omega), hf, ?_⟩
        have hd : ((m.primes.getD i 0 : Nat) : Int) ∣ (m.primorial : Int) *
            ((loop * m.sieveSize + s.offsets (i * m.primeTupleOffset.length + f) : Nat) : Int)
            + (cand + (m.offsetSum f : Int)) := by
          rw [← add_assoc]; exact hdvd
        have := dvd_shift (m.primes.getD i 0) m.primorial _ (loop * m.sieveSize + idx) t _ hd
          (by rw [ht]; omega)
        rw [← add_assoc] at this
        exact this
    · rw [← he]
      exact (hhits j (List.mem_range.1 hj)).2

theorem runSieveLoops_spec (m : Miner) (cand : Int) (s : SieveInstance)
    (h3 : 3 ≤ m.sieveBits) (h6 : m.primeTupleOffset.length = 6 → m.sparseLimit % 2 = 0)
    (hb : ∀ i, m.primorialNumber ≤ i → i < m.sieveEnd →
      m.sieveSize + m.primes.getD i 0 ≤ m.sieveBound)
    (hinv : SegInv m cand 0 s.offsets) (hhits : HitsOK m cand s) :
    ∀ loop, loop < m.maxIter →
      ∃ s1, runSieveLoops m s loop = some s1 ∧ s1.segmentHits = s.segmentHits ∧
        s1.segmentCounts = s.segmentCounts ∧ SegInv m cand (loop + 1) s1.offsets ∧
        ∀ idx, idx < m.sieveSize → sieveBit s1.sieve idx = true →
          HasWitness m cand loop idx := by
  intro loop
  induction loop with
  | zero =>
    intro hl
    unfold runSieveLoops
    rw [if_pos hl]
    exact runSieveMark_spec m cand s 0 h3 h6 hb hinv (fun j hj => hhits 0 j hl hj)
  | succ loop ih =>
    intro hl
    obtain ⟨s1, h1, hh, hc, hi, _⟩ := ih (by omega)
    unfold runSieveLoops
    rw [h1]
    simp only
    rw [if_pos hl]
    obtain ⟨s2, h2, hh2, hc2, hi2, hw2⟩ := runSieveMark_spec m cand s1 (loop + 1) h3 h6 hb hi
      (fun j hj => by
        rw [hh]
        rw [hc] at hj
        exact hhits (loop + 1) j hl hj)
    exact ⟨s2, h2, hh2.trans hh, hc2.trans hc, hi2, hw2⟩

/-- C7: sieve soundness. Let `cand` be the first candidate of the sieve worker. Assume
the mod-phase invariant on every offset cell the sieve reads (the cell of prime index `i`
and family `f` is below `primes[i]`, and `primes[i]` divides
`P_k * offset + cand + (o[1] + ... + o[f])`), segment hits that are below `sieveSize` and
have a witness, a bitmap of at least one byte (`sieveBits ≥ 3`), an even `sparseLimit`
for six-member patterns, `sieveSize + primes[i]` within the range of the 32-bit
comparison, and `loop < maxIter`. Then `_runSieve` finishes marking segment `loop`, and
every set bit `idx < sieveSize` of the bitmap has a prime `primes[i]` of the table with
`i ≥ primorialNumber` and a family `f` such that `primes[i]` divides
`P_k * (loop * sieveSize + idx) + cand + (o[1] + ... + o[f])`. Hence, when the table
primes are at least 2 and smaller than `cand`, no index whose candidate starts a
constellation of `L` primes is marked. -/
theorem C7_sieve_soundness (m : Miner) (cand : Int) (s : SieveInstance) (loop : Nat)
    (h3 : 3 ≤ m.sieveBits) (h6 : m.primeTupleOffset.length = 6 → m.sparseLimit % 2 = 0)
    (hb : ∀ i, m.primorialNumber ≤ i → i < m.sieveEnd →
      m.sieveSize + m.primes.getD i 0 ≤ m.sieveBound)
    (hp2 : ∀ q ∈ m.primes, 2 ≤ q) (hbig : ∀ q ∈ m.primes, (q : Int) < cand)
    (hinv : ∀ i f, m.primorialNumber ≤ i → i < m.sieveEnd → f < m.primeTupleOffset.length →
      GoodIndex m.primorial (m.primes.getD i 0) (cand + (m.offsetSum f : Int))
        (s.offsets (i * m.primeTupleOffset.length + f)))
    (hhits : HitsOK m cand s) (hloop : loop < m.maxIter) :
    ∃ s1, runSieveLoops m s loop = some s1 ∧
      (∀ idx, idx < m.sieveSize → sieveBit s1.sieve idx = true →
        ∃ i f, m.primorialNumber ≤ i ∧ i < m.primes.length ∧ f < m.primeTupleOffset.length ∧
          ((m.primes.getD i 0 : Nat) : Int) ∣
            (m.primorial : Int) * ((loop * m.sieveSize + idx : Nat) : Int)
              + cand + (m.offsetSum f : Int)) ∧
      (∀ idx, idx < m.sieveSize →
        (∀ f, f < m.primeTupleOffset.length →
          Nat.Prime ((m.primorial : Int) * ((loop * m.sieveSize + idx : Nat) : Int)
            + cand + (m.offsetSum f : Int)).natAbs) →
        sieveBit s1.sieve idx = false) := by
  have hinv0 : SegInv m cand 0 s.offsets := by
    intro i f h1 h2 hf
    obtain ⟨hlt, hdvd⟩ := hinv i f h1 h2 hf
    refine ⟨hlt, ?_⟩
    rw [Nat.zero_mul, Nat.zero_add, add_assoc]
    exact hdvd
  obtain ⟨s1, h1, _, _, _, hw⟩ := runSieveLoops_spec m cand s h3 h6 hb hinv0 hhits loop hloop
  refine ⟨s1, h1, hw, ?_⟩
  intro idx hidx hprime
  cases hbit : sieveBit s1.sieve idx with
  | false => rfl
  | true =>
    exfalso
    obtain ⟨i, f, _, hi, hf, hdvd⟩ := hw idx hidx hbit
    have hmem := getD_mem_of_lt m.primes i hi
    have hq2 := hp2 _ hmem
    have hqc := hbig _ hmem
    have hpr := hprime f hf
    have hnat : m.primes.getD i 0 ∣ ((m.primorial : Int) * ((loop * m.sieveSize + idx : Nat) : Int)
        + cand + (m.offsetSum f : Int)).natAbs := Int.natCast_dvd.1 hdvd
    rcases (Nat.dvd_prime hpr).1 hnat with h | h
    · omega
    · have hnn : (0 : Int) ≤ (m.primorial : Int) * ((loop * m.sieveSize + idx : Nat) : Int) :=
        mul_nonneg (Int.natCast_nonneg _) (Int.natCast_nonneg _)
      have hos : (0 : Int) ≤ (m.offsetSum f : Int) := Int.natCast_nonneg _
      have hcast : ((m.primes.getD i 0 : Nat) : Int)
          = (m.primorial : Int) * ((loop * m.sieveSize + idx : Nat) : Int)
            + cand + (m.offsetSum f : Int) := by
        rw [h, Int.natAbs_of_nonneg (by omega)]
      omega

theorem C7_sieve_soundness_witness :
    ∃ st1 s1, updateRemainders exampleMiner (fun _ _ => false) 10000 117 3 24 zeroModState
        = Outcome.normal st1 ∧
      runSieveLoops exampleMiner { zeroSieve with offsets := (st1.sieves 0).offsets } 3
        = some s1 ∧
      sieveBit s1.sieve 6 = false := by
  obtain ⟨hterm, hspec⟩ := updateRemainders_spec exampleMiner (fun _ _ => false) 10000 117 3 24
    zeroModState exampleMiner_tableInv exampleMiner_patternOK exampleMiner_offsetsOK (by decide)
    (by decide)
  obtain ⟨st1, hst1⟩ := hterm (by decide)
  have hgood := hspec st1 (Or.inl hst1)
  have hlen : (primeTable 100).length = 25 := by decide
  have hend : exampleMiner.sieveEnd = 24 := by decide
  have hS : exampleMiner.sieveSize = 64 := by decide
  have hP : exampleMiner.primorial = 30 := by decide
  have hB : exampleMiner.sieveBound = 2 ^ 31 := by decide
  have hpt : exampleMiner.primes = primeTable 100 := by simp only [exampleMiner]
  have hsmall : ∀ q ∈ exampleMiner.primes, q < 100 := by
    intro q hq
    rw [hpt] at hq
    exact ((mem_primeTable 100 (by norm_num) q).1 hq).2
  obtain ⟨s1, h1, _, h2⟩ := C7_sieve_soundness exampleMiner 10117
    { zeroSieve with offsets := (st1.sieves 0).offsets } 3 (by decide) (fun _ => by decide)
    (fun i _ hi => by
      rw [hend] at hi
      have := hsmall _ (getD_mem_of_lt exampleMiner.primes i
        (by rw [hpt, hlen]; omega))
      rw [hS, hB]
      omega)
    exampleMiner_tableInv.2.1
    (fun q hq => by
      have := hsmall q hq
      omega)
    (fun i f hk hi hf => by
      rw [hend] at hi
      have hg := hgood i hk hi hk hi 0 (by decide) f hf
      unfold DenseGood at hg
      rw [offsetToFirst_zero, Nat.mul_comm] at hg
      have e : ((10000 : Int) + 117 + 0 + (exampleMiner.offsetSum f : Int))
          = 10117 + (exampleMiner.offsetSum f : Int) := by ring
      rw [e] at hg
      exact hg)
    (fun loop j _ hj => absurd hj (Nat.not_lt_zero _))
    (by decide)
  refine ⟨st1, s1, hst1, h1, h2 6 (by decide) ?_⟩
  intro f hf
  rw [hP, hS]
  have hf6 : f < 6 := hf
  have hos : exampleMiner.offsetSum f
      = Finset.sum (Finset.range f) (fun t => ([0, 4, 2, 4, 2, 4] : List Nat).getD (t + 1) 0) :=
    rfl
  rw [hos]
  interval_cases f <;> simp [Finset.sum_range_succ] <;> norm_num

/-! ## Sieve worker: candidate extraction -/

theorem sorted_ext (l1 l2 : List Nat) (h1 : l1.Pairwise (· < ·)) (h2 : l2.Pairwise (· < ·))
    (h : ∀ a, a ∈ l1 ↔ a ∈ l2) : l1 = l2 := by
  have n1 : l1.Nodup := h1.imp (fun h => Nat.ne_of_lt h)
  have n2 : l2.Nodup := h2.imp (fun h => Nat.ne_of_lt h)
  exact List.eq_of_perm_of_sorted ((List.perm_ext_iff_of_nodup n1 n2).2 h) h1 h2

theorem word64_lt (sieve : Nat → Nat) : ∀ n base, word64 sieve base n < 256 ^ n := by
  intro n
  induction n with
  | zero => intro base; unfold word64; norm_num
  | succ n ih =>
    intro base
    unfold word64
    have h1 := ih (base + 1)
    have h2 : sieve base % 256 < 256 := Nat.mod_lt _ (by norm_num)
    rw [Nat.pow_succ]
    omega

theorem word64_testBit (sieve : Nat → Nat) :
    ∀ n base k, k < 8 * n →
      (word64 sieve base n).testBit k = (sieve (base + k / 8)).testBit (k % 8) := by
  intro n
  induction n with
  | zero => intro base k hk; omega
  | succ n ih =>
    intro base k hk
    unfold word64
    have h2 : sieve base % 256 < 2 ^ 8 := Nat.mod_lt _ (by norm_num)
    have he : sieve base % 256 + 256 * word64 sieve (base + 1) n
        = 2 ^ 8 * word64 sieve (base + 1) n + sieve base % 256 := by omega
    rw [he, Nat.testBit_mul_pow_two_add _ h2]
    by_cases hk8 : k < 8
    · rw [if_pos hk8]
      have h256 : (256 : Nat) = 2 ^ 8 := by norm_num
      rw [h256, Nat.testBit_mod_two_pow]
      have h0 : k / 8 = 0 := by omega
      have h1 : k % 8 = k := by omega
      rw [h0, h1, Nat.add_zero]
      simp [hk8]
    · rw [if_neg hk8, ih (base + 1) (k - 8) (by omega)]
      have h0 : base + 1 + (k - 8) / 8 = base + k / 8 := by omega
      have h1 : (k - 8) % 8 = k % 8 := by omega
      rw [h0, h1]

theorem sieve64_bit (sieve : Nat → Nat) (b k : Nat) (hk : k < 64) :
    (2 ^ 64 - 1 - sieve64 sieve b).testBit k = !sieveBit sieve (b * 64 + k) := by
  have hlt : sieve64 sieve b < 2 ^ 64 := by
    have := word64_lt sieve 8 (8 * b)
    unfold sieve64
    have h : (256 : Nat) ^ 8 = 2 ^ 64 := by norm_num
    omega
  have he : 2 ^ 64 - 1 - sieve64 sieve b = 2 ^ 64 - (sieve64 sieve b + 1) := by omega
  rw [he, Nat.testBit_two_pow_sub_succ hlt]
  unfold sieve64 sieveBit
  rw [word64_testBit sieve 8 (8 * b) k (by omega)]
  have h0 : 8 * b + k / 8 = (b * 64 + k) / 8 := by omega
  have h1 : k % 8 = (b * 64 + k) % 8 := by omega
  rw [h0, h1]
  simp [hk]

theorem sieve64_lt (sieve : Nat → Nat) (b : Nat) : 2 ^ 64 - 1 - sieve64 sieve b < 2 ^ 64 := by
  omega

theorem ctzAux_spec : ∀ (n x : Nat), x ≠ 0 → x < 2 ^ n →
    ctzAux n x < n ∧ x.testBit (ctzAux n x) = true ∧
    (∀ k, k < ctzAux n x → x.testBit k = false) ∧
    ∀ k, (x &&& (x - 1)).testBit k = (x.testBit k && decide (k ≠ ctzAux n x)) := by
  intro n
  induction n with
  | zero =>
    intro x h0 hlt
    simp at hlt
    omega
  | succ n ih =>
    intro x h0 hlt
    unfold ctzAux
    by_cases hodd : x % 2 = 1
    · rw [if_pos hodd]
      refine ⟨by omega, ?_, fun k hk => by omega, ?_⟩
      · rw [Nat.testBit_zero]
        exact decide_eq_true hodd
      · intro k
        rw [Nat.testBit_and]
        cases k with
        | zero =>
          rw [Nat.testBit_zero, Nat.testBit_zero]
          have : (x - 1) % 2 = 0 := by omega
          simp [this]
        | succ k =>
          rw [Nat.testBit_succ, Nat.testBit_succ]
          have : (x - 1) / 2 = x / 2 := by omega
          rw [this]
          simp
    · rw [if_neg hodd]
      have hy0 : x / 2 ≠ 0 := by omega
      have hylt : x / 2 < 2 ^ n := by
        rw [Nat.pow_succ] at hlt
        omega
      obtain ⟨a, b, c, d⟩ := ih (x / 2) hy0 hylt
      refine ⟨by omega, ?_, ?_, ?_⟩
      · rw [Nat.add_comm, Nat.testBit_succ]
        exact b
      · intro k hk
        cases k with
        | zero =>
          rw [Nat.testBit_zero]
          exact decide_eq_false hodd
        | succ k =>
          rw [Nat.testBit_succ]
          exact c k (by omega)
      · intro k
        cases k with
        | zero =>
          rw [Nat.testBit_and, Nat.testBit_zero]
          simp [hodd]
        | succ k =>
          rw [Nat.testBit_succ, Nat.testBit_succ]
          have h1 : (x &&& (x - 1)) / 2 = (x / 2) &&& (x / 2 - 1) := by
            apply Nat.eq_of_testBit_eq
            intro i
            rw [← Nat.testBit_succ, Nat.testBit_and, Nat.testBit_and, Nat.testBit_succ,
              Nat.testBit_succ]
            have : (x - 1) / 2 = x / 2 - 1 := by omega
            rw [this]
          rw [h1, d k]
          congr 1
          apply decide_eq_decide.2
          omega

theorem allEntries_append (a b : List TestWork) :
    allEntries (a ++ b) = allEntries a ++ allEntries b := by
  induction a with
  | nil => rfl
  | cons j rest ih =>
    show j.entries ++ allEntries (rest ++ b) = j.entries ++ allEntries rest ++ allEntries b
    rw [ih, List.append_assoc]

theorem entries_push (w : TestWork) (i : Nat) :
    ({ w with indexes := Function.update w.indexes w.n_indexes i,
              n_indexes := w.n_indexes + 1 } : TestWork).entries = w.entries ++ [i] := by
  unfold TestWork.entries
  simp only
  rw [List.range_succ, List.map_append, List.map_singleton, Function.update_same]
  congr 1
  apply List.map_congr_left
  intro a ha
  rw [Function.update_noteq (Nat.ne_of_lt (List.mem_range.1 ha))]

theorem extractWhile_spec (b : Nat) (pushed0 : List TestWork) (out0 loop oid : Nat)
    (hb : b * 64 + 64 ≤ 2 ^ 32) :
    ∀ (fuel sb lo : Nat) (st : ExtractState) (l : List Nat),
      (∀ k, sb.testBit k = true → lo ≤ k ∧ k < 64) → sb < 2 ^ 64 → 65 ≤ fuel + lo →
      lo ≤ 64 → Emitted pushed0 out0 loop oid st l →
      ∃ st1 l1, extractWhile (fun _ => false) b fuel sb st = some st1 ∧
        Emitted pushed0 out0 loop oid st1 (l ++ l1) ∧ l1.Pairwise (· < ·) ∧
        ∀ x, x ∈ l1 ↔ ∃ k, sb.testBit k = true ∧ x = b * 64 + k := by
  intro fuel
  induction fuel with
  | zero =>
    intro sb lo st l hbits hsb hfu hlo64 _
    omega
  | succ fuel ih =>
    intro sb lo st l hbits hsb hfu hlo64 hem
    unfold extractWhile
    by_cases hne : sb ≠ 0
    · rw [if_pos hne]
      obtain ⟨c1, c2, c3, c4⟩ := ctzAux_spec 64 sb hne hsb
      have hc : ctzll sb = ctzAux 64 sb := rfl
      have hlo := hbits _ c2
      obtain ⟨jobs, e1, e2, e3, e4, e5, e6, e7, e8⟩ := hem
      have hi : ((b * 64) % 2 ^ 32 + ctzll sb % 2 ^ 32) % 2 ^ 32 = b * 64 + ctzAux 64 sb := by
        rw [hc, Nat.mod_eq_of_lt (show b * 64 < 2 ^ 32 by omega),
          Nat.mod_eq_of_lt (show ctzAux 64 sb < 2 ^ 32 by omega),
          Nat.mod_eq_of_lt (by omega)]
      have hn : (st.w.n_indexes + 1) % 2 ^ 32 = st.w.n_indexes + 1 := by
        have h64 : WORK_INDEXES = 64 := rfl
        exact Nat.mod_eq_of_lt (by omega)
      have hsb1 : sb &&& (sb - 1) < 2 ^ 64 := Nat.lt_of_le_of_lt Nat.and_le_left hsb
      have hbits1 : ∀ k, (sb &&& (sb - 1)).testBit k = true →
          ctzAux 64 sb + 1 ≤ k ∧ k < 64 := by
        intro k hk
        rw [c4 k, Bool.and_eq_true, decide_eq_true_eq] at hk
        have h1 := hbits k hk.1
        have h2 : ¬ k < ctzAux 64 sb := fun h => by
          have := c3 k h
          rw [hk.1] at this
          cases this
        omega
      simp only [hi, hn]
      have hent := entries_push st.w (b * 64 + ctzAux 64 sb)
      -- membership of the emitted list
      have hmem : ∀ l1 : List Nat,
          (∀ x, x ∈ l1 ↔ ∃ k, (sb &&& (sb - 1)).testBit k = true ∧ x = b * 64 + k) →
          ∀ x, x ∈ (b * 64 + ctzAux 64 sb) :: l1 ↔ ∃ k, sb.testBit k = true ∧ x = b * 64 + k := by
        intro l1 h x
        rw [List.mem_cons, h x]
        constructor
        · rintro (rfl | ⟨k, hk, rfl⟩)
          · exact ⟨_, c2, rfl⟩
          · rw [c4 k, Bool.and_eq_true] at hk
            exact ⟨k, hk.1, rfl⟩
        · rintro ⟨k, hk, rfl⟩
          by_cases hkc : k = ctzAux 64 sb
          · left; rw [hkc]
          · right
            refine ⟨k, ?_, rfl⟩
            rw [c4 k, hk]
            simpa using hkc
      have hsorted : ∀ l1 : List Nat, l1.Pairwise (· < ·) →
          (∀ x, x ∈ l1 ↔ ∃ k, (sb &&& (sb - 1)).testBit k = true ∧ x = b * 64 + k) →
          ((b * 64 + ctzAux 64 sb) :: l1).Pairwise (· < ·) := by
        intro l1 hp h
        refine List.pairwise_cons.2 ⟨?_, hp⟩
        intro x hx
        obtain ⟨k, hk, rfl⟩ := (h x).1 hx
        have := hbits1 k hk
        omega
      by_cases hfull : st.w.n_indexes + 1 = WORK_INDEXES
      · rw [if_pos hfull]
        simp only [Bool.false_eq_true, if_false]
        obtain ⟨st1, l1, r1, r2, r3, r4⟩ := ih (sb &&& (sb - 1)) (ctzAux 64 sb + 1)
          { st with
            w := { loop := st.w.loop, offsetId := st.w.offsetId, n_indexes := 0,
                   indexes := Function.update st.w.indexes st.w.n_indexes
                     (b * 64 + ctzAux 64 sb) },
            pushed := st.pushed ++
              [{ st.w with indexes := Function.update st.w.indexes st.w.n_indexes
                             (b * 64 + ctzAux 64 sb),
                           n_indexes := st.w.n_indexes + 1 }],
            outstandingTests := st.outstandingTests + 1 }
          (l ++ [b * 64 + ctzAux 64 sb]) hbits1 hsb1 (by omega) (by omega)
          ⟨jobs ++ [{ st.w with indexes := Function.update st.w.indexes st.w.n_indexes
                                  (b * 64 + ctzAux 64 sb),
                                n_indexes := st.w.n_indexes + 1 }],
            by simp only; rw [e1, List.append_assoc],
            by
              intro j hj
              rcases List.mem_append.1 hj with h | h
              · exact e2 j h
              · rw [List.mem_singleton] at h
                rw [h]
                exact ⟨hfull, e4, e5⟩,
            (show (0 : Nat) < WORK_INDEXES by decide), e4, e5,
            by simp only; rw [e6, List.length_append, List.length_singleton]; omega,
            e7,
            by
              rw [allEntries_append]
              show (allEntries jobs ++ (_ ++ [])) ++ [] = _
              rw [List.append_nil, List.append_nil, hent, ← List.append_assoc, e8]⟩
        refine ⟨st1, (b * 64 + ctzAux 64 sb) :: l1, r1, ?_, hsorted l1 r3 r4, hmem l1 r4⟩
        rw [List.append_assoc] at r2
        exact r2
      · rw [if_neg hfull]
        obtain ⟨st1, l1, r1, r2, r3, r4⟩ := ih (sb &&& (sb - 1)) (ctzAux 64 sb + 1)
          { st with
            w := { st.w with indexes := Function.update st.w.indexes st.w.n_indexes
                               (b * 64 + ctzAux 64 sb),
                             n_indexes := st.w.n_indexes + 1 } }
          (l ++ [b * 64 + ctzAux 64 sb]) hbits1 hsb1 (by omega) (by omega)
          ⟨jobs, e1, e2, by
              have h64 : WORK_INDEXES = 64 := rfl
              show st.w.n_indexes + 1 < WORK_INDEXES
              omega, e4, e5, e6, e7, by
              show allEntries jobs ++ _ = _
              rw [hent, ← List.append_assoc, e8]⟩
        refine ⟨st1, (b * 64 + ctzAux 64 sb) :: l1, r1, ?_, hsorted l1 r3 r4, hmem l1 r4⟩
        rw [List.append_assoc] at r2
        exact r2
    · rw [if_neg hne]
      have hz : sb = 0 := by
        by_contra h
        exact hne h
      refine ⟨st, [], rfl, by rw [List.append_nil]; exact hem, List.Pairwise.nil, ?_⟩
      intro x
      rw [hz]
      simp

theorem extractWords_spec (sieve : Nat → Nat) (pushed0 : List TestWork) (out0 loop oid : Nat) :
    ∀ (n b0 : Nat) (st : ExtractState) (l : List Nat), (b0 + n) * 64 ≤ 2 ^ 32 →
      Emitted pushed0 out0 loop oid st l →
      ∃ st1 l1, extractWords (fun _ => false) sieve (List.range' b0 n) st = some st1 ∧
        Emitted pushed0 out0 loop oid st1 (l ++ l1) ∧ l1.Pairwise (· < ·) ∧
        ∀ x, x ∈ l1 ↔ (b0 * 64 ≤ x ∧ x < (b0 + n) * 64 ∧ sieveBit sieve x = false) := by
  intro n
  induction n with
  | zero =>
    intro b0 st l _ hem
    refine ⟨st, [], rfl, by rw [List.append_nil]; exact hem, List.Pairwise.nil, ?_⟩
    intro x
    simp only [List.not_mem_nil, false_iff]
    omega
  | succ n ih =>
    intro b0 st l hb hem
    rw [List.range'_succ]
    unfold extractWords
    have hstop : st.stop = false := by
      obtain ⟨_, _, _, _, _, _, _, h, _⟩ := hem
      exact h
    rw [hstop]
    simp only [Bool.false_eq_true, if_false]
    have hsb := sieve64_lt sieve b0
    obtain ⟨st1, l1, r1, r2, r3, r4⟩ := extractWhile_spec b0 pushed0 out0 loop oid (by omega) 65
      (2 ^ 64 - 1 - sieve64 sieve b0) 0 st l
      (fun k hk => by
        refine ⟨Nat.zero_le _, ?_⟩
        by_contra hge
        have h1 : 2 ^ 64 - 1 - sieve64 sieve b0 < 2 ^ k :=
          Nat.lt_of_lt_of_le hsb (Nat.pow_le_pow_right (by norm_num) (by omega))
        rw [Nat.testBit_lt_two_pow h1] at hk
        cases hk)
      hsb (by omega) (by omega) hem
    rw [r1]
    simp only
    obtain ⟨st2, l2, q1, q2, q3, q4⟩ := ih (b0 + 1) st1 (l ++ l1) (by omega) r2
    have hmem1 : ∀ x, x ∈ l1 ↔ (b0 * 64 ≤ x ∧ x < (b0 + 1) * 64 ∧ sieveBit sieve x = false) := by
      intro x
      rw [r4 x]
      constructor
      · rintro ⟨k, hk, rfl⟩
        have hk64 : k < 64 := by
          by_contra hge
          have h1 : 2 ^ 64 - 1 - sieve64 sieve b0 < 2 ^ k :=
            Nat.lt_of_lt_of_le hsb (Nat.pow_le_pow_right (by norm_num) (by omega))
          rw [Nat.testBit_lt_two_pow h1] at hk
          cases hk
        rw [sieve64_bit sieve b0 k hk64] at hk
        refine ⟨by omega, by omega, ?_⟩
        simpa using hk
      · rintro ⟨h1, h2, h3⟩
        refine ⟨x - b0 * 64, ?_, by omega⟩
        rw [sieve64_bit sieve b0 _ (by omega)]
        have : b0 * 64 + (x - b0 * 64) = x := by omega
        rw [this, h3]
        rfl
    refine ⟨st2, l1 ++ l2, q1, by rw [← List.append_assoc]; exact q2, ?_, ?_⟩
    · refine List.pairwise_append.2 ⟨r3, q3, ?_⟩
      intro a ha c hc
      have h1 := (hmem1 a).1 ha
      have h2 := (q4 c).1 hc
      omega
    · intro x
      rw [List.mem_append, hmem1 x, q4 x]
      constructor
      · rintro (⟨h1, h2, h3⟩ | ⟨h1, h2, h3⟩)
        · exact ⟨h1, by omega, h3⟩
        · exact ⟨by omega, by omega, h3⟩
      · rintro ⟨h1, h2, h3⟩
        by_cases hx : x < (b0 + 1) * 64
        · exact Or.inl ⟨h1, hx, h3⟩
        · exact Or.inr ⟨by omega, by omega, h3⟩

theorem sieveWords_mul (m : Miner) (h6 : 6 ≤ m.sieveBits) : m.sieveWords * 64 = m.sieveSize := by
  have hS : m.sieveSize = 64 * 2 ^ (m.sieveBits - 6) := by
    unfold Miner.sieveSize
    rw [Nat.shiftLeft_eq, Nat.one_mul]
    have : m.sieveBits = 6 + (m.sieveBits - 6) := by omega
    conv_lhs => rw [this, Nat.pow_add]
  unfold Miner.sieveWords
  omega

theorem sieveSize_le (m : Miner) (h32 : m.sieveBits ≤ 32) : m.sieveSize ≤ 2 ^ 32 := by
  unfold Miner.sieveSize
  rw [Nat.shiftLeft_eq, Nat.one_mul]
  exact Nat.pow_le_pow_right (by norm_num) h32

theorem extractSegment_spec (m : Miner) (sieve : Nat → Nat) (loop offsetId : Nat)
    (indexes0 : Nat → Nat) (pushed0 : List TestWork) (out0 : Nat)
    (h6 : 6 ≤ m.sieveBits) (h32 : m.sieveBits ≤ 32) (hid : offsetId < 2 ^ 32) :
    ∃ jobs, extractSegment m (fun _ => false) sieve loop offsetId indexes0 pushed0 out0
        = some (pushed0 ++ jobs, out0 + jobs.length, false) ∧
      allEntries jobs = (List.range m.sieveSize).filter (fun idx => !sieveBit sieve idx) ∧
      (∀ j ∈ jobs.dropLast, j.n_indexes = WORK_INDEXES) ∧
      (∀ j ∈ jobs, 1 ≤ j.n_indexes ∧ j.n_indexes ≤ WORK_INDEXES ∧ j.loop = loop ∧
        j.offsetId = offsetId) := by
  have hw := sieveWords_mul m h6
  have hS := sieveSize_le m h32
  obtain ⟨st, l, r1, ⟨jobs, e1, e2, e3, e4, e5, e6, e7, e8⟩, r3, r4⟩ :=
    extractWords_spec sieve pushed0 out0 loop offsetId m.sieveWords 0
      { w := { loop := loop, offsetId := offsetId % 2 ^ 32, n_indexes := 0, indexes := indexes0 },
        pushed := pushed0, outstandingTests := out0, stop := false } []
      (by omega)
      ⟨[], by simp, by simp, (show (0 : Nat) < WORK_INDEXES by decide), rfl,
        Nat.mod_eq_of_lt hid, by simp, rfl, by
        simp [allEntries, TestWork.entries]⟩
  rw [← List.range_eq_range'] at r1
  have hl : l = (List.range m.sieveSize).filter (fun idx => !sieveBit sieve idx) := by
    apply sorted_ext _ _ r3 ((List.pairwise_lt_range _).filter _)
    intro x
    rw [r4 x, List.mem_filter, List.mem_range, Nat.zero_add, hw]
    constructor
    · rintro ⟨_, h2, h3⟩
      exact ⟨h2, by rw [h3]; rfl⟩
    · rintro ⟨h2, h3⟩
      refine ⟨by omega, h2, ?_⟩
      simpa using h3
  rw [List.nil_append] at e8
  have h64 : WORK_INDEXES = 64 := rfl
  unfold extractSegment
  rw [r1]
  simp only [Bool.false_eq_true, if_false]
  by_cases hn : st.w.n_indexes > 0
  · rw [if_pos hn]
    refine ⟨jobs ++ [st.w], ?_, ?_, ?_, ?_⟩
    · rw [e1, e6, List.append_assoc, List.length_append, List.length_singleton, Nat.add_assoc]
    · rw [allEntries_append]
      show allEntries jobs ++ (st.w.entries ++ []) = _
      rw [List.append_nil, e8, hl]
    · rw [List.dropLast_concat]
      exact fun j hj => (e2 j hj).1
    · intro j hj
      rcases List.mem_append.1 hj with h | h
      · obtain ⟨a, b, c⟩ := e2 j h
        exact ⟨by omega, by omega, b, c⟩
      · rw [List.mem_singleton] at h
        rw [h]
        exact ⟨hn, by omega, e4, e5⟩
  · rw [if_neg hn]
    have hz : st.w.n_indexes = 0 := by omega
    refine ⟨jobs, ?_, ?_, ?_, ?_⟩
    · rw [e1, e6]
    · have : st.w.entries = [] := by
        unfold TestWork.entries
        rw [hz]
        rfl
      rw [this, List.append_nil] at e8
      rw [e8, hl]
    · exact fun j hj => (e2 j (List.mem_of_mem_dropLast hj)).1
    · intro j hj
      obtain ⟨a, b, c⟩ := e2 j hj
      exact ⟨by omega, by omega, b, c⟩

/-- C8 (as stated, refuted): with `sieveBits = 5` the segment has 32 positions and
`sieveWords = 32/64 = 0`, so the extraction loop does not run: for the all-clear bitmap and
an unchanged block height no job is pushed, while every position of `[0, 32)` has its bit
clear. -/
theorem C8_candidate_extraction_counterexample :
    ∃ jobs out, extractSegment smallSieveMiner (fun _ => false) (fun _ => 0) 0 0 (fun _ => 0) [] 0
        = some (jobs, out, false) ∧
      allEntries jobs
        ≠ (List.range smallSieveMiner.sieveSize).filter (fun idx => !sieveBit (fun _ => 0) idx) := by
  refine ⟨[], 0, rfl, ?_⟩
  decide

/-- C8 (amended): let `6 ≤ sieveBits ≤ 30`, so that `sieveSize = 1 << sieveBits` is a
multiple of 64 and the shift of the `int` 1 has its mathematical value (from
`sieveBits = 31` on it does not). When the block height does not change, the extraction
of `_runSieve` pushes jobs whose valid entries `indexes[0 .. n_indexes)`, taken one job
after the other, are exactly the strictly ascending list of the positions of
`[0, sieveSize)` whose bit is clear in the segment bitmap; every job but the last holds
`WORK_INDEXES = 64` indices, every job holds between 1 and 64 and carries the segment
number and the instance id, and `outstandingTests` grows by the number of jobs pushed. -/
theorem C8_candidate_extraction (m : Miner) (sieve : Nat → Nat) (loop offsetId : Nat)
    (indexes0 : Nat → Nat) (pushed0 : List TestWork) (outstandingTests0 : Nat)
    (h6 : 6 ≤ m.sieveBits) (h30 : m.sieveBits ≤ 30) (hid : offsetId < 2 ^ 32) :
    ∃ jobs, extractSegment m (fun _ => false) sieve loop offsetId indexes0 pushed0
          outstandingTests0
        = some (pushed0 ++ jobs, outstandingTests0 + jobs.length, false) ∧
      allEntries jobs = (List.range m.sieveSize).filter (fun idx => !sieveBit sieve idx) ∧
      (allEntries jobs).Pairwise (· < ·) ∧
      (∀ j ∈ jobs.dropLast, j.n_indexes = WORK_INDEXES) ∧
      (∀ j ∈ jobs, 1 ≤ j.n_indexes ∧ j.n_indexes ≤ WORK_INDEXES ∧ j.loop = loop ∧
        j.offsetId = offsetId) := by
  obtain ⟨jobs, h1, h2, h3, h4⟩ := extractSegment_spec m sieve loop offsetId indexes0 pushed0
    outstandingTests0 h6 (by omega) hid
  refine ⟨jobs, h1, h2, ?_, h3, h4⟩
  rw [h2]
  exact (List.pairwise_lt_range _).filter _

theorem C8_candidate_extraction_witness :
    ∃ jobs, extractSegment exampleMiner (fun _ => false) (fun _ => 0) 2 1 (fun _ => 0) [] 0
        = some ([] ++ jobs, 0 + jobs.length, false) ∧
      allEntries jobs
        = (List.range exampleMiner.sieveSize).filter (fun idx => !sieveBit (fun _ => 0) idx) := by
  obtain ⟨jobs, h1, h2, _⟩ := C8_candidate_extraction exampleMiner (fun _ => 0) 2 1 (fun _ => 0)
    [] 0 (by decide) (by decide) (by norm_num)
  exact ⟨jobs, h1, h2⟩

/-! ## Verifier: candidate reconstruction -/

theorem diffToFirst_of_le (m : Miner) (w : Nat) (h64 : m.primorialOffsets.getD w 0 < 2 ^ 64)
    (hle : m.primorialOffsets.getD 0 0 ≤ m.primorialOffsets.getD w 0) :
    (m.primorialOffsetDiffToFirst w : Int)
      = (m.primorialOffsets.getD w 0 : Int) - (m.primorialOffsets.getD 0 0 : Int) := by
  unfold Miner.primorialOffsetDiffToFirst
  by_cases hw : w = 0
  · rw [if_pos hw, hw]
    simp
  · rw [if_neg hw]
    have h0 : m.primorialOffsets.getD 0 0 % 2 ^ 64 = m.primorialOffsets.getD 0 0 :=
      Nat.mod_eq_of_lt (by omega)
    rw [h0]
    have h1 : m.primorialOffsets.getD w 0 + 2 ^ 64 - m.primorialOffsets.getD 0 0
        = (m.primorialOffsets.getD w 0 - m.primorialOffsets.getD 0 0) + 2 ^ 64 := by omega
    rw [h1, Nat.add_mod_right, Nat.mod_eq_of_lt (by omega)]
    omega

theorem loop_no_wrap (m : Miner) (loop : Nat) (hloop : loop < m.maxIter)
    (hmax : m.maxIncrements < 2 ^ 64) : (loop * m.sieveSize) % 2 ^ 64 = loop * m.sieveSize := by
  have h1 : loop * m.sieveSize < m.maxIncrements := by
    unfold Miner.maxIter at hloop
    have h2 : (loop + 1) * m.sieveSize ≤ m.maxIncrements :=
      (Nat.le_div_iff_mul_le (sieveSize_pos m)).1 hloop
    have h3 := sieveSize_pos m
    rw [Nat.add_mul, Nat.one_mul] at h2
    omega
  exact Nat.mod_eq_of_lt (by omega)

/-- C9 (as stated, refuted): for the primorial `30`, target `10000` and the primorial
offsets `(97, 7)`, the candidate reconstructed for worker 1, segment 0 and index 0 is
`10000 + 117 + (2^64 - 90)`, whose remainder modulo 30 is 23 and not that of
`primorialOffsets[1] = 7`: the difference `primorialOffsets[1] - primorialOffsets[0]` has
wrapped in `uint64_t`. -/
theorem C9_candidate_reconstruction_counterexample :
    verifyCandidate descendingMiner
        (verifyPloop descendingMiner 10000 (verifyRemainderPrimorial 10000 30 97) 0 1) 0
      = 10000 + 117 + (2 ^ 64 - 90) ∧
    ¬ (verifyCandidate descendingMiner
        (verifyPloop descendingMiner 10000 (verifyRemainderPrimorial 10000 30 97) 0 1) 0
      ≡ ((descendingMiner.primorialOffsets.getD 1 0 : Nat) : Int) [ZMOD 30]) := by
  have hP : descendingMiner.primorial = 30 := by decide
  have hd : descendingMiner.primorialOffsetDiffToFirst 1 = 2 ^ 64 - 90 := by decide
  have hv : verifyRemainderPrimorial 10000 30 97 = 117 := by decide
  have hc : verifyCandidate descendingMiner
      (verifyPloop descendingMiner 10000 (verifyRemainderPrimorial 10000 30 97) 0 1) 0
      = 10000 + 117 + (2 ^ 64 - 90) := by
    unfold verifyCandidate verifyPloop
    rw [hP, hd, hv]
    norm_num
  refine ⟨hc, ?_⟩
  rw [hc]
  have h7 : descendingMiner.primorialOffsets.getD 1 0 = 7 := by decide
  rw [h7]
  unfold Int.ModEq
  norm_num

theorem remainder_dvd (t P : Int) : P ∣ t + (P - t % P) % P := by
  apply Int.dvd_of_emod_eq_zero
  rw [Int.add_emod, Int.emod_emod_of_dvd _ (dvd_refl P), ← Int.add_emod]
  have : t + (P - t % P) = P + (t - t % P) := by ring
  rw [this, Int.add_emod, Int.emod_self, Int.zero_add, Int.emod_emod_of_dvd _ (dvd_refl P)]
  have h := Int.emod_add_ediv t P
  have : t - t % P = P * (t / P) := by omega
  rw [this, Int.mul_emod_right]

/-- C9 (amended): for a job of segment `loop < maxIter` and sieve worker `w`, and every
index of it, the candidate `ploop + P_k * index` the verifier reconstructs equals
`P_k * (loop * sieveSize + index) + verifyTarget + verifyRemainderPrimorial
+ primorialOffsetDiffToFirst[w]`. With the `verifyRemainderPrimorial` stored by
`_processOneBlock` for a target `≥ 0` it is at least `verifyTarget`, and when
`primorialOffsets[0] ≤ primorialOffsets[w] < 2^64` it is congruent to
`primorialOffsets[w]` modulo `P_k`. -/
theorem C9_candidate_reconstruction (m : Miner) (verifyTarget : Int) (loop w index : Nat)
    (ht : 0 ≤ verifyTarget) (hP : 1 ≤ m.primorial) (hloop : loop < m.maxIter)
    (hmax : m.maxIncrements < 2 ^ 64) (h64 : m.primorialOffsets.getD w 0 < 2 ^ 64)
    (hasc : m.primorialOffsets.getD 0 0 ≤ m.primorialOffsets.getD w 0) :
    (∀ vrp : Int, verifyCandidate m (verifyPloop m verifyTarget vrp loop w) index
      = (m.primorial : Int) * ((loop * m.sieveSize + index : Nat) : Int) + verifyTarget + vrp
        + (m.primorialOffsetDiffToFirst w : Int)) ∧
    verifyTarget ≤ verifyCandidate m
      (verifyPloop m verifyTarget
        (verifyRemainderPrimorial verifyTarget (m.primorial : Int)
          (m.primorialOffsets.getD 0 0 : Int)) loop w) index ∧
    verifyCandidate m
      (verifyPloop m verifyTarget
        (verifyRemainderPrimorial verifyTarget (m.primorial : Int)
          (m.primorialOffsets.getD 0 0 : Int)) loop w) index
      ≡ (m.primorialOffsets.getD w 0 : Int) [ZMOD (m.primorial : Int)] := by
  have hPi : (1 : Int) ≤ (m.primorial : Int) := by exact_mod_cast hP
  have heq : ∀ vrp : Int, verifyCandidate m (verifyPloop m verifyTarget vrp loop w) index
      = (m.primorial : Int) * ((loop * m.sieveSize + index : Nat) : Int) + verifyTarget + vrp
        + (m.primorialOffsetDiffToFirst w : Int) := by
    intro vrp
    unfold verifyCandidate verifyPloop
    rw [loop_no_wrap m loop hloop hmax]
    push_cast
    ring
  have hv := verifyRemainderPrimorial_eq verifyTarget (m.primorial : Int)
    (m.primorialOffsets.getD 0 0 : Int) ht hPi
  have hr0 : 0 ≤ ((m.primorial : Int) - verifyTarget % (m.primorial : Int)) % (m.primorial : Int) :=
    Int.emod_nonneg _ (by omega)
  have hx : (0 : Int) ≤ (m.primorial : Int) * ((loop * m.sieveSize + index : Nat) : Int) :=
    mul_nonneg (Int.natCast_nonneg _) (Int.natCast_nonneg _)
  refine ⟨heq, ?_, ?_⟩
  · rw [heq, hv]
    have h1 : (0 : Int) ≤ (m.primorialOffsets.getD 0 0 : Int) := Int.natCast_nonneg _
    have h2 : (0 : Int) ≤ (m.primorialOffsetDiffToFirst w : Int) := Int.natCast_nonneg _
    omega
  · rw [heq, hv, diffToFirst_of_le m w h64 hasc]
    have hd := remainder_dvd verifyTarget (m.primorial : Int)
    have he : (m.primorial : Int) * ((loop * m.sieveSize + index : Nat) : Int) + verifyTarget
        + (((m.primorial : Int) - verifyTarget % (m.primorial : Int)) % (m.primorial : Int)
          + (m.primorialOffsets.getD 0 0 : Int))
        + ((m.primorialOffsets.getD w 0 : Int) - (m.primorialOffsets.getD 0 0 : Int))
        = (m.primorialOffsets.getD w 0 : Int)
          + ((m.primorial : Int) * ((loop * m.sieveSize + index : Nat) : Int)
            + (verifyTarget
              + ((m.primorial : Int) - verifyTarget % (m.primorial : Int)) % (m.primorial : Int))) := by
      ring
    rw [he]
    have hdvd : (m.primorial : Int) ∣ (m.primorial : Int) * ((loop * m.sieveSize + index : Nat) : Int)
        + (verifyTarget
          + ((m.primorial : Int) - verifyTarget % (m.primorial : Int)) % (m.primorial : Int)) :=
      dvd_add (dvd_mul_right _ _) hd
    have h0 := (Int.modEq_zero_iff_dvd.2 hdvd)
    have := Int.ModEq.add_left ((m.primorialOffsets.getD w 0 : Nat) : Int) h0
    simpa using this

theorem C9_candidate_reconstruction_witness :
    (10000 : Int) ≤ verifyCandidate exampleMiner
      (verifyPloop exampleMiner 10000
        (verifyRemainderPrimorial 10000 (exampleMiner.primorial : Int)
          (exampleMiner.primorialOffsets.getD 0 0 : Int)) 3 1) 6 ∧
    verifyCandidate exampleMiner
      (verifyPloop exampleMiner 10000
        (verifyRemainderPrimorial 10000 (exampleMiner.primorial : Int)
          (exampleMiner.primorialOffsets.getD 0 0 : Int)) 3 1) 6
      ≡ (exampleMiner.primorialOffsets.getD 1 0 : Int) [ZMOD (exampleMiner.primorial : Int)] :=
  (C9_candidate_reconstruction exampleMiner 10000 3 1 6 (by norm_num) (by decide) (by decide)
    (by decide) (by decide) (by decide)).2

/-! ## Verifier: the constellation walk -/

theorem takeWhile_range_length (p : Nat → Bool) :
    ∀ (n a c : Nat), (∀ f, a ≤ f → f < a + c → p f = true) → c ≤ n →
      (c < n → p (a + c) = false) → ((List.range' a n).takeWhile p).length = c := by
  intro n
  induction n with
  | zero =>
    intro a c _ hc _
    have : c = 0 := by omega
    rw [this]
    rfl
  | succ n ih =>
    intro a c hall hc hstop
    rw [List.range'_succ]
    cases c with
    | zero =>
      have h := hstop (by omega)
      rw [Nat.add_zero] at h
      rw [List.takeWhile_cons, h]
      rfl
    | succ c =>
      have h := hall a (Nat.le_refl _) (by omega)
      rw [List.takeWhile_cons, h]
      simp only [if_true, List.length_cons]
      rw [ih (a + 1) c (fun f h1 h2 => hall f (by omega) (by omega)) (by omega)
        (fun h1 => by
          have := hstop (by omega)
          have he : a + 1 + c = a + (c + 1) := by omega
          rw [he]
          exact this)]

theorem leadingPassing_eq (m : Miner) (n : Int) (c : Nat)
    (hall : ∀ f, f < c → isPrimeFermat (n + (m.offsetSum f : Int)) = true)
    (hc : c ≤ m.primeTupleOffset.length)
    (hstop : c < m.primeTupleOffset.length → isPrimeFermat (n + (m.offsetSum c : Int)) = false) :
    leadingPassing m n = c := by
  unfold leadingPassing
  rw [List.range_eq_range']
  exact takeWhile_range_length _ _ 0 c (fun f _ h => hall f (by omega)) hc
    (fun h => by rw [Nat.zero_add]; exact hstop h)

theorem leadingPassing_le (m : Miner) (n : Int) :
    leadingPassing m n ≤ m.primeTupleOffset.length := by
  unfold leadingPassing
  have h := (List.takeWhile_sublist (fun f => isPrimeFermat (n + (m.offsetSum f : Int)))
    (l := List.range m.primeTupleOffset.length)).length_le
  rw [List.length_range] at h
  exact h

theorem offsetSum_succ (m : Miner) (f : Nat) :
    m.offsetSum (f + 1) = m.offsetSum f + m.primeTupleOffset.getD (f + 1) 0 := by
  unfold Miner.offsetSum
  rw [Finset.sum_range_succ]

theorem walkLoop_solo (m : Miner) (n : Int) (hsolo : m.solo = true) :
    ∀ (k f0 : Nat) (s : WalkState), f0 + 1 + k = m.primeTupleOffset.length →
      s.candidate = n + (m.offsetSum f0 : Int) → s.tupleLength = (f0 + 1) % 256 →
      (∀ f, f < f0 + 1 → isPrimeFermat (n + (m.offsetSum f : Int)) = true) →
      (walkLoop m (List.range' (f0 + 1) k) s).tupleLength = leadingPassing m n % 256 := by
  intro k
  induction k with
  | zero =>
    intro f0 s hk _ ht hall
    rw [leadingPassing_eq m n (f0 + 1) hall (by omega) (fun h => by omega)]
    exact ht
  | succ k ih =>
    intro f0 s hk hc ht hall
    rw [List.range'_succ]
    unfold walkLoop
    simp only
    have hcand : s.candidate + (m.primeTupleOffset.getD (f0 + 1) 0 : Int)
        = n + (m.offsetSum (f0 + 1) : Int) := by
      rw [hc, offsetSum_succ]
      push_cast
      ring
    rw [hcand]
    by_cases hp : isPrimeFermat (n + (m.offsetSum (f0 + 1) : Int)) = true
    · rw [if_pos hp]
      apply ih (f0 + 1) _ (by omega) rfl
      · show (s.tupleLength + 1) % 256 = (f0 + 1 + 1) % 256
        rw [ht]
        omega
      · intro f hf
        by_cases hlt : f < f0 + 1
        · exact hall f hlt
        · have : f = f0 + 1 := by omega
          rw [this]
          exact hp
    · rw [if_neg hp, hsolo]
      simp only [Bool.not_true, Bool.false_eq_true, if_false]
      rw [leadingPassing_eq m n (f0 + 1) hall (by omega) (fun _ => by simpa using hp)]
      exact ht

theorem verifyWalk_solo (m : Miner) (firstTestDone : Bool) (verifyTarget n : Int)
    (hsolo : m.solo = true) (hL1 : 1 ≤ m.primeTupleOffset.length)
    (hfirst : firstTestDone = true → isPrimeFermat n = true) :
    (verifyWalk m firstTestDone verifyTarget n).tupleLength = leadingPassing m n % 256 ∧
    (verifyWalk m firstTestDone verifyTarget n).submit
      = (if isPrimeFermat n = true ∧ m.tupleLengthMin ≤ leadingPassing m n % 256 then
          some (leadingPassing m n % 256) else none) := by
  have h0 : m.offsetSum 0 = 0 := by
    unfold Miner.offsetSum
    simp
  have hn0 : n + (m.offsetSum 0 : Int) = n := by rw [h0]; simp
  unfold verifyWalk
  by_cases hp : isPrimeFermat n = true
  · have hcond : (!firstTestDone && !isPrimeFermat n) = false := by rw [hp]; simp
    rw [hcond]
    simp only [Bool.false_eq_true, if_false]
    have hw := walkLoop_solo m n hsolo (m.primeTupleOffset.length - 1) 0
      { candidate := n, tupleLength := 1, offsetSum := 0 } (by omega) hn0.symm rfl
      (fun f hf => by
        have : f = 0 := by omega
        rw [this, hn0]
        exact hp)
    rw [Nat.zero_add] at hw
    rw [hw, hsolo]
    refine ⟨rfl, ?_⟩
    by_cases hmin : m.tupleLengthMin ≤ leadingPassing m n % 256
    · have hd : decide (leadingPassing m n % 256 < m.tupleLengthMin) = false :=
        decide_eq_false (by omega)
      simp only [if_true, hd, Bool.false_eq_true, if_false]
      rw [if_pos ⟨hp, hmin⟩]
    · have hd : decide (leadingPassing m n % 256 < m.tupleLengthMin) = true :=
        decide_eq_true (by omega)
      simp only [if_true, hd]
      rw [if_neg (fun h => hmin h.2)]
  · have hf : firstTestDone = false := by
      cases firstTestDone with
      | false => rfl
      | true => exact absurd (hfirst rfl) hp
    have hpf : isPrimeFermat n = false := by simpa using hp
    have hcond : (!firstTestDone && !isPrimeFermat n) = true := by rw [hf, hpf]; rfl
    rw [hcond]
    simp only [if_true]
    have hl : leadingPassing m n = 0 :=
      leadingPassing_eq m n 0 (fun f hf => by omega) (by omega) (fun _ => by rw [hn0]; exact hpf)
    rw [hl]
    refine ⟨rfl, ?_⟩
    rw [if_neg (fun h => hp h.1)]

theorem longPattern_offsetSum (f : Nat) : longPatternMiner.offsetSum f = 0 := by
  unfold Miner.offsetSum
  apply Finset.sum_eq_zero
  intro t _
  show (List.replicate 257 0).getD (t + 1) 0 = 0
  rw [List.getD_eq_getElem?_getD, List.getElem?_replicate]
  split <;> rfl

/-- C10 (as stated, refuted): in solo mode with a pattern of 257 entries 0 and
`tupleLengthMin = 6`, all 257 members of the constellation of base `n = 3` are equal to 3
and pass the Fermat test, so the number of leading passing members is 257; the
`uint8_t tupleLength` of the verifier has wrapped to `257 - 256 = 1`, and `submitWork` is
not called although `n` passes and `257 ≥ tupleLengthMin`. -/
theorem C10_solo_walk_counterexample :
    isPrimeFermat 3 = true ∧ leadingPassing longPatternMiner 3 = 257 ∧
    longPatternMiner.solo = true ∧ longPatternMiner.tupleLengthMin = 6 ∧
    (verifyWalk longPatternMiner false 0 3).tupleLength = 1 ∧
    (verifyWalk longPatternMiner false 0 3).submit = none := by
  have hp : isPrimeFermat 3 = true := by decide
  have hlen : longPatternMiner.primeTupleOffset.length = 257 := List.length_replicate _ _
  have hl : leadingPassing longPatternMiner 3 = 257 :=
    leadingPassing_eq longPatternMiner 3 257
      (fun f _ => by rw [longPattern_offsetSum f]; exact hp) (by rw [hlen])
      (fun h => by rw [hlen] at h; omega)
  obtain ⟨h1, h2⟩ := verifyWalk_solo longPatternMiner false 0 3 rfl (by rw [hlen]; omega)
    (fun h => by cases h)
  rw [hl] at h1 h2
  refine ⟨hp, hl, rfl, rfl, h1, ?_⟩
  rw [h2]
  exact if_neg (fun h => by
    have h6 : longPatternMiner.tupleLengthMin = 6 := rfl
    have := h.2
    rw [h6] at this
    omega)

/-- C10 (amended): solo-mode constellation walk for patterns of `1 ≤ L ≤ 255` entries.
For every candidate base `n` (tested by the verifier itself, or already passed by the
batched kernel), the `tupleLength` the verifier computes is the number of leading
consecutive members `n, n + o[1], n + o[1] + o[2], ...` that pass the base-2 Fermat test
(0 when `n` itself fails), and `submitWork` is called iff `n` passes and
`tupleLength ≥ tupleLengthMin`, with `verifyBlock.primes` set to `tupleLength`. -/
theorem C10_solo_walk (m : Miner) (firstTestDone : Bool) (verifyTarget n : Int)
    (hsolo : m.solo = true) (hL1 : 1 ≤ m.primeTupleOffset.length)
    (hL : m.primeTupleOffset.length ≤ 255)
    (hfirst : firstTestDone = true → isPrimeFermat n = true) :
    (verifyWalk m firstTestDone verifyTarget n).tupleLength = leadingPassing m n ∧
    (isPrimeFermat n = false → leadingPassing m n = 0) ∧
    (verifyWalk m firstTestDone verifyTarget n).submit
      = (if isPrimeFermat n = true ∧ m.tupleLengthMin ≤ leadingPassing m n then
          some (leadingPassing m n) else none) := by
  obtain ⟨h1, h2⟩ := verifyWalk_solo m firstTestDone verifyTarget n hsolo hL1 hfirst
  have hle := leadingPassing_le m n
  have hmod : leadingPassing m n % 256 = leadingPassing m n := Nat.mod_eq_of_lt (by omega)
  rw [hmod] at h1 h2
  refine ⟨h1, ?_, h2⟩
  intro hf
  have h0 : m.offsetSum 0 = 0 := by
    unfold Miner.offsetSum
    simp
  exact leadingPassing_eq m n 0 (fun f hf => by omega) (by omega)
    (fun _ => by rw [h0]; simpa using hf)

theorem C10_solo_walk_witness :
    (verifyWalk exampleMiner false 0 7).tupleLength = leadingPassing exampleMiner 7 ∧
    leadingPassing exampleMiner 7 = 6 ∧
    (verifyWalk exampleMiner false 0 7).submit = some 6 := by
  have h := C10_solo_walk exampleMiner false 0 7 rfl (by decide) (by decide) (fun h => by cases h)
  have hl : leadingPassing exampleMiner 7 = 6 := by decide
  refine ⟨h.1, hl, ?_⟩
  rw [h.2.2, hl]
  exact if_pos ⟨by decide, by decide⟩

theorem passCount_succ (m : Miner) (n : Int) (k : Nat) :
    passCount m n (k + 1)
      = passCount m n k + (if isPrimeFermat (n + (m.offsetSum k : Int)) = true then 1 else 0) := by
  unfold passCount
  rw [List.range_succ, List.filter_append, List.length_append]
  congr 1
  by_cases h : isPrimeFermat (n + (m.offsetSum k : Int)) = true
  · rw [if_pos h]
    simp [h]
  · rw [if_neg h]
    simp [h]

theorem passCount_le_add (m : Miner) (n : Int) (a : Nat) :
    ∀ d, passCount m n (a + d) ≤ passCount m n a + d := by
  intro d
  induction d with
  | zero => simp
  | succ d ih =>
    have h := passCount_succ m n (a + d)
    have he : a + (d + 1) = a + d + 1 := by omega
    rw [he, h]
    split <;> omega

theorem passCount_mono (m : Miner) (n : Int) (a : Nat) :
    ∀ d, passCount m n a ≤ passCount m n (a + d) := by
  intro d
  induction d with
  | zero => simp
  | succ d ih =>
    have h := passCount_succ m n (a + d)
    have he : a + (d + 1) = a + d + 1 := by omega
    rw [he, h]
    omega

theorem candidatesRemaining_eq (i : Nat) (hi : i ≤ 5) :
    toInt32 ((5 + 2 ^ 64 - i % 2 ^ 64) % 2 ^ 64) = ((5 - i : Nat) : Int) := by
  have h1 : i % 2 ^ 64 = i := Nat.mod_eq_of_lt (by omega)
  have h2 : (5 + 2 ^ 64 - i) % 2 ^ 64 = 5 - i := by
    have : 5 + 2 ^ 64 - i = (5 - i) + 2 ^ 64 := by omega
    rw [this, Nat.add_mod_right]
    exact Nat.mod_eq_of_lt (by omega)
  rw [h1, h2]
  exact toInt32_of_lt _ (by omega)

theorem walkLoop_pool_step (m : Miner) (hpool : m.solo = false) (i : Nat) (rest : List Nat)
    (s : WalkState) (hi : i ≤ 5)
    (hfail : isPrimeFermat (s.candidate + (m.primeTupleOffset.getD i 0 : Int)) = false) :
    walkLoop m (i :: rest) s
      = (if s.tupleLength + (5 - i) < 4 then
          { s with offsetSum := (s.offsetSum + m.primeTupleOffset.getD i 0) % 2 ^ 16,
                   candidate := s.candidate + (m.primeTupleOffset.getD i 0 : Int) }
        else walkLoop m rest
          { s with offsetSum := (s.offsetSum + m.primeTupleOffset.getD i 0) % 2 ^ 16,
                   candidate := s.candidate + (m.primeTupleOffset.getD i 0 : Int) }) := by
  conv_lhs => unfold walkLoop
  simp only [hfail, hpool, Bool.false_eq_true, if_false, Bool.not_false, if_true,
    candidatesRemaining_eq i hi]
  by_cases h : s.tupleLength + (5 - i) < 4
  · rw [if_pos h, if_pos (by omega)]
  · rw [if_neg h, if_neg (by omega)]

theorem walkLoop_pool (m : Miner) (n : Int) (hpool : m.solo = false) :
    ∀ (k f0 : Nat) (s : WalkState), f0 + 1 + k = 6 →
      s.candidate = n + (m.offsetSum f0 : Int) → s.tupleLength = passCount m n (f0 + 1) →
      (4 ≤ (walkLoop m (List.range' (f0 + 1) k) s).tupleLength ↔ 4 ≤ passCount m n 6) ∧
      (4 ≤ (walkLoop m (List.range' (f0 + 1) k) s).tupleLength →
        (walkLoop m (List.range' (f0 + 1) k) s).tupleLength = passCount m n 6) := by
  intro k
  induction k with
  | zero =>
    intro f0 s hk _ ht
    have : f0 + 1 = 6 := by omega
    rw [this] at ht
    show (4 ≤ s.tupleLength ↔ _) ∧ (4 ≤ s.tupleLength → s.tupleLength = _)
    rw [ht]
    exact ⟨Iff.rfl, fun _ => rfl⟩
  | succ k ih =>
    intro f0 s hk hc ht
    rw [List.range'_succ]
    have hcand : s.candidate + (m.primeTupleOffset.getD (f0 + 1) 0 : Int)
        = n + (m.offsetSum (f0 + 1) : Int) := by
      rw [hc, offsetSum_succ]
      push_cast
      ring
    have hsucc := passCount_succ m n (f0 + 1)
    have hbound := passCount_le_add m n (f0 + 1) (k + 1)
    have htot : f0 + 1 + (k + 1) = 6 := hk
    rw [htot] at hbound
    by_cases hp : isPrimeFermat (n + (m.offsetSum (f0 + 1) : Int)) = true
    · have hstep : walkLoop m ((f0 + 1) :: List.range' (f0 + 1 + 1) k) s
          = walkLoop m (List.range' (f0 + 1 + 1) k)
            { candidate := n + (m.offsetSum (f0 + 1) : Int),
              tupleLength := (s.tupleLength + 1) % 256,
              offsetSum := (s.offsetSum + m.primeTupleOffset.getD (f0 + 1) 0) % 2 ^ 16 } := by
        conv_lhs => unfold walkLoop
        simp only [hcand, hp, if_true]
      rw [hstep]
      apply ih (f0 + 1) _ (by omega) rfl
      show (s.tupleLength + 1) % 256 = passCount m n (f0 + 1 + 1)
      rw [hsucc, if_pos hp, ht]
      have hle := passCount_le_add m n 0 (f0 + 1)
      have h0 : passCount m n 0 = 0 := rfl
      rw [Nat.zero_add, h0] at hle
      exact Nat.mod_eq_of_lt (by omega)
    · have hpf : isPrimeFermat (s.candidate + (m.primeTupleOffset.getD (f0 + 1) 0 : Int))
          = false := by
        rw [hcand]; simpa using hp
      rw [walkLoop_pool_step m hpool (f0 + 1) _ s (by omega) hpf]
      rw [if_neg hp, Nat.add_zero] at hsucc
      by_cases hbr : s.tupleLength + (5 - (f0 + 1)) < 4
      · rw [if_pos hbr]
        show (4 ≤ s.tupleLength ↔ _) ∧ (4 ≤ s.tupleLength → s.tupleLength = _)
        have h5 : 5 - (f0 + 1) = k := by omega
        refine ⟨⟨fun h => by omega, fun h => ?_⟩, fun h => by omega⟩
        have hb2 := passCount_le_add m n (f0 + 1 + 1) k
        have he : f0 + 1 + 1 + k = 6 := by omega
        rw [he, hsucc] at hb2
        omega
      · rw [if_neg hbr]
        apply ih (f0 + 1) _ (by omega)
        · exact hcand
        · show s.tupleLength = passCount m n (f0 + 1 + 1)
          rw [hsucc, ht]
          omega

theorem verifyWalk_pool (m : Miner) (firstTestDone : Bool) (verifyTarget n : Int)
    (hpool : m.solo = false) (hL : m.primeTupleOffset.length = 6)
    (hfirst : firstTestDone = true → isPrimeFermat n = true) :
    (verifyWalk m firstTestDone verifyTarget n).submit
      = (if isPrimeFermat n = true ∧ 4 ≤ passCount m n 6 then some (passCount m n 6)
          else none) := by
  have h0 : m.offsetSum 0 = 0 := by
    unfold Miner.offsetSum
    simp
  have hn0 : n + (m.offsetSum 0 : Int) = n := by rw [h0]; simp
  unfold verifyWalk
  by_cases hp : isPrimeFermat n = true
  · have hcond : (!firstTestDone && !isPrimeFermat n) = false := by rw [hp]; simp
    rw [hcond]
    simp only [Bool.false_eq_true, if_false]
    have h1 : passCount m n (0 + 1) = 1 := by
      rw [passCount_succ, hn0, if_pos hp]
      rfl
    obtain ⟨hw1, hw2⟩ := walkLoop_pool m n hpool 5 0
      { candidate := n, tupleLength := 1, offsetSum := 0 } (by omega) hn0.symm h1.symm
    rw [Nat.zero_add] at hw1 hw2
    rw [hL, hpool]
    simp only [Bool.false_eq_true, if_false, show (6 : Nat) - 1 = 5 from rfl]
    by_cases h4 : 4 ≤ passCount m n 6
    · have hge := hw1.2 h4
      have hd : decide ((walkLoop m (List.range' 1 5)
          { candidate := n, tupleLength := 1, offsetSum := 0 }).tupleLength < 4) = false :=
        decide_eq_false (by omega)
      rw [hd]
      simp only [Bool.false_eq_true, if_false]
      rw [if_pos ⟨hp, h4⟩, hw2 hge]
    · have hlt : ¬ 4 ≤ (walkLoop m (List.range' 1 5)
          { candidate := n, tupleLength := 1, offsetSum := 0 }).tupleLength :=
        fun h => h4 (hw1.1 h)
      have hd : decide ((walkLoop m (List.range' 1 5)
          { candidate := n, tupleLength := 1, offsetSum := 0 }).tupleLength < 4) = true :=
        decide_eq_true (by omega)
      rw [hd]
      simp only [if_true]
      rw [if_neg (fun h => h4 h.2)]
  · have hf : firstTestDone = false := by
      cases firstTestDone with
      | false => rfl
      | true => exact absurd (hfirst rfl) hp
    have hpf : isPrimeFermat n = false := by simpa using hp
    have hcond : (!firstTestDone && !isPrimeFermat n) = true := by rw [hf, hpf]; rfl
    rw [hcond]
    simp only [if_true]
    rw [if_neg (fun h => hp h.1)]

/-- C11 (as stated, refuted): in pool mode with the eight-member pattern
`(0, 2, 6, 6, 2, 6, 2, 6)` and base `n = 7`, the members are 7, 9, 15, 21, 23, 29, 31, 37.
After the third failed test (member 3, value 21) `tupleLength = 1` and four members are
still untested, so the tuple can still reach length 5; the verifier computes
`1 + (5 - 3) = 3 < 4` and stops. Five of the eight members pass the Fermat test, yet the
candidate is not submitted. -/
theorem C11_pool_walk_counterexample :
    isPrimeFermat 7 = true ∧ passCount poolMiner8 7 8 = 5 ∧
    (verifyWalk poolMiner8 false 0 7).tupleLength = 1 ∧
    (verifyWalk poolMiner8 false 0 7).candidate = 21 ∧
    (verifyWalk poolMiner8 false 0 7).submit = none := by
  decide

/-- C11 (amended): pool-mode constellation walk for patterns of `L = 6` members. After a
failed Fermat test at member `i` (`1 ≤ i ≤ 5`) the walk stops iff `tupleLength` plus the
number `5 - i` of members not yet tested is below 4, and otherwise goes on with the next
member; a candidate is submitted iff its base passes and at least 4 of its 6 members pass
the Fermat test, and `verifyBlock.primes` is then the number of passing members. -/
theorem C11_pool_walk (m : Miner) (firstTestDone : Bool) (verifyTarget n : Int)
    (hpool : m.solo = false) (hL : m.primeTupleOffset.length = 6)
    (hfirst : firstTestDone = true → isPrimeFermat n = true) :
    (∀ (i : Nat) (rest : List Nat) (s : WalkState), i ≤ 5 →
      isPrimeFermat (s.candidate + (m.primeTupleOffset.getD i 0 : Int)) = false →
      walkLoop m (i :: rest) s
        = (if s.tupleLength + (5 - i) < 4 then
            { s with offsetSum := (s.offsetSum + m.primeTupleOffset.getD i 0) % 2 ^ 16,
                     candidate := s.candidate + (m.primeTupleOffset.getD i 0 : Int) }
          else walkLoop m rest
            { s with offsetSum := (s.offsetSum + m.primeTupleOffset.getD i 0) % 2 ^ 16,
                     candidate := s.candidate + (m.primeTupleOffset.getD i 0 : Int) })) ∧
    (verifyWalk m firstTestDone verifyTarget n).submit
      = (if isPrimeFermat n = true ∧ 4 ≤ passCount m n m.primeTupleOffset.length then
          some (passCount m n m.primeTupleOffset.length) else none) := by
  refine ⟨fun i rest s hi hfail => walkLoop_pool_step m hpool i rest s hi hfail, ?_⟩
  rw [hL]
  exact verifyWalk_pool m firstTestDone verifyTarget n hpool hL hfirst

theorem C11_pool_walk_witness :
    (verifyWalk poolMiner false 0 7).submit = some 6 := by
  have h := (C11_pool_walk poolMiner false 0 7 rfl rfl (fun h => by cases h)).2
  rw [h]
  decide

/-! ## Verifier: the write of `nOffset` -/

theorem limbCount_spec (n : Nat) : n < 2 ^ (64 * limbCount n) ∧
    (n ≠ 0 → 2 ^ (64 * (limbCount n - 1)) ≤ n ∧ 1 ≤ limbCount n) := by
  unfold limbCount
  by_cases h : n = 0
  · rw [if_pos h, h]
    simp
  · rw [if_neg h]
    have h1 : n < 2 ^ (Nat.log2 n + 1) := (Nat.log2_lt h).1 (Nat.lt_succ_self _)
    have h2 : 2 ^ Nat.log2 n ≤ n := Nat.log2_self_le h
    refine ⟨?_, fun _ => ⟨?_, by omega⟩⟩
    · exact Nat.lt_of_lt_of_le h1 (Nat.pow_le_pow_right (by norm_num) (by omega))
    · exact Nat.le_trans (Nat.pow_le_pow_right (by norm_num) (by omega)) h2

theorem limbCount_le (n c : Nat) (h : n < 2 ^ (64 * c)) : limbCount n ≤ c := by
  by_cases h0 : n = 0
  · unfold limbCount
    rw [if_pos h0]
    omega
  · obtain ⟨h1, h2⟩ := (limbCount_spec n).2 h0
    by_contra hc
    have : 2 ^ (64 * c) ≤ 2 ^ (64 * (limbCount n - 1)) :=
      Nat.pow_le_pow_right (by norm_num) (by omega)
    omega

theorem storeLimb_testBit (mem : Nat → Nat) (d v a j : Nat) (hj : j < 8) :
    (storeLimb mem d v a).testBit j
      = if 8 * d ≤ a ∧ a < 8 * d + 8 then v.testBit (8 * (a - 8 * d) + j) else (mem a).testBit j := by
  unfold storeLimb
  by_cases h : 8 * d ≤ a ∧ a < 8 * d + 8
  · rw [if_pos h, if_pos h]
    have h256 : (256 : Nat) = 2 ^ 8 := by norm_num
    rw [h256, Nat.testBit_mod_two_pow, ← Nat.pow_mul, ← Nat.shiftRight_eq_div_pow, Nat.testBit_shiftRight]
    simp [hj]
  · rw [if_neg h, if_neg h]

theorem writeLoop_testBit (x : Int) :
    ∀ (n : Nat) (mem : Nat → Nat) (a j : Nat), j < 8 →
      (((List.range n).foldl (fun mem d => storeLimb mem d (mpLimb x d)) mem) a).testBit j
        = if a < 8 * n then (x.natAbs).testBit (8 * a + j) else (mem a).testBit j := by
  intro n
  induction n with
  | zero =>
    intro mem a j _
    simp
  | succ n ih =>
    intro mem a j hj
    rw [List.range_succ, List.foldl_append]
    simp only [List.foldl_cons, List.foldl_nil]
    rw [storeLimb_testBit _ _ _ _ _ hj]
    by_cases h : 8 * n ≤ a ∧ a < 8 * n + 8
    · rw [if_pos h, if_pos (by omega)]
      unfold mpLimb
      rw [Nat.testBit_mod_two_pow, ← Nat.shiftRight_eq_div_pow, Nat.testBit_shiftRight]
      have h1 : 8 * (a - 8 * n) + j < 64 := by omega
      have h2 : 64 * n + (8 * (a - 8 * n) + j) = 8 * a + j := by omega
      rw [h2]
      simp [h1]
    · rw [if_neg h, ih mem a j hj]
      by_cases h2 : a < 8 * n
      · rw [if_pos h2, if_pos (by omega)]
      · rw [if_neg h2, if_neg (by omega)]

theorem mpSize_nonneg (x : Int) (h : 0 ≤ x) (h256 : x < 2 ^ 256) :
    min (32 / 8) (mpSize x % 2 ^ 32).toNat = limbCount x.natAbs ∧ limbCount x.natAbs ≤ 4 := by
  have hn : x.natAbs < 2 ^ (64 * 4) := by
    have : (x.natAbs : Int) = x := Int.natAbs_of_nonneg h
    have h2 : (x.natAbs : Int) < ((2 ^ 256 : Nat) : Int) := by rw [this]; exact_mod_cast h256
    exact_mod_cast h2
  have hle := limbCount_le x.natAbs 4 hn
  unfold mpSize
  rw [if_neg (by omega)]
  have hm : ((limbCount x.natAbs : Nat) : Int) % 2 ^ 32 = (limbCount x.natAbs : Int) :=
    Int.emod_eq_of_lt (by omega) (by omega)
  rw [hm, Int.toNat_ofNat]
  exact ⟨by omega, hle⟩

theorem writeNOffset_testBit (nOffset : Nat → Nat) (x : Int) (h : 0 ≤ x) (h256 : x < 2 ^ 256)
    (a j : Nat) (hj : j < 8) :
    (writeNOffset nOffset x a).testBit j
      = if a < 8 * limbCount x.natAbs then (x.natAbs).testBit (8 * a + j)
        else (nOffset a).testBit j := by
  unfold writeNOffset
  rw [(mpSize_nonneg x h h256).1]
  exact writeLoop_testBit x _ nOffset a j hj

theorem nOffsetValue_testBit (mem : Nat → Nat) (k : Nat) :
    (nOffsetValue mem).testBit k = (decide (k < 256) && (mem (k / 8)).testBit (k % 8)) := by
  unfold nOffsetValue
  by_cases hk : k < 256
  · rw [word64_testBit mem 32 0 k (by omega), Nat.zero_add]
    simp [hk]
  · have hlt : word64 mem 0 32 < 2 ^ k := by
      have h1 := word64_lt mem 32 0
      have h2 : (256 : Nat) ^ 32 = 2 ^ 256 := by norm_num
      rw [h2] at h1
      exact Nat.lt_of_lt_of_le h1 (Nat.pow_le_pow_right (by norm_num) (by omega))
    rw [Nat.testBit_lt_two_pow hlt]
    simp [hk]

theorem verifyWalk_candidateOffset (m : Miner) (firstTestDone : Bool)
    (verifyTarget candidate : Int)
    (hsub : (verifyWalk m firstTestDone verifyTarget candidate).submit ≠ none) :
    (verifyWalk m firstTestDone verifyTarget candidate).candidateOffset
      = candidate - verifyTarget := by
  unfold verifyWalk at hsub ⊢
  by_cases hc : (!firstTestDone && !isPrimeFermat candidate) = true
  · rw [if_pos hc] at hsub
    exact absurd rfl hsub
  · rw [if_neg hc]

/-- C12 (as stated, refuted): the verifier in solo mode submits the candidate 7 (a
sextuplet for the pattern `(0, 4, 2, 4, 2, 4)`) with `verifyTarget = 2`, so that
`candidate - verifyTarget = 5` has one limb. Only the first eight bytes of `nOffset` are
written: when all 32 bytes were `0xFF` before, the field read as a little-endian integer
is not 5 afterwards. -/
theorem C12_nOffset_write_counterexample :
    (verifyWalk exampleMiner false 2 7).submit = some 6 ∧
    (verifyWalk exampleMiner false 2 7).candidateOffset = 5 ∧
    nOffsetValue (verifyNOffset exampleMiner false 2 7 (fun _ => 255)) ≠ 5 := by
  have hs : (verifyWalk exampleMiner false 2 7).submit = some 6 := by decide
  have hc : (verifyWalk exampleMiner false 2 7).candidateOffset = 5 := by decide
  refine ⟨hs, hc, fun hv => ?_⟩
  have hw : verifyNOffset exampleMiner false 2 7 (fun _ => 255)
      = writeNOffset (fun _ => 255) 5 := by
    unfold verifyNOffset
    rw [hs]
    simp only [hc]
  have hl : limbCount (5 : Int).natAbs ≤ 1 := limbCount_le _ 1 (by norm_num)
  have hb := nOffsetValue_testBit (verifyNOffset exampleMiner false 2 7 (fun _ => 255)) 64
  rw [hv, hw, writeNOffset_testBit (fun _ => 255) 5 (by norm_num) (by norm_num) _ _
    (by norm_num), if_neg (by omega)] at hb
  revert hb
  decide

/-- C12 (amended): when a tuple is submitted and the difference
`candidate - verifyTarget` of the base candidate is non-negative and below `2^256`, the
verifier writes the limbs of the difference into `nOffset` and leaves every byte above
them as it was. Hence, if the bytes of `nOffset` above the limbs of the difference were
zero before the write, the 32-byte field read as a little-endian integer equals
`candidate - verifyTarget`. -/
theorem C12_nOffset_write (m : Miner) (firstTestDone : Bool) (verifyTarget candidate : Int)
    (nOffset : Nat → Nat)
    (hsub : (verifyWalk m firstTestDone verifyTarget candidate).submit ≠ none)
    (h0 : 0 ≤ candidate - verifyTarget) (h256 : candidate - verifyTarget < 2 ^ 256) :
    (∀ a j, 8 * limbCount (candidate - verifyTarget).natAbs ≤ a → j < 8 →
      (verifyNOffset m firstTestDone verifyTarget candidate nOffset a).testBit j
        = (nOffset a).testBit j) ∧
    ((∀ a, 8 * limbCount (candidate - verifyTarget).natAbs ≤ a → a < 32 →
        nOffset a % 256 = 0) →
      (nOffsetValue (verifyNOffset m firstTestDone verifyTarget candidate nOffset) : Int)
        = candidate - verifyTarget) := by
  have hco := verifyWalk_candidateOffset m firstTestDone verifyTarget candidate hsub
  have hv : verifyNOffset m firstTestDone verifyTarget candidate nOffset
      = writeNOffset nOffset (candidate - verifyTarget) := by
    unfold verifyNOffset
    cases hs : (verifyWalk m firstTestDone verifyTarget candidate).submit with
    | none => exact absurd hs hsub
    | some v => simp only [hco]
  rw [hv]
  refine ⟨fun a j ha hj => ?_, fun hz => ?_⟩
  · rw [writeNOffset_testBit nOffset _ h0 h256 a j hj, if_neg (by omega)]
  · have hnat : nOffsetValue (writeNOffset nOffset (candidate - verifyTarget))
        = (candidate - verifyTarget).natAbs := by
      obtain ⟨hlt, _⟩ := limbCount_spec (candidate - verifyTarget).natAbs
      obtain ⟨_, hle⟩ := mpSize_nonneg _ h0 h256
      apply Nat.eq_of_testBit_eq
      intro k
      rw [nOffsetValue_testBit, writeNOffset_testBit nOffset _ h0 h256 _ _ (Nat.mod_lt _ (by norm_num))]
      have hk : 8 * (k / 8) + k % 8 = k := by omega
      rw [hk]
      by_cases hin : k / 8 < 8 * limbCount (candidate - verifyTarget).natAbs
      · rw [if_pos hin]
        have : k < 256 := by omega
        simp [this]
      · rw [if_neg hin]
        have hbig : (candidate - verifyTarget).natAbs < 2 ^ k :=
          Nat.lt_of_lt_of_le hlt (Nat.pow_le_pow_right (by norm_num) (by omega))
        rw [Nat.testBit_lt_two_pow hbig]
        by_cases hk256 : k < 256
        · have hzero := hz (k / 8) (by omega) (by omega)
          have h256' : (256 : Nat) = 2 ^ 8 := by norm_num
          have hb : (nOffset (k / 8) % 2 ^ 8).testBit (k % 8) = false := by
            rw [← h256', hzero]
            simp
          rw [Nat.testBit_mod_two_pow] at hb
          have h8 : k % 8 < 8 := Nat.mod_lt _ (by norm_num)
          simp only [h8, decide_True, Bool.true_and] at hb
          rw [hb]
          simp
        · simp [hk256]
    rw [hnat]
    exact Int.natAbs_of_nonneg h0

theorem C12_nOffset_write_witness :
    (nOffsetValue (verifyNOffset exampleMiner false 2 7 (fun _ => 0)) : Int) = 7 - 2 :=
  (C12_nOffset_write exampleMiner false 2 7 (fun _ => 0) (by decide) (by decide) (by norm_num)).2
    (fun _ _ _ => rfl)

/-! ## Mod phase: `_putOffsetsInSegments` -/

theorem putReserve_spec (eps : Nat) :
    ∀ (n a : Nat) (st : (Nat → Nat) × (Nat → Nat)),
      (putReserve eps (List.range' a n) st = none ↔
        ∃ seg, a ≤ seg ∧ seg < a + n ∧ st.1 seg + st.2 seg ≥ eps) ∧
      ∀ st1, putReserve eps (List.range' a n) st = some st1 →
        (∀ seg, a ≤ seg → seg < a + n →
          st1.1 seg = st.1 seg + st.2 seg ∧ st1.2 seg = st.1 seg) ∧
        (∀ seg, (seg < a ∨ a + n ≤ seg) → st1.1 seg = st.1 seg ∧ st1.2 seg = st.2 seg) := by
  intro n
  induction n with
  | zero =>
    intro a st
    refine ⟨⟨fun h => (by cases h), fun ⟨seg, h1, h2, _⟩ => by omega⟩, ?_⟩
    intro st1 h
    have : st1 = st := by
      have h' : some st = some st1 := h
      exact (Option.some.inj h').symm
    rw [this]
    exact ⟨fun seg h1 h2 => by omega, fun _ _ => ⟨rfl, rfl⟩⟩
  | succ n ih =>
    intro a st
    rw [List.range'_succ]
    unfold putReserve
    simp only
    by_cases hov : st.1 a + st.2 a ≥ eps
    · rw [if_pos hov]
      exact ⟨⟨fun _ => ⟨a, Nat.le_refl _, by omega, hov⟩, fun _ => rfl⟩,
        fun st1 h => by cases h⟩
    · rw [if_neg hov]
      obtain ⟨ih1, ih2⟩ := ih (a + 1)
        (Function.update st.1 a (st.1 a + st.2 a), Function.update st.2 a (st.1 a))
      have hne : ∀ seg, a + 1 ≤ seg → seg ≠ a := fun seg h => by omega
      constructor
      · rw [ih1]
        constructor
        · rintro ⟨seg, h1, h2, h3⟩
          refine ⟨seg, by omega, by omega, ?_⟩
          simp only [Function.update_noteq (hne seg h1)] at h3
          exact h3
        · rintro ⟨seg, h1, h2, h3⟩
          have hsa : seg ≠ a := fun h => by rw [h] at h3; exact hov h3
          refine ⟨seg, by omega, by omega, ?_⟩
          simp only [Function.update_noteq hsa]
          exact h3
      · intro st1 h
        obtain ⟨r1, r2⟩ := ih2 st1 h
        constructor
        · intro seg h1 h2
          by_cases hsa : seg = a
          · have := r2 seg (Or.inl (by omega))
            simp only [hsa, Function.update_same] at this ⊢
            rw [hsa] at this
            simp only [Function.update_same] at this
            exact this
          · have := r1 seg (by omega) (by omega)
            simp only [Function.update_noteq hsa] at this
            exact this
        · intro seg hs
          have hsa : seg ≠ a := by omega
          have := r2 seg (by omega)
          simp only [Function.update_noteq hsa] at this
          exact this

theorem inSeg_append (m : Miner) (seg : Nat) (l1 l2 : List Nat) :
    inSeg m seg (l1 ++ l2) = inSeg m seg l1 ++ inSeg m seg l2 := by
  unfold inSeg
  exact List.filter_append _ _

theorem inSeg_single (m : Miner) (seg x : Nat) :
    inSeg m seg [x] = if x >>> m.sieveBits = seg then [x] else [] := by
  unfold inSeg
  rw [List.filter_singleton]
  by_cases h : x >>> m.sieveBits = seg
  · rw [if_pos h]
    have hb : (x >>> m.sieveBits == seg) = true := by rw [h]; exact beq_self_eq_true _
    rw [hb]
    rfl
  · rw [if_neg h]
    have hb : (x >>> m.sieveBits == seg) = false := beq_false_of_ne h
    rw [hb]
    rfl

theorem range_map_update (f : Nat → Nat) (c v : Nat) :
    (List.range (c + 1)).map (Function.update f c v) = (List.range c).map f ++ [v] := by
  rw [List.range_succ, List.map_append, List.map_singleton, Function.update_same]
  congr 1
  apply List.map_congr_left
  intro a ha
  rw [Function.update_noteq (Nat.ne_of_lt (List.mem_range.1 ha))]

theorem hit_mask (m : Miner) (h32 : m.sieveBits ≤ 32) (index : Nat) :
    (index &&& (m.sieveSize - 1)) % 2 ^ 32 = index % m.sieveSize := by
  have hS : m.sieveSize = 2 ^ m.sieveBits := by
    unfold Miner.sieveSize
    rw [Nat.shiftLeft_eq, Nat.one_mul]
  rw [hS, Nat.and_pow_two_sub_one_eq_mod]
  have h1 : index % 2 ^ m.sieveBits < 2 ^ m.sieveBits := Nat.mod_lt _ (Nat.two_pow_pos _)
  have h2 : 2 ^ m.sieveBits ≤ 2 ^ 32 := Nat.pow_le_pow_right (by norm_num) h32
  exact Nat.mod_eq_of_lt (by omega)

theorem putStore_spec (m : Miner) (offsets : Nat → Nat) (h32 : m.sieveBits ≤ 32)
    (st0 : (Nat → Nat → Nat) × (Nat → Nat)) :
    ∀ (n seg : Nat),
      ((List.range n).foldl (putStore m offsets) st0).2 seg
        = st0.2 seg + (inSeg m seg ((List.range n).map offsets)).length ∧
      (List.range (((List.range n).foldl (putStore m offsets) st0).2 seg)).map
          (((List.range n).foldl (putStore m offsets) st0).1 seg)
        = (List.range (st0.2 seg)).map (st0.1 seg)
          ++ (inSeg m seg ((List.range n).map offsets)).map (fun x => x % m.sieveSize) := by
  intro n
  induction n with
  | zero =>
    intro seg
    simp [inSeg]
  | succ n ih =>
    intro seg
    obtain ⟨c1, l1⟩ := ih seg
    rw [List.range_succ, List.foldl_append, List.map_append, inSeg_append, List.map_singleton,
      inSeg_single]
    simp only [List.foldl_cons, List.foldl_nil]
    generalize (List.range n).foldl (putStore m offsets) st0 = st at c1 l1 ⊢
    have hfst : (putStore m offsets st n).1
        = Function.update st.1 (offsets n >>> m.sieveBits)
            (Function.update (st.1 (offsets n >>> m.sieveBits)) (st.2 (offsets n >>> m.sieveBits))
              ((offsets n &&& (m.sieveSize - 1)) % 2 ^ 32)) := rfl
    have hsnd : (putStore m offsets st n).2
        = Function.update st.2 (offsets n >>> m.sieveBits)
            (st.2 (offsets n >>> m.sieveBits) + 1) := rfl
    rw [hfst, hsnd]
    by_cases hseg : offsets n >>> m.sieveBits = seg
    · rw [if_pos hseg, hseg]
      simp only [Function.update_same, List.length_append, List.length_singleton,
        List.map_append, List.map_singleton]
      refine ⟨by rw [c1]; omega, ?_⟩
      rw [range_map_update, l1, hit_mask m h32, List.append_assoc]
    · rw [if_neg hseg]
      simp only [Function.update_noteq (Ne.symm hseg), List.length_append, List.length_nil,
        Nat.add_zero, List.map_nil, List.append_nil]
      exact ⟨c1, l1⟩

theorem putOffsetsInSegments_spec (m : Miner) (sieve : SieveInstance) (offsets counts : Nat → Nat)
    (n : Nat) (h32 : m.sieveBits ≤ 32)
    (hcount : ∀ seg, seg < m.maxIter →
      counts seg = (inSeg m seg ((List.range n).map offsets)).length) :
    (putOffsetsInSegments m sieve offsets counts n = none ↔
      ∃ seg, seg < m.maxIter ∧ sieve.segmentCounts seg + counts seg ≥ m.entriesPerSegment) ∧
    ∀ r, putOffsetsInSegments m sieve offsets counts n = some r →
      r.1.sieve = sieve.sieve ∧ r.1.offsets = sieve.offsets ∧
      (∀ seg, seg < m.maxIter →
        r.1.segmentCounts seg
          = sieve.segmentCounts seg + (inSeg m seg ((List.range n).map offsets)).length ∧
        r.1.segmentCounts seg < m.entriesPerSegment ∧
        hitsList r.1 seg = hitsList sieve seg
          ++ (inSeg m seg ((List.range n).map offsets)).map (fun x => x % m.sieveSize) ∧
        r.2 seg = 0) ∧
      (∀ seg, m.maxIter ≤ seg → r.1.segmentCounts seg = sieve.segmentCounts seg) := by
  obtain ⟨hnone, hsome⟩ := putReserve_spec m.entriesPerSegment m.maxIter 0
    (sieve.segmentCounts, counts)
  rw [← List.range_eq_range'] at hnone hsome
  unfold putOffsetsInSegments
  cases hres : putReserve m.entriesPerSegment (List.range m.maxIter) (sieve.segmentCounts, counts) with
  | none =>
    show ((none : Option (SieveInstance × (Nat → Nat))) = none ↔ _) ∧ _
    refine ⟨⟨fun _ => ?_, fun _ => rfl⟩, fun r h => (by cases h)⟩
    obtain ⟨seg, _, h2, h3⟩ := hnone.1 hres
    exact ⟨seg, by omega, h3⟩
  | some st1 =>
    obtain ⟨r1, r2⟩ := hsome st1 hres
    show ((some (({ sieve with
            segmentCounts := st1.1
            segmentHits :=
              ((List.range n).foldl (putStore m offsets) (sieve.segmentHits, st1.2)).1 }
            : SieveInstance),
          fun segment => if segment < m.maxIter then 0
            else ((List.range n).foldl (putStore m offsets) (sieve.segmentHits, st1.2)).2 segment)
        = none) ↔ _) ∧ _
    constructor
    · constructor
      · intro h; cases h
      · rintro ⟨seg, h1, h2⟩
        have := hnone.2 ⟨seg, Nat.zero_le _, by omega, h2⟩
        rw [hres] at this
        cases this
    · intro r hr
      have hr' : r = (({ sieve with
            segmentCounts := st1.1
            segmentHits :=
              ((List.range n).foldl (putStore m offsets) (sieve.segmentHits, st1.2)).1 }
            : SieveInstance),
          fun segment => if segment < m.maxIter then 0
            else ((List.range n).foldl (putStore m offsets) (sieve.segmentHits, st1.2)).2 segment) :=
        (Option.some.inj hr).symm
      rw [hr']
      refine ⟨rfl, rfl, ?_, fun seg hseg => (r2 seg (Or.inr (by omega))).1⟩
      intro seg hseg
      obtain ⟨a1, a2⟩ := r1 seg (Nat.zero_le _) (by omega)
      obtain ⟨b1, b2⟩ := putStore_spec m offsets h32 (sieve.segmentHits, st1.2) n seg
      have a1' : st1.1 seg = sieve.segmentCounts seg + counts seg := a1
      have a2' : st1.2 seg = sieve.segmentCounts seg := a2
      have hnot : ¬ (sieve.segmentCounts seg + counts seg ≥ m.entriesPerSegment) := by
        intro hov
        have := hnone.2 ⟨seg, Nat.zero_le _, by omega, hov⟩
        rw [hres] at this
        cases this
      refine ⟨?_, ?_, ?_, if_pos hseg⟩
      · show st1.1 seg = _
        rw [a1', hcount seg hseg]
      · show st1.1 seg < _
        rw [a1']
        omega
      · unfold hitsList
        show (List.range (st1.1 seg)).map _ = _
        have hc : st1.1 seg
            = ((List.range n).foldl (putStore m offsets) (sieve.segmentHits, st1.2)).2 seg := by
          rw [b1, a1', hcount seg hseg]
          show _ = st1.2 seg + _
          rw [a2']
        rw [hc, b2]
        show (List.range (st1.2 seg)).map (sieve.segmentHits seg) ++ _ = _
        rw [a2']

/-! ## Mod phase: accounting of the once-only path -/

theorem keepLow_append (m : Miner) (l1 l2 : List Nat) :
    keepLow m (l1 ++ l2) = keepLow m l1 ++ keepLow m l2 := by
  unfold keepLow
  exact List.filter_append _ _

theorem keepLow_single (m : Miner) (x : Nat) :
    keepLow m [x] = if x < m.maxIncrements then [x] else [] := by
  unfold keepLow
  rw [List.filter_singleton]
  by_cases h : x < m.maxIncrements
  · rw [if_pos h, decide_eq_true h]
    rfl
  · rw [if_neg h, decide_eq_false h]
    rfl

theorem sameSpill_refl (j : Nat) (s : ModLoop) : SameSpill j s s := ⟨rfl, rfl, rfl, rfl, rfl⟩

theorem sameSpill_trans (j : Nat) (s s1 s2 : ModLoop) (h1 : SameSpill j s s1)
    (h2 : SameSpill j s1 s2) : SameSpill j s s2 := by
  obtain ⟨a1, a2, a3, a4, a5⟩ := h1
  obtain ⟨b1, b2, b3, b4, b5⟩ := h2
  exact ⟨b1.trans a1, b2.trans a2, b3.trans a3, b4.trans a4, b5.trans a5⟩

theorem spillInv_of_same (m : Miner) (sv0 : SieveInstance) (s s1 : ModLoop) (j : Nat)
    (E : List Nat) (h : SameSpill j s s1) (hi : SpillInv m sv0 s j E) : SpillInv m sv0 s1 j E := by
  obtain ⟨a1, a2, a3, a4, a5⟩ := h
  obtain ⟨F, hE, hseg⟩ := hi
  have hb : buffered s1 j = buffered s j := by
    unfold buffered
    rw [a1, a2]
  have hh : ∀ seg, hitsList (s1.st.sieves j) seg = hitsList (s.st.sieves j) seg := by
    intro seg
    unfold hitsList
    rw [a4, a5]
  refine ⟨F, by rw [hb]; exact hE, fun seg hs => ?_⟩
  rw [hb, a3, a4, hh seg]
  exact hseg seg hs

theorem pushOffset_frame (m : Miner) (s : ModLoop) (j idx : Nat) :
    (∀ j1, j1 ≠ j → SameSpill j1 s (pushOffset m j idx s)) ∧
    (pushOffset m j idx s).nextRemainder = s.nextRemainder ∧
    (pushOffset m j idx s).nextRemainderIdx = s.nextRemainderIdx ∧
    (∀ w, ((pushOffset m j idx s).st.sieves w).offsets = (s.st.sieves w).offsets) := by
  unfold pushOffset
  by_cases hlow : idx < m.maxIncrements
  · rw [if_pos hlow]
    refine ⟨?_, rfl, rfl, fun _ => rfl⟩
    intro j1 hj1
    refine ⟨?_, ?_, ?_, rfl, rfl⟩
    · show Function.update s.nOffsets j _ j1 = _
      rw [Function.update_noteq hj1]
    · show Function.update s.st.offsetStack j _ j1 = _
      rw [Function.update_noteq hj1]
    · show Function.update s.st.offsetCount j _ j1 = _
      rw [Function.update_noteq hj1]
  · rw [if_neg hlow]
    exact ⟨fun _ _ => sameSpill_refl _ _, rfl, rfl, fun _ => rfl⟩

theorem pushOffset_spill (m : Miner) (sv0 : SieveInstance) (s : ModLoop) (j idx : Nat)
    (E : List Nat) (hi : SpillInv m sv0 s j E) :
    SpillInv m sv0 (pushOffset m j idx s) j (E ++ keepLow m [idx]) := by
  unfold pushOffset
  rw [keepLow_single]
  by_cases hlow : idx < m.maxIncrements
  · rw [if_pos hlow, if_pos hlow]
    obtain ⟨F, hE, hseg⟩ := hi
    have hb : buffered
        { s with
          st := { s.st with
            offsetStack := Function.update s.st.offsetStack j
              (Function.update (s.st.offsetStack j) (s.nOffsets j) idx)
            offsetCount := Function.update s.st.offsetCount j
              (Function.update (s.st.offsetCount j) (idx >>> m.sieveBits)
                (s.st.offsetCount j (idx >>> m.sieveBits) + 1)) }
          nOffsets := Function.update s.nOffsets j (s.nOffsets j + 1) } j
        = buffered s j ++ [idx] := by
      unfold buffered
      simp only [Function.update_same]
      exact range_map_update _ _ _
    refine ⟨F, by rw [hb, hE, List.append_assoc], fun seg hs => ?_⟩
    obtain ⟨c1, c2, c3⟩ := hseg seg hs
    rw [hb, inSeg_append, inSeg_single]
    refine ⟨?_, c2, c3⟩
    simp only [Function.update_same]
    by_cases hsg : idx >>> m.sieveBits = seg
    · rw [if_pos hsg, hsg, Function.update_same, c1]
      simp
    · rw [if_neg hsg, Function.update_noteq (Ne.symm hsg), c1]
      simp
  · rw [if_neg hlow, if_neg hlow, List.append_nil]
    exact hi

theorem sparseFold_spill (m : Miner) (sv0 : SieveInstance) (p : Nat) (invert : List Nat)
    (j index : Nat) :
    ∀ (n f0 : Nat) (s : ModLoop) (E : List Nat),
      ((List.range' (f0 + 1) n).foldl
        (fun st f =>
          (familyStep m p invert st.1 f, pushOffset m j (familyStep m p invert st.1 f) st.2))
        (famChain m p invert index f0, s)).1 = famChain m p invert index (f0 + n) ∧
      (SpillInv m sv0 s j E →
        SpillInv m sv0
          ((List.range' (f0 + 1) n).foldl
            (fun st f =>
              (familyStep m p invert st.1 f, pushOffset m j (familyStep m p invert st.1 f) st.2))
            (famChain m p invert index f0, s)).2 j
          (E ++ keepLow m ((List.range' (f0 + 1) n).map (famChain m p invert index)))) ∧
      (∀ j1, j1 ≠ j → SameSpill j1 s
        ((List.range' (f0 + 1) n).foldl
          (fun st f =>
            (familyStep m p invert st.1 f, pushOffset m j (familyStep m p invert st.1 f) st.2))
          (famChain m p invert index f0, s)).2) ∧
      ((List.range' (f0 + 1) n).foldl
        (fun st f =>
          (familyStep m p invert st.1 f, pushOffset m j (familyStep m p invert st.1 f) st.2))
        (famChain m p invert index f0, s)).2.nextRemainder = s.nextRemainder ∧
      ((List.range' (f0 + 1) n).foldl
        (fun st f =>
          (familyStep m p invert st.1 f, pushOffset m j (familyStep m p invert st.1 f) st.2))
        (famChain m p invert index f0, s)).2.nextRemainderIdx = s.nextRemainderIdx ∧
      (∀ w, (((List.range' (f0 + 1) n).foldl
        (fun st f =>
          (familyStep m p invert st.1 f, pushOffset m j (familyStep m p invert st.1 f) st.2))
        (famChain m p invert index f0, s)).2.st.sieves w).offsets = (s.st.sieves w).offsets) := by
  intro n
  induction n with
  | zero =>
    intro f0 s E
    refine ⟨rfl, fun h => ?_, fun _ _ => sameSpill_refl _ _, rfl, rfl, fun _ => rfl⟩
    simpa [keepLow] using h
  | succ n ih =>
    intro f0 s E
    rw [List.range'_succ, List.foldl_cons]
    have hstep : familyStep m p invert (famChain m p invert index f0) (f0 + 1)
        = famChain m p invert index (f0 + 1) := rfl
    simp only [hstep]
    obtain ⟨r1, r2, r3, r4, r5, r6⟩ := ih (f0 + 1)
      (pushOffset m j (famChain m p invert index (f0 + 1)) s)
      (E ++ keepLow m [famChain m p invert index (f0 + 1)])
    obtain ⟨q1, q2, q3, q4⟩ := pushOffset_frame m s j (famChain m p invert index (f0 + 1))
    refine ⟨?_, ?_, ?_, ?_, ?_, ?_⟩
    · rw [r1]
      congr 1
      omega
    · intro h
      have := r2 (pushOffset_spill m sv0 s j (famChain m p invert index (f0 + 1)) E h)
      rw [List.map_cons, ← List.singleton_append, keepLow_append, ← List.append_assoc]
      exact this
    · intro j1 hj1
      exact sameSpill_trans j1 _ _ _ (q1 j1 hj1) (r3 j1 hj1)
    · rw [r4, q2]
    · rw [r5, q3]
    · intro w
      rw [r6 w, q4 w]

theorem addToOffsetsSparse_spill (m : Miner) (sv0 : SieveInstance) (p : Nat) (invert : List Nat)
    (j index : Nat) (s : ModLoop) (hL : 1 ≤ m.primeTupleOffset.length) :
    (addToOffsetsSparse m p invert j index s).1
      = famChain m p invert index (m.primeTupleOffset.length - 1) ∧
    (∀ E, SpillInv m sv0 s j E →
      SpillInv m sv0 (addToOffsetsSparse m p invert j index s).2 j
        (E ++ keepLow m ((List.range m.primeTupleOffset.length).map
          (famChain m p invert index)))) ∧
    (∀ j1, j1 ≠ j → SameSpill j1 s (addToOffsetsSparse m p invert j index s).2) ∧
    (addToOffsetsSparse m p invert j index s).2.nextRemainder = s.nextRemainder ∧
    (addToOffsetsSparse m p invert j index s).2.nextRemainderIdx = s.nextRemainderIdx ∧
    (∀ w, ((addToOffsetsSparse m p invert j index s).2.st.sieves w).offsets
      = (s.st.sieves w).offsets) := by
  unfold addToOffsetsSparse
  rw [halfPrimeTupleOffset_length]
  obtain ⟨q1, q2, q3, q4⟩ := pushOffset_frame m s j index
  have h0 : index = famChain m p invert index 0 := rfl
  have hfold := sparseFold_spill m sv0 p invert j index (m.primeTupleOffset.length - 1) 0
    (pushOffset m j index s)
  simp only [Nat.zero_add] at hfold
  rw [← h0] at hfold
  have hrange : List.range m.primeTupleOffset.length
      = 0 :: List.range' 1 (m.primeTupleOffset.length - 1) := by
    rw [List.range_eq_range']
    have : m.primeTupleOffset.length = (m.primeTupleOffset.length - 1) + 1 := by omega
    conv_lhs => rw [this, List.range'_succ]
  refine ⟨?_, ?_, ?_, ?_, ?_, ?_⟩
  · exact (hfold []).1
  · intro E hE
    have := (hfold (E ++ keepLow m [index])).2.1 (pushOffset_spill m sv0 s j index E hE)
    rw [hrange, List.map_cons, ← List.singleton_append, keepLow_append, ← List.append_assoc]
    exact this
  · intro j1 hj1
    exact sameSpill_trans j1 _ _ _ (q1 j1 hj1) ((hfold []).2.2.1 j1 hj1)
  · rw [(hfold []).2.2.2.1, q2]
  · rw [(hfold []).2.2.2.2.1, q3]
  · intro w
    rw [(hfold []).2.2.2.2.2 w, q4 w]
theorem inSeg_length_append_le (m : Miner) (seg : Nat) (l1 l2 : List Nat) :
    (inSeg m seg l1).length ≤ (inSeg m seg (l1 ++ l2)).length := by
  rw [inSeg_append, List.length_append]
  omega

theorem flushWorker_spill (m : Miner) (sv0 : SieveInstance) (s : ModLoop) (j : Nat)
    (E : List Nat) (h32 : m.sieveBits ≤ 32) (hi : SpillInv m sv0 s j E)
    (hfit : ∀ seg, seg < m.maxIter →
      sv0.segmentCounts seg + (inSeg m seg E).length < m.entriesPerSegment) :
    ∃ s1, flushWorker m j s = Outcome.normal s1 ∧ SpillInv m sv0 s1 j E ∧
      s1.nOffsets j = 0 ∧ (∀ j1, j1 ≠ j → SameSpill j1 s s1) ∧
      s1.nextRemainder = s.nextRemainder ∧ s1.nextRemainderIdx = s.nextRemainderIdx := by
  obtain ⟨F, hE, hseg⟩ := hi
  have hcount : ∀ seg, seg < m.maxIter → s.st.offsetCount j seg
      = (inSeg m seg ((List.range (s.nOffsets j)).map (s.st.offsetStack j))).length :=
    fun seg hs => (hseg seg hs).1
  obtain ⟨hnone, hsome⟩ := putOffsetsInSegments_spec m (s.st.sieves j) (s.st.offsetStack j)
    (s.st.offsetCount j) (s.nOffsets j) h32 hcount
  cases hr : putOffsetsInSegments m (s.st.sieves j) (s.st.offsetStack j) (s.st.offsetCount j)
      (s.nOffsets j) with
  | none =>
    exfalso
    obtain ⟨seg, hs, hov⟩ := hnone.1 hr
    obtain ⟨c1, c2, _⟩ := hseg seg hs
    have hlt := hfit seg hs
    rw [hE, inSeg_append, List.length_append] at hlt
    omega
  | some r =>
    obtain ⟨e1, e2, e3, e4⟩ := hsome r hr
    unfold flushWorker
    rw [hr]
    refine ⟨_, rfl, ?_, ?_, ?_, rfl, rfl⟩
    · refine ⟨E, ?_, fun seg hs => ?_⟩
      · have hb : buffered
            { s with
              st := { s.st with
                sieves := Function.update s.st.sieves j r.1
                offsetCount := Function.update s.st.offsetCount j r.2 }
              nOffsets := Function.update s.nOffsets j 0 } j = [] := by
          unfold buffered
          simp only [Function.update_same, List.range_zero, List.map_nil]
        rw [hb, List.append_nil]
      · obtain ⟨c1, c2, c3⟩ := hseg seg hs
        obtain ⟨d1, _, d3, d4⟩ := e3 seg hs
        have hb : buffered
            { s with
              st := { s.st with
                sieves := Function.update s.st.sieves j r.1
                offsetCount := Function.update s.st.offsetCount j r.2 }
              nOffsets := Function.update s.nOffsets j 0 } j = [] := by
          unfold buffered
          simp only [Function.update_same, List.range_zero, List.map_nil]
        rw [hb]
        simp only [Function.update_same]
        refine ⟨?_, ?_, ?_⟩
        · rw [d4]
          rfl
        · rw [d1, c2, hE, inSeg_append, List.length_append, Nat.add_assoc]
          rfl
        · rw [d3, c3, hE, inSeg_append, List.map_append, List.append_assoc]
          rfl
    · simp only [Function.update_same]
    · intro j1 hj1
      refine ⟨?_, rfl, ?_, ?_, ?_⟩
      · show Function.update s.nOffsets j 0 j1 = _
        rw [Function.update_noteq hj1]
      · show Function.update s.st.offsetCount j r.2 j1 = _
        rw [Function.update_noteq hj1]
      · show (Function.update s.st.sieves j r.1 j1).segmentCounts = _
        rw [Function.update_noteq hj1]
      · show (Function.update s.st.sieves j r.1 j1).segmentHits = _
        rw [Function.update_noteq hj1]

theorem addToOffsets_spill (m : Miner) (sv0 : SieveInstance) (i p : Nat) (invert : List Nat)
    (j index : Nat) (s : ModLoop) (E : List Nat) (hL : 1 ≤ m.primeTupleOffset.length)
    (h32 : m.sieveBits ≤ 32) (hi : SpillInv m sv0 s j E)
    (hfit : ∀ seg, seg < m.maxIter →
      sv0.segmentCounts seg + (inSeg m seg (E ++ (if m.sparseLimit ≤ i then
        keepLow m ((List.range m.primeTupleOffset.length).map (famChain m p invert index))
        else []))).length < m.entriesPerSegment) :
    ∃ x, addToOffsets m false i p invert j index s = Outcome.normal x ∧
      x.1 = famChain m p invert index (m.primeTupleOffset.length - 1) ∧
      SpillInv m sv0 x.2 j (E ++ (if m.sparseLimit ≤ i then
        keepLow m ((List.range m.primeTupleOffset.length).map (famChain m p invert index))
        else [])) ∧
      (∀ j1, j1 ≠ j → SameSpill j1 s x.2) ∧
      x.2.nextRemainder = s.nextRemainder ∧ x.2.nextRemainderIdx = s.nextRemainderIdx := by
  by_cases hd : i < m.sparseLimit
  · refine ⟨_, addToOffsets_dense_eq m false i p invert j index s hd, ?_, ?_, ?_, rfl, rfl⟩
    · exact (addToOffsetsDense_spec m i p invert index _ hL).1
    · rw [if_neg (by omega), List.append_nil]
      refine spillInv_of_same m sv0 s _ j E ⟨rfl, rfl, rfl, ?_, ?_⟩ hi
      · simp only [Function.update_same]
      · simp only [Function.update_same]
    · intro j1 hj1
      refine ⟨rfl, rfl, rfl, ?_, ?_⟩
      · simp only [Function.update_noteq hj1]
      · simp only [Function.update_noteq hj1]
  · have hs : m.sparseLimit ≤ i := by omega
    rw [if_pos hs] at hfit ⊢
    unfold addToOffsets
    rw [if_neg (by omega)]
    by_cases hfull : s.nOffsets j + m.halfPrimeTupleOffset.length ≥ OFFSET_STACK_SIZE
    · rw [if_pos hfull]
      simp only [Bool.false_eq_true, if_false]
      have hfitE : ∀ seg, seg < m.maxIter →
          sv0.segmentCounts seg + (inSeg m seg E).length < m.entriesPerSegment := by
        intro seg hseg
        have h1 := hfit seg hseg
        have h2 := inSeg_length_append_le m seg E
          (keepLow m ((List.range m.primeTupleOffset.length).map (famChain m p invert index)))
        omega
      obtain ⟨s1, hs1, f1, _, f3, f4, f5⟩ := flushWorker_spill m sv0 s j E h32 hi hfitE
      rw [hs1]
      obtain ⟨a1, a2, a3, a4, a5, _⟩ := addToOffsetsSparse_spill m sv0 p invert j index s1 hL
      refine ⟨_, rfl, a1, a2 E f1, ?_, by rw [a4, f4], by rw [a5, f5]⟩
      intro j1 hj1
      exact sameSpill_trans j1 _ _ _ (f3 j1 hj1) (a3 j1 hj1)
    · rw [if_neg hfull]
      obtain ⟨a1, a2, a3, a4, a5, _⟩ := addToOffsetsSparse_spill m sv0 p invert j index s hL
      exact ⟨_, rfl, a1, a2 E hi, a3, a4, a5⟩
theorem primorialOffsetDiff_lt (m : Miner) (w : Nat) : m.primorialOffsetDiff w < 2 ^ 64 := by
  unfold Miner.primorialOffsetDiff
  exact Nat.mod_lt _ (by norm_num)

theorem primePairs_eq (m : Miner) (tar w i : Nat) :
    primePairs m tar w i = if m.sparseLimit ≤ i then
      keepLow m ((List.range m.primeTupleOffset.length).map
        (famChain m (m.primes.getD i 0)
          (invertLattice (m.inverts.getD i 0) (m.primes.getD i 0)) (workerBase m tar i w)))
      else [] := rfl

theorem workersLoop_spill (m : Miner) (stale : Nat → Nat → Bool) (sv0 : Nat → SieveInstance)
    (tar i cnt ps : Nat) (hst : ∀ a b, stale a b = false)
    (hL : 1 ≤ m.primeTupleOffset.length) (h32 : m.sieveBits ≤ 32)
    (hinv64 : m.inverts.getD i 0 < 2 ^ 64)
    (hps : i < m.precompLimit →
      ps = m.primes.getD i 0 * 2 ^ cnt ∧ m.primes.getD i 0 * 2 ^ cnt < 2 ^ 64) :
    ∀ (n j0 index r : Nat) (s : ModLoop) (E : Nat → List Nat), 2 ≤ j0 →
      index = reducedIndex m tar i (j0 - 1) (m.primeTupleOffset.length - 1) →
      r = (m.primorialOffsetDiff (j0 - 2) * m.inverts.getD i 0) % m.primes.getD i 0 →
      (∀ w, j0 ≤ w → w < j0 + n → SpillInv m (sv0 w) s w (E w)) →
      (∀ w, j0 ≤ w → w < j0 + n → ∀ seg, seg < m.maxIter →
        (sv0 w).segmentCounts seg + (inSeg m seg (E w ++ primePairs m tar w i)).length
          < m.entriesPerSegment) →
      ∃ s1, workersLoop m stale i (m.primes.getD i 0)
          (invertLattice (m.inverts.getD i 0) (m.primes.getD i 0)) cnt ps
          (List.range' j0 n) index r s = Outcome.normal s1 ∧
        (∀ w, j0 ≤ w → w < j0 + n → SpillInv m (sv0 w) s1 w (E w ++ primePairs m tar w i)) ∧
        (∀ w, (w < j0 ∨ j0 + n ≤ w) → SameSpill w s s1) ∧
        s1.nextRemainder = s.nextRemainder ∧ s1.nextRemainderIdx = s.nextRemainderIdx := by
  intro n
  induction n with
  | zero =>
    intro j0 index r s E _ _ _ _ _
    refine ⟨s, rfl, ?_, fun _ _ => sameSpill_refl _ _, rfl, rfl⟩
    intro w h1 h2
    omega
  | succ n ih =>
    intro j0 index r s E hj0 hindex hr hinv hfit
    rw [List.range'_succ]
    unfold workersLoop
    have hhead : (invertLattice (m.inverts.getD i 0) (m.primes.getD i 0)).getD 0 0
        = m.inverts.getD i 0 := by simp [invertLattice]
    have hr1 : (if m.primorialOffsetDiff (j0 - 1) ≠ m.primorialOffsetDiff (j0 - 2) then
          recomputeRemainder m i (m.primes.getD i 0)
            ((invertLattice (m.inverts.getD i 0) (m.primes.getD i 0)).getD 0 0) cnt ps j0
        else r)
        = (m.primorialOffsetDiff (j0 - 1) * m.inverts.getD i 0) % m.primes.getD i 0 := by
      by_cases hne : m.primorialOffsetDiff (j0 - 1) ≠ m.primorialOffsetDiff (j0 - 2)
      · rw [if_pos hne, hhead]
        exact recomputeRemainder_eq m i _ _ cnt ps j0 (primorialOffsetDiff_lt m _) hinv64 hps
      · rw [if_neg hne, hr]
        have : m.primorialOffsetDiff (j0 - 1) = m.primorialOffsetDiff (j0 - 2) := by
          simpa using hne
        rw [this]
    simp only [hr1, hst]
    have hbase : subWrap (m.primes.getD i 0) index
        ((m.primorialOffsetDiff (j0 - 1) * m.inverts.getD i 0) % m.primes.getD i 0)
        = workerBase m tar i j0 := by
      obtain ⟨k, rfl⟩ : ∃ k, j0 = k + 1 := ⟨j0 - 1, by omega⟩
      rw [hindex]
      simp only [Nat.add_sub_cancel]
      rfl
    rw [hbase]
    have hfit0 := hfit j0 (Nat.le_refl _) (by omega)
    rw [primePairs_eq] at hfit0
    obtain ⟨x, hx, hx1, hx2, hx3, hx4, hx5⟩ := addToOffsets_spill m (sv0 j0) i (m.primes.getD i 0)
      (invertLattice (m.inverts.getD i 0) (m.primes.getD i 0)) j0 (workerBase m tar i j0) s (E j0)
      hL h32 (hinv j0 (Nat.le_refl _) (by omega)) hfit0
    rw [hx]
    simp only
    obtain ⟨s1, hs1, h1, h2, h3, h4⟩ := ih (j0 + 1) x.1 _ x.2 E (by omega)
      (by rw [hx1]; rfl)
      (by
        have : j0 + 1 - 2 = j0 - 1 := by omega
        rw [this])
      (fun w hw1 hw2 => spillInv_of_same m (sv0 w) s x.2 w (E w) (hx3 w (by omega))
        (hinv w (by omega) (by omega)))
      (fun w hw1 hw2 => hfit w (by omega) (by omega))
    refine ⟨s1, hs1, ?_, ?_, by rw [h3, hx4], by rw [h4, hx5]⟩
    · intro w hw1 hw2
      by_cases hw : w = j0
      · subst hw
        exact spillInv_of_same m (sv0 w) x.2 s1 w _ (h2 w (by omega)) hx2
      · exact h1 w (by omega) (by omega)
    · intro w hw
      exact sameSpill_trans w _ _ _ (hx3 w (by omega)) (h2 w (by omega))

theorem modPrime_spill (m : Miner) (stale : Nat → Nat → Bool) (sv0 : Nat → SieveInstance)
    (tar avxLimit W i : Nat) (s : ModLoop) (E : Nat → List Nat)
    (hst : ∀ a b, stale a b = false) (hT : m.TableInv)
    (hL : 1 ≤ m.primeTupleOffset.length) (h32 : m.sieveBits ≤ 32)
    (hw : 1 ≤ m.sieveWorkers) (hW : 0 < W) (hlim : avxLimit + W ≤ NUM_PRIMES_TO_2P32)
    (hp0 : 0 < m.primes.getD i 0) (hp : m.primes.getD i 0 < 2 ^ 64)
    (hinv64 : m.inverts.getD i 0 < 2 ^ 64)
    (hlane : LaneInv m tar W i s.nextRemainder s.nextRemainderIdx)
    (hinv : ∀ w, w < m.sieveWorkers → SpillInv m (sv0 w) s w (E w))
    (hfit : ∀ w, w < m.sieveWorkers → ∀ seg, seg < m.maxIter →
      (sv0 w).segmentCounts seg + (inSeg m seg (E w ++ primePairs m tar w i)).length
        < m.entriesPerSegment) :
    ∃ s1, modPrime m stale tar avxLimit W i s = Outcome.normal s1 ∧
      (∀ w, w < m.sieveWorkers → SpillInv m (sv0 w) s1 w (E w ++ primePairs m tar w i)) ∧
      LaneInv m tar W (i + 1) s1.nextRemainder s1.nextRemainderIdx := by
  have hlanes := computeIndex_lanes m hT tar avxLimit W i s.nextRemainder s.nextRemainderIdx
    hlim hlane
  obtain ⟨hidx, hps⟩ := computeIndex_index64 m hT tar avxLimit W i s.nextRemainder
    s.nextRemainderIdx hW hlim hlane hp0 hp hinv64
  unfold modPrime
  simp only [hst]
  rw [hidx]
  have hfit0 := hfit 0 (by omega)
  rw [primePairs_eq] at hfit0
  obtain ⟨x0, hx0, h01, h02, h03, h04, h05⟩ := addToOffsets_spill m (sv0 0) i (m.primes.getD i 0)
    (invertLattice (m.inverts.getD i 0) (m.primes.getD i 0)) 0 (m.firstIndex tar i)
    { s with
      nextRemainder := (computeIndex m tar avxLimit W i s.nextRemainder s.nextRemainderIdx).nextRemainder
      nextRemainderIdx :=
        (computeIndex m tar avxLimit W i s.nextRemainder s.nextRemainderIdx).nextRemainderIdx }
    (E 0) hL h32
    (spillInv_of_same m (sv0 0) s _ 0 (E 0) ⟨rfl, rfl, rfl, rfl, rfl⟩ (hinv 0 (by omega))) hfit0
  rw [hx0]
  simp only
  by_cases hw1 : m.sieveWorkers = 1
  · rw [if_pos hw1]
    refine ⟨x0.2, rfl, ?_, ?_⟩
    · intro w hwlt
      have hw0 : w = 0 := by omega
      subst hw0
      exact h02
    · rw [h04, h05]
      exact hlanes
  · rw [if_neg hw1]
    have hr1 := recomputeRemainder_eq m i (m.primes.getD i 0) (m.inverts.getD i 0)
      (computeIndex m tar avxLimit W i s.nextRemainder s.nextRemainderIdx).cnt
      (computeIndex m tar avxLimit W i s.nextRemainder s.nextRemainderIdx).ps 1
      (primorialOffsetDiff_lt m _) hinv64 hps
    rw [hr1, h01]
    have hbase : subWrap (m.primes.getD i 0)
        (famChain m (m.primes.getD i 0) (invertLattice (m.inverts.getD i 0) (m.primes.getD i 0))
          (m.firstIndex tar i) (m.primeTupleOffset.length - 1))
        ((m.primorialOffsetDiff (1 - 1) * m.inverts.getD i 0) % m.primes.getD i 0)
        = workerBase m tar i 1 := rfl
    rw [hbase]
    have hfit1 := hfit 1 (by omega)
    rw [primePairs_eq] at hfit1
    obtain ⟨x1, hx1, h11, h12, h13, h14, h15⟩ := addToOffsets_spill m (sv0 1) i
      (m.primes.getD i 0) (invertLattice (m.inverts.getD i 0) (m.primes.getD i 0)) 1
      (workerBase m tar i 1) x0.2 (E 1) hL h32
      (spillInv_of_same m (sv0 1) _ x0.2 1 (E 1)
        (sameSpill_trans 1 s _ x0.2 ⟨rfl, rfl, rfl, rfl, rfl⟩ (h03 1 (by omega)))
        (hinv 1 (by omega))) hfit1
    rw [hx1]
    simp only
    have hsame : ∀ w, 2 ≤ w → SameSpill w s x1.2 := fun w hw2 =>
      sameSpill_trans w s x0.2 x1.2
        (sameSpill_trans w s _ x0.2 ⟨rfl, rfl, rfl, rfl, rfl⟩ (h03 w (by omega)))
        (h13 w (by omega))
    obtain ⟨s2, hs2, h21, h22, h23, h24⟩ := workersLoop_spill m stale sv0 tar i
      (computeIndex m tar avxLimit W i s.nextRemainder s.nextRemainderIdx).cnt
      (computeIndex m tar avxLimit W i s.nextRemainder s.nextRemainderIdx).ps
      hst hL h32 hinv64 hps (m.sieveWorkers - 2) 2 x1.1
      ((m.primorialOffsetDiff (1 - 1) * m.inverts.getD i 0) % m.primes.getD i 0) x1.2 E
      (by omega) (by rw [h11]; rfl) (by simp)
      (fun w hw1 hw2 => spillInv_of_same m (sv0 w) s x1.2 w (E w) (hsame w hw1)
        (hinv w (by omega)))
      (fun w hw1 hw2 => hfit w (by omega))
    rw [hs2]
    refine ⟨s2, rfl, ?_, ?_⟩
    · intro w hwlt
      by_cases hwc : 2 ≤ w
      · exact h21 w hwc (by omega)
      · have hw01 : w = 0 ∨ w = 1 := by omega
        rcases hw01 with rfl | rfl
        · exact spillInv_of_same m (sv0 0) x0.2 s2 0 _
            (sameSpill_trans 0 _ _ _ (h13 0 (by omega)) (h22 0 (by omega))) h02
        · exact spillInv_of_same m (sv0 1) x1.2 s2 1 _ (h22 1 (by omega)) h12
    · rw [h23, h24, h14, h15, h04, h05]
      exact hlanes
theorem modLoop_spill (m : Miner) (stale : Nat → Nat → Bool) (sv0 : Nat → SieveInstance)
    (tar avxLimit W : Nat) (hst : ∀ a b, stale a b = false) (hT : m.TableInv)
    (hL : 1 ≤ m.primeTupleOffset.length) (h32 : m.sieveBits ≤ 32)
    (hw : 1 ≤ m.sieveWorkers) (hW : 0 < W) (hlim : avxLimit + W ≤ NUM_PRIMES_TO_2P32) :
    ∀ (n a : Nat) (s : ModLoop) (E : Nat → List Nat),
      (∀ i, a ≤ i → i < a + n → 0 < m.primes.getD i 0 ∧ m.primes.getD i 0 < 2 ^ 64 ∧
        m.inverts.getD i 0 < 2 ^ 64) →
      LaneInv m tar W a s.nextRemainder s.nextRemainderIdx →
      (∀ w, w < m.sieveWorkers → SpillInv m (sv0 w) s w (E w)) →
      (∀ w, w < m.sieveWorkers → ∀ seg, seg < m.maxIter →
        (sv0 w).segmentCounts seg + (inSeg m seg (E w ++ rangePairs m tar w a n)).length
          < m.entriesPerSegment) →
      ∃ s1, modLoop m stale tar avxLimit W (List.range' a n) s = Outcome.normal s1 ∧
        ∀ w, w < m.sieveWorkers → SpillInv m (sv0 w) s1 w (E w ++ rangePairs m tar w a n) := by
  intro n
  induction n with
  | zero =>
    intro a s E _ _ hinv _
    refine ⟨s, rfl, fun w hwlt => ?_⟩
    simp only [rangePairs, List.append_nil]
    exact hinv w hwlt
  | succ n ih =>
    intro a s E htab hlane hinv hfit
    rw [List.range'_succ]
    unfold modLoop
    obtain ⟨hp0, hp, hinv64⟩ := htab a (Nat.le_refl _) (by omega)
    have hfit1 : ∀ w, w < m.sieveWorkers → ∀ seg, seg < m.maxIter →
        (sv0 w).segmentCounts seg + (inSeg m seg (E w ++ primePairs m tar w a)).length
          < m.entriesPerSegment := by
      intro w hwlt seg hseg
      have h1 := hfit w hwlt seg hseg
      simp only [rangePairs] at h1
      rw [← List.append_assoc] at h1
      have h2 := inSeg_length_append_le m seg (E w ++ primePairs m tar w a)
        (rangePairs m tar w (a + 1) n)
      omega
    obtain ⟨s1, hs1, h1, h2⟩ := modPrime_spill m stale sv0 tar avxLimit W a s E hst hT hL h32 hw
      hW hlim hp0 hp hinv64 hlane hinv hfit1
    rw [hs1]
    simp only
    obtain ⟨s2, hs2, h3⟩ := ih (a + 1) s1 (fun w => E w ++ primePairs m tar w a)
      (fun i hi1 hi2 => htab i (by omega) (by omega)) h2 h1
      (fun w hwlt seg hseg => by
        have := hfit w hwlt seg hseg
        simp only [rangePairs] at this
        rw [← List.append_assoc] at this
        exact this)
    refine ⟨s2, hs2, fun w hwlt => ?_⟩
    have := h3 w hwlt
    simp only [rangePairs]
    rw [← List.append_assoc]
    exact this

theorem flushAll_spill (m : Miner) (sv0 : Nat → SieveInstance) (E : Nat → List Nat)
    (h32 : m.sieveBits ≤ 32)
    (hfit : ∀ w, w < m.sieveWorkers → ∀ seg, seg < m.maxIter →
      (sv0 w).segmentCounts seg + (inSeg m seg (E w)).length < m.entriesPerSegment) :
    ∀ (js : List Nat) (s : ModLoop), (∀ j, j ∈ js → j < m.sieveWorkers) →
      (∀ w, w < m.sieveWorkers → SpillInv m (sv0 w) s w (E w)) →
      ∃ s1, flushAll m js s = Outcome.normal s1 ∧
        (∀ w, w < m.sieveWorkers → SpillInv m (sv0 w) s1 w (E w)) ∧
        (∀ w, (w ∈ js ∨ s.nOffsets w = 0) → s1.nOffsets w = 0) := by
  intro js
  induction js with
  | nil =>
    intro s _ hinv
    refine ⟨s, rfl, hinv, fun w hwz => ?_⟩
    rcases hwz with h | h
    · cases h
    · exact h
  | cons j js ih =>
    intro s hjs hinv
    have hj : j < m.sieveWorkers := hjs j (List.mem_cons_self _ _)
    unfold flushAll
    by_cases hpos : s.nOffsets j > 0
    · rw [if_pos hpos]
      obtain ⟨s1, hs1, f1, f2, f3, _, _⟩ := flushWorker_spill m (sv0 j) s j (E j) h32
        (hinv j hj) (hfit j hj)
      rw [hs1]
      simp only
      obtain ⟨s2, hs2, g1, g2⟩ := ih s1 (fun a ha => hjs a (List.mem_cons_of_mem _ ha))
        (fun w hwlt => by
          by_cases hwj : w = j
          · subst hwj
            exact f1
          · exact spillInv_of_same m (sv0 w) s s1 w (E w) (f3 w hwj) (hinv w hwlt))
      refine ⟨s2, hs2, g1, fun w hwz => ?_⟩
      by_cases hwj : w = j
      · subst hwj
        exact g2 w (Or.inr f2)
      · rcases hwz with h | h
        · rcases List.mem_cons.1 h with h | h
          · exact absurd h hwj
          · exact g2 w (Or.inl h)
        · exact g2 w (Or.inr (by rw [(f3 w hwj).1]; exact h))
    · rw [if_neg hpos]
      obtain ⟨s2, hs2, g1, g2⟩ := ih s (fun a ha => hjs a (List.mem_cons_of_mem _ ha)) hinv
      refine ⟨s2, hs2, g1, fun w hwz => ?_⟩
      rcases hwz with h | h
      · rcases List.mem_cons.1 h with h | h
        · subst h
          exact g2 w (Or.inr (by omega))
        · exact g2 w (Or.inl h)
      · exact g2 w (Or.inr h)

theorem spill_final (m : Miner) (sv0 : SieveInstance) (s : ModLoop) (w : Nat) (E : List Nat)
    (hi : SpillInv m sv0 s w E) (hb : buffered s w = []) :
    ∀ seg, seg < m.maxIter →
      (s.st.sieves w).segmentCounts seg = sv0.segmentCounts seg + (inSeg m seg E).length ∧
      hitsList (s.st.sieves w) seg
        = hitsList sv0 seg ++ (inSeg m seg E).map (fun x => x % m.sieveSize) ∧
      s.st.offsetCount w seg = 0 := by
  obtain ⟨F, hE, hseg⟩ := hi
  rw [hb, List.append_nil] at hE
  intro seg hs
  obtain ⟨c1, c2, c3⟩ := hseg seg hs
  rw [hb] at c1
  rw [hE]
  exact ⟨c2, c3, c1⟩

theorem rangePairs_nil (m : Miner) (tar w : Nat) :
    ∀ (n a : Nat), a + n ≤ m.sparseLimit → rangePairs m tar w a n = [] := by
  intro n
  induction n with
  | zero =>
    intro a _
    rfl
  | succ n ih =>
    intro a ha
    simp only [rangePairs]
    rw [ih (a + 1) (by omega), List.append_nil]
    unfold primePairs
    rw [if_neg (by omega)]

theorem rangePairs_lt (m : Miner) (tar w : Nat) :
    ∀ (n a x : Nat), x ∈ rangePairs m tar w a n → x < m.maxIncrements := by
  intro n
  induction n with
  | zero =>
    intro a x hx
    cases hx
  | succ n ih =>
    intro a x hx
    simp only [rangePairs, List.mem_append] at hx
    rcases hx with hx | hx
    · unfold primePairs at hx
      by_cases hs : m.sparseLimit ≤ a
      · rw [if_pos hs] at hx
        unfold keepLow at hx
        have := (List.mem_filter.1 hx).2
        exact of_decide_eq_true this
      · rw [if_neg hs] at hx
        cases hx
    · exact ih (a + 1) x hx

theorem sum_inSeg (m : Miner) (K : Nat) :
    ∀ (l : List Nat), (∀ x, x ∈ l → x >>> m.sieveBits < K) →
      Finset.sum (Finset.range K) (fun seg => (inSeg m seg l).length) = l.length := by
  intro l
  induction l with
  | nil =>
    intro _
    simp [inSeg]
  | cons x l ih =>
    intro hl
    have hcons : ∀ seg, (inSeg m seg (x :: l)).length
        = (if x >>> m.sieveBits = seg then 1 else 0) + (inSeg m seg l).length := by
      intro seg
      rw [← List.singleton_append, inSeg_append, inSeg_single, List.length_append]
      by_cases h : x >>> m.sieveBits = seg
      · rw [if_pos h, if_pos h]
        rfl
      · rw [if_neg h, if_neg h]
        rfl
    simp only [hcons]
    rw [Finset.sum_add_distrib, ih (fun y hy => hl y (List.mem_cons_of_mem _ hy)),
      Finset.sum_ite_eq, if_pos (Finset.mem_range.2 (hl x (List.mem_cons_self _ _)))]
    simp only [List.length_cons]
    omega

theorem segment_lt_maxIter (m : Miner) (hdiv : m.sieveSize ∣ m.maxIncrements) (x : Nat)
    (hx : x < m.maxIncrements) : x >>> m.sieveBits < m.maxIter := by
  have hpos := sieveSize_pos m
  have hsz : m.sieveSize = 2 ^ m.sieveBits := by
    unfold Miner.sieveSize
    rw [Nat.shiftLeft_eq, Nat.one_mul]
  rw [Nat.shiftRight_eq_div_pow, ← hsz]
  unfold Miner.maxIter
  obtain ⟨k, hk⟩ := hdiv
  rw [hk, Nat.mul_div_cancel_left _ hpos]
  rw [hk] at hx
  exact (Nat.div_lt_iff_lt_mul hpos).2 (by rw [Nat.mul_comm]; exact hx)
/-- The reduced index of the code is the sieve index of the pair: it is below the prime
and makes `P * index + tar + (primorialOffsets[w] - primorialOffsets[0]) + (o[1] + ... + o[f])`
divisible by it, when `inverts[i]` is the inverse of the primorial modulo `primes[i]`. -/
theorem reducedIndex_good (m : Miner) (tar i : Nat) (hP : m.PatternOK) (hO : m.OffsetsOK)
    (hp63 : m.primes.getD i 0 < 2 ^ 63)
    (hinv : m.inverts.getD i 0 < m.primes.getD i 0)
    (hmod : (m.primorial * m.inverts.getD i 0) % m.primes.getD i 0 = 1) :
    ∀ w, w < m.sieveWorkers → ∀ f, f < m.primeTupleOffset.length →
      GoodIndex m.primorial (m.primes.getD i 0)
        ((tar : Int) + m.offsetToFirst w + (m.offsetSum f : Int)) (reducedIndex m tar i w f) := by
  have hPinv := mod_one_to_modEq _ _ _ hmod
  have hp0 : 0 < m.primes.getD i 0 := by omega
  have hL := hP.1
  have hbase : ∀ w, w < m.sieveWorkers →
      GoodIndex m.primorial (m.primes.getD i 0) ((tar : Int) + m.offsetToFirst w)
        (workerBase m tar i w) := by
    intro w
    induction w with
    | zero =>
      intro _
      rw [offsetToFirst_zero, Int.add_zero]
      exact goodIndex_base m.primorial _ tar _ hp0 hmod
    | succ w ih =>
      intro hwlt
      have hg := famChain_good m m.primorial (m.primes.getD i 0) (m.inverts.getD i 0)
        ((tar : Int) + m.offsetToFirst w) (workerBase m tar i w) hinv hp63 hPinv hP.2.2
        (ih (by omega)) (m.primeTupleOffset.length - 1) (by omega)
      exact worker_shift m (tar : Int) i (w + 1) _ hP hO (by omega) hwlt hinv hPinv
        (by simpa using hg)
  intro w hwlt f hf
  exact famChain_good m m.primorial (m.primes.getD i 0) (m.inverts.getD i 0)
    ((tar : Int) + m.offsetToFirst w) (workerBase m tar i w) hinv hp63 hPinv hP.2.2
    (hbase w hwlt) f hf
theorem allocateSpill_spec (m : Miner) (st : ModState)
    (hzero : st.allocated = true →
      ∀ w, w < m.sieveWorkers → ∀ seg, seg < m.maxIter → st.offsetCount w seg = 0) :
    (allocateSpill m st).sieves = st.sieves ∧
    ∀ w, w < m.sieveWorkers → ∀ seg, seg < m.maxIter →
      (allocateSpill m st).offsetCount w seg = 0 := by
  unfold allocateSpill
  by_cases ha : st.allocated = true
  · rw [if_pos ha]
    exact ⟨rfl, hzero ha⟩
  · rw [if_neg ha]
    refine ⟨rfl, fun w hwlt seg hseg => ?_⟩
    simp only
    rw [if_pos ⟨hwlt, hseg⟩]

theorem buffered_nil_of_zero (s : ModLoop) (w : Nat) (h : s.nOffsets w = 0) :
    buffered s w = [] := by
  unfold buffered
  rw [h]
  rfl

theorem updateRemainders_spill (m : Miner) (stale : Nat → Nat → Bool)
    (verifyTarget verifyRemainderPrimorial : Int) (start_i end_i : Nat) (st : ModState)
    (hst : ∀ a b, stale a b = false) (hT : m.TableInv)
    (hL : 1 ≤ m.primeTupleOffset.length) (h32 : m.sieveBits ≤ 32) (hw : 1 ≤ m.sieveWorkers)
    (htab : ∀ i, start_i ≤ i → i < end_i → 0 < m.primes.getD i 0 ∧
      m.primes.getD i 0 < 2 ^ 64 ∧ m.inverts.getD i 0 < 2 ^ 64)
    (hzero : st.allocated = true →
      ∀ w, w < m.sieveWorkers → ∀ seg, seg < m.maxIter → st.offsetCount w seg = 0)
    (hfit : ∀ w, w < m.sieveWorkers → ∀ seg, seg < m.maxIter →
      (st.sieves w).segmentCounts seg +
        (inSeg m seg (rangePairs m (verifyTarget + verifyRemainderPrimorial).natAbs w start_i
          (end_i - start_i))).length < m.entriesPerSegment) :
    ∃ st1, updateRemainders m stale verifyTarget verifyRemainderPrimorial start_i end_i st
        = Outcome.normal st1 ∧
      ∀ w, w < m.sieveWorkers → ∀ seg, seg < m.maxIter →
        (st1.sieves w).segmentCounts seg = (st.sieves w).segmentCounts seg +
          (inSeg m seg (rangePairs m (verifyTarget + verifyRemainderPrimorial).natAbs w start_i
            (end_i - start_i))).length ∧
        hitsList (st1.sieves w) seg = hitsList (st.sieves w) seg ++
          (inSeg m seg (rangePairs m (verifyTarget + verifyRemainderPrimorial).natAbs w start_i
            (end_i - start_i))).map (fun x => x % m.sieveSize) ∧
        st1.offsetCount w seg = 0 := by
  obtain ⟨hW0, hW8⟩ := avxWidthOf_pos m
  have hlane0 : LaneInv m (verifyTarget + verifyRemainderPrimorial).natAbs (avxWidthOf m) start_i
      (fun _ => 0) 8 := by
    intro _ t h1 h2
    omega
  obtain ⟨ha1, ha2⟩ := allocateSpill_spec m st hzero
  have hinit : ∀ w, w < m.sieveWorkers → SpillInv m (st.sieves w)
      { st := allocateSpill m st, nOffsets := fun _ => 0, nextRemainder := fun _ => 0,
        nextRemainderIdx := 8 } w [] := by
    intro w hwlt
    refine ⟨[], rfl, fun seg hseg => ?_⟩
    refine ⟨?_, ?_, ?_⟩
    · show (allocateSpill m st).offsetCount w seg = _
      rw [ha2 w hwlt seg hseg]
      rfl
    · show ((allocateSpill m st).sieves w).segmentCounts seg = _
      rw [ha1]
      rfl
    · show hitsList ((allocateSpill m st).sieves w) seg = _
      rw [ha1]
      simp [inSeg]
  obtain ⟨s1, hs1, h1⟩ := modLoop_spill m stale st.sieves
    (verifyTarget + verifyRemainderPrimorial).natAbs (avxLimitOf m start_i) (avxWidthOf m)
    hst hT hL h32 hw hW0 (avxLimitOf_le m start_i) (end_i - start_i) start_i
    { st := allocateSpill m st, nOffsets := fun _ => 0, nextRemainder := fun _ => 0,
      nextRemainderIdx := 8 } (fun _ => [])
    (fun i hi1 hi2 => htab i hi1 (by omega)) hlane0 hinit
    (fun w hwlt seg hseg => by
      rw [List.nil_append]
      exact hfit w hwlt seg hseg)
  simp only [List.nil_append] at h1
  unfold updateRemainders
  simp only
  rw [hs1]
  simp only
  by_cases hend : end_i > m.sparseLimit
  · rw [if_pos hend]
    obtain ⟨s2, hs2, g1, g2⟩ := flushAll_spill m st.sieves
      (fun w => rangePairs m (verifyTarget + verifyRemainderPrimorial).natAbs w start_i
        (end_i - start_i)) h32 hfit (List.range m.sieveWorkers) s1
      (fun j hj => List.mem_range.1 hj) h1
    rw [hs2]
    refine ⟨s2.st, rfl, fun w hwlt => ?_⟩
    exact spill_final m (st.sieves w) s2 w _ (g1 w hwlt)
      (buffered_nil_of_zero s2 w (g2 w (Or.inl (List.mem_range.2 hwlt))))
  · rw [if_neg hend]
    refine ⟨s1.st, rfl, fun w hwlt => ?_⟩
    have hnil : rangePairs m (verifyTarget + verifyRemainderPrimorial).natAbs w start_i
        (end_i - start_i) = [] := by
      by_cases hse : start_i ≤ end_i
      · exact rangePairs_nil m _ w _ _ (by omega)
      · have : end_i - start_i = 0 := by omega
        rw [this]
        rfl
    have hinv := h1 w hwlt
    have hb : buffered s1 w = [] := by
      obtain ⟨F, hE, _⟩ := hinv
      rw [hnil] at hE
      exact (List.append_eq_nil.1 hE.symm).2
    exact spill_final m (st.sieves w) s1 w _ hinv hb

theorem rangePairs_length_le (m : Miner) (tar w : Nat) :
    ∀ (n a : Nat), (rangePairs m tar w a n).length ≤ m.primeTupleOffset.length * n := by
  intro n
  induction n with
  | zero =>
    intro a
    simp [rangePairs]
  | succ n ih =>
    intro a
    simp only [rangePairs, List.length_append]
    have h1 : (primePairs m tar w a).length ≤ m.primeTupleOffset.length := by
      unfold primePairs
      split
      · unfold keepLow
        refine (List.length_filter_le _ _).trans ?_
        simp
      · simp
    have h2 := ih (a + 1)
    rw [Nat.mul_succ]
    omega

theorem inSeg_length_le (m : Miner) (seg : Nat) (l : List Nat) :
    (inSeg m seg l).length ≤ l.length := by
  unfold inSeg
  exact List.length_filter_le _ _

theorem sparseMiner_tableInv : sparseMiner.TableInv :=
  tableInv_of_init sparseMiner 100 2 (by norm_num) rfl rfl rfl (by decide) (by decide)
    (by decide)

/-! ## Segment buckets: overflow is fatal -/

theorem pushOffset_count_le (m : Miner) (j idx : Nat) (s : ModLoop) (seg : Nat) :
    s.st.offsetCount j seg ≤ (pushOffset m j idx s).st.offsetCount j seg ∧
    (idx < m.maxIncrements → seg = idx >>> m.sieveBits →
      s.st.offsetCount j seg + 1 ≤ (pushOffset m j idx s).st.offsetCount j seg) := by
  unfold pushOffset
  by_cases hlow : idx < m.maxIncrements
  · rw [if_pos hlow]
    simp only [Function.update_same]
    by_cases hseg : seg = idx >>> m.sieveBits
    · rw [hseg, Function.update_same]
      exact ⟨by omega, fun _ _ => Nat.le_refl _⟩
    · rw [Function.update_noteq hseg]
      exact ⟨Nat.le_refl _, fun _ h => absurd h hseg⟩
  · rw [if_neg hlow]
    exact ⟨Nat.le_refl _, fun h => absurd h hlow⟩

theorem sparseFold_count_le (m : Miner) (p : Nat) (invert : List Nat) (j seg : Nat) :
    ∀ (l : List Nat) (st : Nat × ModLoop),
      st.2.st.offsetCount j seg ≤
        (l.foldl
          (fun st f =>
            (familyStep m p invert st.1 f, pushOffset m j (familyStep m p invert st.1 f) st.2))
          st).2.st.offsetCount j seg := by
  intro l
  induction l with
  | nil =>
    intro st
    exact Nat.le_refl _
  | cons f l ih =>
    intro st
    rw [List.foldl_cons]
    exact Nat.le_trans (pushOffset_count_le m j (familyStep m p invert st.1 f) st.2 seg).1
      (ih (familyStep m p invert st.1 f, pushOffset m j (familyStep m p invert st.1 f) st.2))

theorem addToOffsetsSparse_count (m : Miner) (p : Nat) (invert : List Nat) (j index : Nat)
    (s : ModLoop) (hlow : index < m.maxIncrements) :
    s.st.offsetCount j (index >>> m.sieveBits) + 1 ≤
      (addToOffsetsSparse m p invert j index s).2.st.offsetCount j (index >>> m.sieveBits) := by
  unfold addToOffsetsSparse
  exact Nat.le_trans ((pushOffset_count_le m j index s _).2 hlow rfl)
    (sparseFold_count_le m p invert j _ _ (index, pushOffset m j index s))

theorem addToOffsets_count (m : Miner) (i p : Nat) (invert : List Nat) (j index : Nat)
    (s : ModLoop) (x : Nat × ModLoop) (hs : m.sparseLimit ≤ i) (hlow : index < m.maxIncrements)
    (h : addToOffsets m false i p invert j index s = Outcome.normal x) :
    1 ≤ x.2.st.offsetCount j (index >>> m.sieveBits) := by
  unfold addToOffsets at h
  rw [if_neg (by omega)] at h
  split at h
  · simp only [Bool.false_eq_true, if_false] at h
    split at h
    · rename_i s1 _
      injection h with h
      rw [← h]
      have := addToOffsetsSparse_count m p invert j index s1 hlow
      omega
    · cases h
    · cases h
  · injection h with h
    rw [← h]
    have := addToOffsetsSparse_count m p invert j index s hlow
    omega

theorem addToOffsets_stale (m : Miner) (i p : Nat) (invert : List Nat) (j index : Nat)
    (s : ModLoop) (hs : m.sparseLimit ≤ i)
    (hfull : s.nOffsets j + m.halfPrimeTupleOffset.length ≥ OFFSET_STACK_SIZE) :
    addToOffsets m true i p invert j index s = Outcome.returned (index, s) := by
  unfold addToOffsets
  rw [if_neg (by omega), if_pos hfull]
  rfl

theorem modPrime_cancel (m : Miner) (stale : Nat → Nat → Bool) (sv0 : SieveInstance)
    (tar avxLimit W i : Nat) (s : ModLoop) (E : List Nat) (hT : m.TableInv)
    (h32 : m.sieveBits ≤ 32) (hW : 0 < W) (hlim : avxLimit + W ≤ NUM_PRIMES_TO_2P32)
    (hp0 : 0 < m.primes.getD i 0) (hp : m.primes.getD i 0 < 2 ^ 32)
    (hinv64 : m.inverts.getD i 0 < 2 ^ 64)
    (hlane : LaneInv m tar W i s.nextRemainder s.nextRemainderIdx)
    (hsparse : m.sparseLimit ≤ i) (hbig : OFFSET_STACK_SIZE ≤ m.primeTupleOffset.length)
    (hw2 : m.sieveWorkers ≠ 1) (hs0 : stale i 0 = false) (hs1 : stale i 1 = true)
    (hinv : SpillInv m sv0 s 0 E)
    (hfit : ∀ seg, seg < m.maxIter →
      sv0.segmentCounts seg + (inSeg m seg (E ++ primePairs m tar 0 i)).length
        < m.entriesPerSegment)
    (hlow : m.firstIndex tar i < m.maxIncrements) :
    ∃ s1, modPrime m stale tar avxLimit W i s = Outcome.returned s1 ∧
      SpillInv m sv0 s1 0 (E ++ primePairs m tar 0 i) ∧
      1 ≤ s1.st.offsetCount 0 (m.firstIndex tar i >>> m.sieveBits) := by
  have hL : 1 ≤ m.primeTupleOffset.length := by
    unfold OFFSET_STACK_SIZE at hbig
    omega
  obtain ⟨hidx, _⟩ := computeIndex_index m hT tar avxLimit W i s.nextRemainder
    s.nextRemainderIdx hW hlim hlane hp0 hp hinv64
  unfold modPrime
  simp only
  rw [hidx, hs0, hs1]
  rw [primePairs_eq] at hfit
  obtain ⟨x0, hx0, _, h02, _, _, _⟩ := addToOffsets_spill m sv0 i (m.primes.getD i 0)
    (invertLattice (m.inverts.getD i 0) (m.primes.getD i 0)) 0 (m.firstIndex tar i)
    { s with
      nextRemainder := (computeIndex m tar avxLimit W i s.nextRemainder s.nextRemainderIdx).nextRemainder
      nextRemainderIdx :=
        (computeIndex m tar avxLimit W i s.nextRemainder s.nextRemainderIdx).nextRemainderIdx }
    E hL h32 (spillInv_of_same m sv0 s _ 0 E ⟨rfl, rfl, rfl, rfl, rfl⟩ hinv) hfit
  have hcnt := addToOffsets_count m i _ _ 0 _ _ x0 hsparse hlow hx0
  rw [hx0]
  simp only
  rw [if_neg hw2, addToOffsets_stale m i _ _ 1 _ x0.2 hsparse (by
    rw [halfPrimeTupleOffset_length]
    omega)]
  exact ⟨x0.2, rfl, h02, hcnt⟩

theorem updateRemainders_cancel (m : Miner) (stale : Nat → Nat → Bool)
    (verifyTarget verifyRemainderPrimorial : Int) (i : Nat) (st : ModState) (hT : m.TableInv)
    (h32 : m.sieveBits ≤ 32)
    (hp0 : 0 < m.primes.getD i 0) (hp : m.primes.getD i 0 < 2 ^ 32)
    (hinv64 : m.inverts.getD i 0 < 2 ^ 64)
    (hsparse : m.sparseLimit ≤ i) (hbig : OFFSET_STACK_SIZE ≤ m.primeTupleOffset.length)
    (hw1 : 1 ≤ m.sieveWorkers)
    (hw2 : m.sieveWorkers ≠ 1) (hs0 : stale i 0 = false) (hs1 : stale i 1 = true)
    (hzero : ∀ w, w < m.sieveWorkers → ∀ seg, seg < m.maxIter → st.offsetCount w seg = 0)
    (hfit : ∀ seg, seg < m.maxIter →
      (st.sieves 0).segmentCounts seg +
        (inSeg m seg (primePairs m (verifyTarget + verifyRemainderPrimorial).natAbs 0 i)).length
          < m.entriesPerSegment)
    (hlow : m.firstIndex (verifyTarget + verifyRemainderPrimorial).natAbs i < m.maxIncrements) :
    ∃ st1, updateRemainders m stale verifyTarget verifyRemainderPrimorial i (i + 1) st
        = Outcome.returned st1 ∧
      1 ≤ st1.offsetCount 0
        (m.firstIndex (verifyTarget + verifyRemainderPrimorial).natAbs i >>> m.sieveBits) ∧
      ∀ seg, seg < m.maxIter →
        (st.sieves 0).segmentCounts seg + st1.offsetCount 0 seg < m.entriesPerSegment := by
  obtain ⟨hW0, hW8⟩ := avxWidthOf_pos m
  have hlane0 : LaneInv m (verifyTarget + verifyRemainderPrimorial).natAbs (avxWidthOf m) i
      (fun _ => 0) 8 := by
    intro _ t h1 h2
    omega
  obtain ⟨ha1, ha2⟩ := allocateSpill_spec m st (fun _ => hzero)
  have hinit : SpillInv m (st.sieves 0)
      { st := allocateSpill m st, nOffsets := fun _ => 0, nextRemainder := fun _ => 0,
        nextRemainderIdx := 8 } 0 [] := by
    refine ⟨[], rfl, fun seg hseg => ?_⟩
    refine ⟨?_, ?_, ?_⟩
    · show (allocateSpill m st).offsetCount 0 seg = _
      rw [ha2 0 (by omega) seg hseg]
      rfl
    · show ((allocateSpill m st).sieves 0).segmentCounts seg = _
      rw [ha1]
      rfl
    · show hitsList ((allocateSpill m st).sieves 0) seg = _
      rw [ha1]
      simp [inSeg]
  obtain ⟨s1, hs1r, hsp, hcnt⟩ := modPrime_cancel m stale (st.sieves 0)
    (verifyTarget + verifyRemainderPrimorial).natAbs (avxLimitOf m i) (avxWidthOf m) i
    { st := allocateSpill m st, nOffsets := fun _ => 0, nextRemainder := fun _ => 0,
      nextRemainderIdx := 8 } [] hT h32 hW0 (avxLimitOf_le m i) hp0 hp hinv64 hlane0 hsparse
    hbig hw2 hs0 hs1 hinit
    (fun seg hseg => by
      rw [List.nil_append]
      exact hfit seg hseg)
    hlow
  have hr : List.range' i (i + 1 - i) = [i] := by
    rw [Nat.add_sub_cancel_left]
    rfl
  unfold updateRemainders
  simp only
  rw [hr]
  unfold modLoop
  rw [hs1r]
  refine ⟨s1.st, rfl, hcnt, fun seg hseg => ?_⟩
  obtain ⟨F, hE, hall⟩ := hsp
  have h1 := hfit seg hseg
  rw [List.nil_append] at hE
  rw [hE, inSeg_append, List.length_append] at h1
  rw [(hall seg hseg).1]
  omega

theorem putOffsetsInSegments_reserve (m : Miner) (sieve : SieveInstance)
    (offsets counts : Nat → Nat) (n : Nat)
    (hfit : ∀ seg, seg < m.maxIter →
      sieve.segmentCounts seg + counts seg < m.entriesPerSegment) :
    ∃ r, putOffsetsInSegments m sieve offsets counts n = some r ∧
      (∀ seg, seg < m.maxIter →
        r.1.segmentCounts seg = sieve.segmentCounts seg + counts seg) ∧
      (n = 0 → r.1.segmentHits = sieve.segmentHits) := by
  obtain ⟨hnone, hsome⟩ := putReserve_spec m.entriesPerSegment m.maxIter 0
    (sieve.segmentCounts, counts)
  rw [← List.range_eq_range'] at hnone hsome
  unfold putOffsetsInSegments
  cases hres : putReserve m.entriesPerSegment (List.range m.maxIter)
      (sieve.segmentCounts, counts) with
  | none =>
    exfalso
    obtain ⟨seg, _, h2, h3⟩ := hnone.1 hres
    have := hfit seg (by omega)
    have h3' : sieve.segmentCounts seg + counts seg ≥ m.entriesPerSegment := h3
    omega
  | some st1 =>
    obtain ⟨r1, _⟩ := hsome st1 hres
    refine ⟨_, rfl, fun seg hseg => (r1 seg (Nat.zero_le _) (by omega)).1, fun h => ?_⟩
    subst h
    rfl

/-- C15 (cancellation). The early `return` of `addToOffsets` leaves the thread-local spill
counts non-zero: in the configuration `stackMiner`, when the height changes after worker 0
has been served at the once-only prime 67, `_updateRemainders` returns early with
`offsetCount[0][0] ≥ 1`; the next flush of worker 0 on a fresh sieve instance, with an
empty spill buffer, then raises `segmentCounts[0]` by that stale count and stores no hit. -/
theorem C15_cancellation_stale_counts :
    ∃ st1 r, updateRemainders stackMiner (staleAtWorker 1) 10000 117 18 19 zeroModState
        = Outcome.returned st1 ∧
      1 ≤ st1.offsetCount 0 0 ∧
      putOffsetsInSegments stackMiner zeroSieve (st1.offsetStack 0) (st1.offsetCount 0) 0
        = some r ∧
      r.1.segmentCounts 0 = st1.offsetCount 0 0 ∧
      r.1.segmentHits = zeroSieve.segmentHits := by
  have hlen : (primeTable 100).length = 25 := by decide
  have hpt : stackMiner.primes = primeTable 100 := by
    simp only [stackMiner, sparseMiner, exampleMiner]
  have hit : stackMiner.inverts
      = initInverts (primeTable 100) (initPrimorial (primeTable 100) 3) 3 2 := by
    simp only [stackMiner, sparseMiner, exampleMiner]
  have hpm : stackMiner.primorial = initPrimorial (primeTable 100) 3 := by
    simp only [stackMiner, sparseMiner, exampleMiner]
  have hT : stackMiner.TableInv :=
    tableInv_of_init stackMiner 100 2 (by norm_num) hpt hpm hit (by decide) (by decide)
      (by decide)
  have hL : stackMiner.primeTupleOffset.length = 16384 := by
    show (List.replicate 16384 0).length = 16384
    exact List.length_replicate _ _
  have hp67 : stackMiner.primes.getD 18 0 = 67 := by
    rw [hpt]
    decide
  have hmax : stackMiner.maxIter = 1 := by decide
  have hfi : stackMiner.firstIndex ((10000 : Int) + 117).natAbs 18 = 0 := by
    unfold Miner.firstIndex
    rw [hp67]
    have : ((10000 : Int) + 117).natAbs % 67 = 0 := by decide
    rw [this, Nat.sub_zero, Nat.mul_mod_right]
  obtain ⟨st1, hrun, hcnt, hfit⟩ := updateRemainders_cancel stackMiner (staleAtWorker 1)
    10000 117 18 zeroModState hT (by decide)
    (by rw [hp67]; norm_num) (by rw [hp67]; norm_num)
    (by
      obtain ⟨x, _, hx⟩ := initInverts_getD 100 3 2 18 (by decide) (by decide) (by omega)
        (by rw [hlen]; omega)
      rw [hit, hx]
      exact Nat.mod_lt _ (by norm_num))
    (by decide)
    (by rw [hL]; decide)
    (by decide) (by decide) rfl rfl (fun _ _ _ _ => rfl)
    (fun seg _ => by
      have h1 := inSeg_length_le stackMiner seg
        (primePairs stackMiner ((10000 : Int) + 117).natAbs 0 18)
      have h2 := rangePairs_length_le stackMiner ((10000 : Int) + 117).natAbs 0 1 18
      simp only [rangePairs, List.append_nil] at h2
      rw [hL] at h2
      have h3 : (zeroModState.sieves 0).segmentCounts seg = 0 := rfl
      have h4 : stackMiner.entriesPerSegment = 104946 := rfl
      omega)
    (by rw [hfi]; decide)
  rw [hfi] at hcnt
  obtain ⟨r, hr, hr1, hr2⟩ := putOffsetsInSegments_reserve stackMiner zeroSieve
    (st1.offsetStack 0) (st1.offsetCount 0) 0
    (fun seg hseg => hfit seg hseg)
  refine ⟨st1, r, hrun, hcnt, hr, ?_, hr2 rfl⟩
  have := hr1 0 (by rw [hmax]; decide)
  rw [this]
  show 0 + st1.offsetCount 0 0 = _
  omega

/-! ## Initialisation: the once-only limit -/

theorem andNotOne_eq (x : Nat) (hx : x < 2 ^ 64) : andNotOne x = x - x % 2 := by
  unfold andNotOne
  have hr : x - x % 2 = 2 * (x / 2) := by omega
  rw [hr]
  apply Nat.eq_of_testBit_eq
  intro j
  rw [Nat.testBit_and]
  have hM : (2 : Nat) ^ 64 - 2 = 2 ^ 64 - (1 + 1) := rfl
  rw [hM, Nat.testBit_two_pow_sub_succ (by norm_num : (1 : Nat) < 2 ^ 64)]
  cases j with
  | zero =>
    simp [Nat.testBit_zero]
  | succ j =>
    rw [Nat.testBit_succ, Nat.testBit_succ, Nat.testBit_succ]
    have h1 : (1 : Nat) / 2 = 0 := rfl
    have h2 : 2 * (x / 2) / 2 = x / 2 := by omega
    rw [h1, h2, Nat.zero_testBit]
    by_cases hj : j + 1 < 64
    · simp [hj]
    · have hlt : x / 2 < 2 ^ j := by
        have hp : (2 : Nat) ^ 64 ≤ 2 ^ (j + 1) := Nat.pow_le_pow_right (by norm_num) (by omega)
        rw [pow_succ] at hp
        omega
      rw [Nat.testBit_lt_two_pow hlt]
      simp

theorem andNotOne_even (x : Nat) (hx : x < 2 ^ 64) : andNotOne x % 2 = 0 := by
  rw [andNotOne_eq x hx]
  omega

theorem sparseFold_keep (primes : List Nat) (maxIncrements : Nat) :
    ∀ (l : List Nat) (sl : Nat), sl ≠ 0 →
      l.foldl (sparseStep primes maxIncrements) sl = sl := by
  intro l
  induction l with
  | nil =>
    intro sl _
    rfl
  | cons i l ih =>
    intro sl hsl
    rw [List.foldl_cons]
    have : sparseStep primes maxIncrements sl i = sl := by
      unfold sparseStep
      by_cases h : primes.getD i 0 < maxIncrements
      · rw [if_pos h]
      · rw [if_neg h, if_neg hsl]
    rw [this]
    exact ih sl hsl

theorem sparseFold_none (primes : List Nat) (maxIncrements : Nat) :
    ∀ (l : List Nat), (∀ i, i ∈ l → primes.getD i 0 < maxIncrements) →
      l.foldl (sparseStep primes maxIncrements) 0 = 0 := by
  intro l
  induction l with
  | nil =>
    intro _
    rfl
  | cons i l ih =>
    intro h
    rw [List.foldl_cons]
    have : sparseStep primes maxIncrements 0 i = 0 := by
      unfold sparseStep
      rw [if_pos (h i (List.mem_cons_self _ _))]
    rw [this]
    exact ih (fun a ha => h a (List.mem_cons_of_mem _ ha))

theorem sparseFold_first (primes : List Nat) (maxIncrements a n k : Nat)
    (hak : a ≤ k) (hkn : k < a + n) (hk0 : andNotOne k ≠ 0)
    (hbefore : ∀ i, a ≤ i → i < k → primes.getD i 0 < maxIncrements)
    (hk : maxIncrements ≤ primes.getD k 0) :
    (List.range' a n).foldl (sparseStep primes maxIncrements) 0 = andNotOne k := by
  have hsplit : List.range' a n
      = List.range' a (k - a) ++ k :: List.range' (k + 1) (a + n - (k + 1)) := by
    have h4 := List.range'_append_1 a (k - a) ((a + n - (k + 1)) + 1)
    have h3 : a + (k - a) = k := by omega
    have h1 : (a + n - (k + 1)) + 1 + (k - a) = n := by omega
    rw [h3, h1, List.range'_succ] at h4
    exact h4.symm
  rw [hsplit, List.foldl_append, List.foldl_cons,
    sparseFold_none primes maxIncrements _ (fun i hi => by
      have := List.mem_range'_1.1 hi
      exact hbefore i (by omega) (by omega))]
  have : sparseStep primes maxIncrements 0 k = andNotOne k := by
    unfold sparseStep
    rw [if_neg (by omega), if_pos rfl]
  rw [this]
  exact sparseFold_keep primes maxIncrements _ _ hk0

theorem andNotOne_ne_zero (k : Nat) (hk : 5 ≤ k) (hlt : k < 2 ^ 64) : andNotOne k ≠ 0 := by
  rw [andNotOne_eq k hlt]
  omega

theorem initSparse_some (primes : List Nat) (maxIncrements k : Nat)
    (hlen : primes.length < 2 ^ 64) (hk5 : 5 ≤ k) (hklen : k < primes.length)
    (hbefore : ∀ i, 5 ≤ i → i < k → primes.getD i 0 < maxIncrements)
    (hk : maxIncrements ≤ primes.getD k 0) :
    initSparse primes maxIncrements = (primes.length, k - k % 2) := by
  have hk0 := andNotOne_ne_zero k hk5 (by omega)
  unfold initSparse
  simp only
  rw [sparseFold_first primes maxIncrements 5 (primes.length - 5) k hk5 (by omega) hk0 hbefore hk,
    if_neg hk0, andNotOne_eq k (by omega)]

theorem initSparse_none (primes : List Nat) (maxIncrements : Nat)
    (hlen : primes.length < 2 ^ 64)
    (hnone : ∀ i, 5 ≤ i → i < primes.length → primes.getD i 0 < maxIncrements) :
    initSparse primes maxIncrements
      = (primes.length - primes.length % 2, primes.length - primes.length % 2) := by
  unfold initSparse
  simp only
  rw [sparseFold_none primes maxIncrements _ (fun i hi => by
    have := List.mem_range'_1.1 hi
    exact hnone i (by omega) (by omega)), if_pos rfl, andNotOne_eq _ hlen]

theorem first_sparse_index (primes : List Nat) (maxIncrements : Nat)
    (hex : ∃ i, 5 ≤ i ∧ i < primes.length ∧ maxIncrements ≤ primes.getD i 0) :
    ∃ k, 5 ≤ k ∧ k < primes.length ∧ maxIncrements ≤ primes.getD k 0 ∧
      ∀ i, 5 ≤ i → i < k → primes.getD i 0 < maxIncrements := by
  classical
  refine ⟨Nat.find hex, (Nat.find_spec hex).1, (Nat.find_spec hex).2.1,
    (Nat.find_spec hex).2.2, fun i hi5 hik => ?_⟩
  by_contra hge
  exact Nat.find_min hex hik ⟨hi5, by have := (Nat.find_spec hex).2.1; omega, by omega⟩

theorem initSparse_even (primes : List Nat) (maxIncrements : Nat)
    (hlen : primes.length < 2 ^ 64) : (initSparse primes maxIncrements).2 % 2 = 0 := by
  by_cases hex : ∃ i, 5 ≤ i ∧ i < primes.length ∧ maxIncrements ≤ primes.getD i 0
  · obtain ⟨k, hk5, hklen, hk, hbefore⟩ := first_sparse_index primes maxIncrements hex
    rw [initSparse_some primes maxIncrements k hlen hk5 hklen hbefore hk]
    show (k - k % 2) % 2 = 0
    omega
  · rw [initSparse_none primes maxIncrements hlen (fun i h5 hi => by
      by_contra hge
      exact hex ⟨i, h5, hi, by omega⟩)]
    show (primes.length - primes.length % 2) % 2 = 0
    omega

/-- C17 (the once-only limit is even). For every prime table and every `maxIncrements`, the
`sparseLimit` that `init` computes is even; when no prime at an index `≥ 5` reaches
`maxIncrements`, `nPrimes` is rounded down to even and `sparseLimit = nPrimes`. For a
`Miner` with this `sparseLimit`, the alignment loop of `_runSieve` ends with an even
`start_i`, so both assertions `(start_i & 1) == 0` and `(end_i & 1) == 0` of
`_processSieve6(sieve, offsets, start_i, sparseLimit)` hold. -/
theorem C17_sparse_limit_even (primes : List Nat) (maxIncrements : Nat)
    (hlen : primes.length < 2 ^ 64) :
    (initSparse primes maxIncrements).2 % 2 = 0 ∧
    ((∀ i, 5 ≤ i → i < primes.length → primes.getD i 0 < maxIncrements) →
      (initSparse primes maxIncrements).1 = primes.length - primes.length % 2 ∧
      (initSparse primes maxIncrements).2 = (initSparse primes maxIncrements).1) ∧
    ∀ (m : Miner) (st : (Nat → Nat) × (Nat → Nat)),
      m.sparseLimit = (initSparse primes maxIncrements).2 →
      SlotsOK m (2 ^ 32) (m.startingPrimeIndex * m.primeTupleOffset.length)
        ((m.startingPrimeIndex + m.startingPrimeIndex % 2) * m.primeTupleOffset.length) st.1 →
      ∃ start_i st1, alignLoop m 2 m.startingPrimeIndex st = some (start_i, st1) ∧
        start_i &&& 1 = 0 ∧ m.sparseLimit &&& 1 = 0 := by
  have heven := initSparse_even primes maxIncrements hlen
  refine ⟨heven, fun hnone => ?_, fun m st hsl hok => ?_⟩
  · rw [initSparse_none primes maxIncrements hlen hnone]
    exact ⟨rfl, rfl⟩
  · obtain ⟨st1, h1, _⟩ := alignLoop_spec m m.startingPrimeIndex st hok
    refine ⟨_, st1, h1, ?_, ?_⟩
    · rw [Nat.and_one_is_mod]
      omega
    · rw [Nat.and_one_is_mod, hsl]
      exact heven

theorem C17_sparse_limit_even_witness :
    (initSparse (primeTable 100) 64).2 % 2 = 0 ∧
    ∃ start_i st1, alignLoop sparseMiner 2 sparseMiner.startingPrimeIndex
        (fun _ => 0, fun _ => 0) = some (start_i, st1) ∧
      start_i &&& 1 = 0 ∧ sparseMiner.sparseLimit &&& 1 = 0 := by
  obtain ⟨h1, _, h3⟩ := C17_sparse_limit_even (primeTable 100) 64 (by decide)
  refine ⟨h1, h3 sparseMiner (fun _ => 0, fun _ => 0) (by decide) ?_⟩
  intro slot hl hh
  have hk : sparseMiner.startingPrimeIndex = 3 := rfl
  have hL : sparseMiner.primeTupleOffset.length = 6 := rfl
  rw [hk, hL] at hl hh
  have h3p : sparseMiner.primes.getD 3 0 = 7 := by decide
  have hS : sparseMiner.sieveSize = 64 := by decide
  have hsp : sparseMiner.slotPrime slot = 7 := by
    have hc : sparseMiner.slotPrime slot = sparseMiner.primes.getD (slot / 6) 0 % 2 ^ 32 := rfl
    have hd : slot / 6 = 3 := by omega
    rw [hc, hd, h3p]
    norm_num
  rw [hsp, hS]
  refine ⟨by omega, by norm_num, by norm_num⟩

/-! ## Mod phase: the invariant with single pattern entries -/

/-- C18 (as stated, refuted): for `exampleMiner` (pattern `(0, 4, 2, 4, 2, 4)`, `P_k = 30`),
after the mod phase for `target + remainder = 10117`, the stored offset of worker 0, prime
index 3 (the prime 7) and family 2 does not make
`P_k * offset + firstCandidate(0) + o[2]` divisible by 7: the code realises the cumulative
offset `o[1] + o[2] = 6`, not the pattern entry `o[2] = 2`. -/
theorem C18_mod_invariant_counterexample :
    ∃ st1, updateRemainders exampleMiner (fun _ _ => false) 10000 117 3 24 zeroModState
        = Outcome.normal st1 ∧
      ((exampleMiner.primorial : Int) *
          ((st1.sieves 0).offsets (exampleMiner.primeTupleOffset.length * 3 + 2) : Int)
        + ((10000 : Int) + 117 + exampleMiner.offsetToFirst 0)
        + (exampleMiner.primeTupleOffset.getD 2 0 : Int))
        % (exampleMiner.primes.getD 3 0 : Int) ≠ 0 := by
  obtain ⟨hterm, hspec⟩ := updateRemainders_spec exampleMiner (fun _ _ => false) 10000 117 3 24
    zeroModState exampleMiner_tableInv exampleMiner_patternOK exampleMiner_offsetsOK (by decide)
    (by decide)
  obtain ⟨st1, hst1⟩ := hterm (by decide)
  refine ⟨st1, hst1, ?_⟩
  have hg := hspec st1 (Or.inl hst1) 3 (by decide) (by decide) (by decide) (by decide) 0
    (by decide) 2 (by decide)
  unfold DenseGood GoodIndex at hg
  have hP : exampleMiner.primorial = 30 := by decide
  have hp : exampleMiner.primes.getD 3 0 = 7 := by decide
  have hs : exampleMiner.offsetSum 2 = 6 := by
    simp [Miner.offsetSum, Finset.sum_range_succ, exampleMiner]
  have ho : exampleMiner.primeTupleOffset.getD 2 0 = 2 := rfl
  rw [offsetToFirst_zero, hP, hp, hs] at hg
  rw [offsetToFirst_zero, hP, hp, ho]
  obtain ⟨_, hdvd⟩ := hg
  push_cast at hdvd ⊢
  omega

/-- C18, corrected: with the cumulative offset `o[1] + ... + o[f]` in place of the pattern
entry `o[f]`. Under the table invariants of `init`, `o[0] = 0`, step offsets in
`{2, 4, 6}` and primorial offsets growing by at least `tupleSpan`, after every call of
`_updateRemainders` that returns, for every prime index `i` of the call in
`[startingPrimeIndex, sparseLimit)`, every worker `w` and every family `f`:
`(P_k * offsets[w][i][f] + firstCandidate(w) + (o[1] + ... + o[f])) mod primes[i] = 0` and
`offsets[w][i][f] < primes[i]`, where
`firstCandidate(w) = target + remainder + (primorialOffsets[w] - primorialOffsets[0])`. -/
theorem C18_mod_invariant (m : Miner) (stale : Nat → Nat → Bool)
    (verifyTarget verifyRemainderPrimorial : Int) (start_i end_i : Nat) (st st1 : ModState)
    (hT : m.TableInv) (hP : m.PatternOK) (hO : m.OffsetsOK) (hw : 1 ≤ m.sieveWorkers)
    (htar : 0 ≤ verifyTarget + verifyRemainderPrimorial)
    (hrun : updateRemainders m stale verifyTarget verifyRemainderPrimorial start_i end_i st
        = Outcome.normal st1 ∨
      updateRemainders m stale verifyTarget verifyRemainderPrimorial start_i end_i st
        = Outcome.returned st1)
    (i w f : Nat) (hi1 : start_i ≤ i) (hi2 : i < end_i) (hk : m.startingPrimeIndex ≤ i)
    (hd : i < m.sparseLimit) (hwlt : w < m.sieveWorkers) (hf : f < m.primeTupleOffset.length) :
    ((m.primorial : Int) * ((st1.sieves w).offsets (m.primeTupleOffset.length * i + f) : Int)
        + (verifyTarget + verifyRemainderPrimorial + m.offsetToFirst w)
        + (m.offsetSum f : Int)) % (m.primes.getD i 0 : Int) = 0 ∧
    (st1.sieves w).offsets (m.primeTupleOffset.length * i + f) < m.primes.getD i 0 := by
  obtain ⟨_, hspec⟩ := updateRemainders_spec m stale verifyTarget verifyRemainderPrimorial
    start_i end_i st hT hP hO hw htar
  have hg := hspec st1 hrun i hi1 hi2 hk hd w hwlt f hf
  unfold DenseGood GoodIndex at hg
  refine ⟨?_, hg.1⟩
  have h := Int.emod_eq_zero_of_dvd hg.2
  rw [← h]
  congr 1
  ring

theorem C18_mod_invariant_witness :
    ∃ st1, updateRemainders exampleMiner (fun _ _ => false) 10000 117 3 24 zeroModState
        = Outcome.normal st1 ∧
      ((exampleMiner.primorial : Int) *
          ((st1.sieves 0).offsets (exampleMiner.primeTupleOffset.length * 3 + 2) : Int)
        + ((10000 : Int) + 117 + exampleMiner.offsetToFirst 0)
        + (exampleMiner.offsetSum 2 : Int)) % (exampleMiner.primes.getD 3 0 : Int) = 0 := by
  obtain ⟨hterm, _⟩ := updateRemainders_spec exampleMiner (fun _ _ => false) 10000 117 3 24
    zeroModState exampleMiner_tableInv exampleMiner_patternOK exampleMiner_offsetsOK (by decide)
    (by decide)
  obtain ⟨st1, hst1⟩ := hterm (by decide)
  exact ⟨st1, hst1,
    (C18_mod_invariant exampleMiner (fun _ _ => false) 10000 117 3 24 zeroModState st1
      exampleMiner_tableInv exampleMiner_patternOK exampleMiner_offsetsOK (by decide)
      (by decide) (Or.inl hst1) 3 0 2 (by decide) (by decide) (by decide) (by decide)
      (by decide) (by decide)).1⟩

/-! ## Primorial -/

theorem foldl_primorial (primes : List Nat) :
    ∀ n, n + 1 ≤ primes.length →
      (List.range' 1 n).foldl (fun acc i => acc * primes.getD i 0) (primes.getD 0 0)
        = (primes.take (n + 1)).prod := by
  intro n
  induction n with
  | zero =>
    intro h
    cases primes with
    | nil => simp at h
    | cons a l => simp
  | succ n ih =>
    intro h
    rw [List.range'_1_concat, List.foldl_append, ih (by omega)]
    simp only [List.foldl_cons, List.foldl_nil]
    have e : 1 + n = n + 1 := by omega
    rw [e, List.take_succ (n := n + 1), List.prod_append, List.getD_eq_getElem?_getD,
      List.getElem?_eq_getElem (by omega : n + 1 < primes.length)]
    simp

theorem primeTable_take_five (limit : Nat) (h : 12 ≤ limit) :
    (primeTable limit).take 5 = [2, 3, 5, 7, 11] := by
  obtain ⟨k, rfl⟩ : ∃ k, limit = 12 + k := ⟨limit - 12, by omega⟩
  rw [primeTable_eq_filter _ (by omega), List.range_add, List.filter_append]
  have h12 : (List.range 12).filter (fun p => decide (Nat.Prime p)) = [2, 3, 5, 7, 11] := by
    simp only [List.range_succ, List.range_zero, List.nil_append, List.cons_append]
    norm_num [List.filter_cons]
  rw [h12]
  rfl

/-- C19 (primorial). For `1 ≤ k ≤ nPrimes` the primorial computed by `init` is the product
of `primes[0 .. k)`; for the prime table of any limit above 11 and `k = 5` it is 2310. -/
theorem C19_primorial (primes : List Nat) (k : Nat) (hk1 : 1 ≤ k) (hk : k ≤ primes.length) :
    initPrimorial primes k = (primes.take k).prod ∧
    ∀ limit, 12 ≤ limit → initPrimorial (primeTable limit) 5 = 2310 := by
  have hgen : ∀ (l : List Nat) (j : Nat), 1 ≤ j → j ≤ l.length →
      initPrimorial l j = (l.take j).prod := by
    intro l j hj1 hj
    unfold initPrimorial
    have := foldl_primorial l (j - 1) (by omega)
    rw [this]
    congr 2
    omega
  refine ⟨hgen primes k hk1 hk, fun limit hl => ?_⟩
  have ht := primeTable_take_five limit hl
  have hlen : 5 ≤ (primeTable limit).length := by
    have := congrArg List.length ht
    rw [List.length_take] at this
    simp only [List.length_cons, List.length_nil] at this
    omega
  rw [hgen (primeTable limit) 5 (by omega) hlen, ht]
  rfl

theorem C19_primorial_witness :
    initPrimorial (primeTable 100) 3 = ((primeTable 100).take 3).prod ∧
    initPrimorial (primeTable 100) 5 = 2310 := by
  obtain ⟨h1, h2⟩ := C19_primorial (primeTable 100) 3 (by decide) (by decide)
  exact ⟨h1, h2 100 (by decide)⟩

/-! ## Target builder: the scenario of difficulty 265 -/

theorem hashValue_first_bit : hashValue (1 :: List.replicate 31 0) = 2 ^ 255 := by
  have hrep : ∀ j, (List.replicate 31 0).getD j 0 = 0 := by
    intro j
    rw [List.getD_eq_getElem?_getD, List.getElem?_replicate]
    split <;> rfl
  unfold hashValue
  rw [Finset.sum_eq_single 0]
  · rfl
  · intro i _ hne
    rcases Nat.eq_zero_or_pos (i / 8) with h8 | h8
    · have hi : i % 8 = i := by omega
      rw [h8, hi]
      have h1 : (1 :: List.replicate 31 0).getD 0 0 = 1 := rfl
      rw [h1]
      have hlt : 1 < 2 ^ i := Nat.one_lt_two_pow (by omega)
      rw [Nat.div_eq_of_lt hlt]
      simp
    · obtain ⟨j, hj⟩ : ∃ j, i / 8 = j + 1 := ⟨i / 8 - 1, by omega⟩
      rw [hj, List.getD_cons_succ, hrep j]
      simp
  · intro h
    exact absurd (Finset.mem_range.2 (by norm_num)) h

/-- C20 (as stated, refuted): for the hash whose only set bit is bit 0 of byte 0 and
difficulty 265, `_getTargetFromBlock` does not return `2^265 + 2^256`. -/
theorem C20_target_scenario_counterexample :
    getTargetFromBlock (1 :: List.replicate 31 0) 265 ≠ 2 ^ 265 + 2 ^ 256 := by
  rw [getTargetFromBlock_eq _ 265 (by norm_num) (by norm_num), hashValue_first_bit]
  norm_num

/-- C20, corrected: for the hash whose only set bit is bit 0 of byte 0 and difficulty 265,
`_getTargetFromBlock` returns `2^264 + 2^255`: the leading 1 at bit 264, eight zero bits,
the first hash bit at bit 255, no trailing zeros. -/
theorem C20_target_scenario :
    getTargetFromBlock (1 :: List.replicate 31 0) 265 = 2 ^ 264 + 2 ^ 255 := by
  rw [getTargetFromBlock_eq _ 265 (by norm_num) (by norm_num), hashValue_first_bit]
  norm_num

/-! ## Target builder: the first-candidate scenario -/

/-- C21 (as stated, refuted): with `P_k = 2310`, `primorialOffsets[0] = 97` and
`target = 10000`, the stored `verifyRemainderPrimorial` is not 567 and the first candidate
is not 10567. -/
theorem C21_first_candidate_scenario_counterexample :
    verifyRemainderPrimorial 10000 2310 97 ≠ 567 ∧ firstCandidate0 10000 2310 97 ≠ 10567 := by
  decide

/-- C21, corrected: with `P_k = 2310`, `primorialOffsets[0] = 97` and `target = 10000`,
the remainder computation of `_processOneBlock` stores
`verifyRemainderPrimorial = ((2310 - 10000 mod 2310) mod 2310) + 97 = (2310 - 760) + 97
= 1647`, and the first candidate is `10000 + 1647 = 11647` (`11647 - 97 = 5 * 2310`). -/
theorem C21_first_candidate_scenario :
    verifyRemainderPrimorial 10000 2310 97 = 1647 ∧ firstCandidate0 10000 2310 97 = 11647 ∧
    (11647 : Int) - 97 = 5 * 2310 := by
  decide

/-! ## Verifier: the Fermat test on primes -/

theorem isPrimeFermat_of_prime (n : Nat) (hp : n.Prime) (h2 : 2 < n) :
    isPrimeFermat (n : Int) = true := by
  unfold isPrimeFermat
  rw [decide_eq_true_iff]
  have hco : IsCoprime (2 : Int) (n : Int) := by
    have h : Nat.Coprime 2 n := by
      rw [Nat.coprime_primes Nat.prime_two hp]
      omega
    exact_mod_cast Nat.isCoprime_iff_coprime.2 h
  have hfl := Int.ModEq.pow_card_sub_one_eq_one hp hco
  have hexp : ((n : Int) - 1).toNat = n - 1 := by omega
  rw [hexp]
  have h1 : (2 : Int) ^ (n - 1) % (n : Int) = 1 % (n : Int) := hfl
  rw [h1]
  exact Int.emod_eq_of_lt (by omega) (by omega)

theorem walkLoop_allpass (m : Miner) (n : Int) :
    ∀ (k f0 : Nat) (s : WalkState), s.candidate = n + (m.offsetSum f0 : Int) →
      s.tupleLength < 256 →
      (∀ f, f0 < f → f ≤ f0 + k → isPrimeFermat (n + (m.offsetSum f : Int)) = true) →
      (walkLoop m (List.range' (f0 + 1) k) s).tupleLength = (s.tupleLength + k) % 256 := by
  intro k
  induction k with
  | zero =>
    intro f0 s _ hlt _
    show s.tupleLength = _
    rw [Nat.add_zero, Nat.mod_eq_of_lt hlt]
  | succ k ih =>
    intro f0 s hcand hlt hall
    rw [List.range'_succ]
    unfold walkLoop
    have hc : s.candidate + (m.primeTupleOffset.getD (f0 + 1) 0 : Int)
        = n + (m.offsetSum (f0 + 1) : Int) := by
      rw [hcand, offsetSum_succ]
      push_cast
      ring
    simp only [hc, hall (f0 + 1) (by omega) (by omega), if_true]
    rw [ih (f0 + 1) _ rfl (Nat.mod_lt _ (by norm_num))
      (fun f h1 h2 => hall f (by omega) (by omega))]
    show ((s.tupleLength + 1) % 256 + k) % 256 = _
    omega

theorem verifyWalk_allpass (m : Miner) (firstTestDone : Bool) (verifyTarget n : Int)
    (hL1 : 1 ≤ m.primeTupleOffset.length)
    (hall : ∀ f, f < m.primeTupleOffset.length →
      isPrimeFermat (n + (m.offsetSum f : Int)) = true) :
    (verifyWalk m firstTestDone verifyTarget n).tupleLength
      = m.primeTupleOffset.length % 256 := by
  have h0 : isPrimeFermat n = true := by
    have := hall 0 (by omega)
    have hz : (m.offsetSum 0 : Int) = 0 := by simp [Miner.offsetSum]
    rw [hz, Int.add_zero] at this
    exact this
  unfold verifyWalk
  rw [h0]
  simp only [Bool.not_true, Bool.and_false, Bool.false_eq_true, if_false]
  have hz : (m.offsetSum 0 : Int) = 0 := by simp [Miner.offsetSum]
  rw [walkLoop_allpass m n (m.primeTupleOffset.length - 1) 0
    { candidate := n, tupleLength := 1, offsetSum := 0 } (by rw [hz, Int.add_zero])
    (by norm_num) (fun f h1 h2 => hall f (by omega))]
  show (1 + (m.primeTupleOffset.length - 1)) % 256 = _
  congr 1
  omega
/-- C30 (as stated, refuted for long patterns): in `longPatternMiner` (257 entries 0) every
member of the constellation of base 3 is the prime 3, which passes the Fermat test, yet
the `uint8_t tupleLength` reported by the walk is `257 mod 256 = 1`, not the full length
257. -/
theorem C30_fermat_accepts_primes_counterexample :
    Nat.Prime 3 ∧ isPrimeFermat 3 = true ∧ longPatternMiner.primeTupleOffset.length = 257 ∧
    (∀ f, f < 257 → (3 : Int) + (longPatternMiner.offsetSum f : Int) = 3) ∧
    (verifyWalk longPatternMiner false 0 3).tupleLength = 1 := by
  have hlen : longPatternMiner.primeTupleOffset.length = 257 := by
    show (List.replicate 257 0).length = 257
    exact List.length_replicate _ _
  have hmem : ∀ f, (3 : Int) + (longPatternMiner.offsetSum f : Int) = 3 := by
    intro f
    rw [longPattern_offsetSum]
    rfl
  have h3 : isPrimeFermat 3 = true := by decide
  refine ⟨Nat.prime_three, h3, hlen, fun f _ => hmem f, ?_⟩
  rw [verifyWalk_allpass longPatternMiner false 0 3 (by rw [hlen]; norm_num)
    (fun f _ => by rw [hmem f]; exact h3), hlen]

/-- C30, corrected: `isPrimeFermat` accepts every prime `n > 2`; and for a pattern of at
most 255 members, a base `n` all of whose constellation members
`n + (o[1] + ... + o[f])` are primes above 2 gets `tupleLength = L` in the walk, in solo
and in pool mode, whether or not the batched kernel has tested the base; the candidate is
submitted with `L` primes when `L` reaches the threshold (`tupleLengthMin` in solo mode,
4 in pool mode). -/
theorem C30_fermat_accepts_primes (m : Miner) (firstTestDone : Bool) (verifyTarget : Int)
    (n : Nat) (hL1 : 1 ≤ m.primeTupleOffset.length) (hL : m.primeTupleOffset.length ≤ 255)
    (hprime : ∀ f, f < m.primeTupleOffset.length →
      Nat.Prime (n + m.offsetSum f) ∧ 2 < n + m.offsetSum f) :
    (∀ q : Nat, q.Prime → 2 < q → isPrimeFermat (q : Int) = true) ∧
    (verifyWalk m firstTestDone verifyTarget (n : Int)).tupleLength
      = m.primeTupleOffset.length ∧
    (verifyWalk m firstTestDone verifyTarget (n : Int)).submit
      = (if (if m.solo then m.tupleLengthMin else 4) ≤ m.primeTupleOffset.length
          then some m.primeTupleOffset.length else none) := by
  have hall : ∀ f, f < m.primeTupleOffset.length →
      isPrimeFermat ((n : Int) + (m.offsetSum f : Int)) = true := by
    intro f hf
    obtain ⟨h1, h2⟩ := hprime f hf
    have := isPrimeFermat_of_prime _ h1 h2
    rw [Nat.cast_add] at this
    exact this
  have htl := verifyWalk_allpass m firstTestDone verifyTarget n hL1 hall
  rw [Nat.mod_eq_of_lt (by omega)] at htl
  refine ⟨isPrimeFermat_of_prime, htl, ?_⟩
  have h0 : isPrimeFermat (n : Int) = true := by
    have := hall 0 (by omega)
    have hz : (m.offsetSum 0 : Int) = 0 := by simp [Miner.offsetSum]
    rw [hz, Int.add_zero] at this
    exact this
  have hs : (verifyWalk m firstTestDone verifyTarget (n : Int)).submit
      = (if (if m.solo then
              decide ((verifyWalk m firstTestDone verifyTarget (n : Int)).tupleLength
                < m.tupleLengthMin)
            else decide ((verifyWalk m firstTestDone verifyTarget (n : Int)).tupleLength < 4))
          then none
          else some (verifyWalk m firstTestDone verifyTarget (n : Int)).tupleLength) := by
    unfold verifyWalk
    rw [h0]
    simp only [Bool.not_true, Bool.and_false, Bool.false_eq_true, if_false]
  rw [hs, htl]
  cases hsolo : m.solo with
  | true =>
    simp only [if_true]
    by_cases h : m.tupleLengthMin ≤ m.primeTupleOffset.length
    · rw [if_pos h, if_neg (by simpa using h)]
    · rw [if_neg h, if_pos (by simpa using h)]
  | false =>
    simp only [Bool.false_eq_true, if_false]
    by_cases h : 4 ≤ m.primeTupleOffset.length
    · rw [if_pos h, if_neg (by simpa using h)]
    · rw [if_neg h, if_pos (by simpa using h)]

theorem C30_fermat_accepts_primes_witness :
    (verifyWalk exampleMiner false 0 ((7 : Nat) : Int)).tupleLength = 6 ∧
    (verifyWalk exampleMiner false 0 ((7 : Nat) : Int)).submit = some 6 := by
  have h := C30_fermat_accepts_primes exampleMiner false 0 7 (by decide) (by decide)
    (fun f hf => by
      have hf6 : f < 6 := hf
      have hs : ∀ g, g < 6 → exampleMiner.offsetSum g = [0, 4, 6, 10, 12, 16].getD g 0 := by
        intro g hg
        interval_cases g <;>
          simp [Miner.offsetSum, Finset.sum_range_succ, exampleMiner]
      rw [hs f hf6]
      interval_cases f <;> norm_num)
  exact ⟨h.2.1, h.2.2⟩
/-! ## Verifier: the octuplet scenario -/

theorem fermat_fails_of_five_dvd (N : Int) (hpos : 1 < N) (h5 : (5 : Int) ∣ N)
    (h4 : (N - 1) % 4 = 2) : isPrimeFermat N = false := by
  unfold isPrimeFermat
  rw [decide_eq_false_iff_not]
  intro h
  obtain ⟨q, hq⟩ : ∃ q : Nat, (N - 1).toNat = 4 * q + 2 := by
    refine ⟨((N - 1).toNat - 2) / 4, ?_⟩
    omega
  rw [hq] at h
  have hmod : (2 : Int) ^ (4 * q + 2) ≡ 1 [ZMOD N] := by
    show (2 : Int) ^ (4 * q + 2) % N = 1 % N
    rw [h, Int.emod_eq_of_lt (by omega) hpos]
  have hmod5 : (2 : Int) ^ (4 * q + 2) ≡ 1 [ZMOD 5] := Int.ModEq.of_dvd h5 hmod
  have h16 : (2 : Int) ^ (4 * q + 2) = 16 ^ q * 4 := by
    rw [pow_add, pow_mul]
    norm_num
  rw [h16] at hmod5
  have h1 : (16 : Int) ^ q ≡ 1 [ZMOD 5] := by
    have : (16 : Int) ≡ 1 [ZMOD 5] := by decide
    simpa using this.pow q
  have h2 : (16 : Int) ^ q * 4 ≡ 1 * 4 [ZMOD 5] := h1.mul_right 4
  have h3 : (1 : Int) * 4 ≡ 1 [ZMOD 5] := h2.symm.trans hmod5
  revert h3
  decide

theorem leadingPassing_le_one (m : Miner) (n : Int) (hL : 2 ≤ m.primeTupleOffset.length)
    (hfail : isPrimeFermat (n + (m.offsetSum 1 : Int)) = false) : leadingPassing m n ≤ 1 := by
  cases h0 : isPrimeFermat n with
  | true =>
    rw [leadingPassing_eq m n 1 (fun f hf => by
      have : f = 0 := by omega
      subst this
      have hz : (m.offsetSum 0 : Int) = 0 := by simp [Miner.offsetSum]
      rw [hz, Int.add_zero]
      exact h0) (by omega) (fun _ => hfail)]
  | false =>
    rw [leadingPassing_eq m n 0 (fun f hf => by omega) (by omega) (fun _ => by
      have hz : (m.offsetSum 0 : Int) = 0 := by simp [Miner.offsetSum]
      rw [hz, Int.add_zero]
      exact h0)]
    omega

/-- C22 (as stated, refuted): `n = 11410337850553` is not an octuplet base: `n + 2` is
divisible by 5 and fails the base-2 Fermat test. With the pattern configured as
`(0, 2, 6, 8, 12, 18, 20, 26)`, and also with the step offsets `(0, 2, 4, 2, 4, 6, 2, 6)`
of that constellation, the walk stops at the second member and reports a `tupleLength` of
at most 1. -/
theorem C22_octuplet_scenario_counterexample :
    (5 : Int) ∣ 11410337850553 + 2 ∧ isPrimeFermat (11410337850553 + 2) = false ∧
    (verifyWalk octupletMiner false 0 11410337850553).tupleLength ≤ 1 ∧
    (verifyWalk octupletStepMiner false 0 11410337850553).tupleLength ≤ 1 := by
  have h5 : (5 : Int) ∣ 11410337850553 + 2 := by decide
  have hfail : isPrimeFermat (11410337850553 + 2) = false :=
    fermat_fails_of_five_dvd _ (by norm_num) h5 (by norm_num)
  have hs1 : octupletMiner.offsetSum 1 = 2 := by
    simp [Miner.offsetSum, octupletMiner]
  have hs2 : octupletStepMiner.offsetSum 1 = 2 := by
    simp [Miner.offsetSum, octupletStepMiner]
  refine ⟨h5, hfail, ?_, ?_⟩
  · rw [(verifyWalk_solo octupletMiner false 0 _ rfl (by decide) (fun h => by cases h)).1]
    have := leadingPassing_le_one octupletMiner 11410337850553 (by decide)
      (by rw [hs1]; exact hfail)
    omega
  · rw [(verifyWalk_solo octupletStepMiner false 0 _ rfl (by decide) (fun h => by cases h)).1]
    have := leadingPassing_le_one octupletStepMiner 11410337850553 (by decide)
      (by rw [hs2]; exact hfail)
    omega

/-- C22, corrected: with the pattern configured by the step offsets
`(0, 2, 4, 2, 4, 6, 2, 6)` of the constellation `(0, 2, 6, 8, 12, 18, 20, 26)` and the
octuplet base `n = 11` (11, 13, 17, 19, 23, 29, 31, 37), the walk with the base-2 Fermat
test on each member reports `tupleLength = 8` and submits the candidate with 8 primes. -/
theorem C22_octuplet_scenario :
    (verifyWalk octupletStepMiner false 0 11).tupleLength = 8 ∧
    (verifyWalk octupletStepMiner false 0 11).submit = some 8 := by
  have hs : ∀ g, g < 8 →
      octupletStepMiner.offsetSum g = [0, 2, 6, 8, 12, 18, 20, 26].getD g 0 := by
    intro g hg
    interval_cases g <;>
      simp [Miner.offsetSum, Finset.sum_range_succ, octupletStepMiner]
  have hall : ∀ f, f < octupletStepMiner.primeTupleOffset.length →
      isPrimeFermat ((11 : Int) + (octupletStepMiner.offsetSum f : Int)) = true := by
    intro f hf
    have hf8 : f < 8 := hf
    rw [hs f hf8]
    interval_cases f <;> decide
  have hlp : leadingPassing octupletStepMiner 11 = 8 :=
    leadingPassing_eq octupletStepMiner 11 8 (fun f hf => hall f hf) (by decide)
      (fun h => absurd h (by decide))
  obtain ⟨h1, h2⟩ := verifyWalk_solo octupletStepMiner false 0 11 rfl (by decide)
    (fun h => by cases h)
  rw [hlp] at h1 h2
  refine ⟨h1, ?_⟩
  rw [h2, if_pos ⟨hall 0 (by decide), by decide⟩]

/-! ## Master: the adaptive work target -/

/-- C23 (adaptive work target limit). With `C = 9216` the capacity of `workDoneQueue`:
for every previous `maxWorkOut`, `curWorkOut`, `minWorkOut`, every `sieveWorkers` and every
`threads` with `9 * threads ≤ C`, the adjustment at the end of `_processOneBlock` leaves
`maxWorkOut ≤ C - 9 * threads`; and `init` leaves `maxWorkOut ≤ C - 256`. -/
theorem C23_work_target_limit (threads sieveWorkers maxWorkOut curWorkOut minWorkOut : Nat)
    (ht : 9 * threads ≤ WORK_DONE_CAPACITY) :
    adjustMaxWorkOut threads sieveWorkers maxWorkOut curWorkOut minWorkOut
      ≤ WORK_DONE_CAPACITY - 9 * threads ∧
    initMaxWorkOut threads sieveWorkers ≤ WORK_DONE_CAPACITY - 256 := by
  unfold WORK_DONE_CAPACITY at ht ⊢
  constructor
  · unfold adjustMaxWorkOut WORK_DONE_CAPACITY
    refine le_trans (min_le_right _ _) ?_
    have h32 : (2 : Nat) ^ 32 = 4294967296 := by norm_num
    rw [h32]
    omega
  · unfold initMaxWorkOut WORK_DONE_CAPACITY
    refine le_trans (min_le_right _ _) ?_
    norm_num

theorem C23_work_target_limit_witness :
    adjustMaxWorkOut 8 2 9000 9000 0 ≤ WORK_DONE_CAPACITY - 9 * 8 ∧
    initMaxWorkOut 8 2 ≤ WORK_DONE_CAPACITY - 256 :=
  C23_work_target_limit 8 2 9000 9000 0 (by decide)

/-! ## Master: the slicing of the mod phase -/

theorem sliceLoop_spec (nPrimes sparseLimit incr start : Nat) (hincr : 1 ≤ incr)
    (hle : incr ≤ nPrimes) (h63 : nPrimes ≤ 2 ^ 63) :
    ∀ (fuel base : Nat) (s : SliceState), nPrimes ≤ base + fuel →
      SliceInv nPrimes sparseLimit incr start base s →
      ∃ s1 base1, sliceLoop nPrimes sparseLimit incr (fuel + 1) base s = some s1 ∧
        nPrimes ≤ base1 ∧ SliceInv nPrimes sparseLimit incr start base1 s1 := by
  have h64 : (2 : Nat) ^ 64 = 2 ^ 63 + 2 ^ 63 := by norm_num
  intro fuel
  induction fuel with
  | zero =>
    intro base s hf hinv
    unfold sliceLoop
    rw [if_neg (by omega)]
    exact ⟨s, base, rfl, by omega, hinv⟩
  | succ fuel ih =>
    intro base s hf hinv
    unfold sliceLoop
    by_cases hb : base < nPrimes
    · rw [if_pos hb]
      have hnw : (base + incr) % 2 ^ 64 = base + incr := Nat.mod_eq_of_lt (by omega)
      simp only [hnw]
      obtain ⟨i1, i2, i3, i4, i5, i6, i7, i8⟩ := hinv
      apply ih (base + incr) _ (by omega)
      refine ⟨by omega, Or.inr (by omega), ?_, ?_, ?_, ?_, ?_, ?_⟩
      · intro j hj
        rcases List.mem_append.1 hj with h | h
        · obtain ⟨a, b, c, d⟩ := i3 j h
          exact ⟨a, b, by omega, d⟩
        · have hj' : j = (base, min nPrimes (base + incr)) := by simpa using h
          subst hj'
          simp only
          refine ⟨?_, ?_, ?_, ?_⟩ <;> omega
      · show (s.jobs ++ [(base, min nPrimes (base + incr))]).Pairwise (fun a b => a.2 ≤ b.1)
        rw [List.pairwise_append]
        refine ⟨i4, List.pairwise_singleton _ _, ?_⟩
        intro a ha b hb'
        have hb2 : b = (base, min nPrimes (base + incr)) := by simpa using hb'
        subst hb2
        exact (i3 a ha).2.2.1
      · intro x
        show (∃ j ∈ s.jobs ++ [(base, min nPrimes (base + incr))], j.1 ≤ x ∧ x < j.2) ↔ _
        constructor
        · rintro ⟨j, hj, h1, h2⟩
          rcases List.mem_append.1 hj with h | h
          · have := (i5 x).1 ⟨j, h, h1, h2⟩
            omega
          · have hj' : j = (base, min nPrimes (base + incr)) := by simpa using h
            subst hj'
            simp only at h1 h2
            omega
        · rintro ⟨h1, h2, h3⟩
          by_cases hx : x < base
          · obtain ⟨j, hj, a, b⟩ := (i5 x).2 ⟨h1, hx, h3⟩
            exact ⟨j, List.mem_append.2 (Or.inl hj), a, b⟩
          · refine ⟨(base, min nPrimes (base + incr)),
              List.mem_append.2 (Or.inr (List.mem_singleton.2 rfl)), ?_, ?_⟩
            · show base ≤ x
              omega
            · show x < min nPrimes (base + incr)
              omega
      · show (if base < sparseLimit then s.nLowModWorkers + 1 else s.nLowModWorkers)
            + (if base < sparseLimit then s.nModWorkers else s.nModWorkers + 1)
          = (s.jobs ++ [(base, min nPrimes (base + incr))]).length
        rw [List.length_append, List.length_singleton]
        split <;> omega
      · show (if base < sparseLimit then s.nLowModWorkers + 1 else s.nLowModWorkers)
          = ((s.jobs ++ [(base, min nPrimes (base + incr))]).filter
              (fun j => decide (j.1 < sparseLimit))).length
        rw [List.filter_append, List.length_append, ← i7, List.filter_singleton]
        by_cases hlow : base < sparseLimit
        · rw [if_pos hlow]
          simp [hlow]
        · rw [if_neg hlow]
          simp [hlow]
      · show (s.jobs ++ [(base, min nPrimes (base + incr))]).length * incr + start ≤ base + incr
        rw [List.length_append, List.length_singleton, Nat.add_mul, Nat.one_mul]
        omega
    · rw [if_neg hb]
      exact ⟨s, base, rfl, by omega, hinv⟩

/-- C28 (mod job slicing). For every configuration with `threads ≥ 1` and
`nPrimes ≥ 8 * threads` (and `nPrimes ≤ 2^63`, so that the `uint64_t` sum `base + incr`
does not wrap), the slicing loop of `_processOneBlock` ends; the ranges `[start, end)` of
the `TYPE_MOD` jobs it pushes are non-empty, of length at most `nPrimes/(threads*8)`, in
ascending order and pairwise disjoint, and cover exactly `[startingPrimeIndex, nPrimes)`;
`nLowModWorkers` is the number of jobs with `start < sparseLimit`, and the two counters add
up to the number of jobs, which is at most `16 * threads`. -/
theorem C28_mod_job_slicing (m : Miner) (ht : 1 ≤ m.threads)
    (hn : 8 * m.threads ≤ m.nPrimes) (h63 : m.nPrimes ≤ 2 ^ 63) :
    ∃ s, modJobs m = some s ∧
      (∀ j ∈ s.jobs, j.1 < j.2 ∧ j.2 - j.1 ≤ m.nPrimes / (m.threads * 8)) ∧
      s.jobs.Pairwise (fun a b => a.2 ≤ b.1) ∧
      (∀ x, (∃ j ∈ s.jobs, j.1 ≤ x ∧ x < j.2) ↔ (m.startingPrimeIndex ≤ x ∧ x < m.nPrimes)) ∧
      s.nLowModWorkers = (s.jobs.filter (fun j => decide (j.1 < m.sparseLimit))).length ∧
      s.nLowModWorkers + s.nModWorkers = s.jobs.length ∧
      s.jobs.length ≤ 16 * m.threads := by
  have hpos : 0 < m.threads * 8 := by omega
  have hincr : 1 ≤ m.nPrimes / (m.threads * 8) :=
    (Nat.le_div_iff_mul_le hpos).2 (by omega)
  have hle : m.nPrimes / (m.threads * 8) ≤ m.nPrimes := Nat.div_le_self _ _
  have hinit : SliceInv m.nPrimes m.sparseLimit (m.nPrimes / (m.threads * 8))
      m.startingPrimeIndex m.startingPrimeIndex
      { jobs := [], nLowModWorkers := 0, nModWorkers := 0 } := by
    refine ⟨Nat.le_refl _, Or.inl rfl, ?_, List.Pairwise.nil, ?_, rfl, rfl, ?_⟩
    · intro j hj
      cases hj
    · intro x
      constructor
      · rintro ⟨j, hj, _⟩
        cases hj
      · rintro ⟨h1, h2, _⟩
        omega
    · show ([] : List (Nat × Nat)).length * _ + _ ≤ _
      simp
  obtain ⟨s, base1, hrun, hb1, i1, i2, i3, i4, i5, i6, i7, i8⟩ :=
    sliceLoop_spec m.nPrimes m.sparseLimit (m.nPrimes / (m.threads * 8)) m.startingPrimeIndex
      hincr hle h63 m.nPrimes m.startingPrimeIndex
      { jobs := [], nLowModWorkers := 0, nModWorkers := 0 } (by omega) hinit
  refine ⟨s, hrun, fun j hj => ⟨(i3 j hj).1, (i3 j hj).2.1⟩, i4, ?_, i7, i6, ?_⟩
  · intro x
    rw [i5 x]
    constructor
    · rintro ⟨a, _, c⟩
      exact ⟨a, c⟩
    · rintro ⟨a, c⟩
      exact ⟨a, by omega, c⟩
  · -- the number of jobs
    have hlt : m.nPrimes < m.threads * 8 * (m.nPrimes / (m.threads * 8) + 1) :=
      Nat.lt_mul_div_succ _ hpos
    rcases i2 with h | h
    · have : s.jobs.length * (m.nPrimes / (m.threads * 8)) = 0 := by omega
      rcases Nat.mul_eq_zero.1 this with h0 | h0
      · omega
      · omega
    · by_contra hgt
      have hlen : 16 * m.threads + 1 ≤ s.jobs.length := by omega
      have hmul : (16 * m.threads + 1) * (m.nPrimes / (m.threads * 8))
          ≤ s.jobs.length * (m.nPrimes / (m.threads * 8)) := Nat.mul_le_mul_right _ hlen
      have hq : m.threads * 8 * (m.nPrimes / (m.threads * 8) + 1)
          ≤ 16 * m.threads * (m.nPrimes / (m.threads * 8)) := by
        have : m.threads * 8 * (m.nPrimes / (m.threads * 8) + 1)
            = m.threads * 8 * (m.nPrimes / (m.threads * 8)) + m.threads * 8 := by ring
        rw [this]
        have h2 : m.threads * 8 ≤ m.threads * 8 * (m.nPrimes / (m.threads * 8)) :=
          Nat.le_mul_of_pos_right _ (by omega)
        have h3 : 16 * m.threads * (m.nPrimes / (m.threads * 8))
            = m.threads * 8 * (m.nPrimes / (m.threads * 8))
              + m.threads * 8 * (m.nPrimes / (m.threads * 8)) := by ring
        omega
      have hexp : (16 * m.threads + 1) * (m.nPrimes / (m.threads * 8))
          = 16 * m.threads * (m.nPrimes / (m.threads * 8)) + m.nPrimes / (m.threads * 8) := by
        ring
      omega

theorem C28_mod_job_slicing_witness :
    ∃ s, modJobs sparseMiner = some s ∧
      s.jobs.Pairwise (fun a b => a.2 ≤ b.1) ∧
      s.nLowModWorkers + s.nModWorkers = s.jobs.length := by
  obtain ⟨s, h1, _, h3, _, _, h6, _⟩ := C28_mod_job_slicing sparseMiner (by decide) (by decide)
    (by
      have : sparseMiner.nPrimes = 25 := rfl
      rw [this]
      norm_num)
  exact ⟨s, h1, h3, h6⟩

/-! ## Verifier: batched and scalar first test -/

theorem compact_spec (isPrime orig : Nat → Nat) :
    ∀ k, ((List.range k).foldl (compactStep isPrime) (orig, 0)).2 ≤ k ∧
      (List.range ((List.range k).foldl (compactStep isPrime) (orig, 0)).2).map
          ((List.range k).foldl (compactStep isPrime) (orig, 0)).1
        = ((List.range k).filter (fun i => decide (isPrime i ≠ 0))).map orig ∧
      ∀ j, k ≤ j → ((List.range k).foldl (compactStep isPrime) (orig, 0)).1 j = orig j := by
  intro k
  induction k with
  | zero => exact ⟨Nat.le_refl _, rfl, fun _ _ => rfl⟩
  | succ k ih =>
    obtain ⟨h1, h2, h3⟩ := ih
    rw [List.range_succ, List.foldl_append, List.filter_append, List.map_append]
    simp only [List.foldl_cons, List.foldl_nil]
    generalize (List.range k).foldl (compactStep isPrime) (orig, 0) = st at h1 h2 h3 ⊢
    unfold compactStep
    by_cases hp : isPrime k ≠ 0
    · rw [if_pos hp]
      simp only
      refine ⟨by omega, ?_, ?_⟩
      · rw [range_map_update, h2, h3 k (Nat.le_refl _), List.filter_singleton]
        simp [hp]
      · intro j hj
        rw [Function.update_noteq (by omega), h3 j (by omega)]
    · rw [if_neg hp]
      refine ⟨by omega, ?_, fun j hj => h3 j (by omega)⟩
      rw [h2, List.filter_singleton]
      simp [hp]

theorem checkLoop_eq (m : Miner) (firstTestDone : Bool) (verifyTarget ploop : Int)
    (indexes : Nat → Nat) :
    ∀ (l : List Nat) (subs : List (Int × Nat)),
      checkLoop m firstTestDone verifyTarget ploop indexes l subs
        = subs ++ (l.map indexes).filterMap (submissionOf m firstTestDone verifyTarget ploop) := by
  intro l
  induction l with
  | nil =>
    intro subs
    simp [checkLoop]
  | cons idx rest ih =>
    intro subs
    unfold checkLoop
    rw [List.map_cons, List.filterMap_cons]
    unfold submissionOf
    cases hs : (verifyWalk m firstTestDone verifyTarget
        (verifyCandidate m ploop (indexes idx))).submit with
    | none =>
      simp only [Option.map_none']
      rw [ih subs]
      rfl
    | some tl =>
      simp only [Option.map_some']
      rw [ih, List.append_assoc]
      rfl

theorem verifyWalk_first_fail (m : Miner) (verifyTarget c : Int)
    (h : isPrimeFermat c = false) : (verifyWalk m false verifyTarget c).submit = none := by
  unfold verifyWalk
  rw [h]
  rfl

theorem verifyWalk_first_pass (m : Miner) (verifyTarget c : Int)
    (h : isPrimeFermat c = true) :
    verifyWalk m false verifyTarget c = verifyWalk m true verifyTarget c := by
  unfold verifyWalk
  rw [h]
  rfl

theorem scalar_eq_batched (m : Miner) (verifyTarget ploop : Int) (isPrime orig : Nat → Nat) :
    ∀ (l : List Nat),
      (∀ i ∈ l, isPrime i ≠ 0 ↔ isPrimeFermat (verifyCandidate m ploop (orig i)) = true) →
      (l.map orig).filterMap (submissionOf m false verifyTarget ploop)
        = ((l.filter (fun i => decide (isPrime i ≠ 0))).map orig).filterMap
            (submissionOf m true verifyTarget ploop) := by
  intro l
  induction l with
  | nil =>
    intro _
    rfl
  | cons i l ih =>
    intro h
    have hi := h i (List.mem_cons_self _ _)
    have ih1 := ih (fun a ha => h a (List.mem_cons_of_mem _ ha))
    rw [List.map_cons, List.filterMap_cons, List.filter_cons]
    by_cases hp : isPrime i ≠ 0
    · have hpass := hi.1 hp
      rw [if_pos (by simpa using hp), List.map_cons, List.filterMap_cons, ← ih1]
      unfold submissionOf
      rw [verifyWalk_first_pass m verifyTarget _ hpass]
    · have hfail : isPrimeFermat (verifyCandidate m ploop (orig i)) = false := by
        cases hc : isPrimeFermat (verifyCandidate m ploop (orig i)) with
        | false => rfl
        | true => exact absurd (hi.2 hc) hp
      rw [if_neg (by simpa using hp), ← ih1]
      unfold submissionOf
      rw [verifyWalk_first_fail m verifyTarget _ hfail]
      rfl

/-- C27 (batched and scalar verification agree). For a `TYPE_CHECK` job with
`n_indexes = 64` and unchanged height, assume the external kernel sets `isPrime[i]`
non-zero iff `isPrimeFermat(P_k * indexes[i] + ploop)`. The scalar path (AVX2 missing or
disabled, or `_testPrimesIspc` returning `false`) makes the submissions of the scalar loop
over the 64 indices; the batched path (`_testPrimesIspc` returning `true`) makes the
submissions of the loop without first test over the compacted indices; the two sequences
of submissions `(base candidate, tupleLength)` are equal; and the in-place compaction
leaves in `indexes[0 .. n_indexes)` exactly the indices that pass, in their original
order. -/
theorem C27_batched_scalar_agree (m : Miner) (maxNSize : Nat) (kernel : Nat → Nat)
    (verifyTarget verifyRemainderPrimorial : Int) (w : TestWork)
    (h64 : w.n_indexes = WORK_INDEXES)
    (hk : ∀ i, i < WORK_INDEXES → (kernel i ≠ 0 ↔
      isPrimeFermat (verifyCandidate m
        (verifyPloop m verifyTarget verifyRemainderPrimorial w.loop w.offsetId)
        (w.indexes i)) = true)) :
    ((m.hasAVX2 && m.enableAvx2) = false ∨
        testPrimesIspc m maxNSize kernel w.indexes
          (verifyPloop m verifyTarget verifyRemainderPrimorial w.loop w.offsetId) = some none →
      checkJob m maxNSize kernel verifyTarget verifyRemainderPrimorial w
        = some (checkLoop m false verifyTarget
            (verifyPloop m verifyTarget verifyRemainderPrimorial w.loop w.offsetId)
            w.indexes (List.range WORK_INDEXES) [])) ∧
    ((m.hasAVX2 && m.enableAvx2) = true →
        testPrimesIspc m maxNSize kernel w.indexes
          (verifyPloop m verifyTarget verifyRemainderPrimorial w.loop w.offsetId)
          = some (some kernel) →
      checkJob m maxNSize kernel verifyTarget verifyRemainderPrimorial w
        = some (checkLoop m true verifyTarget
            (verifyPloop m verifyTarget verifyRemainderPrimorial w.loop w.offsetId)
            ((List.range WORK_INDEXES).foldl (compactStep kernel) (w.indexes, 0)).1
            (List.range ((List.range WORK_INDEXES).foldl (compactStep kernel) (w.indexes, 0)).2)
            [])) ∧
    checkLoop m true verifyTarget
        (verifyPloop m verifyTarget verifyRemainderPrimorial w.loop w.offsetId)
        ((List.range WORK_INDEXES).foldl (compactStep kernel) (w.indexes, 0)).1
        (List.range ((List.range WORK_INDEXES).foldl (compactStep kernel) (w.indexes, 0)).2) []
      = checkLoop m false verifyTarget
          (verifyPloop m verifyTarget verifyRemainderPrimorial w.loop w.offsetId)
          w.indexes (List.range WORK_INDEXES) [] ∧
    ((List.range WORK_INDEXES).foldl (compactStep kernel) (w.indexes, 0)).2
      = ((List.range WORK_INDEXES).filter (fun i => decide (kernel i ≠ 0))).length ∧
    (List.range ((List.range WORK_INDEXES).foldl (compactStep kernel) (w.indexes, 0)).2).map
        ((List.range WORK_INDEXES).foldl (compactStep kernel) (w.indexes, 0)).1
      = ((List.range WORK_INDEXES).filter (fun i => decide (kernel i ≠ 0))).map w.indexes := by
  obtain ⟨_, hc2, _⟩ := compact_spec kernel w.indexes WORK_INDEXES
  have hlen : ((List.range WORK_INDEXES).foldl (compactStep kernel) (w.indexes, 0)).2
      = ((List.range WORK_INDEXES).filter (fun i => decide (kernel i ≠ 0))).length := by
    have := congrArg List.length hc2
    simpa using this
  refine ⟨?_, ?_, ?_, hlen, hc2⟩
  · intro h
    unfold checkJob
    simp only
    rw [h64]
    rcases h with h | h
    · rw [h]
      simp only [Bool.false_and, Bool.false_eq_true, if_false]
    · rw [h]
      split <;> rfl
  · intro hav hres
    unfold checkJob
    simp only
    rw [hav, h64, hres]
    simp
  · rw [checkLoop_eq, checkLoop_eq, List.nil_append, List.nil_append, hc2]
    exact (scalar_eq_batched m verifyTarget _ kernel w.indexes (List.range WORK_INDEXES)
      (fun i hi => hk i (List.mem_range.1 hi))).symm

/-! ## Sieve worker: the two dense sieves produce the same bytes -/

theorem markBit_bytes (sieve : Nat → Nat) (idx : Nat) (h : BytesOK sieve) :
    BytesOK (markBit sieve idx) := by
  intro a
  unfold markBit
  by_cases ha : a = idx >>> 3
  · rw [ha, Function.update_same]
    exact Nat.mod_lt _ (by norm_num)
  · rw [Function.update_noteq ha]
    exact h a

theorem addToPending_bytes (m : Miner) (s : PendingState) (ent : Nat) (h : BytesOK s.sieve) :
    BytesOK (addToPending m s ent).sieve := by
  unfold addToPending
  simp only
  split
  · exact markBit_bytes _ _ h
  · exact h

theorem sieveWhile_bytes (m : Miner) (p : Nat) :
    ∀ (fuel off : Nat) (s : PendingState) (r : Nat × PendingState),
      sieveWhile m p fuel off s = some r → BytesOK s.sieve → BytesOK r.2.sieve := by
  intro fuel
  induction fuel with
  | zero =>
    intro off s r h
    cases h
  | succ fuel ih =>
    intro off s r h hb
    unfold sieveWhile at h
    by_cases hlt : off < m.sieveSize
    · rw [if_pos hlt] at h
      exact ih _ _ r h (addToPending_bytes m s off hb)
    · rw [if_neg hlt] at h
      cases h
      exact hb

theorem sieveFamily_bytes (m : Miner) (p slot : Nat) (st st1 : (Nat → Nat) × PendingState)
    (h : sieveFamily m p slot st = some st1) (hb : BytesOK st.2.sieve) :
    BytesOK st1.2.sieve := by
  unfold sieveFamily at h
  cases hw : sieveWhile m p (2 ^ 32) (st.1 slot) st.2 with
  | none => rw [hw] at h; cases h
  | some r =>
    rw [hw] at h
    cases h
    exact sieveWhile_bytes m p _ _ _ r hw hb

theorem sieveFamilies_bytes (m : Miner) (i : Nat) :
    ∀ (fs : List Nat) (st st1 : (Nat → Nat) × PendingState),
      sieveFamilies m i fs st = some st1 → BytesOK st.2.sieve → BytesOK st1.2.sieve := by
  intro fs
  induction fs with
  | nil =>
    intro st st1 h hb
    cases h
    exact hb
  | cons f rest ih =>
    intro st st1 h hb
    unfold sieveFamilies at h
    cases hw : sieveFamily m (m.primes.getD i 0 % 2 ^ 32) (i * m.primeTupleOffset.length + f) st with
    | none => rw [hw] at h; cases h
    | some st2 =>
      rw [hw] at h
      exact ih st2 st1 h (sieveFamily_bytes m _ _ st st2 hw hb)

theorem sievePrimes_bytes (m : Miner) :
    ∀ (is : List Nat) (st st1 : (Nat → Nat) × PendingState),
      sievePrimes m is st = some st1 → BytesOK st.2.sieve → BytesOK st1.2.sieve := by
  intro is
  induction is with
  | nil =>
    intro st st1 h hb
    cases h
    exact hb
  | cons i rest ih =>
    intro st st1 h hb
    unfold sievePrimes at h
    cases hw : sieveFamilies m i (List.range m.primeTupleOffset.length) st with
    | none => rw [hw] at h; cases h
    | some st2 =>
      rw [hw] at h
      exact ih st2 st1 h (sieveFamilies_bytes m i _ st st2 hw hb)

theorem termPendingLoop_bytes (m : Miner) (pending : Nat → Nat) :
    ∀ (ks : List Nat) (sieve sieve1 : Nat → Nat),
      termPendingLoop m pending ks sieve = some sieve1 → BytesOK sieve → BytesOK sieve1 := by
  intro ks
  induction ks with
  | nil =>
    intro sieve sieve1 h hb
    cases h
    exact hb
  | cons k rest ih =>
    intro sieve sieve1 h hb
    unfold termPendingLoop at h
    by_cases h0 : pending k ≠ 0
    · rw [if_pos h0] at h
      by_cases hlt : pending k < m.sieveSize
      · rw [if_pos hlt] at h
        exact ih _ sieve1 h (markBit_bytes _ _ hb)
      · rw [if_neg hlt] at h
        cases h
    · rw [if_neg h0] at h
      exact ih _ sieve1 h hb

theorem processSieve_bytes (m : Miner) (sieve offsets : Nat → Nat) (start_i end_i : Nat)
    (r : (Nat → Nat) × (Nat → Nat)) (h : processSieve m sieve offsets start_i end_i = some r)
    (hb : BytesOK sieve) : BytesOK r.1 := by
  unfold processSieve at h
  cases hw : sievePrimes m (List.range' start_i (end_i - start_i))
      (offsets, { sieve := sieve, pending := initPending (fun _ => 0), pos := 0 }) with
  | none => rw [hw] at h; cases h
  | some st =>
    rw [hw] at h
    simp only at h
    cases ht : termPending m st.2.sieve st.2.pending with
    | none => rw [ht] at h; cases h
    | some sieve1 =>
      rw [ht] at h
      cases h
      exact termPendingLoop_bytes m _ _ _ sieve1 ht (sievePrimes_bytes m _ _ st hw hb)

theorem addRegToPending_bytes (m : Miner) (s : PendingState) (reg : Nat → Nat) (mask : Nat)
    (h : BytesOK s.sieve) : BytesOK (addRegToPending m s reg mask).sieve := by
  unfold addRegToPending
  simp only
  have h0 : BytesOK (if mask &&& 0x0008 ≠ 0 then addToPending m s (reg 0) else s).sieve := by
    split
    · exact addToPending_bytes m s _ h
    · exact h
  have h1 : BytesOK (if mask &&& 0x0080 ≠ 0 then
      addToPending m (if mask &&& 0x0008 ≠ 0 then addToPending m s (reg 0) else s) (reg 1)
      else (if mask &&& 0x0008 ≠ 0 then addToPending m s (reg 0) else s)).sieve := by
    split
    · exact addToPending_bytes m _ _ h0
    · exact h0
  have h2 : BytesOK (if mask &&& 0x0800 ≠ 0 then
      addToPending m (if mask &&& 0x0080 ≠ 0 then
      addToPending m (if mask &&& 0x0008 ≠ 0 then addToPending m s (reg 0) else s) (reg 1)
      else (if mask &&& 0x0008 ≠ 0 then addToPending m s (reg 0) else s)) (reg 2)
      else (if mask &&& 0x0080 ≠ 0 then
      addToPending m (if mask &&& 0x0008 ≠ 0 then addToPending m s (reg 0) else s) (reg 1)
      else (if mask &&& 0x0008 ≠ 0 then addToPending m s (reg 0) else s))).sieve := by
    split
    · exact addToPending_bytes m _ _ h1
    · exact h1
  split
  · exact addToPending_bytes m _ _ h2
  · exact h2

theorem sieve6While_bytes (m : Miner) (offsetmax p1 p2 p3 : Nat → Nat) :
    ∀ (fuel : Nat) (s r : Sieve6State),
      sieve6While m offsetmax p1 p2 p3 fuel s = some r → BytesOK s.ps.sieve →
      BytesOK r.ps.sieve := by
  intro fuel
  induction fuel with
  | zero =>
    intro s r h
    cases h
  | succ fuel ih =>
    intro s r h hb
    unfold sieve6While at h
    simp only at h
    split at h
    · cases h
      exact hb
    · exact ih _ r h (addRegToPending_bytes m _ _ _
        (addRegToPending_bytes m _ _ _ (addRegToPending_bytes m _ _ _ hb)))

theorem sieve6Pair_bytes (m : Miner) (i : Nat) (st st1 : (Nat → Nat) × PendingState)
    (h : sieve6Pair m i st = some st1) (hb : BytesOK st.2.sieve) : BytesOK st1.2.sieve := by
  unfold sieve6Pair at h
  simp only at h
  split at h
  · cases h
  · rename_i r hw
    cases h
    exact sieve6While_bytes m _ _ _ _ _ _ r hw hb

theorem sieve6Pairs_bytes (m : Miner) :
    ∀ (is : List Nat) (st st1 : (Nat → Nat) × PendingState),
      sieve6Pairs m is st = some st1 → BytesOK st.2.sieve → BytesOK st1.2.sieve := by
  intro is
  induction is with
  | nil =>
    intro st st1 h hb
    cases h
    exact hb
  | cons i rest ih =>
    intro st st1 h hb
    unfold sieve6Pairs at h
    cases hw : sieve6Pair m i st with
    | none => rw [hw] at h; cases h
    | some st2 =>
      rw [hw] at h
      exact ih st2 st1 h (sieve6Pair_bytes m i st st2 hw hb)

theorem processSieve6_bytes (m : Miner) (sieve offsets : Nat → Nat) (start_i end_i : Nat)
    (r : (Nat → Nat) × (Nat → Nat)) (h : processSieve6 m sieve offsets start_i end_i = some r)
    (hb : BytesOK sieve) : BytesOK r.1 := by
  unfold processSieve6 at h
  split at h
  · cases hw : sieve6Pairs m
        ((List.range ((end_i - start_i + 1) / 2)).map (fun k => start_i + 2 * k))
        (offsets, { sieve := sieve, pending := initPending (fun _ => 0), pos := 0 }) with
    | none => rw [hw] at h; cases h
    | some st =>
      rw [hw] at h
      simp only at h
      cases ht : termPending m st.2.sieve st.2.pending with
      | none => rw [ht] at h; cases h
      | some sieve1 =>
        rw [ht] at h
        cases h
        exact termPendingLoop_bytes m _ _ _ sieve1 ht (sieve6Pairs_bytes m _ _ st hw hb)
  · cases h

theorem bitmap_ext (a b : Nat → Nat) (ha : BytesOK a) (hb : BytesOK b)
    (h : ∀ idx, sieveBit a idx = true ↔ sieveBit b idx = true) : a = b := by
  funext c
  apply Nat.eq_of_testBit_eq
  intro i
  by_cases hi : i < 8
  · have h1 := h (8 * c + i)
    unfold sieveBit at h1
    have e1 : (8 * c + i) / 8 = c := by omega
    have e2 : (8 * c + i) % 8 = i := by omega
    rw [e1, e2] at h1
    cases hx : (a c).testBit i <;> cases hy : (b c).testBit i <;> simp_all
  · have hp : (256 : Nat) ≤ 2 ^ i := by
      calc (256 : Nat) = 2 ^ 8 := by norm_num
        _ ≤ 2 ^ i := Nat.pow_le_pow_right (by norm_num) (by omega)
    rw [Nat.testBit_lt_two_pow (lt_of_lt_of_le (ha c) hp),
      Nat.testBit_lt_two_pow (lt_of_lt_of_le (hb c) hp)]

theorem least_step_unique (S off p t1 t2 : Nat)
    (h1 : S ≤ off + t1 * p) (l1 : ∀ t, t < t1 → off + t * p < S)
    (h2 : S ≤ off + t2 * p) (l2 : ∀ t, t < t2 → off + t * p < S) : t1 = t2 := by
  rcases Nat.lt_trichotomy t1 t2 with h | h | h
  · have := l2 t1 h
    omega
  · exact h
  · have := l1 t2 h
    omega

/-- C26 (`_processSieve6` refines `_processSieve`). For a six-member pattern, even
`start_i` and `end_i`, a `uint8_t` bitmap, and offset cells of the range
`start_i * 6 ≤ slot < end_i * 6` that stay below `2^31` (the cells are below `2^31`, their
primes are positive and `sieveSize + p ≤ 2^31`, so that every value the loops reach is
below `2^31`), `_processSieve6` and `_processSieve` both return, with the same bitmap and
the same offset table. -/
theorem C26_sieve6_refines (m : Miner) (sieve offsets : Nat → Nat) (start_i end_i : Nat)
    (hL : m.primeTupleOffset.length = 6) (hs2 : start_i % 2 = 0) (he2 : end_i % 2 = 0)
    (hbytes : BytesOK sieve)
    (hok : SlotsOK m (2 ^ 31) (start_i * 6) (end_i * 6) offsets) :
    ∃ sieve1 offsets1, processSieve6 m sieve offsets start_i end_i = some (sieve1, offsets1) ∧
      processSieve m sieve offsets start_i end_i = some (sieve1, offsets1) := by
  by_cases hse : start_i ≤ end_i
  · obtain ⟨s6, o6, e6, b6, f6, r6⟩ := processSieve6_spec m sieve offsets start_i end_i hL hs2
      he2 hse hok
    have hok2 : SlotsOK m (2 ^ 32) (start_i * m.primeTupleOffset.length)
        (end_i * m.primeTupleOffset.length) offsets := by
      rw [hL]
      exact slotsOK_mono m (2 ^ 31) (2 ^ 32) _ _ offsets (by norm_num) hok
    obtain ⟨s1, o1, e1, b1, f1, r1⟩ := processSieve_spec m sieve offsets start_i end_i hse hok2
    rw [hL] at b1 f1 r1
    have hs : s6 = s1 := by
      apply bitmap_ext
      · exact processSieve6_bytes m sieve offsets start_i end_i (s6, o6) e6 hbytes
      · exact processSieve_bytes m sieve offsets start_i end_i (s1, o1) e1 hbytes
      · intro idx
        rw [b6 idx, b1 idx]
    have ho : o6 = o1 := by
      funext slot
      by_cases hin : start_i * 6 ≤ slot ∧ slot < end_i * 6
      · obtain ⟨t6, x6, y6, z6⟩ := f6 slot hin.1 hin.2
        obtain ⟨t1, x1, y1, z1⟩ := f1 slot hin.1 hin.2
        have := least_step_unique _ _ _ t6 t1 y6 z6 y1 z1
        rw [x6, x1, this]
      · rw [r6 slot (by omega), r1 slot (by omega)]
    exact ⟨s6, o6, e6, by rw [e1, hs, ho]⟩
  · obtain ⟨s6, e6, b6⟩ := processSieve6_noop m sieve offsets start_i end_i hL hs2 he2
      (by omega)
    obtain ⟨s1, e1, b1⟩ := processSieve_noop m sieve offsets start_i end_i (by omega)
    have hs : s6 = s1 := by
      apply bitmap_ext
      · exact processSieve6_bytes m sieve offsets start_i end_i (s6, offsets) e6 hbytes
      · exact processSieve_bytes m sieve offsets start_i end_i (s1, offsets) e1 hbytes
      · intro idx
        rw [b6 idx, b1 idx]
    exact ⟨s6, offsets, e6, by rw [e1, hs]⟩

theorem C26_sieve6_refines_witness :
    ∃ sieve1 offsets1,
      processSieve6 exampleMiner (fun _ => 0) (fun slot => slot % 7) 4 6
        = some (sieve1, offsets1) ∧
      processSieve exampleMiner (fun _ => 0) (fun slot => slot % 7) 4 6
        = some (sieve1, offsets1) :=
  C26_sieve6_refines exampleMiner (fun _ => 0) (fun slot => slot % 7) 4 6 rfl rfl rfl
    (fun _ => by norm_num)
    (exampleMiner_slotsOK (fun slot => slot % 7)
      (fun slot => lt_of_lt_of_le (Nat.mod_lt slot (by norm_num)) (by norm_num)))

/-! ## Sieve worker: continuity of the dense offsets from segment to segment -/

theorem next_lt_prime (S v p t : Nat) (hv : v < p) (h1 : S ≤ v + t * p)
    (h2 : ∀ t1, t1 < t → v + t1 * p < S) : v + t * p - S < p := by
  cases t with
  | zero => simp only [Nat.zero_mul, Nat.add_zero]; omega
  | succ t =>
    have := h2 t (by omega)
    have he : v + (t + 1) * p = v + t * p + p := by
      rw [Nat.add_mul]; omega
    rw [he]
    omega

theorem runSieveMark_cells (m : Miner) (off0 : Nat → Nat) (s : SieveInstance) (loop : Nat)
    (h6 : m.primeTupleOffset.length = 6 → m.sparseLimit % 2 = 0)
    (hb : ∀ i, m.primorialNumber ≤ i → i < m.sieveEnd →
      m.sieveSize + m.primes.getD i 0 ≤ m.sieveBound)
    (hinv : CellInv m off0 loop s.offsets)
    (hhits : ∀ j, j < s.segmentCounts loop → s.segmentHits loop j < m.sieveSize) :
    ∃ s1, runSieveMark m s loop = some s1 ∧ s1.segmentHits = s.segmentHits ∧
      s1.segmentCounts = s.segmentCounts ∧ CellInv m off0 (loop + 1) s1.offsets := by
  obtain ⟨hsl, hal, hmax⟩ := sieveEnd_bounds m
  have hSpos := sieveSize_pos m
  have hB := sieveBound_le m
  have hprime : ∀ i f, m.primorialNumber ≤ i → i < m.sieveEnd →
      f < m.primeTupleOffset.length →
      m.slotPrime (i * m.primeTupleOffset.length + f) = m.primes.getD i 0 := by
    intro i f h1 h2 hf
    rw [slotPrime_eq m i f hf]
    have := hb i h1 h2
    exact Nat.mod_eq_of_lt (by omega)
  have hokAll : SlotsOK m m.sieveBound (m.primorialNumber * m.primeTupleOffset.length)
      (m.sieveEnd * m.primeTupleOffset.length) s.offsets := by
    intro slot hl hh
    obtain ⟨i, f, rfl, h1, h2, hf⟩ := slot_decompose _ _ _ _ hl hh
    rw [hprime i f h1 h2 hf]
    have hlt := (hinv i f h1 h2 hf).1
    have := hb i h1 h2
    exact ⟨by omega, this, by omega⟩
  have hmulle : ∀ a b : Nat, a ≤ b →
      a * m.primeTupleOffset.length ≤ b * m.primeTupleOffset.length :=
    fun a b h => Nat.mul_le_mul_right _ h
  have hk1 : m.primorialNumber ≤ m.primorialNumber + m.primorialNumber % 2 := Nat.le_add_right _ _
  obtain ⟨st1, hA, eA⟩ := alignLoop_spec m m.primorialNumber
    (s.offsets, fun a => if a < m.sieveSize / 8 then 0 else s.sieve a)
    (fun slot hl hh => by
      obtain ⟨a, b, c⟩ := hokAll slot hl (by have := hmulle _ _ hal; omega)
      exact ⟨a, by omega, show s.offsets slot < 2 ^ 32 by omega⟩)
  obtain ⟨sieve2, offsets2, hM, eM⟩ := denseSieve_effect m st1.2 st1.1
    (m.primorialNumber + m.primorialNumber % 2) m.sparseLimit (by omega) h6
    (fun slot hl hh => by
      obtain ⟨a, b, c⟩ := hokAll slot (by have := hmulle _ _ hk1; omega)
        (by have := hmulle _ _ hsl; omega)
      refine ⟨a, b, ?_⟩
      rw [eA.2.2 slot (Or.inr hl)]
      exact c)
  rw [hmax] at eM
  have eAll := soundEffect_trans m _ _ _ _ st1 (offsets2, sieve2) (hmulle _ _ hk1)
    (hmulle _ _ hal) eA eM
  have fin : ∀ slot, m.primorialNumber * m.primeTupleOffset.length ≤ slot →
      slot < m.sieveEnd * m.primeTupleOffset.length →
      ∃ t, offsets2 slot = s.offsets slot + t * m.slotPrime slot - m.sieveSize ∧
        m.sieveSize ≤ s.offsets slot + t * m.slotPrime slot ∧
        ∀ t1, t1 < t → s.offsets slot + t1 * m.slotPrime slot < m.sieveSize := eAll.2.1
  obtain ⟨hp0, hc0⟩ := initPending_ok m sieve2
  obtain ⟨hp1, hc1⟩ := segmentHits_spec m (s.segmentHits loop) (List.range (s.segmentCounts loop))
    { sieve := sieve2, pending := initPending (fun _ => 0), pos := 0 } hp0
    (fun j hj => hhits j (List.mem_range.1 hj))
  obtain ⟨sieve3, hT, hbits⟩ := termPending_spec m _ hp1
  have hrun : runSieveMark m s loop
      = some { s with sieve := sieve3, offsets := offsets2 } := by
    unfold runSieveMark
    simp only
    have hA' : alignLoop m 2 m.startingPrimeIndex
        (s.offsets, fun a => if a < m.sieveSize / 8 then 0 else s.sieve a)
        = some (m.primorialNumber + m.primorialNumber % 2, st1) := hA
    rw [hA']
    simp only
    rw [hM]
    simp only
    rw [hT]
  refine ⟨_, hrun, rfl, rfl, ?_⟩
  intro i f h1 h2 hf
  obtain ⟨hlt, k, hk, hkmin⟩ := hinv i f h1 h2 hf
  have hlo := hmulle _ _ h1
  have hhi := hmulle _ _ (show i + 1 ≤ m.sieveEnd from h2)
  rw [Nat.add_mul, Nat.one_mul] at hhi
  obtain ⟨t, ht1, ht2, ht3⟩ := fin (i * m.primeTupleOffset.length + f) (by omega) (by omega)
  rw [hprime i f h1 h2 hf] at ht1 ht2 ht3
  have hnew : offsets2 (i * m.primeTupleOffset.length + f)
      = s.offsets (i * m.primeTupleOffset.length + f) + t * m.primes.getD i 0 - m.sieveSize :=
    ht1
  refine ⟨?_, k + t, ?_, ?_⟩
  · show offsets2 (i * m.primeTupleOffset.length + f) < _
    rw [hnew]
    exact next_lt_prime _ _ _ t hlt ht2 ht3
  · show (loop + 1) * m.sieveSize + offsets2 (i * m.primeTupleOffset.length + f) = _
    rw [hnew, Nat.add_mul, Nat.add_mul, Nat.one_mul]
    omega
  · intro k1 hk1lt
    rw [Nat.add_mul, Nat.one_mul]
    by_cases hc : k1 < k
    · have := hkmin k1 hc
      omega
    · obtain ⟨t1, rfl⟩ : ∃ t1, k1 = k + t1 := ⟨k1 - k, by omega⟩
      have := ht3 t1 (by omega)
      rw [Nat.add_mul]
      omega

theorem runSieveLoops_cells (m : Miner) (s : SieveInstance)
    (h6 : m.primeTupleOffset.length = 6 → m.sparseLimit % 2 = 0)
    (hb : ∀ i, m.primorialNumber ≤ i → i < m.sieveEnd →
      m.sieveSize + m.primes.getD i 0 ≤ m.sieveBound)
    (hinv : CellInv m s.offsets 0 s.offsets)
    (hhits : ∀ loop j, loop < m.maxIter → j < s.segmentCounts loop →
      s.segmentHits loop j < m.sieveSize) :
    ∀ loop, loop < m.maxIter →
      ∃ s1, runSieveLoops m s loop = some s1 ∧ s1.segmentHits = s.segmentHits ∧
        s1.segmentCounts = s.segmentCounts ∧ CellInv m s.offsets (loop + 1) s1.offsets := by
  intro loop
  induction loop with
  | zero =>
    intro hl
    unfold runSieveLoops
    rw [if_pos hl]
    exact runSieveMark_cells m s.offsets s 0 h6 hb hinv (fun j hj => hhits 0 j hl hj)
  | succ loop ih =>
    intro hl
    obtain ⟨s1, h1, hh, hc, hi⟩ := ih (by omega)
    unfold runSieveLoops
    rw [h1]
    simp only
    rw [if_pos hl]
    obtain ⟨s2, h2, hh2, hc2, hi2⟩ := runSieveMark_cells m s.offsets s1 (loop + 1) h6 hb hi
      (fun j hj => by
        rw [hh]
        rw [hc] at hj
        exact hhits (loop + 1) j hl hj)
    exact ⟨s2, h2, hh2.trans hh, hc2.trans hc, hi2⟩

theorem cellInv_zero (m : Miner) (offsets : Nat → Nat)
    (h0 : ∀ i f, m.primorialNumber ≤ i → i < m.sieveEnd → f < m.primeTupleOffset.length →
      offsets (i * m.primeTupleOffset.length + f) < m.primes.getD i 0) :
    CellInv m offsets 0 offsets := by
  intro i f h1 h2 hf
  refine ⟨h0 i f h1 h2 hf, 0, by omega, fun k1 hk => by omega⟩

/-- C25 (segment continuity of the dense sieve). Let `S = sieveSize` and `L` the pattern
length. (1) When every prime `p = primes[i]` of the range `start_i ≤ i < end_i` has
`S + p ≤ 2^32` and every cell `v = offsets[i*L + f]` of the range is below its prime,
`_processSieve` returns, and each of these cells then holds `v + t*p - S` with `t` the
least natural number such that `v + t*p ≥ S`; it is again below `p`. (2) In `_runSieve`,
when `sparseLimit` is even for six-member patterns, `S + p` stays within the range of the
32-bit comparison, the cells `off0` written by the mod phase are below their primes and
the segment hits are below `S`, the marking of every segment `loop < maxIter` is reached,
and at the start of segment `loop + 1` each cell holds a value below `p` that is
`(the smallest member ≥ (loop + 1) * S of off0, off0 + p, off0 + 2p, ...) - (loop + 1) * S`. -/
theorem C25_segment_continuity (m : Miner)
    (h6 : m.primeTupleOffset.length = 6 → m.sparseLimit % 2 = 0)
    (hb : ∀ i, m.primorialNumber ≤ i → i < m.sieveEnd →
      m.sieveSize + m.primes.getD i 0 ≤ m.sieveBound) :
    (∀ (sieve offsets : Nat → Nat) (start_i end_i : Nat),
      (∀ i, start_i ≤ i → i < end_i → m.sieveSize + m.primes.getD i 0 ≤ 2 ^ 32) →
      (∀ i f, start_i ≤ i → i < end_i → f < m.primeTupleOffset.length →
        offsets (i * m.primeTupleOffset.length + f) < m.primes.getD i 0) →
      ∃ sieve1 offsets1, processSieve m sieve offsets start_i end_i = some (sieve1, offsets1) ∧
        ∀ i f, start_i ≤ i → i < end_i → f < m.primeTupleOffset.length →
          offsets1 (i * m.primeTupleOffset.length + f) < m.primes.getD i 0 ∧
          ∃ t, offsets1 (i * m.primeTupleOffset.length + f)
              = offsets (i * m.primeTupleOffset.length + f) + t * m.primes.getD i 0
                - m.sieveSize ∧
            m.sieveSize ≤ offsets (i * m.primeTupleOffset.length + f) + t * m.primes.getD i 0 ∧
            ∀ t1, t1 < t →
              offsets (i * m.primeTupleOffset.length + f) + t1 * m.primes.getD i 0
                < m.sieveSize) ∧
    (∀ s : SieveInstance,
      (∀ i f, m.primorialNumber ≤ i → i < m.sieveEnd → f < m.primeTupleOffset.length →
        s.offsets (i * m.primeTupleOffset.length + f) < m.primes.getD i 0) →
      (∀ loop j, loop < m.maxIter → j < s.segmentCounts loop →
        s.segmentHits loop j < m.sieveSize) →
      ∀ loop, loop < m.maxIter →
        ∃ s1, runSieveLoops m s loop = some s1 ∧
          ∀ i f, m.primorialNumber ≤ i → i < m.sieveEnd → f < m.primeTupleOffset.length →
            s1.offsets (i * m.primeTupleOffset.length + f) < m.primes.getD i 0 ∧
            ∃ k, (loop + 1) * m.sieveSize + s1.offsets (i * m.primeTupleOffset.length + f)
                = s.offsets (i * m.primeTupleOffset.length + f) + k * m.primes.getD i 0 ∧
              ∀ k1, k1 < k →
                s.offsets (i * m.primeTupleOffset.length + f) + k1 * m.primes.getD i 0
                  < (loop + 1) * m.sieveSize) := by
  constructor
  · intro sieve offsets start_i end_i hp hv
    have hSpos := sieveSize_pos m
    by_cases hse : start_i ≤ end_i
    · have hprime : ∀ i f, start_i ≤ i → i < end_i → f < m.primeTupleOffset.length →
          m.slotPrime (i * m.primeTupleOffset.length + f) = m.primes.getD i 0 := by
        intro i f h1 h2 hf
        rw [slotPrime_eq m i f hf]
        have := hp i h1 h2
        exact Nat.mod_eq_of_lt (by omega)
      have hok : SlotsOK m (2 ^ 32) (start_i * m.primeTupleOffset.length)
          (end_i * m.primeTupleOffset.length) offsets := by
        intro slot hl hh
        obtain ⟨i, f, rfl, h1, h2, hf⟩ := slot_decompose _ _ _ _ hl hh
        rw [hprime i f h1 h2 hf]
        have hlt := hv i f h1 h2 hf
        have := hp i h1 h2
        exact ⟨by omega, this, by omega⟩
      obtain ⟨sieve1, offsets1, e1, _, f1, _⟩ := processSieve_spec m sieve offsets start_i end_i
        hse hok
      refine ⟨sieve1, offsets1, e1, ?_⟩
      intro i f h1 h2 hf
      have hlo := Nat.mul_le_mul_right m.primeTupleOffset.length h1
      have hhi := Nat.mul_le_mul_right m.primeTupleOffset.length (show i + 1 ≤ end_i from h2)
      rw [Nat.add_mul, Nat.one_mul] at hhi
      obtain ⟨t, ht1, ht2, ht3⟩ := f1 (i * m.primeTupleOffset.length + f) (by omega) (by omega)
      rw [hprime i f h1 h2 hf] at ht1 ht2 ht3
      refine ⟨?_, t, ht1, ht2, ht3⟩
      rw [ht1]
      exact next_lt_prime _ _ _ t (hv i f h1 h2 hf) ht2 ht3
    · obtain ⟨sieve1, e1, _⟩ := processSieve_noop m sieve offsets start_i end_i (by omega)
      exact ⟨sieve1, offsets, e1, fun i f h1 h2 _ => by omega⟩
  · intro s h0 hhits loop hl
    obtain ⟨s1, h1, _, _, hc⟩ := runSieveLoops_cells m s h6 hb (cellInv_zero m s.offsets h0)
      hhits loop hl
    exact ⟨s1, h1, hc⟩

theorem C25_segment_continuity_witness :
    (∃ sieve1 offsets1,
      processSieve exampleMiner (fun _ => 0) (fun slot => slot % 7) 4 6
        = some (sieve1, offsets1) ∧
      offsets1 (4 * exampleMiner.primeTupleOffset.length + 1) < exampleMiner.primes.getD 4 0) ∧
    (∃ s1, runSieveLoops exampleMiner zeroSieve 3 = some s1 ∧
      s1.offsets (4 * exampleMiner.primeTupleOffset.length + 1) < exampleMiner.primes.getD 4 0 ∧
      ∃ k, (3 + 1) * exampleMiner.sieveSize
            + s1.offsets (4 * exampleMiner.primeTupleOffset.length + 1)
          = zeroSieve.offsets (4 * exampleMiner.primeTupleOffset.length + 1)
            + k * exampleMiner.primes.getD 4 0) := by
  have hlen : (primeTable 100).length = 25 := by decide
  have hend : exampleMiner.sieveEnd = 24 := by decide
  have hS : exampleMiner.sieveSize = 64 := by decide
  have hB : exampleMiner.sieveBound = 2 ^ 31 := by decide
  have hpt : exampleMiner.primes = primeTable 100 := by simp only [exampleMiner]
  have hsmall : ∀ q ∈ exampleMiner.primes, q < 100 := by
    intro q hq
    rw [hpt] at hq
    exact ((mem_primeTable 100 (by norm_num) q).1 hq).2
  have h4 : exampleMiner.primes.getD 4 0 = 11 := by decide
  have h5 : exampleMiner.primes.getD 5 0 = 13 := by decide
  have hC := C25_segment_continuity exampleMiner (fun _ => by decide)
    (fun i _ hi => by
      rw [hend] at hi
      have := hsmall _ (getD_mem_of_lt exampleMiner.primes i (by rw [hpt, hlen]; omega))
      rw [hS, hB]
      omega)
  constructor
  · obtain ⟨sieve1, offsets1, e1, hc⟩ := hC.1 (fun _ => 0) (fun slot => slot % 7) 4 6
      (fun i h1 h2 => by
        have := hsmall _ (getD_mem_of_lt exampleMiner.primes i (by rw [hpt, hlen]; omega))
        rw [hS]
        omega)
      (fun i f h1 h2 _ => by
        have hd : i = 4 ∨ i = 5 := by omega
        rcases hd with hd | hd
        · rw [hd, h4]
          exact lt_of_lt_of_le (Nat.mod_lt _ (by norm_num)) (by norm_num)
        · rw [hd, h5]
          exact lt_of_lt_of_le (Nat.mod_lt _ (by norm_num)) (by norm_num))
    exact ⟨sieve1, offsets1, e1, (hc 4 1 (by omega) (by omega) (by decide)).1⟩
  · obtain ⟨s1, e1, hc⟩ := hC.2 zeroSieve
      (fun i f _ hi _ => by
        rw [hend] at hi
        have := exampleMiner_tableInv.2.1 _
          (getD_mem_of_lt exampleMiner.primes i (by rw [hpt, hlen]; omega))
        show 0 < _
        omega)
      (fun loop j _ hj => absurd hj (Nat.not_lt_zero _)) 3 (by decide)
    obtain ⟨hlt, k, hk, _⟩ := hc 4 1 (by decide) (by decide) (by decide)
    exact ⟨s1, e1, hlt, k, hk⟩

/-! ## Sieve worker: the fault guard of the pending buffer -/

theorem sieveWhileLog_erase (m : Miner) (p : Nat) :
    ∀ (fuel off : Nat) (s : PendingState × PendingLog),
      (sieveWhileLog m p fuel off s).map (fun r => (r.1, r.2.1)) = sieveWhile m p fuel off s.1 := by
  intro fuel
  induction fuel with
  | zero => intro off s; rfl
  | succ fuel ih =>
    intro off s
    unfold sieveWhileLog sieveWhile
    by_cases h : off < m.sieveSize
    · rw [if_pos h, if_pos h]
      exact ih _ _
    · rw [if_neg h, if_neg h]
      rfl

theorem sieveFamilyLog_erase (m : Miner) (p slot : Nat)
    (st : (Nat → Nat) × (PendingState × PendingLog)) :
    (sieveFamilyLog m p slot st).map (fun r => (r.1, r.2.1))
      = sieveFamily m p slot (st.1, st.2.1) := by
  have h := sieveWhileLog_erase m p (2 ^ 32) (st.1 slot) st.2
  unfold sieveFamilyLog sieveFamily
  simp only
  rw [← h]
  cases sieveWhileLog m p (2 ^ 32) (st.1 slot) st.2 with
  | none => rfl
  | some r => rfl

theorem sieveFamiliesLog_erase (m : Miner) (i : Nat) :
    ∀ (fs : List Nat) (st : (Nat → Nat) × (PendingState × PendingLog)),
      (sieveFamiliesLog m i fs st).map (fun r => (r.1, r.2.1))
        = sieveFamilies m i fs (st.1, st.2.1) := by
  intro fs
  induction fs with
  | nil => intro st; rfl
  | cons f rest ih =>
    intro st
    have h := sieveFamilyLog_erase m (m.primes.getD i 0 % 2 ^ 32)
      (i * m.primeTupleOffset.length + f) st
    unfold sieveFamiliesLog sieveFamilies
    rw [← h]
    cases sieveFamilyLog m (m.primes.getD i 0 % 2 ^ 32) (i * m.primeTupleOffset.length + f) st with
    | none => rfl
    | some st1 => exact ih st1

theorem sievePrimesLog_erase (m : Miner) :
    ∀ (is : List Nat) (st : (Nat → Nat) × (PendingState × PendingLog)),
      (sievePrimesLog m is st).map (fun r => (r.1, r.2.1)) = sievePrimes m is (st.1, st.2.1) := by
  intro is
  induction is with
  | nil => intro st; rfl
  | cons i rest ih =>
    intro st
    have h := sieveFamiliesLog_erase m i (List.range m.primeTupleOffset.length) st
    unfold sievePrimesLog sievePrimes
    rw [← h]
    cases sieveFamiliesLog m i (List.range m.primeTupleOffset.length) st with
    | none => rfl
    | some st1 => exact ih st1

theorem processSieveLog_erase (m : Miner) (sieve offsets : Nat → Nat) (start_i end_i : Nat) :
    (processSieveLog m sieve offsets start_i end_i).map Prod.fst
      = processSieve m sieve offsets start_i end_i := by
  have h := sievePrimesLog_erase m (List.range' start_i (end_i - start_i))
    (offsets, ({ sieve := sieve, pending := initPending (fun _ => 0), pos := 0 },
      { entries := [], clamped := false }))
  unfold processSieveLog processSieve
  simp only at h ⊢
  rw [← h]
  cases sievePrimesLog m (List.range' start_i (end_i - start_i))
      (offsets, ({ sieve := sieve, pending := initPending (fun _ => 0), pos := 0 },
        { entries := [], clamped := false })) with
  | none => rfl
  | some st =>
    simp only [Option.map_some']
    cases termPending m st.2.1.sieve st.2.1.pending with
    | none => rfl
    | some sieve1 => rfl

theorem addRegToPendingLog_erase (m : Miner) (s : PendingState × PendingLog) (reg : Nat → Nat)
    (mask : Nat) : (addRegToPendingLog m s reg mask).1 = addRegToPending m s.1 reg mask := by
  unfold addRegToPendingLog addRegToPending
  simp only
  by_cases h0 : mask &&& 0x0008 ≠ 0 <;> by_cases h1 : mask &&& 0x0080 ≠ 0 <;>
    by_cases h2 : mask &&& 0x0800 ≠ 0 <;> by_cases h3 : mask &&& 0x8000 ≠ 0 <;>
    simp only [h0, h1, h2, h3, if_true, if_false, not_true_eq_false, not_false_eq_true,
      ne_eq] <;> rfl

theorem sieve6WhileLog_erase (m : Miner) (offsetmax p1 p2 p3 : Nat → Nat) :
    ∀ (fuel : Nat) (s : Sieve6State × PendingLog) (s0 : Sieve6State),
      s0.offset1 = s.1.offset1 → s0.offset2 = s.1.offset2 → s0.offset3 = s.1.offset3 →
      s0.ps = s.1.ps →
      (sieve6WhileLog m offsetmax p1 p2 p3 fuel s).map Prod.fst
        = sieve6While m offsetmax p1 p2 p3 fuel s0 := by
  intro fuel
  induction fuel with
  | zero => intro s s0 _ _ _ _; rfl
  | succ fuel ih =>
    intro s s0 e1 e2 e3 e4
    have hs0 : s0 = s.1 := by
      cases s0
      cases hs : s.1
      rw [hs] at e1 e2 e3 e4
      simp only at e1 e2 e3 e4
      rw [e1, e2, e3, e4]
    rw [hs0]
    unfold sieve6WhileLog sieve6While
    simp only
    split
    · rfl
    · apply ih
      · rfl
      · rfl
      · rfl
      · show _ = (addRegToPendingLog m _ _ _).1
        rw [addRegToPendingLog_erase, addRegToPendingLog_erase, addRegToPendingLog_erase]

theorem sieve6PairLog_erase (m : Miner) (i : Nat)
    (st : (Nat → Nat) × (PendingState × PendingLog)) :
    (sieve6PairLog m i st).map (fun r => (r.1, r.2.1)) = sieve6Pair m i (st.1, st.2.1) := by
  have h := sieve6WhileLog_erase m (mm_set1_epi32 m.sieveSize)
    (mm_set1_epi32 (m.primes.getD i 0))
    (mm_shuffle_ps_0000 (mm_set1_epi32 (m.primes.getD i 0))
      (mm_set1_epi32 (m.primes.getD (i + 1) 0)))
    (mm_set1_epi32 (m.primes.getD (i + 1) 0)) (2 ^ 32)
    ({ offset1 := mm_load_si128 st.1 (i * 6 + 0), offset2 := mm_load_si128 st.1 (i * 6 + 4),
       offset3 := mm_load_si128 st.1 (i * 6 + 8), ps := st.2.1 }, st.2.2)
    { offset1 := mm_load_si128 st.1 (i * 6 + 0), offset2 := mm_load_si128 st.1 (i * 6 + 4),
      offset3 := mm_load_si128 st.1 (i * 6 + 8), ps := st.2.1 } rfl rfl rfl rfl
  unfold sieve6PairLog sieve6Pair
  simp only
  rw [← h]
  cases sieve6WhileLog m (mm_set1_epi32 m.sieveSize)
    (mm_set1_epi32 (m.primes.getD i 0))
    (mm_shuffle_ps_0000 (mm_set1_epi32 (m.primes.getD i 0))
      (mm_set1_epi32 (m.primes.getD (i + 1) 0)))
    (mm_set1_epi32 (m.primes.getD (i + 1) 0)) (2 ^ 32)
    ({ offset1 := mm_load_si128 st.1 (i * 6 + 0), offset2 := mm_load_si128 st.1 (i * 6 + 4),
       offset3 := mm_load_si128 st.1 (i * 6 + 8), ps := st.2.1 }, st.2.2) with
  | none => rfl
  | some r => rfl

theorem sieve6PairsLog_erase (m : Miner) :
    ∀ (is : List Nat) (st : (Nat → Nat) × (PendingState × PendingLog)),
      (sieve6PairsLog m is st).map (fun r => (r.1, r.2.1)) = sieve6Pairs m is (st.1, st.2.1) := by
  intro is
  induction is with
  | nil => intro st; rfl
  | cons i rest ih =>
    intro st
    have h := sieve6PairLog_erase m i st
    unfold sieve6PairsLog sieve6Pairs
    rw [← h]
    cases sieve6PairLog m i st with
    | none => rfl
    | some st1 => exact ih st1

theorem processSieve6Log_erase (m : Miner) (sieve offsets : Nat → Nat) (start_i end_i : Nat) :
    (processSieve6Log m sieve offsets start_i end_i).map Prod.fst
      = processSieve6 m sieve offsets start_i end_i := by
  have h := sieve6PairsLog_erase m
    ((List.range ((end_i - start_i + 1) / 2)).map (fun k => start_i + 2 * k))
    (offsets, ({ sieve := sieve, pending := initPending (fun _ => 0), pos := 0 },
      { entries := [], clamped := false }))
  unfold processSieve6Log processSieve6
  simp only at h ⊢
  split
  · rw [← h]
    cases sieve6PairsLog m
        ((List.range ((end_i - start_i + 1) / 2)).map (fun k => start_i + 2 * k))
        (offsets, ({ sieve := sieve, pending := initPending (fun _ => 0), pos := 0 },
          { entries := [], clamped := false })) with
    | none => rfl
    | some st =>
      simp only [Option.map_some']
      cases termPending m st.2.1.sieve st.2.1.pending with
      | none => rfl
      | some sieve1 => rfl
  · rfl

theorem segmentFold_erase (m : Miner) (hits : Nat → Nat) :
    ∀ (l : List Nat) (s : PendingState × PendingLog),
      (l.foldl (fun ps i => addToPendingLog m ps (hits i)) s).1
        = l.foldl (fun ps i => addToPending m ps (hits i)) s.1 := by
  intro l
  induction l with
  | nil => intro s; rfl
  | cons a rest ih =>
    intro s
    rw [List.foldl_cons, List.foldl_cons, ih]
    rfl

theorem addToPendingLog_ok (m : Miner) (s : PendingState × PendingLog) (ent : Nat)
    (hs : PendingOK m s.1) (hg : LogOK m s.2) (hent : ent < m.sieveSize) :
    PendingOK m (addToPendingLog m s ent).1 ∧ LogOK m (addToPendingLog m s ent).2 := by
  refine ⟨(addToPending_spec m s.1 ent hs hent).1, ⟨?_, ?_⟩⟩
  · intro e he
    have he' : e ∈ s.2.entries ++ [ent] := he
    rcases List.mem_append.1 he' with h | h
    · exact hg.1 e h
    · rw [List.mem_singleton.1 h]
      exact hent
  · show (s.2.clamped ||
      (decide (s.1.pending s.1.pos ≠ 0) && decide (s.1.pending s.1.pos ≥ m.sieveSize))) = false
    have hold := hs.2 s.1.pos hs.1
    rw [hg.2, Bool.false_or, Bool.and_eq_false_iff]
    right
    exact decide_eq_false (by omega)

theorem sieveWhileLog_ok (m : Miner) (p : Nat) :
    ∀ (fuel off : Nat) (s : PendingState × PendingLog) (r : Nat × (PendingState × PendingLog)),
      sieveWhileLog m p fuel off s = some r → PendingOK m s.1 → LogOK m s.2 →
      PendingOK m r.2.1 ∧ LogOK m r.2.2 := by
  intro fuel
  induction fuel with
  | zero =>
    intro off s r h
    cases h
  | succ fuel ih =>
    intro off s r h hs hg
    unfold sieveWhileLog at h
    by_cases hlt : off < m.sieveSize
    · rw [if_pos hlt] at h
      obtain ⟨a, b⟩ := addToPendingLog_ok m s off hs hg hlt
      exact ih _ _ r h a b
    · rw [if_neg hlt] at h
      cases h
      exact ⟨hs, hg⟩

theorem sieveFamilyLog_ok (m : Miner) (p slot : Nat)
    (st st1 : (Nat → Nat) × (PendingState × PendingLog))
    (h : sieveFamilyLog m p slot st = some st1) (hs : PendingOK m st.2.1) (hg : LogOK m st.2.2) :
    PendingOK m st1.2.1 ∧ LogOK m st1.2.2 := by
  unfold sieveFamilyLog at h
  cases hw : sieveWhileLog m p (2 ^ 32) (st.1 slot) st.2 with
  | none => rw [hw] at h; cases h
  | some r =>
    rw [hw] at h
    cases h
    exact sieveWhileLog_ok m p _ _ _ r hw hs hg

theorem sieveFamiliesLog_ok (m : Miner) (i : Nat) :
    ∀ (fs : List Nat) (st st1 : (Nat → Nat) × (PendingState × PendingLog)),
      sieveFamiliesLog m i fs st = some st1 → PendingOK m st.2.1 → LogOK m st.2.2 →
      PendingOK m st1.2.1 ∧ LogOK m st1.2.2 := by
  intro fs
  induction fs with
  | nil =>
    intro st st1 h hs hg
    cases h
    exact ⟨hs, hg⟩
  | cons f rest ih =>
    intro st st1 h hs hg
    unfold sieveFamiliesLog at h
    cases hw : sieveFamilyLog m (m.primes.getD i 0 % 2 ^ 32)
        (i * m.primeTupleOffset.length + f) st with
    | none => rw [hw] at h; cases h
    | some st2 =>
      rw [hw] at h
      obtain ⟨a, b⟩ := sieveFamilyLog_ok m _ _ st st2 hw hs hg
      exact ih st2 st1 h a b

theorem sievePrimesLog_ok (m : Miner) :
    ∀ (is : List Nat) (st st1 : (Nat → Nat) × (PendingState × PendingLog)),
      sievePrimesLog m is st = some st1 → PendingOK m st.2.1 → LogOK m st.2.2 →
      PendingOK m st1.2.1 ∧ LogOK m st1.2.2 := by
  intro is
  induction is with
  | nil =>
    intro st st1 h hs hg
    cases h
    exact ⟨hs, hg⟩
  | cons i rest ih =>
    intro st st1 h hs hg
    unfold sievePrimesLog at h
    cases hw : sieveFamiliesLog m i (List.range m.primeTupleOffset.length) st with
    | none => rw [hw] at h; cases h
    | some st2 =>
      rw [hw] at h
      obtain ⟨a, b⟩ := sieveFamiliesLog_ok m i _ st st2 hw hs hg
      exact ih st2 st1 h a b

theorem logOK_empty (m : Miner) : LogOK m { entries := [], clamped := false } :=
  ⟨fun e he => (by cases he), rfl⟩

/-- Whenever `_processSieve` returns, every entry it has passed to `_addToPending` is below
`sieveSize` and the branch `old >= sieveSize` has not been taken. -/
theorem processSieveLog_ok (m : Miner) (sieve offsets : Nat → Nat) (start_i end_i : Nat)
    (r : ((Nat → Nat) × (Nat → Nat)) × PendingLog)
    (h : processSieveLog m sieve offsets start_i end_i = some r) : LogOK m r.2 := by
  unfold processSieveLog at h
  cases hw : sievePrimesLog m (List.range' start_i (end_i - start_i))
      (offsets, ({ sieve := sieve, pending := initPending (fun _ => 0), pos := 0 },
        { entries := [], clamped := false })) with
  | none => rw [hw] at h; cases h
  | some st =>
    rw [hw] at h
    simp only at h
    cases ht : termPending m st.2.1.sieve st.2.1.pending with
    | none => rw [ht] at h; cases h
    | some sieve1 =>
      rw [ht] at h
      cases h
      exact (sievePrimesLog_ok m _ _ st hw (initPending_ok m sieve).1 (logOK_empty m)).2

theorem option_map_fst_some {α β : Type} (o : Option (α × β)) (a : α)
    (h : o.map Prod.fst = some a) : ∃ b, o = some (a, b) := by
  cases o with
  | none => cases h
  | some x =>
    cases x with
    | mk x1 x2 =>
      simp only [Option.map_some', Option.some.injEq] at h
      exact ⟨x2, by rw [← h]⟩

theorem segmentFold_ok (m : Miner) (hits : Nat → Nat) :
    ∀ (l : List Nat) (s : PendingState × PendingLog), PendingOK m s.1 → LogOK m s.2 →
      (∀ j ∈ l, hits j < m.sieveSize) →
      PendingOK m (l.foldl (fun ps i => addToPendingLog m ps (hits i)) s).1 ∧
      LogOK m (l.foldl (fun ps i => addToPendingLog m ps (hits i)) s).2 ∧
      (l.foldl (fun ps i => addToPendingLog m ps (hits i)) s).2.entries
        = s.2.entries ++ l.map hits := by
  intro l
  induction l with
  | nil =>
    intro s hs hg _
    exact ⟨hs, hg, by simp⟩
  | cons a rest ih =>
    intro s hs hg hl
    rw [List.foldl_cons]
    obtain ⟨h1, g1⟩ := addToPendingLog_ok m s (hits a) hs hg (hl a (List.mem_cons_self _ _))
    obtain ⟨h2, g2, e2⟩ := ih (addToPendingLog m s (hits a)) h1 g1
      (fun j hj => hl j (List.mem_cons_of_mem _ hj))
    refine ⟨h2, g2, ?_⟩
    rw [e2]
    show (s.2.entries ++ [hits a]) ++ rest.map hits = _
    simp

theorem addRegToPendingLog_ok (m : Miner) (s : PendingState × PendingLog) (reg : Nat → Nat)
    (mask : Nat) (hs : PendingOK m s.1) (hg : LogOK m s.2)
    (h0 : mask &&& 0x0008 ≠ 0 → reg 0 < m.sieveSize)
    (h1 : mask &&& 0x0080 ≠ 0 → reg 1 < m.sieveSize)
    (h2 : mask &&& 0x0800 ≠ 0 → reg 2 < m.sieveSize)
    (h3 : mask &&& 0x8000 ≠ 0 → reg 3 < m.sieveSize) :
    PendingOK m (addRegToPendingLog m s reg mask).1 ∧
    LogOK m (addRegToPendingLog m s reg mask).2 := by
  have step : ∀ (s : PendingState × PendingLog) (l : Nat) (mk : Nat), PendingOK m s.1 →
      LogOK m s.2 → (mask &&& mk ≠ 0 → reg l < m.sieveSize) →
      PendingOK m (if mask &&& mk ≠ 0 then addToPendingLog m s (reg l) else s).1 ∧
      LogOK m (if mask &&& mk ≠ 0 then addToPendingLog m s (reg l) else s).2 := by
    intro s l mk hs hg hmk
    by_cases h : mask &&& mk ≠ 0
    · rw [if_pos h]
      exact addToPendingLog_ok m s (reg l) hs hg (hmk h)
    · rw [if_neg h]
      exact ⟨hs, hg⟩
  unfold addRegToPendingLog
  simp only
  obtain ⟨a0, b0⟩ := step s 0 0x0008 hs hg h0
  obtain ⟨a1, b1⟩ := step _ 1 0x0080 a0 b0 h1
  obtain ⟨a2, b2⟩ := step _ 2 0x0800 a1 b1 h2
  exact step _ 3 0x8000 a2 b2 h3

theorem sieve6WhileLog_ok (m : Miner) (p1 p2 p3 : Nat → Nat) (hS : m.sieveSize < 2 ^ 31)
    (hp1 : ∀ l, l < 4 → m.sieveSize + p1 l ≤ 2 ^ 31)
    (hp2 : ∀ l, l < 4 → m.sieveSize + p2 l ≤ 2 ^ 31)
    (hp3 : ∀ l, l < 4 → m.sieveSize + p3 l ≤ 2 ^ 31) :
    ∀ (fuel : Nat) (s r : Sieve6State × PendingLog),
      sieve6WhileLog m (mm_set1_epi32 m.sieveSize) p1 p2 p3 fuel s = some r →
      PendingOK m s.1.ps → LogOK m s.2 →
      (∀ l, l < 4 → s.1.offset1 l < 2 ^ 31) → (∀ l, l < 4 → s.1.offset2 l < 2 ^ 31) →
      (∀ l, l < 4 → s.1.offset3 l < 2 ^ 31) →
      PendingOK m r.1.ps ∧ LogOK m r.2 := by
  have hSpos := sieveSize_pos m
  have hq1 : ∀ l, l < 4 → p1 l < 2 ^ 31 := fun l hl => by have := hp1 l hl; omega
  have hq2 : ∀ l, l < 4 → p2 l < 2 ^ 31 := fun l hl => by have := hp2 l hl; omega
  have hq3 : ∀ l, l < 4 → p3 l < 2 ^ 31 := fun l hl => by have := hp3 l hl; omega
  have hnext : ∀ (o p : Nat → Nat), (∀ l, l < 4 → o l < 2 ^ 31) →
      (∀ l, l < 4 → m.sieveSize + p l ≤ 2 ^ 31) →
      ∀ l, l < 4 → mm_add_epi32 o
        (mm_and_si128 (mm_cmpgt_epi32 (mm_set1_epi32 m.sieveSize) o) p) l < 2 ^ 31 := by
    intro o p ho hp l hl
    rw [(reg_step m o p hS ho (fun l hl => by have := hp l hl; omega)).2.2.2.2.2 l hl]
    have := ho l hl
    have := hp l hl
    split <;> omega
  intro fuel
  induction fuel with
  | zero =>
    intro s r h
    cases h
  | succ fuel ih =>
    intro s r h hs hg ho1 ho2 ho3
    unfold sieve6WhileLog at h
    simp only at h
    split at h
    · cases h
      exact ⟨hs, hg⟩
    · obtain ⟨_, a0, a1, a2, a3, _⟩ := reg_step m s.1.offset1 p1 hS ho1 hq1
      obtain ⟨_, b0, b1, b2, b3, _⟩ := reg_step m s.1.offset2 p2 hS ho2 hq2
      obtain ⟨_, c0, c1, c2, c3, _⟩ := reg_step m s.1.offset3 p3 hS ho3 hq3
      obtain ⟨x1, y1⟩ := addRegToPendingLog_ok m (s.1.ps, s.2) s.1.offset1 _ hs hg
        a0.1 a1.1 a2.1 a3.1
      obtain ⟨x2, y2⟩ := addRegToPendingLog_ok m _ s.1.offset2 _ x1 y1 b0.1 b1.1 b2.1 b3.1
      obtain ⟨x3, y3⟩ := addRegToPendingLog_ok m _ s.1.offset3 _ x2 y2 c0.1 c1.1 c2.1 c3.1
      exact ih _ r h x3 y3 (hnext _ _ ho1 hp1) (hnext _ _ ho2 hp2) (hnext _ _ ho3 hp3)

theorem sieve6PairLog_ok (m : Miner) (hL : m.primeTupleOffset.length = 6) (i : Nat)
    (st st1 : (Nat → Nat) × (PendingState × PendingLog))
    (h : sieve6PairLog m i st = some st1) (hs : PendingOK m st.2.1) (hg : LogOK m st.2.2)
    (hok : SlotsOK m (2 ^ 31) (i * 6) (i * 6 + 12) st.1) :
    PendingOK m st1.2.1 ∧ LogOK m st1.2.2 ∧
    ∀ slot, (slot < i * 6 ∨ i * 6 + 12 ≤ slot) → st1.1 slot = st.1 slot := by
  have hS : m.sieveSize < 2 ^ 31 := by
    have := hok (i * 6) (by omega) (by omega)
    omega
  have hq : ∀ c, c < 12 → m.sieveSize + m.slotPrime (i * 6 + c) ≤ 2 ^ 31 := fun c hc =>
    (hok (i * 6 + c) (by omega) (by omega)).2.1
  have hq1 : ∀ l, l < 4 → mm_set1_epi32 (m.primes.getD i 0) l = m.slotPrime (i * 6 + l) :=
    fun l hl => by
      rw [slotPrime_six m hL i l (by omega), if_pos (by omega)]
      rfl
  have hq2 : ∀ l, l < 4 → mm_shuffle_ps_0000 (mm_set1_epi32 (m.primes.getD i 0))
      (mm_set1_epi32 (m.primes.getD (i + 1) 0)) l = m.slotPrime (i * 6 + (l + 4)) :=
    fun l hl => by
      rw [slotPrime_six m hL i (l + 4) (by omega)]
      unfold mm_shuffle_ps_0000 mm_set1_epi32
      by_cases h : l < 2
      · rw [if_pos h, if_pos (by omega)]
      · rw [if_neg h, if_neg (by omega)]
  have hq3 : ∀ l, l < 4 → mm_set1_epi32 (m.primes.getD (i + 1) 0) l
      = m.slotPrime (i * 6 + (l + 8)) :=
    fun l hl => by
      rw [slotPrime_six m hL i (l + 8) (by omega), if_neg (by omega)]
      rfl
  unfold sieve6PairLog at h
  simp only at h
  split at h
  · cases h
  · rename_i r hw
    cases h
    obtain ⟨a, b⟩ := sieve6WhileLog_ok m _ _ _ hS
      (fun l hl => by rw [hq1 l hl]; exact hq l (by omega))
      (fun l hl => by rw [hq2 l hl]; exact hq (l + 4) (by omega))
      (fun l hl => by rw [hq3 l hl]; exact hq (l + 8) (by omega))
      _ _ r hw hs hg
      (fun l hl => (hok (i * 6 + 0 + l) (by omega) (by omega)).2.2)
      (fun l hl => (hok (i * 6 + 4 + l) (by omega) (by omega)).2.2)
      (fun l hl => (hok (i * 6 + 8 + l) (by omega) (by omega)).2.2)
    exact ⟨a, b, fun slot hslot => (store_three st.1 _ _ _ (i * 6)).2.2.2 slot hslot⟩

theorem sieve6PairsLog_ok (m : Miner) (hL : m.primeTupleOffset.length = 6) :
    ∀ (n a : Nat) (st st1 : (Nat → Nat) × (PendingState × PendingLog)),
      sieve6PairsLog m ((List.range n).map (fun k => a + 2 * k)) st = some st1 →
      PendingOK m st.2.1 → LogOK m st.2.2 →
      SlotsOK m (2 ^ 31) (a * 6) ((a + 2 * n) * 6) st.1 →
      PendingOK m st1.2.1 ∧ LogOK m st1.2.2 := by
  intro n
  induction n with
  | zero =>
    intro a st st1 h hs hg _
    cases h
    exact ⟨hs, hg⟩
  | succ n ih =>
    intro a st st1 h hs hg hok
    rw [range_map_step] at h
    unfold sieve6PairsLog at h
    cases hw : sieve6PairLog m a st with
    | none => rw [hw] at h; cases h
    | some st2 =>
      rw [hw] at h
      obtain ⟨x, y, fr⟩ := sieve6PairLog_ok m hL a st st2 hw hs hg
        (fun slot hl hh => hok slot hl (by omega))
      exact ih (a + 2) st2 st1 h x y (fun slot hl hh => by
        obtain ⟨u, v, w⟩ := hok slot (by omega) (by omega)
        refine ⟨u, v, ?_⟩
        rw [fr slot (Or.inr (by omega))]
        exact w)

/-- Whenever `_processSieve6` returns on cells that stay below `2^31`, every entry it has
passed to `_addToPending` is below `sieveSize` and the branch `old >= sieveSize` has not
been taken. -/
theorem processSieve6Log_ok (m : Miner) (sieve offsets : Nat → Nat) (start_i end_i : Nat)
    (hse : start_i ≤ end_i)
    (hok : SlotsOK m (2 ^ 31) (start_i * 6) (end_i * 6) offsets)
    (r : ((Nat → Nat) × (Nat → Nat)) × PendingLog)
    (h : processSieve6Log m sieve offsets start_i end_i = some r) : LogOK m r.2 := by
  unfold processSieve6Log at h
  split at h
  · rename_i hc
    have hend : start_i + 2 * ((end_i - start_i + 1) / 2) = end_i := by
      have h1 := hc.2.1
      have h2 := hc.2.2
      rw [Nat.and_one_is_mod] at h1 h2
      omega
    cases hw : sieve6PairsLog m
        ((List.range ((end_i - start_i + 1) / 2)).map (fun k => start_i + 2 * k))
        (offsets, ({ sieve := sieve, pending := initPending (fun _ => 0), pos := 0 },
          { entries := [], clamped := false })) with
    | none => rw [hw] at h; cases h
    | some st =>
      rw [hw] at h
      simp only at h
      cases ht : termPending m st.2.1.sieve st.2.1.pending with
      | none => rw [ht] at h; cases h
      | some sieve1 =>
        rw [ht] at h
        cases h
        exact (sieve6PairsLog_ok m hc.1 _ start_i _ st hw (initPending_ok m sieve).1
          (logOK_empty m) (by rw [hend]; exact hok)).2
  · cases h

theorem putStore_cells (m : Miner) (offsets : Nat → Nat) :
    ∀ (l : List Nat) (st0 : (Nat → Nat → Nat) × (Nat → Nat)) (seg j : Nat),
      (l.foldl (putStore m offsets) st0).1 seg j = st0.1 seg j ∨
      (l.foldl (putStore m offsets) st0).1 seg j < m.sieveSize := by
  intro l
  induction l with
  | nil =>
    intro st0 seg j
    exact Or.inl rfl
  | cons i rest ih =>
    intro st0 seg j
    rw [List.foldl_cons]
    rcases ih (putStore m offsets st0 i) seg j with h | h
    · rw [h]
      have hfst : (putStore m offsets st0 i).1
          = Function.update st0.1 (offsets i >>> m.sieveBits)
              (Function.update (st0.1 (offsets i >>> m.sieveBits))
                (st0.2 (offsets i >>> m.sieveBits))
                ((offsets i &&& (m.sieveSize - 1)) % 2 ^ 32)) := rfl
      rw [hfst]
      by_cases hseg : seg = offsets i >>> m.sieveBits
      · rw [hseg, Function.update_same]
        by_cases hj : j = st0.2 (offsets i >>> m.sieveBits)
        · right
          rw [hj, Function.update_same]
          have h1 : offsets i &&& (m.sieveSize - 1) ≤ m.sieveSize - 1 := Nat.and_le_right
          have h2 := Nat.mod_le (offsets i &&& (m.sieveSize - 1)) (2 ^ 32)
          have h3 := sieveSize_pos m
          omega
        · left
          rw [Function.update_noteq hj]
      · left
        rw [Function.update_noteq hseg]
    · exact Or.inr h

theorem segmentHitsLog_erase (m : Miner) (s : SieveInstance) (loop : Nat) (sieve2 : Nat → Nat) :
    (segmentHitsLog m s loop sieve2).map Prod.fst
      = termPending m
          ((List.range (s.segmentCounts loop)).foldl
            (fun ps i => addToPending m ps (s.segmentHits loop i))
            { sieve := sieve2, pending := initPending (fun _ => 0), pos := 0 }).sieve
          ((List.range (s.segmentCounts loop)).foldl
            (fun ps i => addToPending m ps (s.segmentHits loop i))
            { sieve := sieve2, pending := initPending (fun _ => 0), pos := 0 }).pending := by
  unfold segmentHitsLog
  simp only
  rw [segmentFold_erase]
  cases termPending m
      ((List.range (s.segmentCounts loop)).foldl
        (fun ps i => addToPending m ps (s.segmentHits loop i))
        { sieve := sieve2, pending := initPending (fun _ => 0), pos := 0 }).sieve
      ((List.range (s.segmentCounts loop)).foldl
        (fun ps i => addToPending m ps (s.segmentHits loop i))
        { sieve := sieve2, pending := initPending (fun _ => 0), pos := 0 }).pending with
  | none => rfl
  | some sieve3 => rfl

/-- C29 (the fault guard of the pending buffer is unreachable). With a record of the
calls of `_addToPending` carried along: (1) whenever `_processSieve` returns, every entry
it has passed is below `sieveSize` and the branch `old >= sieveSize` has not been taken;
(2) on cells that can be sieved without 32-bit wrap-around it does return, so the
assertion of `_termPending` holds; (3) the same for `_processSieve6` on a six-member
pattern with even bounds and cells that stay below `2^31`; (4) every cell of
`segmentHits` that `_putOffsetsInSegments` writes is below `sieveSize`; (5) when the
filled part of `segmentHits[loop]` is below `sieveSize`, the segment-hit loop of
`_runSieve` passes exactly these entries, the branch is not taken and the assertion of
`_termPending` holds. -/
theorem C29_pending_guard_unreachable (m : Miner) :
    (∀ (sieve offsets : Nat → Nat) (start_i end_i : Nat) (r : (Nat → Nat) × (Nat → Nat))
        (g : PendingLog),
      processSieveLog m sieve offsets start_i end_i = some (r, g) →
      (∀ e ∈ g.entries, e < m.sieveSize) ∧ g.clamped = false) ∧
    (∀ (sieve offsets : Nat → Nat) (start_i end_i : Nat),
      SlotsOK m (2 ^ 32) (start_i * m.primeTupleOffset.length)
        (end_i * m.primeTupleOffset.length) offsets →
      ∃ r g, processSieveLog m sieve offsets start_i end_i = some (r, g) ∧
        processSieve m sieve offsets start_i end_i = some r ∧
        (∀ e ∈ g.entries, e < m.sieveSize) ∧ g.clamped = false) ∧
    (∀ (sieve offsets : Nat → Nat) (start_i end_i : Nat),
      m.primeTupleOffset.length = 6 → start_i % 2 = 0 → end_i % 2 = 0 →
      SlotsOK m (2 ^ 31) (start_i * 6) (end_i * 6) offsets →
      ∃ r g, processSieve6Log m sieve offsets start_i end_i = some (r, g) ∧
        processSieve6 m sieve offsets start_i end_i = some r ∧
        (∀ e ∈ g.entries, e < m.sieveSize) ∧ g.clamped = false) ∧
    (∀ (sieve : SieveInstance) (offsets counts : Nat → Nat) (n : Nat)
        (r : SieveInstance × (Nat → Nat)),
      putOffsetsInSegments m sieve offsets counts n = some r →
      ∀ seg j, r.1.segmentHits seg j = sieve.segmentHits seg j ∨
        r.1.segmentHits seg j < m.sieveSize) ∧
    (∀ (s : SieveInstance) (loop : Nat) (sieve2 : Nat → Nat),
      (∀ j, j < s.segmentCounts loop → s.segmentHits loop j < m.sieveSize) →
      ∃ sieve3 g, segmentHitsLog m s loop sieve2 = some (sieve3, g) ∧
        g.entries = (List.range (s.segmentCounts loop)).map (s.segmentHits loop) ∧
        (∀ e ∈ g.entries, e < m.sieveSize) ∧ g.clamped = false) := by
  refine ⟨?_, ?_, ?_, ?_, ?_⟩
  · intro sieve offsets start_i end_i r g h
    exact processSieveLog_ok m sieve offsets start_i end_i (r, g) h
  · intro sieve offsets start_i end_i hok
    have hret : ∃ r, processSieve m sieve offsets start_i end_i = some r := by
      by_cases hse : start_i ≤ end_i
      · obtain ⟨s1, o1, e1, _⟩ := processSieve_spec m sieve offsets start_i end_i hse hok
        exact ⟨_, e1⟩
      · obtain ⟨s1, e1, _⟩ := processSieve_noop m sieve offsets start_i end_i (by omega)
        exact ⟨_, e1⟩
    obtain ⟨r, hr⟩ := hret
    obtain ⟨g, hg⟩ := option_map_fst_some _ r
      ((processSieveLog_erase m sieve offsets start_i end_i).trans hr)
    exact ⟨r, g, hg, hr, processSieveLog_ok m sieve offsets start_i end_i (r, g) hg⟩
  · intro sieve offsets start_i end_i hL hs2 he2 hok
    by_cases hse : start_i ≤ end_i
    · obtain ⟨s1, o1, e1, _⟩ := processSieve6_spec m sieve offsets start_i end_i hL hs2 he2 hse
        hok
      obtain ⟨g, hg⟩ := option_map_fst_some _ (s1, o1)
        ((processSieve6Log_erase m sieve offsets start_i end_i).trans e1)
      exact ⟨_, g, hg, e1, processSieve6Log_ok m sieve offsets start_i end_i hse hok _ hg⟩
    · obtain ⟨s1, e1, _⟩ := processSieve6_noop m sieve offsets start_i end_i hL hs2 he2
        (by omega)
      obtain ⟨g, hg⟩ := option_map_fst_some _ (s1, offsets)
        ((processSieve6Log_erase m sieve offsets start_i end_i).trans e1)
      refine ⟨_, g, hg, e1, ?_⟩
      have hn : (end_i - start_i + 1) / 2 = 0 := by omega
      unfold processSieve6Log at hg
      rw [if_pos ⟨hL, by rw [Nat.and_one_is_mod]; exact hs2,
        by rw [Nat.and_one_is_mod]; exact he2⟩, hn] at hg
      have hp : sieve6PairsLog m ((List.range 0).map (fun k => start_i + 2 * k))
          (offsets, ({ sieve := sieve, pending := initPending (fun _ => 0), pos := 0 },
            { entries := [], clamped := false }))
          = some (offsets, ({ sieve := sieve, pending := initPending (fun _ => 0), pos := 0 },
            { entries := [], clamped := false })) := rfl
      rw [hp] at hg
      simp only at hg
      split at hg
      · cases hg
      · cases hg
        exact logOK_empty m
  · intro sieve offsets counts n r h seg j
    unfold putOffsetsInSegments at h
    split at h
    · cases h
    · cases h
      exact putStore_cells m offsets _ _ seg j
  · intro s loop sieve2 hh
    obtain ⟨hp1, hg1, he1⟩ := segmentFold_ok m (s.segmentHits loop)
      (List.range (s.segmentCounts loop))
      ({ sieve := sieve2, pending := initPending (fun _ => 0), pos := 0 },
        { entries := [], clamped := false })
      (initPending_ok m sieve2).1 (logOK_empty m) (fun j hj => hh j (List.mem_range.1 hj))
    obtain ⟨sieve3, hT, _⟩ := termPending_spec m _ hp1
    refine ⟨sieve3, _, ?_, ?_, hg1.1, hg1.2⟩
    · unfold segmentHitsLog
      simp only
      rw [hT]
    · rw [he1]
      rfl

theorem C29_pending_guard_unreachable_witness :
    ∃ r g, processSieve6Log exampleMiner (fun _ => 0) (fun slot => slot % 7) 4 6 = some (r, g) ∧
      processSieve6 exampleMiner (fun _ => 0) (fun slot => slot % 7) 4 6 = some r ∧
      (∀ e ∈ g.entries, e < exampleMiner.sieveSize) ∧ g.clamped = false :=
  (C29_pending_guard_unreachable exampleMiner).2.2.1 (fun _ => 0) (fun slot => slot % 7) 4 6
    rfl rfl rfl
    (exampleMiner_slotsOK (fun slot => slot % 7)
      (fun slot => lt_of_lt_of_le (Nat.mod_lt slot (by norm_num)) (by norm_num)))

/-! ## Job pipeline: the low mod jobs are done before the sieve jobs are pushed -/

theorem countP_set_get {α : Type} (p : α → Bool) :
    ∀ (l : List α) (w : Nat) (x y : α), l.get? w = some y →
      (l.set w x).countP p + (if p y = true then 1 else 0)
        = l.countP p + (if p x = true then 1 else 0) := by
  intro l
  induction l with
  | nil =>
    intro w x y h
    cases h
  | cons a rest ih =>
    intro w x y h
    cases w with
    | zero =>
      have ha : a = y := by simpa using h
      rw [List.set_cons_zero, List.countP_cons, List.countP_cons, ha]
      omega
    | succ w =>
      have h1 : rest.get? w = some y := by simpa using h
      rw [List.set_cons_succ, List.countP_cons, List.countP_cons]
      have := ih w x y h1
      omega

theorem forall_mem_set {α : Type} (P : α → Prop) (l : List α) (w : Nat) (x : α)
    (hl : ∀ a ∈ l, P a) (hx : P x) : ∀ a ∈ l.set w x, P a := by
  intro a ha
  rcases List.mem_or_eq_of_mem_set ha with h | h
  · exact hl a h
  · rw [h]
    exact hx

theorem toInt64_small (x : Nat) (hx : x < 2 ^ 63) : toInt64 x = (x : Int) := by
  unfold toInt64
  have h1 : x % 2 ^ 64 = x := Nat.mod_eq_of_lt (by omega)
  rw [h1, if_pos hx]

theorem lowValue_of_start (m : Miner) (start : Nat) (hx : start < 2 ^ 63)
    (h : lowValue m (-(toInt64 start)) = true) : start < m.sparseLimit := by
  rw [toInt64_small start hx] at h
  unfold lowValue toUInt64 at h
  rw [Bool.and_eq_true] at h
  have h2 : (-(-(start : Int)) % 2 ^ 64).toNat < m.sparseLimit := by simpa using h.2
  rw [neg_neg] at h2
  have h3 : ((start : Int) % 2 ^ 64) = (start : Int) :=
    Int.emod_eq_of_lt (Int.natCast_nonneg _) (by omega)
  rw [h3, Int.toNat_natCast] at h2
  exact h2

theorem lowValue_nonneg (m : Miner) (v : Int) (h : 0 ≤ v) : lowValue m v = false := by
  unfold lowValue
  have : decide (v ≥ 0) = true := decide_eq_true h
  rw [this]
  rfl

theorem lowJob_dispatch (m : Miner) (job : PipeJob) : lowPc m (dispatch job) = lowJob m job := by
  cases job <;> rfl

theorem startOK_dispatch (m : Miner) (job : PipeJob) :
    startOKPc m (dispatch job) = startOK m job := by
  cases job <;> rfl

theorem isSieve_dispatch (job : PipeJob) : isSievePc (dispatch job) = isSieveJob job := by
  cases job <;> rfl

theorem queuePushBack_some {α : Type} (cap : Nat) (q q1 : List α) (x : α)
    (h : queuePushBack cap q x = some q1) : q1 = q ++ [x] := by
  unfold queuePushBack at h
  split at h
  · exact (Option.some.inj h).symm
  · cases h

theorem queuePushFront_some {α : Type} (cap : Nat) (q q1 : List α) (x : α)
    (h : queuePushFront cap q x = some q1) : q1 = x :: q := by
  unfold queuePushFront at h
  split at h
  · exact (Option.some.inj h).symm
  · cases h

theorem queuePopFront_some {α : Type} (q rest : List α) (x : α)
    (h : queuePopFront q = some (x, rest)) : q = x :: rest := by
  cases q with
  | nil => cases h
  | cons a l =>
    have h1 : (a, l) = (x, rest) := Option.some.inj h
    cases h1
    rfl

theorem pushDone_frame (m : Miner) (s s1 : Pipeline) (w : Nat) (v : Int) (pc : WorkerPc)
    (hpc : s.workers.get? w = some pc)
    (hst : (∀ j ∈ s.modWorkQueue, startOK m j = true) ∧
      (∀ j ∈ s.verifyWorkQueue, startOK m j = true) ∧ (∀ pc ∈ s.workers, startOKPc m pc = true))
    (hv : NoSieve s → lowValue m v = true → lowPc m pc = true)
    (h : pushDone s w v = some s1) : WorkerFrame m s s1 := by
  unfold pushDone at h
  cases hq : queuePushBack WORK_DONE_CAPACITY s.workDoneQueue v with
  | none => rw [hq] at h; cases h
  | some q =>
    rw [hq] at h
    have hq1 := queuePushBack_some _ _ _ _ hq
    subst hq1
    cases h
    have hc := countP_set_get (lowPc m) s.workers w WorkerPc.top pc hpc
    have htop : lowPc m WorkerPc.top = false := rfl
    rw [htop] at hc
    simp only [Bool.false_eq_true, if_false, Nat.add_zero] at hc
    refine ⟨rfl, rfl, rfl, rfl, ⟨hst.1, hst.2.1, ?_⟩, ?_, ?_⟩
    · exact forall_mem_set _ _ _ _ hst.2.2 rfl
    · show s.modWorkQueue.countP (lowJob m) + s.verifyWorkQueue.countP (lowJob m)
          + (s.workers.set w WorkerPc.top).countP (lowPc m)
        ≤ s.modWorkQueue.countP (lowJob m) + s.verifyWorkQueue.countP (lowJob m)
          + s.workers.countP (lowPc m)
      omega
    · intro hns
      refine ⟨⟨hns.1, hns.2.1, forall_mem_set _ _ _ _ hns.2.2 rfl⟩, ?_⟩
      show s.modWorkQueue.countP (lowJob m) + s.verifyWorkQueue.countP (lowJob m)
          + (s.workers.set w WorkerPc.top).countP (lowPc m)
          + (s.workDoneQueue ++ [v]).countP (lowValue m)
        ≤ s.modWorkQueue.countP (lowJob m) + s.verifyWorkQueue.countP (lowJob m)
          + s.workers.countP (lowPc m) + s.workDoneQueue.countP (lowValue m)
      rw [List.countP_append, List.countP_singleton]
      by_cases hl : lowValue m v = true
      · rw [if_pos hl]
        rw [if_pos (hv hns hl)] at hc
        omega
      · rw [if_neg hl]
        omega

theorem take_frame (m : Miner) (s : Pipeline) (w : Nat) (pc : WorkerPc) (job : PipeJob)
    (rest : List PipeJob)
    (hpc : s.workers.get? w = some pc) (hlow : lowPc m pc = false)
    (hst : (∀ j ∈ s.modWorkQueue, startOK m j = true) ∧
      (∀ j ∈ s.verifyWorkQueue, startOK m j = true) ∧ (∀ pc ∈ s.workers, startOKPc m pc = true)) :
    (s.modWorkQueue = job :: rest →
      WorkerFrame m s { s with modWorkQueue := rest, workers := s.workers.set w (dispatch job) }) ∧
    (s.verifyWorkQueue = job :: rest →
      WorkerFrame m s
        { s with verifyWorkQueue := rest, workers := s.workers.set w (dispatch job) }) := by
  have hc := countP_set_get (lowPc m) s.workers w (dispatch job) pc hpc
  rw [hlow, lowJob_dispatch] at hc
  simp only [Bool.false_eq_true, if_false, Nat.add_zero] at hc
  constructor
  · intro hq
    have hmem : ∀ j ∈ rest, j ∈ s.modWorkQueue := fun j hj => by
      rw [hq]; exact List.mem_cons_of_mem _ hj
    have hjob : job ∈ s.modWorkQueue := by rw [hq]; exact List.mem_cons_self _ _
    have hcq : s.modWorkQueue.countP (lowJob m)
        = rest.countP (lowJob m) + (if lowJob m job = true then 1 else 0) := by
      rw [hq, List.countP_cons]
    refine ⟨rfl, rfl, rfl, rfl, ⟨fun j hj => hst.1 j (hmem j hj), hst.2.1, ?_⟩, ?_, ?_⟩
    · exact forall_mem_set _ _ _ _ hst.2.2 (by rw [startOK_dispatch]; exact hst.1 job hjob)
    · show rest.countP (lowJob m) + s.verifyWorkQueue.countP (lowJob m)
          + (s.workers.set w (dispatch job)).countP (lowPc m)
        ≤ s.modWorkQueue.countP (lowJob m) + s.verifyWorkQueue.countP (lowJob m)
          + s.workers.countP (lowPc m)
      omega
    · intro hns
      refine ⟨⟨fun j hj => hns.1 j (hmem j hj), hns.2.1,
        forall_mem_set _ _ _ _ hns.2.2 (by rw [isSieve_dispatch]; exact hns.1 job hjob)⟩, ?_⟩
      show rest.countP (lowJob m) + s.verifyWorkQueue.countP (lowJob m)
          + (s.workers.set w (dispatch job)).countP (lowPc m)
          + s.workDoneQueue.countP (lowValue m)
        ≤ s.modWorkQueue.countP (lowJob m) + s.verifyWorkQueue.countP (lowJob m)
          + s.workers.countP (lowPc m) + s.workDoneQueue.countP (lowValue m)
      omega
  · intro hq
    have hmem : ∀ j ∈ rest, j ∈ s.verifyWorkQueue := fun j hj => by
      rw [hq]; exact List.mem_cons_of_mem _ hj
    have hjob : job ∈ s.verifyWorkQueue := by rw [hq]; exact List.mem_cons_self _ _
    have hcq : s.verifyWorkQueue.countP (lowJob m)
        = rest.countP (lowJob m) + (if lowJob m job = true then 1 else 0) := by
      rw [hq, List.countP_cons]
    refine ⟨rfl, rfl, rfl, rfl, ⟨hst.1, fun j hj => hst.2.1 j (hmem j hj), ?_⟩, ?_, ?_⟩
    · exact forall_mem_set _ _ _ _ hst.2.2 (by rw [startOK_dispatch]; exact hst.2.1 job hjob)
    · show s.modWorkQueue.countP (lowJob m) + rest.countP (lowJob m)
          + (s.workers.set w (dispatch job)).countP (lowPc m)
        ≤ s.modWorkQueue.countP (lowJob m) + s.verifyWorkQueue.countP (lowJob m)
          + s.workers.countP (lowPc m)
      omega
    · intro hns
      refine ⟨⟨hns.1, fun j hj => hns.2.1 j (hmem j hj),
        forall_mem_set _ _ _ _ hns.2.2 (by rw [isSieve_dispatch]; exact hns.2.1 job hjob)⟩, ?_⟩
      show s.modWorkQueue.countP (lowJob m) + rest.countP (lowJob m)
          + (s.workers.set w (dispatch job)).countP (lowPc m)
          + s.workDoneQueue.countP (lowValue m)
        ≤ s.modWorkQueue.countP (lowJob m) + s.verifyWorkQueue.countP (lowJob m)
          + s.workers.countP (lowPc m) + s.workDoneQueue.countP (lowValue m)
      omega

theorem wait_frame (m : Miner) (s : Pipeline) (w : Nat)
    (hpc : s.workers.get? w = some WorkerPc.top)
    (hst : (∀ j ∈ s.modWorkQueue, startOK m j = true) ∧
      (∀ j ∈ s.verifyWorkQueue, startOK m j = true) ∧ (∀ pc ∈ s.workers, startOKPc m pc = true)) :
    WorkerFrame m s { s with workers := s.workers.set w WorkerPc.waiting } := by
  have hc := countP_set_get (lowPc m) s.workers w WorkerPc.waiting WorkerPc.top hpc
  have h1 : lowPc m WorkerPc.top = false := rfl
  have h2 : lowPc m WorkerPc.waiting = false := rfl
  rw [h1, h2] at hc
  simp only [Bool.false_eq_true, if_false, Nat.add_zero] at hc
  refine ⟨rfl, rfl, rfl, rfl, ⟨hst.1, hst.2.1, forall_mem_set _ _ _ _ hst.2.2 rfl⟩, ?_, ?_⟩
  · show s.modWorkQueue.countP (lowJob m) + s.verifyWorkQueue.countP (lowJob m)
        + (s.workers.set w WorkerPc.waiting).countP (lowPc m)
      ≤ s.modWorkQueue.countP (lowJob m) + s.verifyWorkQueue.countP (lowJob m)
        + s.workers.countP (lowPc m)
    omega
  · intro hns
    refine ⟨⟨hns.1, hns.2.1, forall_mem_set _ _ _ _ hns.2.2 rfl⟩, ?_⟩
    show s.modWorkQueue.countP (lowJob m) + s.verifyWorkQueue.countP (lowJob m)
        + (s.workers.set w WorkerPc.waiting).countP (lowPc m)
        + s.workDoneQueue.countP (lowValue m)
      ≤ s.modWorkQueue.countP (lowJob m) + s.verifyWorkQueue.countP (lowJob m)
        + s.workers.countP (lowPc m) + s.workDoneQueue.countP (lowValue m)
    omega

theorem workerStep_frame (m : Miner) (hN : m.nPrimes ≤ 2 ^ 63) (s s1 : Pipeline) (w : Nat)
    (hst : (∀ j ∈ s.modWorkQueue, startOK m j = true) ∧
      (∀ j ∈ s.verifyWorkQueue, startOK m j = true) ∧ (∀ pc ∈ s.workers, startOKPc m pc = true))
    (h : workerStep s w = some s1) : WorkerFrame m s s1 := by
  unfold workerStep at h
  cases hpc : s.workers.get? w with
  | none => rw [hpc] at h; cases h
  | some pc =>
    rw [hpc] at h
    have hmem : pc ∈ s.workers := List.get?_mem hpc
    cases pc with
    | top =>
      simp only at h
      cases hq : queuePopFront s.modWorkQueue with
      | none =>
        rw [hq] at h
        cases h
        exact wait_frame m s w hpc hst
      | some jr =>
        obtain ⟨job, rest⟩ := jr
        rw [hq] at h
        cases h
        exact (take_frame m s w WorkerPc.top job rest hpc rfl hst).1
          (queuePopFront_some _ _ _ hq)
    | waiting =>
      simp only at h
      cases hq : queuePopFront s.verifyWorkQueue with
      | none => rw [hq] at h; cases h
      | some jr =>
        obtain ⟨job, rest⟩ := jr
        rw [hq] at h
        cases h
        exact (take_frame m s w WorkerPc.waiting job rest hpc rfl hst).2
          (queuePopFront_some _ _ _ hq)
    | inMod workDataIndex start end_ =>
      simp only at h
      have hs : start < m.nPrimes := by
        have := hst.2.2 _ hmem
        simpa [startOKPc] using this
      exact pushDone_frame m s s1 w _ _ hpc hst
        (fun _ hl => by
          have := lowValue_of_start m start (by omega) hl
          simpa [lowPc] using this) h
    | inSieve workDataIndex sieveId =>
      simp only at h
      exact pushDone_frame m s s1 w _ _ hpc hst
        (fun hns _ => by
          have := hns.2.2 _ hmem
          cases this) h
    | inCheck workDataIndex =>
      simp only at h
      exact pushDone_frame m s s1 w _ _ hpc hst
        (fun _ hl => by
          rw [lowValue_nonneg m _ (Int.natCast_nonneg _)] at hl
          cases hl) h

theorem sievePushStep_frame (m : Miner) (s s1 : Pipeline) (w : Nat)
    (hst : (∀ j ∈ s.modWorkQueue, startOK m j = true) ∧
      (∀ j ∈ s.verifyWorkQueue, startOK m j = true) ∧ (∀ pc ∈ s.workers, startOKPc m pc = true))
    (h : sievePushStep s w = some s1) : WorkerFrame m s s1 := by
  unfold sievePushStep at h
  split at h
  · rename_i workDataIndex sieveId hpc
    cases hq : queuePushBack VERIFY_QUEUE_CAPACITY s.verifyWorkQueue
        (PipeJob.check workDataIndex) with
    | none => rw [hq] at h; cases h
    | some q =>
      rw [hq] at h
      have hq1 := queuePushBack_some _ _ _ _ hq
      subst hq1
      cases h
      have hmem : WorkerPc.inSieve workDataIndex sieveId ∈ s.workers := List.get?_mem hpc
      refine ⟨rfl, rfl, rfl, rfl, ⟨hst.1, ?_, hst.2.2⟩, ?_, ?_⟩
      · intro j hj
        rcases List.mem_append.1 hj with h1 | h1
        · exact hst.2.1 j h1
        · rw [List.mem_singleton.1 h1]
          rfl
      · show s.modWorkQueue.countP (lowJob m)
            + (s.verifyWorkQueue ++ [PipeJob.check workDataIndex]).countP (lowJob m)
            + s.workers.countP (lowPc m)
          ≤ s.modWorkQueue.countP (lowJob m) + s.verifyWorkQueue.countP (lowJob m)
            + s.workers.countP (lowPc m)
        rw [List.countP_append, List.countP_singleton]
        have : lowJob m (PipeJob.check workDataIndex) = false := rfl
        rw [this]
        simp
      · intro hns
        have := hns.2.2 _ hmem
        cases this
  · cases h

theorem beforeSieve_of_counting (pc : MasterPc) (h : countingPhase pc = true) :
    beforeSieve pc = true := by
  cases pc <;> first | rfl | cases h

theorem pipeInv_of_frame (m : Miner) (s s1 : Pipeline) (hf : WorkerFrame m s s1)
    (hinv : PipeInv m s) : PipeInv m s1 := by
  obtain ⟨hm, hn, hc, hp, hst1, hle, hns⟩ := hf
  obtain ⟨_, i1, i2, i3, i4⟩ := hinv
  refine ⟨hst1, ?_, ?_, ?_, ?_⟩
  · intro h
    rw [hm] at h
    exact (hns (i1 h)).1
  · intro h
    rw [hm] at h
    obtain ⟨a, b⟩ := i2 h
    have hle2 := (hns (i1 (beforeSieve_of_counting _ h))).2
    rw [hm, hn, hc, hp]
    refine ⟨?_, b⟩
    have : ((lowQueuedOrRunning m s1 + s1.workDoneQueue.countP (lowValue m) : Nat) : Int)
        ≤ ((lowQueuedOrRunning m s + s.workDoneQueue.countP (lowValue m) : Nat) : Int) :=
      Int.ofNat_le.2 hle2
    omega
  · intro h
    rw [hm] at h
    obtain ⟨a, b⟩ := i3 h
    rw [hc, hp]
    exact ⟨by omega, b⟩
  · intro h
    rw [hm] at h
    have hb : beforeSieve s.master = true := by rw [h]; rfl
    have ha : afterLowDrain s.master = true := by rw [h]; rfl
    have hle2 := (hns (i1 hb)).2
    have h0 := (i3 ha).1
    have h1 := i4 h
    omega

theorem lowValue_cons_count (m : Miner) (i : Int) (rest : List Int) :
    (i :: rest).countP (lowValue m) = rest.countP (lowValue m)
      + (if lowValue m i = true then 1 else 0) := List.countP_cons _ _ _

theorem lowValue_branch (m : Miner) (i : Int) (h1 : ¬ i ≥ 0) :
    lowValue m i = decide (toUInt64 (-i) < m.sparseLimit) := by
  unfold lowValue
  have : decide (i ≥ 0) = false := decide_eq_false h1
  rw [this]
  rfl

theorem masterStep_inv (m : Miner) (workDataIndex : Nat) (s s1 : Pipeline)
    (h : masterStep m workDataIndex s = some s1) (hinv : PipeInv m s) : PipeInv m s1 := by
  obtain ⟨hst, i1, i2, i3, i4⟩ := hinv
  unfold masterStep at h
  cases hm : s.master with
  | slicing base =>
    rw [hm] at h i1 i2
    simp only at h
    obtain ⟨a, b⟩ := i2 rfl
    have hns := i1 rfl
    have hp0 : pendingLow m (MasterPc.slicing base) = 0 := rfl
    rw [hp0] at a b
    by_cases hb : base < m.nPrimes
    · rw [if_pos hb] at h
      cases hq : queuePushBack MOD_QUEUE_CAPACITY s.modWorkQueue
          (PipeJob.mod workDataIndex base
            (min m.nPrimes ((base + m.nPrimes / (m.threads * 8)) % 2 ^ 64))) with
      | none => rw [hq] at h; cases h
      | some q =>
        rw [hq] at h
        have hq1 := queuePushBack_some _ _ _ _ hq
        subst hq1
        cases h
        unfold PipeInv
        refine ⟨⟨?_, hst.2.1, hst.2.2⟩, ?_, ?_, ?_, ?_⟩
        · intro j hj
          rcases List.mem_append.1 hj with h1 | h1
          · exact hst.1 j h1
          · rw [List.mem_singleton.1 h1]
            exact decide_eq_true hb
        · intro _
          refine ⟨?_, hns.2.1, hns.2.2⟩
          intro j hj
          rcases List.mem_append.1 hj with h1 | h1
          · exact hns.1 j h1
          · rw [List.mem_singleton.1 h1]
            rfl
        · intro _
          unfold lowQueuedOrRunning pendingLow
          unfold lowQueuedOrRunning at a
          dsimp only
          rw [List.countP_append, List.countP_singleton]
          have hl : lowJob m (PipeJob.mod workDataIndex base
              (min m.nPrimes ((base + m.nPrimes / (m.threads * 8)) % 2 ^ 64)))
              = decide (base < m.sparseLimit) := rfl
          rw [hl]
          by_cases hlow : base < m.sparseLimit
          · simp only [hlow, decide_True, if_true]
            push_cast at a ⊢
            omega
          · simp only [hlow, decide_False, if_false, Bool.false_eq_true]
            push_cast at a ⊢
            omega
        · intro hc
          cases hc
        · intro hc
          cases hc
    · rw [if_neg hb] at h
      cases h
      unfold PipeInv
      refine ⟨hst, fun _ => hns, fun _ => ⟨a, b⟩, fun hc => (by cases hc), fun hc => (by cases hc)⟩
  | slicingWake base =>
    rw [hm] at h i1 i2
    simp only at h
    obtain ⟨a, b⟩ := i2 rfl
    have hns := i1 rfl
    cases hq : queuePushFront VERIFY_QUEUE_CAPACITY s.verifyWorkQueue PipeJob.dummy with
    | none => rw [hq] at h; cases h
    | some q =>
      rw [hq] at h
      have hq1 := queuePushFront_some _ _ _ _ hq
      subst hq1
      cases h
      unfold PipeInv
      refine ⟨⟨hst.1, ?_, hst.2.2⟩, ?_, ?_, ?_, ?_⟩
      · intro j hj
        rcases List.mem_cons.1 hj with h1 | h1
        · rw [h1]; rfl
        · exact hst.2.1 j h1
      · intro _
        refine ⟨hns.1, ?_, hns.2.2⟩
        intro j hj
        rcases List.mem_cons.1 hj with h1 | h1
        · rw [h1]; rfl
        · exact hns.2.1 j h1
      · intro _
        unfold lowQueuedOrRunning pendingLow
        unfold lowQueuedOrRunning pendingLow at a
        unfold pendingLow at b
        dsimp only at a b ⊢
        rw [List.countP_cons]
        have hl : lowJob m PipeJob.dummy = false := rfl
        rw [hl]
        by_cases hlow : base < m.sparseLimit
        · simp only [hlow, if_true] at a b ⊢
          simp only [Bool.false_eq_true, if_false, Nat.add_zero]
          omega
        · simp only [hlow, if_false] at a b ⊢
          simp only [Bool.false_eq_true, if_false, Nat.add_zero]
          omega
      · intro hc
        cases hc
      · intro hc
        cases hc
  | drainLow =>
    rw [hm] at h i1 i2
    simp only at h
    obtain ⟨a, b⟩ := i2 rfl
    have hns := i1 rfl
    have hp0 : pendingLow m MasterPc.drainLow = 0 := rfl
    rw [hp0] at a b
    by_cases hn : s.nLowModWorkers > 0
    · rw [if_pos hn] at h
      cases hq : queuePopFront s.workDoneQueue with
      | none => rw [hq] at h; cases h
      | some ir =>
        obtain ⟨i, rest⟩ := ir
        rw [hq] at h
        simp only at h
        rw [queuePopFront_some _ _ _ hq, lowValue_cons_count] at a
        by_cases hi : i ≥ 0
        · rw [if_pos hi] at h
          cases h
          rw [lowValue_nonneg m i hi] at a
          unfold PipeInv
          refine ⟨hst, fun _ => hns, fun _ => ⟨?_, b⟩, fun hc => (by cases hc),
            fun hc => (by cases hc)⟩
          unfold lowQueuedOrRunning at a ⊢
          dsimp only at a ⊢
          simp only [Bool.false_eq_true, if_false, Nat.add_zero] at a
          rw [hp0]
          exact a
        · rw [if_neg hi] at h
          rw [lowValue_branch m i hi] at a
          by_cases hl : toUInt64 (-i) < m.sparseLimit
          · rw [if_pos hl] at h
            cases h
            unfold PipeInv
            refine ⟨hst, fun _ => hns, fun _ => ⟨?_, ?_⟩, fun hc => (by cases hc),
              fun hc => (by cases hc)⟩
            · unfold lowQueuedOrRunning at a ⊢
              dsimp only at a ⊢
              simp only [hl, decide_True, if_true] at a
              rw [hp0]
              push_cast at a ⊢
              omega
            · dsimp only
              rw [hp0]
              push_cast
              omega
          · rw [if_neg hl] at h
            cases h
            unfold PipeInv
            refine ⟨hst, fun _ => hns, fun _ => ⟨?_, b⟩, fun hc => (by cases hc),
              fun hc => (by cases hc)⟩
            unfold lowQueuedOrRunning at a ⊢
            dsimp only at a ⊢
            simp only [hl, decide_False, Bool.false_eq_true, if_false, Nat.add_zero] at a
            rw [hp0]
            exact a
    · rw [if_neg hn] at h
      have hz : lowQueuedOrRunning m s = 0 ∧ s.workDoneQueue.countP (lowValue m) = 0 ∧
          s.nLowModWorkers = 0 := by
        push_cast at a
        omega
      split at h
      · cases h
        unfold PipeInv
        refine ⟨hst, fun _ => hns, fun hc => (by cases hc), fun _ => ⟨hz.1, ?_⟩, fun _ => hz.2.1⟩
        have := hz.2.2
        show s.lowPopped = s.lowCreated
        omega
      · cases h
        unfold PipeInv
        refine ⟨hst, fun _ => hns, fun hc => (by cases hc), fun hc => (by cases hc),
          fun hc => (by cases hc)⟩
  | aborted =>
    rw [hm] at h
    cases h
  | pushSieve i =>
    rw [hm] at h i3
    simp only at h
    obtain ⟨a, b⟩ := i3 rfl
    by_cases hi : i < m.sieveWorkers
    · rw [if_pos hi] at h
      cases hq : queuePushFront VERIFY_QUEUE_CAPACITY s.verifyWorkQueue
          (PipeJob.sieve workDataIndex i) with
      | none => rw [hq] at h; cases h
      | some q =>
        rw [hq] at h
        have hq1 := queuePushFront_some _ _ _ _ hq
        subst hq1
        cases h
        unfold PipeInv
        refine ⟨⟨hst.1, ?_, hst.2.2⟩, fun hc => ?_, fun hc => (by cases hc), fun _ => ⟨?_, b⟩,
          fun hc => ?_⟩
        · intro j hj
          rcases List.mem_cons.1 hj with h1 | h1
          · rw [h1]; rfl
          · exact hst.2.1 j h1
        · have : beforeSieve (MasterPc.pushSieve (i + 1)) = false := by
            unfold beforeSieve
            exact decide_eq_false (by omega)
          rw [this] at hc
          cases hc
        · unfold lowQueuedOrRunning at a ⊢
          dsimp only at a ⊢
          rw [List.countP_cons]
          have hl : lowJob m (PipeJob.sieve workDataIndex i) = false := rfl
          rw [hl]
          simp only [Bool.false_eq_true, if_false, Nat.add_zero]
          exact a
        · have : i + 1 = 0 := by
            have := MasterPc.pushSieve.inj hc
            exact this
          omega
    · rw [if_neg hi] at h
      cases h
      unfold PipeInv
      refine ⟨hst, fun hc => (by cases hc), fun hc => (by cases hc), fun _ => ⟨a, b⟩,
        fun hc => (by cases hc)⟩
  | drainMod =>
    rw [hm] at h i3
    simp only at h
    obtain ⟨a, b⟩ := i3 rfl
    have keep : ∀ s2 : Pipeline, s2.modWorkQueue = s.modWorkQueue →
        s2.verifyWorkQueue = s.verifyWorkQueue → s2.workers = s.workers →
        s2.lowCreated = s.lowCreated → s2.lowPopped = s.lowPopped →
        (s2.master = MasterPc.drainMod ∨ s2.master = MasterPc.drainSieve) → PipeInv m s2 := by
      intro s2 e1 e2 e3 e4 e5 e6
      unfold PipeInv
      unfold lowQueuedOrRunning at a ⊢
      rw [e1, e2, e3, e4, e5]
      rcases e6 with e6 | e6 <;> rw [e6] <;>
        exact ⟨hst, fun hc => (by cases hc), fun hc => (by cases hc), fun _ => ⟨a, b⟩,
          fun hc => (by cases hc)⟩
    split at h
    · split at h
      · cases h
      · split at h
        · cases h
          exact keep _ rfl rfl rfl rfl rfl (Or.inl rfl)
        · split at h
          · cases h
            exact keep _ rfl rfl rfl rfl rfl (Or.inl rfl)
          · cases h
            exact keep _ rfl rfl rfl rfl rfl (Or.inl rfl)
    · cases h
      exact keep _ rfl rfl rfl rfl rfl (Or.inr rfl)
  | drainSieve =>
    rw [hm] at h i3
    simp only at h
    obtain ⟨a, b⟩ := i3 rfl
    have keep : ∀ s2 : Pipeline, s2.modWorkQueue = s.modWorkQueue →
        s2.verifyWorkQueue = s.verifyWorkQueue → s2.workers = s.workers →
        s2.lowCreated = s.lowCreated → s2.lowPopped = s.lowPopped →
        (s2.master = MasterPc.drainSieve ∨ s2.master = MasterPc.finished) → PipeInv m s2 := by
      intro s2 e1 e2 e3 e4 e5 e6
      unfold PipeInv
      unfold lowQueuedOrRunning at a ⊢
      rw [e1, e2, e3, e4, e5]
      rcases e6 with e6 | e6 <;> rw [e6] <;>
        exact ⟨hst, fun hc => (by cases hc), fun hc => (by cases hc), fun _ => ⟨a, b⟩,
          fun hc => (by cases hc)⟩
    split at h
    · split at h
      · cases h
      · split at h
        · cases h
          exact keep _ rfl rfl rfl rfl rfl (Or.inl rfl)
        · cases h
          exact keep _ rfl rfl rfl rfl rfl (Or.inl rfl)
    · cases h
      exact keep _ rfl rfl rfl rfl rfl (Or.inr rfl)
  | finished =>
    rw [hm] at h
    cases h

theorem pipeStep_inv (m : Miner) (hN : m.nPrimes ≤ 2 ^ 63) (workDataIndex : Nat)
    (s s1 : Pipeline) (a : PipeAction) (h : pipeStep m workDataIndex s a = some s1)
    (hinv : PipeInv m s) : PipeInv m s1 := by
  cases a with
  | master => exact masterStep_inv m workDataIndex s s1 h hinv
  | worker w => exact pipeInv_of_frame m s s1 (workerStep_frame m hN s s1 w hinv.1 h) hinv
  | sievePush w => exact pipeInv_of_frame m s s1 (sievePushStep_frame m s s1 w hinv.1 h) hinv

theorem pipeRun_inv (m : Miner) (hN : m.nPrimes ≤ 2 ^ 63) (workDataIndex : Nat) :
    ∀ (acts : List PipeAction) (s s1 : Pipeline),
      pipeRun m workDataIndex s acts = some s1 → PipeInv m s → PipeInv m s1 := by
  intro acts
  induction acts with
  | nil =>
    intro s s1 h hinv
    cases h
    exact hinv
  | cons a rest ih =>
    intro s s1 h hinv
    unfold pipeRun at h
    cases hs : pipeStep m workDataIndex s a with
    | none => rw [hs] at h; cases h
    | some s2 =>
      rw [hs] at h
      exact ih s2 s1 h (pipeStep_inv m hN workDataIndex s s2 a hs hinv)

theorem countP_zero_of_false {α : Type} (p : α → Bool) (l : List α)
    (h : ∀ a ∈ l, p a = false) : l.countP p = 0 := by
  rw [List.countP_eq_zero]
  intro a ha
  rw [h a ha]
  exact Bool.false_ne_true

theorem false_of_countP_zero {α : Type} (p : α → Bool) (l : List α)
    (h : l.countP p = 0) : ∀ a ∈ l, p a = false := by
  intro a ha
  have := (List.countP_eq_zero.1 h) a ha
  simpa using this

theorem lowJob_of_not_mod (m : Miner) (j : PipeJob) (h : isModJob j = false) :
    lowJob m j = false ∧ startOK m j = true := by
  cases j <;> first | exact ⟨rfl, rfl⟩ | cases h

theorem lowPc_of_not_mod (m : Miner) (pc : WorkerPc) (h : isModPc pc = false) :
    lowPc m pc = false ∧ startOKPc m pc = true := by
  cases pc <;> first | exact ⟨rfl, rfl⟩ | cases h

theorem pipeInv_blockStart (m : Miner) (s : Pipeline) (h : BlockStart m s) : PipeInv m s := by
  obtain ⟨hm, hn, _, hc, hp, hq, hv, hw, hd⟩ := h
  have hns : NoSieve s := by
    refine ⟨?_, fun j hj => (hv j hj).2, fun pc hpc => (hw pc hpc).2⟩
    rw [hq]
    intro j hj
    cases hj
  have hcount : lowQueuedOrRunning m s + s.workDoneQueue.countP (lowValue m) = 0 := by
    unfold lowQueuedOrRunning
    rw [hq, countP_zero_of_false _ _ (fun j hj => (lowJob_of_not_mod m j (hv j hj).1).1),
      countP_zero_of_false _ _ (fun pc hpc => (lowPc_of_not_mod m pc (hw pc hpc).1).1),
      countP_zero_of_false _ _ (fun v hv2 => lowValue_nonneg m v (hd v hv2))]
    rfl
  unfold PipeInv
  rw [hm]
  refine ⟨⟨?_, fun j hj => (lowJob_of_not_mod m j (hv j hj).1).2,
    fun pc hpc => (lowPc_of_not_mod m pc (hw pc hpc).1).2⟩, fun _ => hns, fun _ => ?_,
    fun hc2 => (by cases hc2), fun hc2 => (by cases hc2)⟩
  · rw [hq]
    intro j hj
    cases hj
  · rw [hcount, hn, hc, hp]
    constructor <;> rfl

theorem afterLowDrain_of_not_before (pc : MasterPc) (h : beforeSieve pc = false) :
    afterLowDrain pc = true := by
  cases pc <;> first | rfl | cases h

/-- C24 (phase ordering). The master of `_processOneBlock` and any number of worker
threads of `_verifyThread` run interleaved at their queue operations, from a state in
which the master enters the slicing loop, no `TYPE_MOD` or `TYPE_SIEVE` job is queued or
running and `_workDoneQueue` holds no negative value. In every state such a run reaches:
(1) when a `TYPE_SIEVE` job is queued or a worker is inside `_runSieve`, the master has
left the loop `while (nLowModWorkers > 0)`; (2) once it has left this loop, no `TYPE_MOD`
job with `start < _sparseLimit` is queued, none is running, and as many values have been
popped in the branch `nLowModWorkers--` as such jobs were pushed; (3) when the master is
about to push the first `TYPE_SIEVE` job, no completion value of such a job waits in
`_workDoneQueue`; (4) hence no worker is inside `_updateRemainders` for a job with
`start < _sparseLimit` while a worker is inside `_runSieve`. -/
theorem C24_phase_ordering (m : Miner) (workDataIndex : Nat) (s0 s : Pipeline)
    (acts : List PipeAction) (hN : m.nPrimes ≤ 2 ^ 63) (h0 : BlockStart m s0)
    (hrun : pipeRun m workDataIndex s0 acts = some s) :
    (((∃ j ∈ s.modWorkQueue, isSieveJob j = true) ∨
        (∃ j ∈ s.verifyWorkQueue, isSieveJob j = true) ∨
        (∃ pc ∈ s.workers, isSievePc pc = true)) → afterLowDrain s.master = true) ∧
    (afterLowDrain s.master = true →
      (∀ j ∈ s.modWorkQueue, lowJob m j = false) ∧
      (∀ j ∈ s.verifyWorkQueue, lowJob m j = false) ∧
      (∀ pc ∈ s.workers, lowPc m pc = false) ∧ s.lowPopped = s.lowCreated) ∧
    (s.master = MasterPc.pushSieve 0 → ∀ v ∈ s.workDoneQueue, lowValue m v = false) ∧
    ((∃ pc ∈ s.workers, isSievePc pc = true) → ∀ pc ∈ s.workers, lowPc m pc = false) := by
  obtain ⟨_, i1, _, i3, i4⟩ := pipeRun_inv m hN workDataIndex acts s0 s hrun
    (pipeInv_blockStart m s0 h0)
  have h1 : ((∃ j ∈ s.modWorkQueue, isSieveJob j = true) ∨
      (∃ j ∈ s.verifyWorkQueue, isSieveJob j = true) ∨
      (∃ pc ∈ s.workers, isSievePc pc = true)) → afterLowDrain s.master = true := by
    intro hex
    apply afterLowDrain_of_not_before
    cases hb : beforeSieve s.master with
    | false => rfl
    | true =>
      exfalso
      obtain ⟨n1, n2, n3⟩ := i1 hb
      rcases hex with ⟨j, hj, hs⟩ | ⟨j, hj, hs⟩ | ⟨pc, hpc, hs⟩
      · rw [n1 j hj] at hs; cases hs
      · rw [n2 j hj] at hs; cases hs
      · rw [n3 pc hpc] at hs; cases hs
  have h2 : afterLowDrain s.master = true →
      (∀ j ∈ s.modWorkQueue, lowJob m j = false) ∧
      (∀ j ∈ s.verifyWorkQueue, lowJob m j = false) ∧
      (∀ pc ∈ s.workers, lowPc m pc = false) ∧ s.lowPopped = s.lowCreated := by
    intro ha
    obtain ⟨a, b⟩ := i3 ha
    unfold lowQueuedOrRunning at a
    exact ⟨false_of_countP_zero _ _ (by omega), false_of_countP_zero _ _ (by omega),
      false_of_countP_zero _ _ (by omega), b⟩
  exact ⟨h1, h2, fun hm => false_of_countP_zero _ _ (i4 hm),
    fun hex => (h2 (h1 (Or.inr (Or.inr hex)))).2.2.1⟩

theorem C24_phase_ordering_witness :
    ∃ s, pipeRun { exampleMiner with threads := 1 } 0
        { modWorkQueue := [], verifyWorkQueue := [], workDoneQueue := [],
          workers := [WorkerPc.top], outstandingTests := fun _ => 0,
          master := MasterPc.slicing 3, nModWorkers := 0, nLowModWorkers := 0,
          nSieveWorkers := 0, lowCreated := 0, lowPopped := 0 }
        (List.replicate 15 PipeAction.master ++ List.replicate 14 (PipeAction.worker 0)
          ++ List.replicate 9 PipeAction.master) = some s ∧
      s.master = MasterPc.pushSieve 1 ∧
      (∃ j ∈ s.verifyWorkQueue, isSieveJob j = true) ∧
      (∀ pc ∈ s.workers, lowPc { exampleMiner with threads := 1 } pc = false) ∧
      s.lowCreated = 7 ∧ s.lowPopped = 7 := by
  have hrun : ∃ s, pipeRun { exampleMiner with threads := 1 } 0
      { modWorkQueue := [], verifyWorkQueue := [], workDoneQueue := [],
        workers := [WorkerPc.top], outstandingTests := fun _ => 0,
        master := MasterPc.slicing 3, nModWorkers := 0, nLowModWorkers := 0,
        nSieveWorkers := 0, lowCreated := 0, lowPopped := 0 }
      (List.replicate 15 PipeAction.master ++ List.replicate 14 (PipeAction.worker 0)
        ++ List.replicate 9 PipeAction.master) = some s ∧
      s.master = MasterPc.pushSieve 1 ∧
      (∃ j ∈ s.verifyWorkQueue, isSieveJob j = true) ∧ s.lowCreated = 7 :=
    ⟨_, rfl, rfl, ⟨_, List.mem_cons_self _ _, rfl⟩, rfl⟩
  obtain ⟨s, hs, hm, hj, hc⟩ := hrun
  have hC := C24_phase_ordering { exampleMiner with threads := 1 } 0 _ s _ (by decide)
    ⟨rfl, rfl, rfl, rfl, rfl, rfl, fun j hj => (by cases hj),
      fun pc hpc => (by
        rw [List.mem_singleton.1 hpc]
        exact ⟨rfl, rfl⟩),
      fun v hv => (by cases hv)⟩ hs
  have ha : afterLowDrain s.master = true := by rw [hm]; rfl
  obtain ⟨_, _, hw, hp⟩ := hC.2.1 ha
  exact ⟨s, hs, hm, hj, hw, hc, by rw [hp, hc]⟩

/-! ## Verifier: all candidates of a batch have the bit length of the target -/

theorem log2_of_range (n d : Nat) (hd : 1 ≤ d) (h1 : 2 ^ (d - 1) ≤ n) (h2 : n < 2 ^ d) :
    Nat.log2 n + 1 = d := by
  have hn : n ≠ 0 := by
    have := Nat.two_pow_pos (d - 1)
    omega
  have hlt : Nat.log2 n < d := (Nat.log2_lt hn).2 h2
  have hup : n < 2 ^ (Nat.log2 n + 1) := Nat.lt_log2_self
  have hpow : 2 ^ (d - 1) < 2 ^ (Nat.log2 n + 1) := lt_of_le_of_lt h1 hup
  have hexp : d - 1 < Nat.log2 n + 1 := (Nat.pow_lt_pow_iff_right (by norm_num)).1 hpow
  omega

theorem sizeInBase2_of_range (n d : Nat) (hd : 1 ≤ d) (h1 : 2 ^ (d - 1) ≤ n) (h2 : n < 2 ^ d) :
    sizeInBase2 (n : Int) = d := by
  unfold sizeInBase2
  have hn : n ≠ 0 := by
    have := Nat.two_pow_pos (d - 1)
    omega
  rw [if_neg (by exact_mod_cast hn), Int.natAbs_ofNat]
  exact log2_of_range n d hd h1 h2

theorem nSize_eq (d : Nat) :
    (d >>> 5) + (if d &&& 0x1f > 0 then 1 else 0) = (d + 31) / 32 := by
  have h1 : d >>> 5 = d / 32 := by
    rw [Nat.shiftRight_eq_div_pow]
  have h2 : d &&& 0x1f = d % 32 := by
    have : (0x1f : Nat) = 2 ^ 5 - 1 := by norm_num
    rw [this, Nat.and_pow_two_sub_one_eq_mod]
  rw [h1, h2]
  split <;> omega

theorem ispcLoop_same (m : Miner) (maxNSize : Nat) (indexes : Nat → Nat) (ploop : Int)
    (d : Nat) (hd0 : d ≠ 0) :
    ∀ l : List Nat, (∀ i ∈ l, sizeInBase2 (verifyCandidate m ploop (indexes i)) = d) →
      ispcLoop m maxNSize indexes ploop l d = some true := by
  intro l
  induction l with
  | nil =>
    intro _
    rfl
  | cons i rest ih =>
    intro hall
    unfold ispcLoop
    simp only
    rw [if_neg hd0, hall i (List.mem_cons_self _ _), if_pos rfl]
    exact ih (fun j hj => hall j (List.mem_cons_of_mem _ hj))

theorem ispcLoop_first (m : Miner) (maxNSize : Nat) (indexes : Nat → Nat) (ploop : Int)
    (d : Nat) (hd0 : d ≠ 0) (hd32 : d < 2 ^ 32) (i : Nat) (rest : List Nat)
    (hall : ∀ j ∈ i :: rest, sizeInBase2 (verifyCandidate m ploop (indexes j)) = d) :
    ispcLoop m maxNSize indexes ploop (i :: rest) 0
      = some (decide ((d + 31) / 32 ≤ maxNSize)) := by
  unfold ispcLoop
  simp only
  rw [if_pos trivial, hall i (List.mem_cons_self _ _), Nat.mod_eq_of_lt hd32, nSize_eq]
  by_cases h : (d + 31) / 32 > maxNSize
  · rw [if_pos h]
    have : decide ((d + 31) / 32 ≤ maxNSize) = false := decide_eq_false (by omega)
    rw [this]
  · rw [if_neg h, ispcLoop_same m maxNSize indexes ploop d hd0 rest
      (fun j hj => hall j (List.mem_cons_of_mem _ hj))]
    have : decide ((d + 31) / 32 ≤ maxNSize) = true := decide_eq_true (by omega)
    rw [this]

/-- C31 (uniform candidate size). For every `powHash` and every difficulty `d ≥ 265`
(a 32-bit field), the target of `_getTargetFromBlock` satisfies
`2^(d-1) ≤ target < 2^(d-1) + 2^(d-9)`, and every `target + delta` with
`0 ≤ delta ≤ 2^(d-1) - 2^(d-9)` has bit length exactly `d`
(`mpz_sizeinbase(target + delta, 2) = d`). Hence, when the 64 candidates
`P_k * indexes[i] + ploop` of a batch are of this form, each has `d` bits and
`N_Size = (bits >> 5) + ((bits & 0x1f) > 0) = ceil(d / 32)`, the assertion
`bits == mpz_sizeinbase(candidate, 2)` of `_testPrimesIspc` holds for all of them, and
the function returns `true` exactly when `ceil(d / 32) ≤ MAX_N_SIZE`. -/
theorem C31_uniform_candidate_size (powHash : List Nat) (d : Nat) (hd : 265 ≤ d)
    (hd32 : d < 2 ^ 32) :
    2 ^ (d - 1) ≤ getTargetFromBlock powHash d ∧
    getTargetFromBlock powHash d < 2 ^ (d - 1) + 2 ^ (d - 9) ∧
    (∀ delta : Nat, delta ≤ 2 ^ (d - 1) - 2 ^ (d - 9) →
      sizeInBase2 ((getTargetFromBlock powHash d : Int) + (delta : Int)) = d) ∧
    (∀ (m : Miner) (maxNSize : Nat) (kernel : Nat → Nat) (indexes : Nat → Nat) (ploop : Int),
      (∀ i, i < WORK_INDEXES → ∃ delta : Nat, delta ≤ 2 ^ (d - 1) - 2 ^ (d - 9) ∧
        verifyCandidate m ploop (indexes i)
          = (getTargetFromBlock powHash d : Int) + (delta : Int)) →
      (∀ i, i < WORK_INDEXES →
        sizeInBase2 (verifyCandidate m ploop (indexes i)) = d ∧
        ((sizeInBase2 (verifyCandidate m ploop (indexes i)) % 2 ^ 32) >>> 5)
          + (if (sizeInBase2 (verifyCandidate m ploop (indexes i)) % 2 ^ 32) &&& 0x1f > 0
              then 1 else 0) = (d + 31) / 32) ∧
      ispcLoop m maxNSize indexes ploop (List.range WORK_INDEXES) 0
        = some (decide ((d + 31) / 32 ≤ maxNSize)) ∧
      testPrimesIspc m maxNSize kernel indexes ploop
        = (if (d + 31) / 32 ≤ maxNSize then some (some kernel) else some none)) := by
  have heq := getTargetFromBlock_eq powHash d hd hd32
  have hH := hashValue_lt powHash
  have hexp : d - 265 + 256 = d - 9 := by omega
  have h256 : 2 ^ (d - 265) * 2 ^ 256 = 2 ^ (d - 9) := by
    rw [← pow_add, hexp]
  have hlt : 2 ^ (d - 265) * hashValue powHash < 2 ^ (d - 9) := by
    rw [← h256]
    exact Nat.mul_lt_mul_of_pos_left hH (Nat.two_pow_pos _)
  have hlo : 2 ^ (d - 1) ≤ getTargetFromBlock powHash d := by
    rw [heq]; exact Nat.le_add_right _ _
  have hhi : getTargetFromBlock powHash d < 2 ^ (d - 1) + 2 ^ (d - 9) := by
    rw [heq]; omega
  have h9 : 2 ^ (d - 9) ≤ 2 ^ (d - 1) := Nat.pow_le_pow_right (by norm_num) (by omega)
  have h2 : 2 ^ d = 2 ^ (d - 1) + 2 ^ (d - 1) := by
    have : d = (d - 1) + 1 := by omega
    conv_lhs => rw [this, pow_succ]
    omega
  have hsize : ∀ delta : Nat, delta ≤ 2 ^ (d - 1) - 2 ^ (d - 9) →
      sizeInBase2 ((getTargetFromBlock powHash d : Int) + (delta : Int)) = d := by
    intro delta hdelta
    have hc : ((getTargetFromBlock powHash d : Int) + (delta : Int))
        = ((getTargetFromBlock powHash d + delta : Nat) : Int) := by push_cast; rfl
    rw [hc]
    exact sizeInBase2_of_range _ d (by omega) (by omega) (by omega)
  refine ⟨hlo, hhi, hsize, ?_⟩
  intro m maxNSize kernel indexes ploop hcand
  have hall : ∀ i, i < WORK_INDEXES →
      sizeInBase2 (verifyCandidate m ploop (indexes i)) = d := by
    intro i hi
    obtain ⟨delta, hdelta, he⟩ := hcand i hi
    rw [he]
    exact hsize delta hdelta
  have hloop : ispcLoop m maxNSize indexes ploop (List.range WORK_INDEXES) 0
      = some (decide ((d + 31) / 32 ≤ maxNSize)) := by
    have hr : List.range WORK_INDEXES = 0 :: List.range' 1 63 := by
      rw [List.range_eq_range']
      rfl
    rw [hr]
    apply ispcLoop_first m maxNSize indexes ploop d (by omega) hd32
    intro j hj
    rw [← hr] at hj
    exact hall j (List.mem_range.1 hj)
  refine ⟨fun i hi => ⟨hall i hi, ?_⟩, hloop, ?_⟩
  · rw [hall i hi, Nat.mod_eq_of_lt hd32]
    exact nSize_eq d
  · unfold testPrimesIspc
    rw [hloop]
    by_cases h : (d + 31) / 32 ≤ maxNSize
    · rw [if_pos h]
      have : decide ((d + 31) / 32 ≤ maxNSize) = true := decide_eq_true h
      rw [this]
    · rw [if_neg h]
      have : decide ((d + 31) / 32 ≤ maxNSize) = false := decide_eq_false h
      rw [this]

theorem C31_uniform_candidate_size_witness :
    sizeInBase2 ((getTargetFromBlock [1] 265 : Int) + ((2 ^ (265 - 1) - 2 ^ (265 - 9) : Nat) : Int)) = 265 ∧
    testPrimesIspc exampleMiner 64 (fun _ => 1) (fun _ => 0) (getTargetFromBlock [1] 265 : Int)
      = (if (265 + 31) / 32 ≤ 64 then some (some (fun _ => 1)) else some none) :=
  ⟨(C31_uniform_candidate_size [1] 265 (by norm_num) (by norm_num)).2.2.1
      (2 ^ (265 - 1) - 2 ^ (265 - 9))
      (le_refl _),
    ((C31_uniform_candidate_size [1] 265 (by norm_num) (by norm_num)).2.2.2 exampleMiner 64
      (fun _ => 1) (fun _ => 0) (getTargetFromBlock [1] 265 : Int)
      (fun i _ => ⟨0, Nat.zero_le _, by
        unfold verifyCandidate
        simp⟩)).2.2⟩

/-! ## Verifier: a batch with passing and failing lanes -/

theorem fermat_fails_of_eleven_dvd (N : Int) (hpos : 1 < N) (h11 : (11 : Int) ∣ N)
    (h10 : (N - 1) % 10 = 6) : isPrimeFermat N = false := by
  unfold isPrimeFermat
  rw [decide_eq_false_iff_not]
  intro h
  obtain ⟨q, hq⟩ : ∃ q : Nat, (N - 1).toNat = 10 * q + 6 := by
    refine ⟨((N - 1).toNat - 6) / 10, ?_⟩
    omega
  rw [hq] at h
  have hmod : (2 : Int) ^ (10 * q + 6) ≡ 1 [ZMOD N] := by
    show (2 : Int) ^ (10 * q + 6) % N = 1 % N
    rw [h, Int.emod_eq_of_lt (by omega) hpos]
  have hmod11 : (2 : Int) ^ (10 * q + 6) ≡ 1 [ZMOD 11] := Int.ModEq.of_dvd h11 hmod
  have h1024 : (2 : Int) ^ (10 * q + 6) = 1024 ^ q * 64 := by
    rw [pow_add, pow_mul]
    norm_num
  rw [h1024] at hmod11
  have h1 : (1024 : Int) ^ q ≡ 1 [ZMOD 11] := by
    have : (1024 : Int) ≡ 1 [ZMOD 11] := by decide
    simpa using this.pow q
  have h2 : (1024 : Int) ^ q * 64 ≡ 1 * 64 [ZMOD 11] := h1.mul_right 64
  have h3 : (1 : Int) * 64 ≡ 1 [ZMOD 11] := h2.symm.trans hmod11
  revert h3
  decide

theorem verifyWalk_submit_allpass (m : Miner) (firstTestDone : Bool) (verifyTarget n : Int)
    (hL1 : 1 ≤ m.primeTupleOffset.length) (hL : m.primeTupleOffset.length ≤ 255)
    (hall : ∀ f, f < m.primeTupleOffset.length →
      isPrimeFermat (n + (m.offsetSum f : Int)) = true) :
    (verifyWalk m firstTestDone verifyTarget n).submit
      = (if (if m.solo then m.tupleLengthMin else 4) ≤ m.primeTupleOffset.length
          then some m.primeTupleOffset.length else none) := by
  have htl := verifyWalk_allpass m firstTestDone verifyTarget n hL1 hall
  rw [Nat.mod_eq_of_lt (by omega)] at htl
  have h0 : isPrimeFermat n = true := by
    have := hall 0 (by omega)
    have hz : (m.offsetSum 0 : Int) = 0 := by simp [Miner.offsetSum]
    rw [hz, Int.add_zero] at this
    exact this
  have hs : (verifyWalk m firstTestDone verifyTarget n).submit
      = (if (if m.solo then
              decide ((verifyWalk m firstTestDone verifyTarget n).tupleLength
                < m.tupleLengthMin)
            else decide ((verifyWalk m firstTestDone verifyTarget n).tupleLength < 4))
          then none
          else some (verifyWalk m firstTestDone verifyTarget n).tupleLength) := by
    unfold verifyWalk
    rw [h0]
    simp only [Bool.not_true, Bool.and_false, Bool.false_eq_true, if_false]
  rw [hs, htl]
  cases hsolo : m.solo with
  | true =>
    simp only [if_true]
    by_cases h : m.tupleLengthMin ≤ m.primeTupleOffset.length
    · rw [if_pos h, if_neg (by simpa using h)]
    · rw [if_neg h, if_pos (by simpa using h)]
  | false =>
    simp only [Bool.false_eq_true, if_false]
    by_cases h : 4 ≤ m.primeTupleOffset.length
    · rw [if_pos h, if_neg (by simpa using h)]
    · rw [if_neg h, if_pos (by simpa using h)]

theorem sextuplet_submission (firstTestDone : Bool) :
    submissionOf exampleMiner firstTestDone 0 (verifyPloop exampleMiner 0 7 0 0) 535
      = some (16057, 6) := by
  have hc : verifyCandidate exampleMiner (verifyPloop exampleMiner 0 7 0 0) 535 = 16057 := by
    decide
  unfold submissionOf
  rw [hc, verifyWalk_submit_allpass exampleMiner firstTestDone 0 16057 (by decide) (by decide)
    (fun f hf => by
      have hf6 : f < 6 := hf
      have hs : ∀ g, g < 6 → exampleMiner.offsetSum g = [0, 4, 6, 10, 12, 16].getD g 0 := by
        intro g hg
        interval_cases g <;>
          simp [Miner.offsetSum, Finset.sum_range_succ, exampleMiner]
      rw [hs f hf6]
      interval_cases f
      · exact isPrimeFermat_of_prime 16057 (by norm_num) (by norm_num)
      · exact isPrimeFermat_of_prime 16061 (by norm_num) (by norm_num)
      · exact isPrimeFermat_of_prime 16063 (by norm_num) (by norm_num)
      · exact isPrimeFermat_of_prime 16067 (by norm_num) (by norm_num)
      · exact isPrimeFermat_of_prime 16069 (by norm_num) (by norm_num)
      · exact isPrimeFermat_of_prime 16073 (by norm_num) (by norm_num))]
  rfl

theorem composite_candidate_fermat : isPrimeFermat
    (verifyCandidate exampleMiner (verifyPloop exampleMiner 0 7 0 0) 446) = false := by
  have hc : verifyCandidate exampleMiner (verifyPloop exampleMiner 0 7 0 0) 446 = 13387 := by
    decide
  rw [hc]
  exact fermat_fails_of_eleven_dvd 13387 (by norm_num) (by norm_num) (by norm_num)

theorem composite_submission :
    submissionOf exampleMiner false 0 (verifyPloop exampleMiner 0 7 0 0) 446 = none := by
  unfold submissionOf
  rw [verifyWalk_first_fail _ _ _ composite_candidate_fermat]
  rfl

theorem filterMap_pass_fail {α β : Type} (f : α → Option β) (a b : α) (x : β) (l : List α)
    (ha : f a = some x) (hb : f b = none) :
    (a :: b :: l).filterMap f = x :: l.filterMap f := by
  rw [List.filterMap_cons_some ha, List.filterMap_cons_none hb]

theorem alternating_scalar :
    checkLoop exampleMiner false 0 (verifyPloop exampleMiner 0 7 0 0)
        (fun i => if i % 2 = 0 then 535 else 446) (List.range WORK_INDEXES) []
      = List.replicate 32 (16057, 6) := by
  have hm : (List.range WORK_INDEXES).map (fun i => if i % 2 = 0 then 535 else 446)
    = [535,446,535,446,535,446,535,446,535,446,535,446,535,446,535,446,
       535,446,535,446,535,446,535,446,535,446,535,446,535,446,535,446,
       535,446,535,446,535,446,535,446,535,446,535,446,535,446,535,446,
       535,446,535,446,535,446,535,446,535,446,535,446,535,446,535,446] := by decide
  rw [checkLoop_eq, hm, List.nil_append]
  repeat rw [filterMap_pass_fail _ 535 446 (16057, 6) _ (sextuplet_submission false)
    composite_submission]
  rfl
theorem alternating_sizes (i : Nat) :
    sizeInBase2 (verifyCandidate exampleMiner (verifyPloop exampleMiner 0 7 0 0)
      (if i % 2 = 0 then 535 else 446)) = 14 := by
  have h1 : verifyCandidate exampleMiner (verifyPloop exampleMiner 0 7 0 0) 535
      = ((16057 : Nat) : Int) := by decide
  have h2 : verifyCandidate exampleMiner (verifyPloop exampleMiner 0 7 0 0) 446
      = ((13387 : Nat) : Int) := by decide
  by_cases h : i % 2 = 0
  · rw [if_pos h, h1]
    exact sizeInBase2_of_range 16057 14 (by norm_num) (by norm_num) (by norm_num)
  · rw [if_neg h, h2]
    exact sizeInBase2_of_range 13387 14 (by norm_num) (by norm_num) (by norm_num)

theorem alternating_kernel (i : Nat) :
    (if i % 2 = 0 then 1 else 0) ≠ 0 ↔
      isPrimeFermat (verifyCandidate exampleMiner (verifyPloop exampleMiner 0 7 0 0)
        (if i % 2 = 0 then 535 else 446)) = true := by
  have h1 : verifyCandidate exampleMiner (verifyPloop exampleMiner 0 7 0 0) 535 = 16057 := by
    decide
  by_cases h : i % 2 = 0
  · rw [if_pos h, if_pos h, h1]
    exact ⟨fun _ => isPrimeFermat_of_prime 16057 (by norm_num) (by norm_num),
      fun _ => by norm_num⟩
  · rw [if_neg h, if_neg h, composite_candidate_fermat]
    exact ⟨fun h0 => absurd rfl h0, fun h0 => by cases h0⟩

theorem range_work_indexes : List.range WORK_INDEXES = 0 :: List.range' 1 63 := by
    rw [List.range_eq_range']
    rfl
theorem alternating_ispcLoop_first : ispcLoop exampleMiner 64 (fun i => if i % 2 = 0 then 535 else 446)
      (verifyPloop exampleMiner 0 7 0 0) (0 :: List.range' 1 63) 0 = some (decide ((14 + 31) / 32 ≤ 64)) :=
    ispcLoop_first exampleMiner 64 (fun i => if i % 2 = 0 then 535 else 446)
      (verifyPloop exampleMiner 0 7 0 0) 14 (by norm_num) (by norm_num) 0 _
      (fun j _ => alternating_sizes j)
theorem alternating_ispcLoop : ispcLoop exampleMiner 64 (fun i => if i % 2 = 0 then 535 else 446)
      (verifyPloop exampleMiner 0 7 0 0) (List.range WORK_INDEXES) 0 = some true := by
  rw [range_work_indexes, alternating_ispcLoop_first]
  rfl
theorem testPrimesIspc_of_loop (m : Miner) (maxNSize : Nat) (kernel indexes : Nat → Nat)
    (ploop : Int)
    (h : ispcLoop m maxNSize indexes ploop (List.range WORK_INDEXES) 0 = some true) :
    testPrimesIspc m maxNSize kernel indexes ploop = some (some kernel) := by
  unfold testPrimesIspc
  rw [h]
theorem alternating_ispc :
    testPrimesIspc exampleMiner 64 (fun i => if i % 2 = 0 then 1 else 0)
        (fun i => if i % 2 = 0 then 535 else 446) (verifyPloop exampleMiner 0 7 0 0)
      = some (some (fun i => if i % 2 = 0 then 1 else 0)) :=
  testPrimesIspc_of_loop _ _ _ _ _ alternating_ispcLoop
theorem C27_batched_scalar_agree_witness :
    checkJob exampleMiner 64 (fun i => if i % 2 = 0 then 1 else 0) 0 7
        { loop := 0, offsetId := 0, n_indexes := 64,
          indexes := fun i => if i % 2 = 0 then 535 else 446 }
      = some (List.replicate 32 (16057, 6)) ∧
    checkLoop exampleMiner false 0 (verifyPloop exampleMiner 0 7 0 0)
        (fun i => if i % 2 = 0 then 535 else 446) (List.range WORK_INDEXES) []
      = List.replicate 32 (16057, 6) ∧
    ((List.range WORK_INDEXES).foldl (compactStep (fun i => if i % 2 = 0 then 1 else 0))
        (fun i => if i % 2 = 0 then 535 else 446, 0)).2 = 32 ∧
    (List.range 32).map
        ((List.range WORK_INDEXES).foldl (compactStep (fun i => if i % 2 = 0 then 1 else 0))
          (fun i => if i % 2 = 0 then 535 else 446, 0)).1
      = List.replicate 32 535 := by
  obtain ⟨_, hb, heq, hcnt, hmap⟩ := C27_batched_scalar_agree exampleMiner 64
    (fun i => if i % 2 = 0 then 1 else 0) 0 7
    { loop := 0, offsetId := 0, n_indexes := 64,
      indexes := fun i => if i % 2 = 0 then 535 else 446 } rfl
    (fun i _ => alternating_kernel i)
  have hjob := hb rfl alternating_ispc
  rw [heq] at hjob
  have h32 : ((List.range WORK_INDEXES).filter
      (fun i => decide ((fun i => if i % 2 = 0 then 1 else 0) i ≠ 0))).length = 32 := by decide
  have hcnt1 := hcnt.trans h32
  refine ⟨hjob.trans (congrArg some alternating_scalar), alternating_scalar, hcnt1, ?_⟩
  have hmap1 := hmap
  rw [hcnt1] at hmap1
  rw [hmap1]
  decide

/-! ## Mod phase: accounting of the once-only path over the jobs of a block -/

theorem rangePairs_add (m : Miner) (tar w : Nat) :
    ∀ (n1 a n2 : Nat), rangePairs m tar w a (n1 + n2)
      = rangePairs m tar w a n1 ++ rangePairs m tar w (a + n1) n2 := by
  intro n1
  induction n1 with
  | zero =>
    intro a n2
    simp [rangePairs]
  | succ n ih =>
    intro a n2
    have h1 : n + 1 + n2 = (n + n2) + 1 := by omega
    have h2 : a + (n + 1) = a + 1 + n := by omega
    rw [h1, h2]
    simp only [rangePairs]
    rw [ih (a + 1) n2, List.append_assoc]

theorem sliceChain_pairs (m : Miner) (tar w : Nat) :
    ∀ (jobs : List (Nat × Nat)) (a b : Nat), SliceChain a jobs b →
      a ≤ b ∧ jobsPairs m tar w jobs = rangePairs m tar w a (b - a) := by
  intro jobs
  induction jobs with
  | nil =>
    intro a b h
    have hab : a = b := h
    subst hab
    refine ⟨Nat.le_refl _, ?_⟩
    rw [Nat.sub_self]
    rfl
  | cons job rest ih =>
    intro a b h
    obtain ⟨h1, h2, h3⟩ := h
    obtain ⟨h4, h5⟩ := ih job.2 b h3
    refine ⟨by omega, ?_⟩
    have hsplit : b - a = (job.2 - job.1) + (b - job.2) := by omega
    show rangePairs m tar w job.1 (job.2 - job.1) ++ jobsPairs m tar w rest = _
    rw [hsplit, ← h1, rangePairs_add, h5]
    congr 2
    omega

theorem jobsPairs_perm (m : Miner) (tar w : Nat) {l1 l2 : List (Nat × Nat)}
    (h : l1.Perm l2) : (jobsPairs m tar w l1).Perm (jobsPairs m tar w l2) := by
  induction h with
  | nil => exact List.Perm.refl _
  | cons x _ ih =>
    simp only [jobsPairs]
    exact List.Perm.append_left _ ih
  | swap x y l =>
    simp only [jobsPairs]
    rw [← List.append_assoc, ← List.append_assoc]
    exact List.Perm.append_right _ List.perm_append_comm
  | trans _ _ ih1 ih2 => exact ih1.trans ih2

theorem inSeg_perm (m : Miner) (seg : Nat) {l1 l2 : List Nat} (h : l1.Perm l2) :
    (inSeg m seg l1).Perm (inSeg m seg l2) := by
  unfold inSeg
  exact h.filter _

theorem sliceChain_snoc :
    ∀ (jobs : List (Nat × Nat)) (a b c : Nat), SliceChain a jobs b → b ≤ c →
      SliceChain a (jobs ++ [(b, c)]) c := by
  intro jobs
  induction jobs with
  | nil =>
    intro a b c h hbc
    have hab : a = b := h
    exact ⟨hab.symm, hbc, rfl⟩
  | cons job rest ih =>
    intro a b c h hbc
    obtain ⟨h1, h2, h3⟩ := h
    exact ⟨h1, h2, ih job.2 b c h3 hbc⟩

theorem sliceLoop_chain (nPrimes sparseLimit incr start : Nat)
    (h64 : nPrimes + incr < 2 ^ 64) :
    ∀ (fuel base : Nat) (s s1 : SliceState),
      sliceLoop nPrimes sparseLimit incr fuel base s = some s1 →
      SliceChain start s.jobs (min base nPrimes) → SliceChain start s1.jobs nPrimes := by
  intro fuel
  induction fuel with
  | zero =>
    intro base s s1 h _
    unfold sliceLoop at h
    cases h
  | succ fuel ih =>
    intro base s s1 h hc
    unfold sliceLoop at h
    by_cases hb : base < nPrimes
    · rw [if_pos hb] at h
      have hmod : (base + incr) % 2 ^ 64 = base + incr := Nat.mod_eq_of_lt (by omega)
      rw [hmod] at h
      refine ih (base + incr) _ s1 h ?_
      have hmin : min base nPrimes = base := Nat.min_eq_left (by omega)
      rw [hmin] at hc
      have := sliceChain_snoc s.jobs start base (min nPrimes (base + incr)) hc
        (by rw [Nat.le_min]; omega)
      rw [Nat.min_comm (base + incr) nPrimes]
      exact this
    · rw [if_neg hb] at h
      have hs : s = s1 := Option.some.inj h
      rw [← hs]
      have hmin : min base nPrimes = nPrimes := Nat.min_eq_right (by omega)
      rw [hmin] at hc
      exact hc

theorem modJobs_chain (m : Miner) (ht : 1 ≤ m.threads) (hn : 8 * m.threads ≤ m.nPrimes)
    (h63 : m.nPrimes ≤ 2 ^ 63) (hsn : m.startingPrimeIndex ≤ m.nPrimes) :
    ∃ s, modJobs m = some s ∧ SliceChain m.startingPrimeIndex s.jobs m.nPrimes := by
  have hpos : 0 < m.threads * 8 := by omega
  have hincr : 1 ≤ m.nPrimes / (m.threads * 8) :=
    (Nat.le_div_iff_mul_le hpos).2 (by omega)
  have hle : m.nPrimes / (m.threads * 8) ≤ m.nPrimes := Nat.div_le_self _ _
  have hinit : SliceInv m.nPrimes m.sparseLimit (m.nPrimes / (m.threads * 8))
      m.startingPrimeIndex m.startingPrimeIndex
      { jobs := [], nLowModWorkers := 0, nModWorkers := 0 } := by
    refine ⟨Nat.le_refl _, Or.inl rfl, ?_, List.Pairwise.nil, ?_, rfl, rfl, ?_⟩
    · intro j hj
      cases hj
    · intro x
      constructor
      · rintro ⟨j, hj, _⟩
        cases hj
      · rintro ⟨h1, h2, _⟩
        omega
    · show ([] : List (Nat × Nat)).length * _ + _ ≤ _
      simp
  obtain ⟨s, base1, hrun, _⟩ :=
    sliceLoop_spec m.nPrimes m.sparseLimit (m.nPrimes / (m.threads * 8)) m.startingPrimeIndex
      hincr hle h63 m.nPrimes m.startingPrimeIndex
      { jobs := [], nLowModWorkers := 0, nModWorkers := 0 } (by omega) hinit
  refine ⟨s, hrun, ?_⟩
  have h64 : (2 : Nat) ^ 64 = 2 ^ 63 + 2 ^ 63 := by norm_num
  have hd8 : m.nPrimes / (m.threads * 8) * 8 ≤ m.nPrimes :=
    (Nat.mul_le_mul_left _ (by omega : 8 ≤ m.threads * 8)).trans (Nat.div_mul_le_self _ _)
  refine sliceLoop_chain m.nPrimes m.sparseLimit (m.nPrimes / (m.threads * 8))
    m.startingPrimeIndex (by omega) (m.nPrimes + 1) m.startingPrimeIndex _ s hrun ?_
  show m.startingPrimeIndex = min m.startingPrimeIndex m.nPrimes
  exact (Nat.min_eq_left hsn).symm

theorem runModJobs_spill (m : Miner) (stale : Nat → Nat → Bool)
    (verifyTarget verifyRemainderPrimorial : Int)
    (hst : ∀ a b, stale a b = false) (hT : m.TableInv)
    (hL : 1 ≤ m.primeTupleOffset.length) (h32 : m.sieveBits ≤ 32) (hw : 1 ≤ m.sieveWorkers) :
    ∀ (sched : List (Nat × (Nat × Nat))) (mem : ModMemory),
      (∀ tj ∈ sched, ∀ i, tj.2.1 ≤ i → i < tj.2.2 → 0 < m.primes.getD i 0 ∧
        m.primes.getD i 0 < 2 ^ 64 ∧ m.inverts.getD i 0 < 2 ^ 64) →
      (∀ t, (mem.locals t).allocated = true → ∀ w, w < m.sieveWorkers →
        ∀ seg, seg < m.maxIter → (mem.locals t).offsetCount w seg = 0) →
      (∀ w, w < m.sieveWorkers → ∀ seg, seg < m.maxIter →
        (mem.sieves w).segmentCounts seg +
          (inSeg m seg (jobsPairs m (verifyTarget + verifyRemainderPrimorial).natAbs w
            (sched.map Prod.snd))).length < m.entriesPerSegment) →
      ∃ mem1, runModJobs m stale verifyTarget verifyRemainderPrimorial sched mem = some mem1 ∧
        (∀ t, (mem1.locals t).allocated = true → ∀ w, w < m.sieveWorkers →
          ∀ seg, seg < m.maxIter → (mem1.locals t).offsetCount w seg = 0) ∧
        ∀ w, w < m.sieveWorkers → ∀ seg, seg < m.maxIter →
          (mem1.sieves w).segmentCounts seg = (mem.sieves w).segmentCounts seg +
            (inSeg m seg (jobsPairs m (verifyTarget + verifyRemainderPrimorial).natAbs w
              (sched.map Prod.snd))).length ∧
          hitsList (mem1.sieves w) seg = hitsList (mem.sieves w) seg ++
            (inSeg m seg (jobsPairs m (verifyTarget + verifyRemainderPrimorial).natAbs w
              (sched.map Prod.snd))).map (fun x => x % m.sieveSize) := by
  intro sched
  induction sched with
  | nil =>
    intro mem _ hloc _
    refine ⟨mem, rfl, hloc, fun w _ seg _ => ?_⟩
    simp [jobsPairs, inSeg]
  | cons tj rest ih =>
    intro mem htab hloc hfit
    have hfit1 : ∀ w, w < m.sieveWorkers → ∀ seg, seg < m.maxIter →
        ((mem.view tj.1).sieves w).segmentCounts seg +
          (inSeg m seg (rangePairs m (verifyTarget + verifyRemainderPrimorial).natAbs w tj.2.1
            (tj.2.2 - tj.2.1))).length < m.entriesPerSegment := by
      intro w hwlt seg hseg
      have h1 := hfit w hwlt seg hseg
      simp only [List.map_cons, jobsPairs] at h1
      have h2 := inSeg_length_append_le m seg
        (rangePairs m (verifyTarget + verifyRemainderPrimorial).natAbs w tj.2.1
          (tj.2.2 - tj.2.1))
        (jobsPairs m (verifyTarget + verifyRemainderPrimorial).natAbs w (rest.map Prod.snd))
      have h3 : ((mem.view tj.1).sieves w).segmentCounts seg = (mem.sieves w).segmentCounts seg :=
        rfl
      omega
    obtain ⟨st1, hrun, hall⟩ := updateRemainders_spill m stale verifyTarget
      verifyRemainderPrimorial tj.2.1 tj.2.2 (mem.view tj.1) hst hT hL h32 hw
      (htab tj (List.mem_cons_self _ _)) (hloc tj.1) hfit1
    have hstep : runModJob m stale verifyTarget verifyRemainderPrimorial tj.1 tj.2 mem
        = some (mem.store tj.1 st1) := by
      unfold runModJob
      rw [hrun]
    obtain ⟨mem1, hrest, hloc1, hall1⟩ := ih (mem.store tj.1 st1)
      (fun tj1 h1 => htab tj1 (List.mem_cons_of_mem _ h1))
      (fun t ha w hwlt seg hseg => by
        by_cases ht : t = tj.1
        · subst ht
          have : ((mem.store tj.1 st1).locals tj.1).offsetCount = st1.offsetCount := by
            unfold ModMemory.store
            simp only [Function.update_same]
          rw [this]
          exact (hall w hwlt seg hseg).2.2
        · have hsame : (mem.store tj.1 st1).locals t = mem.locals t := by
            unfold ModMemory.store
            simp only [Function.update_noteq ht]
          rw [hsame] at ha ⊢
          exact hloc t ha w hwlt seg hseg)
      (fun w hwlt seg hseg => by
        have h1 := hfit w hwlt seg hseg
        simp only [List.map_cons, jobsPairs] at h1
        rw [inSeg_append, List.length_append] at h1
        have h2 := (hall w hwlt seg hseg).1
        have h3 : ((mem.store tj.1 st1).sieves w).segmentCounts seg
            = (st1.sieves w).segmentCounts seg := rfl
        have h4 : ((mem.view tj.1).sieves w).segmentCounts seg
            = (mem.sieves w).segmentCounts seg := rfl
        omega)
    refine ⟨mem1, ?_, hloc1, fun w hwlt seg hseg => ?_⟩
    · show (match runModJob m stale verifyTarget verifyRemainderPrimorial tj.1 tj.2 mem with
        | none => none
        | some mem1 => runModJobs m stale verifyTarget verifyRemainderPrimorial rest mem1) = _
      rw [hstep]
      exact hrest
    · obtain ⟨c1, c2⟩ := hall1 w hwlt seg hseg
      obtain ⟨d1, d2, _⟩ := hall w hwlt seg hseg
      have h3 : ((mem.store tj.1 st1).sieves w) = (st1.sieves w) := rfl
      have h4 : ((mem.view tj.1).sieves w) = (mem.sieves w) := rfl
      rw [h3] at c1 c2
      rw [h4] at d1 d2
      simp only [List.map_cons, jobsPairs]
      rw [inSeg_append, List.length_append, List.map_append, ← List.append_assoc]
      refine ⟨by omega, ?_⟩
      rw [c2, d2]

theorem sliceChain_le :
    ∀ (jobs : List (Nat × Nat)) (a b : Nat), SliceChain a jobs b → a ≤ b := by
  intro jobs
  induction jobs with
  | nil =>
    intro a b h
    have hab : a = b := h
    omega
  | cons j0 rest ih =>
    intro a b h
    obtain ⟨h1, h2, h3⟩ := h
    have := ih j0.2 b h3
    omega

theorem sliceChain_mem :
    ∀ (jobs : List (Nat × Nat)) (a b : Nat), SliceChain a jobs b →
      ∀ job ∈ jobs, ∀ i, job.1 ≤ i → i < job.2 → a ≤ i ∧ i < b := by
  intro jobs
  induction jobs with
  | nil =>
    intro a b _ job hj
    cases hj
  | cons j0 rest ih =>
    intro a b h job hj i hi1 hi2
    obtain ⟨h1, h2, h3⟩ := h
    have hle := sliceChain_le rest j0.2 b h3
    rcases List.mem_cons.1 hj with rfl | hj
    · exact ⟨by omega, by omega⟩
    · obtain ⟨g1, g2⟩ := ih j0.2 b h3 job hj i hi1 hi2
      exact ⟨by omega, g2⟩

theorem rangePairs_from_sparse (m : Miner) (tar w a : Nat) (ha : a ≤ m.sparseLimit) :
    rangePairs m tar w a (m.nPrimes - a)
      = rangePairs m tar w m.sparseLimit (m.nPrimes - m.sparseLimit) := by
  by_cases hsn : m.sparseLimit ≤ m.nPrimes
  · have hsplit : m.nPrimes - a = (m.sparseLimit - a) + (m.nPrimes - m.sparseLimit) := by omega
    rw [hsplit, rangePairs_add, rangePairs_nil m tar w (m.sparseLimit - a) a (by omega),
      List.nil_append]
    congr 1
    omega
  · have h0 : m.nPrimes - m.sparseLimit = 0 := by omega
    rw [h0, rangePairs_nil m tar w (m.nPrimes - a) a (by omega)]
    rfl

/-! ## Mod phase: the buckets under interleaved calls of `_putOffsetsInSegments` -/

theorem sum_update_add {M : Type} [AddCommMonoid M] (T t : Nat) (ht : t < T) (f : Nat → M)
    (b : M) :
    Finset.sum (Finset.range T) (Function.update f t b) + f t
      = Finset.sum (Finset.range T) f + b := by
  have hmem : t ∈ Finset.range T := Finset.mem_range.2 ht
  rw [Finset.sum_update_of_mem hmem, ← Finset.add_sum_erase _ f hmem,
    Finset.sdiff_singleton_eq_erase]
  abel

theorem bucketInv_reserve (mask : Nat → Nat) (T C : Nat) (cells : Nat → Nat)
    (hs hl rc : Nat → Nat) (wr : Nat → List Nat)
    (h : BucketInv mask T C cells hs hl rc wr) (t : Nat) (ht : t < T) (c : Nat)
    (h0 : hl t = 0) :
    BucketInv mask T (C + c) cells (Function.update hs t C) (Function.update hl t c)
      (Function.update rc t (rc t + c)) wr := by
  obtain ⟨h1, h2, h3, S, hS, hM⟩ := h
  refine ⟨?_, ?_, ?_, S, ?_, hM⟩
  · have := sum_update_add T t ht rc (rc t + c)
    omega
  · intro t1 ht1 hpos
    by_cases he : t1 = t
    · subst he
      rw [Function.update_same, Function.update_same]
    · rw [Function.update_noteq he, Function.update_noteq he] at *
      have := h2 t1 ht1 hpos
      omega
  · intro t1 t2 ht1 ht2 hne hp1 hp2
    by_cases he1 : t1 = t
    · subst he1
      have he2 : t2 ≠ t1 := fun h => hne h.symm
      rw [Function.update_same, Function.update_same, Function.update_noteq he2,
        Function.update_noteq he2] at *
      right
      exact h2 t2 ht2 hp2
    · by_cases he2 : t2 = t
      · subst he2
        rw [Function.update_same, Function.update_same, Function.update_noteq he1,
          Function.update_noteq he1] at *
        left
        exact h2 t1 ht1 hp1
      · rw [Function.update_noteq he1, Function.update_noteq he1, Function.update_noteq he2,
          Function.update_noteq he2] at *
        exact h3 t1 t2 ht1 ht2 hne hp1 hp2
  · intro p
    rw [hS p]
    constructor
    · rintro ⟨hp, hall⟩
      refine ⟨by omega, fun t1 ht1 => ?_⟩
      by_cases he : t1 = t
      · subst he
        rw [Function.update_same, Function.update_same]
        omega
      · rw [Function.update_noteq he, Function.update_noteq he]
        exact hall t1 ht1
    · rintro ⟨hp, hall⟩
      have ht0 := hall t ht
      rw [Function.update_same, Function.update_same] at ht0
      refine ⟨by omega, fun t1 ht1 => ?_⟩
      by_cases he : t1 = t
      · subst he
        rw [h0]
        omega
      · have := hall t1 ht1
        rw [Function.update_noteq he, Function.update_noteq he] at this
        exact this

theorem bucketInv_store (mask : Nat → Nat) (T C : Nat) (cells : Nat → Nat)
    (hs hl rc : Nat → Nat) (wr : Nat → List Nat)
    (h : BucketInv mask T C cells hs hl rc wr) (t : Nat) (ht : t < T) (x : Nat)
    (h0 : 1 ≤ hl t) :
    BucketInv mask T C (Function.update cells (hs t) (mask x))
      (Function.update hs t (hs t + 1)) (Function.update hl t (hl t - 1)) rc
      (Function.update wr t (wr t ++ [x])) := by
  obtain ⟨h1, h2, h3, S, hS, hM⟩ := h
  have hin : hs t + hl t ≤ C := h2 t ht (by omega)
  have hnot : hs t ∉ S := by
    intro hmem
    exact ((hS _).1 hmem).2 t ht ⟨Nat.le_refl _, by omega⟩
  refine ⟨h1, ?_, ?_, insert (hs t) S, ?_, ?_⟩
  · intro t1 ht1 hpos
    by_cases he : t1 = t
    · subst he
      rw [Function.update_same, Function.update_same] at *
      omega
    · rw [Function.update_noteq he, Function.update_noteq he] at *
      exact h2 t1 ht1 hpos
  · intro t1 t2 ht1 ht2 hne hp1 hp2
    by_cases he1 : t1 = t
    · subst he1
      have he2 : t2 ≠ t1 := fun h => hne h.symm
      rw [Function.update_same, Function.update_same, Function.update_noteq he2,
        Function.update_noteq he2] at *
      have := h3 t1 t2 ht1 ht2 hne (by omega) hp2
      omega
    · by_cases he2 : t2 = t
      · subst he2
        rw [Function.update_same, Function.update_same, Function.update_noteq he1,
          Function.update_noteq he1] at *
        have := h3 t1 t2 ht1 ht2 hne hp1 (by omega)
        omega
      · rw [Function.update_noteq he1, Function.update_noteq he1, Function.update_noteq he2,
          Function.update_noteq he2] at *
        exact h3 t1 t2 ht1 ht2 hne hp1 hp2
  · intro p
    rw [Finset.mem_insert, hS p]
    constructor
    · rintro (hp | ⟨hp, hall⟩)
      · subst hp
        refine ⟨by omega, fun t1 ht1 => ?_⟩
        by_cases he : t1 = t
        · subst he
          rw [Function.update_same, Function.update_same]
          omega
        · rw [Function.update_noteq he, Function.update_noteq he]
          intro hh
          have := h3 t t1 ht ht1 (fun h => he h.symm) (by omega) (by omega)
          omega
      · refine ⟨hp, fun t1 ht1 => ?_⟩
        by_cases he : t1 = t
        · subst he
          rw [Function.update_same, Function.update_same]
          have := hall t1 ht1
          omega
        · rw [Function.update_noteq he, Function.update_noteq he]
          exact hall t1 ht1
    · rintro ⟨hp, hall⟩
      by_cases hp0 : p = hs t
      · exact Or.inl hp0
      · refine Or.inr ⟨hp, fun t1 ht1 => ?_⟩
        by_cases he : t1 = t
        · subst he
          have := hall t1 ht1
          rw [Function.update_same, Function.update_same] at this
          omega
        · have := hall t1 ht1
          rw [Function.update_noteq he, Function.update_noteq he] at this
          exact this
  · rw [Finset.insert_val_of_not_mem hnot, Multiset.map_cons, Function.update_same]
    have hcongr : Multiset.map (Function.update cells (hs t) (mask x)) S.val
        = Multiset.map cells S.val := by
      refine Multiset.map_congr rfl (fun q hq => ?_)
      have hq1 : q ≠ hs t := fun h => hnot (h ▸ hq)
      exact Function.update_noteq hq1 _ _
    rw [hcongr, hM]
    have hfun : (fun t1 => (((Function.update wr t (wr t ++ [x]) t1).map mask : List Nat)
          : Multiset Nat))
        = Function.update (fun t1 => (((wr t1).map mask : List Nat) : Multiset Nat)) t
            ((((wr t ++ [x]).map mask : List Nat) : Multiset Nat)) := by
      funext t1
      by_cases he : t1 = t
      · subst he
        rw [Function.update_same, Function.update_same]
      · rw [Function.update_noteq he, Function.update_noteq he]
    rw [hfun]
    have hsum := sum_update_add T t ht
      (fun t1 => (((wr t1).map mask : List Nat) : Multiset Nat))
      ((((wr t ++ [x]).map mask : List Nat) : Multiset Nat))
    have hsplit : ((((wr t ++ [x]).map mask : List Nat) : Multiset Nat))
        = (((wr t).map mask : List Nat) : Multiset Nat) + {mask x} := by
      rw [List.map_append, ← Multiset.coe_add]
      rfl
    rw [hsplit] at hsum ⊢
    have hcancel := add_right_cancel (b := (((wr t).map mask : List Nat) : Multiset Nat))
      (a := Finset.sum (Finset.range T)
        (Function.update (fun t1 => (((wr t1).map mask : List Nat) : Multiset Nat)) t
          ((((wr t).map mask : List Nat) : Multiset Nat) + {mask x})))
      (c := Finset.sum (Finset.range T)
        (fun t1 => (((wr t1).map mask : List Nat) : Multiset Nat)) + {mask x})
      (by rw [hsum]; abel)
    rw [hcancel, ← Multiset.singleton_add, add_comm]

theorem bucketInv_congr (mask : Nat → Nat) (T C : Nat) (cells : Nat → Nat)
    (hs hs1 hl rc : Nat → Nat) (wr : Nat → List Nat)
    (h : BucketInv mask T C cells hs hl rc wr)
    (heq : ∀ t, t < T → 0 < hl t → hs1 t = hs t) :
    BucketInv mask T C cells hs1 hl rc wr := by
  obtain ⟨h1, h2, h3, S, hS, hM⟩ := h
  refine ⟨h1, ?_, ?_, S, ?_, hM⟩
  · intro t ht hpos
    rw [heq t ht hpos]
    exact h2 t ht hpos
  · intro t t1 ht ht1 hne hp hp1
    rw [heq t ht hp, heq t1 ht1 hp1]
    exact h3 t t1 ht ht1 hne hp hp1
  · intro p
    rw [hS p]
    constructor
    · rintro ⟨hp, hall⟩
      refine ⟨hp, fun t ht hh => ?_⟩
      have hpos : 0 < hl t := by omega
      rw [heq t ht hpos] at hh
      exact hall t ht hh
    · rintro ⟨hp, hall⟩
      refine ⟨hp, fun t ht hh => ?_⟩
      have hpos : 0 < hl t := by omega
      have := hall t ht
      rw [heq t ht hpos] at this
      exact this hh

theorem entriesOf_append (w : Nat) (l1 l2 : List FlushReq) :
    entriesOf w (l1 ++ l2) = entriesOf w l1 ++ entriesOf w l2 := by
  induction l1 with
  | nil => rfl
  | cons r rest ih =>
    show (if r.worker = w then r.entries else []) ++ entriesOf w (rest ++ l2)
      = ((if r.worker = w then r.entries else []) ++ entriesOf w rest) ++ entriesOf w l2
    rw [ih, List.append_assoc]

theorem inSeg_cons_same (m : Miner) (x : Nat) (l : List Nat) :
    inSeg m (x >>> m.sieveBits) (x :: l) = x :: inSeg m (x >>> m.sieveBits) l := by
  rw [← List.singleton_append, inSeg_append, inSeg_single, if_pos rfl]
  rfl

theorem inSeg_cons_other (m : Miner) (seg x : Nat) (l : List Nat)
    (h : x >>> m.sieveBits ≠ seg) : inSeg m seg (x :: l) = inSeg m seg l := by
  rw [← List.singleton_append, inSeg_append, inSeg_single, if_neg h]
  rfl

theorem inSeg_snoc_same (m : Miner) (x : Nat) (l : List Nat) :
    inSeg m (x >>> m.sieveBits) (l ++ [x]) = inSeg m (x >>> m.sieveBits) l ++ [x] := by
  rw [inSeg_append, inSeg_single, if_pos rfl]

theorem inSeg_snoc_other (m : Miner) (seg x : Nat) (l : List Nat)
    (h : x >>> m.sieveBits ≠ seg) : inSeg m seg (l ++ [x]) = inSeg m seg l := by
  rw [inSeg_append, inSeg_single, if_neg h, List.append_nil]

theorem range'_map_head (f : Nat → Nat) (i n : Nat) (h : i < n) :
    (List.range' i (n - i)).map f = f i :: (List.range' (i + 1) (n - (i + 1))).map f := by
  have : n - i = (n - (i + 1)) + 1 := by omega
  rw [this, List.range'_succ, List.map_cons]

theorem flushStep_bucket (m : Miner) (sieves sieves1 : Nat → SieveInstance)
    (th th1 : FlushThread) (hwf : th.WF m)
    (hstep : flushStep m sieves th = some (sieves1, th1)) (w seg : Nat)
    (hseg : seg < m.maxIter) :
    ((sieves1 w).segmentCounts seg = (sieves w).segmentCounts seg ∧
      (sieves1 w).segmentHits seg = (sieves w).segmentHits seg ∧
      th1.holeLen m w seg = th.holeLen m w seg ∧
      th1.reservedCount m w seg = th.reservedCount m w seg ∧
      inSeg m seg (th1.wrote w) = inSeg m seg (th.wrote w) ∧
      (th1.counts seg = th.counts seg ∨ th.holeLen m w seg = 0)) ∨
    (∃ c, th.holeLen m w seg = 0 ∧
      (sieves1 w).segmentCounts seg = (sieves w).segmentCounts seg + c ∧
      (sieves1 w).segmentHits seg = (sieves w).segmentHits seg ∧
      th1.counts seg = (sieves w).segmentCounts seg ∧
      th1.holeLen m w seg = c ∧
      th1.reservedCount m w seg = th.reservedCount m w seg + c ∧
      inSeg m seg (th1.wrote w) = inSeg m seg (th.wrote w)) ∨
    (∃ x, 1 ≤ th.holeLen m w seg ∧
      (sieves1 w).segmentCounts seg = (sieves w).segmentCounts seg ∧
      (sieves1 w).segmentHits seg
        = Function.update ((sieves w).segmentHits seg) (th.counts seg) (m.hitOf x) ∧
      th1.counts seg = th.counts seg + 1 ∧
      th1.holeLen m w seg = th.holeLen m w seg - 1 ∧
      th1.reservedCount m w seg = th.reservedCount m w seg ∧
      inSeg m seg (th1.wrote w) = inSeg m seg (th.wrote w) ++ [x]) := by
  obtain ⟨done, todo, pc, counts⟩ := th
  obtain ⟨hexact, hpcn, hcnt⟩ := hwf
  cases todo with
  | nil =>
    have h1 : (sieves, ({ done := done, todo := [], pc := pc, counts := counts } : FlushThread))
        = (sieves1, th1) := Option.some.inj hstep
    obtain ⟨rfl, rfl⟩ := Prod.mk.inj h1
    exact Or.inl ⟨rfl, rfl, rfl, rfl, rfl, Or.inl rfl⟩
  | cons r rest =>
    have hex : r.Exact m := hexact r (List.mem_cons_self _ _)
    cases pc with
    | reserve k =>
      have hc : counts k = r.counts k := hcnt r rest k rfl rfl k (Nat.le_refl _)
      by_cases hk : k < m.maxIter
      · by_cases hab : (sieves r.worker).segmentCounts k + counts k ≥ m.entriesPerSegment
        · exfalso
          simp only [flushStep, if_pos hk, if_pos hab] at hstep
          cases hstep
        · simp only [flushStep, if_pos hk, if_neg hab] at hstep
          rw [hc] at hstep
          obtain ⟨rfl, rfl⟩ := Prod.mk.inj (Option.some.inj hstep)
          by_cases hw : r.worker = w
          · subst hw
            by_cases hsk : seg = k
            · subst hsk
              refine Or.inr (Or.inl ⟨r.counts seg, ?_, ?_, ?_, ?_, ?_, ?_, ?_⟩)
              · simp [FlushThread.holeLen]
              · simp
              · simp
              · simp
              · simp [FlushThread.holeLen, hex.2.1 seg hk]
              · simp [FlushThread.reservedCount, hex.2.1 seg hk]
              · simp [FlushThread.wrote]
            · refine Or.inl ⟨?_, ?_, ?_, ?_, ?_, Or.inl ?_⟩
              · simp [Function.update_noteq hsk]
              · simp
              · have : (seg < k + 1) ↔ (seg < k) := by omega
                simp [FlushThread.holeLen, this]
              · have : (seg < k + 1) ↔ (seg < k) := by omega
                simp [FlushThread.reservedCount, this]
              · simp [FlushThread.wrote]
              · simp [Function.update_noteq hsk]
          · have hw1 : w ≠ r.worker := fun h => hw h.symm
            refine Or.inl ⟨?_, ?_, ?_, ?_, ?_, Or.inr ?_⟩
            · simp [Function.update_noteq hw1]
            · simp [Function.update_noteq hw1]
            · simp [FlushThread.holeLen, hw]
            · simp [FlushThread.reservedCount, hw]
            · simp [FlushThread.wrote, hw]
            · simp [FlushThread.holeLen, hw]
      · simp only [flushStep, if_neg hk] at hstep
        obtain ⟨rfl, rfl⟩ := Prod.mk.inj (Option.some.inj hstep)
        have hsk : seg < k := by omega
        have hr : (List.range' 0 (r.n - 0)).map r.offsets = r.entries := by
          unfold FlushReq.entries
          rw [List.range_eq_range', Nat.sub_zero]
        refine Or.inl ⟨rfl, rfl, ?_, ?_, ?_, Or.inl rfl⟩
        · simp only [FlushThread.holeLen, if_pos hsk, hr]
        · simp only [FlushThread.reservedCount, if_pos hsk]
        · simp [FlushThread.wrote]
    | store i =>
      have hin : i ≤ r.n := hpcn r rest i rfl rfl
      by_cases hi : i < r.n
      · simp only [flushStep, if_pos hi] at hstep
        obtain ⟨rfl, rfl⟩ := Prod.mk.inj (Option.some.inj hstep)
        have hhead := range'_map_head r.offsets i r.n hi
        by_cases hw : r.worker = w
        · subst hw
          by_cases hsg : r.offsets i >>> m.sieveBits = seg
          · subst hsg
            refine Or.inr (Or.inr ⟨r.offsets i, ?_, ?_, ?_, ?_, ?_, ?_, ?_⟩)
            · simp only [FlushThread.holeLen, if_true, hhead, inSeg_cons_same,
                List.length_cons]
              omega
            · simp
            · simp [Miner.hitOf]
            · simp
            · simp only [FlushThread.holeLen, if_true, hhead, inSeg_cons_same,
                List.length_cons]
              omega
            · simp [FlushThread.reservedCount]
            · simp only [FlushThread.wrote, if_true, List.range_succ, List.map_append,
                List.map_singleton, ← List.append_assoc, inSeg_snoc_same]
          · have hsg1 : seg ≠ r.offsets i >>> m.sieveBits := fun h => hsg h.symm
            refine Or.inl ⟨?_, ?_, ?_, ?_, ?_, Or.inl ?_⟩
            · simp
            · simp [Function.update_noteq hsg1]
            · simp only [FlushThread.holeLen, if_true, hhead, inSeg_cons_other m seg _ _ hsg]
            · simp [FlushThread.reservedCount]
            · simp only [FlushThread.wrote, if_true, List.range_succ, List.map_append,
                List.map_singleton, ← List.append_assoc, inSeg_snoc_other m seg _ _ hsg]
            · simp [Function.update_noteq hsg1]
        · have hw1 : w ≠ r.worker := fun h => hw h.symm
          refine Or.inl ⟨?_, ?_, ?_, ?_, ?_, Or.inr ?_⟩
          · simp [Function.update_noteq hw1]
          · simp [Function.update_noteq hw1]
          · simp [FlushThread.holeLen, hw]
          · simp [FlushThread.reservedCount, hw]
          · simp [FlushThread.wrote, hw]
          · simp [FlushThread.holeLen, hw]
      · simp only [flushStep, if_neg hi] at hstep
        obtain ⟨rfl, rfl⟩ := Prod.mk.inj (Option.some.inj hstep)
        have hie : i = r.n := by omega
        subst hie
        refine Or.inl ⟨rfl, rfl, ?_, ?_, ?_, Or.inr ?_⟩
        rotate_left 3
        · by_cases h : r.worker = w
          · simp [FlushThread.holeLen, h, inSeg]
          · simp [FlushThread.holeLen, h]
        · have h0 : ∀ (l : List FlushReq),
              (match l with
                | [] => 0
                | r1 :: _ =>
                  if r1.worker = w then
                    match FlushPc.reserve 0 with
                    | FlushPc.reserve segment =>
                      if seg < segment then (inSeg m seg r1.entries).length else 0
                    | FlushPc.store i =>
                      (inSeg m seg ((List.range' i (r1.n - i)).map r1.offsets)).length
                  else 0) = 0 := by
            intro l
            cases l with
            | nil => rfl
            | cons r1 _ =>
              by_cases h : r1.worker = w
              · simp [h]
              · simp [h]
          simp only [FlushThread.holeLen]
          rw [h0 rest]
          by_cases h : r.worker = w
          · simp [h, inSeg]
          · simp [h]
        · simp only [FlushThread.reservedCount, entriesOf_append, entriesOf, List.append_nil,
            inSeg_append, List.length_append]
          have h0 : (match rest with
                | [] => 0
                | r1 :: _ =>
                  if r1.worker = w then
                    match FlushPc.reserve 0 with
                    | FlushPc.reserve segment =>
                      if seg < segment then (inSeg m seg r1.entries).length else 0
                    | FlushPc.store _ => (inSeg m seg r1.entries).length
                  else 0) = 0 := by
            cases rest with
            | nil => rfl
            | cons r1 _ =>
              by_cases h : r1.worker = w
              · simp [h]
              · simp [h]
          rw [h0]
          by_cases h : r.worker = w
          · simp [h]
          · simp [h, inSeg]
        · simp only [FlushThread.wrote, entriesOf_append, entriesOf, List.append_nil]
          have h0 : (match rest with
                | [] => ([] : List Nat)
                | r1 :: _ =>
                  if r1.worker = w then
                    match FlushPc.reserve 0 with
                    | FlushPc.reserve _ => []
                    | FlushPc.store i => (List.range i).map r1.offsets
                  else []) = [] := by
            cases rest with
            | nil => rfl
            | cons r1 _ =>
              by_cases h : r1.worker = w
              · simp [h]
              · simp [h]
          rw [h0, List.append_nil]
          by_cases h : r.worker = w
          · simp [h, FlushReq.entries]
          · simp [h]

theorem flushStep_wf (m : Miner) (sieves sieves1 : Nat → SieveInstance)
    (th th1 : FlushThread) (hwf : th.WF m)
    (hstep : flushStep m sieves th = some (sieves1, th1)) :
    th1.WF m ∧ th1.done ++ th1.todo = th.done ++ th.todo := by
  obtain ⟨done, todo, pc, counts⟩ := th
  obtain ⟨hexact, hpcn, hcnt⟩ := hwf
  cases todo with
  | nil =>
    obtain ⟨rfl, rfl⟩ := Prod.mk.inj (Option.some.inj hstep)
    exact ⟨⟨hexact, hpcn, hcnt⟩, rfl⟩
  | cons r rest =>
    cases pc with
    | reserve k =>
      by_cases hk : k < m.maxIter
      · by_cases hab : (sieves r.worker).segmentCounts k + counts k ≥ m.entriesPerSegment
        · exfalso
          simp only [flushStep, if_pos hk, if_pos hab] at hstep
          cases hstep
        · simp only [flushStep, if_pos hk, if_neg hab] at hstep
          obtain ⟨rfl, rfl⟩ := Prod.mk.inj (Option.some.inj hstep)
          refine ⟨⟨hexact, fun r1 rest1 i h1 h2 => ?_,
            fun r1 rest1 segment h1 h2 seg hseg => ?_⟩, rfl⟩
          · cases h2
          · have h3 : r :: rest = r1 :: rest1 := h1
            have h4 : FlushPc.reserve (k + 1) = FlushPc.reserve segment := h2
            cases h3
            cases h4
            show Function.update counts k _ seg = _
            rw [Function.update_noteq (by omega)]
            exact hcnt r rest k rfl rfl seg (by omega)
      · simp only [flushStep, if_neg hk] at hstep
        obtain ⟨rfl, rfl⟩ := Prod.mk.inj (Option.some.inj hstep)
        refine ⟨⟨hexact, fun r1 rest1 i h1 h2 => ?_,
          fun r1 rest1 segment h1 h2 => by cases h2⟩, rfl⟩
        have hi : i = 0 := by
          have : FlushPc.store 0 = FlushPc.store i := h2
          cases this
          rfl
        omega
    | store i =>
      have hin : i ≤ r.n := hpcn r rest i rfl rfl
      by_cases hi : i < r.n
      · simp only [flushStep, if_pos hi] at hstep
        obtain ⟨rfl, rfl⟩ := Prod.mk.inj (Option.some.inj hstep)
        refine ⟨⟨hexact, fun r1 rest1 i1 h1 h2 => ?_,
          fun r1 rest1 segment h1 h2 => by cases h2⟩, rfl⟩
        have h3 : r :: rest = r1 :: rest1 := h1
        have h4 : FlushPc.store (i + 1) = FlushPc.store i1 := h2
        cases h3
        cases h4
        omega
      · simp only [flushStep, if_neg hi] at hstep
        obtain ⟨rfl, rfl⟩ := Prod.mk.inj (Option.some.inj hstep)
        refine ⟨⟨fun r1 hr1 => hexact r1 (List.mem_cons_of_mem _ hr1),
          fun r1 rest1 i1 h1 h2 => ?_, fun r1 rest1 segment h1 h2 seg _ => ?_⟩, ?_⟩
        · cases h2
        · have h3 : rest = r1 :: rest1 := h1
          subst h3
          rfl
        · show (done ++ [r]) ++ rest = done ++ (r :: rest)
          simp

theorem reservedCount_le (m : Miner) (th : FlushThread) (w seg : Nat) :
    th.reservedCount m w seg
      ≤ (inSeg m seg (entriesOf w (th.done ++ th.todo))).length := by
  obtain ⟨done, todo, pc, counts⟩ := th
  simp only [FlushThread.reservedCount, entriesOf_append, inSeg_append, List.length_append]
  refine Nat.add_le_add_left ?_ _
  cases todo with
  | nil => exact Nat.zero_le _
  | cons r rest =>
    simp only [entriesOf, inSeg_append, List.length_append]
    by_cases hw : r.worker = w
    · simp only [if_pos hw]
      cases pc with
      | reserve k =>
        simp only
        split <;> omega
      | store i =>
        simp only
        omega
    · simp only [if_neg hw]
      omega

theorem reservedCount_add_le (m : Miner) (th : FlushThread) (r : FlushReq)
    (rest : List FlushReq) (k : Nat) (htodo : th.todo = r :: rest)
    (hpc : th.pc = FlushPc.reserve k) :
    th.reservedCount m r.worker k + (inSeg m k r.entries).length
      ≤ (inSeg m k (entriesOf r.worker (th.done ++ th.todo))).length := by
  obtain ⟨done, todo, pc, counts⟩ := th
  have h1 : todo = r :: rest := htodo
  have h2 : pc = FlushPc.reserve k := hpc
  subst h1
  subst h2
  simp only [FlushThread.reservedCount, entriesOf_append, inSeg_append, List.length_append,
    entriesOf, if_true, Nat.lt_irrefl, if_false]
  omega

theorem flushStep_ne_none (m : Miner) (T : Nat) (script : Nat → List FlushReq)
    (sys : FlushSystem) (hok : sys.OK m T script)
    (hfit : ∀ w seg, w < m.sieveWorkers → seg < m.maxIter →
      Finset.sum (Finset.range T) (fun t => (inSeg m seg (entriesOf w (script t))).length)
        < m.entriesPerSegment)
    (t : Nat) : flushStep m sys.sieves (sys.threads t) ≠ none := by
  obtain ⟨hscript, hwf, hidle, hbucket⟩ := hok
  intro hnone
  cases htodo : (sys.threads t).todo with
  | nil =>
    unfold flushStep at hnone
    rw [htodo] at hnone
    cases hnone
  | cons r rest =>
    have hT : t < T := by
      by_contra hge
      have := hidle t (by omega)
      rw [this] at htodo
      cases htodo
    cases hpc : (sys.threads t).pc with
    | store i =>
      unfold flushStep at hnone
      rw [htodo] at hnone
      simp only [hpc] at hnone
      split at hnone <;> cases hnone
    | reserve k =>
      unfold flushStep at hnone
      rw [htodo] at hnone
      simp only [hpc] at hnone
      by_cases hk : k < m.maxIter
      · rw [if_pos hk] at hnone
        by_cases hab : (sys.sieves r.worker).segmentCounts k + (sys.threads t).counts k
            ≥ m.entriesPerSegment
        · have hex : r.Exact m := (hwf t).1 r (by rw [htodo]; exact List.mem_cons_self _ _)
          have hentry : (sys.threads t).counts k = r.counts k :=
            (hwf t).2.2 r rest k htodo hpc k (Nat.le_refl _)
          have hC := (hbucket r.worker k hex.1 hk).1
          have hle : ∀ t1 ∈ Finset.range T,
              Function.update (fun t1 => (sys.threads t1).reservedCount m r.worker k) t
                ((sys.threads t).reservedCount m r.worker k + (inSeg m k r.entries).length) t1
              ≤ (inSeg m k (entriesOf r.worker (script t1))).length := by
            intro t1 _
            by_cases he : t1 = t
            · subst he
              rw [Function.update_same, ← hscript t1]
              exact reservedCount_add_le m _ r rest k htodo hpc
            · rw [Function.update_noteq he, ← hscript t1]
              exact reservedCount_le m _ _ _
          have hsum : Finset.sum (Finset.range T)
              (Function.update (fun t1 => (sys.threads t1).reservedCount m r.worker k) t
                ((sys.threads t).reservedCount m r.worker k + (inSeg m k r.entries).length))
              ≤ Finset.sum (Finset.range T)
                (fun t1 => (inSeg m k (entriesOf r.worker (script t1))).length) :=
            Finset.sum_le_sum hle
          have hupd := sum_update_add T t hT
            (fun t1 => (sys.threads t1).reservedCount m r.worker k)
            ((sys.threads t).reservedCount m r.worker k + (inSeg m k r.entries).length)
          have hf := hfit r.worker k hex.1 hk
          have hc := hex.2.1 k hk
          have hC1 : (sys.sieves r.worker).segmentCounts k
              = Finset.sum (Finset.range T)
                (fun t1 => (sys.threads t1).reservedCount m r.worker k) := hC
          have hupd1 : Finset.sum (Finset.range T)
              (Function.update (fun t1 => (sys.threads t1).reservedCount m r.worker k) t
                ((sys.threads t).reservedCount m r.worker k + (inSeg m k r.entries).length))
              + (sys.threads t).reservedCount m r.worker k
              = Finset.sum (Finset.range T)
                  (fun t1 => (sys.threads t1).reservedCount m r.worker k)
                + ((sys.threads t).reservedCount m r.worker k
                  + (inSeg m k r.entries).length) := hupd
          omega
        · rw [if_neg hab] at hnone
          cases hnone
      · rw [if_neg hk] at hnone
        cases hnone

theorem comp_update_thread {α : Type} (threads : Nat → FlushThread) (t : Nat)
    (th1 : FlushThread) (g : FlushThread → α) :
    (fun t1 => g (Function.update threads t th1 t1))
      = Function.update (fun t1 => g (threads t1)) t (g th1) := by
  funext t1
  by_cases he : t1 = t
  · subst he
    rw [Function.update_same, Function.update_same]
  · rw [Function.update_noteq he, Function.update_noteq he]

theorem systemStep_ok (m : Miner) (T : Nat) (script : Nat → List FlushReq)
    (sys : FlushSystem) (hok : sys.OK m T script)
    (hfit : ∀ w seg, w < m.sieveWorkers → seg < m.maxIter →
      Finset.sum (Finset.range T) (fun t => (inSeg m seg (entriesOf w (script t))).length)
        < m.entriesPerSegment)
    (t : Nat) : ∃ sys1, systemStep m t sys = some sys1 ∧ sys1.OK m T script := by
  have hne := flushStep_ne_none m T script sys hok hfit t
  obtain ⟨hscript, hwf, hidle, hbucket⟩ := hok
  cases hstep : flushStep m sys.sieves (sys.threads t) with
  | none => exact absurd hstep hne
  | some res =>
    obtain ⟨sieves1, th1⟩ := res
    refine ⟨{ sieves := sieves1, threads := Function.update sys.threads t th1 }, ?_, ?_⟩
    · unfold systemStep
      rw [hstep]
    obtain ⟨hwf1, hsame⟩ := flushStep_wf m sys.sieves sieves1 (sys.threads t) th1 (hwf t) hstep
    refine ⟨?_, ?_, ?_, ?_⟩
    · intro t1
      show (Function.update sys.threads t th1 t1).done ++ (Function.update sys.threads t th1 t1).todo
        = script t1
      by_cases he : t1 = t
      · subst he
        rw [Function.update_same, hsame]
        exact hscript t1
      · rw [Function.update_noteq he]
        exact hscript t1
    · intro t1
      show (Function.update sys.threads t th1 t1).WF m
      by_cases he : t1 = t
      · subst he
        rw [Function.update_same]
        exact hwf1
      · rw [Function.update_noteq he]
        exact hwf t1
    · intro t1 ht1
      show (Function.update sys.threads t th1 t1).todo = []
      by_cases he : t1 = t
      · subst he
        rw [Function.update_same]
        have h0 := hidle t1 ht1
        unfold flushStep at hstep
        rw [h0] at hstep
        have := Prod.mk.inj (Option.some.inj hstep)
        rw [← this.2]
        exact h0
      · rw [Function.update_noteq he]
        exact hidle t1 ht1
    · intro w seg hw hseg
      have hb := hbucket w seg hw hseg
      unfold FlushSystem.BucketOK at hb ⊢
      show BucketInv m.hitOf T ((sieves1 w).segmentCounts seg) ((sieves1 w).segmentHits seg)
        (fun t1 => (Function.update sys.threads t th1 t1).counts seg)
        (fun t1 => (Function.update sys.threads t th1 t1).holeLen m w seg)
        (fun t1 => (Function.update sys.threads t th1 t1).reservedCount m w seg)
        (fun t1 => inSeg m seg ((Function.update sys.threads t th1 t1).wrote w))
      rw [comp_update_thread sys.threads t th1 (fun th => th.counts seg),
        comp_update_thread sys.threads t th1 (fun th => th.holeLen m w seg),
        comp_update_thread sys.threads t th1 (fun th => th.reservedCount m w seg),
        comp_update_thread sys.threads t th1 (fun th => inSeg m seg (th.wrote w))]
      by_cases hT : t < T
      · rcases flushStep_bucket m sys.sieves sieves1 (sys.threads t) th1 (hwf t) hstep w seg hseg
          with ⟨a1, a2, a3, a4, a5, a6⟩ | ⟨c, b0, b1, b2, b3, b4, b5, b6⟩ |
            ⟨x, c0, c1, c2, c3, c4, c5, c6⟩
        · rw [a1, a2, a3, a4, a5, Function.update_eq_self, Function.update_eq_self,
            Function.update_eq_self]
          refine bucketInv_congr _ _ _ _ _ _ _ _ _ hb (fun t1 ht1 hpos => ?_)
          by_cases he : t1 = t
          · subst he
            rw [Function.update_same]
            rcases a6 with h | h
            · exact h
            · omega
          · rw [Function.update_noteq he]
        · rw [b1, b2, b3, b4, b5, b6, Function.update_eq_self]
          exact bucketInv_reserve _ _ _ _ _ _ _ _ hb t hT c b0
        · rw [c1, c2, c3, c4, c5, c6, Function.update_eq_self]
          exact bucketInv_store _ _ _ _ _ _ _ _ hb t hT x c0
      · have h0 := hidle t (by omega)
        unfold flushStep at hstep
        rw [h0] at hstep
        obtain ⟨e1, e2⟩ := Prod.mk.inj (Option.some.inj hstep)
        rw [← e1, ← e2, Function.update_eq_self, Function.update_eq_self,
          Function.update_eq_self, Function.update_eq_self]
        exact hb

theorem systemRun_ok (m : Miner) (T : Nat) (script : Nat → List FlushReq)
    (hfit : ∀ w seg, w < m.sieveWorkers → seg < m.maxIter →
      Finset.sum (Finset.range T) (fun t => (inSeg m seg (entriesOf w (script t))).length)
        < m.entriesPerSegment) :
    ∀ (sched : List Nat) (sys : FlushSystem), sys.OK m T script →
      ∃ sys1, systemRun m sched sys = some sys1 ∧ sys1.OK m T script := by
  intro sched
  induction sched with
  | nil =>
    intro sys hok
    exact ⟨sys, rfl, hok⟩
  | cons t rest ih =>
    intro sys hok
    obtain ⟨sys1, h1, hok1⟩ := systemStep_ok m T script sys hok hfit t
    obtain ⟨sys2, h2, hok2⟩ := ih sys1 hok1
    refine ⟨sys2, ?_, hok2⟩
    unfold systemRun
    rw [h1]
    exact h2

theorem startSystem_ok (m : Miner) (T : Nat) (script : Nat → List FlushReq)
    (sieves : Nat → SieveInstance)
    (hexact : ∀ t, ∀ r ∈ script t, r.Exact m) (hidle : ∀ t, T ≤ t → script t = [])
    (hzero : ∀ w, w < m.sieveWorkers → ∀ seg, seg < m.maxIter →
      (sieves w).segmentCounts seg = 0) :
    (startSystem sieves script).OK m T script := by
  refine ⟨fun t => rfl, fun t => ⟨hexact t, (fun r rest i _ h => by cases h),
    fun r rest segment h1 _ seg _ => ?_⟩, hidle, ?_⟩
  · have h2 : script t = r :: rest := h1
    show entryCounts (script t) (fun _ => 0) seg = r.counts seg
    rw [h2]
    rfl
  intro w seg hw hseg
  have hl : ∀ t, ((startSystem sieves script).threads t).holeLen m w seg = 0 := by
    intro t
    show FlushThread.holeLen m
      { done := [], todo := script t, pc := FlushPc.reserve 0,
        counts := entryCounts (script t) (fun _ => 0) } w seg = 0
    unfold FlushThread.holeLen
    cases script t with
    | nil => rfl
    | cons r rest =>
      by_cases h : r.worker = w
      · simp [h]
      · simp [h]
  have hrc : ∀ t, ((startSystem sieves script).threads t).reservedCount m w seg = 0 := by
    intro t
    show FlushThread.reservedCount m
      { done := [], todo := script t, pc := FlushPc.reserve 0,
        counts := entryCounts (script t) (fun _ => 0) } w seg = 0
    unfold FlushThread.reservedCount
    cases script t with
    | nil => simp [entriesOf, inSeg]
    | cons r rest =>
      by_cases h : r.worker = w
      · simp [h, entriesOf, inSeg]
      · simp [h, entriesOf, inSeg]
  have hwr : ∀ t, ((startSystem sieves script).threads t).wrote w = [] := by
    intro t
    show FlushThread.wrote
      { done := [], todo := script t, pc := FlushPc.reserve 0, counts := fun _ => 0 } w = []
    unfold FlushThread.wrote
    cases script t with
    | nil => simp [entriesOf]
    | cons r rest =>
      by_cases h : r.worker = w
      · simp [h, entriesOf]
      · simp [h, entriesOf]
  unfold FlushSystem.BucketOK BucketInv
  have hC : ((startSystem sieves script).sieves w).segmentCounts seg = 0 := hzero w hw seg hseg
  rw [hC]
  refine ⟨?_, ?_, ?_, ∅, ?_, ?_⟩
  · simp only [hrc]
    simp
  · intro t _ hpos
    have hpos1 : 0 < ((startSystem sieves script).threads t).holeLen m w seg := hpos
    rw [hl t] at hpos1
    omega
  · intro t t1 _ _ _ hpos
    have hpos1 : 0 < ((startSystem sieves script).threads t).holeLen m w seg := hpos
    rw [hl t] at hpos1
    omega
  · intro p
    simp
  · simp only [hwr]
    simp [inSeg]

theorem sum_coe_scriptEntries (w : Nat) (script : Nat → List FlushReq) (f : List Nat → List Nat)
    (hf0 : f [] = []) (hf : ∀ l1 l2, f (l1 ++ l2) = f l1 ++ f l2) :
    ∀ T, Finset.sum (Finset.range T) (fun t => ((f (entriesOf w (script t)) : List Nat)
        : Multiset Nat))
      = ((f (scriptEntries w script T) : List Nat) : Multiset Nat) := by
  intro T
  induction T with
  | zero =>
    simp [scriptEntries, hf0]
  | succ T ih =>
    rw [Finset.sum_range_succ, ih]
    show _ = ((f (scriptEntries w script T ++ entriesOf w (script T)) : List Nat) : Multiset Nat)
    rw [hf, ← Multiset.coe_add]

theorem sum_length_scriptEntries (m : Miner) (w seg : Nat) (script : Nat → List FlushReq) :
    ∀ T, Finset.sum (Finset.range T) (fun t => (inSeg m seg (entriesOf w (script t))).length)
      = (inSeg m seg (scriptEntries w script T)).length := by
  intro T
  induction T with
  | zero =>
    simp [scriptEntries, inSeg]
  | succ T ih =>
    rw [Finset.sum_range_succ, ih]
    show _ = (inSeg m seg (scriptEntries w script T ++ entriesOf w (script T))).length
    rw [inSeg_append, List.length_append]

theorem system_final (m : Miner) (T : Nat) (script : Nat → List FlushReq)
    (sys : FlushSystem) (hok : sys.OK m T script)
    (hdone : ∀ t, t < T → (sys.threads t).todo = []) (w seg : Nat)
    (hw : w < m.sieveWorkers) (hseg : seg < m.maxIter) :
    (sys.sieves w).segmentCounts seg = (inSeg m seg (scriptEntries w script T)).length ∧
    (hitsList (sys.sieves w) seg).Perm ((inSeg m seg (scriptEntries w script T)).map m.hitOf) := by
  obtain ⟨hscript, _, _, hbucket⟩ := hok
  obtain ⟨h1, _, _, S, hS, hM⟩ := hbucket w seg hw hseg
  have hl : ∀ t, t < T → (sys.threads t).holeLen m w seg = 0 := by
    intro t ht
    unfold FlushThread.holeLen
    rw [hdone t ht]
  have hrc : ∀ t, t < T → (sys.threads t).reservedCount m w seg
      = (inSeg m seg (entriesOf w (script t))).length := by
    intro t ht
    unfold FlushThread.reservedCount
    rw [← hscript t, hdone t ht, List.append_nil]
    rfl
  have hwr : ∀ t, t < T → inSeg m seg ((sys.threads t).wrote w)
      = inSeg m seg (entriesOf w (script t)) := by
    intro t ht
    unfold FlushThread.wrote
    rw [← hscript t, hdone t ht, List.append_nil]
    simp
  have hcount : (sys.sieves w).segmentCounts seg
      = (inSeg m seg (scriptEntries w script T)).length := by
    rw [← sum_length_scriptEntries m w seg script T, h1]
    exact Finset.sum_congr rfl (fun t ht => hrc t (Finset.mem_range.1 ht))
  refine ⟨hcount, ?_⟩
  have hSr : S = Finset.range ((sys.sieves w).segmentCounts seg) := by
    ext p
    rw [hS p, Finset.mem_range]
    constructor
    · exact fun h => h.1
    · intro hp
      refine ⟨hp, fun t ht hh => ?_⟩
      have hh1 : (sys.threads t).counts seg ≤ p ∧
          p < (sys.threads t).counts seg + (sys.threads t).holeLen m w seg := hh
      rw [hl t ht] at hh1
      omega
  rw [hSr] at hM
  have hsum : Finset.sum (Finset.range T)
      (fun t => (((inSeg m seg ((sys.threads t).wrote w)).map m.hitOf : List Nat) : Multiset Nat))
      = (((inSeg m seg (scriptEntries w script T)).map m.hitOf : List Nat) : Multiset Nat) := by
    rw [← sum_coe_scriptEntries w script (fun l => (inSeg m seg l).map m.hitOf)
      (by simp [inSeg]) (fun l1 l2 => by
        show List.map m.hitOf (inSeg m seg (l1 ++ l2)) = _
        rw [inSeg_append, List.map_append]) T]
    exact Finset.sum_congr rfl (fun t ht => by rw [hwr t (Finset.mem_range.1 ht)])
  rw [hsum] at hM
  have hlist : Multiset.map ((sys.sieves w).segmentHits seg)
      (Finset.range ((sys.sieves w).segmentCounts seg)).val
      = ((hitsList (sys.sieves w) seg : List Nat) : Multiset Nat) := rfl
  rw [hlist] at hM
  exact Multiset.coe_eq_coe.1 hM

theorem systemRun_append (m : Miner) :
    ∀ (s1 s2 : List Nat) (sys sys1 sys2 : FlushSystem), systemRun m s1 sys = some sys1 →
      systemRun m s2 sys1 = some sys2 → systemRun m (s1 ++ s2) sys = some sys2 := by
  intro s1
  induction s1 with
  | nil =>
    intro s2 sys sys1 sys2 h1 h2
    have : sys = sys1 := Option.some.inj h1
    rw [this]
    exact h2
  | cons t rest ih =>
    intro s2 sys sys1 sys2 h1 h2
    unfold systemRun at h1
    show systemRun m (t :: (rest ++ s2)) sys = some sys2
    unfold systemRun
    cases hstep : systemStep m t sys with
    | none =>
      rw [hstep] at h1
      cases h1
    | some sysa =>
      rw [hstep] at h1
      exact ih s2 sysa sys1 sys2 h1 h2

theorem work_pos (m : Miner) (th : FlushThread) (h : th.todo ≠ []) : 0 < th.work m := by
  obtain ⟨done, todo, pc, counts⟩ := th
  cases todo with
  | nil => exact absurd rfl h
  | cons r rest =>
    cases pc with
    | reserve k =>
      simp only [FlushThread.work]
      omega
    | store i =>
      simp only [FlushThread.work]
      omega

theorem work_zero (m : Miner) (th : FlushThread) (h : th.work m = 0) : th.todo = [] := by
  by_contra hne
  have := work_pos m th hne
  omega

theorem flushStep_work (m : Miner) (sieves sieves1 : Nat → SieveInstance)
    (th th1 : FlushThread) (hstep : flushStep m sieves th = some (sieves1, th1))
    (hne : th.todo ≠ []) : th1.work m < th.work m := by
  obtain ⟨done, todo, pc, counts⟩ := th
  cases todo with
  | nil => exact absurd rfl hne
  | cons r rest =>
    cases pc with
    | reserve k =>
      by_cases hk : k < m.maxIter
      · by_cases hab : (sieves r.worker).segmentCounts k + counts k ≥ m.entriesPerSegment
        · exfalso
          simp only [flushStep, if_pos hk, if_pos hab] at hstep
          cases hstep
        · simp only [flushStep, if_pos hk, if_neg hab] at hstep
          obtain ⟨rfl, rfl⟩ := Prod.mk.inj (Option.some.inj hstep)
          simp only [FlushThread.work]
          omega
      · simp only [flushStep, if_neg hk] at hstep
        obtain ⟨rfl, rfl⟩ := Prod.mk.inj (Option.some.inj hstep)
        simp only [FlushThread.work]
        omega
    | store i =>
      by_cases hi : i < r.n
      · simp only [flushStep, if_pos hi] at hstep
        obtain ⟨rfl, rfl⟩ := Prod.mk.inj (Option.some.inj hstep)
        simp only [FlushThread.work]
        omega
      · simp only [flushStep, if_neg hi] at hstep
        obtain ⟨rfl, rfl⟩ := Prod.mk.inj (Option.some.inj hstep)
        cases rest with
        | nil =>
          simp only [FlushThread.work]
          omega
        | cons r1 rest1 =>
          simp only [FlushThread.work, List.map_cons, List.sum_cons]
          omega

theorem systemStep_frame (m : Miner) (t : Nat) (sys sys1 : FlushSystem)
    (h : systemStep m t sys = some sys1) :
    (∀ t1, t1 ≠ t → sys1.threads t1 = sys.threads t1) ∧
    ((sys.threads t).todo = [] → sys1.threads t = sys.threads t) ∧
    ((sys.threads t).todo ≠ [] → (sys1.threads t).work m < (sys.threads t).work m) := by
  unfold systemStep at h
  cases hstep : flushStep m sys.sieves (sys.threads t) with
  | none =>
    rw [hstep] at h
    cases h
  | some res =>
    rw [hstep] at h
    have h1 := Option.some.inj h
    rw [← h1]
    refine ⟨fun t1 hne => Function.update_noteq hne _ _, fun h0 => ?_, fun hne => ?_⟩
    · show Function.update sys.threads t res.2 t = _
      rw [Function.update_same]
      unfold flushStep at hstep
      rw [h0] at hstep
      have := Option.some.inj hstep
      rw [← this]
    · show (Function.update sys.threads t res.2 t).work m < _
      rw [Function.update_same]
      exact flushStep_work m sys.sieves res.1 (sys.threads t) res.2 hstep hne

theorem finish_thread (m : Miner) (T : Nat) (script : Nat → List FlushReq)
    (hfit : ∀ w seg, w < m.sieveWorkers → seg < m.maxIter →
      Finset.sum (Finset.range T) (fun t => (inSeg m seg (entriesOf w (script t))).length)
        < m.entriesPerSegment) (t : Nat) :
    ∀ (n : Nat) (sys : FlushSystem), sys.OK m T script → (sys.threads t).work m ≤ n →
      ∃ sys1, systemRun m (List.replicate n t) sys = some sys1 ∧ sys1.OK m T script ∧
        (sys1.threads t).todo = [] ∧ ∀ t1, t1 ≠ t → sys1.threads t1 = sys.threads t1 := by
  intro n
  induction n with
  | zero =>
    intro sys hok hw
    exact ⟨sys, rfl, hok, work_zero m _ (by omega), fun _ _ => rfl⟩
  | succ n ih =>
    intro sys hok hw
    obtain ⟨sys1, h1, hok1⟩ := systemStep_ok m T script sys hok hfit t
    obtain ⟨f1, f2, f3⟩ := systemStep_frame m t sys sys1 h1
    have hw1 : (sys1.threads t).work m ≤ n := by
      by_cases h0 : (sys.threads t).todo = []
      · rw [f2 h0]
        have : (sys.threads t).work m = 0 := by
          unfold FlushThread.work
          rw [h0]
        omega
      · have := f3 h0
        omega
    obtain ⟨sys2, h2, hok2, hd2, hf2⟩ := ih sys1 hok1 hw1
    refine ⟨sys2, ?_, hok2, hd2, fun t1 hne => ?_⟩
    · show systemRun m (t :: List.replicate n t) sys = some sys2
      unfold systemRun
      rw [h1]
      exact h2
    · rw [hf2 t1 hne, f1 t1 hne]

theorem finish_all (m : Miner) (T : Nat) (script : Nat → List FlushReq)
    (hfit : ∀ w seg, w < m.sieveWorkers → seg < m.maxIter →
      Finset.sum (Finset.range T) (fun t => (inSeg m seg (entriesOf w (script t))).length)
        < m.entriesPerSegment) :
    ∀ (K : Nat) (sys : FlushSystem), sys.OK m T script →
      ∃ sched sys1, systemRun m sched sys = some sys1 ∧ sys1.OK m T script ∧
        ∀ t, t < K → (sys1.threads t).todo = [] := by
  intro K
  induction K with
  | zero =>
    intro sys hok
    exact ⟨[], sys, rfl, hok, fun t ht => by omega⟩
  | succ K ih =>
    intro sys hok
    obtain ⟨sched, sys1, h1, hok1, hd1⟩ := ih sys hok
    obtain ⟨sys2, h2, hok2, hd2, hf2⟩ := finish_thread m T script hfit K
      ((sys1.threads K).work m) sys1 hok1 (Nat.le_refl _)
    refine ⟨sched ++ List.replicate ((sys1.threads K).work m) K, sys2, ?_, hok2, fun t ht => ?_⟩
    · exact systemRun_append m sched _ sys sys1 sys2 h1 h2
    · by_cases he : t = K
      · rw [he]
        exact hd2
      · rw [hf2 t he]
        exact hd1 t (by omega)

/-! ## Mod phase: the calls a verify thread issues -/

theorem keepLow_cons (m : Miner) (a : Nat) (l : List Nat) :
    keepLow m (a :: l) = keepLow m [a] ++ keepLow m l := keepLow_append m [a] l

theorem pushOffset_buf (m : Miner) (s : ModLoop) (j idx : Nat) :
    buffered (pushOffset m j idx s) j = buffered s j ++ keepLow m [idx] ∧
    ∀ seg, (pushOffset m j idx s).st.offsetCount j seg
      = s.st.offsetCount j seg + (inSeg m seg (keepLow m [idx])).length := by
  unfold pushOffset
  rw [keepLow_single]
  by_cases hlow : idx < m.maxIncrements
  · rw [if_pos hlow, if_pos hlow]
    refine ⟨?_, fun seg => ?_⟩
    · unfold buffered
      simp only [Function.update_same]
      exact range_map_update _ _ _
    · rw [inSeg_single]
      simp only [Function.update_same]
      by_cases hsg : idx >>> m.sieveBits = seg
      · rw [if_pos hsg, hsg, Function.update_same]
        rfl
      · rw [if_neg hsg, Function.update_noteq (Ne.symm hsg)]
        rfl
  · rw [if_neg hlow, if_neg hlow, List.append_nil]
    exact ⟨rfl, fun seg => by simp [inSeg]⟩

theorem sparseFold_buf (m : Miner) (p : Nat) (invert : List Nat) (j index : Nat) :
    ∀ (n f0 : Nat) (s : ModLoop),
      buffered ((List.range' (f0 + 1) n).foldl
          (fun st f =>
            (familyStep m p invert st.1 f, pushOffset m j (familyStep m p invert st.1 f) st.2))
          (famChain m p invert index f0, s)).2 j
        = buffered s j ++ keepLow m ((List.range' (f0 + 1) n).map (famChain m p invert index)) ∧
      ∀ seg, ((List.range' (f0 + 1) n).foldl
          (fun st f =>
            (familyStep m p invert st.1 f, pushOffset m j (familyStep m p invert st.1 f) st.2))
          (famChain m p invert index f0, s)).2.st.offsetCount j seg
        = s.st.offsetCount j seg +
          (inSeg m seg (keepLow m
            ((List.range' (f0 + 1) n).map (famChain m p invert index)))).length := by
  intro n
  induction n with
  | zero =>
    intro f0 s
    exact ⟨by simp [keepLow], fun seg => by simp [keepLow, inSeg]⟩
  | succ n ih =>
    intro f0 s
    rw [List.range'_succ, List.foldl_cons]
    have hstep : familyStep m p invert (famChain m p invert index f0) (f0 + 1)
        = famChain m p invert index (f0 + 1) := rfl
    simp only [hstep]
    obtain ⟨r1, r2⟩ := ih (f0 + 1) (pushOffset m j (famChain m p invert index (f0 + 1)) s)
    obtain ⟨q1, q2⟩ := pushOffset_buf m s j (famChain m p invert index (f0 + 1))
    refine ⟨?_, fun seg => ?_⟩
    · rw [List.map_cons, keepLow_cons, r1, q1, List.append_assoc]
    · rw [List.map_cons, keepLow_cons, inSeg_append, List.length_append, r2 seg, q2 seg,
        Nat.add_assoc]

theorem addToOffsetsSparse_buf (m : Miner) (p : Nat) (invert : List Nat) (j index : Nat)
    (s : ModLoop) (hL : 1 ≤ m.primeTupleOffset.length) :
    buffered (addToOffsetsSparse m p invert j index s).2 j
      = buffered s j ++ keepLow m ((List.range m.primeTupleOffset.length).map
          (famChain m p invert index)) ∧
    ∀ seg, (addToOffsetsSparse m p invert j index s).2.st.offsetCount j seg
      = s.st.offsetCount j seg +
        (inSeg m seg (keepLow m ((List.range m.primeTupleOffset.length).map
          (famChain m p invert index)))).length := by
  unfold addToOffsetsSparse
  rw [halfPrimeTupleOffset_length]
  obtain ⟨q1, q2⟩ := pushOffset_buf m s j index
  have h0 : index = famChain m p invert index 0 := rfl
  have hfold := sparseFold_buf m p invert j index (m.primeTupleOffset.length - 1) 0
    (pushOffset m j index s)
  simp only [Nat.zero_add] at hfold
  rw [← h0] at hfold
  have hrange : List.range m.primeTupleOffset.length
      = 0 :: List.range' 1 (m.primeTupleOffset.length - 1) := by
    rw [List.range_eq_range']
    have : m.primeTupleOffset.length = (m.primeTupleOffset.length - 1) + 1 := by omega
    conv_lhs => rw [this, List.range'_succ]
  obtain ⟨r1, r2⟩ := hfold
  refine ⟨?_, fun seg => ?_⟩
  · rw [hrange, List.map_cons, keepLow_cons, r1, q1, List.append_assoc]
    rfl
  · rw [hrange, List.map_cons, keepLow_cons, inSeg_append, List.length_append, r2 seg, q2 seg,
      Nat.add_assoc]
    rfl

theorem keepLow_lt (m : Miner) (l : List Nat) : ∀ y ∈ keepLow m l, y < m.maxIncrements := by
  intro y hy
  unfold keepLow at hy
  exact of_decide_eq_true (List.mem_filter.1 hy).2

theorem sameReq_refl (j : Nat) (x : ReqLoop) : SameReq j x x := ⟨rfl, sameSpill_refl _ _⟩

theorem sameReq_trans (j : Nat) (x x1 x2 : ReqLoop) (h1 : SameReq j x x1)
    (h2 : SameReq j x1 x2) : SameReq j x x2 :=
  ⟨h2.1.trans h1.1, sameSpill_trans j _ _ _ h1.2 h2.2⟩

theorem reqInv_of_same (m : Miner) (B : List Nat) (x x1 : ReqLoop) (j : Nat) (E : List Nat)
    (h : SameReq j x x1) (hi : ReqInv m B x j E) : ReqInv m B x1 j E := by
  obtain ⟨a0, a1, a2, a3, _, _⟩ := h
  obtain ⟨F, hF, hE, hlt, hcnt⟩ := hi
  have hb : buffered x1.loop j = buffered x.loop j := by
    unfold buffered
    rw [a1, a2]
  refine ⟨F, by rw [a0]; exact hF, by rw [hb]; exact hE, by rw [hb]; exact hlt, fun seg hs => ?_⟩
  rw [hb, a3]
  exact hcnt seg hs

theorem flushWorkerReq_inv (m : Miner) (B : List Nat) (x : ReqLoop) (j : Nat) (E : List Nat)
    (hdiv : m.sieveSize ∣ m.maxIncrements) (hj : j < m.sieveWorkers)
    (hi : ReqInv m B x j E) (hlog : ∀ r ∈ x.log, r.Exact m) :
    ReqInv m B (flushWorkerReq m j x) j E ∧
    (flushWorkerReq m j x).loop.nOffsets j = 0 ∧
    (∀ r ∈ (flushWorkerReq m j x).log, r.Exact m) ∧
    (∀ j1, j1 ≠ j → SameReq j1 x (flushWorkerReq m j x)) ∧
    (flushWorkerReq m j x).loop.nextRemainder = x.loop.nextRemainder ∧
    (flushWorkerReq m j x).loop.nextRemainderIdx = x.loop.nextRemainderIdx := by
  obtain ⟨F, hF, hE, hlt, hcnt⟩ := hi
  have hb : buffered (flushWorkerReq m j x).loop j = [] := by
    unfold buffered flushWorkerReq
    simp only [Function.update_same, List.range_zero, List.map_nil]
  have hlogj : entriesOf j (flushWorkerReq m j x).log = entriesOf j x.log ++ buffered x.loop j := by
    show entriesOf j (x.log ++ [_]) = _
    rw [entriesOf_append]
    show _ ++ ((if j = j then _ else []) ++ []) = _
    rw [if_pos rfl, List.append_nil]
    rfl
  refine ⟨⟨E, ?_, ?_, ?_, ?_⟩, ?_, ?_, ?_, rfl, rfl⟩
  · rw [hlogj, hF, hE, List.append_assoc]
  · rw [hb, List.append_nil]
  · rw [hb]
    intro y hy
    cases hy
  · intro seg hs
    rw [hb]
    show Function.update x.loop.st.offsetCount j _ j seg = _
    rw [Function.update_same, if_pos hs]
    rfl
  · show Function.update x.loop.nOffsets j 0 j = 0
    rw [Function.update_same]
  · intro r hr
    rcases List.mem_append.1 hr with h | h
    · exact hlog r h
    · have hr1 := List.mem_singleton.1 h
      subst hr1
      refine ⟨hj, fun seg hs => hcnt seg hs, fun y hy => ?_⟩
      exact segment_lt_maxIter m hdiv y (hlt y hy)
  · intro j1 hj1
    refine ⟨?_, ?_, rfl, ?_, rfl, rfl⟩
    · show entriesOf j1 (x.log ++ [_]) = _
      rw [entriesOf_append]
      show _ ++ ((if j = j1 then _ else []) ++ []) = _
      rw [if_neg (Ne.symm hj1), List.append_nil, List.append_nil]
    · show Function.update x.loop.nOffsets j 0 j1 = _
      rw [Function.update_noteq hj1]
    · show Function.update x.loop.st.offsetCount j _ j1 = _
      rw [Function.update_noteq hj1]

theorem sparseReq_inv (m : Miner) (B : List Nat) (p : Nat) (invert : List Nat) (j index : Nat)
    (x : ReqLoop) (E : List Nat) (hL : 1 ≤ m.primeTupleOffset.length)
    (hi : ReqInv m B x j E) :
    ReqInv m B { loop := (addToOffsetsSparse m p invert j index x.loop).2, log := x.log } j
      (E ++ keepLow m ((List.range m.primeTupleOffset.length).map (famChain m p invert index))) := by
  obtain ⟨F, hF, hE, hlt, hcnt⟩ := hi
  obtain ⟨b1, b2⟩ := addToOffsetsSparse_buf m p invert j index x.loop hL
  refine ⟨F, hF, ?_, ?_, fun seg hs => ?_⟩
  · show _ = F ++ buffered (addToOffsetsSparse m p invert j index x.loop).2 j
    rw [b1, hE, List.append_assoc]
  · show ∀ y ∈ buffered (addToOffsetsSparse m p invert j index x.loop).2 j, _
    rw [b1]
    intro y hy
    rcases List.mem_append.1 hy with h | h
    · exact hlt y h
    · exact keepLow_lt m _ y h
  · show (addToOffsetsSparse m p invert j index x.loop).2.st.offsetCount j seg
      = (inSeg m seg (buffered (addToOffsetsSparse m p invert j index x.loop).2 j)).length
    rw [b1, b2 seg, inSeg_append, List.length_append, hcnt seg hs]

theorem addToOffsetsReq_inv (m : Miner) (B : List Nat) (i p : Nat) (invert : List Nat)
    (j index : Nat) (x : ReqLoop) (E : List Nat) (hL : 1 ≤ m.primeTupleOffset.length)
    (hdiv : m.sieveSize ∣ m.maxIncrements) (hj : j < m.sieveWorkers)
    (hi : ReqInv m B x j E) (hlog : ∀ r ∈ x.log, r.Exact m) :
    ∃ y, addToOffsetsReq m false i p invert j index x = Outcome.normal y ∧
      y.1 = famChain m p invert index (m.primeTupleOffset.length - 1) ∧
      ReqInv m B y.2 j (E ++ (if m.sparseLimit ≤ i then
        keepLow m ((List.range m.primeTupleOffset.length).map (famChain m p invert index))
        else [])) ∧
      (∀ r ∈ y.2.log, r.Exact m) ∧
      (∀ j1, j1 ≠ j → SameReq j1 x y.2) ∧
      y.2.loop.nextRemainder = x.loop.nextRemainder ∧
      y.2.loop.nextRemainderIdx = x.loop.nextRemainderIdx := by
  by_cases hd : i < m.sparseLimit
  · unfold addToOffsetsReq
    rw [if_pos (by omega)]
    refine ⟨_, rfl, ?_, ?_, hlog, ?_, rfl, rfl⟩
    · exact (addToOffsetsDense_spec m i p invert index _ hL).1
    · rw [if_neg (by omega), List.append_nil]
      refine reqInv_of_same m B x _ j E ⟨rfl, rfl, rfl, rfl, ?_, ?_⟩ hi
      · simp only [Function.update_same]
      · simp only [Function.update_same]
    · intro j1 hj1
      refine ⟨rfl, rfl, rfl, rfl, ?_, ?_⟩
      · simp only [Function.update_noteq hj1]
      · simp only [Function.update_noteq hj1]
  · have hs : m.sparseLimit ≤ i := by omega
    rw [if_pos hs]
    unfold addToOffsetsReq
    rw [if_neg (by omega)]
    by_cases hfull : x.loop.nOffsets j + m.halfPrimeTupleOffset.length ≥ OFFSET_STACK_SIZE
    · rw [if_pos hfull]
      simp only [Bool.false_eq_true, if_false]
      obtain ⟨f1, _, f2, f3, f4, f5⟩ := flushWorkerReq_inv m B x j E hdiv hj hi hlog
      obtain ⟨a1, _, a3, a4, a5, _⟩ := addToOffsetsSparse_spill m zeroSieve p invert j index
        (flushWorkerReq m j x).loop hL
      refine ⟨_, rfl, a1, sparseReq_inv m B p invert j index (flushWorkerReq m j x) E hL f1, f2, ?_,
        by rw [← f4]; exact a4, by rw [← f5]; exact a5⟩
      intro j1 hj1
      exact sameReq_trans j1 _ _ _ (f3 j1 hj1) ⟨rfl, a3 j1 hj1⟩
    · rw [if_neg hfull]
      obtain ⟨a1, _, a3, a4, a5, _⟩ := addToOffsetsSparse_spill m zeroSieve p invert j index
        x.loop hL
      exact ⟨_, rfl, a1, sparseReq_inv m B p invert j index x E hL hi, hlog,
        fun j1 hj1 => ⟨rfl, a3 j1 hj1⟩, a4, a5⟩

theorem workersLoopReq_inv (m : Miner) (stale : Nat → Nat → Bool) (B : Nat → List Nat)
    (tar i cnt ps : Nat) (hst : ∀ a b, stale a b = false)
    (hL : 1 ≤ m.primeTupleOffset.length) (hdiv : m.sieveSize ∣ m.maxIncrements)
    (hinv64 : m.inverts.getD i 0 < 2 ^ 64)
    (hps : i < m.precompLimit →
      ps = m.primes.getD i 0 * 2 ^ cnt ∧ m.primes.getD i 0 * 2 ^ cnt < 2 ^ 64) :
    ∀ (n j0 index r : Nat) (x : ReqLoop) (E : Nat → List Nat), 2 ≤ j0 →
      j0 + n ≤ m.sieveWorkers →
      index = reducedIndex m tar i (j0 - 1) (m.primeTupleOffset.length - 1) →
      r = (m.primorialOffsetDiff (j0 - 2) * m.inverts.getD i 0) % m.primes.getD i 0 →
      (∀ w, j0 ≤ w → w < j0 + n → ReqInv m (B w) x w (E w)) →
      (∀ q ∈ x.log, q.Exact m) →
      ∃ x1, workersLoopReq m stale i (m.primes.getD i 0)
          (invertLattice (m.inverts.getD i 0) (m.primes.getD i 0)) cnt ps
          (List.range' j0 n) index r x = Outcome.normal x1 ∧
        (∀ w, j0 ≤ w → w < j0 + n → ReqInv m (B w) x1 w (E w ++ primePairs m tar w i)) ∧
        (∀ q ∈ x1.log, q.Exact m) ∧
        (∀ w, (w < j0 ∨ j0 + n ≤ w) → SameReq w x x1) ∧
        x1.loop.nextRemainder = x.loop.nextRemainder ∧
        x1.loop.nextRemainderIdx = x.loop.nextRemainderIdx := by
  intro n
  induction n with
  | zero =>
    intro j0 index r x E _ _ _ _ _ hlog
    refine ⟨x, rfl, ?_, hlog, fun _ _ => sameReq_refl _ _, rfl, rfl⟩
    intro w h1 h2
    omega
  | succ n ih =>
    intro j0 index r x E hj0 hjn hindex hr hinv hlog
    rw [List.range'_succ]
    unfold workersLoopReq
    have hhead : (invertLattice (m.inverts.getD i 0) (m.primes.getD i 0)).getD 0 0
        = m.inverts.getD i 0 := by simp [invertLattice]
    have hr1 : (if m.primorialOffsetDiff (j0 - 1) ≠ m.primorialOffsetDiff (j0 - 2) then
          recomputeRemainder m i (m.primes.getD i 0)
            ((invertLattice (m.inverts.getD i 0) (m.primes.getD i 0)).getD 0 0) cnt ps j0
        else r)
        = (m.primorialOffsetDiff (j0 - 1) * m.inverts.getD i 0) % m.primes.getD i 0 := by
      by_cases hne : m.primorialOffsetDiff (j0 - 1) ≠ m.primorialOffsetDiff (j0 - 2)
      · rw [if_pos hne, hhead]
        exact recomputeRemainder_eq m i _ _ cnt ps j0 (primorialOffsetDiff_lt m _) hinv64 hps
      · rw [if_neg hne, hr]
        have : m.primorialOffsetDiff (j0 - 1) = m.primorialOffsetDiff (j0 - 2) := by
          simpa using hne
        rw [this]
    simp only [hr1, hst]
    have hbase : subWrap (m.primes.getD i 0) index
        ((m.primorialOffsetDiff (j0 - 1) * m.inverts.getD i 0) % m.primes.getD i 0)
        = workerBase m tar i j0 := by
      obtain ⟨k, rfl⟩ : ∃ k, j0 = k + 1 := ⟨j0 - 1, by omega⟩
      rw [hindex]
      simp only [Nat.add_sub_cancel]
      rfl
    rw [hbase]
    obtain ⟨y, hy, hy1, hy2, hy3, hy4, hy5, hy6⟩ := addToOffsetsReq_inv m (B j0) i
      (m.primes.getD i 0) (invertLattice (m.inverts.getD i 0) (m.primes.getD i 0)) j0
      (workerBase m tar i j0) x (E j0) hL hdiv (by omega) (hinv j0 (Nat.le_refl _) (by omega)) hlog
    rw [hy]
    simp only
    obtain ⟨x1, hx1, h1, h2, h3, h4, h5⟩ := ih (j0 + 1) y.1 _ y.2 E (by omega) (by omega)
      (by rw [hy1]; rfl)
      (by
        have : j0 + 1 - 2 = j0 - 1 := by omega
        rw [this])
      (fun w hw1 hw2 => reqInv_of_same m (B w) x y.2 w (E w) (hy4 w (by omega))
        (hinv w (by omega) (by omega)))
      hy3
    refine ⟨x1, hx1, ?_, h2, ?_, by rw [h4, hy5], by rw [h5, hy6]⟩
    · intro w hw1 hw2
      by_cases hw : w = j0
      · subst hw
        rw [primePairs_eq]
        exact reqInv_of_same m (B w) y.2 x1 w _ (h3 w (by omega)) hy2
      · exact h1 w (by omega) (by omega)
    · intro w hw
      exact sameReq_trans w _ _ _ (hy4 w (by omega)) (h3 w (by omega))

theorem modPrimeReq_inv (m : Miner) (stale : Nat → Nat → Bool) (B : Nat → List Nat)
    (tar avxLimit W i : Nat) (x : ReqLoop) (E : Nat → List Nat)
    (hst : ∀ a b, stale a b = false) (hT : m.TableInv)
    (hL : 1 ≤ m.primeTupleOffset.length) (hdiv : m.sieveSize ∣ m.maxIncrements)
    (hw : 1 ≤ m.sieveWorkers) (hW : 0 < W) (hlim : avxLimit + W ≤ NUM_PRIMES_TO_2P32)
    (hp0 : 0 < m.primes.getD i 0) (hp : m.primes.getD i 0 < 2 ^ 64)
    (hinv64 : m.inverts.getD i 0 < 2 ^ 64)
    (hlane : LaneInv m tar W i x.loop.nextRemainder x.loop.nextRemainderIdx)
    (hinv : ∀ w, w < m.sieveWorkers → ReqInv m (B w) x w (E w))
    (hlog : ∀ q ∈ x.log, q.Exact m) :
    ∃ x1, modPrimeReq m stale tar avxLimit W i x = Outcome.normal x1 ∧
      (∀ w, w < m.sieveWorkers → ReqInv m (B w) x1 w (E w ++ primePairs m tar w i)) ∧
      (∀ q ∈ x1.log, q.Exact m) ∧
      LaneInv m tar W (i + 1) x1.loop.nextRemainder x1.loop.nextRemainderIdx := by
  have hlanes := computeIndex_lanes m hT tar avxLimit W i x.loop.nextRemainder
    x.loop.nextRemainderIdx hlim hlane
  obtain ⟨hidx, hps⟩ := computeIndex_index64 m hT tar avxLimit W i x.loop.nextRemainder
    x.loop.nextRemainderIdx hW hlim hlane hp0 hp hinv64
  unfold modPrimeReq
  simp only [hst]
  rw [hidx]
  obtain ⟨y0, hy0, h01, h02, h0l, h03, h04, h05⟩ := addToOffsetsReq_inv m (B 0) i
    (m.primes.getD i 0)
    (invertLattice (m.inverts.getD i 0) (m.primes.getD i 0)) 0 (m.firstIndex tar i)
    { x with loop :=
      { x.loop with
        nextRemainder :=
          (computeIndex m tar avxLimit W i x.loop.nextRemainder x.loop.nextRemainderIdx).nextRemainder
        nextRemainderIdx :=
          (computeIndex m tar avxLimit W i x.loop.nextRemainder
            x.loop.nextRemainderIdx).nextRemainderIdx } }
    (E 0) hL hdiv (by omega)
    (reqInv_of_same m (B 0) x _ 0 (E 0) ⟨rfl, rfl, rfl, rfl, rfl, rfl⟩ (hinv 0 (by omega))) hlog
  rw [hy0]
  simp only
  by_cases hw1 : m.sieveWorkers = 1
  · rw [if_pos hw1]
    refine ⟨y0.2, rfl, ?_, h0l, ?_⟩
    · intro w hwlt
      have hw0 : w = 0 := by omega
      subst hw0
      rw [primePairs_eq]
      exact h02
    · rw [h04, h05]
      exact hlanes
  · rw [if_neg hw1]
    have hr1 := recomputeRemainder_eq m i (m.primes.getD i 0) (m.inverts.getD i 0)
      (computeIndex m tar avxLimit W i x.loop.nextRemainder x.loop.nextRemainderIdx).cnt
      (computeIndex m tar avxLimit W i x.loop.nextRemainder x.loop.nextRemainderIdx).ps 1
      (primorialOffsetDiff_lt m _) hinv64 hps
    rw [hr1, h01]
    have hbase : subWrap (m.primes.getD i 0)
        (famChain m (m.primes.getD i 0) (invertLattice (m.inverts.getD i 0) (m.primes.getD i 0))
          (m.firstIndex tar i) (m.primeTupleOffset.length - 1))
        ((m.primorialOffsetDiff (1 - 1) * m.inverts.getD i 0) % m.primes.getD i 0)
        = workerBase m tar i 1 := rfl
    rw [hbase]
    obtain ⟨y1, hy1, h11, h12, h1l, h13, h14, h15⟩ := addToOffsetsReq_inv m (B 1) i
      (m.primes.getD i 0) (invertLattice (m.inverts.getD i 0) (m.primes.getD i 0)) 1
      (workerBase m tar i 1) y0.2 (E 1) hL hdiv (by omega)
      (reqInv_of_same m (B 1) _ y0.2 1 (E 1)
        (sameReq_trans 1 x _ y0.2 ⟨rfl, rfl, rfl, rfl, rfl, rfl⟩ (h03 1 (by omega)))
        (hinv 1 (by omega))) h0l
    rw [hy1]
    simp only
    have hsame : ∀ w, 2 ≤ w → SameReq w x y1.2 := fun w hw2 =>
      sameReq_trans w x y0.2 y1.2
        (sameReq_trans w x _ y0.2 ⟨rfl, rfl, rfl, rfl, rfl, rfl⟩ (h03 w (by omega)))
        (h13 w (by omega))
    obtain ⟨x2, hx2, h21, h2l, h22, h23, h24⟩ := workersLoopReq_inv m stale B tar i
      (computeIndex m tar avxLimit W i x.loop.nextRemainder x.loop.nextRemainderIdx).cnt
      (computeIndex m tar avxLimit W i x.loop.nextRemainder x.loop.nextRemainderIdx).ps
      hst hL hdiv hinv64 hps (m.sieveWorkers - 2) 2 y1.1
      ((m.primorialOffsetDiff (1 - 1) * m.inverts.getD i 0) % m.primes.getD i 0) y1.2 E
      (by omega) (by omega) (by rw [h11]; rfl) (by simp)
      (fun w hw1 hw2 => reqInv_of_same m (B w) x y1.2 w (E w) (hsame w hw1)
        (hinv w (by omega)))
      h1l
    rw [hx2]
    refine ⟨x2, rfl, ?_, h2l, ?_⟩
    · intro w hwlt
      by_cases hwc : 2 ≤ w
      · exact h21 w hwc (by omega)
      · have hw01 : w = 0 ∨ w = 1 := by omega
        rcases hw01 with rfl | rfl
        · rw [primePairs_eq]
          exact reqInv_of_same m (B 0) y0.2 x2 0 _
            (sameReq_trans 0 _ _ _ (h13 0 (by omega)) (h22 0 (by omega))) h02
        · rw [primePairs_eq]
          exact reqInv_of_same m (B 1) y1.2 x2 1 _ (h22 1 (by omega)) h12
    · rw [h23, h24, h14, h15, h04, h05]
      exact hlanes

theorem modLoopReq_inv (m : Miner) (stale : Nat → Nat → Bool) (B : Nat → List Nat)
    (tar avxLimit W : Nat) (hst : ∀ a b, stale a b = false) (hT : m.TableInv)
    (hL : 1 ≤ m.primeTupleOffset.length) (hdiv : m.sieveSize ∣ m.maxIncrements)
    (hw : 1 ≤ m.sieveWorkers) (hW : 0 < W) (hlim : avxLimit + W ≤ NUM_PRIMES_TO_2P32) :
    ∀ (n a : Nat) (x : ReqLoop) (E : Nat → List Nat),
      (∀ i, a ≤ i → i < a + n → 0 < m.primes.getD i 0 ∧ m.primes.getD i 0 < 2 ^ 64 ∧
        m.inverts.getD i 0 < 2 ^ 64) →
      LaneInv m tar W a x.loop.nextRemainder x.loop.nextRemainderIdx →
      (∀ w, w < m.sieveWorkers → ReqInv m (B w) x w (E w)) →
      (∀ q ∈ x.log, q.Exact m) →
      ∃ x1, modLoopReq m stale tar avxLimit W (List.range' a n) x = Outcome.normal x1 ∧
        (∀ w, w < m.sieveWorkers → ReqInv m (B w) x1 w (E w ++ rangePairs m tar w a n)) ∧
        ∀ q ∈ x1.log, q.Exact m := by
  intro n
  induction n with
  | zero =>
    intro a x E _ _ hinv hlog
    refine ⟨x, rfl, fun w hwlt => ?_, hlog⟩
    simp only [rangePairs, List.append_nil]
    exact hinv w hwlt
  | succ n ih =>
    intro a x E htab hlane hinv hlog
    rw [List.range'_succ]
    unfold modLoopReq
    obtain ⟨hp0, hp, hinv64⟩ := htab a (Nat.le_refl _) (by omega)
    obtain ⟨x1, hx1, h1, h1l, h2⟩ := modPrimeReq_inv m stale B tar avxLimit W a x E hst hT hL
      hdiv hw hW hlim hp0 hp hinv64 hlane hinv hlog
    rw [hx1]
    simp only
    obtain ⟨x2, hx2, h3, h3l⟩ := ih (a + 1) x1 (fun w => E w ++ primePairs m tar w a)
      (fun i hi1 hi2 => htab i (by omega) (by omega)) h2 h1 h1l
    refine ⟨x2, hx2, fun w hwlt => ?_, h3l⟩
    have := h3 w hwlt
    simp only [rangePairs]
    rw [← List.append_assoc]
    exact this

theorem flushAllReq_inv (m : Miner) (B E : Nat → List Nat)
    (hdiv : m.sieveSize ∣ m.maxIncrements) :
    ∀ (js : List Nat) (x : ReqLoop), (∀ j, j ∈ js → j < m.sieveWorkers) →
      (∀ w, w < m.sieveWorkers → ReqInv m (B w) x w (E w)) →
      (∀ q ∈ x.log, q.Exact m) →
      (∀ w, w < m.sieveWorkers → ReqInv m (B w) (flushAllReq m js x) w (E w)) ∧
      (∀ q ∈ (flushAllReq m js x).log, q.Exact m) ∧
      (∀ w, (w ∈ js ∨ x.loop.nOffsets w = 0) → (flushAllReq m js x).loop.nOffsets w = 0) ∧
      (flushAllReq m js x).loop.st.allocated = x.loop.st.allocated := by
  intro js
  induction js with
  | nil =>
    intro x _ hinv hlog
    refine ⟨hinv, hlog, fun w hwz => ?_, rfl⟩
    rcases hwz with h | h
    · cases h
    · exact h
  | cons j js ih =>
    intro x hjs hinv hlog
    have hj : j < m.sieveWorkers := hjs j (List.mem_cons_self _ _)
    unfold flushAllReq
    by_cases hpos : x.loop.nOffsets j > 0
    · rw [if_pos hpos]
      obtain ⟨f1, f2, fl, f3, _, _⟩ := flushWorkerReq_inv m (B j) x j (E j) hdiv hj
        (hinv j hj) hlog
      obtain ⟨g1, gl, g2, g3⟩ := ih (flushWorkerReq m j x)
        (fun a ha => hjs a (List.mem_cons_of_mem _ ha))
        (fun w hwlt => by
          by_cases hwj : w = j
          · subst hwj
            exact f1
          · exact reqInv_of_same m (B w) x _ w (E w) (f3 w hwj) (hinv w hwlt))
        fl
      refine ⟨g1, gl, fun w hwz => ?_, by rw [g3]; rfl⟩
      by_cases hwj : w = j
      · subst hwj
        exact g2 w (Or.inr f2)
      · rcases hwz with h | h
        · rcases List.mem_cons.1 h with h | h
          · exact absurd h hwj
          · exact g2 w (Or.inl h)
        · exact g2 w (Or.inr (by rw [(f3 w hwj).2.1]; exact h))
    · rw [if_neg hpos]
      obtain ⟨g1, gl, g2, g3⟩ := ih x (fun a ha => hjs a (List.mem_cons_of_mem _ ha)) hinv hlog
      refine ⟨g1, gl, fun w hwz => ?_, g3⟩
      rcases hwz with h | h
      · rcases List.mem_cons.1 h with h | h
        · subst h
          exact g2 w (Or.inr (by omega))
        · exact g2 w (Or.inl h)
      · exact g2 w (Or.inr h)

theorem reqInv_final (m : Miner) (B : List Nat) (x : ReqLoop) (w : Nat) (E : List Nat)
    (hi : ReqInv m B x w E) (hb : buffered x.loop w = []) :
    entriesOf w x.log = B ++ E ∧ ∀ seg, seg < m.maxIter → x.loop.st.offsetCount w seg = 0 := by
  obtain ⟨F, hF, hE, _, hcnt⟩ := hi
  rw [hb, List.append_nil] at hE
  refine ⟨by rw [hF, hE], fun seg hs => ?_⟩
  rw [hcnt seg hs, hb]
  rfl

theorem updateRemaindersReq_inv (m : Miner) (stale : Nat → Nat → Bool)
    (verifyTarget verifyRemainderPrimorial : Int) (start_i end_i : Nat)
    (r : ModState × List FlushReq)
    (hst : ∀ a b, stale a b = false) (hT : m.TableInv)
    (hL : 1 ≤ m.primeTupleOffset.length) (hdiv : m.sieveSize ∣ m.maxIncrements)
    (hw : 1 ≤ m.sieveWorkers)
    (htab : ∀ i, start_i ≤ i → i < end_i → 0 < m.primes.getD i 0 ∧
      m.primes.getD i 0 < 2 ^ 64 ∧ m.inverts.getD i 0 < 2 ^ 64)
    (hzero : r.1.allocated = true →
      ∀ w, w < m.sieveWorkers → ∀ seg, seg < m.maxIter → r.1.offsetCount w seg = 0)
    (hlog : ∀ q ∈ r.2, q.Exact m) :
    ∃ r1, updateRemaindersReq m stale verifyTarget verifyRemainderPrimorial start_i end_i r
        = Outcome.normal r1 ∧
      (∀ q ∈ r1.2, q.Exact m) ∧
      (∀ w, w < m.sieveWorkers → entriesOf w r1.2 = entriesOf w r.2 ++
        rangePairs m (verifyTarget + verifyRemainderPrimorial).natAbs w start_i
          (end_i - start_i)) ∧
      ∀ w, w < m.sieveWorkers → ∀ seg, seg < m.maxIter → r1.1.offsetCount w seg = 0 := by
  obtain ⟨hW0, hW8⟩ := avxWidthOf_pos m
  have hlane0 : LaneInv m (verifyTarget + verifyRemainderPrimorial).natAbs (avxWidthOf m) start_i
      (fun _ => 0) 8 := by
    intro _ t h1 h2
    omega
  obtain ⟨ha1, ha2⟩ := allocateSpill_spec m r.1 hzero
  have hinit : ∀ w, w < m.sieveWorkers → ReqInv m (entriesOf w r.2)
      { loop := { st := allocateSpill m r.1, nOffsets := fun _ => 0, nextRemainder := fun _ => 0,
                  nextRemainderIdx := 8 },
        log := r.2 } w [] := by
    intro w hwlt
    refine ⟨[], (List.append_nil _).symm, rfl, (fun y hy => by cases hy), fun seg hseg => ?_⟩
    show (allocateSpill m r.1).offsetCount w seg = _
    rw [ha2 w hwlt seg hseg]
    rfl
  obtain ⟨x1, hx1, h1, h1l⟩ := modLoopReq_inv m stale (fun w => entriesOf w r.2)
    (verifyTarget + verifyRemainderPrimorial).natAbs (avxLimitOf m start_i) (avxWidthOf m)
    hst hT hL hdiv hw hW0 (avxLimitOf_le m start_i) (end_i - start_i) start_i
    { loop := { st := allocateSpill m r.1, nOffsets := fun _ => 0, nextRemainder := fun _ => 0,
                nextRemainderIdx := 8 },
      log := r.2 } (fun _ => [])
    (fun i hi1 hi2 => htab i hi1 (by omega)) hlane0 hinit hlog
  simp only [List.nil_append] at h1
  unfold updateRemaindersReq
  simp only
  rw [hx1]
  simp only
  by_cases hend : end_i > m.sparseLimit
  · rw [if_pos hend]
    obtain ⟨g1, gl, g2, _⟩ := flushAllReq_inv m (fun w => entriesOf w r.2)
      (fun w => rangePairs m (verifyTarget + verifyRemainderPrimorial).natAbs w start_i
        (end_i - start_i)) hdiv (List.range m.sieveWorkers) x1
      (fun j hj => List.mem_range.1 hj) h1 h1l
    refine ⟨_, rfl, gl, fun w hwlt => ?_, fun w hwlt => ?_⟩
    · exact (reqInv_final m _ _ w _ (g1 w hwlt)
        (buffered_nil_of_zero _ w (g2 w (Or.inl (List.mem_range.2 hwlt))))).1
    · exact (reqInv_final m _ _ w _ (g1 w hwlt)
        (buffered_nil_of_zero _ w (g2 w (Or.inl (List.mem_range.2 hwlt))))).2
  · rw [if_neg hend]
    have hnil : ∀ w, rangePairs m (verifyTarget + verifyRemainderPrimorial).natAbs w start_i
        (end_i - start_i) = [] := by
      intro w
      by_cases hse : start_i ≤ end_i
      · exact rangePairs_nil m _ w _ _ (by omega)
      · have : end_i - start_i = 0 := by omega
        rw [this]
        rfl
    have hb : ∀ w, w < m.sieveWorkers → buffered x1.loop w = [] := by
      intro w hwlt
      obtain ⟨F, _, hE, _⟩ := h1 w hwlt
      rw [hnil] at hE
      exact (List.append_eq_nil.1 hE.symm).2
    refine ⟨_, rfl, h1l, fun w hwlt => ?_, fun w hwlt => ?_⟩
    · exact (reqInv_final m _ _ w _ (h1 w hwlt) (hb w hwlt)).1
    · exact (reqInv_final m _ _ w _ (h1 w hwlt) (hb w hwlt)).2

theorem threadRun_inv (m : Miner) (stale : Nat → Nat → Bool)
    (verifyTarget verifyRemainderPrimorial : Int)
    (hst : ∀ a b, stale a b = false) (hT : m.TableInv)
    (hL : 1 ≤ m.primeTupleOffset.length) (hdiv : m.sieveSize ∣ m.maxIncrements)
    (hw : 1 ≤ m.sieveWorkers) :
    ∀ (jobs : List (Nat × Nat)) (r : ModState × List FlushReq),
      (∀ job ∈ jobs, ∀ i, job.1 ≤ i → i < job.2 → 0 < m.primes.getD i 0 ∧
        m.primes.getD i 0 < 2 ^ 64 ∧ m.inverts.getD i 0 < 2 ^ 64) →
      (r.1.allocated = true →
        ∀ w, w < m.sieveWorkers → ∀ seg, seg < m.maxIter → r.1.offsetCount w seg = 0) →
      (∀ q ∈ r.2, q.Exact m) →
      (∀ q ∈ (threadRun m stale verifyTarget verifyRemainderPrimorial jobs r).2, q.Exact m) ∧
      ∀ w, w < m.sieveWorkers →
        entriesOf w (threadRun m stale verifyTarget verifyRemainderPrimorial jobs r).2
          = entriesOf w r.2 ++
            jobsPairs m (verifyTarget + verifyRemainderPrimorial).natAbs w jobs := by
  intro jobs
  induction jobs with
  | nil =>
    intro r _ _ hlog
    refine ⟨hlog, fun w _ => ?_⟩
    show entriesOf w r.2 = entriesOf w r.2 ++ []
    rw [List.append_nil]
  | cons job rest ih =>
    intro r htab hzero hlog
    obtain ⟨r1, hr1, h1l, h1e, h1z⟩ := updateRemaindersReq_inv m stale verifyTarget
      verifyRemainderPrimorial job.1 job.2 r hst hT hL hdiv hw
      (htab job (List.mem_cons_self _ _)) hzero hlog
    obtain ⟨h2l, h2e⟩ := ih r1 (fun j hj => htab j (List.mem_cons_of_mem _ hj))
      (fun _ => h1z) h1l
    unfold threadRun
    rw [hr1]
    refine ⟨h2l, fun w hwlt => ?_⟩
    show entriesOf w (threadRun m stale verifyTarget verifyRemainderPrimorial rest r1).2 = _
    rw [h2e w hwlt, h1e w hwlt, List.append_assoc]
    rfl

theorem jobsPairs_append (m : Miner) (tar w : Nat) (l1 l2 : List (Nat × Nat)) :
    jobsPairs m tar w (l1 ++ l2) = jobsPairs m tar w l1 ++ jobsPairs m tar w l2 := by
  induction l1 with
  | nil => rfl
  | cons job rest ih =>
    show _ ++ jobsPairs m tar w (rest ++ l2) = (_ ++ jobsPairs m tar w rest) ++ _
    rw [ih, List.append_assoc]

theorem modScript_spec (m : Miner) (stale : Nat → Nat → Bool)
    (verifyTarget verifyRemainderPrimorial : Int) (jobs : Nat → List (Nat × Nat))
    (mem : ModMemory) (t : Nat)
    (hst : ∀ a b, stale a b = false) (hT : m.TableInv)
    (hL : 1 ≤ m.primeTupleOffset.length) (hdiv : m.sieveSize ∣ m.maxIncrements)
    (hw : 1 ≤ m.sieveWorkers)
    (htab : ∀ job ∈ jobs t, ∀ i, job.1 ≤ i → i < job.2 → 0 < m.primes.getD i 0 ∧
      m.primes.getD i 0 < 2 ^ 64 ∧ m.inverts.getD i 0 < 2 ^ 64)
    (hloc : (mem.locals t).allocated = true → ∀ w, w < m.sieveWorkers →
      ∀ seg, seg < m.maxIter → (mem.locals t).offsetCount w seg = 0) :
    (∀ q ∈ modScript m stale verifyTarget verifyRemainderPrimorial jobs mem t, q.Exact m) ∧
    ∀ w, w < m.sieveWorkers →
      entriesOf w (modScript m stale verifyTarget verifyRemainderPrimorial jobs mem t)
        = jobsPairs m (verifyTarget + verifyRemainderPrimorial).natAbs w (jobs t) := by
  obtain ⟨h1, h2⟩ := threadRun_inv m stale verifyTarget verifyRemainderPrimorial hst hT hL hdiv
    hw (jobs t) (mem.view t, []) htab hloc (fun q hq => by cases hq)
  refine ⟨h1, fun w hwlt => ?_⟩
  have := h2 w hwlt
  rw [show entriesOf w ((mem.view t, ([] : List FlushReq)).2) = [] from rfl,
    List.nil_append] at this
  exact this

theorem scriptEntries_jobs (m : Miner) (tar w : Nat) (script : Nat → List FlushReq)
    (jobs : Nat → List (Nat × Nat))
    (h : ∀ t, entriesOf w (script t) = jobsPairs m tar w (jobs t)) :
    ∀ T, scriptEntries w script T = jobsPairs m tar w (takenJobs jobs T) := by
  intro T
  induction T with
  | zero => rfl
  | succ T ih =>
    show scriptEntries w script T ++ entriesOf w (script T)
      = jobsPairs m tar w (takenJobs jobs T ++ jobs T)
    rw [ih, h T, jobsPairs_append]

theorem mem_takenJobs (jobs : Nat → List (Nat × Nat)) (t : Nat) :
    ∀ T, t < T → ∀ job ∈ jobs t, job ∈ takenJobs jobs T := by
  intro T
  induction T with
  | zero =>
    intro h
    omega
  | succ T ih =>
    intro h job hj
    show job ∈ takenJobs jobs T ++ jobs T
    by_cases he : t = T
    · subst he
      exact List.mem_append_right _ hj
    · exact List.mem_append_left _ (ih (by omega) job hj)

theorem interleaved_setup (m : Miner) (stale : Nat → Nat → Bool)
    (verifyTarget verifyRemainderPrimorial : Int) (a : Nat) (cut : List (Nat × Nat))
    (mem : ModMemory) (T : Nat) (jobs : Nat → List (Nat × Nat))
    (hT : m.TableInv) (hL : 1 ≤ m.primeTupleOffset.length)
    (hw : 1 ≤ m.sieveWorkers) (hdiv : m.sieveSize ∣ m.maxIncrements)
    (htab : ∀ i, a ≤ i → i < m.nPrimes → 0 < m.primes.getD i 0 ∧
      m.primes.getD i 0 < 2 ^ 64 ∧ m.inverts.getD i 0 < 2 ^ 64)
    (hst : ∀ i j, stale i j = false)
    (hcut : SliceChain a cut m.nPrimes) (ha : a ≤ m.sparseLimit)
    (hidle : ∀ t, T ≤ t → jobs t = []) (hjobs : (takenJobs jobs T).Perm cut)
    (hzero : ∀ w, w < m.sieveWorkers → ∀ seg, seg < m.maxIter →
      (mem.sieves w).segmentCounts seg = 0)
    (hloc : ∀ t, (mem.locals t).allocated = true → ∀ w, w < m.sieveWorkers →
      ∀ seg, seg < m.maxIter → (mem.locals t).offsetCount w seg = 0)
    (hfit : ∀ w, w < m.sieveWorkers → ∀ seg, seg < m.maxIter →
      (inSeg m seg (rangePairs m (verifyTarget + verifyRemainderPrimorial).natAbs w
        m.sparseLimit (m.nPrimes - m.sparseLimit))).length < m.entriesPerSegment) :
    (startSystem mem.sieves
      (modScript m stale verifyTarget verifyRemainderPrimorial jobs mem)).OK m T
        (modScript m stale verifyTarget verifyRemainderPrimorial jobs mem) ∧
    (∀ w seg, w < m.sieveWorkers → seg < m.maxIter →
      Finset.sum (Finset.range T) (fun t => (inSeg m seg (entriesOf w
        (modScript m stale verifyTarget verifyRemainderPrimorial jobs mem t))).length)
        < m.entriesPerSegment) ∧
    ∀ w, w < m.sieveWorkers →
      (scriptEntries w (modScript m stale verifyTarget verifyRemainderPrimorial jobs mem) T).Perm
      (rangePairs m (verifyTarget + verifyRemainderPrimorial).natAbs w
        m.sparseLimit (m.nPrimes - m.sparseLimit)) := by
  have hcovered : ∀ t, ∀ job ∈ jobs t, ∀ i, job.1 ≤ i → i < job.2 → a ≤ i ∧ i < m.nPrimes := by
    intro t job hj
    have htT : t < T := by
      by_contra hge
      rw [hidle t (by omega)] at hj
      cases hj
    have hmem : job ∈ cut := (hjobs.mem_iff).1 (mem_takenJobs jobs t T htT job hj)
    exact sliceChain_mem cut a m.nPrimes hcut job hmem
  have hspec := fun t => modScript_spec m stale verifyTarget verifyRemainderPrimorial jobs mem t
    hst hT hL hdiv hw
    (fun job hj i hi1 hi2 => htab i (hcovered t job hj i hi1 hi2).1 (hcovered t job hj i hi1 hi2).2)
    (hloc t)
  have hperm : ∀ w, w < m.sieveWorkers →
      (scriptEntries w (modScript m stale verifyTarget verifyRemainderPrimorial jobs mem) T).Perm
      (rangePairs m (verifyTarget + verifyRemainderPrimorial).natAbs w
        m.sparseLimit (m.nPrimes - m.sparseLimit)) := by
    intro w hwlt
    rw [scriptEntries_jobs m (verifyTarget + verifyRemainderPrimorial).natAbs w _ jobs
      (fun t => (hspec t).2 w hwlt) T]
    have h1 := jobsPairs_perm m (verifyTarget + verifyRemainderPrimorial).natAbs w hjobs
    rw [(sliceChain_pairs m (verifyTarget + verifyRemainderPrimorial).natAbs w cut a m.nPrimes
      hcut).2, rangePairs_from_sparse m _ w a ha] at h1
    exact h1
  refine ⟨?_, ?_, hperm⟩
  · exact startSystem_ok m T
      (modScript m stale verifyTarget verifyRemainderPrimorial jobs mem) mem.sieves
      (fun t => (hspec t).1)
      (fun t ht => by
        unfold modScript
        rw [hidle t ht]
        rfl)
      hzero
  · intro w seg hwlt hseg
    rw [sum_length_scriptEntries, (inSeg_perm m seg (hperm w hwlt)).length_eq]
    exact hfit w hwlt seg hseg

theorem interleaved_final (m : Miner) (T : Nat) (script : Nat → List FlushReq)
    (sys : FlushSystem) (L : Nat → List Nat) (h32 : m.sieveBits ≤ 32)
    (hok : sys.OK m T script)
    (hperm : ∀ w, w < m.sieveWorkers → (scriptEntries w script T).Perm (L w))
    (hdone : ∀ t, t < T → (sys.threads t).todo = []) :
    ∀ w, w < m.sieveWorkers → ∀ seg, seg < m.maxIter →
      (sys.sieves w).segmentCounts seg = (inSeg m seg (L w)).length ∧
      (hitsList (sys.sieves w) seg).Perm ((inSeg m seg (L w)).map (fun x => x % m.sieveSize)) := by
  intro w hwlt seg hseg
  obtain ⟨c1, c2⟩ := system_final m T _ sys hok hdone w seg hwlt hseg
  refine ⟨by rw [c1, (inSeg_perm m seg (hperm w hwlt)).length_eq], ?_⟩
  have hmask : m.hitOf = fun x => x % m.sieveSize := by
    funext x
    exact hit_mask m h32 x
  rw [hmask] at c2
  exact c2.trans ((inSeg_perm m seg (hperm w hwlt)).map _)

/-- C13 (once-only path accounting). The `TYPE_MOD` jobs of a block cut `[a, nPrimes)`
with `a ≤ sparseLimit` into consecutive slices (as the slicing of `_processOneBlock` does
with `a = startingPrimeIndex`); verify threads, each with its own thread-local spill
buffers, take them in any order, all calls of `_updateRemainders` working on the same
`segmentCounts` and `segmentHits`. Let all fill levels `segmentCounts[w][s]` be zero at the
start and the spill counts of every thread that has allocated its buffers be zero, let the
height not change, and let no bucket overflow (for every worker and segment the number of
pairs is below `entriesPerSegment`).

First part, the calls of `_updateRemainders` made one after the other (`runModJobs`): no
call aborts, and after the last one, for every worker `w` and segment `s`,
`segmentCounts[w][s]` is the number of (prime, family) pairs of the primes with index in
`[sparseLimit, nPrimes)` whose reduced index for `w` is below `maxIncrements` and has
`index >> sieveBits = s`, the bucket `segmentHits[w][s][0 .. segmentCounts[w][s])` holds
exactly those indices modulo `sieveSize` as a multiset, and the spill counts of every
thread are zero again; summed over workers and segments the fill levels give the total
number of such pairs.

Second part, `T` verify threads at the same time, thread `t` taking the jobs `jobs t`: the
atomic operations of their calls of `_putOffsetsInSegments` (the `fetch_add` on a fill
level, one store into a bucket) are interleaved in any order (`systemRun`). No operation
aborts; whenever all threads have completed their calls, fill levels, buckets and the sum
are as in the first part; and every interleaving can be continued to one after which all
threads have completed their calls.

Third part: the slicing of `_processOneBlock` is such a cut. The primes of the slices may
be any positive 64-bit values. The pattern is one of step offsets 2, 4, 6 with a span
below `2^31`, and `sieveBits ≤ 30`. -/
theorem C13_once_only_accounting (m : Miner) (stale : Nat → Nat → Bool)
    (verifyTarget verifyRemainderPrimorial : Int) (a : Nat) (cut : List (Nat × Nat))
    (sched : List (Nat × (Nat × Nat))) (mem : ModMemory)
    (hT : m.TableInv) (hP : m.PatternOK) (hspan : m.tupleSpan < 2 ^ 31)
    (h30 : m.sieveBits ≤ 30) (hw : 1 ≤ m.sieveWorkers) (hdiv : m.sieveSize ∣ m.maxIncrements)
    (htab : ∀ i, a ≤ i → i < m.nPrimes → 0 < m.primes.getD i 0 ∧
      m.primes.getD i 0 < 2 ^ 64 ∧ m.inverts.getD i 0 < 2 ^ 64)
    (hst : ∀ i j, stale i j = false)
    (hcut : SliceChain a cut m.nPrimes) (ha : a ≤ m.sparseLimit)
    (hsched : (sched.map Prod.snd).Perm cut)
    (hzero : ∀ w, w < m.sieveWorkers → ∀ seg, seg < m.maxIter →
      (mem.sieves w).segmentCounts seg = 0)
    (hloc : ∀ t, (mem.locals t).allocated = true → ∀ w, w < m.sieveWorkers →
      ∀ seg, seg < m.maxIter → (mem.locals t).offsetCount w seg = 0)
    (hfit : ∀ w, w < m.sieveWorkers → ∀ seg, seg < m.maxIter →
      (inSeg m seg (rangePairs m (verifyTarget + verifyRemainderPrimorial).natAbs w
        m.sparseLimit (m.nPrimes - m.sparseLimit))).length < m.entriesPerSegment) :
    (∃ mem1, runModJobs m stale verifyTarget verifyRemainderPrimorial sched mem = some mem1 ∧
      (∀ w, w < m.sieveWorkers → ∀ seg, seg < m.maxIter →
        (mem1.sieves w).segmentCounts seg =
          (inSeg m seg (rangePairs m (verifyTarget + verifyRemainderPrimorial).natAbs w
            m.sparseLimit (m.nPrimes - m.sparseLimit))).length ∧
        (hitsList (mem1.sieves w) seg).Perm
          ((inSeg m seg (rangePairs m (verifyTarget + verifyRemainderPrimorial).natAbs w
            m.sparseLimit (m.nPrimes - m.sparseLimit))).map (fun x => x % m.sieveSize)) ∧
        ∀ t, (mem1.locals t).allocated = true → (mem1.locals t).offsetCount w seg = 0) ∧
      Finset.sum (Finset.range m.sieveWorkers) (fun w =>
          Finset.sum (Finset.range m.maxIter) (fun seg => (mem1.sieves w).segmentCounts seg))
        = Finset.sum (Finset.range m.sieveWorkers) (fun w =>
          (rangePairs m (verifyTarget + verifyRemainderPrimorial).natAbs w
            m.sparseLimit (m.nPrimes - m.sparseLimit)).length)) ∧
    (∀ (T : Nat) (jobs : Nat → List (Nat × Nat)), (∀ t, T ≤ t → jobs t = []) →
      (takenJobs jobs T).Perm cut → ∀ order : List Nat,
      ∃ sys, systemRun m order
          (startSystem mem.sieves
            (modScript m stale verifyTarget verifyRemainderPrimorial jobs mem)) = some sys ∧
        ((∀ t, t < T → (sys.threads t).todo = []) →
          (∀ w, w < m.sieveWorkers → ∀ seg, seg < m.maxIter →
            (sys.sieves w).segmentCounts seg =
              (inSeg m seg (rangePairs m (verifyTarget + verifyRemainderPrimorial).natAbs w
                m.sparseLimit (m.nPrimes - m.sparseLimit))).length ∧
            (hitsList (sys.sieves w) seg).Perm
              ((inSeg m seg (rangePairs m (verifyTarget + verifyRemainderPrimorial).natAbs w
                m.sparseLimit (m.nPrimes - m.sparseLimit))).map (fun x => x % m.sieveSize))) ∧
          Finset.sum (Finset.range m.sieveWorkers) (fun w =>
              Finset.sum (Finset.range m.maxIter) (fun seg => (sys.sieves w).segmentCounts seg))
            = Finset.sum (Finset.range m.sieveWorkers) (fun w =>
              (rangePairs m (verifyTarget + verifyRemainderPrimorial).natAbs w
                m.sparseLimit (m.nPrimes - m.sparseLimit)).length)) ∧
        ∃ more sys1, systemRun m (order ++ more)
            (startSystem mem.sieves
              (modScript m stale verifyTarget verifyRemainderPrimorial jobs mem)) = some sys1 ∧
          ∀ t, t < T → (sys1.threads t).todo = []) ∧
    (1 ≤ m.threads → 8 * m.threads ≤ m.nPrimes → m.nPrimes ≤ 2 ^ 63 →
      m.startingPrimeIndex ≤ m.nPrimes →
      ∃ s, modJobs m = some s ∧ SliceChain m.startingPrimeIndex s.jobs m.nPrimes) := by
  have hsums : ∀ counts : Nat → Nat → Nat,
      (∀ w, w < m.sieveWorkers → ∀ seg, seg < m.maxIter → counts w seg =
        (inSeg m seg (rangePairs m (verifyTarget + verifyRemainderPrimorial).natAbs w
          m.sparseLimit (m.nPrimes - m.sparseLimit))).length) →
      Finset.sum (Finset.range m.sieveWorkers) (fun w =>
          Finset.sum (Finset.range m.maxIter) (fun seg => counts w seg))
        = Finset.sum (Finset.range m.sieveWorkers) (fun w =>
          (rangePairs m (verifyTarget + verifyRemainderPrimorial).natAbs w
            m.sparseLimit (m.nPrimes - m.sparseLimit)).length) := by
    intro counts hc
    refine Finset.sum_congr rfl (fun w hwm => ?_)
    have hwlt := Finset.mem_range.1 hwm
    rw [← sum_inSeg m m.maxIter _ (fun x hx =>
      segment_lt_maxIter m hdiv x (rangePairs_lt m _ w _ _ x hx))]
    exact Finset.sum_congr rfl (fun seg hsm => hc w hwlt seg (Finset.mem_range.1 hsm))
  refine ⟨?_, ?_, fun ht hn h63 hsn => modJobs_chain m ht hn h63 hsn⟩
  · have _ := hspan
    have hperm : ∀ w, (jobsPairs m (verifyTarget + verifyRemainderPrimorial).natAbs w
        (sched.map Prod.snd)).Perm
        (rangePairs m (verifyTarget + verifyRemainderPrimorial).natAbs w
          m.sparseLimit (m.nPrimes - m.sparseLimit)) := by
      intro w
      have h1 := jobsPairs_perm m (verifyTarget + verifyRemainderPrimorial).natAbs w hsched
      rw [(sliceChain_pairs m (verifyTarget + verifyRemainderPrimorial).natAbs w cut a m.nPrimes
        hcut).2, rangePairs_from_sparse m _ w a ha] at h1
      exact h1
    have hcovered : ∀ tj ∈ sched, ∀ i, tj.2.1 ≤ i → i < tj.2.2 → a ≤ i ∧ i < m.nPrimes := by
      intro tj htj
      have hmem : tj.2 ∈ cut := (hsched.mem_iff).1 (List.mem_map_of_mem Prod.snd htj)
      exact sliceChain_mem cut a m.nPrimes hcut tj.2 hmem
    obtain ⟨mem1, hrun, hloc1, hall⟩ := runModJobs_spill m stale verifyTarget
      verifyRemainderPrimorial hst hT hP.1 (by omega) hw sched mem
      (fun tj htj i hi1 hi2 => htab i (hcovered tj htj i hi1 hi2).1 (hcovered tj htj i hi1 hi2).2)
      hloc
      (fun w hwlt seg hseg => by
        rw [hzero w hwlt seg hseg, Nat.zero_add, (inSeg_perm m seg (hperm w)).length_eq]
        exact hfit w hwlt seg hseg)
    have hall1 : ∀ w, w < m.sieveWorkers → ∀ seg, seg < m.maxIter →
        (mem1.sieves w).segmentCounts seg =
          (inSeg m seg (rangePairs m (verifyTarget + verifyRemainderPrimorial).natAbs w
            m.sparseLimit (m.nPrimes - m.sparseLimit))).length ∧
        (hitsList (mem1.sieves w) seg).Perm
          ((inSeg m seg (rangePairs m (verifyTarget + verifyRemainderPrimorial).natAbs w
            m.sparseLimit (m.nPrimes - m.sparseLimit))).map (fun x => x % m.sieveSize)) ∧
        ∀ t, (mem1.locals t).allocated = true → (mem1.locals t).offsetCount w seg = 0 := by
      intro w hwlt seg hseg
      obtain ⟨c1, c2⟩ := hall w hwlt seg hseg
      refine ⟨?_, ?_, fun t ht => hloc1 t ht w hwlt seg hseg⟩
      · rw [c1, hzero w hwlt seg hseg, Nat.zero_add, (inSeg_perm m seg (hperm w)).length_eq]
      · have hnil : hitsList (mem.sieves w) seg = [] := by
          unfold hitsList
          rw [hzero w hwlt seg hseg]
          rfl
        rw [c2, hnil, List.nil_append]
        exact (inSeg_perm m seg (hperm w)).map _
    exact ⟨mem1, hrun, hall1,
      hsums (fun w seg => (mem1.sieves w).segmentCounts seg)
        (fun w hwlt seg hseg => (hall1 w hwlt seg hseg).1)⟩
  · intro T jobs hidle hjobs order
    obtain ⟨hstart, hfit1, hperm⟩ := interleaved_setup m stale verifyTarget
      verifyRemainderPrimorial a cut mem T jobs hT hP.1 hw hdiv htab hst hcut ha
      hidle hjobs hzero hloc hfit
    obtain ⟨sys, hrun, hok⟩ := systemRun_ok m T _ hfit1 order _ hstart
    refine ⟨sys, hrun, fun hdone => ?_, ?_⟩
    · have hfin := interleaved_final m T _ sys _ (by omega) hok hperm hdone
      exact ⟨hfin, hsums (fun w seg => (sys.sieves w).segmentCounts seg)
        (fun w hwlt seg hseg => (hfin w hwlt seg hseg).1)⟩
    · obtain ⟨more, sys1, hmore, _, hdone1⟩ := finish_all m T _ hfit1 T sys hok
      exact ⟨more, sys1, systemRun_append m order more _ sys sys1 hrun hmore, hdone1⟩

theorem sparseMiner_patternOK : sparseMiner.PatternOK := exampleMiner_patternOK

theorem C13_once_only_accounting_witness :
    ∃ s mem1, modJobs sparseMiner = some s ∧ s.jobs.length = 22 ∧
      runModJobs sparseMiner (fun _ _ => false) 10000 117
          (s.jobs.map (fun job => (job.1 % 2, job))).reverse zeroModMemory = some mem1 ∧
      (mem1.sieves 0).segmentCounts 0 =
        (inSeg sparseMiner 0 (rangePairs sparseMiner ((10000 : Int) + 117).natAbs 0 18
          (25 - 18))).length ∧
      (mem1.sieves 0).segmentCounts 0 = 33 ∧
      (hitsList (mem1.sieves 0) 0).Perm
        ((inSeg sparseMiner 0 (rangePairs sparseMiner ((10000 : Int) + 117).natAbs 0 18
          (25 - 18))).map (fun x => x % sparseMiner.sieveSize)) ∧
      ∃ more sys,
        systemRun sparseMiner ([0, 1, 1, 0, 1, 0, 0, 1] ++ more)
            (startSystem zeroModMemory.sieves
              (modScript sparseMiner (fun _ _ => false) 10000 117
                (fun t => if t = 0 then s.jobs.filter (fun job : Nat × Nat => decide (job.1 % 2 = 0))
                  else if t = 1 then s.jobs.filter (fun job : Nat × Nat => !decide (job.1 % 2 = 0))
                  else [])
                zeroModMemory)) = some sys ∧
          (∀ t, t < 2 → (sys.threads t).todo = []) ∧
          (sys.sieves 0).segmentCounts 0 = 33 ∧
          (hitsList (sys.sieves 0) 0).Perm
            ((inSeg sparseMiner 0 (rangePairs sparseMiner ((10000 : Int) + 117).natAbs 0 18
              (25 - 18))).map (fun x => x % sparseMiner.sieveSize)) := by
  have hlen : (primeTable 100).length = 25 := by decide
  have hpt : sparseMiner.primes = primeTable 100 := by simp only [sparseMiner, exampleMiner]
  have hit : sparseMiner.inverts
      = initInverts (primeTable 100) (initPrimorial (primeTable 100) 3) 3 2 := by
    simp only [sparseMiner, exampleMiner]
  have hn : sparseMiner.nPrimes = 25 := rfl
  obtain ⟨s, hs, hchain⟩ := modJobs_chain sparseMiner (by decide) (by decide)
    (by rw [hn]; norm_num) (by decide)
  have hs22 : s.jobs.length = 22 := by
    have h1 : modJobs sparseMiner = some
        { jobs := (List.range' 3 22).map (fun i => (i, i + 1)), nLowModWorkers := 15,
          nModWorkers := 7 } := rfl
    rw [h1] at hs
    rw [← Option.some.inj hs]
    rfl
  obtain ⟨⟨mem1, hrun, hall, _⟩, hinter, _⟩ := C13_once_only_accounting sparseMiner (fun _ _ => false)
    10000 117 sparseMiner.startingPrimeIndex s.jobs
    (s.jobs.map (fun job => (job.1 % 2, job))).reverse zeroModMemory
    sparseMiner_tableInv sparseMiner_patternOK (by decide) (by decide) (by decide) (by decide)
    (fun i hi1 hi2 => by
      have hi3 : 3 ≤ i := hi1
      rw [hn] at hi2
      refine ⟨?_, ?_, ?_⟩
      · have := sparseMiner_tableInv.2.1 _ (getD_mem_of_lt sparseMiner.primes i
          (by rw [hpt, hlen]; omega))
        omega
      · rw [hpt]
        exact Nat.lt_trans (primeTable_getD_lt_two_pow 100 i (by norm_num)) (by norm_num)
      · obtain ⟨x, _, hx⟩ := initInverts_getD 100 3 2 i (by decide) (by decide) (by omega)
          (by rw [hlen]; omega)
        rw [hit, hx]
        exact Nat.mod_lt _ (by norm_num))
    (fun _ _ => rfl) hchain (by decide)
    (by
      rw [List.map_reverse, List.map_map]
      have : (Prod.snd ∘ fun job : Nat × Nat => (job.1 % 2, job)) = id := rfl
      rw [this, List.map_id]
      exact List.reverse_perm _)
    (fun _ _ _ _ => rfl)
    (fun t ht => by cases ht)
    (fun w _ seg _ => by
      have h1 := inSeg_length_le sparseMiner seg
        (rangePairs sparseMiner ((10000 : Int) + 117).natAbs w sparseMiner.sparseLimit
          (sparseMiner.nPrimes - sparseMiner.sparseLimit))
      have h2 := rangePairs_length_le sparseMiner ((10000 : Int) + 117).natAbs w
        (sparseMiner.nPrimes - sparseMiner.sparseLimit) sparseMiner.sparseLimit
      have h3 : sparseMiner.primeTupleOffset.length
          * (sparseMiner.nPrimes - sparseMiner.sparseLimit) = 42 := by decide
      have h4 : sparseMiner.entriesPerSegment = 43 := rfl
      omega)
  obtain ⟨c1, c2, _⟩ := hall 0 (by decide) 0 (by decide)
  have h33 : (inSeg sparseMiner 0 (rangePairs sparseMiner ((10000 : Int) + 117).natAbs 0 18
      (25 - 18))).length = 33 := by decide
  have hidle : ∀ t, 2 ≤ t →
      (fun t => if t = 0 then s.jobs.filter (fun job : Nat × Nat => decide (job.1 % 2 = 0))
        else if t = 1 then s.jobs.filter (fun job : Nat × Nat => !decide (job.1 % 2 = 0))
        else []) t = [] := by
    intro t ht
    simp only
    rw [if_neg (by omega), if_neg (by omega)]
  have hsplit : (takenJobs
      (fun t => if t = 0 then s.jobs.filter (fun job : Nat × Nat => decide (job.1 % 2 = 0))
        else if t = 1 then s.jobs.filter (fun job : Nat × Nat => !decide (job.1 % 2 = 0))
        else []) 2).Perm s.jobs := by
    show (([] ++ s.jobs.filter (fun job : Nat × Nat => decide (job.1 % 2 = 0))) ++
      s.jobs.filter (fun job : Nat × Nat => !decide (job.1 % 2 = 0))).Perm s.jobs
    rw [List.nil_append]
    exact List.filter_append_perm _ _
  obtain ⟨_, _, _, more, sys, hrun1, hdone⟩ := hinter 2 _ hidle hsplit [0, 1, 1, 0, 1, 0, 0, 1]
  obtain ⟨sys1, hrun2, hfin, _⟩ := hinter 2 _ hidle hsplit ([0, 1, 1, 0, 1, 0, 0, 1] ++ more)
  have hsys : sys1 = sys := Option.some.inj (hrun2.symm.trans hrun1)
  subst hsys
  obtain ⟨d1, d2⟩ := (hfin hdone).1 0 (by decide) 0 (by decide)
  exact ⟨s, mem1, hs, hs22, hrun, c1, c1.trans h33, c2, more, sys1, hrun1, hdone,
    d1.trans h33, d2⟩

end RieMiner
